import Mathlib

/-!
# The DGD callout scheduler (`src/call_out.c`)

A shallow embedding of the callout table (binary heap plus cyclic buffer of
short-term lists over one array) and of the operations working on it.

Conventions of the embedding.

* `Uint` is a 32-bit unsigned word, `uindex` a 16-bit unsigned word; every
  arithmetic result is reduced with `u32` / `u16` where the C code stores it
  in a variable of that type.
* The array allocated by `co_init` has `cotabsz + 1` elements; `State.mem`
  is that allocation, `mem 0` is the heap sentinel and the C expression
  `cotab[i]` is `mem (i + 1)` (the code does `cotab++` after allocating).
  The heap code uses `l = cotab - 1`, so its `l[k]` is `mem k`.
* A loop is modelled by recursion on a fuel argument and an operation
  returns `Except Fault`; running out of fuel is reported as
  `Fault.diverge`. Each loop states how its fuel relates to the C loop.
* Where a proof needs a part of a C function by itself, the part is a
  definition of its own (`allocSlot`, `linkSlot`, `releaseSlot`,
  `unlinkHead`, `absorbStep`, `pushFree`, `migrateRoot`, `spliceBucket`) and
  a lemma states how the function is composed of it.
* The callout function that `co_call` runs is a parameter `invoke` of the
  model; the theorems on the order of invocation take `quietInvoke`, a
  callout function that does not call back into the scheduler, and
  `spawnInvoke`, one that adds zero-delay callouts.
-/

namespace Dgd

/-! ## Machine words -/

/-- Modelled from the spec: the typedef `uindex` lives in the absent header
`dgd.h`; the spec calls the `uindex` field `deadline_ms` "sixteen-bit", so
a `uindex` is a 16-bit unsigned word and this is its modulus. -/
def UINDEX_MOD : Nat := 65536

/-- Modulus of the 32-bit unsigned type `Uint`. -/
def UINT_MOD : Nat := 4294967296

/-- Cyclic buffer size, a power of two (`CYCBUF_SIZE`). -/
def CYCBUF_SIZE : Nat := 128

/-- Swap-rate buffer size (`SWPERIOD`). -/
def SWPERIOD : Nat := 60

/-- Store a value in a `uindex` (or `unsigned short`) variable. -/
def u16 (n : Nat) : Nat := n % UINDEX_MOD

/-- Store a value in a `Uint` variable. -/
def u32 (n : Nat) : Nat := n % UINT_MOD

/-- Decrement of a `uindex` variable. -/
def dec16 (n : Nat) : Nat := (n + (UINDEX_MOD - 1)) % UINDEX_MOD

/-- Difference `a - b` of two `Uint` values. -/
def sub32 (a b : Nat) : Nat := (a + (UINT_MOD - b % UINT_MOD)) % UINT_MOD

/-- Value of a 16-bit pattern read as a (signed) `short`. -/
def toShort (n : Nat) : Int :=
  if n % UINDEX_MOD < 32768 then ((n % UINDEX_MOD : Nat) : Int)
  else ((n % UINDEX_MOD : Nat) : Int) - 65536

/-- The bucket index `t & CYCBUF_MASK`. -/
def cycIndex (t : Nat) : Nat := t &&& (CYCBUF_SIZE - 1)

/-! ## Data model -/

/-- One element of the callout table (`call_out`). In the cyclic buffer and
on the free list the fields are reused: `prev = oindex`, `next = time`,
`count = mtime`. -/
structure call_out where
  /-- Callout handle; 0 marks an unused element. -/
  handle : Nat
  /-- Index in the object table (`prev` on the free list). -/
  oindex : Nat
  /-- When to call, in seconds (`next` on a list). -/
  time : Nat
  /-- When to call, milliseconds (`count` in a list head). -/
  mtime : Nat
deriving DecidableEq

/-- A list of callouts in the cyclic buffer (`cbuf`). -/
structure cbuf where
  /-- First element of the list, 0 when the list is empty. -/
  list : Nat
  /-- Last element of the list (meaningful when the list is not empty). -/
  last : Nat
deriving DecidableEq

/-- The `cbuf` objects a `cbuf *` argument can point to. -/
inductive CbufRef where
  | immediate : CbufRef
  | running : CbufRef
  | cyc (k : Nat) : CbufRef
deriving DecidableEq

/-- Ways in which an operation does not return normally. -/
inductive Fault where
  /-- The C code loops forever. -/
  | diverge : Fault
  /-- The call `error("Too many callouts")`. -/
  | tooMany : Fault
  /-- The call `error("Too long delay")`. -/
  | tooLong : Fault
  /-- The call `fatal("bad time (early seventies)")`. -/
  | badTime : Fault
  /-- The call `fatal("failed to remove callout")`. -/
  | missing : Fault
  /-- The call `error("Restored too many callouts")`. -/
  | restoreOverflow : Fault
  /-- A read or write outside the allocated table. -/
  | outOfBounds : Fault
deriving DecidableEq

/-- The static variables of `call_out.c`. -/
structure State where
  /-- The allocation behind `cotab`: `mem 0` is the sentinel, `cotab[i]` is `mem (i + 1)`. -/
  mem : Nat → call_out
  /-- Callout table size. -/
  cotabsz : Nat
  /-- Queue brk: number of heap entries. -/
  queuebrk : Nat
  /-- Cyclic buffer brk: lowest index used by the cyclic buffer. -/
  cycbrk : Nat
  /-- Free list index. -/
  flist : Nat
  /-- Number of immediate callouts. -/
  nzero : Nat
  /-- Number of short-term callouts, including `nzero`. -/
  nshort : Nat
  /-- Running callouts. -/
  running : cbuf
  /-- Immediate callouts. -/
  immediate : cbuf
  /-- Cyclic buffer of callout lists, indices `0 .. CYCBUF_SIZE - 1`. -/
  cycbuf : Nat → cbuf
  /-- Cyclic buffer start time. -/
  timestamp : Nat
  /-- Time of the first callout in the cyclic buffer. -/
  timeout : Nat
  /-- Alarm time in seconds. -/
  atimeout : Nat
  /-- Alarm time in milliseconds. -/
  amtime : Nat
  /-- Stored/actual time difference. -/
  timediff : Nat
  /-- Last swap count timestamp. -/
  swaptime : Nat
  /-- Swap info for the last minute. -/
  swapped1 : Nat → Nat
  /-- Swap info for the last five minutes. -/
  swapped5 : Nat → Nat
  /-- Swaprate per minute. -/
  swaprate1 : Nat
  /-- Swaprate per five minutes. -/
  swaprate5 : Nat
  /-- Record of the calls `P_timer(t, m)` made so far, most recent first. -/
  ptimer : List (Nat × Nat)

/-- Overwrite one element of the allocation. -/
def setMem (mem : Nat → call_out) (i : Nat) (v : call_out) : Nat → call_out :=
  fun j => if j = i then v else mem j

/-- The C expression `cotab[i]`. -/
def State.cotab (s : State) (i : Nat) : call_out := s.mem (i + 1)

/-- Assignment to the whole element `cotab[i]`. -/
def State.setCotab (s : State) (i : Nat) (v : call_out) : State :=
  { s with mem := setMem s.mem (i + 1) v }

/-- Assignment `cotab[i].next = v` (the `time` field). -/
def State.setNext (s : State) (i v : Nat) : State :=
  s.setCotab i { s.cotab i with time := v }

/-- Assignment `cotab[i].prev = v` (the `oindex` field). -/
def State.setPrev (s : State) (i v : Nat) : State :=
  s.setCotab i { s.cotab i with oindex := v }

/-- Assignment `cotab[i].count = v` (the `mtime` field). -/
def State.setCount (s : State) (i v : Nat) : State :=
  s.setCotab i { s.cotab i with mtime := v }

/-- Assignment `cotab[i].handle = v`. -/
def State.setHandle (s : State) (i v : Nat) : State :=
  s.setCotab i { s.cotab i with handle := v }

/-- Dereference of a `cbuf *`. -/
def State.getCbuf (s : State) : CbufRef → cbuf
  | .immediate => s.immediate
  | .running => s.running
  | .cyc k => s.cycbuf k

/-- Assignment through a `cbuf *`. -/
def State.setCbuf (s : State) (r : CbufRef) (c : cbuf) : State :=
  match r with
  | .immediate => { s with immediate := c }
  | .running => { s with running := c }
  | .cyc k => { s with cycbuf := fun j => if j = k then c else s.cycbuf j }

/-- Assignment `r->list = v`. -/
def State.setList (s : State) (r : CbufRef) (v : Nat) : State :=
  s.setCbuf r { s.getCbuf r with list := v }

/-- Assignment `r->last = v`. -/
def State.setLast (s : State) (r : CbufRef) (v : Nat) : State :=
  s.setCbuf r { s.getCbuf r with last := v }

/-! ## `restart` -/

/-- The loop `while (cycbuf[t & CYCBUF_MASK].list == 0) t++` of `restart`.
After `CYCBUF_SIZE` empty buckets every bucket is empty and the loop never
ends. -/
def nextBucket : Nat → (Nat → cbuf) → Nat → Except Fault Nat
  | 0, _, _ => .error .diverge
  | fuel + 1, cyc, t =>
    if (cyc (cycIndex t)).list = 0 then nextBucket fuel cyc (u32 (t + 1)) else .ok t

/-- Possibly restart the timeout (`restart`). -/
def restart (s : State) (t : Nat) : Except Fault State := do
  let s ←
    if t ≠ 0 then
      if s.nshort ≠ s.nzero then do
        -- look for next callout
        let t1 ← nextBucket CYCBUF_SIZE s.cycbuf t
        pure { s with timeout := t1 }
      else
        -- no callouts left
        pure { s with timeout := 0 }
    else pure s
  let t := s.timeout
  let m := 0
  let (t, m) :=
    if s.queuebrk ≠ 0 ∧
        (t = 0 ∨ (s.cotab 0).time < t ∨ ((s.cotab 0).time = t ∧ (s.cotab 0).mtime < m)) then
      ((s.cotab 0).time, u16 (s.cotab 0).mtime)
    else (t, m)
  if t ≠ s.atimeout ∨ m ≠ s.amtime then
    pure { s with atimeout := t, amtime := m, ptimer := (t, m) :: s.ptimer }
  else pure s

/-! ## The heap: `enqueue` and `dequeue` -/

/-- The sift-up loop shared by `enqueue` and `dequeue`:
`for (j = i >> 1; l[j].time > t || (l[j].time == t && l[j].mtime > m); i = j, j >>= 1) l[i] = l[j];`
with `m` already converted to `int` for the comparison. When the test
holds at `i = 0` the loop copies `l[0]` onto itself and repeats forever. -/
def siftUp : Nat → (Nat → call_out) → Nat → Nat → Int → Except Fault ((Nat → call_out) × Nat)
  | 0, _, _, _, _ => .error .diverge
  | fuel + 1, l, i, t, m =>
    let j := i / 2
    if (l j).time > t ∨ ((l j).time = t ∧ ((l j).mtime : Int) > m) then
      if i = 0 then .error .diverge
      else siftUp fuel (setMem l i (l j)) j t m
    else .ok (l, i)

/-- Put a callout in the queue (`enqueue`); returns the new state and the
index `k` such that the returned pointer is `&l[k]`, that is `mem k`. -/
def enqueue (s : State) (t m : Nat) : Except Fault (State × Nat) := do
  -- create a free spot in the heap, and sift it upward
  let q := u16 (s.queuebrk + 1)
  let s := { s with queuebrk := q }
  let (l, i) ← siftUp (q + 1) s.mem q t (m : Int)
  let l := setMem l i { l i with time := t, mtime := m }
  let s := { s with mem := l }
  if s.atimeout = 0 ∨ t < s.atimeout ∨ (t = s.atimeout ∧ m < s.amtime) then do
    let s ← restart s 0
    pure (s, i)
  else pure (s, i)

/-- The sift-down loop of `dequeue`:
`for (j = i << 1; j < queuebrk; i = j, j <<= 1) { ... }`. The index `j` is a
`uindex`, so the doubling is reduced modulo `UINDEX_MOD`. As long as the
doubling does not wrap around, `j` at least doubles in every iteration and
the loop ends within 16 iterations; the fuel given by `dequeue` covers
every such run. -/
def siftDown : Nat → (Nat → call_out) → Nat → Nat → Nat → Int → Except Fault ((Nat → call_out) × Nat)
  | 0, _, _, _, _, _ => .error .diverge
  | fuel + 1, l, q, i, t, m =>
    let j := u16 (i * 2)
    if j < q then
      let j :=
        if (l j).time > (l (j + 1)).time ∨
            ((l j).time = (l (j + 1)).time ∧ (l j).mtime > (l (j + 1)).mtime) then u16 (j + 1)
        else j
      if t < (l j).time ∨ (t = (l j).time ∧ m ≤ ((l j).mtime : Int)) then .ok (l, i)
      else siftDown fuel (setMem l i (l j)) q j t m
    else .ok (l, i)

/-- Remove a callout from the queue (`dequeue`); the argument is the index
relative to `cotab`. The local `m` is declared `short`. -/
def dequeue (s : State) (i0 : Nat) : Except Fault State := do
  let l := s.mem
  let i := u16 (i0 + 1)
  let t := (l s.queuebrk).time
  let m := toShort (l s.queuebrk).mtime
  let (l, i) ←
    if t < (l i).time then
      -- sift upward
      siftUp (i + 1) l i t m
    else
      -- sift downward
      siftDown UINDEX_MOD l s.queuebrk i t m
  -- put into place
  pure { s with mem := setMem l i (l s.queuebrk), queuebrk := dec16 s.queuebrk }

/-! ## The cyclic buffer: `newcallout` and `freecallout` -/

/-- The first statements of `newcallout`: take an element from the free list
or from below `cycbrk`, and count it. Returns the state and the index `i`
of the element. -/
def allocSlot (s : State) (t : Nat) : State × Nat :=
  let (s, i) :=
    if s.flist ≠ 0 then
      -- get callout from free list
      ({ s with flist := u16 (s.cotab s.flist).time }, s.flist)
    else
      -- allocate new callout
      ({ s with cycbrk := dec16 s.cycbrk }, dec16 s.cycbrk)
  let s := { s with nshort := u16 (s.nshort + 1) }
  let s := if t = 0 then { s with nzero := u16 (s.nzero + 1) } else s
  (s, i)

/-- Allocate a new callout for the cyclic buffer (`newcallout`); returns the
new state and the index `i` such that the returned pointer is `&cotab[i]`. -/
def newcallout (s : State) (list : CbufRef) (t : Nat) : Except Fault (State × Nat) := do
  let s1 := (allocSlot s t).1
  let i := (allocSlot s t).2
  let s2 ←
    (if (s1.getCbuf list).list = 0 then
      -- first one in list
      (if t ≠ 0 ∧ (s1.timeout = 0 ∨ t < s1.timeout) then
        restart ((s1.setList list i).setCount i 1) t
      else pure ((s1.setList list i).setCount i 1))
    else
      -- add to list
      pure ((s1.setCount (s1.getCbuf list).list
        (u16 ((s1.cotab (s1.getCbuf list).list).mtime + 1))).setNext (s1.getCbuf list).last i))
  pure ((s2.setLast list i).setNext i 0, i)

/-- The loop `while (++cycbrk != cotabsz && (++l)->handle == 0) { ... }` of
`freecallout`, entered after the increment of `cycbrk` has been applied by
the caller of each round: the argument state already holds the incremented
`cycbrk`, and `l` points to `cotab[cycbrk]`. The counter `cycbrk` is a
`uindex`, so it meets `cotabsz` within `UINDEX_MOD` increments. -/
def absorbFree : Nat → State → Except Fault State
  | 0, _ => .error .diverge
  | fuel + 1, s =>
    if s.cycbrk ≠ s.cotabsz ∧ (s.cotab s.cycbrk).handle = 0 then
      -- followed by free callout
      let l := s.cotab s.cycbrk
      let s :=
        if s.cycbrk = s.flist then
          -- first in the free list
          { s with flist := u16 l.time }
        else
          -- connect previous to next
          let s := s.setNext l.oindex l.time
          if l.time ≠ 0 then
            -- connect next to previous
            s.setPrev l.time l.oindex
          else s
      absorbFree fuel { s with cycbrk := u16 (s.cycbrk + 1) }
    else .ok s

/-- The last statements of `freecallout`: mark the element `i` as unused and
give it back, to the region below `cycbrk` when it lies at the edge, to the
free list otherwise. -/
def releaseSlot (s : State) (i : Nat) : Except Fault State :=
  let s := s.setHandle i 0 -- mark as unused
  if i = s.cycbrk then
    -- callout at the edge
    absorbFree UINDEX_MOD { s with cycbrk := u16 (s.cycbrk + 1) }
  else
    -- add to free list
    let s := if s.flist ≠ 0 then s.setPrev s.flist i else s
    let s := s.setNext i s.flist
    .ok { s with flist := i }

/-- Remove a callout from the cyclic buffer (`freecallout`): `i` is the
element, `j` its predecessor on the list (`j = i` for the first element). -/
def freecallout (s : State) (cyc : CbufRef) (j i t : Nat) : Except Fault State := do
  let s := { s with nshort := dec16 s.nshort }
  let s := if t = 0 then { s with nzero := dec16 s.nzero } else s
  let s ←
    (if i = j then
      (if ((s.setList cyc (u16 (s.cotab i).time)).getCbuf cyc).list ≠ 0 then
        pure ((s.setList cyc (u16 (s.cotab i).time)).setCount
          ((s.setList cyc (u16 (s.cotab i).time)).getCbuf cyc).list (dec16 (s.cotab i).mtime))
      else if t ≠ 0 ∧ t = s.timeout then restart (s.setList cyc (u16 (s.cotab i).time)) t
      else pure (s.setList cyc (u16 (s.cotab i).time)))
    else
      (let s1 :=
        if i = (s.getCbuf cyc).last then
          -- last element of the list
          (s.setLast cyc j).setNext j 0
        else
          -- connect previous to next
          s.setNext j (s.cotab i).time
       pure (s1.setCount (s1.getCbuf cyc).list (dec16 (s1.cotab (s1.getCbuf cyc).list).mtime))))
  releaseSlot s i

/-! ## Millisecond encoding -/

/-- Encode millisecond time (`encode`). -/
def encode (s : State) (time mtime : Nat) : Nat :=
  u32 (0x01000000 + ((sub32 time s.timediff &&& 0xff) <<< 16) + mtime)

/-- Decode millisecond time (`decode`); returns the second and `*mtime`. -/
def decode (s : State) (time : Nat) : Nat × Nat :=
  let mtime := time &&& 0xffff
  let time := u32 ((sub32 s.timestamp s.timediff &&& 0xffffff00) + ((time >>> 16) &&& 0xff)
    + s.timediff)
  let time := if time < s.timestamp then u32 (time + 0x100) else time
  (time, mtime)

/-! ## Admission: `co_time`, `co_check`, `co_new` -/

/-- Get the current (adjusted) time (`co_time`); `c` and `cms` are the second
and millisecond that `P_mtime` reports. Returns the state, the second and
`*mtime`. -/
def co_time (s : State) (c cms : Nat) : State × Nat × Nat :=
  if c < s.timestamp then
    -- clock turned back?
    (s, s.timestamp, 0)
  else if s.timestamp < c then
    if s.atimeout = 0 ∨ s.atimeout > c then
      ({ s with timestamp := c }, c, cms)
    else
      let s := if s.timestamp < sub32 s.atimeout 1 then { s with timestamp := sub32 s.atimeout 1 }
        else s
      if c > u32 (s.timestamp + 60) then
        -- lot of lag?
        (s, u32 (s.timestamp + 60), 0)
      else (s, c, cms)
  else (s, c, cms)

/-- What `co_check` hands back through `*qp`, `*tp`, `*mp` and its return
value. -/
structure Admission where
  /-- The list to use (`*qp`); `none` is the null pointer, meaning the queue. -/
  q : Option CbufRef
  /-- The return value: the deadline in the form stored by the caller. -/
  stored : Nat
  /-- The deadline second (`*tp`). -/
  t : Nat
  /-- The deadline millisecond (`*mp`). -/
  m : Nat
deriving DecidableEq

/-- Check if, and how, a new callout can be added (`co_check`). The clock
reading `(c, cms)` is what `P_mtime` would return; `delay` is the `Int`
argument. When callouts are disabled the C code leaves `*tp` and `*mp`
untouched; the model reports them as 0. -/
def co_check (s : State) (n : Nat) (delay : Int) (mdelay : Nat) (c cms : Nat) :
    Except Fault (State × Admission) :=
  if s.cotabsz = 0 then
    -- call_outs are disabled
    .ok (s, ⟨none, 0, 0, 0⟩)
  else if u32 (s.queuebrk + s.nshort + n) = s.cotabsz ∨ u32 (s.nshort + n) = s.cotabsz - 1 then
    .error .tooMany
  else if delay = 0 ∧ (mdelay = 0 ∨ mdelay = 0xffff) then
    -- immediate callout
    .ok (s, ⟨some .immediate, 0, 0, 0⟩)
  else
    -- delayed callout
    let (s, t, mp) := co_time s c cms
    let d := (delay % (UINT_MOD : Int)).toNat
    if u32 (t + d + 1) ≤ t then .error .tooLong
    else
      let t := u32 (t + d)
      let (t, m) :=
        if mdelay ≠ 0xffff then
          let m := u16 (mp + mdelay)
          if m ≥ 1000 then (u32 (t + 1), m - 1000) else (t, m)
        else (t, 0)
      let q : Option CbufRef :=
        if mdelay = 0xffff ∧ t < u32 (s.timestamp + CYCBUF_SIZE) then
          -- use cyclic buffer
          some (.cyc (cycIndex t))
        else
          -- use queue
          none
      let stored := if mdelay = 0xffff then sub32 t s.timediff else encode s t m
      .ok (s, ⟨q, stored, t, m⟩)

/-- Add a callout (`co_new`); `oindex` is `obj->index`. -/
def co_new (s : State) (handle oindex t m : Nat) (q : Option CbufRef) : Except Fault State := do
  let (s, k) ←
    match q with
    | some r => do
      let (s, i) ← newcallout s r t
      pure (s, i + 1)
    | none => enqueue s t (u16 m)
  pure { s with mem := setMem s.mem k { s.mem k with handle := u16 handle, oindex := u16 oindex } }

/-! ## Cancellation: `rmshort`, `co_del` -/

/-- The `do { ... } while ((k = l[j].next) != 0)` loop of `rmshort`. The
table is not modified while the list is walked and `k` is a `uindex`, so a
walk of `UINDEX_MOD` steps has entered a cycle and never ends. -/
def rmshortLoop : Nat → State → CbufRef → Nat → Nat → Nat → Nat → Nat → Except Fault (State × Bool)
  | 0, _, _, _, _, _, _, _ => .error .diverge
  | fuel + 1, s, cyc, j, k, i, handle, t =>
    if (s.cotab k).oindex = i ∧ (s.cotab k).handle = handle then do
      -- found it
      let s ← freecallout s cyc j k t
      pure (s, true)
    else
      let j := k
      let k := u16 (s.cotab j).time
      if k ≠ 0 then rmshortLoop fuel s cyc j k i handle t else .ok (s, false)

/-- Remove a short-term callout (`rmshort`); the arguments `i` and `handle`
are `uindex` parameters. -/
def rmshort (s : State) (cyc : CbufRef) (i handle t : Nat) : Except Fault (State × Bool) :=
  let i := u16 i
  let handle := u16 handle
  let k := (s.getCbuf cyc).list
  if k ≠ 0 then
    -- this time-slot is in use
    if (s.cotab k).oindex = i ∧ (s.cotab k).handle = handle then do
      -- first element in list
      let s ← freecallout s cyc k k t
      pure (s, true)
    else if k ≠ (s.getCbuf cyc).last then
      -- list contains more than 1 element
      rmshortLoop UINDEX_MOD s cyc k (u16 (s.cotab k).time) i handle t
    else .ok (s, false)
  else .ok (s, false)

/-- The search `for (;;) { ... l++; ... }` of `co_del` through the queue,
with `l = cotab + k`. With `dbg` the code is the one compiled under
`DEBUG`, which calls `fatal` when `l` reaches `cotab + queuebrk`. The
table ends at `cotab + cotabsz`: the fuel is the number of elements left,
and a search that leaves the table is reported as `outOfBounds`. -/
def queueSearch (dbg : Bool) : Nat → State → Nat → Nat → Nat → Except Fault State
  | 0, _, _, _, _ => .error .outOfBounds
  | fuel + 1, s, k, i, handle =>
    if (s.cotab k).oindex = i ∧ (s.cotab k).handle = handle then dequeue s k
    else if dbg = true ∧ k + 1 = s.queuebrk then .error .missing
    else queueSearch dbg fuel s (k + 1) i handle

/-- Remove a callout (`co_del`); `oindex` is `obj->index` and `t` the
stored deadline. -/
def co_del (dbg : Bool) (s : State) (oindex handle t : Nat) : Except Fault State := do
  let i := u16 oindex
  let inQueue (s : State) : Except Fault State :=
    -- Not found in the cyclic buffer; it must be in the queue.
    queueSearch dbg s.cotabsz s 0 i handle
  if t >>> 24 ≠ 1 then do
    let t := u32 (t + s.timediff)
    let (s, found) ←
      if t ≤ s.timestamp then do
        -- possible immediate callout
        let (s, b) ← rmshort s .immediate i handle 0
        if b then pure (s, true) else rmshort s .running i handle 0
      else pure (s, false)
    if found then pure s
    else if t < u32 (s.timestamp + CYCBUF_SIZE) then do
      -- try to find the callout in the cyclic buffer
      let (s, b) ← rmshort s (.cyc (cycIndex t)) i handle t
      if b then pure s else inQueue s
    else inQueue s
  else inQueue s

/-! ## Dispatch: `co_expire`, `co_call` -/

/-- One round of the loops "from queue" in `co_expire`: move the root of
the heap to the immediate list. -/
def migrateRoot (s : State) : Except Fault State := do
  let handle := (s.cotab 0).handle
  let oindex := (s.cotab 0).oindex
  let s ← dequeue s 0
  let (s, i) ← newcallout s .immediate 0
  pure (s.setCotab i { s.cotab i with handle := handle, oindex := oindex })

/-- The loop `while (queuebrk != 0 && cotab[0].time < timestamp)`; every round
removes one heap entry, and the fuel given by the caller is
`UINDEX_MOD`, which no value of `queuebrk` exceeds. -/
def drainBefore : Nat → State → Except Fault State
  | 0, _ => .error .diverge
  | fuel + 1, s =>
    if s.queuebrk ≠ 0 ∧ (s.cotab 0).time < s.timestamp then do
      let s ← migrateRoot s
      drainBefore fuel s
    else .ok s

/-- The loop `while (queuebrk != 0 && (cotab[0].time < t || (cotab[0].time == t
&& cotab[0].mtime <= m)))`, with the same fuel as `drainBefore`. -/
def drainUpTo : Nat → State → Nat → Nat → Except Fault State
  | 0, _, _, _ => .error .diverge
  | fuel + 1, s, t, m =>
    if s.queuebrk ≠ 0 ∧
        ((s.cotab 0).time < t ∨ ((s.cotab 0).time = t ∧ (s.cotab 0).mtime ≤ m)) then do
      let s ← migrateRoot s
      drainUpTo fuel s t m
    else .ok s

/-- The part "from cyclic buffer list" of `co_expire`: splice the bucket of
the current `timestamp` onto the immediate list. -/
def spliceBucket (s : State) : State :=
  let k := cycIndex s.timestamp
  let i := (s.cycbuf k).list
  if i ≠ 0 then
    let last := (s.cycbuf k).last
    let s := s.setList (.cyc k) 0
    let s := if s.immediate.list = 0 then s.setList .immediate i else s.setNext s.immediate.last i
    let s := s.setLast .immediate last
    let i := (s.cotab i).mtime
    let s := s.setCount s.immediate.list (u16 ((s.cotab s.immediate.list).mtime + i))
    { s with nzero := u16 (s.nzero + i) }
  else s

/-- The loop `while (timestamp < t)` of `co_expire`; the fuel given by the
caller is `t - timestamp`, the exact number of rounds. -/
def expireLoop : Nat → State → Nat → Except Fault State
  | 0, s, _ => .ok s
  | fuel + 1, s, t =>
    if s.timestamp < t then do
      let s := { s with timestamp := u32 (s.timestamp + 1) }
      -- from queue
      let s ← drainBefore UINDEX_MOD s
      -- from cyclic buffer list
      expireLoop fuel (spliceBucket s) t
    else .ok s

/-- The loop "handle swaprate" of `co_expire`, with fuel `t - swaptime`,
the exact number of rounds. -/
def swaprateLoop : Nat → State → Nat → State
  | 0, s, _ => s
  | fuel + 1, s, t =>
    if s.swaptime < t then
      let st := u32 (s.swaptime + 1)
      let s := { s with
        swaptime := st
        swaprate1 := sub32 s.swaprate1 (s.swapped1 (st % SWPERIOD))
        swapped1 := fun j => if j = st % SWPERIOD then 0 else s.swapped1 j }
      let s :=
        if st % 5 = 0 then
          { s with
            swaprate5 := sub32 s.swaprate5 (s.swapped5 (st % (5 * SWPERIOD) / 5))
            swapped5 := fun j => if j = st % (5 * SWPERIOD) / 5 then 0 else s.swapped5 j }
        else s
      swaprateLoop fuel s t
    else s

/-- Collect callouts to run next (`co_expire`). The arguments are what
`P_timeout(&t, &m)` delivers: whether the alarm timed out, and the time. -/
def co_expire (s : State) (fired : Bool) (t m : Nat) : Except Fault State := do
  let s ←
    if fired then do
      let s ← expireLoop (t - s.timestamp) s t
      -- from queue
      let s ← drainUpTo UINDEX_MOD s t m
      restart s t
    else pure s
  -- handle swaprate
  pure (swaprateLoop (t - s.swaptime) s t)

/-- The loop `while ((i=running.list) != 0)` of `co_call`. The function
`invoke oindex handle` stands for the effect on the scheduler of running the
callout function (it may call back into the scheduler); an error raised in
it is caught by `co_call`, so it delivers a state unless the process stops.
The result lists the `(oindex, handle)` pairs in the order of invocation.
A well-formed running list has at most `cotabsz` elements, so the fuel
`UINDEX_MOD` given by `co_call` covers it. -/
def callLoop (invoke : Nat → Nat → State → Except Fault State) :
    Nat → State → Except Fault (State × List (Nat × Nat))
  | 0, _ => .error .diverge
  | fuel + 1, s =>
    let i := s.running.list
    if i ≠ 0 then do
      let handle := (s.cotab i).handle
      let oindex := (s.cotab i).oindex
      let s ← freecallout s .running i i 0
      let s ← invoke oindex handle s
      let (s, tr) ← callLoop invoke fuel s
      pure (s, (oindex, handle) :: tr)
    else .ok (s, [])

/-- Call expired callouts (`co_call`). -/
def co_call (invoke : Nat → Nat → State → Except Fault State) (s : State) (fired : Bool)
    (t m : Nat) : Except Fault (State × List (Nat × Nat)) := do
  let s ← co_expire s fired t m
  let s := { s with running := s.immediate }
  let s := s.setList .immediate 0
  if s.running.list ≠ 0 then
    -- callouts to do
    callLoop invoke UINDEX_MOD s
  else pure (s, [])

/-! ## Initialisation and queries -/

/-- Initialize callout handling (`co_init`). The argument `mem0` is the
content of the freshly allocated table, `now` the value of `P_time()`. The
static variables start as zero. -/
def co_init (mem0 : Nat → call_out) (max now : Nat) : Except Fault State :=
  if max ≠ 0 ∧ now >>> 24 ≤ 1 then .error .badTime
  else
    .ok {
      mem := if max ≠ 0 then setMem mem0 0 { mem0 0 with time := 0 } else mem0
      cotabsz := u16 max
      queuebrk := 0
      cycbrk := u16 max
      flist := 0
      nzero := 0
      nshort := 0
      running := ⟨0, 0⟩
      immediate := ⟨0, 0⟩
      cycbuf := fun _ => ⟨0, 0⟩
      timestamp := 0
      timeout := 0
      atimeout := 0
      amtime := 0
      timediff := 0
      swaptime := now
      swapped1 := fun _ => 0
      swapped5 := fun _ => 0
      swaprate1 := 0
      swaprate5 := 0
      ptimer := [] }

/-- Give information about callouts (`co_info`): `(*n1, *n2)`. -/
def co_info (s : State) : Nat × Nat := (s.nshort, s.queuebrk)

/-- A table whose elements are all zero. -/
def zeroMem : Nat → call_out := fun _ => ⟨0, 0, 0, 0⟩

/-! ## Building blocks for concrete runs -/

/-- A state whose variables are all zero. -/
def zeroState : State :=
  { mem := zeroMem, cotabsz := 0, queuebrk := 0, cycbrk := 0, flist := 0, nzero := 0,
    nshort := 0, running := ⟨0, 0⟩, immediate := ⟨0, 0⟩, cycbuf := fun _ => ⟨0, 0⟩,
    timestamp := 0, timeout := 0, atimeout := 0, amtime := 0, timediff := 0, swaptime := 0,
    swapped1 := fun _ => 0, swapped5 := fun _ => 0, swaprate1 := 0, swaprate5 := 0,
    ptimer := [] }

/-- An admission as the callers of this module perform it: `co_check` with
batch size 0 followed, when it returns, by `co_new` with the routing and
deadline it delivered. -/
def checkNew (s : State) (handle oindex : Nat) (delay : Int) (mdelay c cms : Nat) :
    Except Fault (State × Admission) := do
  let (s, a) ← co_check s 0 delay mdelay c cms
  let s ← co_new s handle oindex a.t a.m a.q
  pure (s, a)

/-- An invoked callout function that does not call back into the scheduler. -/
def quietInvoke : Nat → Nat → State → Except Fault State := fun _ _ s => .ok s

/-! ## Specification vocabulary for the heap -/

/-- The order on deadlines: `(time, mtime)` compared lexicographically. -/
def keyLe (a b : call_out) : Prop :=
  a.time < b.time ∨ (a.time = b.time ∧ a.mtime ≤ b.mtime)

instance (a b : call_out) : Decidable (keyLe a b) := by
  unfold keyLe; infer_instance

/-- The heap property on the slots `l[1] .. l[n]`: every slot is at least its
parent `l[i / 2]`; the parent of slot 1 is the sentinel `l[0]`. -/
def HeapOrdered (l : Nat → call_out) (n : Nat) : Prop :=
  ∀ i, 1 ≤ i → i ≤ n → keyLe (l (i / 2)) (l i)

/-- The entries held by the slots `l[1] .. l[n]`, in slot order. -/
def heapEntries (l : Nat → call_out) (n : Nat) : List call_out :=
  (List.range n).map (fun k => l (k + 1))

/-- The test of the sift-up loop: the slot `c` is later than `(t, m)`. -/
def keyGt (c : call_out) (t : Nat) (m : Int) : Prop :=
  c.time > t ∨ (c.time = t ∧ (c.mtime : Int) > m)

/-- The deadline `(t, m)` is not later than the slot `c`. -/
def keyAtMost (t : Nat) (m : Int) (c : call_out) : Prop :=
  t < c.time ∨ (t = c.time ∧ m ≤ (c.mtime : Int))

/-- A table of capacity 8 at time 1000000000 whose queue holds one entry,
due at `(1000000300, 0)`. -/
def oneEntryState : State :=
  { zeroState with
    cotabsz := 8
    cycbrk := 8
    queuebrk := 1
    timestamp := 1000000000
    mem := setMem zeroMem 1 ⟨1, 1, 1000000300, 0⟩ }

/-! ## Specification vocabulary for the cyclic buffer -/

/-- Follow the `next` links from `h` until the null link 0, as the loops of
the C code do (`i = running.list`, `k = l[j].next` with `uindex` variables). -/
def walk : Nat → State → Nat → List Nat
  | 0, _, _ => []
  | fuel + 1, s, h => if h = 0 then [] else h :: walk fuel s (u16 (s.cotab h).time)

/-- The table indices on the list `r`, from its head. -/
def State.listOf (s : State) (r : CbufRef) : List Nat :=
  walk UINDEX_MOD s (s.getCbuf r).list

/-- The identity of the callout in `cotab[x]`: object index and handle. -/
def State.key (s : State) (x : Nat) : Nat × Nat :=
  ((s.cotab x).oindex, (s.cotab x).handle)

/-- The list starting at `h` visits exactly `xs` and ends with a null link. -/
def Chain (s : State) : Nat → List Nat → Prop
  | h, [] => h = 0
  | h, x :: xs => h = x ∧ x ≠ 0 ∧ Chain s (s.cotab x).time xs

/-- The `cbuf` objects that exist: the immediate list, the running list and
the `CYCBUF_SIZE` buckets. -/
def CbufRef.valid : CbufRef → Prop
  | .cyc k => k < CYCBUF_SIZE
  | _ => True

/-- The invariant of the cyclic-buffer region `cotab[cycbrk .. cotabsz - 1]`:
`fl` is the free list and `ls r` the list `r`, as sequences of table indices.
Every index of the region is on exactly one of them; free elements have
handle 0 and are doubly linked; a bucket head carries the length of its
list; `nzero` counts the immediate and running lists and `nshort` all
lists. -/
structure Wheel (s : State) (fl : List Nat) (ls : CbufRef → List Nat) : Prop where
  /-- Twice the table size fits a `uindex` (heap child indices do not wrap). -/
  cap : 2 * s.cotabsz < UINDEX_MOD
  /-- The region starts above index 0, the null link. -/
  brk_pos : 1 ≤ s.cycbrk
  /-- The region lies inside the table. -/
  brk_le : s.cycbrk ≤ s.cotabsz
  /-- The free list is linked through `next`. -/
  free_chain : Chain s s.flist fl
  /-- The free list is linked backwards through `prev`. -/
  free_prev : fl.Chain' (fun a b => (s.cotab b).oindex = a)
  /-- Free elements are marked by handle 0. -/
  free_handle : ∀ x ∈ fl, (s.cotab x).handle = 0
  /-- Free elements lie in the region. -/
  free_range : ∀ x ∈ fl, s.cycbrk ≤ x ∧ x < s.cotabsz
  /-- No element is twice on the free list. -/
  free_nodup : fl.Nodup
  /-- Every list is linked through `next` from its head. -/
  chain : ∀ r, r.valid → Chain s (s.getCbuf r).list (ls r)
  /-- The `last` field of a non-empty list is its last element. -/
  last : ∀ r, r.valid → ∀ x, (ls r).getLast? = some x → (s.getCbuf r).last = x
  /-- The head of a non-empty bucket carries the length of the bucket. -/
  count : ∀ k, k < CYCBUF_SIZE → ls (.cyc k) ≠ [] →
    (s.cotab (s.cycbuf k).list).mtime = (ls (.cyc k)).length
  /-- Listed elements have a handle other than 0. -/
  handle : ∀ r, r.valid → ∀ x ∈ ls r, (s.cotab x).handle ≠ 0
  /-- Listed elements lie in the region. -/
  range : ∀ r, r.valid → ∀ x ∈ ls r, s.cycbrk ≤ x ∧ x < s.cotabsz
  /-- No element is twice on a list. -/
  nodup : ∀ r, r.valid → (ls r).Nodup
  /-- No element is on two lists. -/
  disj : ∀ r r', r.valid → r'.valid → r ≠ r' → ∀ x ∈ ls r, x ∉ ls r'
  /-- Every element of the region is free or listed. -/
  cover : ∀ x, s.cycbrk ≤ x → x < s.cotabsz → x ∈ fl ∨ ∃ r, r.valid ∧ x ∈ ls r
  /-- The counter `nzero`. -/
  nzero : s.nzero = (ls .immediate).length + (ls .running).length
  /-- The counter `nshort`. -/
  nshort : s.nshort = s.nzero + ∑ k in Finset.range CYCBUF_SIZE, (ls (.cyc k)).length
  /-- The listed and the free elements fill the region. -/
  total : s.nshort + fl.length + s.cycbrk = s.cotabsz

/-- The invariant of the heap region `l[1 .. queuebrk]`. -/
structure HeapInv (s : State) : Prop where
  /-- The sentinel set by `co_init`. -/
  sentinel : (s.mem 0).time = 0
  /-- The heap property, P1 of the spec. -/
  ordered : HeapOrdered s.mem s.queuebrk
  /-- The millisecond fields hold milliseconds. -/
  msec : ∀ k, 1 ≤ k → k ≤ s.queuebrk → (s.mem k).mtime ≤ 999
  /-- Heap entries have a handle other than 0. -/
  live : ∀ k, 1 ≤ k → k ≤ s.queuebrk → (s.mem k).handle ≠ 0
  /-- The heap region ends below the cyclic-buffer region. -/
  brk : s.queuebrk ≤ s.cycbrk

/-- The scheduler invariants under which the dispatcher is verified: the
region invariants of the cyclic buffer and the heap, a free element (other
than index 0, the null link) for every callout that moves from the heap to
the immediate list, an empty bucket for the second `timestamp` itself (the
buckets hold the seconds after `timestamp`, up to `timestamp + 127`), and
an empty running list (no dispatch is under way). -/
structure SchedInv (s : State) : Prop where
  /-- The cyclic-buffer region. -/
  wheel : ∃ fl ls, Wheel s fl ls
  /-- The heap region. -/
  heap : HeapInv s
  /-- Room: with an empty free list the heap ends strictly below `cycbrk`. -/
  room : s.flist = 0 → s.queuebrk < s.cycbrk
  /-- The bucket of the current second is empty. -/
  window : (s.cycbuf (cycIndex s.timestamp)).list = 0
  /-- The variable `timestamp` holds a 32-bit word. -/
  stamp : s.timestamp < UINT_MOD
  /-- No dispatch is under way: the running list is empty. -/
  idle : s.running.list = 0

/-- The order on deadlines `(second, millisecond)`. -/
def dlLe (a b : Nat × Nat) : Prop := a.1 < b.1 ∨ (a.1 = b.1 ∧ a.2 ≤ b.2)

instance (a b : Nat × Nat) : Decidable (dlLe a b) := by
  unfold dlLe; infer_instance

/-- The callout `key = (object index, handle)` waits with deadline `d`: it
is a heap entry with that `(time, mtime)`, or it is on the bucket of a
second `sec` of the window after `timestamp` and `d = (sec, 0)`. -/
def Pending (s : State) (key : Nat × Nat) (d : Nat × Nat) : Prop :=
  (∃ k, 1 ≤ k ∧ k ≤ s.queuebrk ∧ ((s.mem k).oindex, (s.mem k).handle) = key ∧
    d = ((s.mem k).time, (s.mem k).mtime)) ∨
  (∃ sec x, s.timestamp < sec ∧ sec < s.timestamp + CYCBUF_SIZE ∧
    x ∈ s.listOf (.cyc (cycIndex sec)) ∧ s.key x = key ∧ d = (sec, 0))

/-- The states agree except for the alarm registers `timeout`, `atimeout`,
`amtime` and the record of `P_timer` calls. -/
def alarmEq (s s' : State) : Prop :=
  s' = { s with timeout := s'.timeout, atimeout := s'.atimeout, amtime := s'.amtime,
                ptimer := s'.ptimer }

/-- The statements of `newcallout` after the allocation, apart from the call
of `restart`: put the element `i` at the end of the list `r`. -/
def linkSlot (s : State) (r : CbufRef) (i : Nat) : State :=
  let s :=
    if (s.getCbuf r).list = 0 then (s.setList r i).setCount i 1
    else
      (s.setCount (s.getCbuf r).list
        (u16 ((s.cotab (s.getCbuf r).list).mtime + 1))).setNext (s.getCbuf r).last i
  (s.setLast r i).setNext i 0

/-! ## Specification vocabulary for the dispatcher -/

/-- The state of the loop `while (timestamp < t)` of `co_expire`, started in
`s0` with the lists `ls0`, when the seconds up to `ts` are done: `N` are the
elements appended to the immediate list so far and `ds` their deadlines. -/
structure Expiring (s0 : State) (ls0 : CbufRef → List Nat) (ts : Nat) (s : State)
    (ls : CbufRef → List Nat) (N : List Nat) (ds : List (Nat × Nat)) : Prop where
  /-- The loop has reached or passed the start. -/
  le : s0.timestamp ≤ ts
  /-- The immediate list has grown by `N`. -/
  imm : ls .immediate = ls0 .immediate ++ N
  /-- The running list is the same. -/
  run : ls .running = ls0 .running
  /-- Every appended element is a callout that waited in `s0`, with the
  deadline listed for it. -/
  pend : List.Forall₂ (fun x d => Pending s0 (s.key x) d) N ds
  /-- The appended elements are in the order of their deadlines. -/
  sorted : ds.Pairwise dlLe
  /-- The deadlines of the appended elements are seconds up to `ts`. -/
  bound : ∀ d ∈ ds, d.1 ≤ ts
  /-- The entries still in the heap are not earlier than an appended element. -/
  below : ∀ d ∈ ds, ∀ e ∈ heapEntries s.mem s.queuebrk, dlLe d (e.time, e.mtime)
  /-- The entries still in the heap were in the heap of `s0`. -/
  heap : ∀ e ∈ heapEntries s.mem s.queuebrk, e ∈ heapEntries s0.mem s0.queuebrk
  /-- The elements listed in `s0` keep object index and handle. -/
  keys : ∀ r, r.valid → ∀ x ∈ ls0 r, s.key x = s0.key x
  /-- A bucket is as in `s0`, or it is empty and its elements are among the
  appended ones, in their order. -/
  ahead : ∀ k, k < CYCBUF_SIZE →
    ls (.cyc k) = ls0 (.cyc k) ∨ (ls (.cyc k) = [] ∧ (ls0 (.cyc k)).Sublist N)
  /-- The buckets of the seconds after `ts` are as in `s0`. -/
  future : ∀ sec, ts < sec → sec < s0.timestamp + CYCBUF_SIZE →
    ls (.cyc (cycIndex sec)) = ls0 (.cyc (cycIndex sec))
  /-- The buckets of the seconds up to `ts` are empty. -/
  past : ∀ sec, s0.timestamp ≤ sec → sec ≤ ts → ls (.cyc (cycIndex sec)) = []

/-- The states agree except for the swap-rate registers. -/
def swapEq (s s' : State) : Prop :=
  s' = { s with swaptime := s'.swaptime, swapped1 := s'.swapped1, swapped5 := s'.swapped5,
                swaprate1 := s'.swaprate1, swaprate5 := s'.swaprate5 }

/-- The statements of `freecallout` before the element is given back, for the
first element `i` of the list `cyc` and `t = 0`: count the element off and
make its successor the head of the list. -/
def unlinkHead (s : State) (cyc : CbufRef) (i : Nat) : State :=
  let s := { s with nshort := dec16 s.nshort, nzero := dec16 s.nzero }
  if ((s.setList cyc (u16 (s.cotab i).time)).getCbuf cyc).list ≠ 0 then
    (s.setList cyc (u16 (s.cotab i).time)).setCount
      ((s.setList cyc (u16 (s.cotab i).time)).getCbuf cyc).list (dec16 (s.cotab i).mtime)
  else s.setList cyc (u16 (s.cotab i).time)

/-- One round of the loop of `absorbFree`: unlink the free element at
`cycbrk` from the free list and move `cycbrk` past it. -/
def absorbStep (s : State) : State :=
  let l := s.cotab s.cycbrk
  let s :=
    if s.cycbrk = s.flist then { s with flist := u16 l.time }
    else
      let s := s.setNext l.oindex l.time
      if l.time ≠ 0 then s.setPrev l.time l.oindex else s
  { s with cycbrk := u16 (s.cycbrk + 1) }

/-- The statements of `releaseSlot` that put the element `i` at the head of
the free list. -/
def pushFree (s : State) (i : Nat) : State :=
  let s := if s.flist ≠ 0 then s.setPrev s.flist i else s
  let s := s.setNext i s.flist
  { s with flist := i }

/-! ## An example state -/

/-- A table of capacity 8 at time 1000000000 with four waiting callouts: in
the bucket of second 1000000003 the callout (object 2, handle 2), in the
bucket of second 1000000005 the callouts (1, 1) and behind it (4, 4), and in
the queue the callout (3, 3), due at `(1000000005, 500)`. -/
def dueState : State :=
  { zeroState with
    cotabsz := 8
    cycbrk := 5
    queuebrk := 1
    nshort := 3
    timestamp := 1000000000
    timeout := 1000000003
    atimeout := 1000000003
    swaptime := 1000000000
    cycbuf := fun j => if j = 3 then ⟨6, 6⟩ else if j = 5 then ⟨7, 5⟩ else ⟨0, 0⟩
    mem := fun k =>
      if k = 1 then ⟨3, 3, 1000000005, 500⟩
      else if k = 6 then ⟨4, 4, 0, 0⟩
      else if k = 7 then ⟨2, 2, 0, 1⟩
      else if k = 8 then ⟨1, 1, 5, 2⟩
      else ⟨0, 0, 0, 0⟩ }

/-- The lists of `dueState`. -/
def dueLists : CbufRef → List Nat
  | .cyc k => if k = 3 then [6] else if k = 5 then [7, 5] else []
  | _ => []

/-! ## Dump and restore: `co_remaining`, `co_dump`, `co_restore` -/

/-- Value of a 32-bit pattern read as an `Int` of the C code. -/
def toInt32 (n : Nat) : Int :=
  if n % UINT_MOD < 2147483648 then ((n % UINT_MOD : Nat) : Int)
  else ((n % UINT_MOD : Nat) : Int) - 4294967296

/-- Return the time remaining before a callout expires (`co_remaining`);
`t` is the stored deadline and `(c, cms)` the clock reading, used for a
millisecond deadline only. -/
def co_remaining (s : State) (t c cms : Nat) : State × Int :=
  if t >>> 24 ≠ 1 then
    let t := u32 (t + s.timediff)
    (s, toInt32 (if t > s.timestamp then sub32 t s.timestamp else 0))
  else
    -- encoded millisecond
    let (d, m) := decode s t
    let (s, now, mtime) := co_time s c cms
    let t := sub32 d now
    (s, toInt32 (u32 (UINT_MOD * 1001 + mtime - (2 + t * 1000 + u16 m))))

/-- The header of the callout table in a dump file (`dump_header`). -/
structure dump_header where
  /-- Callout table size. -/
  cotabsz : Nat
  /-- Queue brk. -/
  queuebrk : Nat
  /-- Cyclic buffer brk. -/
  cycbrk : Nat
  /-- Free list index. -/
  flist : Nat
  /-- Number of short-term callouts. -/
  nshort : Nat
  /-- Number of long-term callouts and immediate callouts. -/
  nlong0 : Nat
  /-- Time the last alarm came. -/
  timestamp : Nat
  /-- Accumulated time difference. -/
  timediff : Nat
deriving DecidableEq

/-- A callout in a dump file (`dump_callout`). The C code writes `next` for
the field `time`. -/
structure dump_callout where
  /-- Callout handle. -/
  handle : Nat
  /-- Index in object table. -/
  oindex : Nat
  /-- When to call. -/
  time : Nat
deriving DecidableEq

/-- What `co_dump` writes and `co_restore` reads: the header, the array `dc`
of `queuebrk + cotabsz - cycbrk` callouts (the elements beyond are not part
of the file) and the `CYCBUF_SIZE` buckets. -/
structure Dump where
  /-- The header. -/
  dh : dump_header
  /-- The callouts: first the queue, then the cyclic-buffer region. -/
  dc : Nat → dump_callout
  /-- The cyclic buffer. -/
  buffer : Nat → cbuf

/-- Assignment `dc[i].next = v`. -/
def setDcNext (dc : Nat → dump_callout) (i v : Nat) : Nat → dump_callout :=
  fun j => if j = i then { dc j with time := v } else dc j

/-- The two loops "copy callouts" of `co_dump`: `dc[k]` for `k < queuebrk` is
made from `cotab[k]`, with a millisecond deadline encoded, and
`dc[queuebrk + j]` for `j < cotabsz - cycbrk` from `cotab[cycbrk + j]`. -/
def dumpCallouts (s : State) : Nat → dump_callout := fun k =>
  if k < s.queuebrk then
    ⟨(s.cotab k).handle, (s.cotab k).oindex,
      if (s.cotab k).mtime ≠ 0 then encode s (s.cotab k).time (s.cotab k).mtime
      else (s.cotab k).time⟩
  else if k - s.queuebrk < u16 (s.cotabsz + UINDEX_MOD - s.cycbrk) then
    ⟨(s.cotab (s.cycbrk + (k - s.queuebrk))).handle,
      (s.cotab (s.cycbrk + (k - s.queuebrk))).oindex,
      (s.cotab (s.cycbrk + (k - s.queuebrk))).time⟩
  else ⟨0, 0, 0⟩

/-- Dump the callout table (`co_dump`), for a clock reading `(c, cms)` and
writes that succeed: the state afterwards and the data written. The index
`last + n - cotabsz` is computed as an `int` in C and is not negative when
`last` lies in the cyclic-buffer region. -/
def co_dump (s : State) (c cms : Nat) : State × Dump :=
  -- update timestamp
  let s := (co_time s c cms).1
  -- fill in header
  let dh : dump_header :=
    ⟨s.cotabsz, s.queuebrk, s.cycbrk, s.flist, s.nshort, u16 (s.queuebrk + s.nzero),
      s.timestamp, s.timediff⟩
  -- copy callouts
  let n := u16 (s.queuebrk + s.cotabsz + UINDEX_MOD - s.cycbrk)
  let dc : Nat → dump_callout := if n ≠ 0 then dumpCallouts s else fun _ => ⟨0, 0, 0⟩
  -- deal with immediate callouts
  if s.nzero ≠ 0 then
    let (list, last, dc) :=
      if s.running.list ≠ 0 then
        if s.immediate.list ≠ 0 then
          (s.running.list, s.immediate.last,
            setDcNext dc (s.running.last + n - s.cotabsz) s.immediate.list)
        else (s.running.list, s.running.last, dc)
      else (s.immediate.list, s.immediate.last, dc)
    let k := cycIndex s.timestamp
    let dc := setDcNext dc (last + n - s.cotabsz) (s.cycbuf k).list
    let last := (s.cycbuf k).list
    let s1 := s.setList (.cyc k) list
    -- write header and callouts
    (s1.setList (.cyc k) last, ⟨dh, dc, s1.cycbuf⟩)
  else
    -- write header and callouts
    (s, ⟨dh, dc, s.cycbuf⟩)

/-- The first loop "copy callouts" of `co_restore`: the queue, `cotab[k]` for
`k < queuebrk` from `dc[k]`; `t` is the time since the dump. A whole-second
entry keeps the `mtime` that the table holds. -/
def restoreQueue (s : State) (dc : Nat → dump_callout) (t : Nat) : State :=
  { s with mem := fun j =>
      if 1 ≤ j ∧ j ≤ s.queuebrk then
        if (dc (j - 1)).time >>> 24 = 1 then
          ⟨(dc (j - 1)).handle, (dc (j - 1)).oindex, (decode s (dc (j - 1)).time).1,
            (decode s (dc (j - 1)).time).2⟩
        else
          ⟨(dc (j - 1)).handle, (dc (j - 1)).oindex, u32 ((dc (j - 1)).time + t),
            (s.mem j).mtime⟩
      else s.mem j }

/-- The second loop "copy callouts" of `co_restore`: the cyclic-buffer
region, `cotab[cycbrk + j]` for `j < cotabsz - cycbrk` from
`dc[queuebrk + j]`. -/
def restoreCyclic (s : State) (dc : Nat → dump_callout) : State :=
  { s with mem := fun j =>
      if 1 ≤ j ∧ s.cycbrk ≤ j - 1 ∧ j - 1 - s.cycbrk < u16 (s.cotabsz + UINDEX_MOD - s.cycbrk) then
        { s.mem j with
          handle := (dc (s.queuebrk + (j - 1 - s.cycbrk))).handle,
          oindex := (dc (s.queuebrk + (j - 1 - s.cycbrk))).oindex,
          time := (dc (s.queuebrk + (j - 1 - s.cycbrk))).time }
      else s.mem j }

/-- The statements "patch callout references" of `co_restore`. -/
def patchRefs (s : State) (offset : Nat) : State :=
  let s := if s.flist ≠ 0 then { s with flist := u16 (s.flist + offset) } else s
  let s := { s with cycbuf := (fun k =>
    if k < CYCBUF_SIZE ∧ (s.cycbuf k).list ≠ 0 then
      ⟨u16 ((s.cycbuf k).list + offset), u16 ((s.cycbuf k).last + offset)⟩
    else s.cycbuf k) }
  { s with mem := fun j =>
      if 1 ≤ j ∧ s.cycbrk ≤ j - 1 ∧ j - 1 - s.cycbrk < u16 (s.cotabsz + UINDEX_MOD - s.cycbrk) then
        { s.mem j with
          oindex := if (s.mem j).handle = 0 then u16 ((s.mem j).oindex + offset)
            else (s.mem j).oindex,
          time := if (s.mem j).time ≠ 0 then u32 ((s.mem j).time + offset) else (s.mem j).time }
      else s.mem j }

/-- The loop `for (i = nzero - 1, last = cb->list; i != 0; --i) last =
cotab[last].next;` of `co_restore`, for `i` rounds. -/
def nthNext (s : State) : Nat → Nat → Nat
  | 0, last => last
  | i + 1, last => nthNext s i (u16 (s.cotab last).time)

/-- The statements "fix up immediate callouts" of `co_restore`. -/
def fixImmediate (s : State) : State :=
  let k := cycIndex s.timestamp
  let s := s.setList .immediate (s.cycbuf k).list
  let last := nthNext s (s.nzero - 1) (s.cycbuf k).list
  let s := s.setLast .immediate last
  let s := s.setCount s.immediate.list s.nzero
  let s := s.setList (.cyc k) (u16 (s.cotab last).time)
  s.setNext last 0

/-- The loop `do { last = cotab[last].next; n++; } while (last != 0);` of
`co_restore`. On a list that runs in a circle it never ends. -/
def countLoop : Nat → State → Nat → Nat → Except Fault Nat
  | 0, _, _, _ => .error .diverge
  | fuel + 1, s, last, n =>
    if u16 (s.cotab last).time ≠ 0 then countLoop fuel s (u16 (s.cotab last).time) (u16 (n + 1))
    else .ok (u16 (n + 1))

/-- The loop "add counts" of `co_restore`, with `i` buckets to go. A list
without a circle has fewer than `UINDEX_MOD` elements, so this fuel covers
it. -/
def addCounts : Nat → State → Except Fault State
  | 0, s => .ok s
  | i + 1, s =>
    if (s.cycbuf (CYCBUF_SIZE - (i + 1))).list ≠ 0 then
      (countLoop UINDEX_MOD s (s.cycbuf (CYCBUF_SIZE - (i + 1))).list 0).bind
        (fun n => addCounts i (s.setCount (s.cycbuf (CYCBUF_SIZE - (i + 1))).list n))
    else addCounts i s

/-- Restore the callout table (`co_restore`) from the dump `d` at time
`t`. -/
def co_restore (s : State) (d : Dump) (t : Nat) : Except Fault State :=
  -- read and check header
  let s := { s with queuebrk := d.dh.queuebrk }
  let offset := u16 (s.cotabsz + UINDEX_MOD - d.dh.cotabsz)
  let s := { s with cycbrk := u16 (d.dh.cycbrk + offset) }
  if s.queuebrk > s.cycbrk + offset ∨ s.cycbrk = 0 then .error .restoreOverflow
  else
    -- read tables
    let n := u16 (s.queuebrk + s.cotabsz + UINDEX_MOD - s.cycbrk)
    let s := { s with flist := d.dh.flist, nshort := d.dh.nshort,
                      nzero := u16 (d.dh.nlong0 + UINDEX_MOD - d.dh.queuebrk), timestamp := t }
    let t := sub32 t d.dh.timestamp
    let s := { s with timediff := u32 (d.dh.timediff + t) }
    -- copy callouts
    let s := if n ≠ 0 then restoreCyclic (restoreQueue s d.dc t) d.dc else s
    -- cycle around cyclic buffer
    let t := cycIndex t
    let s := { s with cycbuf := (fun k =>
      if k < CYCBUF_SIZE then
        (if t ≤ k then d.buffer (k - t) else d.buffer (CYCBUF_SIZE - t + k))
      else s.cycbuf k) }
    -- patch callout references
    let s := if offset ≠ 0 then patchRefs s offset else s
    -- fix up immediate callouts
    let s := if s.nzero ≠ 0 then fixImmediate s else s
    -- add counts
    (addCounts CYCBUF_SIZE s).bind (fun s =>
      -- restart callouts
      (if s.nshort ≠ s.nzero then
        (nextBucket CYCBUF_SIZE s.cycbuf s.timestamp).bind (fun t1 =>
          .ok { s with timeout := t1 })
      else .ok s).bind (fun s => restart s s.timeout))

/-! ## Specification vocabulary for dump and restore -/

/-- The table and the buckets as `co_dump` writes them: the running list,
the immediate list and the bucket of `timestamp` are linked into one list,
which starts in that bucket. -/
def dumpImage (s : State) : State :=
  if s.nzero ≠ 0 then
    ((if s.running.list ≠ 0 ∧ s.immediate.list ≠ 0 then
        s.setNext s.running.last s.immediate.list
      else s).setNext
        (if s.running.list ≠ 0 ∧ s.immediate.list = 0 then s.running.last else s.immediate.last)
        (s.cycbuf (cycIndex s.timestamp)).list).setList (.cyc (cycIndex s.timestamp))
      (if s.running.list ≠ 0 then s.running.list else s.immediate.list)
  else s

/-- The statements of `co_restore` that set the variables from the header. -/
def restoreHeader (s : State) (d : Dump) (t : Nat) : State :=
  { s with
    queuebrk := d.dh.queuebrk
    cycbrk := u16 (d.dh.cycbrk + u16 (s.cotabsz + UINDEX_MOD - d.dh.cotabsz))
    flist := d.dh.flist
    nshort := d.dh.nshort
    nzero := u16 (d.dh.nlong0 + UINDEX_MOD - d.dh.queuebrk)
    timestamp := t
    timediff := u32 (d.dh.timediff + sub32 t d.dh.timestamp) }

/-- The statements of `co_restore` from "copy callouts" to "patch callout
references": the table and the rotated buckets. -/
def restoreTable (s : State) (d : Dump) (t : Nat) : State :=
  let h := restoreHeader s d t
  let s1 :=
    if u16 (h.queuebrk + h.cotabsz + UINDEX_MOD - h.cycbrk) ≠ 0 then
      restoreCyclic (restoreQueue h d.dc (sub32 t d.dh.timestamp)) d.dc
    else h
  let s2 := { s1 with cycbuf := (fun k =>
    if k < CYCBUF_SIZE then
      (if cycIndex (sub32 t d.dh.timestamp) ≤ k then d.buffer (k - cycIndex (sub32 t d.dh.timestamp))
       else d.buffer (CYCBUF_SIZE - cycIndex (sub32 t d.dh.timestamp) + k))
    else s1.cycbuf k) }
  if u16 (s.cotabsz + UINDEX_MOD - d.dh.cotabsz) ≠ 0 then
    patchRefs s2 (u16 (s.cotabsz + UINDEX_MOD - d.dh.cotabsz))
  else s2

/-- The statements of `co_restore` up to "fix up immediate callouts". -/
def restoreLists (s : State) (d : Dump) (t : Nat) : State :=
  if (restoreTable s d t).nzero ≠ 0 then fixImmediate (restoreTable s d t) else restoreTable s d t

/-- The numbers of a dump of a table of size `C` with the breaks `q ≤ b ≤ C`,
read into the table of `s`, of size `C + off`. -/
structure Fits (s : State) (d : Dump) (C q b off : Nat) : Prop where
  /-- The dumped table size. -/
  hC : d.dh.cotabsz = C
  /-- The dumped queue break. -/
  hq : d.dh.queuebrk = q
  /-- The dumped break of the cyclic buffer. -/
  hb : d.dh.cycbrk = b
  /-- The size of the new table. -/
  hsz : s.cotabsz = C + off
  /-- The queue ends below the cyclic buffer. -/
  hqb : q ≤ b
  /-- The region starts above index 0. -/
  hb1 : 1 ≤ b
  /-- The region lies in the table. -/
  hbC : b ≤ C
  /-- The new size fits a `uindex`. -/
  hcap : C + off < UINDEX_MOD

/-- The data that `co_dump` writes when `timestamp` is up to date: the
statements of `co_dump` after the call of `co_time`. -/
def dumpData (s : State) : Dump :=
  ⟨⟨s.cotabsz, s.queuebrk, s.cycbrk, s.flist, s.nshort, u16 (s.queuebrk + s.nzero),
      s.timestamp, s.timediff⟩,
    if s.nzero ≠ 0 then
      setDcNext
        (if s.running.list ≠ 0 ∧ s.immediate.list ≠ 0 then
          setDcNext
            (if u16 (s.queuebrk + s.cotabsz + UINDEX_MOD - s.cycbrk) ≠ 0 then dumpCallouts s
              else fun _ => ⟨0, 0, 0⟩)
            (s.running.last + u16 (s.queuebrk + s.cotabsz + UINDEX_MOD - s.cycbrk) - s.cotabsz)
            s.immediate.list
        else
          (if u16 (s.queuebrk + s.cotabsz + UINDEX_MOD - s.cycbrk) ≠ 0 then dumpCallouts s
            else fun _ => ⟨0, 0, 0⟩))
        ((if s.running.list ≠ 0 ∧ s.immediate.list = 0 then s.running.last
            else s.immediate.last) +
          u16 (s.queuebrk + s.cotabsz + UINDEX_MOD - s.cycbrk) - s.cotabsz)
        (s.cycbuf (cycIndex s.timestamp)).list
    else
      (if u16 (s.queuebrk + s.cotabsz + UINDEX_MOD - s.cycbrk) ≠ 0 then dumpCallouts s
        else fun _ => ⟨0, 0, 0⟩),
    (dumpImage s).cycbuf⟩

/-- The states agree except for the `mtime` (`count`) fields of the table. -/
def countEq (s s' : State) : Prop :=
  s' = { s with mem := s'.mem } ∧
    ∀ j, s'.mem j = { s.mem j with mtime := (s'.mem j).mtime }

/-- The state `U` in which `freecallout` has done its list operations for
the element `i` of the list `r`, which is `pre ++ i :: post`, and has not
yet released the element: the list `r` is `pre ++ post`, the counter
`nshort` is one less and `nzero` is `z` less, the links of the elements
other than the one before `i` are as in `s`, and so are the counts of the
elements that are not on the list `r`. -/
structure Unlinked (s : State) (r : CbufRef) (pre : List Nat) (i : Nat) (post : List Nat)
    (z : Nat) (U : State) : Prop where
  /-- The free list is not touched. -/
  flist : U.flist = s.flist
  /-- The edge of the region is not touched. -/
  cycbrk : U.cycbrk = s.cycbrk
  /-- The size of the table is not touched. -/
  cotabsz : U.cotabsz = s.cotabsz
  /-- The counter `nshort` is decremented. -/
  nshort : U.nshort = s.nshort - 1
  /-- The counter `nzero` is decremented by `z`. -/
  nzero : U.nzero = s.nzero - z
  /-- The heap is not touched. -/
  queuebrk : U.queuebrk = s.queuebrk
  /-- The current second is not touched. -/
  timestamp : U.timestamp = s.timestamp
  /-- The sentinel of the heap is not touched. -/
  sentinel : U.mem 0 = s.mem 0
  /-- No handle is written. -/
  handle : ∀ x, (U.cotab x).handle = (s.cotab x).handle
  /-- No object index is written. -/
  oindex : ∀ x, (U.cotab x).oindex = (s.cotab x).oindex
  /-- Links are written in elements before `i` only. -/
  time : ∀ x, x ∉ pre → (U.cotab x).time = (s.cotab x).time
  /-- Counts are written in elements that stay on the list only. -/
  mtime : ∀ x, x ∉ pre ++ post → (U.cotab x).mtime = (s.cotab x).mtime
  /-- The other lists are not touched. -/
  other : ∀ r', r' ≠ r → U.getCbuf r' = s.getCbuf r'
  /-- The list `r` is linked without `i`. -/
  chain : Chain U (U.getCbuf r).list (pre ++ post)
  /-- The `last` field of the list `r`. -/
  last : ∀ x, (pre ++ post).getLast? = some x → (U.getCbuf r).last = x
  /-- The count in the head of a bucket. -/
  count : ∀ k, r = .cyc k → pre ++ post ≠ [] →
    (U.cotab (U.getCbuf r).list).mtime = (pre ++ post).length

/-- The first statements of `freecallout`: `--nshort; if (t == 0) --nzero;`. -/
def countDown (s : State) (t : Nat) : State :=
  let s := { s with nshort := dec16 s.nshort }
  if t = 0 then { s with nzero := dec16 s.nzero } else s

/-- The list operations of `freecallout`, between the counters and the
release of the element: `i` is the element, `j` the one before it on the
list `cyc` (`j = i` for the first element). -/
def unlinkAt (s : State) (cyc : CbufRef) (j i t : Nat) : Except Fault State :=
  if i = j then
    (if ((s.setList cyc (u16 (s.cotab i).time)).getCbuf cyc).list ≠ 0 then
      pure ((s.setList cyc (u16 (s.cotab i).time)).setCount
        ((s.setList cyc (u16 (s.cotab i).time)).getCbuf cyc).list (dec16 (s.cotab i).mtime))
    else if t ≠ 0 ∧ t = s.timeout then restart (s.setList cyc (u16 (s.cotab i).time)) t
    else pure (s.setList cyc (u16 (s.cotab i).time)))
  else
    (let s1 :=
      if i = (s.getCbuf cyc).last then
        -- last element of the list
        (s.setLast cyc j).setNext j 0
      else
        -- connect previous to next
        s.setNext j (s.cotab i).time
     pure (s1.setCount (s1.getCbuf cyc).list (dec16 (s1.cotab (s1.getCbuf cyc).list).mtime)))

/-! ## Queries and swap statistics: `co_delay`, `co_swapcount`, `co_swaprate1`, `co_swaprate5` -/

/-- Return the time until the next timeout (`co_delay`); `(c, cms)` is the
reading of `P_mtime`, which is taken only when no immediate callout waits
and the alarm is armed. Returns the state (`co_time` may move `timestamp`),
the return value and `*mtime`. The local `m` is an `unsigned short`, so
`m -= 1000` and `amtime - m` are reduced modulo `UINDEX_MOD`. -/
def co_delay (s : State) (c cms : Nat) : State × Nat × Nat :=
  if s.nzero ≠ 0 then
    -- immediate
    (s, 0, 0)
  else if s.atimeout = 0 then
    -- infinite
    (s, 0, 0xffff)
  else
    let (s, t, m) := co_time s c cms
    if t > s.atimeout ∨ (t = s.atimeout ∧ m ≥ s.amtime) then
      -- immediate
      (s, 0, 0)
    else
      let (t, m) :=
        if m > s.amtime then (u32 (t + 1), u16 (m + (UINDEX_MOD - 1000))) else (t, m)
      (s, sub32 s.atimeout t, u16 (s.amtime + (UINDEX_MOD - m % UINDEX_MOD)))

/-- Keep track of the number of objects swapped out (`co_swapcount`). -/
def co_swapcount (s : State) (count : Nat) : State :=
  { s with
    swaprate1 := u32 (s.swaprate1 + count)
    swaprate5 := u32 (s.swaprate5 + count)
    swapped1 := fun j =>
      if j = s.swaptime % SWPERIOD then u32 (s.swapped1 j + count) else s.swapped1 j
    swapped5 := fun j =>
      if j = s.swaptime % (SWPERIOD * 5) / 5 then u32 (s.swapped5 j + count)
      else s.swapped5 j }

/-- Return the number of objects swapped out per minute (`co_swaprate1`). -/
def co_swaprate1 (s : State) : Nat := s.swaprate1

/-- Return the number of objects swapped out per 5 minutes (`co_swaprate5`). -/
def co_swaprate5 (s : State) : Nat := s.swaprate5

/-! ## Specification vocabulary for the swap rates -/

/-- The swap-rate registers of a state: `swaptime`, the two rings and the
two running totals. -/
def State.swapRegs (s : State) : Nat × (Nat → Nat) × (Nat → Nat) × Nat × Nat :=
  (s.swaptime, s.swapped1, s.swapped5, s.swaprate1, s.swaprate5)

/-- The running totals are the sums of the rings, as 32-bit words. -/
def SwapInv (s : State) : Prop :=
  s.swaprate1 = u32 (∑ j in Finset.range SWPERIOD, s.swapped1 j) ∧
  s.swaprate5 = u32 (∑ j in Finset.range SWPERIOD, s.swapped5 j)

/-- The states reached from `co_init` by calls of `co_swapcount` and calls of
`co_expire` that return, with any steps in between that leave the swap-rate
registers as they are. -/
inductive SwapRun : State → Prop
  | init (mem0 : Nat → call_out) (max now : Nat) (s : State) :
      co_init mem0 max now = .ok s → SwapRun s
  | swapcount (s : State) (count : Nat) : SwapRun s → SwapRun (co_swapcount s count)
  | expire (s : State) (fired : Bool) (t m : Nat) (s' : State) :
      SwapRun s → co_expire s fired t m = .ok s' → SwapRun s'
  | other (s s' : State) : SwapRun s → s'.swapRegs = s.swapRegs → SwapRun s'

/-- One round of the loop "handle swaprate". -/
def swaprateStep (s : State) : State :=
  let st := u32 (s.swaptime + 1)
  let s := { s with
    swaptime := st
    swaprate1 := sub32 s.swaprate1 (s.swapped1 (st % SWPERIOD))
    swapped1 := fun j => if j = st % SWPERIOD then 0 else s.swapped1 j }
  if st % 5 = 0 then
    { s with
      swaprate5 := sub32 s.swaprate5 (s.swapped5 (st % (5 * SWPERIOD) / 5))
      swapped5 := fun j => if j = st % (5 * SWPERIOD) / 5 then 0 else s.swapped5 j }
  else s



/-! ## Specification vocabulary for cancelling -/

/-- What the caller of `co_new` keeps of a callout, to hand to `co_del`: the
object index, the handle and the stored deadline. -/
structure Ticket where
  /-- The index of the object. -/
  oindex : Nat
  /-- The handle of the callout. -/
  handle : Nat
  /-- The return value of `co_check`. -/
  stored : Nat
deriving DecidableEq

/-- The (object index, handle) pair of a ticket. -/
def Ticket.key (p : Ticket) : Nat × Nat := (p.oindex, p.handle)

/-- The registers that `co_del` compares a stored deadline with. -/
def State.clockRegs (s : State) : Nat × Nat := (s.timestamp, s.timediff)

/-- The callout of the ticket `p` is where `co_del` looks for it: on the
immediate list, for a stored deadline that is not later than `timestamp`; on
the bucket of its second, for a stored deadline in the window of the cyclic
buffer; or in the heap. The first two need a top byte other than 1, and the
second of a deadline that is not a millisecond encoding is not 0. -/
def Located (s : State) (ls : CbufRef → List Nat) (p : Ticket) : Prop :=
  (p.stored >>> 24 ≠ 1 ∧ u32 (p.stored + s.timediff) ≤ s.timestamp ∧
    ∃ x ∈ ls .immediate, s.key x = p.key) ∨
  (p.stored >>> 24 ≠ 1 ∧ u32 (p.stored + s.timediff) ≠ 0 ∧
    u32 (p.stored + s.timediff) < u32 (s.timestamp + CYCBUF_SIZE) ∧
    ∃ x ∈ ls (.cyc (cycIndex (u32 (p.stored + s.timediff)))), s.key x = p.key) ∨
  ((p.stored >>> 24 = 1 ∨ u32 (p.stored + s.timediff) ≠ 0) ∧
    ∃ e ∈ heapEntries s.mem s.queuebrk, (e.oindex, e.handle) = p.key)

/-- The state `s`, with free list `fl` and lists `ls`, holds the callouts of
the tickets `P` and no others: every ticket is located, the tickets are of
different callouts, and their number is the number of callouts in the
table. The heap need not be ordered. -/
structure Tracked (s : State) (fl : List Nat) (ls : CbufRef → List Nat) (P : List Ticket) :
    Prop where
  /-- The cyclic-buffer region. -/
  wheel : Wheel s fl ls
  /-- No dispatch is under way. -/
  idle : ls .running = []
  /-- The sentinel set by `co_init`. -/
  sentinel : (s.mem 0).time = 0
  /-- The heap region ends below the cyclic-buffer region. -/
  brk : s.queuebrk ≤ s.cycbrk
  /-- No heap entry is due at second 0. -/
  live : ∀ e ∈ heapEntries s.mem s.queuebrk, e.time ≠ 0
  /-- Object index and handle are `uindex` values. -/
  fits : ∀ p ∈ P, p.oindex < UINDEX_MOD ∧ p.handle < UINDEX_MOD
  /-- Every ticket is located. -/
  located : ∀ p ∈ P, Located s ls p
  /-- The tickets are of different callouts. -/
  distinct : (P.map Ticket.key).Nodup
  /-- There are as many tickets as callouts. -/
  count : P.length = s.nshort + s.queuebrk

/-- Cancel the callouts of the tickets, one `co_del` after the other. -/
def cancelAll (dbg : Bool) : State → List Ticket → Except Fault State
  | s, [] => .ok s
  | s, p :: ps => (co_del dbg s p.oindex p.handle p.stored).bind (fun s' => cancelAll dbg s' ps)

/-- The states reached from `co_init(max)`, `0 < max < 32768`, by admissions
(`co_check` with batch size 0, then `co_new`) that return, with the tickets
of the admitted callouts. Every admission is for a callout (object index,
handle) that is not pending, with a handle other than 0, at a clock reading
`1 <= c < 2^32 - 128`, and a stored deadline routed to a bucket has a top
byte other than 1. -/
inductive Enqueued : State → List Ticket → Prop
  | init (mem0 : Nat → call_out) (max now : Nat) (s : State) :
      co_init mem0 max now = .ok s → max ≠ 0 → 2 * max < UINDEX_MOD → Enqueued s []
  | add (s : State) (P : List Ticket) (handle oindex : Nat) (delay : Int)
      (mdelay c cms : Nat) (s' : State) (a : Admission) :
      Enqueued s P → checkNew s handle oindex delay mdelay c cms = .ok (s', a) →
      handle ≠ 0 → handle < UINDEX_MOD → oindex < UINDEX_MOD →
      (∀ p ∈ P, p.key ≠ (oindex, handle)) →
      1 ≤ c → c + CYCBUF_SIZE < UINT_MOD →
      (∀ k, a.q = some (.cyc k) → a.stored >>> 24 ≠ 1) →
      Enqueued s' (⟨oindex, handle, a.stored⟩ :: P)

/-- The pair `(t, m)` that the second half of `restart` computes from
`timeout` and the root of the heap and compares with `(atimeout, amtime)`. -/
def restartPair (s : State) : Nat × Nat :=
  if s.queuebrk ≠ 0 ∧
      (s.timeout = 0 ∨ (s.cotab 0).time < s.timeout ∨
        ((s.cotab 0).time = s.timeout ∧ (s.cotab 0).mtime < 0)) then
    ((s.cotab 0).time, u16 (s.cotab 0).mtime)
  else (s.timeout, 0)

/-- A table of capacity 40000 whose queue holds 32769 entries: slot `k` of
the heap holds the callout with handle `k`, due at the whole second
`1000000200 + k`, as 32769 admissions with growing delays leave them. -/
def bigHeap : State :=
  { zeroState with
    cotabsz := 40000
    cycbrk := 40000
    queuebrk := 32769
    timestamp := 1000000000
    atimeout := 1000000201
    swaptime := 1000000000
    mem := fun k => if 1 ≤ k ∧ k ≤ 32769 then ⟨k, 1, 1000000200 + k, 0⟩ else ⟨0, 0, 0, 0⟩ }

/-- The head of every non-empty bucket carries, in its `count` field, the
number of elements on the bucket. -/
def BucketCounts (s : State) : Prop :=
  ∀ k, k < CYCBUF_SIZE → (s.cycbuf k).list ≠ 0 →
    (s.cotab (s.cycbuf k).list).mtime = (s.listOf (.cyc k)).length

/-- A callout function that calls back into the scheduler: for the callouts
that `spawn` selects by object index and handle, it adds one callout with
delay 0, for the object index and the handle that `spawn` gives, as the
kfun `call_out` does: `co_check(0, 0, 0, ...)`, whose error is caught by
`co_call`, leaving the state as it was, and then `co_new` with the routing
delivered. `(c, cms)` is the clock reading. -/
def spawnInvoke (spawn : Nat → Nat → Option (Nat × Nat)) (c cms : Nat) :
    Nat → Nat → State → Except Fault State := fun oindex handle s =>
  match spawn oindex handle with
  | none => .ok s
  | some p =>
    match co_check s 0 0 0 c cms with
    | .error _ => .ok s
    | .ok (s1, a) => co_new s1 p.2 p.1 a.t a.m a.q

/-- The invariant of `timeout`: the bucket of the second `timestamp` is
empty; `timeout` is 0 exactly when every bucket is empty, and otherwise it
is the first second after `timestamp`, within the window of `CYCBUF_SIZE`
seconds, whose bucket is not empty; an alarm is armed for `timeout` or
earlier; and the deadlines in the heap are seconds other than 0. -/
structure TimeoutInv (s : State) : Prop where
  /-- The window of the cyclic buffer, and the scan of `restart` from a second
  of the window, lie within the 32-bit seconds. -/
  stamp : s.timestamp + 2 * CYCBUF_SIZE < UINT_MOD
  /-- The bucket of the current second is empty. -/
  window : (s.cycbuf (cycIndex s.timestamp)).list = 0
  /-- The value 0 stands for an empty cyclic buffer. -/
  idle : s.timeout = 0 ↔ ∀ k, k < CYCBUF_SIZE → (s.cycbuf k).list = 0
  /-- Otherwise `timeout` is the first second of the window with a bucket
  that is not empty. -/
  first : s.timeout ≠ 0 →
    s.timestamp < s.timeout ∧ s.timeout < s.timestamp + CYCBUF_SIZE ∧
    (s.cycbuf (cycIndex s.timeout)).list ≠ 0 ∧
    ∀ sec, s.timestamp < sec → sec < s.timeout → (s.cycbuf (cycIndex sec)).list = 0
  /-- The alarm is armed, for `timeout` or an earlier second. -/
  alarm : s.timeout ≠ 0 → s.atimeout ≠ 0 ∧ s.atimeout ≤ s.timeout
  /-- The deadlines in the heap are seconds other than 0. -/
  heap : ∀ e ∈ heapEntries s.mem s.queuebrk, e.time ≠ 0

/-- The scalar registers that the list operations on the cyclic buffer leave
to `allocSlot`, `countDown` and `restart`: the clock, the counters and the
alarm. -/
def State.ctlRegs (s : State) : Nat × Nat × Nat × Nat × Nat × Nat × Nat :=
  (s.timestamp, s.queuebrk, s.nshort, s.nzero, s.timeout, s.atimeout, s.amtime)

/-! # Lemmas and theorems -/

/-! ## Machine-word lemmas -/

theorem and_ff (x : Nat) : x &&& 0xff = x % 256 := Nat.and_pow_two_sub_one_eq_mod x 8

theorem and_ffff (x : Nat) : x &&& 0xffff = x % 65536 := Nat.and_pow_two_sub_one_eq_mod x 16

theorem cycIndex_eq (t : Nat) : cycIndex t = t % 128 := Nat.and_pow_two_sub_one_eq_mod t 7

theorem testBit_ffffff00 (i : Nat) :
    Nat.testBit 0xffffff00 i = (decide (8 ≤ i) && decide (i < 32)) := by
  by_cases h : i < 32
  · interval_cases i <;> rfl
  · have h1 : (0xffffff00 : Nat) < 2 ^ i :=
      lt_of_lt_of_le (by norm_num) (Nat.pow_le_pow_right (by decide : 2 > 0) (Nat.le_of_not_lt h))
    rw [Nat.testBit_lt_two_pow h1]
    simp [h]

theorem and_ffffff00 (x : Nat) (hx : x < 4294967296) : x &&& 0xffffff00 = x / 256 * 256 := by
  have e : x / 256 * 256 = (x >>> 8) <<< 8 := by
    rw [Nat.shiftLeft_eq, Nat.shiftRight_eq_div_pow]
  rw [e]
  apply Nat.eq_of_testBit_eq
  intro i
  rw [Nat.testBit_and, testBit_ffffff00, Nat.testBit_shiftLeft, Nat.testBit_shiftRight]
  by_cases h8 : 8 ≤ i
  · by_cases h32 : i < 32
    · simp [h8, h32, Nat.add_sub_cancel' h8]
    · have h1 : x < 2 ^ i :=
        lt_of_lt_of_le hx (Nat.pow_le_pow_right (by decide : 2 > 0) (Nat.le_of_not_lt h32))
      simp [h8, h32, Nat.add_sub_cancel' h8, Nat.testBit_lt_two_pow h1]
  · simp [h8]

/-! ## C5: the millisecond encoding -/

/-- C5, as stated, fails: with `timestamp = 0` and `timediff = 1` the
deadline `(1, 0)` lies in `[timestamp, timestamp + 0xff]`, but decoding its
encoding yields second `0xffffff01`, because the recombined word underflows
below zero instead of below `timestamp` and is not bumped by `0x100`. -/
theorem decode_encode_small_timestamp :
    ({ zeroState with timestamp := 0, timediff := 1 } : State).timestamp ≤ 1 ∧
    1 ≤ ({ zeroState with timestamp := 0, timediff := 1 } : State).timestamp + 0xff ∧
    decode { zeroState with timestamp := 0, timediff := 1 }
      (encode { zeroState with timestamp := 0, timediff := 1 } 1 0) = (0xffffff01, 0) ∧
    decode { zeroState with timestamp := 0, timediff := 1 }
      (encode { zeroState with timestamp := 0, timediff := 1 } 1 0) ≠ (1, 0) := by
  decide

/-- C5, amended: for every `timediff` and every `timestamp` of at least
`0xff`, every second `t` with `timestamp <= t <= timestamp + 0xff` and every
millisecond `m <= 999`, `decode (encode (t, m))` returns `(t, m)`; here
`timestamp` and `t` are 32-bit unsigned words. -/
theorem decode_encode (s : State) (t m : Nat) (hts : s.timestamp < UINT_MOD)
    (h255 : 0xff ≤ s.timestamp) (h1 : s.timestamp ≤ t) (h2 : t ≤ s.timestamp + 0xff)
    (ht : t < UINT_MOD) (hm : m ≤ 999) : decode s (encode s t m) = (t, m) := by
  unfold decode encode
  simp only [and_ff, and_ffff, u32, sub32, UINT_MOD, Nat.shiftLeft_eq,
    Nat.shiftRight_eq_div_pow] at *
  rw [and_ffffff00 _ (Nat.mod_lt _ (by norm_num))]
  have e16 : (2 : Nat) ^ 16 = 65536 := by norm_num
  rw [e16]
  generalize s.timediff = D at *
  generalize s.timestamp = T at *
  rw [Prod.mk.injEq]
  constructor
  · split_ifs with h <;> omega
  · omega

/-- The round trip of C5 at a concrete input: timestamp 1000000000, timediff
77, deadline `(1000000200, 999)`. -/
theorem decode_encode_witness :
    decode { zeroState with timestamp := 1000000000, timediff := 77 }
      (encode { zeroState with timestamp := 1000000000, timediff := 77 } 1000000200 999)
      = (1000000200, 999) :=
  decode_encode { zeroState with timestamp := 1000000000, timediff := 77 } 1000000200 999
    (by decide) (by decide) (by decide) (by decide) (by decide) (by decide)

/-! ## C7: the capacity test of `co_check` -/

/-- The capacity test of `co_check`: with callouts enabled it raises "Too many
callouts" exactly when one of its two comparisons holds. -/
theorem co_check_full_iff (s : State) (n : Nat) (delay : Int) (mdelay c cms : Nat)
    (h : s.cotabsz ≠ 0) :
    co_check s n delay mdelay c cms = .error .tooMany ↔
      (u32 (s.queuebrk + s.nshort + n) = s.cotabsz ∨ u32 (s.nshort + n) = s.cotabsz - 1) := by
  unfold co_check
  rw [if_neg h]
  by_cases hc : u32 (s.queuebrk + s.nshort + n) = s.cotabsz ∨ u32 (s.nshort + n) = s.cotabsz - 1
  · simp [hc]
  · rw [if_neg hc]
    simp only [hc, iff_false]
    split_ifs <;> simp

/-- C7, as stated, fails: with capacity 2, nothing pending and a batch of 5
the sum 5 is above the capacity, yet `co_check` does not raise (it tests
for equality only) and admits an immediate callout. -/
theorem co_check_above_capacity :
    0 < ({ zeroState with cotabsz := 2, cycbrk := 2 } : State).cotabsz ∧
    ({ zeroState with cotabsz := 2, cycbrk := 2 } : State).queuebrk +
      ({ zeroState with cotabsz := 2, cycbrk := 2 } : State).nshort + 5 ≥
      ({ zeroState with cotabsz := 2, cycbrk := 2 } : State).cotabsz ∧
    co_check { zeroState with cotabsz := 2, cycbrk := 2 } 5 0 0 0 0 ≠ .error .tooMany := by
  refine ⟨by decide, by decide, ?_⟩
  simp [co_check, zeroState, u32, UINT_MOD]

/-- C7, amended: for every state with capacity `cotabsz > 0` and every batch
size `n`, `co_check` raises "Too many callouts" if and only if the pending
callouts plus the batch exactly reach the capacity
(`queuebrk + nshort + n = cotabsz`) or `nshort + n = cotabsz - 1`, the sums
being 32-bit unsigned words. -/
theorem co_check_tooMany_iff (s : State) (n : Nat) (delay : Int) (mdelay c cms : Nat)
    (h : s.cotabsz ≠ 0) :
    co_check s n delay mdelay c cms = .error .tooMany ↔
      (u32 (s.queuebrk + s.nshort + n) = s.cotabsz ∨ u32 (s.nshort + n) = s.cotabsz - 1) := by
  unfold co_check
  rw [if_neg h]
  by_cases hc : u32 (s.queuebrk + s.nshort + n) = s.cotabsz ∨ u32 (s.nshort + n) = s.cotabsz - 1
  · simp [hc]
  · rw [if_neg hc]
    simp only [hc, iff_false]
    split_ifs <;> simp

/-- The capacity test of C7 at a concrete input: capacity 2 with two heap
entries pending and batch size 0 raises. -/
theorem co_check_tooMany_iff_witness :
    co_check { zeroState with cotabsz := 2, cycbrk := 2, queuebrk := 2 } 0 5 0xffff 0 0
        = .error .tooMany ↔
      (u32 (2 + 0 + 0) = 2 ∨ u32 (0 + 0) = 2 - 1) :=
  co_check_tooMany_iff { zeroState with cotabsz := 2, cycbrk := 2, queuebrk := 2 } 0 5 0xffff 0 0
    (by decide)

/-! ## C8: admission below the capacity -/

/-- C8, as stated, fails: after `co_init(1)` nothing is pending
(`queuebrk + nshort = 0 < 1`), yet `co_check(0, ...)` raises "Too many
callouts", because `nshort + 0 = cotabsz - 1`. -/
theorem co_check_capacity_one :
    ∃ s : State, co_init zeroMem 1 1000000000 = .ok s ∧ s.queuebrk + s.nshort < 1 ∧
      co_check s 0 1 0xffff 1000000000 0 = .error .tooMany :=
  ⟨_, rfl, by decide, rfl⟩

/-- C8, amended: for every capacity `c >= 1` and every state, reachable or
not, in which fewer than `c` callouts are pending (`queuebrk + nshort < c`)
and the short-term callouts do not number `c - 1`, `co_check(0, ...)` does
not raise "Too many callouts"; in particular after `co_init(2)` two
successive admissions to the queue succeed, a third `co_check` raises, and
after cancelling one of the two a further `co_check` succeeds. -/
theorem co_check_admits_below_capacity :
    (∀ (s : State) (delay : Int) (mdelay c cms : Nat), 1 ≤ s.cotabsz → s.cotabsz < UINDEX_MOD →
      s.queuebrk + s.nshort < s.cotabsz → s.nshort ≠ s.cotabsz - 1 →
      co_check s 0 delay mdelay c cms ≠ .error .tooMany) ∧
    (∃ s0 s1 s2 s3 a1 a2 r,
      co_init zeroMem 2 1000000000 = .ok s0 ∧
      checkNew s0 1 1 200 0xffff 1000000000 0 = .ok (s1, a1) ∧
      checkNew s1 2 2 300 0xffff 1000000000 0 = .ok (s2, a2) ∧
      co_check s2 0 200 0xffff 1000000000 0 = .error .tooMany ∧
      co_del true s2 1 1 a1.stored = .ok s3 ∧
      co_info s3 = (0, 1) ∧
      co_check s3 0 200 0xffff 1000000000 0 = .ok r) := by
  constructor
  · intro s delay mdelay c cms h1 h2 h3 h4
    rw [Ne, co_check_full_iff s 0 delay mdelay c cms (by omega)]
    simp only [u32, UINT_MOD, UINDEX_MOD] at *
    omega
  · exact ⟨_, _, _, _, _, _, _, rfl, rfl, rfl, rfl, rfl, rfl, rfl⟩

/-! ## C9: routing between the cyclic buffer and the queue -/

/-- The result of `co_check` for a request that is not immediate, once the
capacity test has passed. -/
theorem co_check_delayed (s : State) (n : Nat) (delay : Int) (mdelay c cms : Nat)
    (hcap : s.cotabsz ≠ 0)
    (h1 : ¬(u32 (s.queuebrk + s.nshort + n) = s.cotabsz ∨ u32 (s.nshort + n) = s.cotabsz - 1))
    (h2 : ¬(delay = 0 ∧ (mdelay = 0 ∨ mdelay = 0xffff))) :
    co_check s n delay mdelay c cms =
      (let s1 := (co_time s c cms).1
       let now := (co_time s c cms).2.1
       let mp := (co_time s c cms).2.2
       let d := (delay % (UINT_MOD : Int)).toNat
       if u32 (now + d + 1) ≤ now then .error .tooLong
       else
         let t0 := u32 (now + d)
         let tm : Nat × Nat :=
           if mdelay ≠ 0xffff then
             (if u16 (mp + mdelay) ≥ 1000 then (u32 (t0 + 1), u16 (mp + mdelay) - 1000)
              else (t0, u16 (mp + mdelay)))
           else (t0, 0)
         .ok (s1, ⟨if mdelay = 0xffff ∧ tm.1 < u32 (s1.timestamp + CYCBUF_SIZE) then
                    some (.cyc (cycIndex tm.1)) else none,
                  if mdelay = 0xffff then sub32 tm.1 s1.timediff else encode s1 tm.1 tm.2,
                  tm.1, tm.2⟩)) := by
  unfold co_check
  rw [if_neg hcap, if_neg h1, if_neg h2]

/-- The deadline and routing computed by `co_check` for an admitted
whole-second request with a delay of at least one second. -/
theorem co_check_whole_second (s s' : State) (n : Nat) (delay : Int) (mdelay c cms : Nat)
    (a : Admission) (hcap : s.cotabsz ≠ 0) (hm : mdelay = 0xffff) (hd1 : 1 ≤ delay)
    (hd2 : delay < 2147483648)
    (hadm : co_check s n delay mdelay c cms = .ok (s', a)) :
    s' = (co_time s c cms).1 ∧ (a.t : Int) = ((co_time s c cms).2.1 : Int) + delay ∧
      ((co_time s c cms).2.1 : Int) + delay + 1 < 4294967296 ∧
      a.q = (if a.t < u32 (s'.timestamp + CYCBUF_SIZE) then some (.cyc (cycIndex a.t))
        else none) := by
  have h1 : ¬(u32 (s.queuebrk + s.nshort + n) = s.cotabsz ∨ u32 (s.nshort + n) = s.cotabsz - 1) := by
    intro h
    rw [(co_check_full_iff s n delay mdelay c cms hcap).2 h] at hadm
    cases hadm
  rw [co_check_delayed s n delay mdelay c cms hcap h1 (by omega)] at hadm
  have hd : (delay % (UINT_MOD : Int)).toNat = delay.toNat := by
    simp only [UINT_MOD]; omega
  have hne : ¬ (mdelay ≠ 0xffff) := fun h => h hm
  have hmT : (mdelay = 0xffff) ↔ True := iff_true_intro hm
  simp only [hd, if_neg hne, hmT, true_and, if_true] at hadm
  split_ifs at hadm with h3 h4
  all_goals
    simp only [Except.ok.injEq, Prod.mk.injEq] at hadm
    obtain ⟨hs, ha⟩ := hadm
    subst hs
    subst ha
    refine ⟨rfl, ?_, ?_, ?_⟩
    · simp only [u32, UINT_MOD] at h3 ⊢
      omega
    · simp only [u32, UINT_MOD] at h3 ⊢
      omega
    · simp only [h4, if_true, if_false]

/-- C9: for every admitted whole-second request (`mdelay = 0xffff`, `delay >= 1`)
the deadline second is `t = now + delay`, with `now` the second delivered by
`co_time`, and `co_check` routes to the bucket `cycbuf[t & 127]` if and
only if `t < timestamp + 128`, and to the queue (null routing) otherwise;
`timestamp` is the value after `co_time` and the sum is the 32-bit word the
code computes, which is the exact sum whenever that is below `2^32`. Every
admitted millisecond-precise request (`mdelay != 0xffff`, not the immediate
one with zero delay) is routed to the queue. With the clock equal to
`timestamp`, delay 127 goes to the cyclic buffer and delay 128 to the queue. -/
theorem co_check_routing (s s' : State) (n : Nat) (delay : Int) (mdelay c cms : Nat)
    (a : Admission) (hcap : s.cotabsz ≠ 0)
    (hadm : co_check s n delay mdelay c cms = .ok (s', a)) :
    (mdelay = 0xffff → 1 ≤ delay → delay < 2147483648 →
      s' = (co_time s c cms).1 ∧ (a.t : Int) = ((co_time s c cms).2.1 : Int) + delay ∧
      (a.q = some (.cyc (cycIndex a.t)) ↔ a.t < u32 (s'.timestamp + CYCBUF_SIZE)) ∧
      (a.q = none ↔ ¬ a.t < u32 (s'.timestamp + CYCBUF_SIZE)) ∧
      (s'.timestamp + CYCBUF_SIZE < UINT_MOD →
        (a.q = some (.cyc (cycIndex a.t)) ↔ a.t < s'.timestamp + CYCBUF_SIZE))) ∧
    (mdelay ≠ 0xffff → ¬(delay = 0 ∧ mdelay = 0) → a.q = none) ∧
    (mdelay = 0xffff → c = s.timestamp → delay = 127 →
      a.t = s.timestamp + 127 ∧ a.q = some (.cyc (cycIndex (s.timestamp + 127)))) ∧
    (mdelay = 0xffff → c = s.timestamp → delay = 128 →
      a.t = s.timestamp + 128 ∧ a.q = none) := by
  have h1 : ¬(u32 (s.queuebrk + s.nshort + n) = s.cotabsz ∨ u32 (s.nshort + n) = s.cotabsz - 1) := by
    intro h
    rw [(co_check_full_iff s n delay mdelay c cms hcap).2 h] at hadm
    cases hadm
  have hself : ∀ cc, cc = s.timestamp → co_time s cc cms = (s, cc, cms) := by
    intro cc hc
    unfold co_time
    rw [if_neg (by omega), if_neg (by omega)]
  refine ⟨?_, ?_, ?_, ?_⟩
  · intro hm hd1 hd2
    obtain ⟨e1, e2, -, e3⟩ :=
      co_check_whole_second s s' n delay mdelay c cms a hcap hm hd1 hd2 hadm
    refine ⟨e1, e2, ?_, ?_, ?_⟩
    · rw [e3]; split_ifs with h <;> simp [h]
    · rw [e3]; split_ifs with h <;> simp [h]
    · intro hlt
      rw [e3]
      have : u32 (s'.timestamp + CYCBUF_SIZE) = s'.timestamp + CYCBUF_SIZE := Nat.mod_eq_of_lt hlt
      rw [this]
      split_ifs with h <;> simp [h]
  · intro hm h2
    have h2' : ¬(delay = 0 ∧ (mdelay = 0 ∨ mdelay = 0xffff)) := by
      rintro ⟨hd, h0 | hf⟩
      · exact h2 ⟨hd, h0⟩
      · exact hm hf
    rw [co_check_delayed s n delay mdelay c cms hcap h1 h2'] at hadm
    have hmF : (mdelay = 0xffff) ↔ False := iff_false_intro hm
    simp only [hmF, false_and, if_false] at hadm
    split_ifs at hadm with h3 h4
    all_goals
      simp only [Except.ok.injEq, Prod.mk.injEq] at hadm
      obtain ⟨-, ha⟩ := hadm
      subst ha
      rfl
  · intro hm hc hd
    subst hd
    obtain ⟨e1, e2, e4, e3⟩ :=
      co_check_whole_second s s' n 127 mdelay c cms a hcap hm (by norm_num) (by norm_num) hadm
    rw [hself c hc] at e1 e2 e4
    simp only at e1 e2 e4
    have ht : a.t = s.timestamp + 127 := by omega
    have hlt : a.t < u32 (s'.timestamp + CYCBUF_SIZE) := by
      rw [e1, ht]
      simp only [u32, UINT_MOD, CYCBUF_SIZE]
      omega
    rw [e3, if_pos hlt, ht]
    exact ⟨rfl, rfl⟩
  · intro hm hc hd
    subst hd
    obtain ⟨e1, e2, e4, e3⟩ :=
      co_check_whole_second s s' n 128 mdelay c cms a hcap hm (by norm_num) (by norm_num) hadm
    rw [hself c hc] at e1 e2 e4
    simp only at e1 e2 e4
    have ht : a.t = s.timestamp + 128 := by omega
    have hlt : ¬ a.t < u32 (s'.timestamp + CYCBUF_SIZE) := by
      rw [e1, ht]
      simp only [u32, CYCBUF_SIZE]
      have := Nat.mod_le (s.timestamp + 128) UINT_MOD
      omega
    rw [e3, if_neg hlt]
    exact ⟨ht, rfl⟩

/-- The routing of C9 at a concrete input: capacity 8, clock and timestamp
1000000000, a whole-second delay of 127 seconds. -/
theorem co_check_routing_witness :
    ({ zeroState with cotabsz := 8, cycbrk := 8, timestamp := 1000000000 } : State).cotabsz ≠ 0 ∧
    co_check { zeroState with cotabsz := 8, cycbrk := 8, timestamp := 1000000000 } 0 127 0xffff
        1000000000 0 =
      .ok ({ zeroState with cotabsz := 8, cycbrk := 8, timestamp := 1000000000 },
        ⟨some (.cyc 127), 1000000127, 1000000127, 0⟩) ∧
    (⟨some (.cyc 127), 1000000127, 1000000127, 0⟩ : Admission).q =
      some (.cyc (cycIndex (1000000000 + 127))) :=
  ⟨by decide, rfl,
    ((co_check_routing { zeroState with cotabsz := 8, cycbrk := 8, timestamp := 1000000000 }
      { zeroState with cotabsz := 8, cycbrk := 8, timestamp := 1000000000 } 0 127 0xffff
      1000000000 0 ⟨some (.cyc 127), 1000000127, 1000000127, 0⟩ (by decide) rfl).2.2.1
      rfl rfl rfl).2⟩

/-! ## C3: `dequeue` of an inner slot -/

/-- C3 fails on the code. Six millisecond callouts due in the same second
are admitted in the order 100, 900, 200, 950, 960, 300 ms; the heap built by
`enqueue` is ordered. Cancelling the fourth one makes `dequeue` move the
last entry `(t, 300)` into slot 4, where it is smaller than its parent
`(t, 900)` in slot 2: `dequeue` chooses between sifting up and down by
comparing the seconds only, so it sifts down and the heap property is lost. -/
theorem dequeue_breaks_heap :
    ∃ s0 s1 s2 s3 s4 s5 s6 s7 a1 a2 a3 a4 a5 a6,
      co_init zeroMem 8 1000000000 = .ok s0 ∧
      checkNew s0 1 1 5 100 1000000000 0 = .ok (s1, a1) ∧
      checkNew s1 2 2 5 900 1000000000 0 = .ok (s2, a2) ∧
      checkNew s2 3 3 5 200 1000000000 0 = .ok (s3, a3) ∧
      checkNew s3 4 4 5 950 1000000000 0 = .ok (s4, a4) ∧
      checkNew s4 5 5 5 960 1000000000 0 = .ok (s5, a5) ∧
      checkNew s5 6 6 5 300 1000000000 0 = .ok (s6, a6) ∧
      HeapOrdered s6.mem s6.queuebrk ∧
      ((s6.cotab 3).handle, (s6.cotab 3).oindex) = (4, 4) ∧
      dequeue s6 3 = .ok s7 ∧
      co_del true s6 4 4 a4.stored = .ok s7 ∧
      s7.queuebrk = 5 ∧
      ((s7.mem 2).time, (s7.mem 2).mtime) = (1000000005, 900) ∧
      ((s7.mem 4).time, (s7.mem 4).mtime) = (1000000005, 300) ∧
      ¬ HeapOrdered s7.mem s7.queuebrk := by
  refine ⟨_, _, _, _, _, _, _, _, _, _, _, _, _, _, rfl, rfl, rfl, rfl, rfl, rfl, rfl, ?_, rfl,
    rfl, rfl, rfl, rfl, rfl, ?_⟩
  · intro i h1 h2
    have h3 : i ≤ 6 := h2
    interval_cases i <;> decide
  · intro h
    exact absurd (h 4 (by decide) (by decide)) (by decide)

/-! ## C4: the two regions of the table -/

/-- C4 fails on the code. After `co_init(4)`, three admissions to the cyclic
buffer take the slots 3, 2, 1 (`cycbrk = 1`); cancelling the first two puts
slots 3 and 2 on the free list and leaves `cycbrk = 1`, `nshort = 1`. Two
further admissions to the queue pass `co_check`, which compares
`queuebrk + nshort` with `cotabsz` and does not count the free list, and the
second one stores its heap entry in `cotab[1]`, the slot of the third
short-term callout, which is still pending: `queuebrk = 2 > cycbrk = 1`. -/
theorem queue_overruns_cyclic_buffer :
    ∃ s0 s1 s2 s3 s4 s5 s6 s7 a1 a2 a3 a4 a5,
      co_init zeroMem 4 1000000000 = .ok s0 ∧
      checkNew s0 1 1 1 0xffff 1000000000 0 = .ok (s1, a1) ∧
      checkNew s1 2 2 2 0xffff 1000000000 0 = .ok (s2, a2) ∧
      checkNew s2 3 3 3 0xffff 1000000000 0 = .ok (s3, a3) ∧
      co_del true s3 1 1 a1.stored = .ok s4 ∧
      co_del true s4 2 2 a2.stored = .ok s5 ∧
      checkNew s5 4 4 1000 0xffff 1000000000 0 = .ok (s6, a4) ∧
      checkNew s6 5 5 1000 0xffff 1000000000 0 = .ok (s7, a5) ∧
      (s6.cycbuf (cycIndex 1000000003)).list = 1 ∧
      ((s6.cotab 1).handle, (s6.cotab 1).oindex) = (3, 3) ∧
      (s7.cycbuf (cycIndex 1000000003)).list = 1 ∧
      ((s7.cotab 1).handle, (s7.cotab 1).oindex) = (5, 5) ∧
      s7.nshort = 1 ∧ s7.cycbrk = 1 ∧ s7.queuebrk = 2 ∧
      ¬ s7.queuebrk ≤ s7.cycbrk :=
  ⟨_, _, _, _, _, _, _, _, _, _, _, _, _, rfl, rfl, rfl, rfl, rfl, rfl, rfl, rfl, rfl, rfl, rfl, rfl,
    rfl, rfl, rfl, by decide⟩

/-! ## C6: cancelling an expired millisecond callout -/

/-- C6 fails on the code. A callout with a delay of 500 ms is admitted to the
queue and its stored deadline has top byte `0x01`. `co_expire` one second
later moves it to the immediate list. `co_del` with the stored deadline
skips the immediate and running lists (it searches them only when the top
byte is not `0x01`) and searches the queue, where the slot vacated by
`co_expire` still holds the old object index and handle: `dequeue` runs on
the empty heap, `queuebrk` wraps around to 65535, and the callout is still
the head of the immediate list with `nzero = 1`. -/
theorem co_del_misses_expired_millisecond_callout :
    ∃ s0 s1 s2 s3 a1,
      co_init zeroMem 8 1000000000 = .ok s0 ∧
      checkNew s0 7 9 0 500 1000000000 0 = .ok (s1, a1) ∧
      a1.q = none ∧ a1.stored >>> 24 = 1 ∧ (a1.t, a1.m) = (1000000000, 500) ∧
      co_expire s1 true 1000000001 0 = .ok s2 ∧
      s2.queuebrk = 0 ∧ s2.nzero = 1 ∧ s2.immediate.list = 7 ∧
      ((s2.cotab 7).oindex, (s2.cotab 7).handle) = (9, 7) ∧
      co_del true s2 9 7 a1.stored = .ok s3 ∧
      s3.nzero = 1 ∧ s3.nshort = 1 ∧ s3.immediate.list = 7 ∧
      ((s3.cotab 7).oindex, (s3.cotab 7).handle) = (9, 7) ∧
      s3.queuebrk = 65535 :=
  ⟨_, _, _, _, _, rfl, rfl, rfl, rfl, rfl, rfl, rfl, rfl, rfl, rfl, rfl, rfl, rfl, rfl, rfl, rfl⟩

/-! ## Heap lemmas -/

theorem setMem_same (l : Nat → call_out) (i : Nat) (v : call_out) : setMem l i v i = v := by
  simp [setMem]

theorem setMem_other (l : Nat → call_out) (i j : Nat) (v : call_out) (h : j ≠ i) :
    setMem l i v j = l j := by
  simp [setMem, h]

theorem keyLe_refl (a : call_out) : keyLe a a := Or.inr ⟨rfl, le_refl _⟩

theorem keyLe_trans {a b c : call_out} (h1 : keyLe a b) (h2 : keyLe b c) : keyLe a c := by
  unfold keyLe at *
  omega

theorem keyAtMost_of_keyGt {c : call_out} {t : Nat} {m : Int} (h : keyGt c t m) :
    keyAtMost t m c := by
  unfold keyGt at h
  unfold keyAtMost
  omega

theorem keyAtMost_trans {a b : call_out} {t : Nat} {m : Int} (h1 : keyAtMost t m a)
    (h2 : keyLe a b) : keyAtMost t m b := by
  unfold keyAtMost keyLe at *
  omega

/-- Two tables that agree except for exchanged values at two slots hold the
same entries. -/
theorem heapEntries_swap (a b : Nat → call_out) (n i j : Nat) (hi1 : 1 ≤ i) (hi : i ≤ n)
    (hj1 : 1 ≤ j) (hj : j ≤ n) (h1 : b i = a j) (h2 : b j = a i)
    (h3 : ∀ k, k ≠ i → k ≠ j → b k = a k) :
    (heapEntries b n).Perm (heapEntries a n) := by
  unfold heapEntries
  have hb : (fun k => b (k + 1)) = (fun k => a (k + 1)) ∘ (Equiv.swap (i - 1) (j - 1)) := by
    funext k
    simp only [Function.comp]
    by_cases hk1 : k = i - 1
    · subst hk1
      rw [Equiv.swap_apply_left, Nat.sub_add_cancel hi1, Nat.sub_add_cancel hj1]
      exact h1
    · by_cases hk2 : k = j - 1
      · subst hk2
        rw [Equiv.swap_apply_right, Nat.sub_add_cancel hi1, Nat.sub_add_cancel hj1]
        exact h2
      · rw [Equiv.swap_apply_of_ne_of_ne hk1 hk2]
        exact h3 _ (by omega) (by omega)
  rw [hb, ← List.map_map]
  apply List.Perm.map
  rw [List.perm_ext_iff_of_nodup ((List.nodup_range n).map (Equiv.injective _)) (List.nodup_range n)]
  intro x
  simp only [List.mem_map, List.mem_range]
  constructor
  · rintro ⟨k, hk, rfl⟩
    by_cases hk1 : k = i - 1
    · subst hk1; rw [Equiv.swap_apply_left]; omega
    · by_cases hk2 : k = j - 1
      · subst hk2; rw [Equiv.swap_apply_right]; omega
      · rw [Equiv.swap_apply_of_ne_of_ne hk1 hk2]; exact hk
  · intro hx
    refine ⟨Equiv.swap (i - 1) (j - 1) x, ?_, Equiv.swap_apply_self _ _ _⟩
    by_cases hk1 : x = i - 1
    · subst hk1; rw [Equiv.swap_apply_left]; omega
    · by_cases hk2 : x = j - 1
      · subst hk2; rw [Equiv.swap_apply_right]; omega
      · rw [Equiv.swap_apply_of_ne_of_ne hk1 hk2]; exact hx

theorem heapEntries_congr (a b : Nat → call_out) (n : Nat)
    (h : ∀ k, 1 ≤ k → k ≤ n → b k = a k) : heapEntries b n = heapEntries a n := by
  unfold heapEntries
  apply List.map_congr_left
  intro k hk
  rw [List.mem_range] at hk
  exact h (k + 1) (by omega) (by omega)

theorem heapEntries_succ (a : Nat → call_out) (n : Nat) :
    heapEntries a (n + 1) = heapEntries a n ++ [a (n + 1)] := by
  unfold heapEntries
  rw [List.range_succ, List.map_append]
  rfl

/-- The sift-up loop, started at a hole `i` whose children are not earlier
than `(t, m)` in a table that is ordered once the hole is filled with its
parent, returns a hole `i'` where an entry with deadline `(t, m)` fits. -/
theorem siftUp_spec (n t : Nat) (m : Int) :
    ∀ (fuel : Nat) (l : Nat → call_out) (i : Nat), i + 1 ≤ fuel → 1 ≤ i → i ≤ n →
      ¬ keyGt (l 0) t m →
      HeapOrdered (setMem l i (l (i / 2))) n →
      (∀ c, 1 ≤ c → c ≤ n → c / 2 = i → keyAtMost t m (l c)) →
      ∃ l' i', siftUp fuel l i t m = .ok (l', i') ∧ 1 ≤ i' ∧ i' ≤ i ∧
        l' 0 = l 0 ∧ (∀ k, n < k → l' k = l k) ∧ (∀ k, k < i' → l' k = l k) ∧
        (∀ v : call_out, v.time = t → (v.mtime : Int) = m → HeapOrdered (setMem l' i' v) n) ∧
        (∀ v : call_out, (heapEntries (setMem l' i' v) n).Perm (heapEntries (setMem l i v) n)) := by
  intro fuel
  induction fuel with
  | zero => intro l i h; omega
  | succ fuel ih =>
    intro l i hf hi1 hin h0 hheap hch
    unfold siftUp
    by_cases hgt : keyGt (l (i / 2)) t m
    · have hif : ((l (i / 2)).time > t ∨ (l (i / 2)).time = t ∧ ((l (i / 2)).mtime : Int) > m) := hgt
      simp only [hif, if_true]
      have hi2 : 2 ≤ i := by
        by_contra hlt
        have : i = 1 := by omega
        subst this
        exact h0 hgt
      rw [if_neg (by omega)]
      set j := i / 2 with hj
      have hj1 : 1 ≤ j := by omega
      have hji : j < i := by omega
      have hA0 : setMem l i (l j) 0 = l 0 := setMem_other _ _ _ _ (by omega)
      obtain ⟨l', i', hr, h1, h2, h3, h4, h5, h6, h7⟩ :=
        ih (setMem l i (l j)) j (by omega) hj1 (by omega) (by rw [hA0]; exact h0)
          (by
            intro c hc1 hcn
            have hA := hheap
            have hjj : j / 2 ≠ i := by omega
            have hjj2 : j / 2 ≠ j := by omega
            by_cases hcj : c = j
            · subst hcj
              rw [setMem_same, setMem_other _ _ _ _ hjj2, setMem_other _ _ _ _ hjj]
              exact keyLe_refl _
            · rw [setMem_other _ _ _ _ hcj]
              by_cases hpj : c / 2 = j
              · rw [hpj, setMem_same, setMem_other _ _ _ _ hjj]
                have e1 := hA j hj1 (by omega)
                have e2 := hA c hc1 hcn
                rw [setMem_other _ _ _ _ (by omega : j ≠ i), setMem_other _ _ _ _ hjj] at e1
                rw [hpj, setMem_other _ _ _ _ (by omega : j ≠ i)] at e2
                exact keyLe_trans e1 e2
              · rw [setMem_other _ _ _ _ hpj]
                exact hA c hc1 hcn)
          (by
            intro c hc1 hcn hcj
            by_cases hci : c = i
            · subst hci
              rw [setMem_same]
              exact keyAtMost_of_keyGt hgt
            · rw [setMem_other _ _ _ _ hci]
              have e2 := hheap c hc1 hcn
              rw [hcj, setMem_other _ _ _ _ (by omega : j ≠ i), setMem_other _ _ _ _ hci] at e2
              exact keyAtMost_trans (keyAtMost_of_keyGt hgt) e2)
      refine ⟨l', i', hr, h1, by omega, by rw [h3, hA0], ?_, ?_, h6, ?_⟩
      · intro k hk
        rw [h4 k hk, setMem_other _ _ _ _ (by omega)]
      · intro k hk
        rw [h5 k hk, setMem_other _ _ _ _ (by omega)]
      · intro v
        refine (h7 v).trans ?_
        apply heapEntries_swap _ _ n i j hi1 hin hj1 (by omega)
        · rw [setMem_other _ _ _ _ (by omega : i ≠ j), setMem_same, setMem_other _ _ _ _ (by omega : j ≠ i)]
        · rw [setMem_same, setMem_same]
        · intro k hki hkj
          rw [setMem_other _ _ _ _ hkj, setMem_other _ _ _ _ hki, setMem_other _ _ _ _ hki]
    · have hif : ¬((l (i / 2)).time > t ∨ (l (i / 2)).time = t ∧ ((l (i / 2)).mtime : Int) > m) := hgt
      simp only [hif, if_false]
      refine ⟨l, i, rfl, hi1, le_refl _, rfl, fun _ _ => rfl, fun _ _ => rfl, ?_, fun _ => List.Perm.refl _⟩
      intro v hv1 hv2 c hc1 hcn
      have hii : i / 2 ≠ i := by omega
      by_cases hci : c = i
      · subst hci
        rw [setMem_same, setMem_other _ _ _ _ hii]
        unfold keyGt at hgt
        unfold keyLe
        omega
      · rw [setMem_other _ _ _ _ hci]
        by_cases hpi : c / 2 = i
        · rw [hpi, setMem_same]
          have := hch c hc1 hcn hpi
          unfold keyAtMost at this
          unfold keyLe
          omega
        · rw [setMem_other _ _ _ _ hpi]
          have := hheap c hc1 hcn
          rw [setMem_other _ _ _ _ hci, setMem_other _ _ _ _ hpi] at this
          exact this

/-- A call `restart(0)` returns and changes only the alarm. -/
theorem restart_zero (s : State) :
    ∃ a b p, restart s 0 = .ok { s with atimeout := a, amtime := b, ptimer := p } := by
  unfold restart
  simp only [ne_eq, not_true_eq_false, if_false, bind, Except.bind, pure, Except.pure]
  split_ifs
  · exact ⟨_, _, _, rfl⟩
  · exact ⟨_, _, _, rfl⟩
  · exact ⟨_, _, _, rfl⟩
  · exact ⟨_, _, _, rfl⟩

/-! ## C2: `enqueue` -/

/-- C2: for every table with sentinel time 0 whose heap slots `1 .. queuebrk`
satisfy the heap property, with room for one more entry
(`queuebrk < cotabsz`, the size being a `uindex`), and every deadline
`(t, m)` with `t >= 1`, `enqueue(t, m)` returns; afterwards `queuebrk` is one
more, the slots `1 .. queuebrk` satisfy the heap property, and they hold
exactly the old entries (all four fields) plus the returned slot, whose time
is `t` and whose mtime is `m`. -/
theorem enqueue_keeps_heap (s : State) (t m : Nat) (hsent : (s.mem 0).time = 0)
    (hheap : HeapOrdered s.mem s.queuebrk) (ht : 1 ≤ t) (hroom : s.queuebrk < s.cotabsz)
    (hcap : s.cotabsz < UINDEX_MOD) :
    ∃ s' k, enqueue s t m = .ok (s', k) ∧ s'.queuebrk = s.queuebrk + 1 ∧
      HeapOrdered s'.mem s'.queuebrk ∧ 1 ≤ k ∧ k ≤ s'.queuebrk ∧
      (s'.mem k).time = t ∧ (s'.mem k).mtime = m ∧
      (heapEntries s'.mem s'.queuebrk).Perm (s'.mem k :: heapEntries s.mem s.queuebrk) := by
  have hq : u16 (s.queuebrk + 1) = s.queuebrk + 1 := by
    unfold u16; exact Nat.mod_eq_of_lt (by omega)
  obtain ⟨l', i', hr, h1, h2, h3, -, -, h6, h7⟩ :=
    siftUp_spec (s.queuebrk + 1) t (m : Int) (s.queuebrk + 1 + 1) s.mem (s.queuebrk + 1)
      (le_refl _) (by omega) (le_refl _)
      (by unfold keyGt; omega)
      (by
        intro c hc1 hcn
        by_cases hc : c = s.queuebrk + 1
        · subst hc
          rw [setMem_same, setMem_other _ _ _ _ (by omega)]
          exact keyLe_refl _
        · rw [setMem_other _ _ _ _ hc, setMem_other _ _ _ _ (by omega)]
          exact hheap c hc1 (by omega))
      (by intro c hc1 hcn hc; omega)
  have hv := h6 { l' i' with time := t, mtime := m } rfl rfl
  have hp : (heapEntries (setMem l' i' { l' i' with time := t, mtime := m })
      (s.queuebrk + 1)).Perm
      ({ l' i' with time := t, mtime := m } :: heapEntries s.mem s.queuebrk) := by
    refine (h7 _).trans ?_
    rw [heapEntries_succ, setMem_same]
    rw [heapEntries_congr s.mem (setMem s.mem (s.queuebrk + 1) _) s.queuebrk
      (fun k _ hk => setMem_other _ _ _ _ (by omega))]
    exact List.perm_append_singleton _ _
  unfold enqueue
  simp only [hq, bind, Except.bind, pure, Except.pure, hr]
  split_ifs with hre
  · obtain ⟨a, b, p, hrs⟩ := restart_zero
      { s with queuebrk := s.queuebrk + 1,
               mem := setMem l' i' { l' i' with time := t, mtime := m } }
    rw [hrs]
    exact ⟨_, _, rfl, rfl, hv, h1, h2, by simp [setMem_same], by simp [setMem_same],
      by simpa [setMem_same] using hp⟩
  · exact ⟨_, _, rfl, rfl, hv, h1, h2, by simp [setMem_same], by simp [setMem_same],
      by simpa [setMem_same] using hp⟩

/-- The statement of C2 at a concrete input: the second admission to the
queue of a table of capacity 8, with an earlier deadline than the first. -/
theorem enqueue_keeps_heap_witness :
    ∃ s' k, enqueue oneEntryState 1000000200 500 = .ok (s', k) ∧
      s'.queuebrk = oneEntryState.queuebrk + 1 ∧ HeapOrdered s'.mem s'.queuebrk ∧
      1 ≤ k ∧ k ≤ s'.queuebrk ∧ (s'.mem k).time = 1000000200 ∧ (s'.mem k).mtime = 500 ∧
      (heapEntries s'.mem s'.queuebrk).Perm
        (s'.mem k :: heapEntries oneEntryState.mem oneEntryState.queuebrk) :=
  enqueue_keeps_heap oneEntryState 1000000200 500 rfl
    (by intro i h1 h2
        have h3 : i ≤ 1 := h2
        interval_cases i
        decide)
    (by decide) (by decide) (by decide)


/-! ## Lemmas on the table and its lists -/

theorem u16_of_lt {n : Nat} (h : n < UINDEX_MOD) : u16 n = n := Nat.mod_eq_of_lt h

theorem dec16_of_pos {n : Nat} (h1 : 1 ≤ n) (h : n < UINDEX_MOD) : dec16 n = n - 1 := by
  unfold dec16 UINDEX_MOD at *
  omega

@[simp] theorem cotab_setCotab_same (s : State) (i : Nat) (v : call_out) :
    (s.setCotab i v).cotab i = v := by
  simp [State.cotab, State.setCotab, setMem]

theorem cotab_setCotab_other (s : State) (i j : Nat) (v : call_out) (h : j ≠ i) :
    (s.setCotab i v).cotab j = s.cotab j := by
  simp [State.cotab, State.setCotab, setMem, h]

theorem cotab_setCotab (s : State) (i j : Nat) (v : call_out) :
    (s.setCotab i v).cotab j = if j = i then v else s.cotab j := by
  by_cases h : j = i
  · subst h; simp
  · simp [cotab_setCotab_other _ _ _ _ h, h]

theorem alarmEq.refl (s : State) : alarmEq s s := rfl

theorem alarmEq.trans {s1 s2 s3 : State} (h1 : alarmEq s1 s2) (h2 : alarmEq s2 s3) :
    alarmEq s1 s3 := by
  unfold alarmEq at *
  rw [h2, h1]

theorem alarmEq.mem {s s' : State} (h : alarmEq s s') : s'.mem = s.mem := by
  unfold alarmEq at h; rw [h]

theorem alarmEq.cotab {s s' : State} (h : alarmEq s s') (x : Nat) : s'.cotab x = s.cotab x := by
  unfold State.cotab; rw [h.mem]

theorem alarmEq.getCbuf {s s' : State} (h : alarmEq s s') (r : CbufRef) :
    s'.getCbuf r = s.getCbuf r := by
  unfold alarmEq at h; rw [h]; cases r <;> rfl

/-- A chain depends only on the `next` fields of its elements. -/
theorem Chain.congr {s s' : State} : ∀ {xs : List Nat} {h : Nat}, Chain s h xs →
    (∀ x ∈ xs, (s'.cotab x).time = (s.cotab x).time) → Chain s' h xs
  | [], _, hc, _ => hc
  | x :: xs, _, ⟨h1, h2, h3⟩, hx => by
    refine ⟨h1, h2, ?_⟩
    rw [hx x (List.mem_cons_self _ _)]
    exact Chain.congr h3 (fun y hy => hx y (List.mem_cons_of_mem _ hy))

theorem Chain.ne_zero {s : State} : ∀ {xs : List Nat} {h : Nat}, Chain s h xs →
    ∀ x ∈ xs, x ≠ 0
  | [], _, _, _, hx => by cases hx
  | y :: ys, _, ⟨_, h2, h3⟩, x, hx => by
    rcases List.mem_cons.1 hx with rfl | hx
    · exact h2
    · exact Chain.ne_zero h3 x hx

theorem Chain.head_eq_zero_iff {s : State} {xs : List Nat} {h : Nat} (hc : Chain s h xs) :
    h = 0 ↔ xs = [] := by
  cases xs with
  | nil => exact ⟨fun _ => rfl, fun _ => hc⟩
  | cons x xs =>
    obtain ⟨h1, h2, _⟩ := hc
    constructor
    · intro h0; exact absurd (h1 ▸ h0) h2
    · intro h0; cases h0

theorem Chain.head?_eq {s : State} {xs : List Nat} {h : Nat} (hc : Chain s h xs) (hne : xs ≠ []) :
    xs.head? = some h := by
  cases xs with
  | nil => exact absurd rfl hne
  | cons x xs => obtain ⟨h1, _, _⟩ := hc; simp [h1]

/-- The computed walk of a chain is the chain. -/
theorem walk_of_chain {s : State} : ∀ (fuel : Nat) {xs : List Nat} {h : Nat}, Chain s h xs →
    (∀ x ∈ xs, x < UINDEX_MOD) → xs.length < fuel → walk fuel s h = xs
  | 0, _, _, _, _, hl => by omega
  | fuel + 1, [], h, hc, _, _ => by
    have : h = 0 := hc
    simp [walk, this]
  | fuel + 1, x :: xs, h, ⟨h1, h2, h3⟩, hb, hl => by
    subst h1
    have hx : ∀ y ∈ xs, y < UINDEX_MOD := fun y hy => hb y (List.mem_cons_of_mem _ hy)
    have hn : (s.cotab h).time < UINDEX_MOD := by
      cases xs with
      | nil => have : (s.cotab h).time = 0 := h3; rw [this]; decide
      | cons y ys => obtain ⟨e, _, _⟩ := h3; rw [e]; exact hx y (List.mem_cons_self _ _)
    unfold walk
    rw [if_neg h2, u16_of_lt hn, walk_of_chain fuel h3 hx (by simpa using hl)]

/-- Appending an element `i` to a non-empty chain with last element `z`: the
link of `z` becomes `i`, the link of `i` is null, the other links stay. -/
theorem Chain.snoc {s s' : State} {i z : Nat} (hi : i ≠ 0) (hnext : (s'.cotab i).time = 0)
    (hz : (s'.cotab z).time = i) :
    ∀ {xs : List Nat} {h : Nat}, Chain s h (xs ++ [z]) →
      (∀ x ∈ xs, (s'.cotab x).time = (s.cotab x).time) → Chain s' h (xs ++ [z] ++ [i])
  | [], h, ⟨h1, h2, _⟩, _ => ⟨h1, h2, by rw [hz]; exact ⟨rfl, hi, hnext⟩⟩
  | x :: xs, h, ⟨h1, h2, h3⟩, hk => by
    refine ⟨h1, h2, ?_⟩
    rw [hk x (List.mem_cons_self _ _)]
    exact Chain.snoc hi hnext hz h3 (fun y hy => hk y (List.mem_cons_of_mem _ hy))

/-- Joining two chains: the last element `z` of the first gets the head of
the second as its link. -/
theorem Chain.join {s s' : State} {z g : Nat} {ys : List Nat} (hys : Chain s' g ys)
    (hz : (s'.cotab z).time = g) :
    ∀ {xs : List Nat} {h : Nat}, Chain s h (xs ++ [z]) →
      (∀ x ∈ xs, (s'.cotab x).time = (s.cotab x).time) → Chain s' h (xs ++ [z] ++ ys)
  | [], h, ⟨h1, h2, _⟩, _ => ⟨h1, h2, by rw [hz]; exact hys⟩
  | x :: xs, h, ⟨h1, h2, h3⟩, hk => by
    refine ⟨h1, h2, ?_⟩
    rw [hk x (List.mem_cons_self _ _)]
    exact Chain.join hys hz h3 (fun y hy => hk y (List.mem_cons_of_mem _ hy))

/-! ## `restart` returns and touches only the alarm -/

theorem cycIndex_lt (t : Nat) : cycIndex t < CYCBUF_SIZE := by
  rw [cycIndex_eq]; exact Nat.mod_lt _ (by decide)

theorem nextBucket_ok (cyc : Nat → cbuf) :
    ∀ (fuel t : Nat), (∃ d, d < fuel ∧ (cyc (cycIndex (t + d))).list ≠ 0) →
      ∃ t', nextBucket fuel cyc t = .ok t' := by
  intro fuel
  induction fuel with
  | zero => rintro t ⟨d, hd, _⟩; omega
  | succ fuel ih =>
    rintro t ⟨d, hd, hne⟩
    unfold nextBucket
    by_cases h0 : (cyc (cycIndex t)).list = 0
    · rw [if_pos h0]
      cases d with
      | zero => exact absurd h0 hne
      | succ d =>
        apply ih
        refine ⟨d, by omega, ?_⟩
        have e : cycIndex (u32 (t + 1) + d) = cycIndex (t + (d + 1)) := by
          simp only [cycIndex_eq, u32, UINT_MOD]; omega
        rw [e]; exact hne
    · rw [if_neg h0]; exact ⟨t, rfl⟩

theorem nextBucket_ok_of_nonempty (cyc : Nat → cbuf) (t k : Nat) (hk : k < CYCBUF_SIZE)
    (hne : (cyc k).list ≠ 0) : ∃ t', nextBucket CYCBUF_SIZE cyc t = .ok t' := by
  apply nextBucket_ok
  refine ⟨(k + 128 - t % 128) % 128, Nat.mod_lt _ (by decide), ?_⟩
  have e : cycIndex (t + (k + 128 - t % 128) % 128) = k := by
    simp only [cycIndex_eq, CYCBUF_SIZE] at *; omega
  rw [e]; exact hne

theorem restart_alarmEq (s s' : State) (t : Nat) (h : restart s t = .ok s') : alarmEq s s' := by
  unfold restart at h
  by_cases c1 : t ≠ 0
  · by_cases c2 : s.nshort ≠ s.nzero
    · cases hnb : nextBucket CYCBUF_SIZE s.cycbuf t with
      | error e =>
        simp only [c1, c2, hnb, if_true, bind, Except.bind, pure, Except.pure, ne_eq,
          not_false_eq_true] at h
        cases h
      | ok t1 =>
        simp only [c1, c2, hnb, if_true, bind, Except.bind, pure, Except.pure, ne_eq,
          not_false_eq_true] at h
        split_ifs at h <;> (simp only [Except.ok.injEq] at h; subst h; rfl)
    · simp only [c1, c2, if_true, if_false, bind, Except.bind, pure, Except.pure, ne_eq,
        not_false_eq_true] at h
      split_ifs at h <;> (simp only [Except.ok.injEq] at h; subst h; rfl)
  · simp only [c1, if_false, bind, Except.bind, pure, Except.pure] at h
    split_ifs at h <;> (simp only [Except.ok.injEq] at h; subst h; rfl)

theorem restart_ok (s : State) (t : Nat)
    (h : t = 0 ∨ s.nshort = s.nzero ∨ ∃ k, k < CYCBUF_SIZE ∧ (s.cycbuf k).list ≠ 0) :
    ∃ s', restart s t = .ok s' ∧ alarmEq s s' := by
  have key : ∃ s', restart s t = .ok s' := by
    unfold restart
    simp only [bind, Except.bind, pure, Except.pure]
    by_cases c1 : t ≠ 0
    · rw [if_pos c1]
      by_cases c2 : s.nshort ≠ s.nzero
      · rw [if_pos c2]
        obtain ⟨k, hk, hne⟩ : ∃ k, k < CYCBUF_SIZE ∧ (s.cycbuf k).list ≠ 0 := by
          rcases h with h | h | h
          · exact absurd h c1
          · exact absurd h c2
          · exact h
        obtain ⟨t', ht'⟩ := nextBucket_ok_of_nonempty s.cycbuf t k hk hne
        rw [ht']
        dsimp only
        split_ifs <;> exact ⟨_, rfl⟩
      · rw [if_neg c2]
        split_ifs <;> exact ⟨_, rfl⟩
    · rw [if_neg c1]
      split_ifs <;> exact ⟨_, rfl⟩
  obtain ⟨s', hs'⟩ := key
  exact ⟨s', hs', restart_alarmEq s s' t hs'⟩

/-! ## `newcallout` -/

theorem allocSlot_fst (s : State) (t : Nat) :
    (allocSlot s t).1 =
      { s with
        flist := if s.flist ≠ 0 then u16 (s.cotab s.flist).time else s.flist
        cycbrk := if s.flist ≠ 0 then s.cycbrk else dec16 s.cycbrk
        nshort := u16 (s.nshort + 1)
        nzero := if t = 0 then u16 (s.nzero + 1) else s.nzero } := by
  unfold allocSlot
  by_cases h1 : s.flist = 0 <;> by_cases h2 : t = 0 <;> simp [h1, h2]

theorem allocSlot_snd (s : State) (t : Nat) :
    (allocSlot s t).2 = if s.flist ≠ 0 then s.flist else dec16 s.cycbrk := by
  unfold allocSlot
  by_cases h1 : s.flist = 0 <;> by_cases h2 : t = 0 <;> simp [h1, h2]

theorem allocSlot_getCbuf (s : State) (t : Nat) (r : CbufRef) :
    (allocSlot s t).1.getCbuf r = s.getCbuf r := by
  rw [allocSlot_fst]; cases r <;> rfl

theorem allocSlot_cotab (s : State) (t : Nat) (x : Nat) :
    (allocSlot s t).1.cotab x = s.cotab x := by
  rw [allocSlot_fst]; rfl

theorem alarmEq.setCotab {s s' : State} (h : alarmEq s s') (i : Nat) (v : call_out) :
    alarmEq (s.setCotab i v) (s'.setCotab i v) := by
  unfold alarmEq at *
  rw [h]; rfl

theorem alarmEq.setNext {s s' : State} (h : alarmEq s s') (i v : Nat) :
    alarmEq (s.setNext i v) (s'.setNext i v) := by
  unfold State.setNext
  rw [h.cotab]
  exact h.setCotab _ _

theorem alarmEq.setCbuf {s s' : State} (h : alarmEq s s') (r : CbufRef) (c : cbuf) :
    alarmEq (s.setCbuf r c) (s'.setCbuf r c) := by
  unfold alarmEq at *
  rw [h]; cases r <;> rfl

theorem alarmEq.setLast {s s' : State} (h : alarmEq s s') (r : CbufRef) (v : Nat) :
    alarmEq (s.setLast r v) (s'.setLast r v) := by
  unfold State.setLast
  rw [h.getCbuf]
  exact h.setCbuf _ _

/-- The result of `newcallout` is the state built by `allocSlot` and
`linkSlot`, up to the alarm registers, whenever the call of `restart` made
for a first element returns. -/
theorem newcallout_eq (s : State) (r : CbufRef) (t : Nat)
    (hre : (s.getCbuf r).list = 0 → t ≠ 0 → ∃ k, k < CYCBUF_SIZE ∧ r = .cyc k)
    (hi : (allocSlot s t).2 ≠ 0) :
    ∃ s', newcallout s r t = .ok (s', (allocSlot s t).2) ∧
      alarmEq (linkSlot (allocSlot s t).1 r (allocSlot s t).2) s' := by
  have hcb : ∀ r', (allocSlot s t).1.getCbuf r' = s.getCbuf r' := allocSlot_getCbuf s t
  unfold newcallout
  simp only [bind, Except.bind, pure, Except.pure]
  unfold linkSlot
  by_cases h0 : ((allocSlot s t).1.getCbuf r).list = 0
  · simp only [h0, if_true]
    split_ifs with hc
    · have hok := restart_ok (((allocSlot s t).1.setList r (allocSlot s t).2).setCount
        (allocSlot s t).2 1) t
        (by
          right; right
          rw [hcb] at h0
          obtain ⟨k, hk, rfl⟩ := hre h0 hc.1
          refine ⟨k, hk, ?_⟩
          simp only [State.setCount, State.setCotab, State.setList, State.setCbuf, if_true]
          exact hi)
      obtain ⟨s2, hs2, ha⟩ := hok
      rw [hs2]
      exact ⟨_, rfl, (ha.setLast _ _).setNext _ _⟩
    · exact ⟨_, rfl, alarmEq.refl _⟩
  · simp only [h0, if_false]
    exact ⟨_, rfl, alarmEq.refl _⟩

theorem getCbuf_setCotab (s : State) (i : Nat) (v : call_out) (r : CbufRef) :
    (s.setCotab i v).getCbuf r = s.getCbuf r := by
  cases r <;> rfl

theorem getCbuf_setCbuf (s : State) (r r' : CbufRef) (c : cbuf) :
    (s.setCbuf r c).getCbuf r' = if r' = r then c else s.getCbuf r' := by
  cases r <;> cases r' <;> simp [State.setCbuf, State.getCbuf]

theorem cotab_setCbuf (s : State) (r : CbufRef) (c : cbuf) (x : Nat) :
    (s.setCbuf r c).cotab x = s.cotab x := by
  cases r <;> rfl

@[simp] theorem cotab_setList (s : State) (r : CbufRef) (v x : Nat) :
    (s.setList r v).cotab x = s.cotab x := cotab_setCbuf _ _ _ _

@[simp] theorem cotab_setLast (s : State) (r : CbufRef) (v x : Nat) :
    (s.setLast r v).cotab x = s.cotab x := cotab_setCbuf _ _ _ _

@[simp] theorem getCbuf_setNext (s : State) (i v : Nat) (r : CbufRef) :
    (s.setNext i v).getCbuf r = s.getCbuf r := getCbuf_setCotab _ _ _ _

@[simp] theorem getCbuf_setCount (s : State) (i v : Nat) (r : CbufRef) :
    (s.setCount i v).getCbuf r = s.getCbuf r := getCbuf_setCotab _ _ _ _

@[simp] theorem getCbuf_setPrev (s : State) (i v : Nat) (r : CbufRef) :
    (s.setPrev i v).getCbuf r = s.getCbuf r := getCbuf_setCotab _ _ _ _

@[simp] theorem getCbuf_setHandle (s : State) (i v : Nat) (r : CbufRef) :
    (s.setHandle i v).getCbuf r = s.getCbuf r := getCbuf_setCotab _ _ _ _

theorem getCbuf_setList (s : State) (r r' : CbufRef) (v : Nat) :
    (s.setList r v).getCbuf r' = if r' = r then ⟨v, (s.getCbuf r).last⟩ else s.getCbuf r' :=
  getCbuf_setCbuf _ _ _ _

theorem getCbuf_setLast (s : State) (r r' : CbufRef) (v : Nat) :
    (s.setLast r v).getCbuf r' = if r' = r then ⟨(s.getCbuf r).list, v⟩ else s.getCbuf r' :=
  getCbuf_setCbuf _ _ _ _

@[simp] theorem setNext_handle (s : State) (i v x : Nat) :
    ((s.setNext i v).cotab x).handle = (s.cotab x).handle := by
  unfold State.setNext; rw [cotab_setCotab]; split_ifs with h <;> simp [h]

@[simp] theorem setNext_oindex (s : State) (i v x : Nat) :
    ((s.setNext i v).cotab x).oindex = (s.cotab x).oindex := by
  unfold State.setNext; rw [cotab_setCotab]; split_ifs with h <;> simp [h]

@[simp] theorem setNext_mtime (s : State) (i v x : Nat) :
    ((s.setNext i v).cotab x).mtime = (s.cotab x).mtime := by
  unfold State.setNext; rw [cotab_setCotab]; split_ifs with h <;> simp [h]

theorem setNext_time (s : State) (i v x : Nat) :
    ((s.setNext i v).cotab x).time = if x = i then v else (s.cotab x).time := by
  unfold State.setNext; rw [cotab_setCotab]; split_ifs with h <;> simp

@[simp] theorem setCount_handle (s : State) (i v x : Nat) :
    ((s.setCount i v).cotab x).handle = (s.cotab x).handle := by
  unfold State.setCount; rw [cotab_setCotab]; split_ifs with h <;> simp [h]

@[simp] theorem setCount_oindex (s : State) (i v x : Nat) :
    ((s.setCount i v).cotab x).oindex = (s.cotab x).oindex := by
  unfold State.setCount; rw [cotab_setCotab]; split_ifs with h <;> simp [h]

@[simp] theorem setCount_time (s : State) (i v x : Nat) :
    ((s.setCount i v).cotab x).time = (s.cotab x).time := by
  unfold State.setCount; rw [cotab_setCotab]; split_ifs with h <;> simp [h]

theorem setCount_mtime (s : State) (i v x : Nat) :
    ((s.setCount i v).cotab x).mtime = if x = i then v else (s.cotab x).mtime := by
  unfold State.setCount; rw [cotab_setCotab]; split_ifs with h <;> simp

@[simp] theorem setPrev_handle (s : State) (i v x : Nat) :
    ((s.setPrev i v).cotab x).handle = (s.cotab x).handle := by
  unfold State.setPrev; rw [cotab_setCotab]; split_ifs with h <;> simp [h]

@[simp] theorem setPrev_time (s : State) (i v x : Nat) :
    ((s.setPrev i v).cotab x).time = (s.cotab x).time := by
  unfold State.setPrev; rw [cotab_setCotab]; split_ifs with h <;> simp [h]

@[simp] theorem setPrev_mtime (s : State) (i v x : Nat) :
    ((s.setPrev i v).cotab x).mtime = (s.cotab x).mtime := by
  unfold State.setPrev; rw [cotab_setCotab]; split_ifs with h <;> simp [h]

theorem setPrev_oindex (s : State) (i v x : Nat) :
    ((s.setPrev i v).cotab x).oindex = if x = i then v else (s.cotab x).oindex := by
  unfold State.setPrev; rw [cotab_setCotab]; split_ifs with h <;> simp

@[simp] theorem setHandle_oindex (s : State) (i v x : Nat) :
    ((s.setHandle i v).cotab x).oindex = (s.cotab x).oindex := by
  unfold State.setHandle; rw [cotab_setCotab]; split_ifs with h <;> simp [h]

@[simp] theorem setHandle_time (s : State) (i v x : Nat) :
    ((s.setHandle i v).cotab x).time = (s.cotab x).time := by
  unfold State.setHandle; rw [cotab_setCotab]; split_ifs with h <;> simp [h]

@[simp] theorem setHandle_mtime (s : State) (i v x : Nat) :
    ((s.setHandle i v).cotab x).mtime = (s.cotab x).mtime := by
  unfold State.setHandle; rw [cotab_setCotab]; split_ifs with h <;> simp [h]

theorem setHandle_handle (s : State) (i v x : Nat) :
    ((s.setHandle i v).cotab x).handle = if x = i then v else (s.cotab x).handle := by
  unfold State.setHandle; rw [cotab_setCotab]; split_ifs with h <;> simp

theorem linkSlot_handle (s : State) (r : CbufRef) (i x : Nat) :
    ((linkSlot s r i).cotab x).handle = (s.cotab x).handle := by
  unfold linkSlot
  split_ifs <;> simp

theorem linkSlot_oindex (s : State) (r : CbufRef) (i x : Nat) :
    ((linkSlot s r i).cotab x).oindex = (s.cotab x).oindex := by
  unfold linkSlot
  split_ifs <;> simp

theorem linkSlot_time (s : State) (r : CbufRef) (i x : Nat) :
    ((linkSlot s r i).cotab x).time =
      if x = i then 0
      else if (s.getCbuf r).list ≠ 0 ∧ x = (s.getCbuf r).last then i
      else (s.cotab x).time := by
  unfold linkSlot
  split_ifs <;> simp_all [setNext_time]

theorem linkSlot_mtime (s : State) (r : CbufRef) (i x : Nat) :
    ((linkSlot s r i).cotab x).mtime =
      if (s.getCbuf r).list = 0 then (if x = i then 1 else (s.cotab x).mtime)
      else if x = (s.getCbuf r).list then u16 ((s.cotab x).mtime + 1)
      else (s.cotab x).mtime := by
  unfold linkSlot
  split_ifs <;> simp_all [setCount_mtime]

theorem linkSlot_getCbuf (s : State) (r r' : CbufRef) (i : Nat) :
    (linkSlot s r i).getCbuf r' =
      if r' = r then ⟨if (s.getCbuf r).list = 0 then i else (s.getCbuf r).list, i⟩
      else s.getCbuf r' := by
  unfold linkSlot
  split_ifs <;> simp_all [getCbuf_setList, getCbuf_setLast]

theorem sum_update_bucket (ls : CbufRef → List Nat) (k0 : Nat) (hk : k0 < CYCBUF_SIZE)
    (l : List Nat) :
    ∑ k in Finset.range CYCBUF_SIZE, (Function.update ls (.cyc k0) l (.cyc k)).length + (ls (.cyc k0)).length =
      ∑ k in Finset.range CYCBUF_SIZE, (ls (.cyc k)).length + l.length := by
  have hmem : k0 ∈ Finset.range CYCBUF_SIZE := Finset.mem_range.2 hk
  rw [← Finset.add_sum_erase _ _ hmem, ← Finset.add_sum_erase _ (fun k => (ls (.cyc k)).length) hmem]
  have e : ∑ k in (Finset.range CYCBUF_SIZE).erase k0, (Function.update ls (.cyc k0) l (.cyc k)).length =
      ∑ k in (Finset.range CYCBUF_SIZE).erase k0, (ls (.cyc k)).length := by
    apply Finset.sum_congr rfl
    intro k hk'
    have hne : k ≠ k0 := (Finset.mem_erase.1 hk').1
    rw [Function.update_noteq (by intro h; exact hne (CbufRef.cyc.inj h))]
  rw [e, Function.update_same]
  omega

theorem sum_update_other (ls : CbufRef → List Nat) (r : CbufRef) (hr : ∀ k, r ≠ .cyc k)
    (l : List Nat) :
    ∑ k in Finset.range CYCBUF_SIZE, (Function.update ls r l (.cyc k)).length =
      ∑ k in Finset.range CYCBUF_SIZE, (ls (.cyc k)).length := by
  apply Finset.sum_congr rfl
  intro k _
  rw [Function.update_noteq (fun h => hr k h.symm)]

/-- A free element is on no list. -/
theorem Wheel.free_not_listed {s : State} {fl : List Nat} {ls : CbufRef → List Nat}
    (hw : Wheel s fl ls) {x : Nat} (hx : x ∈ fl) (r : CbufRef) (hr : r.valid) : x ∉ ls r :=
  fun h => hw.handle r hr x h (hw.free_handle x hx)

theorem Wheel.lt_mod {s : State} {fl : List Nat} {ls : CbufRef → List Nat}
    (hw : Wheel s fl ls) {x : Nat} (hx : x < s.cotabsz) : x < UINDEX_MOD := by
  have := hw.cap
  omega

/-- The element handed out by `allocSlot`. -/
theorem Wheel.alloc {s : State} {fl : List Nat} {ls : CbufRef → List Nat} (hw : Wheel s fl ls)
    (t : Nat) (hroom : s.flist = 0 → 2 ≤ s.cycbrk) :
    (allocSlot s t).2 ≠ 0 ∧ (allocSlot s t).2 < s.cotabsz ∧
    (allocSlot s t).1.cycbrk ≤ (allocSlot s t).2 ∧
    (∀ r, r.valid → (allocSlot s t).2 ∉ ls r) ∧ (allocSlot s t).2 ∉ fl.tail ∧
    Chain s (allocSlot s t).1.flist fl.tail ∧
    (allocSlot s t).1.cycbrk + fl.tail.length + 1 = s.cycbrk + fl.length ∧
    (allocSlot s t).1.cycbrk ≤ s.cycbrk ∧ 1 ≤ (allocSlot s t).1.cycbrk ∧
    (∀ x, (allocSlot s t).1.cycbrk ≤ x → x < s.cycbrk → x = (allocSlot s t).2) ∧
    (∀ x ∈ fl, x = (allocSlot s t).2 ∨ x ∈ fl.tail) := by
  rw [allocSlot_fst, allocSlot_snd]
  have hcap := hw.cap
  have hb1 := hw.brk_pos
  have hb2 := hw.brk_le
  by_cases hf : s.flist = 0
  · have hfl : fl = [] := hw.free_chain.head_eq_zero_iff.1 hf
    have hd : dec16 s.cycbrk = s.cycbrk - 1 := dec16_of_pos hb1 (by omega)
    have h2 := hroom hf
    subst hfl
    simp only [hf, ne_eq, not_true_eq_false, if_false, hd, List.tail_nil, List.not_mem_nil,
      not_false_eq_true, List.length_nil]
    refine ⟨by omega, by omega, le_refl _, ?_, ?_, rfl, by omega, by omega, by omega, ?_, ?_⟩
    · intro r hr hmem
      have := (hw.range r hr _ hmem).1
      omega
    · trivial
    · intro x h1 h2; omega
    · intro x hx; exact hx.elim
  · cases fl with
    | nil => exact absurd hw.free_chain hf
    | cons a fl' =>
      obtain ⟨e1, e2, e3⟩ := hw.free_chain
      have hr := hw.free_range a (List.mem_cons_self _ _)
      have hnd := List.nodup_cons.1 hw.free_nodup
      have hn : (s.cotab a).time < UINDEX_MOD := by
        cases fl' with
        | nil => have : (s.cotab a).time = 0 := e3; rw [this]; decide
        | cons b fl'' =>
          obtain ⟨e, _, _⟩ := e3
          rw [e]
          exact hw.lt_mod (hw.free_range b (by simp)).2
      simp only [hf, ne_eq, not_false_eq_true, if_true, List.tail_cons, List.length_cons]
      rw [e1, u16_of_lt hn]
      refine ⟨trivial, hr.2, hr.1, ?_, hnd.1, e3, by omega, le_refl _, hb1, ?_, ?_⟩
      · intro r hr'
        exact hw.free_not_listed (List.mem_cons_self _ _) r hr'
      · intro x h1 h2; omega
      · intro x hx
        rcases List.mem_cons.1 hx with h | h
        · exact Or.inl h
        · exact Or.inr h

theorem alarmEq.fields {s s' : State} (h : alarmEq s s') :
    s'.flist = s.flist ∧ s'.cycbrk = s.cycbrk ∧ s'.cotabsz = s.cotabsz ∧ s'.nzero = s.nzero ∧
    s'.nshort = s.nshort ∧ s'.queuebrk = s.queuebrk ∧ s'.timestamp = s.timestamp ∧
    s'.cycbuf = s.cycbuf ∧ s'.timediff = s.timediff := by
  unfold alarmEq at h
  rw [h]
  exact ⟨rfl, rfl, rfl, rfl, rfl, rfl, rfl, rfl, rfl⟩

theorem linkSlot_fields (s : State) (r : CbufRef) (i : Nat) :
    (linkSlot s r i).flist = s.flist ∧ (linkSlot s r i).cycbrk = s.cycbrk ∧
    (linkSlot s r i).cotabsz = s.cotabsz ∧ (linkSlot s r i).nzero = s.nzero ∧
    (linkSlot s r i).nshort = s.nshort ∧ (linkSlot s r i).queuebrk = s.queuebrk ∧
    (linkSlot s r i).timestamp = s.timestamp ∧ (linkSlot s r i).timediff = s.timediff := by
  unfold linkSlot
  split_ifs <;> cases r <;> exact ⟨rfl, rfl, rfl, rfl, rfl, rfl, rfl, rfl⟩

theorem mem_update_snoc (ls : CbufRef → List Nat) (r r' : CbufRef) (i x : Nat) :
    x ∈ Function.update ls r (ls r ++ [i]) r' ↔ x ∈ ls r' ∨ (r' = r ∧ x = i) := by
  by_cases h : r' = r
  · subst h
    simp [Function.update_same]
  · simp [Function.update_noteq h, h]

/-- The cyclic-buffer invariant after `newcallout` has put a new element at
the end of the list `r` and the caller has stored a handle `h ≠ 0` in it. -/
theorem Wheel.link {s : State} {fl : List Nat} {ls : CbufRef → List Nat} (hw : Wheel s fl ls)
    (r : CbufRef) (hr : r.valid) (t h o : Nat)
    (hcase : (r = .immediate ∧ t = 0) ∨ (t ≠ 0 ∧ ∃ k, r = .cyc k))
    (hroom : s.flist = 0 → 2 ≤ s.cycbrk) (hh : h ≠ 0) (s' : State)
    (hs' : alarmEq ((linkSlot (allocSlot s t).1 r (allocSlot s t).2).setCotab (allocSlot s t).2
      { (linkSlot (allocSlot s t).1 r (allocSlot s t).2).cotab (allocSlot s t).2 with
        handle := h, oindex := o }) s') :
    Wheel s' fl.tail (Function.update ls r (ls r ++ [(allocSlot s t).2])) := by
  obtain ⟨hi0, hisz, hicyc, hifresh, hitail, hfchain, hlen, hcycle, hcyc1, hgap, hflmem⟩ :=
    hw.alloc t hroom
  have hfst := allocSlot_fst s t
  generalize hi : (allocSlot s t).2 = i at *
  generalize hs0 : (allocSlot s t).1 = s0 at *
  have hcb0 : ∀ r', s0.getCbuf r' = s.getCbuf r' := by
    intro r'; rw [← hs0]; exact allocSlot_getCbuf s t r'
  have hct0 : ∀ x, s0.cotab x = s.cotab x := by
    intro x; rw [← hs0]; exact allocSlot_cotab s t x
  have hs0sz : s0.cotabsz = s.cotabsz := by rw [hfst]
  have hs0nz : s0.nzero = if t = 0 then u16 (s.nzero + 1) else s.nzero := by rw [hfst]
  have hs0ns : s0.nshort = u16 (s.nshort + 1) := by rw [hfst]
  clear hfst
  obtain ⟨a1, a2, a3, a4, a5, a6, a7, a8, a9⟩ := hs'.fields
  obtain ⟨l1, l2, l3, l4, l5, l6, l7, l8⟩ := linkSlot_fields s0 r i
  have hH : ∀ x, (s'.cotab x).handle = if x = i then h else (s.cotab x).handle := by
    intro x
    rw [hs'.cotab, cotab_setCotab]
    split_ifs with hx
    · rfl
    · rw [linkSlot_handle, hct0]
  have hT : ∀ x, (s'.cotab x).time =
      if x = i then 0
      else if (s.getCbuf r).list ≠ 0 ∧ x = (s.getCbuf r).last then i
      else (s.cotab x).time := by
    intro x
    rw [hs'.cotab, cotab_setCotab]
    split_ifs with hx h2
    · show ((linkSlot s0 r i).cotab i).time = 0
      rw [linkSlot_time, if_pos rfl]
    · rw [linkSlot_time, if_neg hx, hcb0, if_pos h2]
    · rw [linkSlot_time, if_neg hx, hcb0, if_neg h2, hct0]
  have hM : ∀ x, (s'.cotab x).mtime =
      if (s.getCbuf r).list = 0 then (if x = i then 1 else (s.cotab x).mtime)
      else if x = (s.getCbuf r).list then u16 ((s.cotab x).mtime + 1)
      else (s.cotab x).mtime := by
    intro x
    rw [hs'.cotab, cotab_setCotab]
    by_cases hx : x = i
    · subst hx
      rw [if_pos rfl]
      show ((linkSlot s0 r x).cotab x).mtime = _
      rw [linkSlot_mtime, hcb0, hct0]
    · rw [if_neg hx, linkSlot_mtime, hcb0, hct0]
  have hO : ∀ x, x ≠ i → (s'.cotab x).oindex = (s.cotab x).oindex := by
    intro x hx
    rw [hs'.cotab, cotab_setCotab, if_neg hx, linkSlot_oindex, hct0]
  have hC : ∀ r', s'.getCbuf r' =
      if r' = r then ⟨if (s.getCbuf r).list = 0 then i else (s.getCbuf r).list, i⟩
      else s.getCbuf r' := by
    intro r'
    rw [hs'.getCbuf, getCbuf_setCotab, linkSlot_getCbuf, hcb0, hcb0]
  have hcyc' : s'.cycbrk = s0.cycbrk := by rw [a2]; exact l2
  have hsz' : s'.cotabsz = s.cotabsz := by
    rw [a3]; show (linkSlot s0 r i).cotabsz = _; rw [l3, hs0sz]
  have hfl' : s'.flist = s0.flist := by rw [a1]; exact l1
  -- the list `r` and its last element
  have hnil : (s.getCbuf r).list = 0 ↔ ls r = [] := (hw.chain r hr).head_eq_zero_iff
  have hlast_mem : (s.getCbuf r).list ≠ 0 → (s.getCbuf r).last ∈ ls r := by
    intro hne
    have hne' : ls r ≠ [] := fun e => hne (hnil.2 e)
    obtain ⟨z, hz⟩ : ∃ z, (ls r).getLast? = some z := by
      cases hl : (ls r).getLast? with
      | none => exact absurd (List.getLast?_eq_none_iff.1 hl) hne'
      | some z => exact ⟨z, rfl⟩
    rw [hw.last r hr z hz]
    obtain ⟨ys, hys⟩ := List.getLast?_eq_some_iff.1 hz
    rw [hys]
    simp
  have hhead_mem : ∀ r', r'.valid → ls r' ≠ [] → (s.getCbuf r').list ∈ ls r' := by
    intro r' hr' hne
    exact List.mem_of_mem_head? ((hw.chain r' hr').head?_eq hne)
  have hfree_ne : ∀ x ∈ fl.tail, x ≠ i := fun x hx e => hitail (e ▸ hx)
  have hfree_time : ∀ x ∈ fl.tail, (s'.cotab x).time = (s.cotab x).time := by
    intro x hx
    rw [hT, if_neg (hfree_ne x hx), if_neg]
    rintro ⟨h1, h2⟩
    exact hw.free_not_listed (List.mem_of_mem_tail hx) r hr (h2 ▸ hlast_mem h1)
  have hother_time : ∀ r', r'.valid → r' ≠ r → ∀ x ∈ ls r', (s'.cotab x).time = (s.cotab x).time := by
    intro r' hr' hne x hx
    rw [hT, if_neg (show ¬ x = i from fun e => hifresh r' hr' (e ▸ hx)), if_neg]
    rintro ⟨h1, h2⟩
    exact hw.disj r' r hr' hr hne x hx (h2 ▸ hlast_mem h1)
  have hsum_le : ∀ k, k < CYCBUF_SIZE → (ls (.cyc k)).length ≤ s.nshort := by
    intro k hk
    have := Finset.single_le_sum (f := fun k => (ls (CbufRef.cyc k)).length)
      (fun _ _ => Nat.zero_le _) (Finset.mem_range.2 hk)
    have h2 := hw.nshort
    simp only at this
    omega
  have htot := hw.total
  have hcap := hw.cap
  have hnz := hw.nzero
  have hns := hw.nshort
  refine
    { cap := by rw [hsz']; exact hw.cap
      brk_pos := by rw [hcyc']; exact hcyc1
      brk_le := by rw [hcyc', hsz']; exact le_trans hcycle hw.brk_le
      free_chain := by rw [hfl']; exact hfchain.congr hfree_time
      free_prev := ?_
      free_handle := ?_
      free_range := ?_
      free_nodup := hw.free_nodup.sublist (List.tail_sublist fl)
      chain := ?_
      last := ?_
      count := ?_
      handle := ?_
      range := ?_
      nodup := ?_
      disj := ?_
      cover := ?_
      nzero := ?_
      nshort := ?_
      total := ?_ }
  · -- free_prev
    have h1 := (List.Chain'.iff_mem.1 hw.free_prev.tail)
    refine h1.imp ?_
    rintro a b ⟨_, hb, hab⟩
    rw [hO b (hfree_ne b hb)]
    exact hab
  · -- free_handle
    intro x hx
    rw [hH, if_neg (hfree_ne x hx)]
    exact hw.free_handle x (List.mem_of_mem_tail hx)
  · -- free_range
    intro x hx
    have := hw.free_range x (List.mem_of_mem_tail hx)
    rw [hcyc', hsz']
    exact ⟨le_trans hcycle this.1, this.2⟩
  · -- chain
    intro r' hr'
    rw [hC]
    by_cases hrr : r' = r
    · subst hrr
      rw [if_pos rfl, Function.update_same]
      by_cases h0 : (s.getCbuf r').list = 0
      · rw [if_pos h0, hnil.1 h0]
        refine ⟨rfl, hi0, ?_⟩
        rw [hT, if_pos rfl]
        exact rfl
      · rw [if_neg h0]
        have hne' : ls r' ≠ [] := fun e => h0 (hnil.2 e)
        obtain ⟨z, hz⟩ : ∃ z, (ls r').getLast? = some z := by
          cases hl : (ls r').getLast? with
          | none => exact absurd (List.getLast?_eq_none_iff.1 hl) hne'
          | some z => exact ⟨z, rfl⟩
        obtain ⟨ys, hys⟩ := List.getLast?_eq_some_iff.1 hz
        have hzl := hw.last r' hr' z hz
        have hnd := hw.nodup r' hr'
        have hch := hw.chain r' hr'
        rw [hys] at hnd hch ⊢
        have hzi : z ≠ i := by
          intro e
          apply hifresh r' hr'
          rw [hys, ← e]
          simp
        refine Chain.snoc hi0 (by rw [hT, if_pos rfl]) ?_ hch ?_
        · rw [hT, if_neg hzi, if_pos ⟨h0, hzl.symm⟩]
        · intro x hx
          have hxi : x ≠ i := by
            intro e
            apply hifresh r' hr'
            rw [hys, ← e]
            simp [hx]
          have hxz : x ≠ z := by
            intro e
            rw [List.nodup_append] at hnd
            exact hnd.2.2 hx (by simp [e])
          rw [hT, if_neg hxi, if_neg]
          rintro ⟨_, h2⟩
          exact hxz (h2.trans hzl)
    · rw [if_neg hrr, Function.update_noteq hrr]
      exact (hw.chain r' hr').congr (hother_time r' hr' hrr)
  · -- last
    intro r' hr' x hx
    rw [hC]
    by_cases hrr : r' = r
    · subst hrr
      rw [Function.update_same, List.getLast?_concat] at hx
      rw [if_pos rfl]
      exact (Option.some.inj hx)
    · rw [if_neg hrr]
      rw [Function.update_noteq hrr] at hx
      exact hw.last r' hr' x hx
  · -- count
    intro k hk hne
    have hck : s'.cycbuf k = s'.getCbuf (.cyc k) := rfl
    rw [hck, hC, hM]
    by_cases hrr : CbufRef.cyc k = r
    · subst hrr
      rw [if_pos rfl, Function.update_same, List.length_append, List.length_singleton]
      by_cases h0 : (s.getCbuf (.cyc k)).list = 0
      · simp only [h0, if_true, hnil.1 h0, List.length_nil]
      · have hne' : ls (.cyc k) ≠ [] := fun e => h0 (hnil.2 e)
        simp only [h0, if_false, if_true]
        have hc := hw.count k hk hne'
        have hle := hsum_le k hk
        have hck0 : (s.getCbuf (.cyc k)).list = (s.cycbuf k).list := rfl
        rw [hck0, hc, u16_of_lt (by omega)]
    · rw [if_neg hrr]
      rw [Function.update_noteq hrr] at hne ⊢
      have hmem := hhead_mem (.cyc k) hk hne
      have hxi : (s.getCbuf (.cyc k)).list ≠ i := fun e => hifresh (.cyc k) hk (e ▸ hmem)
      by_cases h0 : (s.getCbuf r).list = 0
      · rw [if_pos h0, if_neg hxi]
        exact hw.count k hk hne
      · rw [if_neg h0, if_neg]
        · exact hw.count k hk hne
        · intro e
          have hne' : ls r ≠ [] := fun e => h0 (hnil.2 e)
          exact hw.disj (.cyc k) r hk hr hrr _ hmem (e ▸ hhead_mem r hr hne')
  · -- handle
    intro r' hr' x hx
    rw [hH]
    rcases (mem_update_snoc ls r r' i x).1 hx with hx | ⟨_, hx⟩
    · rw [if_neg (show ¬ x = i from fun e => hifresh r' hr' (e ▸ hx))]
      exact hw.handle r' hr' x hx
    · rw [if_pos hx]; exact hh
  · -- range
    intro r' hr' x hx
    rw [hcyc', hsz']
    rcases (mem_update_snoc ls r r' i x).1 hx with hx | ⟨_, hx⟩
    · have := hw.range r' hr' x hx
      exact ⟨le_trans hcycle this.1, this.2⟩
    · rw [hx]; exact ⟨hicyc, hisz⟩
  · -- nodup
    intro r' hr'
    by_cases hrr : r' = r
    · subst hrr
      rw [Function.update_same]
      refine List.Nodup.append (hw.nodup r' hr') (List.nodup_singleton _) ?_
      intro x hx hx'
      rw [List.mem_singleton] at hx'
      exact hifresh r' hr' (hx' ▸ hx)
    · rw [Function.update_noteq hrr]
      exact hw.nodup r' hr'
  · -- disj
    intro r1 r2 h1 h2 hne x hx hx'
    rcases (mem_update_snoc ls r r1 i x).1 hx with hx | ⟨e1, hx⟩
    · rcases (mem_update_snoc ls r r2 i x).1 hx' with hx' | ⟨_, hx'⟩
      · exact hw.disj r1 r2 h1 h2 hne x hx hx'
      · exact hifresh r1 h1 (hx' ▸ hx)
    · rcases (mem_update_snoc ls r r2 i x).1 hx' with hx' | ⟨e2, _⟩
      · exact hifresh r2 h2 (hx ▸ hx')
      · exact hne (e1.trans e2.symm)
  · -- cover
    intro x hx1 hx2
    rw [hcyc'] at hx1
    rw [hsz'] at hx2
    by_cases hxc : s.cycbrk ≤ x
    · rcases hw.cover x hxc hx2 with hf | ⟨r', hr', hx⟩
      · rcases hflmem x hf with e | hf'
        · exact Or.inr ⟨r, hr, (mem_update_snoc ls r r i x).2 (Or.inr ⟨rfl, e⟩)⟩
        · exact Or.inl hf'
      · exact Or.inr ⟨r', hr', (mem_update_snoc ls r r' i x).2 (Or.inl hx)⟩
    · have := hgap x hx1 (by omega)
      exact Or.inr ⟨r, hr, (mem_update_snoc ls r r i x).2 (Or.inr ⟨rfl, this⟩)⟩
  · -- nzero
    rw [a4]
    show (linkSlot s0 r i).nzero = _
    rw [l4, hs0nz]
    rcases hcase with ⟨e, ht⟩ | ⟨ht, k, e⟩
    · subst e
      rw [if_pos ht, Function.update_same, Function.update_noteq (by decide),
        List.length_append, List.length_singleton, u16_of_lt (by omega)]
      omega
    · subst e
      rw [if_neg ht, Function.update_noteq (by simp), Function.update_noteq (by simp)]
      exact hnz
  · -- nshort
    rw [a5, a4]
    show (linkSlot s0 r i).nshort = (linkSlot s0 r i).nzero + _
    rw [l5, l4, hs0nz, hs0ns]
    rcases hcase with ⟨e, ht⟩ | ⟨ht, k, e⟩
    · subst e
      rw [if_pos ht, sum_update_other ls .immediate (by simp), u16_of_lt (by omega),
        u16_of_lt (by omega)]
      omega
    · subst e
      have := sum_update_bucket ls k hr (ls (.cyc k) ++ [i])
      rw [List.length_append, List.length_singleton] at this
      rw [if_neg ht, u16_of_lt (by omega)]
      omega
  · -- total
    rw [a5]
    show (linkSlot s0 r i).nshort + _ + _ = _
    rw [l5, hcyc', hsz', hs0ns, u16_of_lt (by omega)]
    omega

/-! ## `dequeue` of the root -/

theorem keyLe_total (a b : call_out) : keyLe a b ∨ keyLe b a := by
  unfold keyLe; omega

/-- In an ordered heap the sentinel and the root are not later than any entry. -/
theorem HeapOrdered.root_le {l : Nat → call_out} {n : Nat} (h : HeapOrdered l n) :
    ∀ k, 1 ≤ k → k ≤ n → keyLe (l 0) (l k) ∧ keyLe (l 1) (l k) := by
  intro k
  induction k using Nat.strong_induction_on with
  | _ k ih =>
    intro h1 hn
    by_cases hk : k = 1
    · subst hk
      exact ⟨h 1 (le_refl _) hn, keyLe_refl _⟩
    · have hp := h k h1 hn
      obtain ⟨e1, e2⟩ := ih (k / 2) (by omega) (by omega) (by omega)
      exact ⟨keyLe_trans e1 hp, keyLe_trans e2 hp⟩

/-- The sift-down loop, started at a hole `i` above which the table is
ordered once the hole is filled with the last entry `v = l[q]`, returns a
hole where `v` fits. -/
theorem siftDown_spec (q t : Nat) (m : Int) (v : call_out) (hvt : v.time = t)
    (hvm : (v.mtime : Int) = m) (hq : 2 * q < UINDEX_MOD) :
    ∀ (fuel : Nat) (l : Nat → call_out) (i : Nat), q + 1 ≤ fuel + i → 1 ≤ i → i ≤ q →
      l q = v →
      (∀ c, 1 ≤ c → c ≤ q → c / 2 ≠ i → keyLe (setMem l i v (c / 2)) (setMem l i v c)) →
      (∀ c, 1 ≤ c → c ≤ q → c / 2 = i → keyLe (l (i / 2)) (l c)) →
      ∃ l' i', siftDown fuel l q i t m = .ok (l', i') ∧ i ≤ i' ∧ i' ≤ q ∧
        setMem l' i' v q = v ∧ l' 0 = l 0 ∧ (∀ k, q < k → l' k = l k) ∧
        (∀ k, k < i → l' k = l k) ∧
        HeapOrdered (setMem l' i' v) q ∧
        (∀ w : call_out, (heapEntries (setMem l' i' w) q).Perm (heapEntries (setMem l i w) q)) := by
  intro fuel
  induction fuel with
  | zero => intro l i h _ h2; omega
  | succ fuel ih =>
    intro l i hf hi1 hiq hlq ha hb
    unfold siftDown
    have hj : u16 (i * 2) = i * 2 := u16_of_lt (by omega)
    simp only [hj]
    have stop : HeapOrdered (setMem l i v) q →
        ∃ l' i', (Except.ok (l, i) : Except Fault ((Nat → call_out) × Nat)) = .ok (l', i') ∧
          i ≤ i' ∧ i' ≤ q ∧
          setMem l' i' v q = v ∧ l' 0 = l 0 ∧ (∀ k, q < k → l' k = l k) ∧
          (∀ k, k < i → l' k = l k) ∧
          HeapOrdered (setMem l' i' v) q ∧
          (∀ w : call_out,
            (heapEntries (setMem l' i' w) q).Perm (heapEntries (setMem l i w) q)) := by
      intro hh
      refine ⟨l, i, rfl, le_refl _, hiq, ?_, rfl, fun _ _ => rfl, fun _ _ => rfl, hh,
        fun _ => List.Perm.refl _⟩
      by_cases hqi : q = i
      · rw [hqi, setMem_same]
      · rw [setMem_other _ _ _ _ hqi, hlq]
    by_cases hlt : i * 2 < q
    · rw [if_pos hlt]
      set j := if (l (i * 2)).time > (l (i * 2 + 1)).time ∨
          ((l (i * 2)).time = (l (i * 2 + 1)).time ∧ (l (i * 2)).mtime > (l (i * 2 + 1)).mtime)
        then u16 (i * 2 + 1) else i * 2 with hjdef
      have hj1 : u16 (i * 2 + 1) = i * 2 + 1 := u16_of_lt (by omega)
      have hjc : (j = i * 2 ∨ j = i * 2 + 1) ∧ keyLe (l j) (l (i * 2)) ∧
          keyLe (l j) (l (i * 2 + 1)) := by
        rw [hjdef]
        split_ifs with hc
        · rw [hj1]
          refine ⟨Or.inr rfl, ?_, keyLe_refl _⟩
          unfold keyLe; omega
        · refine ⟨Or.inl rfl, keyLe_refl _, ?_⟩
          unfold keyLe; omega
      obtain ⟨hjv, hjl, hjr⟩ := hjc
      have hji : j / 2 = i := by omega
      have hjq : j ≤ q := by omega
      have hj1' : 1 ≤ j := by omega
      have hchild : ∀ c, 1 ≤ c → c ≤ q → c / 2 = i → keyLe (l j) (l c) := by
        intro c _ _ hc
        have : c = i * 2 ∨ c = i * 2 + 1 := by omega
        rcases this with e | e <;> rw [e]
        · exact hjl
        · exact hjr
      by_cases hbrk : t < (l j).time ∨ (t = (l j).time ∧ m ≤ ((l j).mtime : Int))
      · rw [if_pos hbrk]
        apply stop
        intro c hc1 hcq
        by_cases hci : c / 2 = i
        · have hcne : c ≠ i := by omega
          rw [hci, setMem_same, setMem_other _ _ _ _ hcne]
          refine keyLe_trans ?_ (hchild c hc1 hcq hci)
          unfold keyLe; omega
        · exact ha c hc1 hcq hci
      · rw [if_neg hbrk]
        have hlv : keyLe (l j) v := by unfold keyLe; omega
        have hiq' : i ≠ q := by omega
        obtain ⟨l', i', hr, h1, h2, h3, h4, h5, h6, h7, h8⟩ :=
          ih (setMem l i (l j)) j (by omega) hj1' hjq
            (by rw [setMem_other _ _ _ _ (Ne.symm hiq')]; exact hlq)
            (by
              intro c hc1 hcq hcj
              by_cases hcj' : c = j
              · rw [hcj', setMem_same, hji, setMem_other _ _ _ _ (by omega : i ≠ j), setMem_same]
                exact hlv
              · rw [setMem_other _ _ _ _ hcj', setMem_other _ _ _ _ hcj]
                by_cases hci : c = i
                · subst hci
                  rw [setMem_same, setMem_other _ _ _ _ (by omega : c / 2 ≠ c)]
                  exact hb j hj1' hjq hji
                · rw [setMem_other _ _ _ _ hci]
                  by_cases hpi : c / 2 = i
                  · rw [hpi, setMem_same]
                    exact hchild c hc1 hcq hpi
                  · rw [setMem_other _ _ _ _ hpi]
                    have := ha c hc1 hcq hpi
                    rw [setMem_other _ _ _ _ hpi, setMem_other _ _ _ _ hci] at this
                    exact this)
            (by
              intro c hc1 hcq hcj
              have hci : c ≠ i := by omega
              rw [hji, setMem_same, setMem_other _ _ _ _ hci]
              have := ha c hc1 hcq (by omega)
              rw [hcj, setMem_other _ _ _ _ (by omega : j ≠ i), setMem_other _ _ _ _ hci] at this
              exact this)
        refine ⟨l', i', hr, by omega, h2, h3, ?_, ?_, ?_, h7, ?_⟩
        · rw [h4, setMem_other _ _ _ _ (by omega)]
        · intro k hk; rw [h5 k hk, setMem_other _ _ _ _ (by omega)]
        · intro k hk; rw [h6 k (by omega), setMem_other _ _ _ _ (by omega)]
        · intro w
          refine (h8 w).trans ?_
          apply heapEntries_swap _ _ q i j hi1 hiq hj1' hjq
          · rw [setMem_other _ _ _ _ (by omega : i ≠ j), setMem_same,
              setMem_other _ _ _ _ (by omega : j ≠ i)]
          · rw [setMem_same, setMem_same]
          · intro k hki hkj
            rw [setMem_other _ _ _ _ hkj, setMem_other _ _ _ _ hki, setMem_other _ _ _ _ hki]
    · rw [if_neg hlt]
      apply stop
      intro c hc1 hcq
      by_cases hci : c / 2 = i
      · have hcq' : c = q := by omega
        have hcne : c ≠ i := by omega
        rw [hci, setMem_same, setMem_other _ _ _ _ hcne, hcq', hlq]
        exact keyLe_refl _
      · exact ha c hc1 hcq hci

theorem toShort_of_lt {n : Nat} (h : n < 32768) : toShort n = (n : Int) := by
  unfold toShort UINDEX_MOD
  have : n % 65536 = n := Nat.mod_eq_of_lt (by omega)
  rw [this, if_pos h]

/-- Removing the root of an ordered heap: `dequeue(0)` returns, touches only
the heap slots, and leaves an ordered heap holding the other entries. -/
theorem dequeue_root (s : State) (hh : HeapInv s) (hq1 : 1 ≤ s.queuebrk)
    (hcap : 2 * s.queuebrk < UINDEX_MOD) :
    ∃ s', dequeue s 0 = .ok s' ∧ s' = { s with mem := s'.mem, queuebrk := s.queuebrk - 1 } ∧
      HeapOrdered s'.mem (s.queuebrk - 1) ∧ s'.mem 0 = s.mem 0 ∧
      (∀ k, s.queuebrk < k → s'.mem k = s.mem k) ∧
      (heapEntries s.mem s.queuebrk).Perm (s.mem 1 :: heapEntries s'.mem (s.queuebrk - 1)) := by
  have hroot := hh.ordered.root_le
  have hms := hh.msec s.queuebrk hq1 (le_refl _)
  have hm : toShort (s.mem s.queuebrk).mtime = ((s.mem s.queuebrk).mtime : Int) :=
    toShort_of_lt (by omega)
  have hnlt : ¬ (s.mem s.queuebrk).time < (s.mem 1).time := by
    have := (hroot s.queuebrk hq1 (le_refl _)).2
    unfold keyLe at this
    omega
  obtain ⟨l', i', hr, h1, h2, h3, h4, h5, h6, h7, h8⟩ :=
    siftDown_spec s.queuebrk (s.mem s.queuebrk).time ((s.mem s.queuebrk).mtime : Int)
      (s.mem s.queuebrk) rfl rfl hcap UINDEX_MOD s.mem 1 (by unfold UINDEX_MOD at *; omega)
      (le_refl _) hq1 rfl
      (by
        intro c hc1 hcq hc
        by_cases hc1' : c = 1
        · subst hc1'
          rw [setMem_same, setMem_other _ _ _ _ (by decide)]
          exact (hroot s.queuebrk hq1 (le_refl _)).1
        · rw [setMem_other _ _ _ _ hc1', setMem_other _ _ _ _ hc]
          exact hh.ordered c hc1 hcq)
      (by
        intro c hc1 hcq _
        exact (hroot c hc1 hcq).1)
  have hd : dec16 s.queuebrk = s.queuebrk - 1 := dec16_of_pos hq1 (by omega)
  have hu : u16 (0 + 1) = 1 := by decide
  have hfin : ∀ k, k ≠ s.queuebrk →
      setMem l' i' (l' s.queuebrk) k = setMem l' i' (s.mem s.queuebrk) k := by
    intro k hk
    by_cases e : i' = s.queuebrk
    · rw [setMem_other _ _ _ _ (by omega), setMem_other _ _ _ _ (by omega)]
    · rw [setMem_other _ _ _ _ (Ne.symm e)] at h3
      rw [h3]
  have hperm : (heapEntries s.mem s.queuebrk).Perm
      (s.mem 1 :: heapEntries (setMem l' i' (s.mem s.queuebrk)) (s.queuebrk - 1)) := by
    have hF := h8 (s.mem s.queuebrk)
    by_cases hq : s.queuebrk = 1
    · have hi' : i' = 1 := by omega
      rw [hq]
      simp [heapEntries, List.range_succ]
    · obtain ⟨n, hn⟩ : ∃ n, s.queuebrk = n + 1 := ⟨s.queuebrk - 1, by omega⟩
      rw [hn] at hF h3 ⊢
      rw [Nat.add_sub_cancel]
      rw [heapEntries_succ, heapEntries_succ, h3, setMem_other _ _ _ _ (by omega : n + 1 ≠ 1)] at hF
      have hF' := (List.perm_append_right_iff _).1 hF
      have hsw := heapEntries_swap s.mem (setMem (setMem s.mem 1 (s.mem (n + 1))) (n + 1) (s.mem 1))
        (n + 1) 1 (n + 1) (le_refl _) (by omega) (by omega) (le_refl _)
        (by rw [setMem_other _ _ _ _ (by omega : 1 ≠ n + 1), setMem_same])
        (by rw [setMem_same])
        (by intro k hk1 hk2; rw [setMem_other _ _ _ _ hk2, setMem_other _ _ _ _ hk1])
      rw [heapEntries_succ, setMem_same] at hsw
      rw [heapEntries_congr (setMem s.mem 1 (s.mem (n + 1)))
        (setMem (setMem s.mem 1 (s.mem (n + 1))) (n + 1) (s.mem 1)) n
        (fun k _ hk => setMem_other _ _ _ _ (by omega))] at hsw
      refine hsw.symm.trans ?_
      refine (List.perm_append_singleton _ _).trans ?_
      exact List.Perm.cons _ hF'.symm
  unfold dequeue
  simp only [hu, hm, if_neg hnlt, hr, bind, Except.bind, pure, Except.pure, hd]
  refine ⟨_, rfl, rfl, ?_, ?_, ?_, ?_⟩
  · intro c hc1 hcq
    show keyLe (setMem l' i' _ _) (setMem l' i' _ _)
    rw [hfin _ (by omega), hfin _ (by omega)]
    exact h7 c hc1 (by omega)
  · show setMem l' i' _ 0 = _
    rw [hfin _ (by omega), setMem_other _ _ _ _ (by omega), h4]
  · intro k hk
    show setMem l' i' _ k = _
    rw [hfin _ (by omega), setMem_other _ _ _ _ (by omega), h5 k hk]
  · show (heapEntries s.mem s.queuebrk).Perm (s.mem 1 :: heapEntries (setMem l' i' _) _)
    rw [heapEntries_congr (setMem l' i' (s.mem s.queuebrk)) (setMem l' i' (l' s.queuebrk))
      (s.queuebrk - 1) (fun k _ hk => hfin k (by omega))]
    exact hperm

/-! ## Moving the root of the heap to the immediate list -/

/-- The cyclic-buffer invariant looks only at the region and at the
variables of the cyclic buffer. -/
theorem Wheel.frame {s s' : State} {fl : List Nat} {ls : CbufRef → List Nat} (hw : Wheel s fl ls)
    (hc : ∀ x, s.cycbrk ≤ x → x < s.cotabsz → s'.cotab x = s.cotab x)
    (hg : ∀ r, s'.getCbuf r = s.getCbuf r)
    (hf : s'.flist = s.flist) (hb : s'.cycbrk = s.cycbrk) (hz : s'.cotabsz = s.cotabsz)
    (hnz : s'.nzero = s.nzero) (hns : s'.nshort = s.nshort) : Wheel s' fl ls := by
  have hcl : ∀ r, r.valid → ∀ x ∈ ls r, s'.cotab x = s.cotab x := fun r hr x hx =>
    hc x (hw.range r hr x hx).1 (hw.range r hr x hx).2
  have hcf : ∀ x ∈ fl, s'.cotab x = s.cotab x := fun x hx =>
    hc x (hw.free_range x hx).1 (hw.free_range x hx).2
  refine
    { cap := by rw [hz]; exact hw.cap
      brk_pos := by rw [hb]; exact hw.brk_pos
      brk_le := by rw [hb, hz]; exact hw.brk_le
      free_chain := by rw [hf]; exact hw.free_chain.congr (fun x hx => by rw [hcf x hx])
      free_prev := ?_
      free_handle := fun x hx => by rw [hcf x hx]; exact hw.free_handle x hx
      free_range := fun x hx => by rw [hb, hz]; exact hw.free_range x hx
      free_nodup := hw.free_nodup
      chain := fun r hr => by
        rw [hg]; exact (hw.chain r hr).congr (fun x hx => by rw [hcl r hr x hx])
      last := fun r hr x hx => by rw [hg]; exact hw.last r hr x hx
      count := ?_
      handle := fun r hr x hx => by rw [hcl r hr x hx]; exact hw.handle r hr x hx
      range := fun r hr x hx => by rw [hb, hz]; exact hw.range r hr x hx
      nodup := hw.nodup
      disj := hw.disj
      cover := fun x h1 h2 => by rw [hb] at h1; rw [hz] at h2; exact hw.cover x h1 h2
      nzero := by rw [hnz]; exact hw.nzero
      nshort := by rw [hns, hnz]; exact hw.nshort
      total := by rw [hns, hb, hz]; exact hw.total }
  · refine (List.Chain'.iff_mem.1 hw.free_prev).imp ?_
    rintro a b ⟨_, hb', hab⟩
    rw [hcf b hb']
    exact hab
  · intro k hk hne
    have hck : s'.cycbuf k = s'.getCbuf (.cyc k) := rfl
    have hck0 : s.cycbuf k = s.getCbuf (.cyc k) := rfl
    rw [hck, hg, ← hck0]
    have hmem : (s.cycbuf k).list ∈ ls (.cyc k) :=
      List.mem_of_mem_head? ((hw.chain (.cyc k) hk).head?_eq hne)
    rw [hcl (.cyc k) hk _ hmem]
    exact hw.count k hk hne

theorem Wheel.alarm {s s' : State} {fl : List Nat} {ls : CbufRef → List Nat} (hw : Wheel s fl ls)
    (h : alarmEq s s') : Wheel s' fl ls := by
  obtain ⟨a1, a2, a3, a4, a5, -, -, -, -⟩ := h.fields
  exact hw.frame (fun x _ _ => h.cotab x) h.getCbuf a1 a2 a3 a4 a5

theorem linkSlot_mem_zero (s : State) (r : CbufRef) (i : Nat) :
    (linkSlot s r i).mem 0 = s.mem 0 := by
  unfold linkSlot
  split_ifs <;> cases r <;> rfl

theorem call_out_ext {a b : call_out} (h1 : a.handle = b.handle) (h2 : a.oindex = b.oindex)
    (h3 : a.time = b.time) (h4 : a.mtime = b.mtime) : a = b := by
  cases a; cases b; simp_all

/-- The elements that `linkSlot` writes: the new one, and the head and the
last element of a non-empty list. -/
theorem linkSlot_cotab_other (s : State) (r : CbufRef) (i x : Nat) (hx : x ≠ i)
    (h1 : (s.getCbuf r).list ≠ 0 → x ≠ (s.getCbuf r).list ∧ x ≠ (s.getCbuf r).last) :
    (linkSlot s r i).cotab x = s.cotab x := by
  apply call_out_ext
  · exact linkSlot_handle s r i x
  · exact linkSlot_oindex s r i x
  · rw [linkSlot_time, if_neg hx, if_neg]
    rintro ⟨h2, h3⟩
    exact (h1 h2).2 h3
  · rw [linkSlot_mtime]
    by_cases h0 : (s.getCbuf r).list = 0
    · rw [if_pos h0, if_neg hx]
    · rw [if_neg h0, if_neg (h1 h0).1]

theorem Wheel.head_mem {s : State} {fl : List Nat} {ls : CbufRef → List Nat} (hw : Wheel s fl ls)
    (r : CbufRef) (hr : r.valid) (h : (s.getCbuf r).list ≠ 0) : (s.getCbuf r).list ∈ ls r := by
  have hne : ls r ≠ [] := fun e => h ((hw.chain r hr).head_eq_zero_iff.2 e)
  exact List.mem_of_mem_head? ((hw.chain r hr).head?_eq hne)

theorem Wheel.last_mem {s : State} {fl : List Nat} {ls : CbufRef → List Nat} (hw : Wheel s fl ls)
    (r : CbufRef) (hr : r.valid) (h : (s.getCbuf r).list ≠ 0) : (s.getCbuf r).last ∈ ls r := by
  have hne : ls r ≠ [] := fun e => h ((hw.chain r hr).head_eq_zero_iff.2 e)
  obtain ⟨z, hz⟩ : ∃ z, (ls r).getLast? = some z := by
    cases hl : (ls r).getLast? with
    | none => exact absurd (List.getLast?_eq_none_iff.1 hl) hne
    | some z => exact ⟨z, rfl⟩
  rw [hw.last r hr z hz]
  obtain ⟨ys, hys⟩ := List.getLast?_eq_some_iff.1 hz
  rw [hys]
  simp

theorem mem_setCotab (s : State) (i : Nat) (v : call_out) (k : Nat) :
    (s.setCotab i v).mem k = setMem s.mem (i + 1) v k := rfl

/-- One round of the "from queue" loops: the root of the heap leaves the heap
and becomes the last element of the immediate list, with its object index
and handle; the other lists and the keys of their elements stay. -/
theorem migrateRoot_spec {s : State} {fl : List Nat} {ls : CbufRef → List Nat}
    (hw : Wheel s fl ls) (hh : HeapInv s) (hroom : s.flist = 0 → s.queuebrk < s.cycbrk)
    (hq1 : 1 ≤ s.queuebrk) :
    ∃ s' i, migrateRoot s = .ok s' ∧
      Wheel s' fl.tail (Function.update ls .immediate (ls .immediate ++ [i])) ∧
      HeapInv s' ∧ (s'.flist = 0 → s'.queuebrk < s'.cycbrk) ∧
      s'.queuebrk = s.queuebrk - 1 ∧ s'.timestamp = s.timestamp ∧ s'.cotabsz = s.cotabsz ∧
      (heapEntries s.mem s.queuebrk).Perm (s.mem 1 :: heapEntries s'.mem s'.queuebrk) ∧
      s'.key i = ((s.mem 1).oindex, (s.mem 1).handle) ∧
      (∀ r, r.valid → ∀ x ∈ ls r, s'.key x = s.key x) ∧
      (∀ r, r.valid → i ∉ ls r) := by
  have hcap := hw.cap
  have hble := hw.brk_le
  have hqb := hh.brk
  obtain ⟨s1, hd, hs1, hord, hm0, hframe, hperm⟩ :=
    dequeue_root s hh hq1 (by omega)
  have f1 : s1.flist = s.flist := by rw [hs1]
  have f2 : s1.cycbrk = s.cycbrk := by rw [hs1]
  have f3 : s1.cotabsz = s.cotabsz := by rw [hs1]
  have f4 : s1.nzero = s.nzero := by rw [hs1]
  have f5 : s1.nshort = s.nshort := by rw [hs1]
  have f6 : s1.queuebrk = s.queuebrk - 1 := by rw [hs1]
  have f7 : s1.timestamp = s.timestamp := by rw [hs1]
  have f8 : ∀ r, s1.getCbuf r = s.getCbuf r := by intro r; rw [hs1]; cases r <;> rfl
  have hc1 : ∀ x, s.cycbrk ≤ x → s1.cotab x = s.cotab x := fun x hx => hframe (x + 1) (by omega)
  have hw1 : Wheel s1 fl ls := hw.frame (fun x hx _ => hc1 x hx) f8 f1 f2 f3 f4 f5
  have hroom1 : s1.flist = 0 → 2 ≤ s1.cycbrk := by
    intro h; rw [f1] at h; rw [f2]; have := hroom h; omega
  obtain ⟨hi0, hisz, hicyc, hifresh, hitail, hfchain, hlen, hcycle, hcyc1, hgap, hflmem⟩ :=
    hw1.alloc 0 hroom1
  obtain ⟨s2, hn, ha⟩ := newcallout_eq s1 .immediate 0 (fun _ h => absurd rfl h) hi0
  generalize hi : (allocSlot s1 0).2 = i at *
  have hfs := allocSlot_fst s1 0
  generalize hs0 : (allocSlot s1 0).1 = s0 at *
  have hs0q : s0.queuebrk = s1.queuebrk := by rw [hfs]
  have hs0t : s0.timestamp = s1.timestamp := by rw [hfs]
  have hs0c : s0.cycbrk = if s1.flist ≠ 0 then s1.cycbrk else dec16 s1.cycbrk := by rw [hfs]
  have hs0f : s0.flist = if s1.flist ≠ 0 then u16 (s1.cotab s1.flist).time else s1.flist := by
    rw [hfs]
  have hs0m : s0.mem = s1.mem := by rw [hfs]
  clear hfs
  obtain ⟨l1, l2, l3, l4, l5, l6, l7, l8⟩ := linkSlot_fields s0 .immediate i
  obtain ⟨a1, a2, a3, a4, a5, a6, a7, a8, a9⟩ := ha.fields
  have hX : alarmEq ((linkSlot s0 .immediate i).setCotab i
      { (linkSlot s0 .immediate i).cotab i with
        handle := (s.cotab 0).handle, oindex := (s.cotab 0).oindex })
      (s2.setCotab i { s2.cotab i with
        handle := (s.cotab 0).handle, oindex := (s.cotab 0).oindex }) := by
    have := ha.setCotab i ({ (linkSlot s0 .immediate i).cotab i with
        handle := (s.cotab 0).handle, oindex := (s.cotab 0).oindex } : call_out)
    rw [ha.cotab i]
    exact this
  have hw3 := hw1.link .immediate trivial 0 (s.cotab 0).handle (s.cotab 0).oindex
    (Or.inl ⟨rfl, rfl⟩) hroom1 (hh.live 1 (le_refl _) hq1) _ (by rw [hi, hs0]; exact hX)
  rw [hi] at hw3
  obtain ⟨b1, b2, b3, b4, b5, b6, b7, b8, b9⟩ := hX.fields
  -- the cyclic-buffer writes stay above the heap
  have hiq : s.queuebrk ≤ i + 1 := by
    rw [hs0c, f1, f2] at hicyc
    by_cases hf : s.flist = 0
    · have := hroom hf
      rw [if_neg (by simpa using hf), dec16_of_pos (by omega) (by omega)] at hicyc
      omega
    · rw [if_pos hf] at hicyc
      omega
  have hlow : ∀ x, x + 1 < s.queuebrk →
      (s2.setCotab i { s2.cotab i with
        handle := (s.cotab 0).handle, oindex := (s.cotab 0).oindex }).cotab x = s1.cotab x := by
    intro x hx
    rw [cotab_setCotab_other _ _ _ _ (by omega), ha.cotab, linkSlot_cotab_other _ _ _ _ (by omega)]
    · show s0.mem (x + 1) = s1.mem (x + 1)
      rw [hs0m]
    · intro hne
      have hcb : s0.getCbuf .immediate = s.getCbuf .immediate := by
        rw [← hs0, allocSlot_getCbuf, f8]
      rw [hcb] at hne ⊢
      have e1 := (hw.range .immediate trivial _ (hw.head_mem .immediate trivial hne)).1
      have e2 := (hw.range .immediate trivial _ (hw.last_mem .immediate trivial hne)).1
      constructor <;> omega
  have hmem0 : (s2.setCotab i { s2.cotab i with
        handle := (s.cotab 0).handle, oindex := (s.cotab 0).oindex }).mem 0 = s.mem 0 := by
    rw [mem_setCotab, setMem_other _ _ _ _ (by omega), ha.mem, linkSlot_mem_zero, hs0m, hm0]
  have hmemk : ∀ k, 1 ≤ k → k < s.queuebrk →
      (s2.setCotab i { s2.cotab i with
        handle := (s.cotab 0).handle, oindex := (s.cotab 0).oindex }).mem k = s1.mem k := by
    intro k hk1 hk
    have := hlow (k - 1) (by omega)
    unfold State.cotab at this
    rw [Nat.sub_add_cancel hk1] at this
    exact this
  have hentries : heapEntries (s2.setCotab i { s2.cotab i with
        handle := (s.cotab 0).handle, oindex := (s.cotab 0).oindex }).mem (s.queuebrk - 1) =
      heapEntries s1.mem (s.queuebrk - 1) :=
    heapEntries_congr _ _ _ (fun k hk1 hk => hmemk k hk1 (by omega))
  have hq3 : (s2.setCotab i { s2.cotab i with
        handle := (s.cotab 0).handle, oindex := (s.cotab 0).oindex }).queuebrk = s.queuebrk - 1 := by
    rw [b6]
    show (linkSlot s0 .immediate i).queuebrk = _
    rw [l6, hs0q, f6]
  have hsub : ∀ k, 1 ≤ k → k ≤ s.queuebrk - 1 → ∃ k0, 1 ≤ k0 ∧ k0 ≤ s.queuebrk ∧
      s1.mem k = s.mem k0 := by
    intro k hk1 hk
    have hmemk' : s1.mem k ∈ heapEntries s1.mem (s.queuebrk - 1) := by
      unfold heapEntries
      exact List.mem_map.2 ⟨k - 1, List.mem_range.2 (by omega), by rw [Nat.sub_add_cancel hk1]⟩
    have := hperm.symm.subset (List.mem_cons_of_mem _ hmemk')
    unfold heapEntries at this
    obtain ⟨j, hj, hje⟩ := List.mem_map.1 this
    exact ⟨j + 1, by omega, by have := List.mem_range.1 hj; omega, hje.symm⟩
  have hbrk : s.queuebrk - 1 < s0.cycbrk := by
    rw [hs0c, f1, f2]
    by_cases hf : s.flist = 0
    · have := hroom hf
      rw [if_neg (by simpa using hf), dec16_of_pos (by omega) (by omega)]
      omega
    · rw [if_pos hf]
      omega
  unfold migrateRoot
  simp only [hd, hn, bind, Except.bind, pure, Except.pure]
  refine ⟨_, i, rfl, hw3, ?_, ?_, hq3, ?_, ?_, ?_, ?_, ?_, ?_⟩
  · -- HeapInv
    refine
      { sentinel := by rw [hmem0]; exact hh.sentinel
        ordered := ?_
        msec := ?_
        live := ?_
        brk := ?_ }
    · rw [hq3]
      intro c hc1 hcq
      rw [hmemk c hc1 (by omega)]
      by_cases hc : c = 1
      · subst hc
        rw [hmem0, ← hm0]
        exact hord 1 hc1 hcq
      · rw [hmemk (c / 2) (by omega) (by omega)]
        exact hord c hc1 hcq
    · rw [hq3]
      intro k hk1 hk
      obtain ⟨k0, e1, e2, e3⟩ := hsub k hk1 hk
      rw [hmemk k hk1 (by omega), e3]
      exact hh.msec k0 e1 e2
    · rw [hq3]
      intro k hk1 hk
      obtain ⟨k0, e1, e2, e3⟩ := hsub k hk1 hk
      rw [hmemk k hk1 (by omega), e3]
      exact hh.live k0 e1 e2
    · rw [hq3, b2]
      show _ ≤ (linkSlot s0 .immediate i).cycbrk
      rw [l2]
      exact le_of_lt hbrk
  · -- room
    rw [hq3, b2]
    intro _
    show _ < (linkSlot s0 .immediate i).cycbrk
    rw [l2]
    exact hbrk
  · rw [b7]
    show (linkSlot s0 .immediate i).timestamp = _
    rw [l7, hs0t, f7]
  · rw [b3]
    show (linkSlot s0 .immediate i).cotabsz = _
    rw [l3, ← hs0, allocSlot_fst]
    exact f3
  · rw [hq3, hentries]
    exact hperm
  · unfold State.key
    rw [cotab_setCotab_same]
    rfl
  · intro r hr x hx
    have hxi : x ≠ i := fun e => hifresh r hr (e ▸ hx)
    unfold State.key
    rw [cotab_setCotab_other _ _ _ _ hxi, ha.cotab, linkSlot_oindex, linkSlot_handle]
    have : s0.cotab x = s.cotab x := by
      show s0.mem (x + 1) = s.mem (x + 1)
      rw [hs0m]
      exact hc1 x (hw.range r hr x hx).1
    rw [this]
  · exact hifresh

/-! ## The splice of `co_expire` -/

theorem spliceBucket_empty (s : State) (h : (s.cycbuf (cycIndex s.timestamp)).list = 0) :
    spliceBucket s = s := by
  unfold spliceBucket
  simp [h]

theorem immediate_setList_cyc (s : State) (k v : Nat) :
    (s.setList (.cyc k) v).immediate = s.immediate := rfl

theorem spliceBucket_handle (s : State) (x : Nat) :
    ((spliceBucket s).cotab x).handle = (s.cotab x).handle := by
  unfold spliceBucket
  by_cases h : (s.cycbuf (cycIndex s.timestamp)).list = 0
  · simp [h]
  · by_cases h2 : s.immediate.list = 0
    · simp only [ne_eq, h, not_false_eq_true, if_true, immediate_setList_cyc, h2]
      show ((State.setCount _ _ _).cotab x).handle = _
      simp
    · simp only [ne_eq, h, not_false_eq_true, if_true, immediate_setList_cyc, h2, if_false]
      show ((State.setCount _ _ _).cotab x).handle = _
      simp

theorem spliceBucket_oindex (s : State) (x : Nat) :
    ((spliceBucket s).cotab x).oindex = (s.cotab x).oindex := by
  unfold spliceBucket
  by_cases h : (s.cycbuf (cycIndex s.timestamp)).list = 0
  · simp [h]
  · by_cases h2 : s.immediate.list = 0
    · simp only [ne_eq, h, not_false_eq_true, if_true, immediate_setList_cyc, h2]
      show ((State.setCount _ _ _).cotab x).oindex = _
      simp
    · simp only [ne_eq, h, not_false_eq_true, if_true, immediate_setList_cyc, h2, if_false]
      show ((State.setCount _ _ _).cotab x).oindex = _
      simp

theorem spliceBucket_key (s : State) (x : Nat) : (spliceBucket s).key x = s.key x := by
  unfold State.key
  rw [spliceBucket_handle, spliceBucket_oindex]

theorem spliceBucket_time (s : State) (h : (s.cycbuf (cycIndex s.timestamp)).list ≠ 0) (x : Nat) :
    ((spliceBucket s).cotab x).time =
      if s.immediate.list ≠ 0 ∧ x = s.immediate.last then (s.cycbuf (cycIndex s.timestamp)).list
      else (s.cotab x).time := by
  unfold spliceBucket
  by_cases h2 : s.immediate.list = 0
  · simp only [ne_eq, h, not_false_eq_true, if_true, immediate_setList_cyc, h2]
    show ((State.setCount _ _ _).cotab x).time = _
    simp
  · simp only [ne_eq, h, not_false_eq_true, if_true, immediate_setList_cyc, h2, if_false]
    show ((State.setCount _ _ _).cotab x).time = _
    simp [setNext_time]

theorem immediate_setLast (s : State) (v : Nat) :
    (s.setLast .immediate v).immediate = ⟨s.immediate.list, v⟩ := rfl

theorem immediate_setList (s : State) (v : Nat) :
    (s.setList .immediate v).immediate = ⟨v, s.immediate.last⟩ := rfl

theorem immediate_setNext (s : State) (a b : Nat) : (s.setNext a b).immediate = s.immediate := rfl

theorem immediate_setCount (s : State) (a b : Nat) :
    (s.setCount a b).immediate = s.immediate := rfl

theorem spliceBucket_mtime (s : State) (h : (s.cycbuf (cycIndex s.timestamp)).list ≠ 0) (x : Nat) :
    ((spliceBucket s).cotab x).mtime =
      if x = (if s.immediate.list = 0 then (s.cycbuf (cycIndex s.timestamp)).list
              else s.immediate.list) then
        u16 ((s.cotab x).mtime + (s.cotab (s.cycbuf (cycIndex s.timestamp)).list).mtime)
      else (s.cotab x).mtime := by
  unfold spliceBucket
  by_cases h2 : s.immediate.list = 0
  · simp only [ne_eq, h, not_false_eq_true, if_true, immediate_setList_cyc, h2]
    show ((State.setCount _ _ _).cotab x).mtime = _
    rw [setCount_mtime]
    simp only [immediate_setLast, immediate_setList, cotab_setLast, cotab_setList]
    by_cases hx : x = (s.cycbuf (cycIndex s.timestamp)).list
    · rw [if_pos hx, if_pos hx, hx]
    · rw [if_neg hx, if_neg hx]
  · simp only [ne_eq, h, not_false_eq_true, if_true, immediate_setList_cyc, h2, if_false]
    show ((State.setCount _ _ _).cotab x).mtime = _
    rw [setCount_mtime]
    simp only [immediate_setLast, immediate_setNext, immediate_setList_cyc, cotab_setLast,
      cotab_setList, setNext_mtime]
    by_cases hx : x = s.immediate.list
    · rw [if_pos hx, if_pos hx, hx]
    · rw [if_neg hx, if_neg hx]

theorem getCbuf_nzero (s : State) (v : Nat) (r : CbufRef) :
    ({ s with nzero := v } : State).getCbuf r = s.getCbuf r := by
  cases r <;> rfl

theorem spliceBucket_getCbuf (s : State) (h : (s.cycbuf (cycIndex s.timestamp)).list ≠ 0)
    (r : CbufRef) :
    (spliceBucket s).getCbuf r =
      if r = .immediate then
        ⟨if s.immediate.list = 0 then (s.cycbuf (cycIndex s.timestamp)).list
          else s.immediate.list, (s.cycbuf (cycIndex s.timestamp)).last⟩
      else if r = .cyc (cycIndex s.timestamp) then ⟨0, (s.cycbuf (cycIndex s.timestamp)).last⟩
      else s.getCbuf r := by
  unfold spliceBucket
  by_cases h2 : s.immediate.list = 0
  · simp only [ne_eq, h, not_false_eq_true, if_true, immediate_setList_cyc, h2]
    rw [getCbuf_nzero, getCbuf_setCount, getCbuf_setLast, getCbuf_setList, getCbuf_setList]
    cases r <;> simp [State.getCbuf, getCbuf_setList, State.setList, State.setCbuf]
  · simp only [ne_eq, h, not_false_eq_true, if_true, immediate_setList_cyc, h2, if_false]
    rw [getCbuf_nzero, getCbuf_setCount, getCbuf_setLast, getCbuf_setNext, getCbuf_setNext,
      getCbuf_setList]
    cases r <;> simp [State.getCbuf, getCbuf_setList, State.setList, State.setCbuf]

theorem spliceBucket_fields (s : State) :
    (spliceBucket s).flist = s.flist ∧ (spliceBucket s).cycbrk = s.cycbrk ∧
    (spliceBucket s).cotabsz = s.cotabsz ∧ (spliceBucket s).nshort = s.nshort ∧
    (spliceBucket s).queuebrk = s.queuebrk ∧ (spliceBucket s).timestamp = s.timestamp ∧
    (spliceBucket s).mem 0 = s.mem 0 := by
  unfold spliceBucket
  by_cases h : (s.cycbuf (cycIndex s.timestamp)).list = 0
  · simp [h]
  · by_cases h2 : s.immediate.list = 0
    · simp only [ne_eq, h, not_false_eq_true, if_true, immediate_setList_cyc, h2]
      exact ⟨rfl, rfl, rfl, rfl, rfl, rfl, rfl⟩
    · simp only [ne_eq, h, not_false_eq_true, if_true, immediate_setList_cyc, h2, if_false]
      exact ⟨rfl, rfl, rfl, rfl, rfl, rfl, rfl⟩

theorem spliceBucket_nzero (s : State) (h : (s.cycbuf (cycIndex s.timestamp)).list ≠ 0) :
    (spliceBucket s).nzero =
      u16 (s.nzero + (s.cotab (s.cycbuf (cycIndex s.timestamp)).list).mtime) := by
  unfold spliceBucket
  by_cases h2 : s.immediate.list = 0
  · simp only [ne_eq, h, not_false_eq_true, if_true, immediate_setList_cyc, h2]
    show u16 (s.nzero + ((State.setLast _ _ _).cotab _).mtime) = _
    simp only [cotab_setLast, cotab_setList]
  · simp only [ne_eq, h, not_false_eq_true, if_true, immediate_setList_cyc, h2, if_false]
    show u16 (s.nzero + ((State.setLast _ _ _).cotab _).mtime) = _
    simp only [cotab_setLast, cotab_setList, setNext_mtime]

theorem update_splice (ls : CbufRef → List Nat) (k : Nat) (r : CbufRef) :
    Function.update (Function.update ls (.cyc k) []) .immediate
        (ls .immediate ++ ls (.cyc k)) r =
      if r = .immediate then ls .immediate ++ ls (.cyc k)
      else if r = .cyc k then [] else ls r := by
  by_cases h1 : r = .immediate
  · subst h1
    rw [Function.update_same, if_pos rfl]
  · rw [Function.update_noteq h1, if_neg h1]
    by_cases h2 : r = .cyc k
    · subst h2
      rw [Function.update_same, if_pos rfl]
    · rw [Function.update_noteq h2, if_neg h2]

theorem update_splice_nil (ls : CbufRef → List Nat) (k : Nat) (h : ls (.cyc k) = []) :
    Function.update (Function.update ls (.cyc k) []) .immediate
        (ls .immediate ++ ls (.cyc k)) = ls := by
  funext r
  rw [update_splice]
  split_ifs with h1 h2
  · rw [h1, h, List.append_nil]
  · rw [h2, h]
  · rfl

theorem mem_update_splice (ls : CbufRef → List Nat) (k : Nat) (r : CbufRef) (x : Nat) :
    x ∈ Function.update (Function.update ls (.cyc k) []) .immediate
        (ls .immediate ++ ls (.cyc k)) r ↔
      (r = .immediate ∧ (x ∈ ls .immediate ∨ x ∈ ls (.cyc k))) ∨
      (r ≠ .immediate ∧ r ≠ .cyc k ∧ x ∈ ls r) := by
  rw [update_splice]
  split_ifs with h1 h2
  · simp [h1]
  · simp [h1, h2]
  · simp [h1, h2]

theorem Wheel.getLast_mem {s : State} {fl : List Nat} {ls : CbufRef → List Nat}
    (hw : Wheel s fl ls) (r : CbufRef) (hr : r.valid) (hne : ls r ≠ []) :
    ∃ ys, ls r = ys ++ [(s.getCbuf r).last] := by
  obtain ⟨z, hz⟩ : ∃ z, (ls r).getLast? = some z := by
    cases hl : (ls r).getLast? with
    | none => exact absurd (List.getLast?_eq_none_iff.1 hl) hne
    | some z => exact ⟨z, rfl⟩
  rw [hw.last r hr z hz]
  exact List.getLast?_eq_some_iff.1 hz

theorem Wheel.bucket_le {s : State} {fl : List Nat} {ls : CbufRef → List Nat}
    (hw : Wheel s fl ls) (k : Nat) (hk : k < CYCBUF_SIZE) :
    s.nzero + (ls (.cyc k)).length ≤ s.nshort := by
  have := Finset.single_le_sum (f := fun k => (ls (CbufRef.cyc k)).length)
    (fun _ _ => Nat.zero_le _) (Finset.mem_range.2 hk)
  have h2 := hw.nshort
  simp only at this
  omega

/-- The splice of `co_expire` keeps the invariant of the cyclic buffer: the
bucket of the second `timestamp` becomes empty and its elements follow, in
their order, the elements of the immediate list. -/
theorem Wheel.splice {s : State} {fl : List Nat} {ls : CbufRef → List Nat} (hw : Wheel s fl ls) :
    Wheel (spliceBucket s) fl
      (Function.update (Function.update ls (.cyc (cycIndex s.timestamp)) []) .immediate
        (ls .immediate ++ ls (.cyc (cycIndex s.timestamp)))) := by
  have hkv : (CbufRef.cyc (cycIndex s.timestamp)).valid := cycIndex_lt _
  have hk128 : cycIndex s.timestamp < CYCBUF_SIZE := cycIndex_lt _
  by_cases hB : (s.cycbuf (cycIndex s.timestamp)).list = 0
  · rw [spliceBucket_empty s hB, update_splice_nil]
    · exact hw
    · exact (hw.chain _ hkv).head_eq_zero_iff.1 hB
  obtain ⟨f1, f2, f3, f4, f5, f6, f7⟩ := spliceBucket_fields s
  have hH := spliceBucket_handle s
  have hO := spliceBucket_oindex s
  have hT := spliceBucket_time s hB
  have hM := spliceBucket_mtime s hB
  have hC := spliceBucket_getCbuf s hB
  have hZ := spliceBucket_nzero s hB
  have hBne : ls (.cyc (cycIndex s.timestamp)) ≠ [] :=
    fun e => hB ((hw.chain _ hkv).head_eq_zero_iff.2 e)
  have hcnt := hw.count _ hk128 hBne
  have hnil : s.immediate.list = 0 ↔ ls .immediate = [] :=
    (hw.chain .immediate trivial).head_eq_zero_iff
  have hZmem : s.immediate.list ≠ 0 → s.immediate.last ∈ ls .immediate :=
    hw.last_mem .immediate trivial
  have hHmem : s.immediate.list ≠ 0 → s.immediate.list ∈ ls .immediate :=
    hw.head_mem .immediate trivial
  have himem : (s.cycbuf (cycIndex s.timestamp)).list ∈ ls (.cyc (cycIndex s.timestamp)) :=
    hw.head_mem _ hkv hB
  have hne_ik : CbufRef.immediate ≠ .cyc (cycIndex s.timestamp) := by intro h; cases h
  -- links outside the immediate list stay
  have htime_free : ∀ x ∈ fl, ((spliceBucket s).cotab x).time = (s.cotab x).time := by
    intro x hx
    rw [hT, if_neg]
    rintro ⟨h1, h2⟩
    exact hw.free_not_listed hx .immediate trivial (h2 ▸ hZmem h1)
  have htime_other : ∀ r, r.valid → r ≠ .immediate → ∀ x ∈ ls r,
      ((spliceBucket s).cotab x).time = (s.cotab x).time := by
    intro r hr hne x hx
    rw [hT, if_neg]
    rintro ⟨h1, h2⟩
    exact hw.disj r .immediate hr trivial hne x hx (h2 ▸ hZmem h1)
  have hle := hw.bucket_le _ hk128
  have htot := hw.total
  have hcap := hw.cap
  refine
    { cap := by rw [f3]; exact hw.cap
      brk_pos := by rw [f2]; exact hw.brk_pos
      brk_le := by rw [f2, f3]; exact hw.brk_le
      free_chain := by rw [f1]; exact hw.free_chain.congr htime_free
      free_prev := ?_
      free_handle := ?_
      free_range := ?_
      free_nodup := hw.free_nodup
      chain := ?_
      last := ?_
      count := ?_
      handle := ?_
      range := ?_
      nodup := ?_
      disj := ?_
      cover := ?_
      nzero := ?_
      nshort := ?_
      total := ?_ }
  · -- free_prev
    refine (List.Chain'.iff_mem.1 hw.free_prev).imp ?_
    rintro a b ⟨_, _, hab⟩
    rw [hO]
    exact hab
  · intro x hx
    rw [hH]
    exact hw.free_handle x hx
  · intro x hx
    rw [f2, f3]
    exact hw.free_range x hx
  · -- chain
    intro r hr
    rw [hC, update_splice]
    by_cases h1 : r = .immediate
    · subst h1
      rw [if_pos rfl, if_pos rfl]
      by_cases h0 : s.immediate.list = 0
      · rw [if_pos h0, hnil.1 h0, List.nil_append]
        exact (hw.chain _ hkv).congr (htime_other _ hkv (Ne.symm hne_ik))
      · rw [if_neg h0]
        obtain ⟨ys, hys⟩ := hw.getLast_mem .immediate trivial (fun e => h0 (hnil.2 e))
        have hch := hw.chain .immediate trivial
        have hnd := hw.nodup .immediate trivial
        rw [hys] at hch hnd ⊢
        refine Chain.join ((hw.chain _ hkv).congr (htime_other _ hkv (Ne.symm hne_ik))) ?_ hch ?_
        · rw [hT, if_pos ⟨h0, rfl⟩]
          rfl
        · intro x hx
          rw [hT, if_neg]
          rintro ⟨_, h2⟩
          rw [List.nodup_append] at hnd
          exact hnd.2.2 hx (by rw [h2]; exact List.mem_singleton_self _)
    · rw [if_neg h1, if_neg h1]
      by_cases h2 : r = .cyc (cycIndex s.timestamp)
      · rw [if_pos h2, if_pos h2]
        exact rfl
      · rw [if_neg h2, if_neg h2]
        exact (hw.chain r hr).congr (htime_other r hr h1)
  · -- last
    intro r hr x hx
    rw [hC]
    rw [update_splice] at hx
    by_cases h1 : r = .immediate
    · subst h1
      rw [if_pos rfl] at hx ⊢
      rw [List.getLast?_append_of_ne_nil _ hBne] at hx
      exact hw.last _ hkv x hx
    · rw [if_neg h1] at hx ⊢
      by_cases h2 : r = .cyc (cycIndex s.timestamp)
      · rw [if_pos h2] at hx
        cases hx
      · rw [if_neg h2] at hx ⊢
        exact hw.last r hr x hx
  · -- count
    intro k hk hne
    rw [update_splice, if_neg (by intro h; cases h)] at hne ⊢
    by_cases h2 : CbufRef.cyc k = .cyc (cycIndex s.timestamp)
    · rw [if_pos h2] at hne
      exact absurd rfl hne
    · rw [if_neg h2] at hne ⊢
      have hkk : k ≠ cycIndex s.timestamp := fun e => h2 (e ▸ rfl)
      have hc := hC (.cyc k)
      rw [if_neg (by intro h; cases h), if_neg h2] at hc
      have hc' : (spliceBucket s).cycbuf k = s.cycbuf k := hc
      rw [hc', hM, if_neg]
      · exact hw.count k hk hne
      · have hm : (s.cycbuf k).list ∈ ls (.cyc k) :=
          hw.head_mem (.cyc k) hk (fun e => hne ((hw.chain (.cyc k) hk).head_eq_zero_iff.1 e))
        intro e
        by_cases h0 : s.immediate.list = 0
        · rw [if_pos h0] at e
          exact hw.disj (.cyc k) _ hk hkv h2 _ hm (e ▸ himem)
        · rw [if_neg h0] at e
          exact hw.disj (.cyc k) .immediate hk trivial (by intro h; cases h) _ hm (e ▸ hHmem h0)
  · -- handle
    intro r hr x hx
    rw [hH]
    rcases (mem_update_splice ls _ r x).1 hx with ⟨_, h | h⟩ | ⟨_, _, h⟩
    · exact hw.handle .immediate trivial x h
    · exact hw.handle _ hkv x h
    · exact hw.handle r hr x h
  · -- range
    intro r hr x hx
    rw [f2, f3]
    rcases (mem_update_splice ls _ r x).1 hx with ⟨_, h | h⟩ | ⟨_, _, h⟩
    · exact hw.range .immediate trivial x h
    · exact hw.range _ hkv x h
    · exact hw.range r hr x h
  · -- nodup
    intro r hr
    rw [update_splice]
    split_ifs with h1 h2
    · rw [List.nodup_append]
      exact ⟨hw.nodup .immediate trivial, hw.nodup _ hkv,
        fun x hx hx' => hw.disj .immediate _ trivial hkv hne_ik x hx hx'⟩
    · exact List.nodup_nil
    · exact hw.nodup r hr
  · -- disj
    intro r r' hr hr' hne x hx hx'
    rcases (mem_update_splice ls _ r x).1 hx with ⟨e1, h | h⟩ | ⟨e1, e2, h⟩ <;>
      rcases (mem_update_splice ls _ r' x).1 hx' with ⟨e1', h' | h'⟩ | ⟨e1', e2', h'⟩
    · exact hne (e1.trans e1'.symm)
    · exact hne (e1.trans e1'.symm)
    · exact hw.disj .immediate r' trivial hr' (Ne.symm e1') x h h'
    · exact hne (e1.trans e1'.symm)
    · exact hne (e1.trans e1'.symm)
    · exact hw.disj _ r' hkv hr' (Ne.symm e2') x h h'
    · exact hw.disj r .immediate hr trivial e1 x h h'
    · exact hw.disj r _ hr hkv e2 x h h'
    · exact hw.disj r r' hr hr' hne x h h'
  · -- cover
    intro x h1 h2
    rw [f2] at h1
    rw [f3] at h2
    rcases hw.cover x h1 h2 with h | ⟨r, hr, h⟩
    · exact Or.inl h
    · right
      by_cases e1 : r = .immediate
      · exact ⟨.immediate, trivial, (mem_update_splice ls _ _ x).2 (Or.inl ⟨rfl, Or.inl (e1 ▸ h)⟩)⟩
      · by_cases e2 : r = .cyc (cycIndex s.timestamp)
        · exact ⟨.immediate, trivial,
            (mem_update_splice ls _ _ x).2 (Or.inl ⟨rfl, Or.inr (e2 ▸ h)⟩)⟩
        · exact ⟨r, hr, (mem_update_splice ls _ _ x).2 (Or.inr ⟨e1, e2, h⟩)⟩
  · -- nzero
    rw [hZ, hcnt, update_splice, if_pos rfl, update_splice, if_neg (by intro h; cases h),
      if_neg (by intro h; cases h), List.length_append, u16_of_lt (by omega), hw.nzero]
    omega
  · -- nshort
    rw [f4, hZ, hcnt, u16_of_lt (by omega)]
    have e1 := sum_update_other (Function.update ls (.cyc (cycIndex s.timestamp)) []) .immediate
      (fun k h => by cases h) (ls .immediate ++ ls (.cyc (cycIndex s.timestamp)))
    have e2 := sum_update_bucket ls _ hk128 []
    rw [e1]
    have := hw.nshort
    simp only [List.length_nil] at e2
    omega
  · rw [f4, f2, f3]
    exact htot

theorem HeapInv.heap_frame {s s' : State} (hh : HeapInv s)
    (hm : ∀ k, k ≤ s.queuebrk → s'.mem k = s.mem k) (hq : s'.queuebrk = s.queuebrk)
    (hb : s.queuebrk ≤ s'.cycbrk) : HeapInv s' := by
  refine
    { sentinel := by rw [hm 0 (Nat.zero_le _)]; exact hh.sentinel
      ordered := ?_
      msec := ?_
      live := ?_
      brk := by rw [hq]; exact hb }
  · rw [hq]
    intro c hc1 hcq
    rw [hm c hcq, hm (c / 2) (le_trans (Nat.div_le_self _ _) hcq)]
    exact hh.ordered c hc1 hcq
  · rw [hq]
    intro k hk1 hk
    rw [hm k hk]
    exact hh.msec k hk1 hk
  · rw [hq]
    intro k hk1 hk
    rw [hm k hk]
    exact hh.live k hk1 hk

theorem spliceBucket_mem {s : State} {fl : List Nat} {ls : CbufRef → List Nat} (hw : Wheel s fl ls)
    (k : Nat) (hk : k ≤ s.cycbrk) : (spliceBucket s).mem k = s.mem k := by
  by_cases hB : (s.cycbuf (cycIndex s.timestamp)).list = 0
  · rw [spliceBucket_empty s hB]
  have hkv : (CbufRef.cyc (cycIndex s.timestamp)).valid := cycIndex_lt _
  rcases Nat.eq_zero_or_pos k with rfl | hpos
  · exact (spliceBucket_fields s).2.2.2.2.2.2
  obtain ⟨x, rfl⟩ : ∃ x, k = x + 1 := ⟨k - 1, by omega⟩
  show (spliceBucket s).cotab x = s.cotab x
  have hx : ∀ r, r.valid → x ∉ ls r := fun r hr h => by
    have := (hw.range r hr x h).1
    omega
  apply call_out_ext (spliceBucket_handle s x) (spliceBucket_oindex s x)
  · rw [spliceBucket_time s hB, if_neg]
    rintro ⟨h1, h2⟩
    exact hx .immediate trivial (h2 ▸ hw.last_mem .immediate trivial h1)
  · rw [spliceBucket_mtime s hB, if_neg]
    intro e
    by_cases h0 : s.immediate.list = 0
    · rw [if_pos h0] at e
      exact hx _ hkv (e ▸ hw.head_mem _ hkv hB)
    · rw [if_neg h0] at e
      exact hx .immediate trivial (e ▸ hw.head_mem .immediate trivial h0)

theorem HeapInv.heap_splice {s : State} {fl : List Nat} {ls : CbufRef → List Nat} (hw : Wheel s fl ls)
    (hh : HeapInv s) : HeapInv (spliceBucket s) :=
  hh.heap_frame (fun k hk => spliceBucket_mem hw k (le_trans hk hh.brk))
    (spliceBucket_fields s).2.2.2.2.1 (by rw [(spliceBucket_fields s).2.1]; exact hh.brk)

/-! ## The loops "from queue" of `co_expire` -/

theorem mem_heapEntries {l : Nat → call_out} {n : Nat} {e : call_out} :
    e ∈ heapEntries l n ↔ ∃ k, 1 ≤ k ∧ k ≤ n ∧ l k = e := by
  unfold heapEntries
  rw [List.mem_map]
  constructor
  · rintro ⟨j, hj, rfl⟩
    exact ⟨j + 1, by omega, by have := List.mem_range.1 hj; omega, rfl⟩
  · rintro ⟨k, h1, h2, rfl⟩
    exact ⟨k - 1, List.mem_range.2 (by omega), by rw [Nat.sub_add_cancel h1]⟩

theorem update_snoc_snoc (ls : CbufRef → List Nat) (r : CbufRef) (i : Nat) (N : List Nat) :
    Function.update (Function.update ls r (ls r ++ [i])) r
        (Function.update ls r (ls r ++ [i]) r ++ N) =
      Function.update ls r (ls r ++ (i :: N)) := by
  rw [Function.update_same, Function.update_idem, List.append_assoc]
  rfl

theorem update_append_nil (ls : CbufRef → List Nat) (r : CbufRef) :
    Function.update ls r (ls r ++ []) = ls := by
  rw [List.append_nil, Function.update_eq_self]

/-- The loops "from queue" of `co_expire`, for a loop test `c` on the root of
the heap that is downward closed in the deadline order: the entries that
satisfy `c` leave the heap in the order of their deadlines and are appended
to the immediate list in that order. -/
theorem drain_spec (f : Nat → State → Except Fault State) (c : call_out → Prop) (ts : Nat)
    (hgo : ∀ fuel s, s.timestamp = ts → s.queuebrk ≠ 0 → c (s.cotab 0) →
      f (fuel + 1) s = (migrateRoot s).bind (f fuel))
    (hstop : ∀ fuel s, s.timestamp = ts → ¬ (s.queuebrk ≠ 0 ∧ c (s.cotab 0)) →
      f (fuel + 1) s = .ok s)
    (hdown : ∀ a b, keyLe a b → c b → c a) :
    ∀ (fuel : Nat) (s : State) (fl : List Nat) (ls : CbufRef → List Nat),
      Wheel s fl ls → HeapInv s → (s.flist = 0 → s.queuebrk < s.cycbrk) → s.timestamp = ts →
      s.queuebrk < fuel →
      ∃ s' fl' N E, f fuel s = .ok s' ∧
        Wheel s' fl' (Function.update ls .immediate (ls .immediate ++ N)) ∧
        HeapInv s' ∧ (s'.flist = 0 → s'.queuebrk < s'.cycbrk) ∧
        s'.timestamp = ts ∧ s'.cotabsz = s.cotabsz ∧
        (heapEntries s.mem s.queuebrk).Perm (E ++ heapEntries s'.mem s'.queuebrk) ∧
        E.Pairwise keyLe ∧ (∀ e ∈ E, c e) ∧
        (∀ e ∈ heapEntries s'.mem s'.queuebrk, ¬ c e) ∧
        List.Forall₂ (fun x e => s'.key x = (e.oindex, e.handle)) N E ∧
        (∀ r, r.valid → ∀ x ∈ ls r, s'.key x = s.key x) ∧
        (∀ r, r.valid → ∀ x ∈ N, x ∉ ls r)
  | 0, _, _, _, _, _, _, _, hq => absurd hq (Nat.not_lt_zero _)
  | fuel + 1, s, fl, ls, hw, hh, hroom, hts, hq => by
    by_cases hc : s.queuebrk ≠ 0 ∧ c (s.cotab 0)
    · obtain ⟨hq0, hc0⟩ := hc
      have hq1 : 1 ≤ s.queuebrk := Nat.one_le_iff_ne_zero.2 hq0
      obtain ⟨s1, i, hm, hw1, hh1, hroom1, hqb1, hts1, hsz1, hperm1, hkey1, hkeys1, hfresh1⟩ :=
        migrateRoot_spec hw hh hroom hq1
      obtain ⟨s', fl', N, E, hf, hw', hh', hroom', hts', hsz', hperm', hsort', hc', hnc', hF',
          hkeys', hfresh'⟩ :=
        drain_spec f c ts hgo hstop hdown fuel s1 fl.tail _ hw1 hh1 hroom1 (hts1.trans hts)
          (by omega)
      have hsub1 : ∀ r, ∀ x ∈ ls r, x ∈ Function.update ls .immediate (ls .immediate ++ [i]) r := by
        intro r x hx
        exact (mem_update_snoc ls .immediate r i x).2 (Or.inl hx)
      have hroot := hh.ordered.root_le
      have hE1 : ∀ e ∈ E, keyLe (s.mem 1) e := by
        intro e he
        have h1 : e ∈ s.mem 1 :: heapEntries s1.mem s1.queuebrk :=
          List.mem_cons_of_mem _ (hperm'.symm.subset (List.mem_append_left _ he))
        obtain ⟨k, hk1, hk2, hk3⟩ := mem_heapEntries.1 (hperm1.symm.subset h1)
        rw [← hk3]
        exact (hroot k hk1 hk2).2
      refine ⟨s', fl', i :: N, s.mem 1 :: E, ?_, ?_, hh', hroom', hts', hsz'.trans hsz1, ?_, ?_,
        ?_, hnc', ?_, ?_, ?_⟩
      · rw [hgo fuel s hts hq0 hc0, hm]
        exact hf
      · rw [update_snoc_snoc] at hw'
        exact hw'
      · exact hperm1.trans (List.Perm.cons _ hperm')
      · exact List.pairwise_cons.2 ⟨hE1, hsort'⟩
      · intro e he
        rcases List.mem_cons.1 he with rfl | he
        · exact hc0
        · exact hc' e he
      · refine List.Forall₂.cons ?_ hF'
        rw [hkeys' .immediate trivial i, hkey1]
        rw [Function.update_same]
        exact List.mem_append_right _ (List.mem_singleton_self _)
      · intro r hr x hx
        rw [hkeys' r hr x (hsub1 r x hx), hkeys1 r hr x hx]
      · intro r hr x hx
        rcases List.mem_cons.1 hx with rfl | hx
        · exact hfresh1 r hr
        · exact fun h => hfresh' r hr x hx (hsub1 r x h)
    · refine ⟨s, fl, [], [], hstop fuel s hts hc, ?_, hh, hroom, hts, rfl, ?_, List.Pairwise.nil,
        ?_, ?_, List.Forall₂.nil, fun _ _ _ _ => rfl, ?_⟩
      · rw [update_append_nil]
        exact hw
      · exact List.Perm.refl _
      · intro e he
        cases he
      · intro e he hce
        obtain ⟨k, hk1, hk2, hk3⟩ := mem_heapEntries.1 he
        apply hc
        refine ⟨by omega, ?_⟩
        have := (hh.ordered.root_le k hk1 hk2).2
        rw [hk3] at this
        exact hdown _ _ this hce
      · intro r hr x hx
        cases hx

theorem drainBefore_spec {s : State} {fl : List Nat} {ls : CbufRef → List Nat}
    (hw : Wheel s fl ls) (hh : HeapInv s) (hroom : s.flist = 0 → s.queuebrk < s.cycbrk) :
    ∃ s' fl' N E, drainBefore UINDEX_MOD s = .ok s' ∧
      Wheel s' fl' (Function.update ls .immediate (ls .immediate ++ N)) ∧
      HeapInv s' ∧ (s'.flist = 0 → s'.queuebrk < s'.cycbrk) ∧
      s'.timestamp = s.timestamp ∧ s'.cotabsz = s.cotabsz ∧
      (heapEntries s.mem s.queuebrk).Perm (E ++ heapEntries s'.mem s'.queuebrk) ∧
      E.Pairwise keyLe ∧ (∀ e ∈ E, e.time < s.timestamp) ∧
      (∀ e ∈ heapEntries s'.mem s'.queuebrk, ¬ e.time < s.timestamp) ∧
      List.Forall₂ (fun x e => s'.key x = (e.oindex, e.handle)) N E ∧
      (∀ r, r.valid → ∀ x ∈ ls r, s'.key x = s.key x) ∧
      (∀ r, r.valid → ∀ x ∈ N, x ∉ ls r) := by
  have hcap := hw.cap
  have h1 := hw.brk_le
  have h2 := hh.brk
  refine drain_spec drainBefore (fun e => e.time < s.timestamp) s.timestamp ?_ ?_ ?_
    UINDEX_MOD s fl ls hw hh hroom rfl (by omega)
  · intro fuel s0 hts hq hc
    rw [← hts] at hc
    show (if _ then _ else _) = _
    rw [if_pos ⟨hq, hc⟩]
    rfl
  · intro fuel s0 hts hc
    rw [← hts] at hc
    show (if _ then _ else _) = _
    rw [if_neg hc]
  · intro a b hab hb
    unfold keyLe at hab
    omega

theorem drainUpTo_spec {s : State} {fl : List Nat} {ls : CbufRef → List Nat} (t m : Nat)
    (hw : Wheel s fl ls) (hh : HeapInv s) (hroom : s.flist = 0 → s.queuebrk < s.cycbrk) :
    ∃ s' fl' N E, drainUpTo UINDEX_MOD s t m = .ok s' ∧
      Wheel s' fl' (Function.update ls .immediate (ls .immediate ++ N)) ∧
      HeapInv s' ∧ (s'.flist = 0 → s'.queuebrk < s'.cycbrk) ∧
      s'.timestamp = s.timestamp ∧ s'.cotabsz = s.cotabsz ∧
      (heapEntries s.mem s.queuebrk).Perm (E ++ heapEntries s'.mem s'.queuebrk) ∧
      E.Pairwise keyLe ∧ (∀ e ∈ E, e.time < t ∨ (e.time = t ∧ e.mtime ≤ m)) ∧
      (∀ e ∈ heapEntries s'.mem s'.queuebrk, ¬ (e.time < t ∨ (e.time = t ∧ e.mtime ≤ m))) ∧
      List.Forall₂ (fun x e => s'.key x = (e.oindex, e.handle)) N E ∧
      (∀ r, r.valid → ∀ x ∈ ls r, s'.key x = s.key x) ∧
      (∀ r, r.valid → ∀ x ∈ N, x ∉ ls r) := by
  have hcap := hw.cap
  have h1 := hw.brk_le
  have h2 := hh.brk
  refine drain_spec (fun fuel s => drainUpTo fuel s t m)
    (fun e => e.time < t ∨ (e.time = t ∧ e.mtime ≤ m)) s.timestamp ?_ ?_ ?_
    UINDEX_MOD s fl ls hw hh hroom rfl (by omega)
  · intro fuel s0 _ hq hc
    show (if _ then _ else _) = _
    rw [if_pos ⟨hq, hc⟩]
    rfl
  · intro fuel s0 _ hc
    show (if _ then _ else _) = _
    rw [if_neg hc]
  · intro a b hab hb
    unfold keyLe at hab
    omega

/-! ## The invariant of the expiry loop -/

theorem dlLe_iff_keyLe (a b : call_out) : dlLe (a.time, a.mtime) (b.time, b.mtime) ↔ keyLe a b :=
  Iff.rfl

theorem forall₂_imp_mem {α β : Type} {R S : α → β → Prop} {l1 : List α} {l2 : List β}
    (h : List.Forall₂ R l1 l2) (hi : ∀ a b, a ∈ l1 → b ∈ l2 → R a b → S a b) :
    List.Forall₂ S l1 l2 := by
  induction h with
  | nil => exact List.Forall₂.nil
  | cons hab _ ih =>
    refine List.Forall₂.cons (hi _ _ (List.mem_cons_self _ _) (List.mem_cons_self _ _) hab) ?_
    exact ih (fun a b ha hb => hi a b (List.mem_cons_of_mem _ ha) (List.mem_cons_of_mem _ hb))

/-- The invariant of the expiry loop after one of the loops "from queue". -/
theorem Expiring.drain {s0 : State} {ls0 : CbufRef → List Nat} {ts : Nat} {s s' : State}
    {ls : CbufRef → List Nat} {N N2 : List Nat} {ds : List (Nat × Nat)} {E : List call_out}
    (hx : Expiring s0 ls0 ts s ls N ds)
    (hperm : (heapEntries s.mem s.queuebrk).Perm (E ++ heapEntries s'.mem s'.queuebrk))
    (hsort : E.Pairwise keyLe) (hb : ∀ e ∈ E, e.time ≤ ts)
    (hlate : ∀ e ∈ E, ∀ e' ∈ heapEntries s'.mem s'.queuebrk, keyLe e e')
    (hF : List.Forall₂ (fun x e => s'.key x = (e.oindex, e.handle)) N2 E)
    (hkeys : ∀ r, r.valid → ∀ x ∈ ls r, s'.key x = s.key x) :
    Expiring s0 ls0 ts s' (Function.update ls .immediate (ls .immediate ++ N2)) (N ++ N2)
      (ds ++ E.map (fun e => (e.time, e.mtime))) := by
  have hsubE : ∀ e ∈ E, e ∈ heapEntries s.mem s.queuebrk := fun e he =>
    hperm.symm.subset (List.mem_append_left _ he)
  have hsubR : ∀ e ∈ heapEntries s'.mem s'.queuebrk, e ∈ heapEntries s.mem s.queuebrk :=
    fun e he => hperm.symm.subset (List.mem_append_right _ he)
  have hNmem : ∀ x ∈ N, x ∈ ls .immediate := fun x h => by
    rw [hx.imm]; exact List.mem_append_right _ h
  refine
    { le := hx.le
      imm := by rw [Function.update_same, hx.imm, List.append_assoc]
      run := by rw [Function.update_noteq (by intro h; cases h)]; exact hx.run
      pend := ?_
      sorted := ?_
      bound := ?_
      below := ?_
      heap := fun e he => hx.heap e (hsubR e he)
      keys := ?_
      ahead := ?_
      future := ?_
      past := ?_ }
  · -- pend
    refine List.rel_append ?_ ?_
    · refine forall₂_imp_mem hx.pend ?_
      intro x d hxN _ h
      rw [hkeys .immediate trivial x (hNmem x hxN)]
      exact h
    · rw [List.forall₂_map_right_iff]
      refine forall₂_imp_mem hF ?_
      intro x e _ he h
      obtain ⟨k, hk1, hk2, hk3⟩ := mem_heapEntries.1 (hx.heap e (hsubE e he))
      exact Or.inl ⟨k, hk1, hk2, by rw [hk3, h], by rw [hk3]⟩
  · -- sorted
    rw [List.pairwise_append]
    refine ⟨hx.sorted, ?_, ?_⟩
    · rw [List.pairwise_map]
      exact hsort.imp (fun h => h)
    · intro d hd d' hd'
      obtain ⟨e, he, rfl⟩ := List.mem_map.1 hd'
      exact hx.below d hd e (hsubE e he)
  · -- bound
    intro d hd
    rcases List.mem_append.1 hd with h | h
    · exact hx.bound d h
    · obtain ⟨e, he, rfl⟩ := List.mem_map.1 h
      exact hb e he
  · -- below
    intro d hd e' he'
    rcases List.mem_append.1 hd with h | h
    · exact hx.below d h e' (hsubR e' he')
    · obtain ⟨e, he, rfl⟩ := List.mem_map.1 h
      exact hlate e he e' he'
  · -- keys
    intro r hr x hxr
    have hmem : ∃ r', r'.valid ∧ x ∈ ls r' := by
      cases r with
      | immediate => exact ⟨.immediate, trivial, by rw [hx.imm]; exact List.mem_append_left _ hxr⟩
      | running => exact ⟨.running, trivial, by rw [hx.run]; exact hxr⟩
      | cyc k =>
        rcases hx.ahead k hr with h | ⟨_, h⟩
        · exact ⟨.cyc k, hr, by rw [h]; exact hxr⟩
        · exact ⟨.immediate, trivial, hNmem x (h.subset hxr)⟩
    obtain ⟨r', hr', hm⟩ := hmem
    rw [hkeys r' hr' x hm, hx.keys r hr x hxr]
  · -- ahead
    intro k hk
    rw [Function.update_noteq (by intro h; cases h)]
    rcases hx.ahead k hk with h | ⟨h1, h2⟩
    · exact Or.inl h
    · exact Or.inr ⟨h1, h2.trans (List.sublist_append_left _ _)⟩
  · intro sec h1 h2
    rw [Function.update_noteq (by intro h; cases h)]
    exact hx.future sec h1 h2
  · intro sec h1 h2
    rw [Function.update_noteq (by intro h; cases h)]
    exact hx.past sec h1 h2

theorem cyc_ne_of_lt {a b : Nat} (h1 : a < b) (h2 : b < a + CYCBUF_SIZE) :
    CbufRef.cyc (cycIndex b) ≠ CbufRef.cyc (cycIndex a) := by
  intro h
  have h3 := CbufRef.cyc.inj h
  rw [cycIndex_eq, cycIndex_eq] at h3
  unfold CYCBUF_SIZE at h2
  omega

theorem cycIndex_add_size (a : Nat) : cycIndex (a + CYCBUF_SIZE) = cycIndex a := by
  rw [cycIndex_eq, cycIndex_eq]
  unfold CYCBUF_SIZE
  omega

/-- The invariant of the expiry loop after the splice of the bucket of the
second `ts + 1`. -/
theorem Expiring.after_splice {s0 : State} {ls0 : CbufRef → List Nat} {ts : Nat} {s : State}
    {ls : CbufRef → List Nat} {N : List Nat} {ds : List (Nat × Nat)}
    (hx : Expiring s0 ls0 ts s ls N ds) (hts : s.timestamp = ts + 1)
    (hlist0 : ∀ k, k < CYCBUF_SIZE → s0.listOf (.cyc k) = ls0 (.cyc k))
    (hge : ∀ e ∈ heapEntries s.mem s.queuebrk, ts + 1 ≤ e.time)
    (hmem : heapEntries (spliceBucket s).mem (spliceBucket s).queuebrk =
      heapEntries s.mem s.queuebrk) :
    Expiring s0 ls0 (ts + 1) (spliceBucket s)
      (Function.update (Function.update ls (.cyc (cycIndex s.timestamp)) []) .immediate
        (ls .immediate ++ ls (.cyc (cycIndex s.timestamp))))
      (N ++ ls (.cyc (cycIndex s.timestamp)))
      (ds ++ (ls (.cyc (cycIndex s.timestamp))).map (fun _ => (ts + 1, 0))) := by
  have hle := hx.le
  rw [hts]
  have hk128 : cycIndex (ts + 1) < CYCBUF_SIZE := cycIndex_lt _
  -- the bucket is as in `s0`, or empty
  have hB : (ts + 1 < s0.timestamp + CYCBUF_SIZE ∧
      ls (.cyc (cycIndex (ts + 1))) = ls0 (.cyc (cycIndex (ts + 1)))) ∨
      ls (.cyc (cycIndex (ts + 1))) = [] := by
    by_cases h : ts + 1 < s0.timestamp + CYCBUF_SIZE
    · exact Or.inl ⟨h, hx.future (ts + 1) (Nat.lt_succ_self _) h⟩
    · right
      have h1 : s0.timestamp ≤ ts + 1 - CYCBUF_SIZE := by omega
      have h2 : ts + 1 - CYCBUF_SIZE ≤ ts := by unfold CYCBUF_SIZE; omega
      have h3 := hx.past _ h1 h2
      rw [← cycIndex_add_size, Nat.sub_add_cancel (by omega)] at h3
      exact h3
  have hNmem : ∀ x ∈ N, x ∈ ls .immediate := fun x h => by
    rw [hx.imm]; exact List.mem_append_right _ h
  refine
    { le := Nat.le_succ_of_le hle
      imm := by rw [Function.update_same, hx.imm, List.append_assoc]
      run := by rw [update_splice, if_neg (by intro h; cases h), if_neg (by intro h; cases h)]
                exact hx.run
      pend := ?_
      sorted := ?_
      bound := ?_
      below := ?_
      heap := by rw [hmem]; exact hx.heap
      keys := ?_
      ahead := ?_
      future := ?_
      past := ?_ }
  · -- pend
    refine List.rel_append ?_ ?_
    · refine forall₂_imp_mem hx.pend ?_
      intro x d _ _ h
      rw [spliceBucket_key]
      exact h
    · rw [List.forall₂_map_right_iff, List.forall₂_same]
      intro x hxB
      rcases hB with ⟨h1, h2⟩ | h
      · rw [h2] at hxB
        refine Or.inr ⟨ts + 1, x, by omega, h1, ?_, ?_, rfl⟩
        · rw [hlist0 _ hk128]
          exact hxB
        · rw [spliceBucket_key, hx.keys (.cyc (cycIndex (ts + 1))) hk128 x hxB]
      · rw [h] at hxB
        cases hxB
  · -- sorted
    rw [List.pairwise_append]
    refine ⟨hx.sorted, ?_, ?_⟩
    · rw [List.pairwise_map]
      exact List.pairwise_of_forall (fun _ _ => Or.inr ⟨rfl, le_refl _⟩)
    · intro d hd d' hd'
      obtain ⟨_, _, rfl⟩ := List.mem_map.1 hd'
      have := hx.bound d hd
      exact Or.inl (by show d.1 < ts + 1; omega)
  · -- bound
    intro d hd
    rcases List.mem_append.1 hd with h | h
    · exact Nat.le_succ_of_le (hx.bound d h)
    · obtain ⟨_, _, rfl⟩ := List.mem_map.1 h
      exact le_refl _
  · -- below
    rw [hmem]
    intro d hd e he
    rcases List.mem_append.1 hd with h | h
    · exact hx.below d h e he
    · obtain ⟨_, _, rfl⟩ := List.mem_map.1 h
      have := hge e he
      unfold dlLe
      show ts + 1 < e.time ∨ (ts + 1 = e.time ∧ 0 ≤ e.mtime)
      omega
  · -- keys
    intro r hr x hxr
    rw [spliceBucket_key]
    exact hx.keys r hr x hxr
  · -- ahead
    intro k hk
    rw [update_splice, if_neg (by intro h; cases h)]
    by_cases h2 : CbufRef.cyc k = .cyc (cycIndex (ts + 1))
    · rw [if_pos h2]
      right
      refine ⟨rfl, ?_⟩
      rcases hx.ahead k hk with h | ⟨_, h⟩
      · rw [← h, h2]
        exact List.sublist_append_right _ _
      · exact h.trans (List.sublist_append_left _ _)
    · rw [if_neg h2]
      rcases hx.ahead k hk with h | ⟨h1, h⟩
      · exact Or.inl h
      · exact Or.inr ⟨h1, h.trans (List.sublist_append_left _ _)⟩
  · -- future
    intro sec h1 h2
    rw [update_splice, if_neg (by intro h; cases h), if_neg (cyc_ne_of_lt h1 (by omega))]
    exact hx.future sec (by omega) h2
  · -- past
    intro sec h1 h2
    rw [update_splice, if_neg (by intro h; cases h)]
    split_ifs with h3
    · rfl
    · rcases Nat.lt_or_ge ts sec with h | h
      · have : sec = ts + 1 := by omega
        exact absurd (by rw [this]) h3
      · exact hx.past sec h1 h

theorem Expiring.of_mem {s0 : State} {ls0 : CbufRef → List Nat} {ts : Nat} {s s' : State}
    {ls : CbufRef → List Nat} {N : List Nat} {ds : List (Nat × Nat)}
    (hx : Expiring s0 ls0 ts s ls N ds) (hm : s'.mem = s.mem) (hq : s'.queuebrk = s.queuebrk) :
    Expiring s0 ls0 ts s' ls N ds := by
  have hk : ∀ x, s'.key x = s.key x := by
    intro x
    unfold State.key State.cotab
    rw [hm]
  refine
    { le := hx.le
      imm := hx.imm
      run := hx.run
      pend := forall₂_imp_mem hx.pend (fun x d _ _ h => by rw [hk]; exact h)
      sorted := hx.sorted
      bound := hx.bound
      below := by rw [hm, hq]; exact hx.below
      heap := by rw [hm, hq]; exact hx.heap
      keys := fun r hr x h => by rw [hk]; exact hx.keys r hr x h
      ahead := hx.ahead
      future := hx.future
      past := hx.past }

theorem heapEntries_splice {s : State} {fl : List Nat} {ls : CbufRef → List Nat}
    (hw : Wheel s fl ls) (hh : HeapInv s) :
    heapEntries (spliceBucket s).mem (spliceBucket s).queuebrk =
      heapEntries s.mem s.queuebrk := by
  rw [(spliceBucket_fields s).2.2.2.2.1]
  exact heapEntries_congr _ _ _ (fun k _ hk => spliceBucket_mem hw k (le_trans hk hh.brk))

/-- The loop `while (timestamp < t)` of `co_expire` keeps the invariants and
ends with `timestamp = t`. -/
theorem expireLoop_spec {s0 : State} {ls0 : CbufRef → List Nat}
    (hlist0 : ∀ k, k < CYCBUF_SIZE → s0.listOf (.cyc k) = ls0 (.cyc k)) (t : Nat)
    (ht32 : t < UINT_MOD) :
    ∀ (fuel : Nat) (s : State) (fl : List Nat) (ls : CbufRef → List Nat) (N : List Nat)
      (ds : List (Nat × Nat)),
      Wheel s fl ls → HeapInv s → (s.flist = 0 → s.queuebrk < s.cycbrk) →
      Expiring s0 ls0 s.timestamp s ls N ds → s.timestamp + fuel = t →
      ∃ s' fl' ls' N' ds', expireLoop fuel s t = .ok s' ∧ Wheel s' fl' ls' ∧ HeapInv s' ∧
        (s'.flist = 0 → s'.queuebrk < s'.cycbrk) ∧ s'.timestamp = t ∧
        s'.cotabsz = s.cotabsz ∧ Expiring s0 ls0 t s' ls' N' ds'
  | 0, s, fl, ls, N, ds, hw, hh, hroom, hx, hfuel => by
    have e : s.timestamp = t := by omega
    exact ⟨s, fl, ls, N, ds, rfl, hw, hh, hroom, e, rfl, e ▸ hx⟩
  | fuel + 1, s, fl, ls, N, ds, hw, hh, hroom, hx, hfuel => by
    have hlt : s.timestamp < t := by omega
    have hu : u32 (s.timestamp + 1) = s.timestamp + 1 := Nat.mod_eq_of_lt (by omega)
    have hw1 : Wheel { s with timestamp := u32 (s.timestamp + 1) } fl ls :=
      hw.frame (fun _ _ _ => rfl) (fun r => by cases r <;> rfl) rfl rfl rfl rfl rfl
    have hh1 : HeapInv { s with timestamp := u32 (s.timestamp + 1) } :=
      hh.heap_frame (fun _ _ => rfl) rfl hh.brk
    have hx1 : Expiring s0 ls0 s.timestamp { s with timestamp := u32 (s.timestamp + 1) } ls N ds :=
      hx.of_mem rfl rfl
    obtain ⟨s2, fl2, N2, E2, hd, hw2, hh2, hroom2, hts2, hsz2, hperm2, hsort2, hc2, hnc2, hF2,
        hkeys2, _⟩ := drainBefore_spec hw1 hh1 hroom
    have hts2' : s2.timestamp = s.timestamp + 1 := hts2.trans hu
    have hx2 := hx1.drain hperm2 hsort2
      (fun e he => by have := hc2 e he; have h3 : u32 (s.timestamp + 1) = s.timestamp + 1 := hu
                      change e.time < u32 (s.timestamp + 1) at this
                      omega)
      (fun e he e' he' => by
        have h1 := hc2 e he
        have h2 := hnc2 e' he'
        change e.time < u32 (s.timestamp + 1) at h1
        change ¬ e'.time < u32 (s.timestamp + 1) at h2
        exact Or.inl (by omega))
      hF2 hkeys2
    have hx3 := hx2.after_splice hts2' hlist0
      (fun e he => by
        have h2 := hnc2 e he
        change ¬ e.time < u32 (s.timestamp + 1) at h2
        omega)
      (heapEntries_splice hw2 hh2)
    obtain ⟨g1, g2, g3, g4, g5, g6, g7⟩ := spliceBucket_fields s2
    have hroom3 : (spliceBucket s2).flist = 0 → (spliceBucket s2).queuebrk < (spliceBucket s2).cycbrk := by
      rw [g1, g2, g5]; exact hroom2
    have e3 : (spliceBucket s2).timestamp = s.timestamp + 1 := g6.trans hts2'
    obtain ⟨s', fl', ls', N', ds', hl, hw', hh', hroom', hts', hsz', hx'⟩ :=
      expireLoop_spec hlist0 t ht32 fuel (spliceBucket s2) fl2 _ _ _ hw2.splice
        (HeapInv.heap_splice hw2 hh2) hroom3 (by rw [e3]; exact hx3) (by rw [e3]; omega)
    refine ⟨s', fl', ls', N', ds', ?_, hw', hh', hroom', hts', ?_, hx'⟩
    · unfold expireLoop
      rw [if_pos hlt]
      simp only [bind, Except.bind, hd]
      exact hl
    · rw [hsz', g3, hsz2]

/-! ## The function `co_expire` -/

theorem swapEq.swap_refl (s : State) : swapEq s s := rfl

theorem swapEq.swap_trans {s1 s2 s3 : State} (h1 : swapEq s1 s2) (h2 : swapEq s2 s3) :
    swapEq s1 s3 := by
  unfold swapEq at *
  rw [h2, h1]

theorem swaprateLoop_swapEq : ∀ (fuel : Nat) (s : State) (t : Nat),
    swapEq s (swaprateLoop fuel s t)
  | 0, s, _ => swapEq.swap_refl s
  | fuel + 1, s, t => by
    unfold swaprateLoop
    by_cases h1 : s.swaptime < t
    · rw [if_pos h1]
      refine swapEq.swap_trans ?_ (swaprateLoop_swapEq fuel _ t)
      dsimp only
      split_ifs <;> (unfold swapEq; rfl)
    · rw [if_neg h1]
      exact swapEq.swap_refl s

theorem swapEq.swap_fields {s s' : State} (h : swapEq s s') :
    s'.mem = s.mem ∧ s'.flist = s.flist ∧ s'.cycbrk = s.cycbrk ∧ s'.cotabsz = s.cotabsz ∧
    s'.nzero = s.nzero ∧ s'.nshort = s.nshort ∧ s'.queuebrk = s.queuebrk ∧
    s'.timestamp = s.timestamp ∧ s'.immediate = s.immediate ∧ s'.running = s.running ∧
    s'.cycbuf = s.cycbuf := by
  unfold swapEq at h
  rw [h]
  exact ⟨rfl, rfl, rfl, rfl, rfl, rfl, rfl, rfl, rfl, rfl, rfl⟩

theorem swapEq.swap_getCbuf {s s' : State} (h : swapEq s s') (r : CbufRef) :
    s'.getCbuf r = s.getCbuf r := by
  obtain ⟨-, -, -, -, -, -, -, -, h1, h2, h3⟩ := h.swap_fields
  cases r
  · exact h1
  · exact h2
  · show s'.cycbuf _ = s.cycbuf _
    rw [h3]

theorem Wheel.swap {s s' : State} {fl : List Nat} {ls : CbufRef → List Nat} (hw : Wheel s fl ls)
    (h : swapEq s s') : Wheel s' fl ls := by
  obtain ⟨h1, h2, h3, h4, h5, h6, -, -, -, -, -⟩ := h.swap_fields
  exact hw.frame (fun x _ _ => by unfold State.cotab; rw [h1]) h.swap_getCbuf h2 h3 h4 h5 h6

theorem Wheel.restart_ready {s : State} {fl : List Nat} {ls : CbufRef → List Nat}
    (hw : Wheel s fl ls) (t : Nat) :
    t = 0 ∨ s.nshort = s.nzero ∨ ∃ k, k < CYCBUF_SIZE ∧ (s.cycbuf k).list ≠ 0 := by
  by_cases h : s.nshort = s.nzero
  · exact Or.inr (Or.inl h)
  · right; right
    have h1 := hw.nshort
    have h2 : ∑ k in Finset.range CYCBUF_SIZE, (ls (.cyc k)).length ≠ 0 := by omega
    obtain ⟨k, hk, hne⟩ := Finset.exists_ne_zero_of_sum_ne_zero h2
    have hk' := Finset.mem_range.1 hk
    refine ⟨k, hk', ?_⟩
    intro h0
    apply hne
    have := (hw.chain (.cyc k) hk').head_eq_zero_iff.1 h0
    rw [this]
    rfl

theorem Wheel.listOf {s : State} {fl : List Nat} {ls : CbufRef → List Nat} (hw : Wheel s fl ls)
    (r : CbufRef) (hr : r.valid) : s.listOf r = ls r := by
  unfold State.listOf
  refine walk_of_chain _ (hw.chain r hr) (fun x hx => hw.lt_mod (hw.range r hr x hx).2) ?_
  have h1 : (ls r).length ≤ s.cotabsz := by
    have hnd := hw.nodup r hr
    have hsub : ∀ x ∈ ls r, x ∈ List.range s.cotabsz := fun x hx =>
      List.mem_range.2 (hw.range r hr x hx).2
    have := (List.subperm_of_subset hnd hsub).length_le
    rwa [List.length_range] at this
  have := hw.cap
  omega

/-- The invariant of the expiry loop at the start. -/
theorem Expiring.init {s0 : State} {fl0 : List Nat} {ls0 : CbufRef → List Nat}
    (hw : Wheel s0 fl0 ls0) (hwin : (s0.cycbuf (cycIndex s0.timestamp)).list = 0) :
    Expiring s0 ls0 s0.timestamp s0 ls0 [] [] :=
  { le := le_refl _
    imm := (List.append_nil _).symm
    run := rfl
    pend := List.Forall₂.nil
    sorted := List.Pairwise.nil
    bound := fun _ h => by cases h
    below := fun _ h => by cases h
    heap := fun _ h => h
    keys := fun _ _ _ _ => rfl
    ahead := fun _ _ => Or.inl rfl
    future := fun _ _ _ => rfl
    past := fun sec h1 h2 => by
      have e : sec = s0.timestamp := le_antisymm h2 h1
      rw [e]
      exact (hw.chain (.cyc (cycIndex s0.timestamp)) (cycIndex_lt _)).head_eq_zero_iff.1 hwin }

/-- The collection in `co_expire`, for an alarm at `(t, m)`, `timestamp ≤ t`:
it returns, and the elements `N` that it appends to the immediate list are
callouts that waited in `s0`, in the order of their deadlines `ds`. -/
theorem co_expire_spec {s0 : State} {fl0 : List Nat} {ls0 : CbufRef → List Nat}
    (hw : Wheel s0 fl0 ls0) (hh : HeapInv s0) (hroom : s0.flist = 0 → s0.queuebrk < s0.cycbrk)
    (hwin : (s0.cycbuf (cycIndex s0.timestamp)).list = 0) (t m : Nat)
    (ht : s0.timestamp ≤ t) (ht32 : t < UINT_MOD) :
    ∃ s' fl' ls' N ds, co_expire s0 true t m = .ok s' ∧ Wheel s' fl' ls' ∧ HeapInv s' ∧
      (s'.flist = 0 → s'.queuebrk < s'.cycbrk) ∧ s'.timestamp = t ∧ s'.cotabsz = s0.cotabsz ∧
      Expiring s0 ls0 t s' ls' N ds ∧
      (∀ e ∈ heapEntries s'.mem s'.queuebrk, ¬ (e.time < t ∨ (e.time = t ∧ e.mtime ≤ m))) := by
  have hlist0 : ∀ k, k < CYCBUF_SIZE → s0.listOf (.cyc k) = ls0 (.cyc k) :=
    fun k hk => hw.listOf (.cyc k) hk
  obtain ⟨s1, fl1, ls1, N1, ds1, hl, hw1, hh1, hroom1, hts1, hsz1, hx1⟩ :=
    expireLoop_spec hlist0 t ht32 (t - s0.timestamp) s0 fl0 ls0 [] [] hw hh hroom
      (Expiring.init hw hwin) (by omega)
  obtain ⟨s2, fl2, N2, E2, hd, hw2, hh2, hroom2, hts2, hsz2, hperm2, hsort2, hc2, hnc2, hF2,
      hkeys2, _⟩ := drainUpTo_spec t m hw1 hh1 hroom1
  have hx2 := hx1.drain hperm2 hsort2
    (fun e he => by have := hc2 e he; omega)
    (fun e he e' he' => by
      have h1 := hc2 e he
      have h2 := hnc2 e' he'
      unfold keyLe
      omega)
    hF2 hkeys2
  obtain ⟨s3, hr, ha⟩ := restart_ok s2 t (hw2.restart_ready t)
  obtain ⟨a1, a2, a3, a4, a5, a6, a7, a8, a9⟩ := ha.fields
  have hse := swaprateLoop_swapEq (t - s3.swaptime) s3 t
  obtain ⟨b1, b2, b3, b4, b5, b6, b7, b8, b9, b10, b11⟩ := hse.swap_fields
  refine ⟨swaprateLoop (t - s3.swaptime) s3 t, fl2, _, _, _, ?_, (hw2.alarm ha).swap hse, ?_, ?_,
    ?_, ?_, (hx2.of_mem ha.mem a6).of_mem b1 b7, ?_⟩
  · unfold co_expire
    simp only [if_true, bind, Except.bind, hl, hd, hr, pure, Except.pure]
  · exact (hh2.heap_frame (fun k _ => by rw [ha.mem]) a6 (by rw [a2]; exact hh2.brk)).heap_frame
      (fun k _ => by rw [b1]) b7 (by rw [b3, a6, a2]; exact hh2.brk)
  · rw [b2, b7, b3, a1, a6, a2]
    exact hroom2
  · rw [b8, a7, hts2, hts1]
  · rw [b4, a3, hsz2, hsz1]
  · rw [b1, b7, ha.mem, a6]
    exact hnc2

/-! ## The function `freecallout` at the head of the running list -/

theorem freecallout_head (s : State) (cyc : CbufRef) (i : Nat) :
    freecallout s cyc i i 0 = releaseSlot (unlinkHead s cyc i) i := by
  unfold freecallout unlinkHead
  simp only [if_true, bind, Except.bind, pure, Except.pure, ne_eq, not_true_eq_false, false_and,
    if_false]
  split_ifs <;> rfl

theorem absorbFree_succ (fuel : Nat) (s : State) :
    absorbFree (fuel + 1) s =
      if s.cycbrk ≠ s.cotabsz ∧ (s.cotab s.cycbrk).handle = 0 then absorbFree fuel (absorbStep s)
      else .ok s := by
  rfl

theorem absorbStep_handle (s : State) (y : Nat) :
    ((absorbStep s).cotab y).handle = (s.cotab y).handle := by
  unfold absorbStep
  dsimp only
  split_ifs
  · rfl
  · show ((State.setPrev _ _ _).cotab y).handle = _
    simp
  · show ((State.setNext _ _ _).cotab y).handle = _
    simp

theorem absorbStep_mtime (s : State) (y : Nat) :
    ((absorbStep s).cotab y).mtime = (s.cotab y).mtime := by
  unfold absorbStep
  dsimp only
  split_ifs
  · rfl
  · show ((State.setPrev _ _ _).cotab y).mtime = _
    simp
  · show ((State.setNext _ _ _).cotab y).mtime = _
    simp

theorem absorbStep_time (s : State) (y : Nat) :
    ((absorbStep s).cotab y).time =
      if s.cycbrk ≠ s.flist ∧ y = (s.cotab s.cycbrk).oindex then (s.cotab s.cycbrk).time
      else (s.cotab y).time := by
  unfold absorbStep
  dsimp only
  by_cases h1 : s.cycbrk = s.flist
  · rw [if_pos h1, if_neg (fun h => h.1 h1)]
    rfl
  · rw [if_neg h1]
    by_cases h2 : (s.cotab s.cycbrk).time = 0
    · rw [if_neg (not_not.2 h2)]
      show ((State.setNext _ _ _).cotab y).time = _
      rw [setNext_time]
      by_cases h3 : y = (s.cotab s.cycbrk).oindex
      · rw [if_pos h3, if_pos ⟨h1, h3⟩]
      · rw [if_neg h3, if_neg (fun h => h3 h.2)]
    · rw [if_pos h2]
      show ((State.setPrev _ _ _).cotab y).time = _
      rw [setPrev_time, setNext_time]
      by_cases h3 : y = (s.cotab s.cycbrk).oindex
      · rw [if_pos h3, if_pos ⟨h1, h3⟩]
      · rw [if_neg h3, if_neg (fun h => h3 h.2)]

theorem absorbStep_oindex (s : State) (y : Nat) :
    ((absorbStep s).cotab y).oindex =
      if s.cycbrk ≠ s.flist ∧ (s.cotab s.cycbrk).time ≠ 0 ∧ y = (s.cotab s.cycbrk).time then
        (s.cotab s.cycbrk).oindex
      else (s.cotab y).oindex := by
  unfold absorbStep
  dsimp only
  by_cases h1 : s.cycbrk = s.flist
  · rw [if_pos h1, if_neg (fun h => h.1 h1)]
    rfl
  · rw [if_neg h1]
    by_cases h2 : (s.cotab s.cycbrk).time = 0
    · rw [if_neg (not_not.2 h2), if_neg (fun h => h.2.1 h2)]
      show ((State.setNext _ _ _).cotab y).oindex = _
      rw [setNext_oindex]
    · rw [if_pos h2]
      show ((State.setPrev _ _ _).cotab y).oindex = _
      rw [setPrev_oindex, setNext_oindex]
      by_cases h3 : y = (s.cotab s.cycbrk).time
      · rw [if_pos h3, if_pos ⟨h1, h2, h3⟩]
      · rw [if_neg h3, if_neg (fun h => h3 h.2.2)]

theorem absorbStep_getCbuf (s : State) (r : CbufRef) :
    (absorbStep s).getCbuf r = s.getCbuf r := by
  unfold absorbStep
  dsimp only
  split_ifs <;> cases r <;> rfl

theorem absorbStep_fields (s : State) :
    (absorbStep s).flist = (if s.cycbrk = s.flist then u16 (s.cotab s.cycbrk).time else s.flist) ∧
    (absorbStep s).cycbrk = u16 (s.cycbrk + 1) ∧
    (absorbStep s).cotabsz = s.cotabsz ∧ (absorbStep s).nzero = s.nzero ∧
    (absorbStep s).nshort = s.nshort ∧ (absorbStep s).queuebrk = s.queuebrk ∧
    (absorbStep s).timestamp = s.timestamp ∧ (absorbStep s).mem 0 = s.mem 0 := by
  unfold absorbStep
  dsimp only
  split_ifs <;> exact ⟨rfl, rfl, rfl, rfl, rfl, rfl, rfl, rfl⟩

/-- Unlinking the element `x` that follows `p` on a chain. -/
theorem Chain.remove {s s' : State} {p x : Nat} {post : List Nat}
    (hp : (s'.cotab p).time = (s.cotab x).time) :
    ∀ {pre : List Nat} {h : Nat}, Chain s h (pre ++ p :: x :: post) →
      (∀ y ∈ pre ++ post, (s'.cotab y).time = (s.cotab y).time) → Chain s' h (pre ++ p :: post)
  | [], h, ⟨h1, h2, _, _, h5⟩, hk => by
    refine ⟨h1, h2, ?_⟩
    rw [hp]
    exact h5.congr (fun y hy => hk y (by simpa using hy))
  | z :: pre, h, ⟨h1, h2, h3⟩, hk => by
    refine ⟨h1, h2, ?_⟩
    rw [hk z (by simp)]
    exact Chain.remove hp h3 (fun y hy => hk y (by
      rcases List.mem_append.1 hy with h | h
      · exact List.mem_append_left _ (List.mem_cons_of_mem _ h)
      · exact List.mem_append_right _ h))

theorem Chain.next_lt {s : State} {x h : Nat} {xs : List Nat} (hc : Chain s h (x :: xs))
    (hb : ∀ y ∈ xs, y < UINDEX_MOD) : (s.cotab x).time < UINDEX_MOD := by
  obtain ⟨_, _, h3⟩ := hc
  cases xs with
  | nil => have : (s.cotab x).time = 0 := h3; rw [this]; decide
  | cons y ys => obtain ⟨e, _, _⟩ := h3; rw [e]; exact hb y (List.mem_cons_self _ _)

theorem Chain.next_eq {s : State} {x n : Nat} {post : List Nat} :
    ∀ {xs : List Nat} {h : Nat}, Chain s h (xs ++ x :: n :: post) → (s.cotab x).time = n
  | [], _, hc => hc.2.2.1
  | _ :: _, _, hc => Chain.next_eq hc.2.2

theorem Chain.next_last {s : State} {x : Nat} :
    ∀ {xs : List Nat} {h : Nat}, Chain s h (xs ++ [x]) → (s.cotab x).time = 0
  | [], _, hc => hc.2.2
  | _ :: _, _, hc => Chain.next_last hc.2.2

theorem eq_nil_or_snoc (l : List Nat) : l = [] ∨ ∃ l' a, l = l' ++ [a] := by
  rcases List.eq_nil_or_concat l with h | ⟨l', a, h⟩
  · exact Or.inl h
  · exact Or.inr ⟨l', a, by rw [h, List.concat_eq_append]⟩

/-- One round of the loop of `absorbFree` keeps the invariant of the cyclic
buffer: the free element at `cycbrk` leaves the free list and the region. -/
theorem Wheel.absorb {s : State} {fl : List Nat} {ls : CbufRef → List Nat} (hw : Wheel s fl ls)
    (h1 : s.cycbrk ≠ s.cotabsz) (h2 : (s.cotab s.cycbrk).handle = 0) :
    Wheel (absorbStep s) (fl.erase s.cycbrk) ls := by
  have hcap := hw.cap
  have hble := hw.brk_le
  have hxlt : s.cycbrk < s.cotabsz := lt_of_le_of_ne hble h1
  have hxfl : s.cycbrk ∈ fl := by
    rcases hw.cover s.cycbrk (le_refl _) hxlt with h | ⟨r, hr, h⟩
    · exact h
    · exact absurd h2 (hw.handle r hr _ h)
  obtain ⟨pre, post, hfl⟩ := List.append_of_mem hxfl
  have hnd := hw.free_nodup
  rw [hfl] at hnd
  have hxpre : s.cycbrk ∉ pre := fun h => by
    rw [List.nodup_append] at hnd
    exact hnd.2.2 h (List.mem_cons_self _ _)
  have hxpost : s.cycbrk ∉ post := fun h => by
    rw [List.nodup_append] at hnd
    exact (List.nodup_cons.1 hnd.2.1).1 h
  have herase : fl.erase s.cycbrk = pre ++ post := by
    rw [hfl, List.erase_append_right _ hxpre, List.erase_cons_head]
  have hmem_erase : ∀ y, y ∈ fl.erase s.cycbrk ↔ y ∈ fl ∧ y ≠ s.cycbrk := by
    intro y
    rw [hw.free_nodup.mem_erase_iff]
    exact and_comm
  obtain ⟨f1, f2, f3, f4, f5, f6, f7, f8⟩ := absorbStep_fields s
  have hcyc : (absorbStep s).cycbrk = s.cycbrk + 1 := by
    rw [f2]; exact u16_of_lt (by omega)
  have hH := absorbStep_handle s
  have hM := absorbStep_mtime s
  have hT := absorbStep_time s
  have hO := absorbStep_oindex s
  have hC := absorbStep_getCbuf s
  have hch := hw.free_chain
  have hpv := hw.free_prev
  rw [hfl] at hch hpv
  have hfb : ∀ y ∈ fl, y < UINDEX_MOD := fun y hy => hw.lt_mod (hw.free_range y hy).2
  -- the element before `cycbrk` on the free list
  have hprev : ∀ pre' p, pre = pre' ++ [p] →
      s.cycbrk ≠ s.flist ∧ (s.cotab s.cycbrk).oindex = p ∧ p ∈ fl := by
    intro pre' p hp
    refine ⟨?_, ?_, ?_⟩
    · intro e
      have hh : (pre ++ s.cycbrk :: post).head? = some s.flist := hch.head?_eq (by simp)
      rw [hp] at hh hxpre
      cases pre' with
      | nil =>
        simp at hh
        exact hxpre (by rw [e, hh]; simp)
      | cons z zs =>
        simp at hh
        exact hxpre (by rw [e, hh]; simp)
    · rw [hp, List.append_assoc] at hpv
      have := (List.chain'_split.1 hpv).2
      exact (List.chain'_cons.1 this).1
    · rw [hfl, hp]
      simp
  have hnil : pre = [] → s.cycbrk = s.flist := by
    intro hp
    rw [hp] at hch
    exact hch.1.symm
  have hTl : ∀ r, r.valid → ∀ y ∈ ls r, ((absorbStep s).cotab y).time = (s.cotab y).time := by
    intro r hr y hy
    rw [hT, if_neg]
    rintro ⟨hne, hyp⟩
    rcases eq_nil_or_snoc pre with hp | ⟨pre', p, hp⟩
    · exact hne (hnil hp)
    · obtain ⟨_, e2, e3⟩ := hprev pre' p hp
      exact hw.free_not_listed e3 r hr (by rw [← e2, ← hyp]; exact hy)
  refine
    { cap := by rw [f3]; exact hw.cap
      brk_pos := by rw [hcyc]; omega
      brk_le := by rw [hcyc, f3]; omega
      free_chain := ?_
      free_prev := ?_
      free_handle := ?_
      free_range := ?_
      free_nodup := hw.free_nodup.erase _
      chain := fun r hr => by rw [hC]; exact (hw.chain r hr).congr (hTl r hr)
      last := fun r hr x hx => by rw [hC]; exact hw.last r hr x hx
      count := fun k hk hne => by
        have := hC (.cyc k)
        have e : (absorbStep s).cycbuf k = s.cycbuf k := this
        rw [e, hM]; exact hw.count k hk hne
      handle := fun r hr y hy => by rw [hH]; exact hw.handle r hr y hy
      range := ?_
      nodup := hw.nodup
      disj := hw.disj
      cover := ?_
      nzero := by rw [f4]; exact hw.nzero
      nshort := by rw [f5, f4]; exact hw.nshort
      total := ?_ }
  · -- free_chain
    rw [herase, f1]
    rcases eq_nil_or_snoc pre with hp | ⟨pre', p, hp⟩
    · have hx := hnil hp
      rw [if_pos hx]
      rw [hp] at hch ⊢
      rw [List.nil_append] at hch ⊢
      have hlt : (s.cotab s.cycbrk).time < UINDEX_MOD :=
        hch.next_lt (fun y hy => hfb y (by rw [hfl]; simp [hy]))
      rw [u16_of_lt hlt]
      refine hch.2.2.congr ?_
      intro y hy
      rw [hT, if_neg]
      rintro ⟨hne, _⟩
      exact hne hx
    · obtain ⟨e1, e2, e3⟩ := hprev pre' p hp
      rw [if_neg e1]
      rw [hp, List.append_assoc] at hch ⊢
      refine Chain.remove ?_ hch ?_
      · rw [hT, if_pos ⟨e1, e2.symm⟩]
      · intro y hy
        rw [hT, if_neg]
        rintro ⟨_, hyp⟩
        rw [e2] at hyp
        rw [hp, List.append_assoc] at hnd
        have hndp : p ∉ pre' ++ post := by
          intro hm
          rw [List.nodup_append] at hnd
          rcases List.mem_append.1 hm with h | h
          · exact hnd.2.2 h (List.mem_cons_self _ _)
          · have := (List.nodup_cons.1 hnd.2.1).1
            exact this (List.mem_cons_of_mem _ h)
        exact hndp (hyp ▸ hy)
  · -- free_prev
    rw [herase]
    rcases eq_nil_or_snoc pre with hp | ⟨pre', p, hp⟩
    · have hx := hnil hp
      rw [hp] at hpv ⊢
      rw [List.nil_append] at hpv ⊢
      refine (List.Chain'.iff_mem.1 hpv.tail).imp ?_
      rintro a b ⟨_, _, hab⟩
      rw [hO, if_neg]
      · exact hab
      · rintro ⟨hne, _⟩
        exact hne hx
    · obtain ⟨e1, e2, e3⟩ := hprev pre' p hp
      rw [hp, List.append_assoc, List.singleton_append] at hpv hnd hch ⊢
      rw [List.chain'_split] at hpv ⊢
      have hch' : Chain s s.flist ((pre' ++ [p]) ++ s.cycbrk :: post) := by
        rw [List.append_assoc, List.singleton_append]; exact hch
      have hnd' := hnd
      rw [List.nodup_append] at hnd'
      obtain ⟨_, hnd2, hnd3⟩ := hnd'
      have hnd4 := List.nodup_cons.1 hnd2
      have hnd5 := List.nodup_cons.1 hnd4.2
      constructor
      · have hpv1 : List.Chain' (fun a b => (s.cotab b).oindex = a) (pre' ++ [p]) := by
          have := hpv.1
          exact this
        refine (List.Chain'.iff_mem.1 hpv1).imp ?_
        rintro a b ⟨_, hb, hab⟩
        rw [hO, if_neg]
        · exact hab
        · rintro ⟨_, hn0, hbn⟩
          have hbx : (s.cotab s.cycbrk).time ∈ post := by
            cases post with
            | nil => exact absurd (Chain.next_last hch') hn0
            | cons n post' =>
              rw [Chain.next_eq hch']
              exact List.mem_cons_self _ _
          rcases List.mem_append.1 hb with h | h
          · exact hnd3 h (List.mem_cons_of_mem _ (List.mem_cons_of_mem _ (hbn ▸ hbx)))
          · rw [List.mem_singleton] at h
            exact hnd4.1 (List.mem_cons_of_mem _ (by rw [← h, hbn]; exact hbx))
      · cases post with
        | nil => exact List.chain'_singleton _
        | cons n post' =>
          have hxn : (s.cotab s.cycbrk).time = n := Chain.next_eq hch'
          have hn0 : n ≠ 0 := hch.ne_zero n (by simp)
          rw [List.chain'_cons]
          constructor
          · rw [hO, if_pos ⟨e1, by rw [hxn]; exact hn0, hxn.symm⟩]
            exact e2
          · have h3 := (List.chain'_cons.1 hpv.2).2
            have h4 : List.Chain (fun a b => (s.cotab b).oindex = a) n post' :=
              (List.chain'_cons.1 h3).2
            show List.Chain _ n post'
            refine (List.Chain.iff_mem.1 h4).imp ?_
            rintro a b ⟨_, hb, hab⟩
            rw [hO, if_neg]
            · exact hab
            · rintro ⟨_, _, hbn⟩
              rw [hxn] at hbn
              exact (List.nodup_cons.1 hnd5.2).1 (hbn ▸ hb)
  · intro y hy
    rw [hH]
    exact hw.free_handle y ((hmem_erase y).1 hy).1
  · intro y hy
    obtain ⟨hy1, hy2⟩ := (hmem_erase y).1 hy
    have := hw.free_range y hy1
    rw [hcyc, f3]
    omega
  · -- range
    intro r hr y hy
    have := hw.range r hr y hy
    have hne : y ≠ s.cycbrk := fun e => hw.free_not_listed hxfl r hr (e ▸ hy)
    rw [hcyc, f3]
    omega
  · -- cover
    intro y hy1 hy2
    rw [hcyc] at hy1
    rw [f3] at hy2
    rcases hw.cover y (by omega) hy2 with h | h
    · exact Or.inl ((hmem_erase y).2 ⟨h, by omega⟩)
    · exact Or.inr h
  · rw [f5, hcyc, f3, List.length_erase_of_mem hxfl]
    have := hw.total
    have : 0 < fl.length := List.length_pos_of_mem hxfl
    omega

/-- The neighbours of a free element on the free list are free elements. -/
theorem Wheel.free_neighbours {s : State} {fl : List Nat} {ls : CbufRef → List Nat}
    (hw : Wheel s fl ls) {x : Nat} (hx : x ∈ fl) :
    (x ≠ s.flist → (s.cotab x).oindex ∈ fl) ∧
    ((s.cotab x).time ≠ 0 → (s.cotab x).time ∈ fl) := by
  obtain ⟨pre, post, hfl⟩ := List.append_of_mem hx
  have hch := hw.free_chain
  have hpv := hw.free_prev
  rw [hfl] at hch hpv
  constructor
  · intro hne
    rcases eq_nil_or_snoc pre with hp | ⟨pre', p, hp⟩
    · rw [hp] at hch
      exact absurd hch.1.symm hne
    · rw [hp, List.append_assoc] at hpv
      have := (List.chain'_split.1 hpv).2
      rw [(List.chain'_cons.1 this).1, hfl, hp]
      simp
  · intro hne
    cases post with
    | nil => exact absurd (Chain.next_last hch) hne
    | cons n post' =>
      rw [Chain.next_eq hch, hfl]
      simp

/-- One round of the loop of `absorbFree` writes free elements only. -/
theorem absorbStep_cotab {s : State} {fl : List Nat} {ls : CbufRef → List Nat}
    (hw : Wheel s fl ls) (h1 : s.cycbrk ≠ s.cotabsz) (h2 : (s.cotab s.cycbrk).handle = 0)
    (y : Nat) (hy : y ∉ fl) : (absorbStep s).cotab y = s.cotab y := by
  have hxlt : s.cycbrk < s.cotabsz := lt_of_le_of_ne hw.brk_le h1
  have hxfl : s.cycbrk ∈ fl := by
    rcases hw.cover s.cycbrk (le_refl _) hxlt with h | ⟨r, hr, h⟩
    · exact h
    · exact absurd h2 (hw.handle r hr _ h)
  obtain ⟨n1, n2⟩ := hw.free_neighbours hxfl
  apply call_out_ext (absorbStep_handle s y)
  · rw [absorbStep_oindex, if_neg]
    rintro ⟨_, h3, h4⟩
    exact hy (h4 ▸ n2 h3)
  · rw [absorbStep_time, if_neg]
    rintro ⟨h3, h4⟩
    exact hy (h4 ▸ n1 h3)
  · exact absorbStep_mtime s y

/-- The loop of `absorbFree` ends, keeps the invariant of the cyclic buffer
and writes free elements only; at the end `cycbrk` is `cotabsz` or the index
of an element in use. -/
theorem absorbFree_spec {ls : CbufRef → List Nat} : ∀ (fuel : Nat) (s : State) (fl : List Nat),
    Wheel s fl ls → s.cotabsz - s.cycbrk < fuel →
    ∃ s' fl', absorbFree fuel s = .ok s' ∧ Wheel s' fl' ls ∧
      (∀ y, y ∉ fl → s'.cotab y = s.cotab y) ∧ (∀ y ∈ fl', y ∈ fl) ∧
      (∀ r, s'.getCbuf r = s.getCbuf r) ∧
      s'.cotabsz = s.cotabsz ∧ s'.queuebrk = s.queuebrk ∧ s'.timestamp = s.timestamp ∧
      s'.mem 0 = s.mem 0 ∧ s.cycbrk ≤ s'.cycbrk ∧
      (s'.cycbrk = s'.cotabsz ∨ (s'.cotab s'.cycbrk).handle ≠ 0)
  | 0, _, _, _, hf => absurd hf (Nat.not_lt_zero _)
  | fuel + 1, s, fl, hw, hf => by
    rw [absorbFree_succ]
    by_cases hc : s.cycbrk ≠ s.cotabsz ∧ (s.cotab s.cycbrk).handle = 0
    · rw [if_pos hc]
      obtain ⟨h1, h2⟩ := hc
      have hw1 := hw.absorb h1 h2
      obtain ⟨f1, f2, f3, f4, f5, f6, f7, f8⟩ := absorbStep_fields s
      have hcap := hw.cap
      have hble := hw.brk_le
      have hcyc : (absorbStep s).cycbrk = s.cycbrk + 1 := by
        rw [f2]; exact u16_of_lt (by omega)
      obtain ⟨s', fl', ha, hw', hc', hsub', hg', hz', hq', ht', hm', hle', hend'⟩ :=
        absorbFree_spec fuel (absorbStep s) _ hw1 (by rw [f3, hcyc]; omega)
      have herase : ∀ y, y ∈ fl.erase s.cycbrk → y ∈ fl := fun y hy => List.mem_of_mem_erase hy
      refine ⟨s', fl', ha, hw', ?_, fun y hy => herase y (hsub' y hy), ?_, hz'.trans f3,
        hq'.trans f6, ht'.trans f7, hm'.trans f8, by omega, hend'⟩
      · intro y hy
        rw [hc' y (fun h => hy (herase y h)), absorbStep_cotab hw h1 h2 y hy]
      · intro r
        rw [hg', absorbStep_getCbuf]
    · rw [if_neg hc]
      refine ⟨s, fl, rfl, hw, fun _ _ => rfl, fun _ h => h, fun _ => rfl, rfl, rfl, rfl, rfl,
        le_refl _, ?_⟩
      by_cases h1 : s.cycbrk = s.cotabsz
      · exact Or.inl h1
      · exact Or.inr (fun h2 => hc ⟨h1, h2⟩)

theorem releaseSlot_eq (s : State) (i : Nat) :
    releaseSlot s i =
      if i = s.cycbrk then
        absorbFree UINDEX_MOD { s.setHandle i 0 with cycbrk := u16 (s.cycbrk + 1) }
      else .ok (pushFree (s.setHandle i 0) i) := by
  rfl

theorem cotab_counts (s : State) (a b : Nat) (x : Nat) :
    ({ s with nshort := a, nzero := b } : State).cotab x = s.cotab x := rfl

theorem getCbuf_setList_same (s : State) (r : CbufRef) (v : Nat) :
    ((s.setList r v).getCbuf r).list = v := by
  rw [getCbuf_setList, if_pos rfl]

theorem unlinkHead_eq (s : State) (cyc : CbufRef) (i : Nat) :
    unlinkHead s cyc i =
      if u16 (s.cotab i).time ≠ 0 then
        (({ s with nshort := dec16 s.nshort, nzero := dec16 s.nzero } : State).setList cyc
          (u16 (s.cotab i).time)).setCount (u16 (s.cotab i).time) (dec16 (s.cotab i).mtime)
      else
        ({ s with nshort := dec16 s.nshort, nzero := dec16 s.nzero } : State).setList cyc
          (u16 (s.cotab i).time) := by
  unfold unlinkHead
  simp only [getCbuf_setList_same]
  generalize dec16 s.nshort = a
  generalize dec16 s.nzero = b
  simp only [cotab_counts]

theorem getCbuf_counts (s : State) (a b : Nat) (r : CbufRef) :
    ({ s with nshort := a, nzero := b } : State).getCbuf r = s.getCbuf r := by
  cases r <;> rfl

theorem unlinkHead_cotab (s : State) (cyc : CbufRef) (i x : Nat) :
    ((unlinkHead s cyc i).cotab x).handle = (s.cotab x).handle ∧
    ((unlinkHead s cyc i).cotab x).oindex = (s.cotab x).oindex ∧
    ((unlinkHead s cyc i).cotab x).time = (s.cotab x).time := by
  rw [unlinkHead_eq]
  generalize dec16 s.nshort = a
  generalize dec16 s.nzero = b
  split_ifs
  · rw [setCount_handle, setCount_oindex, setCount_time, cotab_setList, cotab_counts]
    exact ⟨rfl, rfl, rfl⟩
  · rw [cotab_setList, cotab_counts]
    exact ⟨rfl, rfl, rfl⟩

theorem unlinkHead_getCbuf (s : State) (cyc : CbufRef) (i : Nat) (r : CbufRef) :
    (unlinkHead s cyc i).getCbuf r =
      if r = cyc then ⟨u16 (s.cotab i).time, (s.getCbuf cyc).last⟩ else s.getCbuf r := by
  rw [unlinkHead_eq]
  generalize dec16 s.nshort = a
  generalize dec16 s.nzero = b
  split_ifs with h1 h2 h3
  · rw [getCbuf_setCount, getCbuf_setList, if_pos h2, getCbuf_counts]
  · rw [getCbuf_setCount, getCbuf_setList, if_neg h2, getCbuf_counts]
  · rw [getCbuf_setList, if_pos h3, getCbuf_counts]
  · rw [getCbuf_setList, if_neg h3, getCbuf_counts]

theorem unlinkHead_mtime (s : State) (cyc : CbufRef) (i x : Nat) :
    ((unlinkHead s cyc i).cotab x).mtime =
      if u16 (s.cotab i).time ≠ 0 ∧ x = u16 (s.cotab i).time then dec16 (s.cotab i).mtime
      else (s.cotab x).mtime := by
  rw [unlinkHead_eq]
  generalize dec16 s.nshort = a
  generalize dec16 s.nzero = b
  by_cases h : u16 (s.cotab i).time = 0
  · rw [if_neg (not_not.2 h), if_neg (fun hh => hh.1 h), cotab_setList, cotab_counts]
  · rw [if_pos h, setCount_mtime, cotab_setList, cotab_counts]
    by_cases hx : x = u16 (s.cotab i).time
    · rw [if_pos hx, if_pos ⟨h, hx⟩]
    · rw [if_neg hx, if_neg (fun hh => hx hh.2)]
      rfl

theorem unlinkHead_fields (s : State) (cyc : CbufRef) (i : Nat) :
    (unlinkHead s cyc i).flist = s.flist ∧ (unlinkHead s cyc i).cycbrk = s.cycbrk ∧
    (unlinkHead s cyc i).cotabsz = s.cotabsz ∧ (unlinkHead s cyc i).nzero = dec16 s.nzero ∧
    (unlinkHead s cyc i).nshort = dec16 s.nshort ∧ (unlinkHead s cyc i).queuebrk = s.queuebrk ∧
    (unlinkHead s cyc i).timestamp = s.timestamp ∧ (unlinkHead s cyc i).mem 0 = s.mem 0 := by
  rw [unlinkHead_eq]
  generalize dec16 s.nshort = a
  generalize dec16 s.nzero = b
  split_ifs <;> cases cyc <;> exact ⟨rfl, rfl, rfl, rfl, rfl, rfl, rfl, rfl⟩

theorem pushFree_cotab (s : State) (i x : Nat) :
    ((pushFree s i).cotab x).handle = (s.cotab x).handle ∧
    ((pushFree s i).cotab x).mtime = (s.cotab x).mtime ∧
    ((pushFree s i).cotab x).time = (if x = i then s.flist else (s.cotab x).time) ∧
    ((pushFree s i).cotab x).oindex =
      (if s.flist ≠ 0 ∧ x = s.flist then i else (s.cotab x).oindex) := by
  unfold pushFree
  by_cases h : s.flist = 0
  · simp only [if_neg (not_not.2 h)]
    refine ⟨?_, ?_, ?_, ?_⟩
    · show ((State.setNext _ _ _).cotab x).handle = _
      rw [setNext_handle]
    · show ((State.setNext _ _ _).cotab x).mtime = _
      rw [setNext_mtime]
    · show ((State.setNext _ _ _).cotab x).time = _
      rw [setNext_time]
    · show ((State.setNext _ _ _).cotab x).oindex = _
      rw [setNext_oindex, if_neg (fun hh => hh.1 h)]
  · simp only [if_pos h]
    refine ⟨?_, ?_, ?_, ?_⟩
    · show ((State.setNext _ _ _).cotab x).handle = _
      rw [setNext_handle, setPrev_handle]
    · show ((State.setNext _ _ _).cotab x).mtime = _
      rw [setNext_mtime, setPrev_mtime]
    · show ((State.setNext _ _ _).cotab x).time = _
      rw [setNext_time, setPrev_time]
      rfl
    · show ((State.setNext _ _ _).cotab x).oindex = _
      rw [setNext_oindex, setPrev_oindex]
      by_cases hx : x = s.flist
      · rw [if_pos hx, if_pos ⟨h, hx⟩]
      · rw [if_neg hx, if_neg (fun hh => hx hh.2)]

theorem pushFree_getCbuf (s : State) (i : Nat) (r : CbufRef) :
    (pushFree s i).getCbuf r = s.getCbuf r := by
  unfold pushFree
  dsimp only
  split_ifs <;> cases r <;> rfl

theorem pushFree_fields (s : State) (i : Nat) :
    (pushFree s i).flist = i ∧ (pushFree s i).cycbrk = s.cycbrk ∧
    (pushFree s i).cotabsz = s.cotabsz ∧ (pushFree s i).nzero = s.nzero ∧
    (pushFree s i).nshort = s.nshort ∧ (pushFree s i).queuebrk = s.queuebrk ∧
    (pushFree s i).timestamp = s.timestamp ∧ (pushFree s i).mem 0 = s.mem 0 := by
  unfold pushFree
  dsimp only
  split_ifs <;> exact ⟨rfl, rfl, rfl, rfl, rfl, rfl, rfl, rfl⟩

theorem mem_update_running (ls : CbufRef → List Nat) (rest : List Nat) (r : CbufRef) (x : Nat) :
    x ∈ Function.update ls .running rest r ↔
      (r = .running ∧ x ∈ rest) ∨ (r ≠ .running ∧ x ∈ ls r) := by
  by_cases h : r = .running
  · subst h
    simp [Function.update_same]
  · simp [Function.update_noteq h, h]

/-- The list fields of the invariant after the first element `i` of the
running list has been unlinked. -/
theorem Wheel.pop_lists {s s' : State} {fl : List Nat} {ls : CbufRef → List Nat}
    (hw : Wheel s fl ls) {i : Nat} {rest : List Nat} (hrun : ls .running = i :: rest)
    (hT : ∀ x, x ≠ i → (s'.cotab x).time = (s.cotab x).time)
    (hM : ∀ r, r.valid → r ≠ .running → ∀ x ∈ ls r, (s'.cotab x).mtime = (s.cotab x).mtime)
    (hC : ∀ r, s'.getCbuf r =
      if r = .running then ⟨(s.cotab i).time, (s.getCbuf .running).last⟩ else s.getCbuf r) :
    (∀ r, r.valid → Chain s' (s'.getCbuf r).list (Function.update ls .running rest r)) ∧
    (∀ r, r.valid → ∀ x, (Function.update ls .running rest r).getLast? = some x →
      (s'.getCbuf r).last = x) ∧
    (∀ k, k < CYCBUF_SIZE → Function.update ls .running rest (.cyc k) ≠ [] →
      (s'.cotab (s'.cycbuf k).list).mtime =
        (Function.update ls .running rest (.cyc k)).length) ∧
    (∀ r, r.valid → ∀ x ∈ Function.update ls .running rest r, x ∈ ls r ∧ x ≠ i) ∧
    (∀ r, r.valid → (Function.update ls .running rest r).Nodup) ∧
    (∀ r r', r.valid → r'.valid → r ≠ r' → ∀ x ∈ Function.update ls .running rest r,
      x ∉ Function.update ls .running rest r') := by
  have hch := hw.chain .running trivial
  have hnd := hw.nodup .running trivial
  rw [hrun] at hch hnd
  obtain ⟨_, hi0, hch2⟩ := hch
  have hirest : i ∉ rest := (List.nodup_cons.1 hnd).1
  have himem : i ∈ ls .running := by rw [hrun]; exact List.mem_cons_self _ _
  have hsub : ∀ r, r.valid → ∀ x ∈ Function.update ls .running rest r, x ∈ ls r ∧ x ≠ i := by
    intro r hr x hx
    rcases (mem_update_running ls rest r x).1 hx with ⟨e, h⟩ | ⟨e, h⟩
    · subst e
      rw [hrun]
      exact ⟨List.mem_cons_of_mem _ h, fun e => hirest (e ▸ h)⟩
    · exact ⟨h, fun e' => hw.disj r .running hr trivial e x h (e' ▸ himem)⟩
  refine ⟨?_, ?_, ?_, hsub, ?_, ?_⟩
  · intro r hr
    rw [hC]
    by_cases e : r = .running
    · subst e
      rw [if_pos rfl, Function.update_same]
      exact hch2.congr (fun x hx => hT x (fun e => hirest (e ▸ hx)))
    · rw [if_neg e, Function.update_noteq e]
      exact (hw.chain r hr).congr (fun x hx => hT x (hsub r hr x (by
        rw [Function.update_noteq e]; exact hx)).2)
  · intro r hr x hx
    rw [hC]
    by_cases e : r = .running
    · subst e
      rw [if_pos rfl]
      rw [Function.update_same] at hx
      apply hw.last .running trivial x
      rw [hrun]
      cases rest with
      | nil => cases hx
      | cons y ys => rw [List.getLast?_cons_cons]; exact hx
    · rw [if_neg e]
      rw [Function.update_noteq e] at hx
      exact hw.last r hr x hx
  · intro k hk hne
    have e : CbufRef.cyc k ≠ .running := by intro h; cases h
    rw [Function.update_noteq e] at hne ⊢
    have hc := hC (.cyc k)
    rw [if_neg e] at hc
    have hc' : s'.cycbuf k = s.cycbuf k := hc
    have hm : (s.cycbuf k).list ∈ ls (.cyc k) := hw.head_mem (.cyc k) hk
      (fun h0 => hne ((hw.chain (.cyc k) hk).head_eq_zero_iff.1 h0))
    rw [hc', hM (.cyc k) hk e _ hm]
    exact hw.count k hk hne
  · intro r hr
    by_cases e : r = .running
    · subst e
      rw [Function.update_same]
      exact (List.nodup_cons.1 hnd).2
    · rw [Function.update_noteq e]
      exact hw.nodup r hr
  · intro r r' hr hr' hne x hx hx'
    exact hw.disj r r' hr hr' hne x (hsub r hr x hx).1 (hsub r' hr' x hx').1

theorem sum_update_running (ls : CbufRef → List Nat) (rest : List Nat) :
    ∑ k in Finset.range CYCBUF_SIZE, (Function.update ls .running rest (.cyc k)).length =
      ∑ k in Finset.range CYCBUF_SIZE, (ls (.cyc k)).length :=
  sum_update_other ls .running (fun k h => by cases h) rest

/-- Facts about the first element `i` of the running list. -/
theorem Wheel.pop_facts {s : State} {fl : List Nat} {ls : CbufRef → List Nat}
    (hw : Wheel s fl ls) {i : Nat} {rest : List Nat} (hrun : ls .running = i :: rest) :
    s.running.list = i ∧ i ≠ 0 ∧ u16 (s.cotab i).time = (s.cotab i).time ∧ i ∉ fl ∧
    s.cycbrk ≤ i ∧ i < s.cotabsz ∧ i ∉ rest ∧
    ((s.cotab i).time ≠ 0 → (s.cotab i).time ∈ rest) ∧
    dec16 s.nzero = s.nzero - 1 ∧ dec16 s.nshort = s.nshort - 1 ∧ 1 ≤ s.nzero ∧
    s.nzero ≤ s.nshort := by
  have hch := hw.chain .running trivial
  have hnd := hw.nodup .running trivial
  rw [hrun] at hch hnd
  have himem : i ∈ ls .running := by rw [hrun]; exact List.mem_cons_self _ _
  have hrange := hw.range .running trivial i himem
  have hlt : (s.cotab i).time < UINDEX_MOD :=
    hch.next_lt (fun y hy => hw.lt_mod (hw.range .running trivial y (by
      rw [hrun]; exact List.mem_cons_of_mem _ hy)).2)
  have hnz := hw.nzero
  have hns := hw.nshort
  have htot := hw.total
  have hcap := hw.cap
  rw [hrun, List.length_cons] at hnz
  refine ⟨hch.1, hch.2.1, u16_of_lt hlt, fun h => hw.free_not_listed h .running trivial himem,
    hrange.1, hrange.2, (List.nodup_cons.1 hnd).1, ?_, dec16_of_pos (by omega) (by omega),
    dec16_of_pos (by omega) (by omega), by omega, by omega⟩
  intro hne
  have h3 := hch.2.2
  cases rest with
  | nil => exact absurd h3 hne
  | cons y ys => rw [h3.1]; exact List.mem_cons_self _ _

/-- The invariant of the cyclic buffer after `freecallout` has put the first
element of the running list on the free list. -/
theorem Wheel.pop_push {s : State} {fl : List Nat} {ls : CbufRef → List Nat}
    (hw : Wheel s fl ls) {i : Nat} {rest : List Nat} (hrun : ls .running = i :: rest) :
    Wheel (pushFree ((unlinkHead s .running i).setHandle i 0) i) (i :: fl)
      (Function.update ls .running rest) := by
  obtain ⟨p1, p2, p3, p4, p5, p6, p7, p8, p9, p10, p11, p12⟩ := hw.pop_facts hrun
  obtain ⟨u1, u2, u3, u4, u5, u6, u7, u8⟩ := unlinkHead_fields s .running i
  obtain ⟨g1, g2, g3, g4, g5, g6, g7, g8⟩ :=
    pushFree_fields ((unlinkHead s .running i).setHandle i 0) i
  have hvf : ((unlinkHead s .running i).setHandle i 0).flist = s.flist := u1
  have k2 : (pushFree ((unlinkHead s .running i).setHandle i 0) i).cycbrk = s.cycbrk :=
    g2.trans u2
  have k3 : (pushFree ((unlinkHead s .running i).setHandle i 0) i).cotabsz = s.cotabsz :=
    g3.trans u3
  have k4 : (pushFree ((unlinkHead s .running i).setHandle i 0) i).nzero = s.nzero - 1 :=
    g4.trans (u4.trans p9)
  have k5 : (pushFree ((unlinkHead s .running i).setHandle i 0) i).nshort = s.nshort - 1 :=
    g5.trans (u5.trans p10)
  have hH : ∀ x, ((pushFree ((unlinkHead s .running i).setHandle i 0) i).cotab x).handle =
      if x = i then 0 else (s.cotab x).handle := by
    intro x
    rw [(pushFree_cotab _ i x).1, setHandle_handle, (unlinkHead_cotab s .running i x).1]
  have hT : ∀ x, ((pushFree ((unlinkHead s .running i).setHandle i 0) i).cotab x).time =
      if x = i then s.flist else (s.cotab x).time := by
    intro x
    rw [(pushFree_cotab _ i x).2.2.1, setHandle_time, (unlinkHead_cotab s .running i x).2.2, hvf]
  have hO : ∀ x, ((pushFree ((unlinkHead s .running i).setHandle i 0) i).cotab x).oindex =
      if s.flist ≠ 0 ∧ x = s.flist then i else (s.cotab x).oindex := by
    intro x
    rw [(pushFree_cotab _ i x).2.2.2, setHandle_oindex, (unlinkHead_cotab s .running i x).2.1, hvf]
  have hM : ∀ x, ((pushFree ((unlinkHead s .running i).setHandle i 0) i).cotab x).mtime =
      if (s.cotab i).time ≠ 0 ∧ x = (s.cotab i).time then dec16 (s.cotab i).mtime
      else (s.cotab x).mtime := by
    intro x
    rw [(pushFree_cotab _ i x).2.1, setHandle_mtime, unlinkHead_mtime, p3]
  have hC : ∀ r, (pushFree ((unlinkHead s .running i).setHandle i 0) i).getCbuf r =
      if r = .running then ⟨(s.cotab i).time, (s.getCbuf .running).last⟩ else s.getCbuf r := by
    intro r
    rw [pushFree_getCbuf, getCbuf_setHandle, unlinkHead_getCbuf, p3]
  obtain ⟨c1, c2, c3, c4, c5, c6⟩ := hw.pop_lists hrun
    (fun x hx => by rw [hT, if_neg hx])
    (fun r hr hne x hx => by
      rw [hM, if_neg]
      rintro ⟨h1, h2⟩
      have : x ∈ ls .running := by rw [hrun, h2]; exact List.mem_cons_of_mem _ (p8 h1)
      exact hw.disj r .running hr trivial hne x hx this)
    hC
  have hfne : ∀ x ∈ fl, x ≠ i := fun x hx e => p4 (e ▸ hx)
  have hnz := hw.nzero
  have hns := hw.nshort
  have htot := hw.total
  rw [hrun, List.length_cons] at hnz
  refine
    { cap := by rw [k3]; exact hw.cap
      brk_pos := by rw [k2]; exact hw.brk_pos
      brk_le := by rw [k2, k3]; exact hw.brk_le
      free_chain := ?_
      free_prev := ?_
      free_handle := ?_
      free_range := ?_
      free_nodup := List.nodup_cons.2 ⟨p4, hw.free_nodup⟩
      chain := c1
      last := c2
      count := c3
      handle := fun r hr x hx => by
        rw [hH, if_neg (c4 r hr x hx).2]; exact hw.handle r hr x (c4 r hr x hx).1
      range := fun r hr x hx => by rw [k2, k3]; exact hw.range r hr x (c4 r hr x hx).1
      nodup := c5
      disj := c6
      cover := ?_
      nzero := ?_
      nshort := ?_
      total := ?_ }
  · -- free_chain
    rw [g1]
    refine ⟨rfl, p2, ?_⟩
    rw [hT, if_pos rfl]
    exact hw.free_chain.congr (fun x hx => by rw [hT, if_neg (hfne x hx)])
  · -- free_prev
    have hch := hw.free_chain
    have hpv := hw.free_prev
    have hnd := hw.free_nodup
    cases fl with
    | nil => exact List.chain'_singleton _
    | cons f fl' =>
      rw [List.chain'_cons]
      constructor
      · rw [hO, if_pos ⟨by rw [hch.1]; exact hch.2.1, hch.1.symm⟩]
      · show List.Chain _ f fl'
        have h4 : List.Chain (fun a b => (s.cotab b).oindex = a) f fl' := hpv
        refine (List.Chain.iff_mem.1 h4).imp ?_
        rintro a b ⟨_, hb, hab⟩
        rw [hO, if_neg]
        · exact hab
        · rintro ⟨_, e⟩
          rw [hch.1] at e
          exact (List.nodup_cons.1 hnd).1 (e ▸ hb)
  · -- free_handle
    intro x hx
    rw [hH]
    rcases List.mem_cons.1 hx with e | h
    · rw [if_pos e]
    · rw [if_neg (hfne x h)]
      exact hw.free_handle x h
  · -- free_range
    intro x hx
    rw [k2, k3]
    rcases List.mem_cons.1 hx with e | h
    · rw [e]; exact ⟨p5, p6⟩
    · exact hw.free_range x h
  · -- cover
    intro x h1 h2
    rw [k2] at h1
    rw [k3] at h2
    by_cases e : x = i
    · exact Or.inl (e ▸ List.mem_cons_self _ _)
    rcases hw.cover x h1 h2 with h | ⟨r, hr, h⟩
    · exact Or.inl (List.mem_cons_of_mem _ h)
    · right
      refine ⟨r, hr, (mem_update_running ls rest r x).2 ?_⟩
      by_cases er : r = .running
      · subst er
        rw [hrun] at h
        rcases List.mem_cons.1 h with h | h
        · exact absurd h e
        · exact Or.inl ⟨rfl, h⟩
      · exact Or.inr ⟨er, h⟩
  · -- nzero
    rw [k4, Function.update_noteq (by intro h; cases h), Function.update_same]
    omega
  · -- nshort
    rw [k5, k4, sum_update_running]
    omega
  · rw [k5, k2, k3, List.length_cons]
    omega

theorem getCbuf_cycbrk (s : State) (c : Nat) (r : CbufRef) :
    ({ s with cycbrk := c } : State).getCbuf r = s.getCbuf r := by
  cases r <;> rfl

theorem cotab_cycbrk (s : State) (c : Nat) (x : Nat) :
    ({ s with cycbrk := c } : State).cotab x = s.cotab x := rfl

/-- The invariant of the cyclic buffer after `freecallout` has unlinked the
first element of the running list, which is the element at `cycbrk`, and
has moved `cycbrk` past it. -/
theorem Wheel.pop_edge {s : State} {fl : List Nat} {ls : CbufRef → List Nat}
    (hw : Wheel s fl ls) {i : Nat} {rest : List Nat} (hrun : ls .running = i :: rest)
    (he : i = s.cycbrk) (c : Nat) (hc : c = s.cycbrk + 1) :
    Wheel ({ (unlinkHead s .running i).setHandle i 0 with cycbrk := c } : State) fl
      (Function.update ls .running rest) := by
  obtain ⟨p1, p2, p3, p4, p5, p6, p7, p8, p9, p10, p11, p12⟩ := hw.pop_facts hrun
  obtain ⟨u1, u2, u3, u4, u5, u6, u7, u8⟩ := unlinkHead_fields s .running i
  have k1 : ({ (unlinkHead s .running i).setHandle i 0 with cycbrk := c } : State).flist =
      s.flist := u1
  have k2 : ({ (unlinkHead s .running i).setHandle i 0 with cycbrk := c } : State).cycbrk =
      s.cycbrk + 1 := hc
  have k3 : ({ (unlinkHead s .running i).setHandle i 0 with cycbrk := c } : State).cotabsz =
      s.cotabsz := u3
  have k4 : ({ (unlinkHead s .running i).setHandle i 0 with cycbrk := c } : State).nzero =
      s.nzero - 1 := u4.trans p9
  have k5 : ({ (unlinkHead s .running i).setHandle i 0 with cycbrk := c } : State).nshort =
      s.nshort - 1 := u5.trans p10
  have hH : ∀ x, (({ (unlinkHead s .running i).setHandle i 0 with cycbrk := c } : State).cotab
      x).handle = if x = i then 0 else (s.cotab x).handle := by
    intro x
    rw [cotab_cycbrk, setHandle_handle, (unlinkHead_cotab s .running i x).1]
  have hT : ∀ x, (({ (unlinkHead s .running i).setHandle i 0 with cycbrk := c } : State).cotab
      x).time = (s.cotab x).time := by
    intro x
    rw [cotab_cycbrk, setHandle_time, (unlinkHead_cotab s .running i x).2.2]
  have hO : ∀ x, (({ (unlinkHead s .running i).setHandle i 0 with cycbrk := c } : State).cotab
      x).oindex = (s.cotab x).oindex := by
    intro x
    rw [cotab_cycbrk, setHandle_oindex, (unlinkHead_cotab s .running i x).2.1]
  have hM : ∀ x, (({ (unlinkHead s .running i).setHandle i 0 with cycbrk := c } : State).cotab
      x).mtime =
      if (s.cotab i).time ≠ 0 ∧ x = (s.cotab i).time then dec16 (s.cotab i).mtime
      else (s.cotab x).mtime := by
    intro x
    rw [cotab_cycbrk, setHandle_mtime, unlinkHead_mtime, p3]
  have hC : ∀ r, ({ (unlinkHead s .running i).setHandle i 0 with cycbrk := c } : State).getCbuf r =
      if r = .running then ⟨(s.cotab i).time, (s.getCbuf .running).last⟩ else s.getCbuf r := by
    intro r
    rw [getCbuf_cycbrk, getCbuf_setHandle, unlinkHead_getCbuf, p3]
  obtain ⟨c1, c2, c3, c4, c5, c6⟩ := hw.pop_lists hrun
    (fun x _ => hT x)
    (fun r hr hne x hx => by
      rw [hM, if_neg]
      rintro ⟨h1, h2⟩
      have : x ∈ ls .running := by rw [hrun, h2]; exact List.mem_cons_of_mem _ (p8 h1)
      exact hw.disj r .running hr trivial hne x hx this)
    hC
  have hfne : ∀ x ∈ fl, x ≠ i := fun x hx e => p4 (e ▸ hx)
  have hnz := hw.nzero
  have hns := hw.nshort
  have htot := hw.total
  rw [hrun, List.length_cons] at hnz
  refine
    { cap := by rw [k3]; exact hw.cap
      brk_pos := by rw [k2]; omega
      brk_le := by rw [k2, k3]; omega
      free_chain := by rw [k1]; exact hw.free_chain.congr (fun x _ => hT x)
      free_prev := ?_
      free_handle := fun x hx => by rw [hH, if_neg (hfne x hx)]; exact hw.free_handle x hx
      free_range := ?_
      free_nodup := hw.free_nodup
      chain := c1
      last := c2
      count := c3
      handle := fun r hr x hx => by
        rw [hH, if_neg (c4 r hr x hx).2]; exact hw.handle r hr x (c4 r hr x hx).1
      range := ?_
      nodup := c5
      disj := c6
      cover := ?_
      nzero := ?_
      nshort := ?_
      total := ?_ }
  · refine (List.Chain'.iff_mem.1 hw.free_prev).imp ?_
    rintro a b ⟨_, _, hab⟩
    rw [hO]
    exact hab
  · intro x hx
    have := hw.free_range x hx
    have := hfne x hx
    rw [k2, k3]
    omega
  · intro r hr x hx
    have := hw.range r hr x (c4 r hr x hx).1
    have := (c4 r hr x hx).2
    rw [k2, k3]
    omega
  · -- cover
    intro x h1 h2
    rw [k2] at h1
    rw [k3] at h2
    have e : x ≠ i := by omega
    rcases hw.cover x (by omega) h2 with h | ⟨r, hr, h⟩
    · exact Or.inl h
    · right
      refine ⟨r, hr, (mem_update_running ls rest r x).2 ?_⟩
      by_cases er : r = .running
      · subst er
        rw [hrun] at h
        rcases List.mem_cons.1 h with h | h
        · exact absurd h e
        · exact Or.inl ⟨rfl, h⟩
      · exact Or.inr ⟨er, h⟩
  · rw [k4, Function.update_noteq (by intro h; cases h), Function.update_same]
    omega
  · rw [k5, k4, sum_update_running]
    omega
  · rw [k5, k2, k3]
    omega

/-- The effect of `freecallout(&running, i, i, 0)` for the first element `i`
of the running list: it returns, `i` leaves the list, the invariant of the
cyclic buffer holds, and the elements that remain listed are not written
except for the count in the new head of the running list. -/
theorem freecallout_running {s : State} {fl : List Nat} {ls : CbufRef → List Nat}
    (hw : Wheel s fl ls) {i : Nat} {rest : List Nat} (hrun : ls .running = i :: rest) :
    ∃ s' fl', freecallout s .running i i 0 = .ok s' ∧
      Wheel s' fl' (Function.update ls .running rest) ∧
      (∀ r, r.valid → ∀ x ∈ Function.update ls .running rest r, s'.key x = s.key x) ∧
      s'.cotabsz = s.cotabsz ∧ s'.queuebrk = s.queuebrk ∧ s'.timestamp = s.timestamp ∧
      s.cycbrk ≤ s'.cycbrk ∧
      (∀ x, x < s.cycbrk → s'.cotab x = s.cotab x) ∧ s'.mem 0 = s.mem 0 := by
  obtain ⟨p1, p2, p3, p4, p5, p6, p7, p8, p9, p10, p11, p12⟩ := hw.pop_facts hrun
  obtain ⟨u1, u2, u3, u4, u5, u6, u7, u8⟩ := unlinkHead_fields s .running i
  have hcap := hw.cap
  have hble := hw.brk_le
  have hlisted : ∀ r, r.valid → ∀ x ∈ Function.update ls .running rest r, x ∈ ls r ∧ x ≠ i := by
    intro r hr x hx
    rcases (mem_update_running ls rest r x).1 hx with ⟨e, h⟩ | ⟨e, h⟩
    · subst e
      rw [hrun]
      exact ⟨List.mem_cons_of_mem _ h, fun e => p7 (e ▸ h)⟩
    · refine ⟨h, fun e' => hw.disj r .running hr trivial e x h ?_⟩
      rw [hrun, e']
      exact List.mem_cons_self _ _
  -- the element below the region, if written, is `i` or a free element
  have hlow : ∀ x, x < s.cycbrk → x ≠ i ∧ x ∉ fl ∧ (s.flist ≠ 0 → x ≠ s.flist) ∧
      ((s.cotab i).time ≠ 0 → x ≠ (s.cotab i).time) := by
    intro x hx
    refine ⟨by omega, fun h => ?_, fun h0 e => ?_, fun h0 e => ?_⟩
    · have := (hw.free_range x h).1
      omega
    · have hm : s.flist ∈ fl := by
        have hne : fl ≠ [] := fun e' => h0 (hw.free_chain.head_eq_zero_iff.2 e')
        exact List.mem_of_mem_head? (hw.free_chain.head?_eq hne)
      have := (hw.free_range _ hm).1
      omega
    · have := (hw.range .running trivial _ (by
        rw [hrun]; exact List.mem_cons_of_mem _ (p8 h0))).1
      omega
  rw [freecallout_head, releaseSlot_eq]
  by_cases he : i = (unlinkHead s .running i).cycbrk
  · rw [if_pos he]
    have he' : i = s.cycbrk := he.trans u2
    have hc : u16 ((unlinkHead s .running i).cycbrk + 1) = s.cycbrk + 1 := by
      rw [u2]; exact u16_of_lt (by omega)
    have hw1 := hw.pop_edge hrun he' _ hc
    obtain ⟨s', fl', ha, hw', hc', hsub', hg', hz', hq', ht', hm', hle', _⟩ :=
      absorbFree_spec UINDEX_MOD _ fl hw1 (by
        show (unlinkHead s .running i).cotabsz - u16 ((unlinkHead s .running i).cycbrk + 1) < _
        rw [u3, hc]; omega)
    have hcot : ∀ x, x ≠ i → x ∉ fl →
        ((s.cotab i).time ≠ 0 → x ≠ (s.cotab i).time) → s'.cotab x = s.cotab x := by
      intro x hxi hxf hxn
      rw [hc' x hxf, cotab_cycbrk]
      apply call_out_ext
      · rw [setHandle_handle, if_neg hxi, (unlinkHead_cotab s .running i x).1]
      · rw [setHandle_oindex, (unlinkHead_cotab s .running i x).2.1]
      · rw [setHandle_time, (unlinkHead_cotab s .running i x).2.2]
      · rw [setHandle_mtime, unlinkHead_mtime, p3, if_neg]
        rintro ⟨h1, h2⟩
        exact hxn h1 h2
    refine ⟨s', fl', ha, hw', ?_, hz'.trans u3, hq'.trans u6, ht'.trans u7, ?_, ?_, hm'.trans u8⟩
    · intro r hr x hx
      obtain ⟨h1, h2⟩ := hlisted r hr x hx
      have hxf : x ∉ fl := fun h => hw.free_not_listed h r hr h1
      unfold State.key
      rw [hc' x hxf, cotab_cycbrk, setHandle_handle, if_neg h2, setHandle_oindex,
        (unlinkHead_cotab s .running i x).1, (unlinkHead_cotab s .running i x).2.1]
    · have : ({ (unlinkHead s .running i).setHandle i 0 with
          cycbrk := u16 ((unlinkHead s .running i).cycbrk + 1) } : State).cycbrk ≤ s'.cycbrk := hle'
      have h2 : ({ (unlinkHead s .running i).setHandle i 0 with
          cycbrk := u16 ((unlinkHead s .running i).cycbrk + 1) } : State).cycbrk =
          s.cycbrk + 1 := hc
      omega
    · intro x hx
      obtain ⟨h1, h2, _, h4⟩ := hlow x hx
      exact hcot x h1 h2 h4
  · rw [if_neg he]
    have hw1 := hw.pop_push hrun
    obtain ⟨g1, g2, g3, g4, g5, g6, g7, g8⟩ :=
      pushFree_fields ((unlinkHead s .running i).setHandle i 0) i
    have hvf : ((unlinkHead s .running i).setHandle i 0).flist = s.flist := u1
    refine ⟨_, _, rfl, hw1, ?_, g3.trans u3, g6.trans u6, g7.trans u7, ?_, ?_, g8.trans u8⟩
    · intro r hr x hx
      obtain ⟨h1, h2⟩ := hlisted r hr x hx
      have hxf : x ∉ fl := fun h => hw.free_not_listed h r hr h1
      unfold State.key
      rw [(pushFree_cotab _ i x).1, (pushFree_cotab _ i x).2.2.2, setHandle_handle, if_neg h2,
        setHandle_oindex, (unlinkHead_cotab s .running i x).1,
        (unlinkHead_cotab s .running i x).2.1, hvf, if_neg]
      rintro ⟨h0, e⟩
      apply hxf
      rw [e]
      have hne : fl ≠ [] := fun e' => h0 (hw.free_chain.head_eq_zero_iff.2 e')
      exact List.mem_of_mem_head? (hw.free_chain.head?_eq hne)
    · rw [g2]
      exact le_of_eq u2.symm
    · intro x hx
      obtain ⟨h1, h2, h3, h4⟩ := hlow x hx
      apply call_out_ext
      · rw [(pushFree_cotab _ i x).1, setHandle_handle, if_neg h1,
          (unlinkHead_cotab s .running i x).1]
      · rw [(pushFree_cotab _ i x).2.2.2, setHandle_oindex,
          (unlinkHead_cotab s .running i x).2.1, hvf, if_neg]
        rintro ⟨h0, e⟩
        exact h3 h0 e
      · rw [(pushFree_cotab _ i x).2.2.1, if_neg h1, setHandle_time,
          (unlinkHead_cotab s .running i x).2.2]
      · rw [(pushFree_cotab _ i x).2.1, setHandle_mtime, unlinkHead_mtime, p3, if_neg]
        rintro ⟨h0, e⟩
        exact h4 h0 e

/-! ## The function `co_call` -/

theorem Wheel.length_le {s : State} {fl : List Nat} {ls : CbufRef → List Nat} (hw : Wheel s fl ls)
    (r : CbufRef) (hr : r.valid) : (ls r).length ≤ s.cotabsz := by
  have hnd := hw.nodup r hr
  have hsub : ∀ x ∈ ls r, x ∈ List.range s.cotabsz := fun x hx =>
    List.mem_range.2 (hw.range r hr x hx).2
  have := (List.subperm_of_subset hnd hsub).length_le
  rwa [List.length_range] at this

/-- The loop of `co_call`, with callout functions that do not call back into
the scheduler: it invokes the callouts of the running list from the head, in
the order of the list, and leaves the running list empty. -/
theorem callLoop_spec : ∀ (L : List Nat) (fuel : Nat) (s : State) (fl : List Nat)
    (ls : CbufRef → List Nat), Wheel s fl ls → ls .running = L → L.length < fuel →
    ∃ s' fl', callLoop quietInvoke fuel s = .ok (s', L.map s.key) ∧
      Wheel s' fl' (Function.update ls .running []) ∧
      (∀ r, r.valid → ∀ x ∈ Function.update ls .running [] r, s'.key x = s.key x) ∧
      s'.cotabsz = s.cotabsz ∧ s'.queuebrk = s.queuebrk ∧ s'.timestamp = s.timestamp ∧
      s.cycbrk ≤ s'.cycbrk ∧
      (∀ x, x < s.cycbrk → s'.cotab x = s.cotab x) ∧ s'.mem 0 = s.mem 0
  | _, 0, _, _, _, _, _, hf => absurd hf (Nat.not_lt_zero _)
  | [], fuel + 1, s, fl, ls, hw, hrun, _ => by
    have h0 : s.running.list = 0 := by
      have := hw.chain .running trivial
      rw [hrun] at this
      exact this
    refine ⟨s, fl, ?_, ?_, fun _ _ _ _ => rfl, rfl, rfl, rfl, le_refl _, fun _ _ => rfl, rfl⟩
    · unfold callLoop
      simp [h0]
    · rw [← hrun, Function.update_eq_self]
      exact hw
  | i :: rest, fuel + 1, s, fl, ls, hw, hrun, hf => by
    obtain ⟨p1, p2, -⟩ := hw.pop_facts hrun
    obtain ⟨s1, fl1, hfree, hw1, hk1, hz1, hq1, ht1, hc1, hl1, hm1⟩ := freecallout_running hw hrun
    obtain ⟨s', fl', hcall, hw', hk', hz', hq', ht', hc', hl', hm'⟩ :=
      callLoop_spec rest fuel s1 fl1 _ hw1 (Function.update_same _ _ _)
        (by simpa using hf)
    rw [Function.update_idem] at hw' hk'
    have hmap : List.map s1.key rest = List.map s.key rest := by
      apply List.map_congr_left
      intro x hx
      exact hk1 .running trivial x (by rw [Function.update_same]; exact hx)
    refine ⟨s', fl', ?_, hw', ?_, hz'.trans hz1, hq'.trans hq1, ht'.trans ht1, le_trans hc1 hc',
      ?_, hm'.trans hm1⟩
    · unfold callLoop
      simp only [p1, ne_eq, p2, not_false_eq_true, if_true, bind, Except.bind, hfree, quietInvoke,
        hcall, pure, Except.pure, hmap, List.map_cons]
      rfl
    · intro r hr x hx
      have hx1 : x ∈ Function.update ls .running rest r := by
        rcases (mem_update_running ls [] r x).1 hx with ⟨_, h⟩ | ⟨e, h⟩
        · cases h
        · exact (mem_update_running ls rest r x).2 (Or.inr ⟨e, h⟩)
      rw [hk' r hr x hx, hk1 r hr x hx1]
    · intro x hx
      rw [hl' x (lt_of_lt_of_le hx hc1), hl1 x hx]

/-- The statements `running = immediate; immediate.list = 0` of `co_call`,
when the running list is empty, keep the invariant of the cyclic buffer. -/
theorem Wheel.snapshot {s : State} {fl : List Nat} {ls : CbufRef → List Nat} (hw : Wheel s fl ls)
    (hrun : ls .running = []) :
    Wheel (({ s with running := s.immediate } : State).setList .immediate 0) fl
      (Function.update (Function.update ls .running (ls .immediate)) .immediate []) := by
  have hC : ∀ r, (({ s with running := s.immediate } : State).setList .immediate 0).getCbuf r =
      match r with
      | .immediate => ⟨0, s.immediate.last⟩
      | .running => s.immediate
      | .cyc k => s.cycbuf k := by
    intro r
    cases r <;> rfl
  have hL : ∀ r, Function.update (Function.update ls .running (ls .immediate)) .immediate [] r =
      match r with
      | .immediate => []
      | .running => ls .immediate
      | .cyc k => ls (.cyc k) := by
    intro r
    cases r
    · rw [Function.update_same]
    · rw [Function.update_noteq (by intro h; cases h), Function.update_same]
    · rw [Function.update_noteq (by intro h; cases h), Function.update_noteq (by intro h; cases h)]
  have hmem : ∀ r, r.valid → ∀ x ∈ Function.update (Function.update ls .running (ls .immediate))
      .immediate [] r, ∃ r', r'.valid ∧ x ∈ ls r' ∧ (r = .running → r' = .immediate) ∧
        (r ≠ .running → r' = r) := by
    intro r hr x hx
    rw [hL] at hx
    cases r with
    | immediate => cases hx
    | running => exact ⟨.immediate, trivial, hx, fun _ => rfl, fun h => absurd rfl h⟩
    | cyc k => exact ⟨.cyc k, hr, hx, fun h => CbufRef.noConfusion h, fun _ => rfl⟩
  refine
    { cap := hw.cap
      brk_pos := hw.brk_pos
      brk_le := hw.brk_le
      free_chain := hw.free_chain.congr (fun _ _ => rfl)
      free_prev := hw.free_prev
      free_handle := hw.free_handle
      free_range := hw.free_range
      free_nodup := hw.free_nodup
      chain := ?_
      last := ?_
      count := ?_
      handle := ?_
      range := ?_
      nodup := ?_
      disj := ?_
      cover := ?_
      nzero := ?_
      nshort := ?_
      total := hw.total }
  · intro r hr
    rw [hC, hL]
    cases r with
    | immediate => exact rfl
    | running => exact (hw.chain .immediate trivial).congr (fun _ _ => rfl)
    | cyc k => exact (hw.chain (.cyc k) hr).congr (fun _ _ => rfl)
  · intro r hr x hx
    rw [hC]
    rw [hL] at hx
    cases r with
    | immediate => cases hx
    | running => exact hw.last .immediate trivial x hx
    | cyc k => exact hw.last (.cyc k) hr x hx
  · intro k hk hne
    rw [hL] at hne ⊢
    exact hw.count k hk hne
  · intro r hr x hx
    obtain ⟨r', hr', h, _, _⟩ := hmem r hr x hx
    exact hw.handle r' hr' x h
  · intro r hr x hx
    obtain ⟨r', hr', h, _, _⟩ := hmem r hr x hx
    exact hw.range r' hr' x h
  · intro r hr
    rw [hL]
    cases r with
    | immediate => exact List.nodup_nil
    | running => exact hw.nodup .immediate trivial
    | cyc k => exact hw.nodup (.cyc k) hr
  · intro r r' hr hr' hne x hx hx'
    obtain ⟨q, hq, h, a1, a2⟩ := hmem r hr x hx
    obtain ⟨q', hq', h', b1, b2⟩ := hmem r' hr' x hx'
    refine hw.disj q q' hq hq' ?_ x h h'
    intro e
    by_cases e1 : r = .running
    · by_cases e2 : r' = .running
      · exact hne (e1.trans e2.symm)
      · have h3 : r' = .immediate := ((b2 e2).symm.trans e.symm).trans (a1 e1)
        rw [h3, Function.update_same] at hx'
        cases hx'
    · by_cases e2 : r' = .running
      · have h3 : r = .immediate := ((a2 e1).symm.trans e).trans (b1 e2)
        rw [h3, Function.update_same] at hx
        cases hx
      · exact hne ((a2 e1).symm.trans (e.trans (b2 e2)))
  · intro x h1 h2
    rcases hw.cover x h1 h2 with h | ⟨r, hr, h⟩
    · exact Or.inl h
    · right
      cases r with
      | immediate => exact ⟨.running, trivial, by rw [hL]; exact h⟩
      | running => rw [hrun] at h; cases h
      | cyc k => exact ⟨.cyc k, hr, by rw [hL]; exact h⟩
  · rw [hL, hL]
    have := hw.nzero
    rw [hrun] at this
    simpa [Nat.add_comm] using this
  · have h1 := hw.nshort
    have e : ∑ k in Finset.range CYCBUF_SIZE,
        (Function.update (Function.update ls .running (ls .immediate)) .immediate []
          (.cyc k)).length = ∑ k in Finset.range CYCBUF_SIZE, (ls (.cyc k)).length := by
      apply Finset.sum_congr rfl
      intro k _
      rw [hL]
    rw [e]
    exact h1

/-- The function `co_new` with a list `r` of the cyclic buffer: the new
callout becomes the last element of the list `r`, behind the elements that
are on it, and the other lists stay. -/
theorem co_new_append {s : State} {fl : List Nat} {ls : CbufRef → List Nat} (hw : Wheel s fl ls)
    (r : CbufRef) (hr : r.valid) (handle oindex t m : Nat)
    (hcase : (r = .immediate ∧ t = 0) ∨ (t ≠ 0 ∧ ∃ k, r = .cyc k))
    (hroom : s.flist = 0 → 2 ≤ s.cycbrk) (hh : u16 handle ≠ 0) :
    ∃ s' i, co_new s handle oindex t m (some r) = .ok s' ∧
      Wheel s' fl.tail (Function.update ls r (ls r ++ [i])) ∧
      s'.key i = (u16 oindex, u16 handle) ∧
      (∀ r', r'.valid → ∀ x ∈ ls r', s'.key x = s.key x) ∧
      (∀ r', r'.valid → i ∉ ls r') := by
  obtain ⟨hi0, hisz, hicyc, hifresh, -⟩ := hw.alloc t hroom
  have hre : (s.getCbuf r).list = 0 → t ≠ 0 → ∃ k, k < CYCBUF_SIZE ∧ r = .cyc k := by
    intro _ ht
    rcases hcase with ⟨_, h⟩ | ⟨_, k, hk⟩
    · exact absurd h ht
    · subst hk
      exact ⟨k, hr, rfl⟩
  obtain ⟨s2, hn, ha⟩ := newcallout_eq s r t hre hi0
  have hX : alarmEq ((linkSlot (allocSlot s t).1 r (allocSlot s t).2).setCotab (allocSlot s t).2
      { (linkSlot (allocSlot s t).1 r (allocSlot s t).2).cotab (allocSlot s t).2 with
        handle := u16 handle, oindex := u16 oindex })
      (s2.setCotab (allocSlot s t).2 { s2.cotab (allocSlot s t).2 with
        handle := u16 handle, oindex := u16 oindex }) := by
    have := ha.setCotab (allocSlot s t).2
      ({ (linkSlot (allocSlot s t).1 r (allocSlot s t).2).cotab (allocSlot s t).2 with
        handle := u16 handle, oindex := u16 oindex } : call_out)
    rw [ha.cotab (allocSlot s t).2]
    exact this
  have hw3 := hw.link r hr t (u16 handle) (u16 oindex) hcase hroom hh _ hX
  refine ⟨_, (allocSlot s t).2, ?_, hw3, ?_, ?_, hifresh⟩
  · unfold co_new
    simp only [bind, Except.bind, hn, pure, Except.pure]
    rfl
  · unfold State.key
    rw [cotab_setCotab_same]
  · intro r' hr' x hx
    have hxi : x ≠ (allocSlot s t).2 := fun e => hifresh r' hr' (e ▸ hx)
    unfold State.key
    rw [cotab_setCotab_other _ _ _ _ hxi, ha.cotab, linkSlot_oindex, linkSlot_handle,
      allocSlot_cotab]

theorem dueLists_cyc (k : Nat) :
    dueLists (.cyc k) = if k = 3 then [6] else if k = 5 then [7, 5] else [] := rfl

theorem dueLists_mem (r : CbufRef) (x : Nat) (h : x ∈ dueLists r) :
    (r = .cyc 3 ∧ x = 6) ∨ (r = .cyc 5 ∧ (x = 7 ∨ x = 5)) := by
  cases r with
  | immediate => cases h
  | running => cases h
  | cyc k =>
    rw [dueLists_cyc] at h
    split_ifs at h with h1 h2
    · subst h1
      exact Or.inl ⟨rfl, by simpa using h⟩
    · subst h2
      exact Or.inr ⟨rfl, by simpa using h⟩
    · cases h

/-- The state `dueState` satisfies the scheduler invariants. -/
theorem dueState_inv : SchedInv dueState := by
  refine
    { wheel := ⟨[], dueLists, ?_⟩
      heap := ?_
      room := fun _ => by decide
      window := rfl
      stamp := by
        show (1000000000 : Nat) < 4294967296
        norm_num
      idle := rfl }
  · refine
      { cap := by decide
        brk_pos := by decide
        brk_le := by decide
        free_chain := rfl
        free_prev := List.chain'_nil
        free_handle := fun _ h => by cases h
        free_range := fun _ h => by cases h
        free_nodup := List.nodup_nil
        chain := ?_
        last := ?_
        count := ?_
        handle := ?_
        range := ?_
        nodup := ?_
        disj := ?_
        cover := ?_
        nzero := rfl
        nshort := by
          simp [dueState, zeroState, CYCBUF_SIZE, Finset.sum_range_succ, dueLists_cyc]
        total := rfl }
    · intro r _
      cases r with
      | immediate => exact rfl
      | running => exact rfl
      | cyc k =>
        rw [dueLists_cyc]
        show Chain dueState (if k = 3 then (⟨6, 6⟩ : cbuf) else if k = 5 then ⟨7, 5⟩ else ⟨0, 0⟩).list
          (if k = 3 then [6] else if k = 5 then [7, 5] else [])
        split_ifs
        · exact ⟨rfl, by decide, rfl⟩
        · exact ⟨rfl, by decide, rfl, by decide, rfl⟩
        · exact rfl
    · intro r _ x hx
      cases r with
      | immediate => cases hx
      | running => cases hx
      | cyc k =>
        show (if k = 3 then (⟨6, 6⟩ : cbuf) else if k = 5 then ⟨7, 5⟩ else ⟨0, 0⟩).last = x
        rw [dueLists_cyc] at hx
        split_ifs at hx ⊢
        · simpa using hx
        · simpa using hx
        · cases hx
    · intro k _ hne
      show (dueState.cotab
        (if k = 3 then (⟨6, 6⟩ : cbuf) else if k = 5 then ⟨7, 5⟩ else ⟨0, 0⟩).list).mtime = _
      rw [dueLists_cyc] at hne ⊢
      split_ifs at hne ⊢
      · rfl
      · rfl
      · exact absurd rfl hne
    · intro r _ x hx
      rcases dueLists_mem r x hx with ⟨_, rfl⟩ | ⟨_, rfl | rfl⟩ <;> decide
    · intro r _ x hx
      rcases dueLists_mem r x hx with ⟨_, rfl⟩ | ⟨_, rfl | rfl⟩ <;> decide
    · intro r _
      cases r with
      | immediate => exact List.nodup_nil
      | running => exact List.nodup_nil
      | cyc k =>
        rw [dueLists_cyc]
        split_ifs <;> decide
    · intro r r' _ _ hne x hx hx'
      rcases dueLists_mem r x hx with ⟨e, rfl⟩ | ⟨e, rfl | rfl⟩ <;>
        rcases dueLists_mem r' _ hx' with ⟨e', h⟩ | ⟨e', h | h⟩ <;>
        first
          | exact hne (e.trans e'.symm)
          | exact absurd h (by decide)
    · intro x h1 h2
      have h3 : (5 : Nat) ≤ x := h1
      have h4 : x < 8 := h2
      right
      interval_cases x
      · exact ⟨.cyc 5, by show (5 : Nat) < 128; decide, by decide⟩
      · exact ⟨.cyc 3, by show (3 : Nat) < 128; decide, by decide⟩
      · exact ⟨.cyc 5, by show (5 : Nat) < 128; decide, by decide⟩
  · refine
      { sentinel := rfl
        ordered := ?_
        msec := ?_
        live := ?_
        brk := by decide }
    · intro i h1 h2
      have h3 : i ≤ 1 := h2
      have e : i = 1 := le_antisymm h3 h1
      subst e
      exact Or.inl (by show (0 : Nat) < 1000000005; norm_num)
    · intro k h1 h2
      have h3 : k ≤ 1 := h2
      have e : k = 1 := le_antisymm h3 h1
      subst e
      decide
    · intro k h1 h2
      have h3 : k ≤ 1 := h2
      have e : k = 1 := le_antisymm h3 h1
      subst e
      decide

/-! ## C1: callouts fire in the order of their deadlines -/

/-- The second delivered by `co_time` is a 32-bit word when the clock and
`timestamp` are. -/
theorem co_time_lt (s : State) (c cms : Nat) (hc : c < UINT_MOD) (hts : s.timestamp < UINT_MOD) :
    (co_time s c cms).2.1 < UINT_MOD := by
  have hm : ∀ x, u32 x < UINT_MOD := by
    intro x
    unfold u32 UINT_MOD
    omega
  unfold co_time
  dsimp only
  split_ifs <;> first | exact hm _ | exact hc | exact hts

/-- The millisecond delivered by `co_time` is the clock millisecond or 0. -/
theorem co_time_ms (s : State) (c cms : Nat) :
    (co_time s c cms).2.2 = cms ∨ (co_time s c cms).2.2 = 0 := by
  unfold co_time
  dsimp only
  split_ifs <;> simp

/-- C19: a request that is not immediate, with a delay `0 <= delay < 2^31`
(a non-negative `Int` of the C code), that reaches the delay test of
`co_check` (callouts enabled, capacity test passed) raises "Too long delay"
if and only if `now + delay + 1 >= 2^32`, with `now` the second returned by
`co_time`; otherwise `co_check` returns, and the deadline second is exactly
`now + delay + carry` with `carry` 0 or 1 (1 precisely for a millisecond
request whose millisecond sum reaches 1000), a value below `2^32`. -/
theorem co_check_tooLong_iff (s : State) (n : Nat) (delay : Int) (mdelay c cms : Nat)
    (hcap : s.cotabsz ≠ 0)
    (h1 : ¬(u32 (s.queuebrk + s.nshort + n) = s.cotabsz ∨ u32 (s.nshort + n) = s.cotabsz - 1))
    (h2 : ¬(delay = 0 ∧ (mdelay = 0 ∨ mdelay = 0xffff)))
    (hd0 : 0 ≤ delay) (hd : delay < 2147483648)
    (hc : c < UINT_MOD) (hts : s.timestamp < UINT_MOD) :
    (co_check s n delay mdelay c cms = .error .tooLong ↔
      ((co_time s c cms).2.1 : Int) + delay + 1 ≥ 4294967296) ∧
    (((co_time s c cms).2.1 : Int) + delay + 1 < 4294967296 →
      ∃ a carry, co_check s n delay mdelay c cms = .ok ((co_time s c cms).1, a) ∧
        carry = (if mdelay ≠ 0xffff ∧ u16 ((co_time s c cms).2.2 + mdelay) ≥ 1000 then 1 else 0) ∧
        (a.t : Int) = ((co_time s c cms).2.1 : Int) + delay + (carry : Int) ∧
        a.t < 4294967296) := by
  have hnow := co_time_lt s c cms hc hts
  rw [co_check_delayed s n delay mdelay c cms hcap h1 h2]
  have hdd : (delay % (UINT_MOD : Int)).toNat = delay.toNat := by
    simp only [UINT_MOD]; omega
  simp only [hdd]
  generalize (co_time s c cms).2.1 = now at hnow
  generalize (co_time s c cms).2.2 = mp
  generalize (co_time s c cms).1 = s1
  simp only [UINT_MOD] at hnow
  constructor
  · constructor
    · intro h
      split_ifs at h with h3
      simp only [u32, UINT_MOD] at h3
      omega
    · intro h
      rw [if_pos]
      simp only [u32, UINT_MOD]
      omega
  · intro h
    have h3 : ¬ u32 (now + delay.toNat + 1) ≤ now := by
      simp only [u32, UINT_MOD]
      omega
    rw [if_neg h3]
    have hsum : now + delay.toNat + 1 < 4294967296 := by omega
    have hsum : now + delay.toNat + 1 < 4294967296 := by omega
    refine ⟨_, _, rfl, rfl, ?_, ?_⟩
    · dsimp only
      by_cases hm : mdelay ≠ 0xffff
      · by_cases hk : u16 (mp + mdelay) ≥ 1000
        · simp only [hm, hk, if_true, and_self, not_false_eq_true, ne_eq, u32, UINT_MOD]
          omega
        · simp only [hm, hk, if_true, if_false, and_false, not_false_eq_true, ne_eq, u32, UINT_MOD]
          omega
      · simp only [hm, if_false, false_and, u32, UINT_MOD]
        omega
    · dsimp only
      by_cases hm : mdelay ≠ 0xffff
      · by_cases hk : u16 (mp + mdelay) ≥ 1000
        · simp only [hm, hk, if_true, ne_eq, not_false_eq_true, u32, UINT_MOD]
          omega
        · simp only [hm, hk, if_true, if_false, ne_eq, not_false_eq_true, u32, UINT_MOD]
          omega
      · simp only [hm, if_false, u32, UINT_MOD]
        omega

/-- C19 at a concrete input: capacity 8, clock and `timestamp` 1000000000,
a whole-second delay of 5 seconds is admitted with deadline 1000000005. -/
theorem co_check_tooLong_iff_witness :
    ¬ (co_check { zeroState with cotabsz := 8, cycbrk := 8, timestamp := 1000000000 } 0 5 0xffff
        1000000000 0 = .error .tooLong) ∧
    co_check { zeroState with cotabsz := 8, cycbrk := 8, timestamp := 1000000000 } 0 3294967295
        0xffff 1000000000 0 = .error .tooLong := by
  have h := co_check_tooLong_iff { zeroState with cotabsz := 8, cycbrk := 8, timestamp := 1000000000 }
    0 5 0xffff 1000000000 0 (by decide) (by decide) (by decide) (by decide) (by decide)
    (by show (1000000000 : Nat) < 4294967296; norm_num)
    (by show (1000000000 : Nat) < 4294967296; norm_num)
  refine ⟨?_, rfl⟩
  rw [h.1]
  decide

/-- C20 fails as stated: a request with `mdelay = 0` (so `mdelay != 0xffff`)
and `delay = 0` is admitted as an immediate callout, and `co_check` returns
the deadline `(0, 0)` without reading the clock, while
`(now + delay) * 1000 + now_ms + mdelay` is `now * 1000 + now_ms`. -/
theorem co_check_immediate_deadline :
    ∃ a, co_check { zeroState with cotabsz := 8, cycbrk := 8, timestamp := 1000000000 } 0 0 0
        1000000000 7 =
        .ok ({ zeroState with cotabsz := 8, cycbrk := 8, timestamp := 1000000000 }, a) ∧
      (0 : Nat) ≠ 0xffff ∧ (a.t, a.m) = (0, 0) ∧
      (co_time { zeroState with cotabsz := 8, cycbrk := 8, timestamp := 1000000000 }
        1000000000 7).2 = (1000000000, 7) ∧
      a.t * 1000 + a.m ≠ (1000000000 + 0) * 1000 + 7 + 0 :=
  ⟨⟨some .immediate, 0, 0, 0⟩, rfl, by decide, rfl, rfl, by norm_num⟩

/-- C20, amended: for every admitted millisecond-precise request
(`mdelay != 0xffff`) that is not the immediate one (`delay != 0` or
`mdelay != 0`), with `0 <= delay < 2^31`, clock reading `(now, now_ms)` as
delivered by `co_time`, `now_ms <= 999` and `mdelay <= 999`, the deadline
`(sec, ms)` returned by `co_check` has `ms <= 999` and
`sec * 1000 + ms = (now + delay) * 1000 + now_ms + mdelay` as exact
integers; with `now_ms = 999` and `mdelay = 1` it is `ms = 0` and
`sec = now + delay + 1`. -/
theorem co_check_millisecond (s s' : State) (n : Nat) (delay : Int) (mdelay c cms : Nat)
    (a : Admission) (hcap : s.cotabsz ≠ 0) (hm : mdelay ≠ 0xffff)
    (hni : ¬(delay = 0 ∧ mdelay = 0)) (hd0 : 0 ≤ delay) (hd : delay < 2147483648)
    (hc : c < UINT_MOD) (hts : s.timestamp < UINT_MOD)
    (hms : (co_time s c cms).2.2 ≤ 999) (hmd : mdelay ≤ 999)
    (hadm : co_check s n delay mdelay c cms = .ok (s', a)) :
    a.m ≤ 999 ∧
    (a.t : Int) * 1000 + a.m =
      (((co_time s c cms).2.1 : Int) + delay) * 1000 + (co_time s c cms).2.2 + mdelay ∧
    ((co_time s c cms).2.2 = 999 → mdelay = 1 →
      a.m = 0 ∧ (a.t : Int) = ((co_time s c cms).2.1 : Int) + delay + 1) := by
  have h1 : ¬(u32 (s.queuebrk + s.nshort + n) = s.cotabsz ∨ u32 (s.nshort + n) = s.cotabsz - 1) := by
    intro h
    rw [(co_check_full_iff s n delay mdelay c cms hcap).2 h] at hadm
    cases hadm
  have h2 : ¬(delay = 0 ∧ (mdelay = 0 ∨ mdelay = 0xffff)) := by
    rintro ⟨e, e0 | ef⟩
    · exact hni ⟨e, e0⟩
    · exact hm ef
  have hnow := co_time_lt s c cms hc hts
  rw [co_check_delayed s n delay mdelay c cms hcap h1 h2] at hadm
  have hdd : (delay % (UINT_MOD : Int)).toNat = delay.toNat := by
    simp only [UINT_MOD]; omega
  simp only [hdd] at hadm
  generalize (co_time s c cms).2.1 = now at hnow hadm ⊢
  generalize (co_time s c cms).2.2 = mp at hms hadm ⊢
  generalize (co_time s c cms).1 = s1 at hadm
  simp only [UINT_MOD] at hnow
  have hu : u16 (mp + mdelay) = mp + mdelay := by
    simp only [u16, UINDEX_MOD]; omega
  rw [hu] at hadm
  simp only [ne_eq, hm, not_false_eq_true, if_true, false_and, if_false] at hadm
  by_cases h3 : u32 (now + delay.toNat + 1) ≤ now
  · rw [if_pos h3] at hadm
    cases hadm
  · rw [if_neg h3] at hadm
    have hsum : now + delay.toNat + 1 < 4294967296 := by
      simp only [u32, UINT_MOD] at h3
      omega
    simp only [Except.ok.injEq, Prod.mk.injEq] at hadm
    obtain ⟨-, ha⟩ := hadm
    subst ha
    dsimp only
    by_cases hk : mp + mdelay ≥ 1000
    · simp only [hk, if_true, u32, UINT_MOD]
      refine ⟨by omega, by omega, ?_⟩
      intro e1 e2
      omega
    · simp only [hk, if_false, u32, UINT_MOD]
      refine ⟨by omega, by omega, ?_⟩
      intro e1 e2
      omega

/-- The amended C20 at a concrete input: capacity 8, clock reading
`(1000000000, 999)`, delay 5 seconds and 1 millisecond: the deadline is
`(1000000006, 0)`. -/
theorem co_check_millisecond_witness :
    co_check { zeroState with cotabsz := 8, cycbrk := 8, timestamp := 1000000000 } 0 5 1
        1000000000 999 =
      .ok ({ zeroState with cotabsz := 8, cycbrk := 8, timestamp := 1000000000 },
        ⟨none, 17170432, 1000000006, 0⟩) ∧
    (⟨none, 17170432, 1000000006, 0⟩ : Admission).m ≤ 999 ∧
    (((⟨none, 17170432, 1000000006, 0⟩ : Admission).t : Int) * 1000 +
        (⟨none, 17170432, 1000000006, 0⟩ : Admission).m =
      (((co_time { zeroState with cotabsz := 8, cycbrk := 8, timestamp := 1000000000 }
        1000000000 999).2.1 : Int) + 5) * 1000 +
        (co_time { zeroState with cotabsz := 8, cycbrk := 8, timestamp := 1000000000 }
          1000000000 999).2.2 + (1 : Nat)) :=
  ⟨rfl,
    (co_check_millisecond { zeroState with cotabsz := 8, cycbrk := 8, timestamp := 1000000000 }
      { zeroState with cotabsz := 8, cycbrk := 8, timestamp := 1000000000 } 0 5 1 1000000000 999
      ⟨none, 17170432, 1000000006, 0⟩ (by decide) (by decide) (by decide) (by decide) (by decide)
      (by show (1000000000 : Nat) < 4294967296; norm_num)
      (by show (1000000000 : Nat) < 4294967296; norm_num)
      (by decide) (by decide) rfl).1,
    (co_check_millisecond { zeroState with cotabsz := 8, cycbrk := 8, timestamp := 1000000000 }
      { zeroState with cotabsz := 8, cycbrk := 8, timestamp := 1000000000 } 0 5 1 1000000000 999
      ⟨none, 17170432, 1000000006, 0⟩ (by decide) (by decide) (by decide) (by decide) (by decide)
      (by show (1000000000 : Nat) < 4294967296; norm_num)
      (by show (1000000000 : Nat) < 4294967296; norm_num)
      (by decide) (by decide) rfl).2.1⟩

/-! ## C11: what `co_expire` collects -/

/-- A table whose short-term region holds no element, free or listed,
satisfies the region invariant with empty lists. -/
theorem Wheel.of_full (s : State) (h1 : 2 * s.cotabsz < UINDEX_MOD) (h2 : 1 ≤ s.cycbrk)
    (h3 : s.cycbrk = s.cotabsz) (hf : s.flist = 0)
    (hl : ∀ r : CbufRef, r.valid → (s.getCbuf r).list = 0)
    (hz : s.nzero = 0) (hs : s.nshort = 0) : Wheel s [] (fun _ => []) :=
  { cap := h1
    brk_pos := h2
    brk_le := le_of_eq h3
    free_chain := hf
    free_prev := List.chain'_nil
    free_handle := fun _ h => by cases h
    free_range := fun _ h => by cases h
    free_nodup := List.nodup_nil
    chain := fun r hr => hl r hr
    last := fun _ _ _ h => by cases h
    count := fun _ _ h => absurd rfl h
    handle := fun _ _ _ h => by cases h
    range := fun _ _ _ h => by cases h
    nodup := fun _ _ => List.nodup_nil
    disj := fun _ _ _ _ _ _ h => by cases h
    cover := fun x h4 h5 => by omega
    nzero := hz
    nshort := by simp [hs, hz]
    total := by simp [hs, h3] }

/-- C11 fails on the code. After `co_init(2)` two millisecond callouts are
admitted to the queue, which fills the table (`queuebrk = cycbrk = 2`, no
free element); the state satisfies the region invariants of the cyclic
buffer and of the heap, the bucket of `timestamp` is empty and no dispatch is
under way. `co_expire` with the alarm reading `(1000000002, 0)`, when both
are due, moves the first to `cotab[1]` and takes `cotab[0]` for the second:
index 0 is the null link, so the immediate list ends after its first
element. The callout `(2, 2)` has left the heap and is not on the immediate
list, and `co_call` invokes the callout `(1, 1)` only. -/
theorem co_expire_drops_callout :
    ∃ s0 s1 s2 s3 s4 a1 a2,
      co_init zeroMem 2 1000000000 = .ok s0 ∧
      checkNew s0 1 1 1 100 1000000000 0 = .ok (s1, a1) ∧
      checkNew s1 2 2 1 200 1000000000 0 = .ok (s2, a2) ∧
      Wheel s2 [] (fun _ => []) ∧ HeapInv s2 ∧
      (s2.cycbuf (cycIndex s2.timestamp)).list = 0 ∧ s2.running.list = 0 ∧
      s2.timestamp = 1000000000 ∧ s2.queuebrk = 2 ∧ s2.cycbrk = 2 ∧ s2.flist = 0 ∧
      (heapEntries s2.mem s2.queuebrk).map (fun e => ((e.oindex, e.handle), (e.time, e.mtime))) =
        [((1, 1), (1000000001, 100)), ((2, 2), (1000000001, 200))] ∧
      co_expire s2 true 1000000002 0 = .ok s3 ∧
      s3.queuebrk = 0 ∧ s3.cycbrk = 0 ∧ s3.nzero = 2 ∧
      s3.listOf .immediate = [1] ∧ (s3.listOf .immediate).map s3.key = [(1, 1)] ∧
      s3.immediate.last = 0 ∧ s3.key 0 = (2, 2) ∧
      (∀ k, k < CYCBUF_SIZE → s3.listOf (.cyc k) = []) ∧
      co_call quietInvoke s2 true 1000000002 0 = .ok (s4, [(1, 1)]) ∧
      s4.nshort = 1 ∧ s4.nzero = 1 ∧ s4.listOf .immediate = [] ∧ s4.listOf .running = [] := by
  refine ⟨_, _, _, _, _, _, _, rfl, rfl, rfl, ?_, ?_, rfl, rfl, rfl, rfl, rfl, rfl, rfl, rfl, rfl,
    rfl, rfl, rfl, rfl, rfl, rfl, ?_, rfl, rfl, rfl, rfl, rfl⟩
  · exact Wheel.of_full _ (by decide) (by decide) rfl rfl (fun r _ => by cases r <;> rfl) rfl rfl
  · refine
      { sentinel := rfl
        ordered := ?_
        msec := ?_
        live := ?_
        brk := by decide }
    · intro i h1 h2
      have h3 : i ≤ 2 := h2
      interval_cases i <;> decide
    · intro k h1 h2
      have h3 : k ≤ 2 := h2
      interval_cases k <;> decide
    · intro k h1 h2
      have h3 : k ≤ 2 := h2
      interval_cases k <;> decide
  · intro k _
    rfl

/-! ## `co_restore` in parts -/

theorem co_restore_eq (s : State) (d : Dump) (t : Nat) :
    co_restore s d t =
      if d.dh.queuebrk > u16 (d.dh.cycbrk + u16 (s.cotabsz + UINDEX_MOD - d.dh.cotabsz)) +
            u16 (s.cotabsz + UINDEX_MOD - d.dh.cotabsz) ∨
          u16 (d.dh.cycbrk + u16 (s.cotabsz + UINDEX_MOD - d.dh.cotabsz)) = 0 then
        .error .restoreOverflow
      else
        (addCounts CYCBUF_SIZE (restoreLists s d t)).bind (fun s =>
          (if s.nshort ≠ s.nzero then
            (nextBucket CYCBUF_SIZE s.cycbuf s.timestamp).bind (fun t1 =>
              .ok { s with timeout := t1 })
          else .ok s).bind (fun s => restart s s.timeout)) := by
  rfl

theorem Fits.offset {s : State} {d : Dump} {C q b off : Nat} (h : Fits s d C q b off) :
    u16 (s.cotabsz + UINDEX_MOD - d.dh.cotabsz) = off := by
  have := h.hcap
  rw [h.hC, h.hsz]
  unfold u16 UINDEX_MOD at *
  omega

theorem Fits.brk {s : State} {d : Dump} {C q b off : Nat} (h : Fits s d C q b off) :
    u16 (d.dh.cycbrk + u16 (s.cotabsz + UINDEX_MOD - d.dh.cotabsz)) = b + off := by
  have := h.hcap
  have := h.hbC
  rw [h.offset, h.hb]
  unfold u16 UINDEX_MOD at *
  omega

/-- The variables that `patchRefs` leaves alone. -/
theorem patchRefs_fields (s : State) (o : Nat) :
    (patchRefs s o).cotabsz = s.cotabsz ∧ (patchRefs s o).queuebrk = s.queuebrk ∧
    (patchRefs s o).cycbrk = s.cycbrk ∧ (patchRefs s o).nzero = s.nzero ∧
    (patchRefs s o).nshort = s.nshort ∧ (patchRefs s o).timestamp = s.timestamp ∧
    (patchRefs s o).timediff = s.timediff ∧ (patchRefs s o).immediate = s.immediate ∧
    (patchRefs s o).running = s.running ∧ (patchRefs s o).timeout = s.timeout := by
  refine ⟨?_, ?_, ?_, ?_, ?_, ?_, ?_, ?_, ?_, ?_⟩ <;>
    (unfold patchRefs; dsimp only; split_ifs <;> rfl)

theorem patchRefs_mem (s : State) (o j : Nat) :
    (patchRefs s o).mem j =
      if 1 ≤ j ∧ s.cycbrk ≤ j - 1 ∧ j - 1 - s.cycbrk < u16 (s.cotabsz + UINDEX_MOD - s.cycbrk) then
        { s.mem j with
          oindex := if (s.mem j).handle = 0 then u16 ((s.mem j).oindex + o) else (s.mem j).oindex,
          time := if (s.mem j).time ≠ 0 then u32 ((s.mem j).time + o) else (s.mem j).time }
      else s.mem j := by
  unfold patchRefs
  dsimp only
  split_ifs <;> rfl

theorem patchRefs_cycbuf (s : State) (o k : Nat) :
    (patchRefs s o).cycbuf k =
      if k < CYCBUF_SIZE ∧ (s.cycbuf k).list ≠ 0 then
        ⟨u16 ((s.cycbuf k).list + o), u16 ((s.cycbuf k).last + o)⟩
      else s.cycbuf k := by
  unfold patchRefs
  dsimp only
  split_ifs <;> rfl

/-- The part of `restoreTable` before the references are patched. -/
theorem restoreTable_eq (s : State) (d : Dump) (t : Nat) :
    restoreTable s d t =
      if u16 (s.cotabsz + UINDEX_MOD - d.dh.cotabsz) ≠ 0 then
        patchRefs { (if u16 ((restoreHeader s d t).queuebrk + (restoreHeader s d t).cotabsz +
              UINDEX_MOD - (restoreHeader s d t).cycbrk) ≠ 0 then
            restoreCyclic (restoreQueue (restoreHeader s d t) d.dc (sub32 t d.dh.timestamp)) d.dc
          else restoreHeader s d t) with cycbuf := (fun k =>
            if k < CYCBUF_SIZE then
              (if cycIndex (sub32 t d.dh.timestamp) ≤ k then
                d.buffer (k - cycIndex (sub32 t d.dh.timestamp))
               else d.buffer (CYCBUF_SIZE - cycIndex (sub32 t d.dh.timestamp) + k))
            else s.cycbuf k) } (u16 (s.cotabsz + UINDEX_MOD - d.dh.cotabsz))
      else
        { (if u16 ((restoreHeader s d t).queuebrk + (restoreHeader s d t).cotabsz +
              UINDEX_MOD - (restoreHeader s d t).cycbrk) ≠ 0 then
            restoreCyclic (restoreQueue (restoreHeader s d t) d.dc (sub32 t d.dh.timestamp)) d.dc
          else restoreHeader s d t) with cycbuf := (fun k =>
            if k < CYCBUF_SIZE then
              (if cycIndex (sub32 t d.dh.timestamp) ≤ k then
                d.buffer (k - cycIndex (sub32 t d.dh.timestamp))
               else d.buffer (CYCBUF_SIZE - cycIndex (sub32 t d.dh.timestamp) + k))
            else s.cycbuf k) } := by
  unfold restoreTable
  dsimp only
  split_ifs <;> rfl

/-- The variables after the table is restored. -/
theorem restoreTable_fields {s : State} {d : Dump} {C q b off : Nat} (h : Fits s d C q b off)
    (t : Nat) :
    (restoreTable s d t).cotabsz = C + off ∧ (restoreTable s d t).queuebrk = q ∧
    (restoreTable s d t).cycbrk = b + off ∧
    (restoreTable s d t).nzero = u16 (d.dh.nlong0 + UINDEX_MOD - d.dh.queuebrk) ∧
    (restoreTable s d t).nshort = d.dh.nshort ∧ (restoreTable s d t).timestamp = t ∧
    (restoreTable s d t).timediff = u32 (d.dh.timediff + sub32 t d.dh.timestamp) ∧
    (restoreTable s d t).immediate = s.immediate ∧ (restoreTable s d t).running = s.running ∧
    (restoreTable s d t).timeout = s.timeout := by
  have hh : (restoreHeader s d t).cycbrk = b + off := h.brk
  rw [restoreTable_eq]
  generalize u16 ((restoreHeader s d t).queuebrk + (restoreHeader s d t).cotabsz + UINDEX_MOD -
    (restoreHeader s d t).cycbrk) = n
  generalize u16 (s.cotabsz + UINDEX_MOD - d.dh.cotabsz) = o
  by_cases h1 : n ≠ 0 <;> by_cases h2 : o ≠ 0
  · rw [if_pos h2, if_pos h1]
    obtain ⟨g1, g2, g3, g4, g5, g6, g7, g8, g9, g10⟩ := patchRefs_fields
      { (restoreCyclic (restoreQueue (restoreHeader s d t) d.dc (sub32 t d.dh.timestamp)) d.dc) with
        cycbuf := (fun k =>
            if k < CYCBUF_SIZE then
              (if cycIndex (sub32 t d.dh.timestamp) ≤ k then
                d.buffer (k - cycIndex (sub32 t d.dh.timestamp))
               else d.buffer (CYCBUF_SIZE - cycIndex (sub32 t d.dh.timestamp) + k))
            else s.cycbuf k) } o
    rw [g1, g2, g3, g4, g5, g6, g7, g8, g9, g10]
    exact ⟨h.hsz, h.hq, hh, rfl, rfl, rfl, rfl, rfl, rfl, rfl⟩
  · rw [if_neg h2, if_pos h1]
    exact ⟨h.hsz, h.hq, hh, rfl, rfl, rfl, rfl, rfl, rfl, rfl⟩
  · rw [if_pos h2, if_neg h1]
    obtain ⟨g1, g2, g3, g4, g5, g6, g7, g8, g9, g10⟩ := patchRefs_fields
      { (restoreHeader s d t) with
        cycbuf := (fun k =>
            if k < CYCBUF_SIZE then
              (if cycIndex (sub32 t d.dh.timestamp) ≤ k then
                d.buffer (k - cycIndex (sub32 t d.dh.timestamp))
               else d.buffer (CYCBUF_SIZE - cycIndex (sub32 t d.dh.timestamp) + k))
            else s.cycbuf k) } o
    rw [g1, g2, g3, g4, g5, g6, g7, g8, g9, g10]
    exact ⟨h.hsz, h.hq, hh, rfl, rfl, rfl, rfl, rfl, rfl, rfl⟩
  · rw [if_neg h2, if_neg h1]
    exact ⟨h.hsz, h.hq, hh, rfl, rfl, rfl, rfl, rfl, rfl, rfl⟩

theorem Fits.count {s : State} {d : Dump} {C q b off : Nat} (h : Fits s d C q b off) (t : Nat) :
    u16 ((restoreHeader s d t).queuebrk + (restoreHeader s d t).cotabsz + UINDEX_MOD -
      (restoreHeader s d t).cycbrk) = q + C - b := by
  have e : (restoreHeader s d t).cycbrk = b + off := h.brk
  have e1 : (restoreHeader s d t).queuebrk = q := h.hq
  have e2 : (restoreHeader s d t).cotabsz = C + off := h.hsz
  have := h.hcap
  have := h.hbC
  have := h.hqb
  rw [e, e1, e2]
  unfold u16 UINDEX_MOD at *
  omega

theorem restoreCyclic_fields (s : State) (dc : Nat → dump_callout) :
    (restoreCyclic s dc).cotabsz = s.cotabsz ∧ (restoreCyclic s dc).queuebrk = s.queuebrk ∧
    (restoreCyclic s dc).cycbrk = s.cycbrk ∧ (restoreCyclic s dc).flist = s.flist :=
  ⟨rfl, rfl, rfl, rfl⟩

theorem restoreQueue_fields (s : State) (dc : Nat → dump_callout) (t : Nat) :
    (restoreQueue s dc t).cotabsz = s.cotabsz ∧ (restoreQueue s dc t).queuebrk = s.queuebrk ∧
    (restoreQueue s dc t).cycbrk = s.cycbrk ∧ (restoreQueue s dc t).flist = s.flist :=
  ⟨rfl, rfl, rfl, rfl⟩

/-- The table before the references are patched. -/
theorem restoreTable_mem (s : State) (d : Dump) (t j : Nat) :
    (restoreTable s d t).mem j =
      if u16 (s.cotabsz + UINDEX_MOD - d.dh.cotabsz) ≠ 0 then
        (patchRefs (if u16 ((restoreHeader s d t).queuebrk + (restoreHeader s d t).cotabsz +
              UINDEX_MOD - (restoreHeader s d t).cycbrk) ≠ 0 then
            restoreCyclic (restoreQueue (restoreHeader s d t) d.dc (sub32 t d.dh.timestamp)) d.dc
          else restoreHeader s d t) (u16 (s.cotabsz + UINDEX_MOD - d.dh.cotabsz))).mem j
      else (if u16 ((restoreHeader s d t).queuebrk + (restoreHeader s d t).cotabsz +
              UINDEX_MOD - (restoreHeader s d t).cycbrk) ≠ 0 then
            restoreCyclic (restoreQueue (restoreHeader s d t) d.dc (sub32 t d.dh.timestamp)) d.dc
          else restoreHeader s d t).mem j := by
  rw [restoreTable_eq]
  split_ifs
  · rw [patchRefs_mem, patchRefs_mem]
  · rw [patchRefs_mem, patchRefs_mem]
  · rfl
  · rfl

/-- The queue after the table is restored: the slot `l[j]`, `1 ≤ j ≤ q`, is
made from `dc[j - 1]`. -/
theorem restoreTable_queue {s : State} {d : Dump} {C q b off : Nat} (h : Fits s d C q b off)
    (t j : Nat) (h1 : 1 ≤ j) (h2 : j ≤ q) :
    (restoreTable s d t).mem j =
      if (d.dc (j - 1)).time >>> 24 = 1 then
        ⟨(d.dc (j - 1)).handle, (d.dc (j - 1)).oindex,
          (decode (restoreHeader s d t) (d.dc (j - 1)).time).1,
          (decode (restoreHeader s d t) (d.dc (j - 1)).time).2⟩
      else
        ⟨(d.dc (j - 1)).handle, (d.dc (j - 1)).oindex,
          u32 ((d.dc (j - 1)).time + sub32 t d.dh.timestamp), (s.mem j).mtime⟩ := by
  have e : (restoreHeader s d t).cycbrk = b + off := h.brk
  have e1 : (restoreHeader s d t).queuebrk = q := h.hq
  have hqb := h.hqb
  have hbC := h.hbC
  have hn : u16 ((restoreHeader s d t).queuebrk + (restoreHeader s d t).cotabsz + UINDEX_MOD -
      (restoreHeader s d t).cycbrk) ≠ 0 := by
    rw [h.count]; omega
  have key : (restoreCyclic (restoreQueue (restoreHeader s d t) d.dc (sub32 t d.dh.timestamp))
      d.dc).mem j =
      if (d.dc (j - 1)).time >>> 24 = 1 then
        ⟨(d.dc (j - 1)).handle, (d.dc (j - 1)).oindex,
          (decode (restoreHeader s d t) (d.dc (j - 1)).time).1,
          (decode (restoreHeader s d t) (d.dc (j - 1)).time).2⟩
      else
        ⟨(d.dc (j - 1)).handle, (d.dc (j - 1)).oindex,
          u32 ((d.dc (j - 1)).time + sub32 t d.dh.timestamp), (s.mem j).mtime⟩ := by
    show (if 1 ≤ j ∧ (restoreHeader s d t).cycbrk ≤ j - 1 ∧ _ then _ else _) = _
    rw [if_neg (by rw [e]; omega)]
    show (if 1 ≤ j ∧ j ≤ (restoreHeader s d t).queuebrk then _ else _) = _
    rw [if_pos ⟨h1, by rw [e1]; exact h2⟩]
    rfl
  rw [restoreTable_mem, if_pos hn]
  by_cases ho : u16 (s.cotabsz + UINDEX_MOD - d.dh.cotabsz) ≠ 0
  · rw [if_pos ho, patchRefs_mem, if_neg, key]
    rw [(restoreCyclic_fields _ _).2.2.1, (restoreQueue_fields _ _ _).2.2.1, e]
    omega
  · rw [if_neg ho, key]

theorem restoreCyclic_mem (s : State) (dc : Nat → dump_callout) (j : Nat) :
    (restoreCyclic s dc).mem j =
      if 1 ≤ j ∧ s.cycbrk ≤ j - 1 ∧ j - 1 - s.cycbrk < u16 (s.cotabsz + UINDEX_MOD - s.cycbrk) then
        { s.mem j with
          handle := (dc (s.queuebrk + (j - 1 - s.cycbrk))).handle,
          oindex := (dc (s.queuebrk + (j - 1 - s.cycbrk))).oindex,
          time := (dc (s.queuebrk + (j - 1 - s.cycbrk))).time }
      else s.mem j := rfl

theorem restoreQueue_mem (s : State) (dc : Nat → dump_callout) (t j : Nat) :
    (restoreQueue s dc t).mem j =
      if 1 ≤ j ∧ j ≤ s.queuebrk then
        if (dc (j - 1)).time >>> 24 = 1 then
          ⟨(dc (j - 1)).handle, (dc (j - 1)).oindex, (decode s (dc (j - 1)).time).1,
            (decode s (dc (j - 1)).time).2⟩
        else
          ⟨(dc (j - 1)).handle, (dc (j - 1)).oindex, u32 ((dc (j - 1)).time + t),
            (s.mem j).mtime⟩
      else s.mem j := rfl

/-- The cyclic-buffer region after the table is restored: the element
`cotab[x + off]` is made from the dumped `cotab[x]`, which is
`dc[q + (x - b)]`. -/
theorem restoreTable_wheel {s : State} {d : Dump} {C q b off : Nat} (h : Fits s d C q b off)
    (t x : Nat) (h1 : b ≤ x) (h2 : x < C) :
    (restoreTable s d t).cotab (x + off) =
      { handle := (d.dc (q + (x - b))).handle,
        oindex := if off ≠ 0 ∧ (d.dc (q + (x - b))).handle = 0 then
            u16 ((d.dc (q + (x - b))).oindex + off)
          else (d.dc (q + (x - b))).oindex,
        time := if off ≠ 0 ∧ (d.dc (q + (x - b))).time ≠ 0 then
            u32 ((d.dc (q + (x - b))).time + off)
          else (d.dc (q + (x - b))).time,
        mtime := (s.cotab (x + off)).mtime } := by
  have e : (restoreHeader s d t).cycbrk = b + off := h.brk
  have e1 : (restoreHeader s d t).queuebrk = q := h.hq
  have e2 : (restoreHeader s d t).cotabsz = C + off := h.hsz
  have hqb := h.hqb
  have hbC := h.hbC
  have hcap := h.hcap
  have hn : u16 ((restoreHeader s d t).queuebrk + (restoreHeader s d t).cotabsz + UINDEX_MOD -
      (restoreHeader s d t).cycbrk) ≠ 0 := by
    rw [h.count]; omega
  have hcnt : u16 (C + off + UINDEX_MOD - (b + off)) = C - b := by
    unfold u16 UINDEX_MOD at *
    omega
  have hidx : x + off + 1 - 1 - (b + off) = x - b := by omega
  have hin : 1 ≤ x + off + 1 ∧ b + off ≤ x + off + 1 - 1 ∧
      x + off + 1 - 1 - (b + off) < u16 (C + off + UINDEX_MOD - (b + off)) := by
    rw [hcnt]; omega
  have key : (restoreCyclic (restoreQueue (restoreHeader s d t) d.dc (sub32 t d.dh.timestamp))
      d.dc).mem (x + off + 1) =
      { handle := (d.dc (q + (x - b))).handle, oindex := (d.dc (q + (x - b))).oindex,
        time := (d.dc (q + (x - b))).time, mtime := (s.mem (x + off + 1)).mtime } := by
    rw [restoreCyclic_mem, (restoreQueue_fields _ _ _).2.2.1, (restoreQueue_fields _ _ _).1,
      (restoreQueue_fields _ _ _).2.1, e, e1, e2, if_pos hin, hidx, restoreQueue_mem,
      if_neg (by rw [e1]; omega)]
    rfl
  show (restoreTable s d t).mem (x + off + 1) = _
  rw [restoreTable_mem, if_pos hn, h.offset]
  by_cases ho : off ≠ 0
  · rw [if_pos ho, patchRefs_mem, (restoreCyclic_fields _ _).2.2.1, (restoreCyclic_fields _ _).1,
      (restoreQueue_fields _ _ _).2.2.1, (restoreQueue_fields _ _ _).1, e, e2, if_pos hin, key]
    simp only [ho, ne_eq, not_false_eq_true, true_and]
    rfl
  · rw [if_neg ho, key]
    simp only [ho, false_and, if_false]
    rfl

/-- Rotating the buckets by `r` moves bucket `k` to bucket `(k + r) % 128`. -/
theorem rotate_index (buffer : Nat → cbuf) (old : Nat → cbuf) (r k : Nat) (hr : r < CYCBUF_SIZE)
    (hk : k < CYCBUF_SIZE) :
    (if (k + r) % CYCBUF_SIZE < CYCBUF_SIZE then
        (if r ≤ (k + r) % CYCBUF_SIZE then buffer ((k + r) % CYCBUF_SIZE - r)
         else buffer (CYCBUF_SIZE - r + (k + r) % CYCBUF_SIZE))
      else old ((k + r) % CYCBUF_SIZE)) = buffer k := by
  unfold CYCBUF_SIZE at *
  have h1 : (k + r) % 128 < 128 := by omega
  rw [if_pos h1]
  by_cases h2 : k + r < 128
  · have e : (k + r) % 128 = k + r := Nat.mod_eq_of_lt h2
    rw [e, if_pos (by omega), Nat.add_sub_cancel]
  · have e : (k + r) % 128 = k + r - 128 := by omega
    have e2 : 128 - r + (k + r - 128) = k := by omega
    rw [e, if_neg (by omega), e2]

/-- The buckets after the table is restored: the dumped bucket `k` is the
bucket `(k + r) % 128`, with `r` the time since the dump. -/
theorem restoreTable_cycbuf {s : State} {d : Dump} {C q b off : Nat} (h : Fits s d C q b off)
    (t k : Nat) (hk : k < CYCBUF_SIZE) :
    (restoreTable s d t).cycbuf ((k + cycIndex (sub32 t d.dh.timestamp)) % CYCBUF_SIZE) =
      if off ≠ 0 ∧ (d.buffer k).list ≠ 0 then
        ⟨u16 ((d.buffer k).list + off), u16 ((d.buffer k).last + off)⟩
      else d.buffer k := by
  have hr := cycIndex_lt (sub32 t d.dh.timestamp)
  have hlt : (k + cycIndex (sub32 t d.dh.timestamp)) % CYCBUF_SIZE < CYCBUF_SIZE := by
    unfold CYCBUF_SIZE; omega
  have key := rotate_index d.buffer s.cycbuf _ k hr hk
  rw [restoreTable_eq, h.offset]
  by_cases ho : off ≠ 0
  · rw [if_pos ho, patchRefs_cycbuf]
    dsimp only
    rw [key]
    simp only [hlt, ho, ne_eq, not_false_eq_true, true_and]
  · rw [if_neg ho]
    dsimp only
    rw [key]
    simp only [ho, false_and, if_false]

/-! ## `co_dump` in parts -/

/-- The call of `co_time` changes `timestamp` only. -/
theorem co_time_state (s : State) (c cms : Nat) :
    (co_time s c cms).1 = { s with timestamp := (co_time s c cms).1.timestamp } := by
  unfold co_time
  dsimp only
  split_ifs <;> rfl

theorem co_dump_eq (s : State) (c cms : Nat) :
    (co_dump s c cms).2 = dumpData (co_time s c cms).1 := by
  unfold co_dump dumpData dumpImage
  dsimp only
  split_ifs <;> first | rfl | (exfalso; simp_all)

/-! ## The dumped table -/

/-- Joining two lists of a table: the last element of the first gets the
head of the second as its link. -/
theorem Chain.set_link {s : State} {h g z : Nat} {pre ys : List Nat}
    (hx : Chain s h (pre ++ [z])) (hy : Chain s g ys) (hnd : (pre ++ [z]).Nodup)
    (hz : z ∉ ys) : Chain (s.setNext z g) h (pre ++ [z] ++ ys) := by
  refine Chain.join (hy.congr ?_) ?_ hx ?_
  · intro y hy'
    rw [setNext_time, if_neg]
    rintro rfl
    exact hz hy'
  · rw [setNext_time, if_pos rfl]
  · intro x hx'
    rw [setNext_time, if_neg]
    rintro rfl
    have := List.nodup_append.1 hnd
    exact this.2.2 hx' (List.mem_singleton_self _) 

theorem Wheel.last_of_ne {s : State} {fl : List Nat} {ls : CbufRef → List Nat}
    (hw : Wheel s fl ls) (r : CbufRef) (hr : r.valid) (hne : ls r ≠ []) :
    ∃ pre, ls r = pre ++ [(s.getCbuf r).last] := by
  rcases eq_nil_or_snoc (ls r) with h | ⟨pre, z, h⟩
  · exact absurd h hne
  · refine ⟨pre, ?_⟩
    have := hw.last r hr z (by rw [h]; simp)
    rw [this]
    exact h

/-- The fields that `dumpImage` keeps. -/
theorem dumpImage_fields (s : State) :
    (dumpImage s).cotabsz = s.cotabsz ∧ (dumpImage s).queuebrk = s.queuebrk ∧
    (dumpImage s).cycbrk = s.cycbrk ∧ (dumpImage s).nzero = s.nzero ∧
    (dumpImage s).nshort = s.nshort ∧ (dumpImage s).timestamp = s.timestamp := by
  unfold dumpImage
  split_ifs <;> exact ⟨rfl, rfl, rfl, rfl, rfl, rfl⟩

theorem dumpImage_slot (s : State) (x : Nat) :
    ((dumpImage s).cotab x).handle = (s.cotab x).handle ∧
    ((dumpImage s).cotab x).oindex = (s.cotab x).oindex ∧
    ((dumpImage s).cotab x).mtime = (s.cotab x).mtime := by
  unfold dumpImage
  split_ifs <;> simp

theorem cycbuf_setList_cyc (s : State) (k v j : Nat) :
    (s.setList (.cyc k) v).cycbuf j = if j = k then ⟨v, (s.cycbuf k).last⟩ else s.cycbuf j := by
  show (if j = k then _ else _) = _
  split_ifs <;> rfl

theorem cycbuf_setNext (s : State) (i v : Nat) : (s.setNext i v).cycbuf = s.cycbuf := rfl

/-- The lists of the dumped table: the buckets other than that of
`timestamp` are as in the table, and the bucket of `timestamp` holds the
running list, the immediate list and its own list, in this order. -/
theorem dumpImage_chains {s : State} {fl : List Nat} {ls : CbufRef → List Nat}
    (hw : Wheel s fl ls) :
    (∀ k, k < CYCBUF_SIZE → ∀ x ∈ ls (.cyc k),
      ((dumpImage s).cotab x).time = (s.cotab x).time) ∧
    (∀ k, k ≠ cycIndex s.timestamp → (dumpImage s).cycbuf k = s.cycbuf k) ∧
    ((dumpImage s).cycbuf (cycIndex s.timestamp)).last =
      (s.cycbuf (cycIndex s.timestamp)).last ∧
    Chain (dumpImage s) ((dumpImage s).cycbuf (cycIndex s.timestamp)).list
      (ls .running ++ ls .immediate ++ ls (.cyc (cycIndex s.timestamp))) := by
  have hk0 := cycIndex_lt s.timestamp
  have hcr : Chain s s.running.list (ls .running) := hw.chain .running trivial
  have hci : Chain s s.immediate.list (ls .immediate) := hw.chain .immediate trivial
  have hcb : Chain s (s.cycbuf (cycIndex s.timestamp)).list (ls (.cyc (cycIndex s.timestamp))) :=
    hw.chain (.cyc (cycIndex s.timestamp)) hk0
  have hr0 : s.running.list = 0 ↔ ls .running = [] := hcr.head_eq_zero_iff
  have hi0 : s.immediate.list = 0 ↔ ls .immediate = [] := hci.head_eq_zero_iff
  have hnz := hw.nzero
  have hdri : ∀ x ∈ ls .running, x ∉ ls .immediate :=
    hw.disj .running .immediate trivial trivial (by intro h; cases h)
  have hdrb : ∀ k, k < CYCBUF_SIZE → ∀ x ∈ ls .running, x ∉ ls (.cyc k) := fun k hk =>
    hw.disj .running (.cyc k) trivial hk (by intro h; cases h)
  have hdib : ∀ k, k < CYCBUF_SIZE → ∀ x ∈ ls .immediate, x ∉ ls (.cyc k) := fun k hk =>
    hw.disj .immediate (.cyc k) trivial hk (by intro h; cases h)
  by_cases hz : s.nzero ≠ 0
  · unfold dumpImage
    rw [if_pos hz]
    by_cases hr : s.running.list ≠ 0
    · have hrne : ls .running ≠ [] := fun h => hr (hr0.2 h)
      obtain ⟨pre, hpre⟩ : ∃ pre, ls .running = pre ++ [s.running.last] :=
        hw.last_of_ne .running trivial hrne
      have hzr : s.running.last ∈ ls .running := by
        rw [hpre]; exact List.mem_append_right _ (List.mem_singleton_self _)
      by_cases hi : s.immediate.list ≠ 0
      · have hine : ls .immediate ≠ [] := fun h => hi (hi0.2 h)
        obtain ⟨pri, hpri⟩ : ∃ pri, ls .immediate = pri ++ [s.immediate.last] :=
        hw.last_of_ne .immediate trivial hine
        have hzi : s.immediate.last ∈ ls .immediate := by
          rw [hpri]; exact List.mem_append_right _ (List.mem_singleton_self _)
        rw [if_pos ⟨hr, hi⟩, if_neg (fun h => hi h.2), if_pos hr]
        have c1 : Chain (s.setNext s.running.last s.immediate.list) s.running.list
            (ls .running ++ ls .immediate) := by
          have := Chain.set_link (hpre ▸ hcr) hci (hpre ▸ hw.nodup .running trivial)
            (hdri _ hzr)
          rw [hpre]
          exact this
        have c2 : Chain (s.setNext s.running.last s.immediate.list)
            (s.cycbuf (cycIndex s.timestamp)).list (ls (.cyc (cycIndex s.timestamp))) := by
          refine hcb.congr (fun x hx => ?_)
          rw [setNext_time, if_neg]
          rintro rfl
          exact hdrb _ hk0 _ hzr hx
        have hnd : (ls .running ++ ls .immediate).Nodup :=
          List.Nodup.append (hw.nodup .running trivial) (hw.nodup .immediate trivial)
            (fun x h1 h2 => hdri x h1 h2)
        have e : ls .running ++ ls .immediate = (ls .running ++ pri) ++ [s.immediate.last] := by
          rw [List.append_assoc, ← hpri]
        have hzb : s.immediate.last ∉ ls (.cyc (cycIndex s.timestamp)) := hdib _ hk0 _ hzi
        have c3 := Chain.set_link (e ▸ c1) c2 (e ▸ hnd) hzb
        rw [← e] at c3
        refine ⟨?_, ?_, ?_, ?_⟩
        · intro k hk x hx
          rw [cotab_setList, setNext_time, if_neg, setNext_time, if_neg]
          · rintro rfl
            exact hdrb k hk _ hzr hx
          · rintro rfl
            exact hdib k hk _ hzi hx
        · intro k hk
          rw [cycbuf_setList_cyc, if_neg hk]
          rfl
        · rw [cycbuf_setList_cyc, if_pos rfl]
          rfl
        · rw [cycbuf_setList_cyc, if_pos rfl]
          exact c3.congr (fun x _ => by rw [cotab_setList])
      · have hi' : s.immediate.list = 0 := not_not.1 hi
        have hie : ls .immediate = [] := hi0.1 hi'
        rw [if_neg (fun h => hi h.2), if_pos ⟨hr, hi'⟩, if_pos hr, hie, List.append_nil]
        have hzb : s.running.last ∉ ls (.cyc (cycIndex s.timestamp)) := hdrb _ hk0 _ hzr
        have c3 := Chain.set_link (hpre ▸ hcr) hcb (hpre ▸ hw.nodup .running trivial) hzb
        rw [← hpre] at c3
        refine ⟨?_, ?_, ?_, ?_⟩
        · intro k hk x hx
          rw [cotab_setList, setNext_time, if_neg]
          rintro rfl
          exact hdrb k hk _ hzr hx
        · intro k hk
          rw [cycbuf_setList_cyc, if_neg hk]
          rfl
        · rw [cycbuf_setList_cyc, if_pos rfl]
          rfl
        · rw [cycbuf_setList_cyc, if_pos rfl]
          exact c3.congr (fun x _ => by rw [cotab_setList])
    · have hr' : s.running.list = 0 := not_not.1 hr
      have hre : ls .running = [] := hr0.1 hr'
      have hine : ls .immediate ≠ [] := by
        intro h
        rw [hre, h] at hnz
        exact hz hnz
      obtain ⟨pri, hpri⟩ : ∃ pri, ls .immediate = pri ++ [s.immediate.last] :=
        hw.last_of_ne .immediate trivial hine
      have hzi : s.immediate.last ∈ ls .immediate := by
        rw [hpri]; exact List.mem_append_right _ (List.mem_singleton_self _)
      rw [if_neg (fun h => hr h.1), if_neg (fun h => hr h.1), if_neg hr, hre, List.nil_append]
      have hzb : s.immediate.last ∉ ls (.cyc (cycIndex s.timestamp)) := hdib _ hk0 _ hzi
      have c3 := Chain.set_link (hpri ▸ hci) hcb (hpri ▸ hw.nodup .immediate trivial) hzb
      rw [← hpri] at c3
      refine ⟨?_, ?_, ?_, ?_⟩
      · intro k hk x hx
        rw [cotab_setList, setNext_time, if_neg]
        rintro rfl
        exact hdib k hk _ hzi hx
      · intro k hk
        rw [cycbuf_setList_cyc, if_neg hk]
        rfl
      · rw [cycbuf_setList_cyc, if_pos rfl]
        rfl
      · rw [cycbuf_setList_cyc, if_pos rfl]
        exact c3.congr (fun x _ => by rw [cotab_setList])
  · have hz' : s.nzero = 0 := not_not.1 hz
    have hre : ls .running = [] := List.length_eq_zero.1 (by omega)
    have hie : ls .immediate = [] := List.length_eq_zero.1 (by omega)
    unfold dumpImage
    rw [if_neg hz, hre, hie]
    exact ⟨fun _ _ _ _ => rfl, fun _ _ => rfl, rfl, hcb⟩

theorem setDcNext_apply (dc : Nat → dump_callout) (i v j : Nat) :
    setDcNext dc i v j = if j = i then { dc j with time := v } else dc j := rfl

theorem dumpCallouts_queue (s : State) (k : Nat) (hk : k < s.queuebrk) :
    dumpCallouts s k = ⟨(s.cotab k).handle, (s.cotab k).oindex,
      if (s.cotab k).mtime ≠ 0 then encode s (s.cotab k).time (s.cotab k).mtime
      else (s.cotab k).time⟩ := by
  unfold dumpCallouts
  rw [if_pos hk]

theorem dumpCallouts_wheel (s : State) (x : Nat) (h1 : s.cycbrk ≤ x) (h2 : x < s.cotabsz)
    (hcap : s.cotabsz < UINDEX_MOD) :
    dumpCallouts s (s.queuebrk + (x - s.cycbrk)) =
      ⟨(s.cotab x).handle, (s.cotab x).oindex, (s.cotab x).time⟩ := by
  have e : u16 (s.cotabsz + UINDEX_MOD - s.cycbrk) = s.cotabsz - s.cycbrk := by
    unfold u16 UINDEX_MOD at *
    omega
  have e2 : s.cycbrk + (s.queuebrk + (x - s.cycbrk) - s.queuebrk) = x := by omega
  unfold dumpCallouts
  rw [if_neg (by omega), if_pos (by rw [e]; omega), e2]

/-- The number of callouts in the dump. -/
theorem dump_count (s : State) (hqb : s.queuebrk ≤ s.cycbrk) (hbC : s.cycbrk ≤ s.cotabsz)
    (hcap : s.cotabsz < UINDEX_MOD) :
    u16 (s.queuebrk + s.cotabsz + UINDEX_MOD - s.cycbrk) = s.queuebrk + s.cotabsz - s.cycbrk := by
  unfold u16 UINDEX_MOD at *
  omega

/-- The queue in the dump: `dc[k]` for `k < queuebrk` is made from
`cotab[k]`. -/
theorem dumpData_queue {s : State} {fl : List Nat} {ls : CbufRef → List Nat} (hw : Wheel s fl ls)
    (hqb : s.queuebrk ≤ s.cycbrk) (k : Nat) (hk : k < s.queuebrk) :
    (dumpData s).dc k = ⟨(s.cotab k).handle, (s.cotab k).oindex,
      if (s.cotab k).mtime ≠ 0 then encode s (s.cotab k).time (s.cotab k).mtime
      else (s.cotab k).time⟩ := by
  have hcap : s.cotabsz < UINDEX_MOD := by have := hw.cap; omega
  have hbC := hw.brk_le
  have hn := dump_count s hqb hbC hcap
  have hn0 : s.queuebrk + s.cotabsz - s.cycbrk ≠ 0 := by omega
  have hlast : ∀ r, r.valid → ls r ≠ [] → s.cycbrk ≤ (s.getCbuf r).last := by
    intro r hr hne
    obtain ⟨pre, hpre⟩ := hw.last_of_ne r hr hne
    exact (hw.range r hr _ (by rw [hpre]; simp)).1
  have hr0 : s.running.list = 0 ↔ ls .running = [] :=
    (hw.chain .running trivial).head_eq_zero_iff
  have hi0 : s.immediate.list = 0 ↔ ls .immediate = [] :=
    (hw.chain .immediate trivial).head_eq_zero_iff
  have hnz := hw.nzero
  have hbase := dumpCallouts_queue s k hk
  unfold dumpData
  dsimp only
  rw [hn, if_pos hn0]
  by_cases hz : s.nzero ≠ 0
  · rw [if_pos hz]
    by_cases hr : s.running.list ≠ 0
    · have hrl : s.cycbrk ≤ s.running.last := hlast .running trivial (fun h => hr (hr0.2 h))
      by_cases hi : s.immediate.list ≠ 0
      · have hil : s.cycbrk ≤ s.immediate.last :=
          hlast .immediate trivial (fun h => hi (hi0.2 h))
        rw [if_pos ⟨hr, hi⟩, if_neg (fun h => hi h.2), setDcNext_apply, if_neg (by omega),
          setDcNext_apply, if_neg (by omega), hbase]
      · rw [if_neg (fun h => hi h.2), if_pos ⟨hr, not_not.1 hi⟩, setDcNext_apply,
          if_neg (by omega), hbase]
    · have hine : ls .immediate ≠ [] := by
        intro h
        rw [hr0.1 (not_not.1 hr), h] at hnz
        exact hz hnz
      have hil : s.cycbrk ≤ s.immediate.last := hlast .immediate trivial hine
      rw [if_neg (fun h => hr h.1), if_neg (fun h => hr h.1), setDcNext_apply,
        if_neg (by omega), hbase]
  · rw [if_neg hz, hbase]

/-- The cyclic-buffer region in the dump: `dc[queuebrk + (x - cycbrk)]` is
made from the element `x` of the dumped table. -/
theorem dumpData_wheel {s : State} {fl : List Nat} {ls : CbufRef → List Nat} (hw : Wheel s fl ls)
    (hqb : s.queuebrk ≤ s.cycbrk) (x : Nat) (h1 : s.cycbrk ≤ x) (h2 : x < s.cotabsz) :
    (dumpData s).dc (s.queuebrk + (x - s.cycbrk)) =
      ⟨((dumpImage s).cotab x).handle, ((dumpImage s).cotab x).oindex,
        ((dumpImage s).cotab x).time⟩ := by
  have hcap : s.cotabsz < UINDEX_MOD := by have := hw.cap; omega
  have hbC := hw.brk_le
  have hn := dump_count s hqb hbC hcap
  have hn0 : s.queuebrk + s.cotabsz - s.cycbrk ≠ 0 := by omega
  have hlast : ∀ r, r.valid → ls r ≠ [] →
      s.cycbrk ≤ (s.getCbuf r).last ∧ (s.getCbuf r).last < s.cotabsz := by
    intro r hr hne
    obtain ⟨pre, hpre⟩ := hw.last_of_ne r hr hne
    exact hw.range r hr _ (by rw [hpre]; simp)
  have hr0 : s.running.list = 0 ↔ ls .running = [] :=
    (hw.chain .running trivial).head_eq_zero_iff
  have hi0 : s.immediate.list = 0 ↔ ls .immediate = [] :=
    (hw.chain .immediate trivial).head_eq_zero_iff
  have hnz := hw.nzero
  have hbase := dumpCallouts_wheel s x h1 h2 hcap
  obtain ⟨g1, g2, -⟩ := dumpImage_slot s x
  rw [g1, g2]
  unfold dumpData dumpImage
  dsimp only
  rw [hn, if_pos hn0]
  by_cases hz : s.nzero ≠ 0
  · rw [if_pos hz, if_pos hz, cotab_setList, setNext_time]
    by_cases hr : s.running.list ≠ 0
    · obtain ⟨hrl, hrl2⟩ : s.cycbrk ≤ s.running.last ∧ s.running.last < s.cotabsz :=
        hlast .running trivial (fun h => hr (hr0.2 h))
      by_cases hi : s.immediate.list ≠ 0
      · obtain ⟨hil, hil2⟩ : s.cycbrk ≤ s.immediate.last ∧ s.immediate.last < s.cotabsz :=
          hlast .immediate trivial (fun h => hi (hi0.2 h))
        have c1 : s.running.list ≠ 0 ∧ s.immediate.list ≠ 0 := ⟨hr, hi⟩
        have c2 : ¬(s.running.list ≠ 0 ∧ s.immediate.list = 0) := fun h => hi h.2
        simp only [if_pos c1, if_neg c2]
        rw [setDcNext_apply, setDcNext_apply, hbase, setNext_time]
        by_cases e1 : x = s.immediate.last
        · rw [if_pos (by omega), if_pos e1]
          dsimp only
          split_ifs <;> rfl
        · rw [if_neg (by omega), if_neg e1]
          by_cases e2 : x = s.running.last
          · rw [if_pos (by omega), if_pos e2]
          · rw [if_neg (by omega), if_neg e2]
      · have c1 : ¬(s.running.list ≠ 0 ∧ s.immediate.list ≠ 0) := fun h => hi h.2
        have c2 : s.running.list ≠ 0 ∧ s.immediate.list = 0 := ⟨hr, not_not.1 hi⟩
        simp only [if_neg c1, if_pos c2]
        rw [setDcNext_apply, hbase]
        by_cases e1 : x = s.running.last
        · rw [if_pos (by omega), if_pos e1]
        · rw [if_neg (by omega), if_neg e1]
    · have hine : ls .immediate ≠ [] := by
        intro h
        rw [hr0.1 (not_not.1 hr), h] at hnz
        exact hz hnz
      obtain ⟨hil, hil2⟩ : s.cycbrk ≤ s.immediate.last ∧ s.immediate.last < s.cotabsz :=
        hlast .immediate trivial hine
      have c1 : ¬(s.running.list ≠ 0 ∧ s.immediate.list ≠ 0) := fun h => hr h.1
      have c2 : ¬(s.running.list ≠ 0 ∧ s.immediate.list = 0) := fun h => hr h.1
      simp only [if_neg c1, if_neg c2]
      rw [setDcNext_apply, hbase]
      by_cases e1 : x = s.immediate.last
      · rw [if_pos (by omega), if_pos e1]
      · rw [if_neg (by omega), if_neg e1]
  · rw [if_neg hz, if_neg hz, hbase]

/-! ## Lists in the restored table -/

/-- Walking `i` links from the head of a list arrives at its element `i`. -/
theorem nthNext_chain {s : State} : ∀ (i : Nat) {xs : List Nat} {h : Nat}, Chain s h xs →
    (∀ x ∈ xs, x < UINDEX_MOD) → i < xs.length → xs[i]? = some (nthNext s i h)
  | 0, [], _, _, _, hl => by simp at hl
  | 0, x :: xs, h, ⟨h1, _, _⟩, _, _ => by simp [nthNext, h1]
  | i + 1, [], _, _, _, hl => by simp at hl
  | i + 1, x :: xs, h, ⟨h1, h2, h3⟩, hb, hl => by
    have hl' : i < xs.length := by simpa using hl
    have hx : ∀ y ∈ xs, y < UINDEX_MOD := fun y hy => hb y (List.mem_cons_of_mem _ hy)
    have hn : (s.cotab h).time < UINDEX_MOD := by
      subst h1
      exact Chain.next_lt ⟨rfl, h2, h3⟩ hx
    subst h1
    rw [List.getElem?_cons_succ]
    show xs[i]? = some (nthNext s i (u16 (s.cotab h).time))
    rw [u16_of_lt hn]
    exact nthNext_chain i h3 hx hl'

/-- The part of a list behind its element `z`. -/
theorem Chain.behind {s : State} {z : Nat} {post : List Nat} :
    ∀ {pre : List Nat} {h : Nat}, Chain s h (pre ++ z :: post) → Chain s (s.cotab z).time post
  | [], _, hc => hc.2.2
  | _ :: _, _, hc => Chain.behind hc.2.2

/-- Cutting a list behind its element `z`. -/
theorem Chain.cut {s s' : State} {z : Nat} {post : List Nat} (hz : (s'.cotab z).time = 0) :
    ∀ {pre : List Nat} {h : Nat}, Chain s h (pre ++ z :: post) →
      (∀ x ∈ pre, (s'.cotab x).time = (s.cotab x).time) → Chain s' h (pre ++ [z])
  | [], _, ⟨h1, h2, _⟩, _ => ⟨h1, h2, hz⟩
  | x :: pre, _, ⟨h1, h2, h3⟩, hk => by
    refine ⟨h1, h2, ?_⟩
    rw [hk x (List.mem_cons_self _ _)]
    exact Chain.cut hz h3 (fun y hy => hk y (List.mem_cons_of_mem _ hy))

/-- The link `h` of the dumped table as the restored table holds it. -/
theorem chain_shift {I R : State} {off b C : Nat}
    (hmap : ∀ x, b ≤ x → x < C → (R.cotab (x + off)).time =
      if off ≠ 0 ∧ (I.cotab x).time ≠ 0 then u32 ((I.cotab x).time + off) else (I.cotab x).time)
    (hcap : C + off < UINDEX_MOD) :
    ∀ {xs : List Nat} {h : Nat}, Chain I h xs → (∀ x ∈ xs, b ≤ x ∧ x < C) →
      Chain R (if off ≠ 0 ∧ h ≠ 0 then h + off else h) (xs.map (· + off))
  | [], h, hc, _ => by
    have h0 : h = 0 := hc
    subst h0
    show (if off ≠ 0 ∧ (0 : Nat) ≠ 0 then 0 + off else 0) = 0
    rw [if_neg (fun h => h.2 rfl)]
  | x :: xs, h, ⟨h1, h2, h3⟩, hr => by
    subst h1
    obtain ⟨hx1, hx2⟩ := hr h (List.mem_cons_self _ _)
    have hr' : ∀ y ∈ xs, b ≤ y ∧ y < C := fun y hy => hr y (List.mem_cons_of_mem _ hy)
    have ih := chain_shift hmap hcap h3 hr'
    have hn : (I.cotab h).time < C := by
      cases xs with
      | nil =>
        have : (I.cotab h).time = 0 := h3
        omega
      | cons y ys =>
        obtain ⟨e, _, _⟩ := h3
        rw [e]
        exact (hr' y (List.mem_cons_self _ _)).2
    have hu : u32 ((I.cotab h).time + off) = (I.cotab h).time + off := by
      unfold u32 UINT_MOD
      unfold UINDEX_MOD at hcap
      omega
    refine ⟨?_, (by show h + off ≠ 0; omega), ?_⟩
    · show (if off ≠ 0 ∧ h ≠ 0 then h + off else h) = h + off
      by_cases ho : off ≠ 0
      · rw [if_pos ⟨ho, h2⟩]
      · rw [if_neg (fun h => ho h.1)]
        have : off = 0 := not_not.1 ho
        omega
    · rw [hmap h hx1 hx2, hu]
      exact ih

/-! ## The loop "add counts" -/

theorem countEq.count_refl (s : State) : countEq s s := ⟨rfl, fun _ => rfl⟩

theorem countEq.count_trans {s1 s2 s3 : State} (h1 : countEq s1 s2) (h2 : countEq s2 s3) :
    countEq s1 s3 := by
  obtain ⟨a1, a2⟩ := h1
  obtain ⟨b1, b2⟩ := h2
  refine ⟨?_, fun j => ?_⟩
  · rw [b1, a1]
  · rw [b2 j, a2 j]

theorem countEq.setCount (s : State) (i v : Nat) : countEq s (s.setCount i v) := by
  refine ⟨rfl, fun j => ?_⟩
  have e : (s.setCount i v).mem j =
      if j = i + 1 then { s.cotab i with mtime := v } else s.mem j := rfl
  rw [e]
  split_ifs with h
  · subst h; rfl
  · rfl

theorem countEq.slot {s s' : State} (h : countEq s s') (x : Nat) :
    (s'.cotab x).time = (s.cotab x).time ∧ (s'.cotab x).handle = (s.cotab x).handle ∧
    (s'.cotab x).oindex = (s.cotab x).oindex := by
  unfold State.cotab
  rw [h.2 (x + 1)]
  exact ⟨rfl, rfl, rfl⟩

theorem countEq.count_fields {s s' : State} (h : countEq s s') :
    s'.cycbuf = s.cycbuf ∧ s'.immediate = s.immediate ∧ s'.running = s.running ∧
    s'.cotabsz = s.cotabsz ∧ s'.queuebrk = s.queuebrk ∧ s'.cycbrk = s.cycbrk ∧
    s'.flist = s.flist ∧ s'.nzero = s.nzero ∧ s'.nshort = s.nshort ∧
    s'.timestamp = s.timestamp ∧ s'.timediff = s.timediff ∧ s'.timeout = s.timeout := by
  rw [h.1]
  exact ⟨rfl, rfl, rfl, rfl, rfl, rfl, rfl, rfl, rfl, rfl, rfl, rfl⟩

theorem countEq.chain {s s' : State} (h : countEq s s') {xs : List Nat} {g : Nat}
    (hc : Chain s g xs) : Chain s' g xs :=
  hc.congr (fun x _ => (h.slot x).1)

/-- The loop that counts a list ends and delivers the length of the list. -/
theorem countLoop_chain {s : State} : ∀ (fuel : Nat) (xs : List Nat) (x n : Nat),
    Chain s x (x :: xs) → (∀ y ∈ xs, y < UINDEX_MOD) → xs.length < fuel →
    n + xs.length + 1 < UINDEX_MOD → countLoop fuel s x n = .ok (n + xs.length + 1)
  | 0, _, _, _, _, _, hl, _ => by omega
  | fuel + 1, [], x, n, ⟨_, _, h3⟩, _, _, hn => by
    have h0 : (s.cotab x).time = 0 := h3
    have hu : u16 (n + 1) = n + 1 := u16_of_lt (by simpa using hn)
    unfold countLoop
    rw [h0, if_neg (by decide), hu]
    rfl
  | fuel + 1, y :: ys, x, n, ⟨_, _, h3⟩, hb, hl, hn => by
    obtain ⟨e, hy0, h4⟩ := h3
    have hyb : y < UINDEX_MOD := hb y (List.mem_cons_self _ _)
    have hu : u16 (n + 1) = n + 1 := u16_of_lt (by simp at hn; omega)
    unfold countLoop
    rw [e, u16_of_lt hyb, if_pos hy0, hu,
      countLoop_chain fuel ys y (n + 1) ⟨rfl, hy0, h4⟩
        (fun z hz => hb z (List.mem_cons_of_mem _ hz)) (by simpa using hl)
        (by simp at hn ⊢; omega)]
    simp only [List.length_cons]
    congr 1
    omega

/-- The loop "add counts" ends; it changes `count` fields only, and the head
of every bucket then carries the length of its list. -/
theorem addCounts_spec (B : Nat → List Nat)
    (hb : ∀ k, k < CYCBUF_SIZE → ∀ x ∈ B k, x < UINDEX_MOD)
    (hlen : ∀ k, k < CYCBUF_SIZE → (B k).length < UINDEX_MOD)
    (hdisj : ∀ k j, k < CYCBUF_SIZE → j < CYCBUF_SIZE → k ≠ j → ∀ x ∈ B k, x ∉ B j) :
    ∀ (i : Nat) (s : State), i ≤ CYCBUF_SIZE →
      (∀ k, k < CYCBUF_SIZE → Chain s (s.cycbuf k).list (B k)) →
      ∃ s', addCounts i s = .ok s' ∧ countEq s s' ∧
        (∀ k, CYCBUF_SIZE - i ≤ k → k < CYCBUF_SIZE → B k ≠ [] →
          (s'.cotab (s.cycbuf k).list).mtime = (B k).length) ∧
        (∀ x, (∀ k, CYCBUF_SIZE - i ≤ k → k < CYCBUF_SIZE → x ∉ B k) →
          (s'.cotab x).mtime = (s.cotab x).mtime)
  | 0, s, _, _ => by
    refine ⟨s, rfl, countEq.count_refl s, ?_, fun _ _ => rfl⟩
    intro k h1 h2
    omega
  | i + 1, s, hi, hc => by
    have hk0 : CYCBUF_SIZE - (i + 1) < CYCBUF_SIZE := by unfold CYCBUF_SIZE at *; omega
    have hck := hc _ hk0
    by_cases h0 : (s.cycbuf (CYCBUF_SIZE - (i + 1))).list ≠ 0
    · have hne : B (CYCBUF_SIZE - (i + 1)) ≠ [] := fun h => h0 (hck.head_eq_zero_iff.2 h)
      obtain ⟨x, xs, hB⟩ := List.exists_cons_of_ne_nil hne
      rw [hB] at hck
      have hx : (s.cycbuf (CYCBUF_SIZE - (i + 1))).list = x := hck.1
      have hxm : x ∈ B (CYCBUF_SIZE - (i + 1)) := by rw [hB]; exact List.mem_cons_self _ _
      have hl := hlen _ hk0
      rw [hB] at hl
      have hcount := countLoop_chain UINDEX_MOD xs x 0 (hx ▸ hck)
        (fun y hy => hb _ hk0 y (by rw [hB]; exact List.mem_cons_of_mem _ hy))
        (by simp at hl; omega) (by simp at hl; omega)
      obtain ⟨s', hs', he', hcnt', hfr'⟩ := addCounts_spec B hb hlen hdisj i
        (s.setCount x (0 + xs.length + 1)) (by omega)
        (fun k hk => (countEq.setCount s x _).chain (hc k hk))
      refine ⟨s', ?_, (countEq.setCount s x _).count_trans he', ?_, ?_⟩
      · unfold addCounts
        rw [if_pos h0, hx, hcount]
        exact hs'
      · intro k h1 h2 hkne
        by_cases hk : k = CYCBUF_SIZE - (i + 1)
        · subst hk
          rw [hx, hfr' x, setCount_mtime, if_pos rfl, hB]
          · simp only [List.length_cons]; omega
          · intro j h3 h4
            exact hdisj _ j hk0 h4 (by omega) x hxm
        · exact hcnt' k (by omega) h2 hkne
      · intro y hy
        have hyx : y ≠ x := by
          rintro rfl
          exact hy _ (le_refl _) hk0 hxm
        rw [hfr' y (fun k h1 h2 => hy k (by omega) h2), setCount_mtime, if_neg hyx]
    · have h0' := not_not.1 h0
      have hnil : B (CYCBUF_SIZE - (i + 1)) = [] := hck.head_eq_zero_iff.1 h0'
      obtain ⟨s', hs', he', hcnt', hfr'⟩ := addCounts_spec B hb hlen hdisj i s (by omega) hc
      refine ⟨s', ?_, he', ?_, ?_⟩
      · unfold addCounts
        rw [if_neg h0]
        exact hs'
      · intro k h1 h2 hkne
        by_cases hk : k = CYCBUF_SIZE - (i + 1)
        · subst hk
          exact absurd hnil hkne
        · exact hcnt' k (by omega) h2 hkne
      · intro y hy
        exact hfr' y (fun k h1 h2 => hy k (by omega) h2)

/-! ## The statements "fix up immediate callouts" -/

theorem nthNext_congr {s s' : State} (h : ∀ x, (s'.cotab x).time = (s.cotab x).time) :
    ∀ (i g : Nat), nthNext s' i g = nthNext s i g
  | 0, _ => rfl
  | i + 1, g => by
    show nthNext s' i (u16 (s'.cotab g).time) = nthNext s i (u16 (s.cotab g).time)
    rw [h g]
    exact nthNext_congr h i _

/-- The state after "fix up immediate callouts": the first `nzero` elements
of the bucket of `timestamp` are the immediate list, the rest stays in the
bucket. -/
theorem fixImmediate_facts (R : State) :
    (∀ x, ((fixImmediate R).cotab x).time =
      if x = nthNext R (R.nzero - 1) (R.cycbuf (cycIndex R.timestamp)).list then 0
      else (R.cotab x).time) ∧
    (∀ x, ((fixImmediate R).cotab x).handle = (R.cotab x).handle ∧
      ((fixImmediate R).cotab x).oindex = (R.cotab x).oindex ∧
      ((fixImmediate R).cotab x).mtime =
        if x = (R.cycbuf (cycIndex R.timestamp)).list then R.nzero else (R.cotab x).mtime) ∧
    (fixImmediate R).immediate = ⟨(R.cycbuf (cycIndex R.timestamp)).list,
      nthNext R (R.nzero - 1) (R.cycbuf (cycIndex R.timestamp)).list⟩ ∧
    (∀ j, (fixImmediate R).cycbuf j =
      if j = cycIndex R.timestamp then
        ⟨u16 (R.cotab (nthNext R (R.nzero - 1) (R.cycbuf (cycIndex R.timestamp)).list)).time,
          (R.cycbuf (cycIndex R.timestamp)).last⟩
      else R.cycbuf j) ∧
    (fixImmediate R).cotabsz = R.cotabsz ∧ (fixImmediate R).queuebrk = R.queuebrk ∧
    (fixImmediate R).cycbrk = R.cycbrk ∧ (fixImmediate R).nzero = R.nzero ∧
    (fixImmediate R).nshort = R.nshort ∧ (fixImmediate R).timestamp = R.timestamp ∧
    (fixImmediate R).timediff = R.timediff ∧ (fixImmediate R).running = R.running ∧
    (fixImmediate R).timeout = R.timeout := by
  have hn : nthNext (R.setList .immediate (R.cycbuf (cycIndex R.timestamp)).list) (R.nzero - 1)
      (R.cycbuf (cycIndex R.timestamp)).list =
      nthNext R (R.nzero - 1) (R.cycbuf (cycIndex R.timestamp)).list :=
    nthNext_congr (fun x => by rw [cotab_setList]) _ _
  unfold fixImmediate
  dsimp only
  have e1 : (R.setList .immediate (R.cycbuf (cycIndex R.timestamp)).list).cycbuf = R.cycbuf := rfl
  have e3 : (R.setList .immediate (R.cycbuf (cycIndex R.timestamp)).list).nzero = R.nzero := rfl
  rw [e1, e3, hn]
  generalize nthNext R (R.nzero - 1) (R.cycbuf (cycIndex R.timestamp)).list = last
  refine ⟨?_, ?_, rfl, ?_, rfl, rfl, rfl, rfl, rfl, rfl, rfl, rfl, rfl⟩
  · intro x
    rw [setNext_time, cotab_setList, setCount_time, cotab_setLast, cotab_setList]
  · intro x
    rw [setNext_handle, setNext_oindex, setNext_mtime, cotab_setList, setCount_handle,
      setCount_oindex, setCount_mtime, cotab_setLast, cotab_setList]
    exact ⟨rfl, rfl, rfl⟩
  · intro j
    rw [cycbuf_setNext, cycbuf_setList_cyc, setCount_time, cotab_setLast, cotab_setList]
    rfl

/-! ## The restored table and the dumped table -/

theorem fits_dump {s : State} {fl : List Nat} {ls : CbufRef → List Nat} (hw : Wheel s fl ls)
    (hqb : s.queuebrk ≤ s.cycbrk) (r0 : State) (off : Nat)
    (hsz : r0.cotabsz = s.cotabsz + off) (hcap : s.cotabsz + off < UINDEX_MOD) :
    Fits r0 (dumpData s) s.cotabsz s.queuebrk s.cycbrk off :=
  { hC := rfl
    hq := rfl
    hb := rfl
    hsz := hsz
    hqb := hqb
    hb1 := hw.brk_pos
    hbC := hw.brk_le
    hcap := hcap }

theorem dump_nzero {s : State} {fl : List Nat} {ls : CbufRef → List Nat} (hw : Wheel s fl ls)
    (hqb : s.queuebrk ≤ s.cycbrk) :
    u16 ((dumpData s).dh.nlong0 + UINDEX_MOD - (dumpData s).dh.queuebrk) = s.nzero := by
  have h1 := hw.total
  have h2 := hw.nshort
  have h3 := hw.cap
  show u16 (u16 (s.queuebrk + s.nzero) + UINDEX_MOD - s.queuebrk) = s.nzero
  unfold u16 UINDEX_MOD at *
  omega

/-- The time since the dump moves the bucket of `timestamp` to the bucket of
the new `timestamp`. -/
theorem cycIndex_shift (t0 t : Nat) :
    (cycIndex t0 + cycIndex (sub32 t t0)) % CYCBUF_SIZE = cycIndex t := by
  simp only [cycIndex_eq, sub32, UINT_MOD, CYCBUF_SIZE] at *
  omega

/-- The lists of the restored table before "fix up immediate callouts": the
dumped bucket `k` is the bucket `(k + r) % 128`, its elements moved by
`off`. -/
theorem restoreTable_chains {s : State} {fl : List Nat} {ls : CbufRef → List Nat}
    (hw : Wheel s fl ls) (hqb : s.queuebrk ≤ s.cycbrk) (r0 : State) (off t : Nat)
    (hsz : r0.cotabsz = s.cotabsz + off) (hcap : s.cotabsz + off < UINDEX_MOD) :
    (∀ k, k < CYCBUF_SIZE → k ≠ cycIndex s.timestamp →
      Chain (restoreTable r0 (dumpData s) t)
        ((restoreTable r0 (dumpData s) t).cycbuf
          ((k + cycIndex (sub32 t s.timestamp)) % CYCBUF_SIZE)).list
        ((ls (.cyc k)).map (· + off))) ∧
    Chain (restoreTable r0 (dumpData s) t)
      ((restoreTable r0 (dumpData s) t).cycbuf
        ((cycIndex s.timestamp + cycIndex (sub32 t s.timestamp)) % CYCBUF_SIZE)).list
      ((ls .running ++ ls .immediate ++ ls (.cyc (cycIndex s.timestamp))).map (· + off)) ∧
    (∀ x, s.cycbrk ≤ x → x < s.cotabsz →
      ((restoreTable r0 (dumpData s) t).cotab (x + off)).handle = (s.cotab x).handle ∧
      ((s.cotab x).handle ≠ 0 →
        ((restoreTable r0 (dumpData s) t).cotab (x + off)).oindex = (s.cotab x).oindex)) := by
  have hf := fits_dump hw hqb r0 off hsz hcap
  obtain ⟨i1, i2, i3, i4⟩ := dumpImage_chains hw
  have hk0 := cycIndex_lt s.timestamp
  -- the links of the restored table
  have hmap : ∀ x, s.cycbrk ≤ x → x < s.cotabsz →
      ((restoreTable r0 (dumpData s) t).cotab (x + off)).time =
        if off ≠ 0 ∧ ((dumpImage s).cotab x).time ≠ 0 then
          u32 (((dumpImage s).cotab x).time + off)
        else ((dumpImage s).cotab x).time := by
    intro x h1 h2
    rw [restoreTable_wheel hf t x h1 h2, dumpData_wheel hw hqb x h1 h2]
  -- the heads of the restored buckets
  have hhead : ∀ k, k < CYCBUF_SIZE → ∀ xs, Chain (dumpImage s) ((dumpImage s).cycbuf k).list xs →
      (∀ x ∈ xs, s.cycbrk ≤ x ∧ x < s.cotabsz) →
      Chain (restoreTable r0 (dumpData s) t)
        ((restoreTable r0 (dumpData s) t).cycbuf
          ((k + cycIndex (sub32 t s.timestamp)) % CYCBUF_SIZE)).list (xs.map (· + off)) := by
    intro k hk xs hc hr
    have hsh := chain_shift hmap hcap hc hr
    have e : ((restoreTable r0 (dumpData s) t).cycbuf
        ((k + cycIndex (sub32 t s.timestamp)) % CYCBUF_SIZE)).list =
        if off ≠ 0 ∧ ((dumpImage s).cycbuf k).list ≠ 0 then ((dumpImage s).cycbuf k).list + off
        else ((dumpImage s).cycbuf k).list := by
      have := restoreTable_cycbuf hf t k hk
      have e0 : (dumpData s).dh.timestamp = s.timestamp := rfl
      rw [e0] at this
      rw [this]
      have eb : (dumpData s).buffer k = (dumpImage s).cycbuf k := rfl
      rw [eb]
      by_cases hc0 : off ≠ 0 ∧ ((dumpImage s).cycbuf k).list ≠ 0
      · rw [if_pos hc0, if_pos hc0]
        have hlt : ((dumpImage s).cycbuf k).list < s.cotabsz := by
          cases xs with
          | nil => exact absurd hc hc0.2
          | cons y ys =>
            obtain ⟨e1, _, _⟩ := hc
            rw [e1]
            exact (hr y (List.mem_cons_self _ _)).2
        exact u16_of_lt (by omega)
      · rw [if_neg hc0, if_neg hc0]
    rw [e]
    exact hsh
  refine ⟨?_, ?_, ?_⟩
  · intro k hk hne
    refine hhead k hk _ ?_ (fun x hx => hw.range (.cyc k) hk x hx)
    rw [i2 k hne]
    exact (hw.chain (.cyc k) hk).congr (fun x hx => i1 k hk x hx)
  · refine hhead _ hk0 _ i4 ?_
    intro x hx
    rcases List.mem_append.1 hx with h | h
    · rcases List.mem_append.1 h with h | h
      · exact hw.range .running trivial x h
      · exact hw.range .immediate trivial x h
    · exact hw.range (.cyc _) hk0 x h
  · intro x h1 h2
    rw [restoreTable_wheel hf t x h1 h2, dumpData_wheel hw hqb x h1 h2]
    obtain ⟨g1, g2, -⟩ := dumpImage_slot s x
    refine ⟨g1, fun hne => ?_⟩
    show (if off ≠ 0 ∧ ((dumpImage s).cotab x).handle = 0 then _ else _) = _
    rw [if_neg (by rw [g1]; exact fun h => hne h.2), g2]

theorem mem_map_add {xs : List Nat} {off x : Nat} (h : x + off ∈ xs.map (· + off)) : x ∈ xs := by
  obtain ⟨y, hy, e⟩ := List.mem_map.1 h
  have : y = x := by
    have e' : y + off = x + off := e
    omega
  exact this ▸ hy

/-- The lists of the restored table after "fix up immediate callouts". -/
theorem restoreLists_chains {s : State} {fl : List Nat} {ls : CbufRef → List Nat}
    (hw : Wheel s fl ls) (hqb : s.queuebrk ≤ s.cycbrk) (r0 : State) (off t : Nat)
    (hsz : r0.cotabsz = s.cotabsz + off) (hcap : s.cotabsz + off < UINDEX_MOD) :
    (∀ k, k < CYCBUF_SIZE →
      Chain (restoreLists r0 (dumpData s) t)
        ((restoreLists r0 (dumpData s) t).cycbuf
          ((k + cycIndex (sub32 t s.timestamp)) % CYCBUF_SIZE)).list
        ((ls (.cyc k)).map (· + off))) ∧
    (s.nzero ≠ 0 → Chain (restoreLists r0 (dumpData s) t)
      (restoreLists r0 (dumpData s) t).immediate.list
      ((ls .running ++ ls .immediate).map (· + off))) ∧
    (s.nzero = 0 → (restoreLists r0 (dumpData s) t).immediate = r0.immediate) ∧
    (∀ x, ((restoreLists r0 (dumpData s) t).cotab x).handle =
        ((restoreTable r0 (dumpData s) t).cotab x).handle ∧
      ((restoreLists r0 (dumpData s) t).cotab x).oindex =
        ((restoreTable r0 (dumpData s) t).cotab x).oindex) ∧
    (∀ x, x < s.cycbrk + off → (restoreLists r0 (dumpData s) t).cotab x =
      (restoreTable r0 (dumpData s) t).cotab x) ∧
    (restoreLists r0 (dumpData s) t).mem 0 = (restoreTable r0 (dumpData s) t).mem 0 ∧
    (restoreLists r0 (dumpData s) t).cotabsz = s.cotabsz + off ∧
    (restoreLists r0 (dumpData s) t).queuebrk = s.queuebrk ∧
    (restoreLists r0 (dumpData s) t).cycbrk = s.cycbrk + off ∧
    (restoreLists r0 (dumpData s) t).nzero = s.nzero ∧
    (restoreLists r0 (dumpData s) t).nshort = s.nshort ∧
    (restoreLists r0 (dumpData s) t).timestamp = t ∧
    (restoreLists r0 (dumpData s) t).timediff = u32 (s.timediff + sub32 t s.timestamp) ∧
    (restoreLists r0 (dumpData s) t).running = r0.running ∧
    (restoreLists r0 (dumpData s) t).timeout = r0.timeout := by
  have hf := fits_dump hw hqb r0 off hsz hcap
  obtain ⟨f1, f2, f3, f4, f5, f6, f7, f8, f9, f10⟩ := restoreTable_fields hf t
  rw [dump_nzero hw hqb] at f4
  obtain ⟨c1, c2, c3⟩ := restoreTable_chains hw hqb r0 off t hsz hcap
  have hk0 := cycIndex_lt s.timestamp
  have hkk : cycIndex t = (cycIndex s.timestamp + cycIndex (sub32 t s.timestamp)) % CYCBUF_SIZE :=
    (cycIndex_shift s.timestamp t).symm
  unfold restoreLists
  by_cases hz : s.nzero ≠ 0
  · rw [if_pos (by rw [f4]; exact hz)]
    obtain ⟨e1, e2, e3, e4, e5, e6, e7, e8, e9, e10, e11, e12, e13⟩ :=
      fixImmediate_facts (restoreTable r0 (dumpData s) t)
    rw [f6, f4, hkk] at e1 e3 e4
    rw [f6, hkk] at e2
    -- the spliced list and its last immediate element
    have hLne : ls .running ++ ls .immediate ≠ [] := by
      intro h
      have h1 := hw.nzero
      have h2 : (ls .running ++ ls .immediate).length = 0 := by rw [h]; rfl
      rw [List.length_append] at h2
      omega
    obtain ⟨pre, z, hL⟩ : ∃ pre z, ls .running ++ ls .immediate = pre ++ [z] := by
      rcases eq_nil_or_snoc (ls .running ++ ls .immediate) with h | h
      · exact absurd h hLne
      · exact h
    have hlen : s.nzero = pre.length + 1 := by
      have h1 := hw.nzero
      have h2 : (ls .running ++ ls .immediate).length = pre.length + 1 := by rw [hL]; simp
      rw [List.length_append] at h2
      omega
    have hLr : ∀ x ∈ ls .running ++ ls .immediate, s.cycbrk ≤ x ∧ x < s.cotabsz := by
      intro x hx
      rcases List.mem_append.1 hx with h | h
      · exact hw.range .running trivial x h
      · exact hw.range .immediate trivial x h
    have hLd : ∀ k, k < CYCBUF_SIZE → ∀ x ∈ ls .running ++ ls .immediate, x ∉ ls (.cyc k) := by
      intro k hk x hx
      rcases List.mem_append.1 hx with h | h
      · exact hw.disj .running (.cyc k) trivial hk (by intro h; cases h) x h
      · exact hw.disj .immediate (.cyc k) trivial hk (by intro h; cases h) x h
    have hLnd : (ls .running ++ ls .immediate).Nodup :=
      List.Nodup.append (hw.nodup .running trivial) (hw.nodup .immediate trivial)
        (fun x h1 h2 => hw.disj .running .immediate trivial trivial (by intro h; cases h) x h1 h2)
    have hzL : z ∈ ls .running ++ ls .immediate := by rw [hL]; simp
    have hmapL : (ls .running ++ ls .immediate ++ ls (.cyc (cycIndex s.timestamp))).map (· + off)
        = pre.map (· + off) ++ (z + off) :: (ls (.cyc (cycIndex s.timestamp))).map (· + off) := by
      rw [hL]
      simp
    rw [hmapL] at c2
    have hbound : ∀ x ∈ pre.map (· + off) ++ (z + off) ::
        (ls (.cyc (cycIndex s.timestamp))).map (· + off), x < UINDEX_MOD := by
      intro x hx
      rw [← hmapL] at hx
      obtain ⟨y, hy, rfl⟩ := List.mem_map.1 hx
      have : y < s.cotabsz := by
        rcases List.mem_append.1 hy with h | h
        · exact (hLr y h).2
        · exact (hw.range (.cyc _) hk0 y h).2
      show y + off < UINDEX_MOD
      omega
    have hlast : nthNext (restoreTable r0 (dumpData s) t) (s.nzero - 1)
        ((restoreTable r0 (dumpData s) t).cycbuf
          ((cycIndex s.timestamp + cycIndex (sub32 t s.timestamp)) % CYCBUF_SIZE)).list =
        z + off := by
      have h1 := nthNext_chain (s.nzero - 1) c2 hbound (by simp; omega)
      have h2 : (pre.map (· + off) ++ (z + off) ::
          (ls (.cyc (cycIndex s.timestamp))).map (· + off))[s.nzero - 1]? = some (z + off) := by
        have e0 : s.nzero - 1 = (pre.map (· + off)).length := by
          rw [List.length_map]; omega
        rw [e0, List.getElem?_append_right (le_refl _), Nat.sub_self]
        simp
      rw [h2] at h1
      exact (Option.some.inj h1).symm
    rw [hlast] at e1 e3 e4
    have hzpre : ∀ x ∈ pre.map (· + off), x ≠ z + off := by
      intro x hx e
      obtain ⟨y, hy, rfl⟩ := List.mem_map.1 hx
      have hyz : y = z := by
        have e' : y + off = z + off := e
        omega
      rw [hL] at hLnd
      have := List.nodup_append.1 hLnd
      exact this.2.2 hy (hyz ▸ List.mem_singleton_self _)
    have hzb : ∀ k, k < CYCBUF_SIZE → ∀ x ∈ (ls (.cyc k)).map (· + off), x ≠ z + off := by
      intro k hk x hx e
      rw [e] at hx
      exact hLd k hk z hzL (mem_map_add hx)
    refine ⟨?_, ?_, fun h => absurd h hz, fun x => ⟨(e2 x).1, (e2 x).2.1⟩, ?_, ?_, by rw [e5, f1],
      by rw [e6, f2], by rw [e7, f3], by rw [e8, f4], by rw [e9, f5]; rfl, by rw [e10, f6],
      by rw [e11, f7]; rfl, by rw [e12, f9], by rw [e13, f10]⟩
    · intro k hk
      by_cases hk' : k = cycIndex s.timestamp
      · subst hk'
        rw [e4, if_pos rfl]
        have hb := Chain.behind c2
        have hlt : ((restoreTable r0 (dumpData s) t).cotab (z + off)).time < UINDEX_MOD := by
          cases hB : (ls (.cyc (cycIndex s.timestamp))).map (· + off) with
          | nil =>
            rw [hB] at hb
            have : ((restoreTable r0 (dumpData s) t).cotab (z + off)).time = 0 := hb
            rw [this]
            decide
          | cons y ys =>
            rw [hB] at hb
            obtain ⟨e, _, _⟩ := hb
            rw [e]
            exact hbound y (by rw [hB]; simp)
        show Chain _ (u16 _) _
        rw [u16_of_lt hlt]
        refine hb.congr (fun x hx => ?_)
        rw [e1, if_neg (hzb _ hk0 x hx)]
      · have hne : (k + cycIndex (sub32 t s.timestamp)) % CYCBUF_SIZE ≠
            (cycIndex s.timestamp + cycIndex (sub32 t s.timestamp)) % CYCBUF_SIZE := by
          unfold CYCBUF_SIZE at *
          omega
        rw [e4, if_neg hne]
        refine (c1 k hk hk').congr (fun x hx => ?_)
        rw [e1, if_neg (hzb k hk x hx)]
    · intro _
      rw [e3]
      show Chain _ _ ((ls .running ++ ls .immediate).map (· + off))
      rw [hL, List.map_append]
      refine Chain.cut ?_ c2 (fun x hx => ?_)
      · rw [e1, if_pos rfl]
      · rw [e1, if_neg (hzpre x hx)]
    · intro x hx
      have hxz : x ≠ z + off := by
        have := (hLr z hzL).1
        omega
      have hxh : x ≠ ((restoreTable r0 (dumpData s) t).cycbuf
          ((cycIndex s.timestamp + cycIndex (sub32 t s.timestamp)) % CYCBUF_SIZE)).list := by
        intro e
        have h1 : ((restoreTable r0 (dumpData s) t).cycbuf
          ((cycIndex s.timestamp + cycIndex (sub32 t s.timestamp)) % CYCBUF_SIZE)).list ∈
            pre.map (· + off) ++ (z + off) ::
              (ls (.cyc (cycIndex s.timestamp))).map (· + off) := by
          cases hp : pre.map (· + off) with
          | nil =>
            rw [hp] at c2
            rw [c2.1]
            simp
          | cons y ys =>
            rw [hp] at c2
            rw [c2.1]
            simp
        rw [← hmapL] at h1
        obtain ⟨y, hy, e'⟩ := List.mem_map.1 h1
        have : s.cycbrk ≤ y := by
          rcases List.mem_append.1 hy with h | h
          · exact (hLr y h).1
          · exact (hw.range (.cyc _) hk0 y h).1
        have e'' : y + off = _ := e'
        omega
      have g1 := e1 x
      have g2 := e2 x
      rw [if_neg hxz] at g1
      rw [if_neg hxh] at g2
      obtain ⟨g2, g3, g4⟩ := g2
      generalize (fixImmediate (restoreTable r0 (dumpData s) t)).cotab x = a at *
      generalize (restoreTable r0 (dumpData s) t).cotab x = b at *
      cases a
      cases b
      simp only at g1 g2 g3 g4
      rw [g1, g2, g3, g4]
    · rfl
  · have hz' : s.nzero = 0 := not_not.1 hz
    rw [if_neg (by rw [f4]; exact hz)]
    have hre : ls .running = [] := List.length_eq_zero.1 (by have := hw.nzero; omega)
    have hie : ls .immediate = [] := List.length_eq_zero.1 (by have := hw.nzero; omega)
    rw [hre, hie] at c2
    refine ⟨?_, fun h => absurd hz' h, fun _ => f8, fun _ => ⟨rfl, rfl⟩, fun _ _ => rfl, rfl, f1,
      f2, f3, f4, f5, f6, f7, f9, f10⟩
    intro k hk
    by_cases hk' : k = cycIndex s.timestamp
    · subst hk'
      exact c2
    · exact c1 k hk hk'

/-! ## `co_restore` on the dump of a table -/

/-- The statements "restart callouts" of `co_restore` return and touch the
alarm only. -/
theorem restore_restart (F : State)
    (h : F.nshort = F.nzero ∨ ∃ k, k < CYCBUF_SIZE ∧ (F.cycbuf k).list ≠ 0) :
    ∃ r, ((if F.nshort ≠ F.nzero then
          (nextBucket CYCBUF_SIZE F.cycbuf F.timestamp).bind (fun t1 =>
            .ok { F with timeout := t1 })
        else .ok F).bind (fun s => restart s s.timeout)) = .ok r ∧ alarmEq F r := by
  by_cases hn : F.nshort ≠ F.nzero
  · rw [if_pos hn]
    obtain ⟨k, hk, hne⟩ : ∃ k, k < CYCBUF_SIZE ∧ (F.cycbuf k).list ≠ 0 := by
      rcases h with h | h
      · exact absurd h hn
      · exact h
    obtain ⟨t1, ht1⟩ := nextBucket_ok_of_nonempty F.cycbuf F.timestamp k hk hne
    rw [ht1]
    obtain ⟨r, hr, ha⟩ := restart_ok { F with timeout := t1 } t1 (Or.inr (Or.inr ⟨k, hk, hne⟩))
    refine ⟨r, hr, ?_⟩
    have h1 : alarmEq F { F with timeout := t1 } := rfl
    exact h1.trans ha
  · rw [if_neg hn]
    obtain ⟨r, hr, ha⟩ := restart_ok F F.timeout (Or.inr (Or.inl (not_not.1 hn)))
    exact ⟨r, hr, ha⟩

theorem decode_congr (s s' : State) (h1 : s'.timestamp = s.timestamp)
    (h2 : s'.timediff = s.timediff) (x : Nat) : decode s' x = decode s x := by
  unfold decode
  rw [h1, h2]

/-- The dump of a table that satisfies the region invariants, restored into
a table with `off` more elements at the time `t`: `co_restore` returns; the
queue holds the dumped entries, a whole-second deadline moved by the time
since the dump; the dumped bucket `k` is the bucket `(k + t - timestamp) &
127`, its elements moved by `off`; the immediate list is the dumped running
list followed by the dumped immediate list. -/
theorem co_restore_spec {s : State} {fl : List Nat} {ls : CbufRef → List Nat}
    (hw : Wheel s fl ls) (hqb : s.queuebrk ≤ s.cycbrk) (r0 : State) (off t : Nat)
    (hsz : r0.cotabsz = s.cotabsz + off) (hcap : s.cotabsz + off < UINDEX_MOD) :
    ∃ r, co_restore r0 (dumpData s) t = .ok r ∧
      r.timestamp = t ∧ r.timediff = u32 (s.timediff + sub32 t s.timestamp) ∧
      r.cotabsz = s.cotabsz + off ∧ r.queuebrk = s.queuebrk ∧ r.cycbrk = s.cycbrk + off ∧
      r.nzero = s.nzero ∧ r.nshort = s.nshort ∧
      (∀ k, k < CYCBUF_SIZE →
        r.listOf (.cyc ((k + cycIndex (sub32 t s.timestamp)) % CYCBUF_SIZE)) =
          (ls (.cyc k)).map (· + off)) ∧
      (s.nzero ≠ 0 → r.listOf .immediate = (ls .running ++ ls .immediate).map (· + off)) ∧
      (s.nzero = 0 → r.immediate = r0.immediate) ∧ r.running = r0.running ∧
      (∀ c, c.valid → ∀ x ∈ ls c, r.key (x + off) = s.key x) ∧
      (∀ j, 1 ≤ j → j ≤ s.queuebrk →
        r.mem j =
          if ((dumpData s).dc (j - 1)).time >>> 24 = 1 then
            ⟨(s.mem j).handle, (s.mem j).oindex, (decode r ((dumpData s).dc (j - 1)).time).1,
              (decode r ((dumpData s).dc (j - 1)).time).2⟩
          else
            ⟨(s.mem j).handle, (s.mem j).oindex,
              u32 (((dumpData s).dc (j - 1)).time + sub32 t s.timestamp), (r0.mem j).mtime⟩) := by
  have hf := fits_dump hw hqb r0 off hsz hcap
  obtain ⟨l1, l2, l3, l4, l5, l6, l7, l8, l9, l10, l11, l12, l13, l14, l15⟩ :=
    restoreLists_chains hw hqb r0 off t hsz hcap
  obtain ⟨-, -, c3⟩ := restoreTable_chains hw hqb r0 off t hsz hcap
  have hbC := hw.brk_le
  have hb1 := hw.brk_pos
  -- the restored buckets
  have hidx : ∀ j, j < CYCBUF_SIZE →
      ((j + CYCBUF_SIZE - cycIndex (sub32 t s.timestamp)) % CYCBUF_SIZE +
        cycIndex (sub32 t s.timestamp)) % CYCBUF_SIZE = j := by
    intro j hj
    have := cycIndex_lt (sub32 t s.timestamp)
    unfold CYCBUF_SIZE at *
    omega
  have hlt : ∀ j, (j + CYCBUF_SIZE - cycIndex (sub32 t s.timestamp)) % CYCBUF_SIZE < CYCBUF_SIZE := by
    intro j
    unfold CYCBUF_SIZE
    omega
  have hB : ∀ j, j < CYCBUF_SIZE → Chain (restoreLists r0 (dumpData s) t)
      ((restoreLists r0 (dumpData s) t).cycbuf j).list
      ((ls (.cyc ((j + CYCBUF_SIZE - cycIndex (sub32 t s.timestamp)) % CYCBUF_SIZE))).map
        (· + off)) := by
    intro j hj
    have := l1 _ (hlt j)
    rw [hidx j hj] at this
    exact this
  have hbound : ∀ c, c.valid → ∀ x ∈ (ls c).map (· + off), x < UINDEX_MOD := by
    intro c hc x hx
    obtain ⟨y, hy, rfl⟩ := List.mem_map.1 hx
    have := (hw.range c hc y hy).2
    show y + off < UINDEX_MOD
    omega
  have hlen : ∀ c, c.valid → ((ls c).map (· + off)).length < UINDEX_MOD := by
    intro c hc
    rw [List.length_map]
    have := hw.length_le c hc
    omega
  obtain ⟨F, hF, hce, -, hfr⟩ := addCounts_spec
    (fun j => (ls (.cyc ((j + CYCBUF_SIZE - cycIndex (sub32 t s.timestamp)) % CYCBUF_SIZE))).map
      (· + off))
    (fun j _ => hbound (.cyc _) (hlt j))
    (fun j _ => hlen (.cyc _) (hlt j))
    (by
      intro k j hk hj hkj x hx hx'
      obtain ⟨y, hy, rfl⟩ := List.mem_map.1 hx
      have hy' := mem_map_add hx'
      refine hw.disj (.cyc _) (.cyc _) (hlt k) (hlt j) ?_ y hy hy'
      intro e
      injection e with e
      have := cycIndex_lt (sub32 t s.timestamp)
      unfold CYCBUF_SIZE at *
      omega)
    CYCBUF_SIZE (restoreLists r0 (dumpData s) t) (le_refl _) hB
  obtain ⟨g1, g2, g3, g4, g5, g6, g7, g8, g9, g10, g11, g12⟩ := hce.count_fields
  -- a bucket that is not empty
  have hne : F.nshort = F.nzero ∨ ∃ k, k < CYCBUF_SIZE ∧ (F.cycbuf k).list ≠ 0 := by
    by_cases h : s.nshort = s.nzero
    · left
      rw [g9, g8, l11, l10, h]
    · right
      have h1 := hw.nshort
      have h2 : ∑ k in Finset.range CYCBUF_SIZE, (ls (.cyc k)).length ≠ 0 := by omega
      obtain ⟨k, hk, hk2⟩ := Finset.exists_ne_zero_of_sum_ne_zero h2
      have hk' := Finset.mem_range.1 hk
      refine ⟨(k + cycIndex (sub32 t s.timestamp)) % CYCBUF_SIZE, by unfold CYCBUF_SIZE; omega, ?_⟩
      rw [g1]
      intro h0
      have := (l1 k hk').head_eq_zero_iff.1 h0
      apply hk2
      rw [List.map_eq_nil_iff] at this
      rw [this]
      rfl
  obtain ⟨r, hr, ha⟩ := restore_restart F hne
  obtain ⟨a1, a2, a3, a4, a5, a6, a7, a8, a9⟩ := ha.fields
  have hslotF : ∀ x, (r.cotab x).time = ((restoreLists r0 (dumpData s) t).cotab x).time ∧
      (r.cotab x).handle = ((restoreLists r0 (dumpData s) t).cotab x).handle ∧
      (r.cotab x).oindex = ((restoreLists r0 (dumpData s) t).cotab x).oindex := by
    intro x
    rw [ha.cotab x]
    exact hce.slot x
  have hchain : ∀ {xs : List Nat} {g : Nat}, Chain (restoreLists r0 (dumpData s) t) g xs →
      Chain r g xs := fun hc => hc.congr (fun x _ => (hslotF x).1)
  refine ⟨r, ?_, by rw [a7, g10, l12], by rw [a9, g11, l13], by rw [a3, g4, l7],
    by rw [a6, g5, l8], by rw [a2, g6, l9], by rw [a4, g8, l10], by rw [a5, g9, l11],
    ?_, ?_, ?_, ?_, ?_, ?_⟩
  · rw [co_restore_eq, if_neg, hF]
    · exact hr
    · rw [hf.brk, hf.offset]
      show ¬(s.queuebrk > s.cycbrk + off + off ∨ s.cycbrk + off = 0)
      omega
  · intro k hk
    unfold State.listOf
    have e : (r.getCbuf (.cyc ((k + cycIndex (sub32 t s.timestamp)) % CYCBUF_SIZE))).list =
        ((restoreLists r0 (dumpData s) t).cycbuf
          ((k + cycIndex (sub32 t s.timestamp)) % CYCBUF_SIZE)).list := by
      show (r.cycbuf _).list = _
      rw [a8, g1]
    rw [e]
    exact walk_of_chain _ (hchain (l1 k hk)) (hbound (.cyc k) hk) (hlen (.cyc k) hk)
  · intro hz
    unfold State.listOf
    have e : (r.getCbuf .immediate).list = (restoreLists r0 (dumpData s) t).immediate.list := by
      have := ha.getCbuf .immediate
      show r.immediate.list = _
      have h2 : r.immediate = F.immediate := this
      rw [h2, g2]
    rw [e]
    refine walk_of_chain _ (hchain (l2 hz)) ?_ ?_
    · intro x hx
      rw [List.map_append] at hx
      rcases List.mem_append.1 hx with h | h
      · exact hbound .running trivial x h
      · exact hbound .immediate trivial x h
    · rw [List.length_map, List.length_append]
      have h1 := hw.nzero
      have h2 := hw.nshort
      have h3 := hw.total
      omega
  · intro hz
    have h2 : r.immediate = F.immediate := ha.getCbuf .immediate
    rw [h2, g2, l3 hz]
  · have h2 : r.running = F.running := ha.getCbuf .running
    rw [h2, g3, l14]
  · intro c hc x hx
    obtain ⟨hx1, hx2⟩ := hw.range c hc x hx
    have hh := hw.handle c hc x hx
    obtain ⟨q1, q2⟩ := c3 x hx1 hx2
    unfold State.key
    rw [(hslotF _).2.1, (hslotF _).2.2, (l4 _).1, (l4 _).2, q1, q2 hh]
  · intro j hj1 hj2
    have e0 : r.mem j = (restoreTable r0 (dumpData s) t).mem j := by
      have h1 : r.mem j = F.mem j := by rw [ha.mem]
      have h2 : (F.mem j).mtime = ((restoreLists r0 (dumpData s) t).mem j).mtime := by
        have := hfr (j - 1) (fun k _ hk hx => by
          obtain ⟨y, hy, e⟩ := List.mem_map.1 hx
          have := (hw.range (.cyc _) (hlt k) y hy).1
          have e' : y + off = j - 1 := e
          omega)
        unfold State.cotab at this
        rw [Nat.sub_add_cancel hj1] at this
        exact this
      have h3 := hce.2 j
      have h4 : (restoreLists r0 (dumpData s) t).mem j =
          (restoreTable r0 (dumpData s) t).mem j := by
        have := l5 (j - 1) (by omega)
        unfold State.cotab at this
        rw [Nat.sub_add_cancel hj1] at this
        exact this
      rw [h1, h3, h2, ← h4]
    rw [e0, restoreTable_queue hf t j hj1 hj2]
    have hdc := dumpData_queue hw hqb (j - 1) (by omega)
    have hcj : s.cotab (j - 1) = s.mem j := by
      unfold State.cotab
      rw [Nat.sub_add_cancel hj1]
    have hd : decode (restoreHeader r0 (dumpData s) t) ((dumpData s).dc (j - 1)).time =
        decode r ((dumpData s).dc (j - 1)).time :=
      (decode_congr _ _ (by rw [a7, g10, l12]; rfl) (by rw [a9, g11, l13]; rfl) _).symm
    have e1 : ((dumpData s).dc (j - 1)).handle = (s.mem j).handle := by rw [hdc, hcj]
    have e2 : ((dumpData s).dc (j - 1)).oindex = (s.mem j).oindex := by rw [hdc, hcj]
    rw [hd, e1, e2]
    rfl

/-! ## C12: dump and restore at the same second -/

/-- C12 fails on the code. First run: after `co_init(8)` a callout with a
whole-second delay of 200 seconds is in the queue as `(1000000200, 0)`. The
dump is restored at the same second into a fresh table of the same
capacity whose memory, which `co_init` does not clear, holds 7 in the
`mtime` fields: `co_restore` sets `time` of a whole-second entry and leaves
`mtime` alone, so the restored entry is `(1000000200, 7)`. Second run: a
callout with a delay of 300 seconds and 500 milliseconds is in the queue as
`(1000000300, 500)`; `co_dump` writes it encoded, with the low 8 bits of the
second, and `co_restore` into a cleared table decodes it as
`(1000000044, 500)`, 256 seconds early. -/
theorem co_restore_changes_heap_entry :
    ∃ s0 s1 a1 r0 r s2 a2 r2,
      co_init zeroMem 8 1000000000 = .ok s0 ∧
      checkNew s0 1 1 200 0xffff 1000000000 0 = .ok (s1, a1) ∧
      s1.queuebrk = 1 ∧ s1.mem 1 = ⟨1, 1, 1000000200, 0⟩ ∧
      (co_dump s1 1000000000 0).1.timestamp = 1000000000 ∧
      co_init (fun _ => ⟨0, 0, 0, 7⟩) 8 1000000000 = .ok r0 ∧
      co_restore r0 (co_dump s1 1000000000 0).2 1000000000 = .ok r ∧
      r.queuebrk = 1 ∧ r.mem 1 = ⟨1, 1, 1000000200, 7⟩ ∧ r.mem 1 ≠ s1.mem 1 ∧
      checkNew s0 2 2 300 500 1000000000 0 = .ok (s2, a2) ∧
      s2.queuebrk = 1 ∧ s2.mem 1 = ⟨2, 2, 1000000300, 500⟩ ∧
      (co_dump s2 1000000000 0).1.timestamp = 1000000000 ∧
      co_restore s0 (co_dump s2 1000000000 0).2 1000000000 = .ok r2 ∧
      r2.queuebrk = 1 ∧ r2.mem 1 = ⟨2, 2, 1000000044, 500⟩ ∧ r2.mem 1 ≠ s2.mem 1 :=
  ⟨_, _, _, _, _, _, _, _, rfl, rfl, rfl, rfl, rfl, rfl, rfl, rfl, rfl, by decide, rfl, rfl, rfl,
    rfl, rfl, rfl, rfl, by decide⟩

/-! ## C13: restoring at a later time -/

theorem co_time_fields (s : State) (c cms : Nat) :
    (co_time s c cms).1.mem = s.mem ∧ (co_time s c cms).1.cotabsz = s.cotabsz ∧
    (co_time s c cms).1.queuebrk = s.queuebrk ∧ (co_time s c cms).1.cycbrk = s.cycbrk ∧
    (co_time s c cms).1.flist = s.flist ∧ (co_time s c cms).1.nzero = s.nzero ∧
    (co_time s c cms).1.nshort = s.nshort ∧ (co_time s c cms).1.cycbuf = s.cycbuf ∧
    (co_time s c cms).1.immediate = s.immediate ∧ (co_time s c cms).1.running = s.running ∧
    (co_time s c cms).1.timediff = s.timediff := by
  rw [co_time_state]
  exact ⟨rfl, rfl, rfl, rfl, rfl, rfl, rfl, rfl, rfl, rfl, rfl⟩

theorem co_time_wheel {s : State} {fl : List Nat} {ls : CbufRef → List Nat} (hw : Wheel s fl ls)
    (c cms : Nat) : Wheel (co_time s c cms).1 fl ls := by
  obtain ⟨g1, g2, g3, g4, g5, g6, g7, g8, g9, g10, g11⟩ := co_time_fields s c cms
  refine hw.frame (fun x _ _ => by unfold State.cotab; rw [g1]) ?_ g5 g4 g2 g6 g7
  intro r
  cases r
  · exact g9
  · exact g10
  · show (co_time s c cms).1.cycbuf _ = s.cycbuf _
    rw [g8]

/-- The time remaining for a whole-second deadline. -/
theorem co_remaining_whole (s : State) (t c cms : Nat) (h : t >>> 24 ≠ 1) :
    (co_remaining s t c cms).2 =
      toInt32 (if u32 (t + s.timediff) > s.timestamp then sub32 (u32 (t + s.timediff)) s.timestamp
        else 0) := by
  unfold co_remaining
  rw [if_pos h]

/-- C13: a dump taken by `co_dump` at `timestamp = T0` from a table that
satisfies the region invariants, restored by `co_restore` at a time
`now >= T0` (a 32-bit word) into a table of at least the dumped capacity:
`co_restore` returns; `timestamp` is `now` and `timediff` is the dumped
`timediff` plus `now - T0` (as a 32-bit word); every entry of the queue that
was dumped with a whole-second deadline `d` (`mtime = 0`, top byte of `d` not
`0x01`) has the deadline `d + (now - T0)` and its object index and handle;
the bucket `(k + now - T0) & 127` holds the callouts of the dumped bucket
`k`, in their order; and the time remaining for a whole-second stored
deadline whose second stays below `2^32` is the same after the restore as
at the dump. -/
theorem co_restore_slides (s : State) (hw : ∃ fl ls, Wheel s fl ls)
    (hqb : s.queuebrk ≤ s.cycbrk) (c cms : Nat) (r0 : State) (now : Nat)
    (hsz : s.cotabsz ≤ r0.cotabsz) (hcap : r0.cotabsz < UINDEX_MOD)
    (hnow : (co_dump s c cms).2.dh.timestamp ≤ now) (h32 : now < UINT_MOD) :
    ∃ r, co_restore r0 (co_dump s c cms).2 now = .ok r ∧
      r.timestamp = now ∧
      r.timediff = u32 ((co_dump s c cms).2.dh.timediff +
        (now - (co_dump s c cms).2.dh.timestamp)) ∧
      (∀ j, 1 ≤ j → j ≤ s.queuebrk → (s.mem j).mtime = 0 → (s.mem j).time >>> 24 ≠ 1 →
        ((co_dump s c cms).2.dc (j - 1)).time = (s.mem j).time ∧
        (r.mem j).time = u32 ((s.mem j).time + (now - (co_dump s c cms).2.dh.timestamp)) ∧
        (r.mem j).handle = (s.mem j).handle ∧ (r.mem j).oindex = (s.mem j).oindex) ∧
      (∀ k, k < CYCBUF_SIZE →
        (r.listOf (.cyc (cycIndex (k + (now - (co_dump s c cms).2.dh.timestamp))))).map r.key =
          (s.listOf (.cyc k)).map s.key) ∧
      (∀ stored c' cms', stored >>> 24 ≠ 1 →
        u32 (stored + (co_dump s c cms).2.dh.timediff) +
          (now - (co_dump s c cms).2.dh.timestamp) < UINT_MOD →
        (co_remaining r stored c' cms').2 = (co_remaining (co_dump s c cms).1 stored c cms).2) := by
  obtain ⟨fl, ls, hw⟩ := hw
  obtain ⟨g1, g2, g3, g4, g5, g6, g7, g8, g9, g10, g11⟩ := co_time_fields s c cms
  have hw1 := co_time_wheel hw c cms
  have e : (co_dump s c cms).2 = dumpData (co_time s c cms).1 := co_dump_eq s c cms
  have est : (co_dump s c cms).1.timestamp = (co_time s c cms).1.timestamp := by
    unfold co_dump
    dsimp only
    split_ifs <;> rfl
  have etd : (co_dump s c cms).1.timediff = s.timediff := by
    rw [← g11]
    unfold co_dump
    dsimp only
    split_ifs <;> rfl
  rw [e] at hnow ⊢
  have eT : (dumpData (co_time s c cms).1).dh.timestamp = (co_time s c cms).1.timestamp := rfl
  have eD : (dumpData (co_time s c cms).1).dh.timediff = s.timediff := g11
  rw [eT] at hnow ⊢
  rw [eD]
  generalize hT : (co_time s c cms).1.timestamp = T0 at *
  have hsub : sub32 now T0 = now - T0 := by
    unfold sub32 UINT_MOD at *
    omega
  obtain ⟨r, hr, r1, r2, r3, r4, r5, r6, r7, r8, -, -, -, r12, r13⟩ :=
    co_restore_spec hw1 (by rw [g3, g4]; exact hqb) r0 (r0.cotabsz - s.cotabsz) now
      (by rw [g2]; omega) (by rw [g2]; omega)
  rw [hT, hsub] at r2 r8 r13
  rw [g11] at r2
  refine ⟨r, hr, r1, r2, ?_, ?_, ?_⟩
  · intro j hj1 hj2 hm ht
    have hdc := dumpData_queue hw1 (by rw [g3, g4]; exact hqb) (j - 1) (by rw [g3]; omega)
    have hcj : (co_time s c cms).1.cotab (j - 1) = s.mem j := by
      unfold State.cotab
      rw [Nat.sub_add_cancel hj1, g1]
    rw [hcj, hm, if_neg (fun h => h rfl)] at hdc
    have hdt : ((dumpData (co_time s c cms).1).dc (j - 1)).time = (s.mem j).time := by rw [hdc]
    have := r13 j hj1 (by rw [g3]; exact hj2)
    rw [hdt, if_neg ht, g1] at this
    rw [this]
    exact ⟨hdt, rfl, rfl, rfl⟩
  · intro k hk
    have e1 : cycIndex (k + (now - T0)) = (k + cycIndex (now - T0)) % CYCBUF_SIZE := by
      simp only [cycIndex_eq, CYCBUF_SIZE]
      omega
    rw [e1, r8 k hk, hw.listOf (.cyc k) hk, List.map_map]
    refine List.map_congr_left (fun x hx => ?_)
    show r.key (x + (r0.cotabsz - s.cotabsz)) = s.key x
    rw [r12 (.cyc k) hk x hx]
    unfold State.key State.cotab
    rw [g1]
  · intro stored c' cms' hs hlt
    rw [co_remaining_whole _ _ _ _ hs, co_remaining_whole _ _ _ _ hs, r1, r2, est, etd]
    have hA : u32 (stored + u32 (s.timediff + (now - T0))) = u32 (stored + s.timediff) + (now - T0) := by
      unfold u32 UINT_MOD at *
      omega
    rw [hA]
    by_cases hgt : u32 (stored + s.timediff) > T0
    · rw [if_pos hgt, if_pos (by omega)]
      congr 1
      unfold sub32 u32 UINT_MOD at *
      omega
    · rw [if_neg hgt, if_neg (by omega)]

/-- C13 at a concrete input: the dump of `dueState`, taken at second
1000000000, is restored 7 seconds later into a table of capacity 10. The
restore returns with `timestamp = 1000000007` and `timediff = 7`, and the
callouts of the dumped bucket 5 are in bucket 12. -/
theorem co_restore_slides_witness :
    dueState.queuebrk ≤ dueState.cycbrk ∧
    (co_dump dueState 1000000000 0).2.dh.timestamp ≤ 1000000007 ∧
    ∃ r, co_restore { zeroState with cotabsz := 10 } (co_dump dueState 1000000000 0).2
        1000000007 = .ok r ∧
      r.timestamp = 1000000007 ∧ r.timediff = 7 ∧
      (r.listOf (.cyc 12)).map r.key = (dueState.listOf (.cyc 5)).map dueState.key := by
  have h1 : (co_dump dueState 1000000000 0).2.dh.timestamp ≤ 1000000007 := by
    show (1000000000 : Nat) ≤ 1000000007
    norm_num
  refine ⟨by decide, h1, ?_⟩
  obtain ⟨r, hr, e1, e2, -, e4, -⟩ :=
    co_restore_slides dueState dueState_inv.wheel (by decide) 1000000000 0
      { zeroState with cotabsz := 10 } 1000000007 (by decide) (by decide) h1
      (by show (1000000007 : Nat) < 4294967296; norm_num)
  exact ⟨r, hr, e1, e2, e4 5 (by decide)⟩

/-! ## C14: restoring into a table of another capacity -/

/-- C14 fails on the code. After `co_init(8)` five callouts are admitted to
the cyclic buffer (slots 7 to 3) and the third, fourth and second are
cancelled, so that the free list is 6, 4, 5 and `cycbrk = 3`. The dump is
restored into a table of capacity 8 (`r8`) and into one of capacity 7
(`r7`, `offset = -1`). In `r8` the free slot 6 has the `next` link 4; in
`r7` the corresponding slot 5 has the `next` link `4 + 65535 = 65539`, not
3: `co_restore` adds the 16-bit word `offset = 65535` to the 32-bit field.
Cancelling the callout `(5, 5)` then releases the slot at `cycbrk`, and
`freecallout` passes over the free slots using the `next` links as indices:
in `r8` the free list ends up empty with `cycbrk = 7`, in `r7` the store
`cotab[l->next].prev` goes to index 65540, outside the table, and the free
list is left as the single index 4, below `cycbrk = 6`; the next admission
takes slot 4, outside the region of the cyclic buffer. -/
theorem co_restore_smaller_table_links :
    ∃ s0 s1 s2 s3 s4 s5 s6 s7 s8 a1 a2 a3 a4 a5 q8 r8 q7 r7 d8 d7 n7 b7,
      co_init zeroMem 8 1000000000 = .ok s0 ∧
      checkNew s0 1 1 1 0xffff 1000000000 0 = .ok (s1, a1) ∧
      checkNew s1 2 2 2 0xffff 1000000000 0 = .ok (s2, a2) ∧
      checkNew s2 3 3 3 0xffff 1000000000 0 = .ok (s3, a3) ∧
      checkNew s3 4 4 4 0xffff 1000000000 0 = .ok (s4, a4) ∧
      checkNew s4 5 5 5 0xffff 1000000000 0 = .ok (s5, a5) ∧
      co_del true s5 3 3 a3.stored = .ok s6 ∧
      co_del true s6 4 4 a4.stored = .ok s7 ∧
      co_del true s7 2 2 a2.stored = .ok s8 ∧
      (s8.cotabsz, s8.queuebrk, s8.cycbrk, s8.flist, s8.nshort) = (8, 0, 3, 6, 2) ∧
      walk 8 s8 s8.flist = [6, 4, 5] ∧
      co_init zeroMem 8 1000000000 = .ok q8 ∧
      co_restore q8 (co_dump s8 1000000000 0).2 1000000000 = .ok r8 ∧
      (r8.cotabsz, r8.cycbrk, r8.flist) = (8, 3, 6) ∧
      ((r8.cotab 6).time, (r8.cotab 4).time, (r8.cotab 5).time) = (4, 5, 0) ∧
      co_init zeroMem 7 1000000000 = .ok q7 ∧
      co_restore q7 (co_dump s8 1000000000 0).2 1000000000 = .ok r7 ∧
      (r7.cotabsz, r7.cycbrk, r7.flist) = (7, 2, 5) ∧
      ((r7.cotab 5).time, (r7.cotab 3).time, (r7.cotab 4).time) = (65539, 65540, 0) ∧
      co_del true r8 5 5 a5.stored = .ok d8 ∧
      (d8.cycbrk, d8.flist, d8.nshort) = (7, 0, 1) ∧
      co_del true r7 5 5 a5.stored = .ok d7 ∧
      (d7.cycbrk, d7.flist, d7.nshort) = (6, 4, 1) ∧
      (d7.cotab 65540).oindex = 5 ∧
      checkNew d7 9 9 9 0xffff 1000000000 0 = .ok (n7, b7) ∧
      n7.cycbrk = 6 ∧ n7.listOf (.cyc (cycIndex 1000000009)) = [4] ∧ n7.key 4 = (9, 9) :=
  ⟨_, _, _, _, _, _, _, _, _, _, _, _, _, _, _, _, _, _, _, _, _, _, rfl, rfl, rfl, rfl, rfl, rfl,
    rfl, rfl, rfl, rfl, rfl, rfl, rfl, rfl, rfl, rfl, rfl, rfl, rfl, rfl, rfl, rfl, rfl, rfl, rfl,
    rfl, rfl, rfl⟩

/-! ## C15: the test "Restored too many callouts" -/

/-- C15 fails on the code. After `co_init(8)` two callouts are in the cyclic
buffer (slots 7 and 6, `cycbrk = 6`) and five in the queue (`queuebrk = 5`).
The dump is restored into a table of capacity 6: the rebased `cycbrk` is
`6 + (6 - 8) = 4`, below `queuebrk = 5`, but `co_restore` compares
`queuebrk` with `cycbrk + offset`, where `offset` is the 16-bit word
`65534`, and does not raise. The second copy loop then writes the callout
`(2, 2)` of the cyclic buffer into `cotab[4]`, which is heap slot 5, over the
entry of the callout `(7, 7)`. -/
theorem co_restore_overlap_not_raised :
    ∃ s0 s1 s2 s3 s4 s5 s6 s7 a1 a2 a3 a4 a5 a6 a7 r0 r,
      co_init zeroMem 8 1000000000 = .ok s0 ∧
      checkNew s0 1 1 1 0xffff 1000000000 0 = .ok (s1, a1) ∧
      checkNew s1 2 2 2 0xffff 1000000000 0 = .ok (s2, a2) ∧
      checkNew s2 3 3 200 0xffff 1000000000 0 = .ok (s3, a3) ∧
      checkNew s3 4 4 201 0xffff 1000000000 0 = .ok (s4, a4) ∧
      checkNew s4 5 5 202 0xffff 1000000000 0 = .ok (s5, a5) ∧
      checkNew s5 6 6 203 0xffff 1000000000 0 = .ok (s6, a6) ∧
      checkNew s6 7 7 204 0xffff 1000000000 0 = .ok (s7, a7) ∧
      (s7.cotabsz, s7.queuebrk, s7.cycbrk) = (8, 5, 6) ∧
      s7.mem 5 = ⟨7, 7, 1000000204, 0⟩ ∧
      (co_dump s7 1000000000 0).2.dh.queuebrk = 5 ∧
      (co_dump s7 1000000000 0).2.dh.cycbrk = 6 ∧
      (co_dump s7 1000000000 0).2.dh.cotabsz = 8 ∧
      co_init zeroMem 6 1000000000 = .ok r0 ∧
      (co_dump s7 1000000000 0).2.dh.queuebrk >
        (co_dump s7 1000000000 0).2.dh.cycbrk + r0.cotabsz - (co_dump s7 1000000000 0).2.dh.cotabsz ∧
      co_restore r0 (co_dump s7 1000000000 0).2 1000000000 = .ok r ∧
      (r.cotabsz, r.queuebrk, r.cycbrk) = (6, 5, 4) ∧
      r.cotab 4 = r.mem 5 ∧ r.mem 5 = ⟨2, 2, 0, 1⟩ ∧
      r.listOf (.cyc (cycIndex 1000000002)) = [4] :=
  ⟨_, _, _, _, _, _, _, _, _, _, _, _, _, _, _, _, _, rfl, rfl, rfl, rfl, rfl, rfl, rfl, rfl, rfl,
    rfl, rfl, rfl, rfl, rfl, by decide, rfl, rfl, rfl, rfl, rfl⟩

/-! ## C17: the partition of the table -/

/-- C17 fails on the code. After `co_init(3)`, two admissions to the cyclic
buffer take the slots 2 and 1 (`cycbrk = 1`); cancelling the first puts slot
2 on the free list and leaves `cycbrk = 1`, `nshort = 1`. Two admissions to
the queue then pass `co_check` (`queuebrk + nshort` is 1, then 2, not 3) and
the second stores its heap entry in `l[2] = cotab[1]`: index 1 lies in the
region `cycbrk .. cotabsz - 1`, is the head of the bucket of the pending
callout `(2, 2)`, and is heap slot 2 at the same time. The slot now holds
the callout `(4, 4)`, and its `next` link is the deadline 1000002000, so the
bucket list runs on to index 53712, outside the table. -/
theorem heap_slot_on_bucket :
    ∃ s0 s1 s2 s3 s4 s5 a1 a2 a3 a4,
      co_init zeroMem 3 1000000000 = .ok s0 ∧
      checkNew s0 1 1 1 0xffff 1000000000 0 = .ok (s1, a1) ∧
      checkNew s1 2 2 2 0xffff 1000000000 0 = .ok (s2, a2) ∧
      s2.listOf (.cyc (cycIndex 1000000002)) = [1] ∧ s2.key 1 = (2, 2) ∧
      co_del true s2 1 1 a1.stored = .ok s3 ∧
      (s3.flist, s3.cycbrk, s3.nshort, s3.queuebrk) = (2, 1, 1, 0) ∧
      checkNew s3 3 3 1000 0xffff 1000000000 0 = .ok (s4, a3) ∧
      checkNew s4 4 4 2000 0xffff 1000000000 0 = .ok (s5, a4) ∧
      a3.q = none ∧ a4.q = none ∧
      (s5.cotabsz, s5.cycbrk, s5.queuebrk, s5.flist) = (3, 1, 2, 2) ∧
      s5.cycbrk ≤ 1 ∧ 1 < s5.cotabsz ∧ 1 + 1 ≤ s5.queuebrk ∧
      (s5.cycbuf (cycIndex 1000000002)).list = 1 ∧
      s5.cotab 1 = s5.mem 2 ∧ s5.key 1 = (4, 4) ∧ (s5.cotab 1).time = 1000002000 ∧
      s5.listOf (.cyc (cycIndex 1000000002)) = [1, 53712] :=
  ⟨_, _, _, _, _, _, _, _, _, _, rfl, rfl, rfl, rfl, rfl, rfl, rfl, rfl, rfl, rfl, rfl, rfl,
    by decide, by decide, by decide, rfl, rfl, rfl, rfl, rfl⟩

/-! ## C16: the counters `nshort` and `nzero` -/

/-- C16 fails as stated: `nzero` counts the running list as well. After
`co_init(8)` two immediate callouts are admitted (`nzero = 2`). In
`co_call` they move to the running list, and the first is released before
its function is invoked: whatever `invoke` does, it is handed the state
`s3`, in which the immediate list is empty, the running list holds the
second callout and `nzero = nshort = 1`. -/
theorem nzero_counts_running :
    ∃ s0 s1 s2 s3 a1 a2,
      co_init zeroMem 8 1000000000 = .ok s0 ∧
      checkNew s0 1 1 0 0xffff 1000000000 0 = .ok (s1, a1) ∧
      checkNew s1 2 2 0 0xffff 1000000000 0 = .ok (s2, a2) ∧
      s2.listOf .immediate = [7, 6] ∧ s2.nzero = 2 ∧ s2.nshort = 2 ∧
      (∀ invoke : Nat → Nat → State → Except Fault State,
        co_call invoke s2 false 1000000000 0 =
          (invoke 1 1 s3).bind (fun s =>
            (callLoop invoke 65535 s).bind (fun p => .ok (p.1, (1, 1) :: p.2)))) ∧
      s3.listOf .immediate = [] ∧ s3.listOf .running = [6] ∧
      (∀ k, k < CYCBUF_SIZE → s3.listOf (.cyc k) = []) ∧
      s3.nshort = 1 ∧ s3.nzero = 1 ∧ s3.nzero ≠ (s3.listOf .immediate).length :=
  ⟨_, _, _, _, _, _, rfl, rfl, rfl, rfl, rfl, rfl, fun _ => rfl, rfl, rfl, fun _ _ => rfl, rfl,
    rfl, by decide⟩

/-! ## C18: the alarm -/

/-- The scan of `restart` without wrap-around of the 32-bit second: it
returns the first second from `t` on whose bucket is not empty. -/
theorem nextBucket_first (cyc : Nat → cbuf) :
    ∀ (fuel t t' : Nat), t + fuel ≤ UINT_MOD → nextBucket fuel cyc t = .ok t' →
      t ≤ t' ∧ t' < t + fuel ∧ (cyc (cycIndex t')).list ≠ 0 ∧
      ∀ sec, t ≤ sec → sec < t' → (cyc (cycIndex sec)).list = 0 := by
  intro fuel
  induction fuel with
  | zero =>
    intro t t' _ h
    cases h
  | succ fuel ih =>
    intro t t' hb h
    unfold nextBucket at h
    by_cases h0 : (cyc (cycIndex t)).list = 0
    · rw [if_pos h0] at h
      have hf : fuel ≠ 0 := by
        intro hf
        subst hf
        unfold nextBucket at h
        cases h
      have e : u32 (t + 1) = t + 1 := by
        unfold u32
        exact Nat.mod_eq_of_lt (by unfold UINT_MOD at *; omega)
      rw [e] at h
      obtain ⟨h1, h2, h3, h4⟩ := ih (t + 1) t' (by omega) h
      refine ⟨by omega, by omega, h3, ?_⟩
      intro sec hs1 hs2
      by_cases hs : sec = t
      · rw [hs]; exact h0
      · exact h4 sec (by omega) hs2
    · rw [if_neg h0] at h
      simp only [Except.ok.injEq] at h
      subst h
      exact ⟨le_refl _, by omega, h0, fun sec h1 h2 => by omega⟩

/-- The second half of `restart`, which is `restart(0)`: `timeout` stays, and
the alarm `(atimeout, amtime)` is the deadline of the root of the heap when
the heap is not empty and `timeout` is 0 or later than the second of the
root, and `(timeout, 0)` otherwise. -/
theorem restart_zero_alarm (s s' : State) (h : restart s 0 = .ok s') :
    s'.timeout = s.timeout ∧ s'.queuebrk = s.queuebrk ∧ s'.cotab 0 = s.cotab 0 ∧
    (s'.atimeout, s'.amtime) =
      (if s.queuebrk ≠ 0 ∧ (s.timeout = 0 ∨ (s.cotab 0).time < s.timeout) then
        ((s.cotab 0).time, u16 (s.cotab 0).mtime)
      else (s.timeout, 0)) := by
  unfold restart at h
  simp only [ne_eq, not_true_eq_false, if_false, bind, Except.bind, pure, Except.pure,
    Nat.not_lt_zero, and_false, or_false] at h
  by_cases c : ¬ s.queuebrk = 0 ∧ (s.timeout = 0 ∨ (s.cotab 0).time < s.timeout)
  · rw [if_pos c] at h ⊢
    dsimp only at h
    split_ifs at h with c2
    · simp only [Except.ok.injEq] at h
      subst h
      exact ⟨rfl, rfl, rfl, rfl⟩
    · simp only [Except.ok.injEq] at h
      subst h
      refine ⟨rfl, rfl, rfl, ?_⟩
      have h1 : (s.cotab 0).time = s.atimeout := by
        by_contra hne; exact c2 (Or.inl hne)
      have h2 : u16 (s.cotab 0).mtime = s.amtime := by
        by_contra hne; exact c2 (Or.inr hne)
      rw [h1, h2]
  · rw [if_neg c] at h ⊢
    dsimp only at h
    split_ifs at h with c2
    · simp only [Except.ok.injEq] at h
      subst h
      exact ⟨rfl, rfl, rfl, rfl⟩
    · simp only [Except.ok.injEq] at h
      subst h
      refine ⟨rfl, rfl, rfl, ?_⟩
      have h1 : s.timeout = s.atimeout := by
        by_contra hne; exact c2 (Or.inl hne)
      have h2 : 0 = s.amtime := by
        by_contra hne; exact c2 (Or.inr hne)
      rw [← h2, ← h1]

/-- The two halves of `restart(t)`: the new value of `timeout`, then
`restart(0)`. -/
theorem restart_halves (s : State) (t : Nat) :
    restart s t =
      if t ≠ 0 then
        if s.nshort ≠ s.nzero then
          (nextBucket CYCBUF_SIZE s.cycbuf t).bind (fun t1 => restart { s with timeout := t1 } 0)
        else restart { s with timeout := 0 } 0
      else restart s 0 := by
  unfold restart
  by_cases c1 : t ≠ 0
  · by_cases c2 : s.nshort ≠ s.nzero
    · cases hnb : nextBucket CYCBUF_SIZE s.cycbuf t with
      | error e =>
        simp only [c1, c2, if_true, bind, Except.bind, pure, Except.pure, ne_eq,
          not_false_eq_true]
      | ok t1 =>
        simp only [c1, c2, if_true, if_false, bind, Except.bind, pure, Except.pure, ne_eq,
          not_false_eq_true, not_true_eq_false]
    · simp only [c1, c2, if_true, if_false, bind, Except.bind, pure, Except.pure, ne_eq,
        not_false_eq_true, not_true_eq_false]
  · simp only [c1, if_false, bind, Except.bind, pure, Except.pure, ne_eq, not_true_eq_false]

/-- The registers set by `restart(t)`: `timeout` is recomputed from the
buckets when `t` is not 0, and the alarm `(atimeout, amtime)` is the deadline
of the root of the heap when the heap is not empty and `timeout` is 0 or
later than the second of the root, and `(timeout, 0)` otherwise. -/
theorem restart_alarm (s s' : State) (t : Nat) (h : restart s t = .ok s') :
    (t = 0 → s'.timeout = s.timeout) ∧
    (t ≠ 0 → s.nshort = s.nzero → s'.timeout = 0) ∧
    (t ≠ 0 → s.nshort ≠ s.nzero → nextBucket CYCBUF_SIZE s.cycbuf t = .ok s'.timeout) ∧
    (s'.atimeout, s'.amtime) =
      (if s.queuebrk ≠ 0 ∧ (s'.timeout = 0 ∨ (s.cotab 0).time < s'.timeout) then
        ((s.cotab 0).time, u16 (s.cotab 0).mtime)
      else (s'.timeout, 0)) := by
  rw [restart_halves] at h
  by_cases c1 : t ≠ 0
  · rw [if_pos c1] at h
    by_cases c2 : s.nshort ≠ s.nzero
    · rw [if_pos c2] at h
      cases hnb : nextBucket CYCBUF_SIZE s.cycbuf t with
      | error e =>
        rw [hnb] at h
        cases h
      | ok t1 =>
        rw [hnb] at h
        obtain ⟨f1, -, -, f2⟩ := restart_zero_alarm { s with timeout := t1 } s' h
        have f1' : s'.timeout = t1 := f1
        refine ⟨fun h0 => absurd h0 c1, fun _ h0 => absurd h0 c2, fun _ _ => by rw [f1'], ?_⟩
        rw [f1']
        exact f2
    · rw [if_neg c2] at h
      obtain ⟨f1, -, -, f2⟩ := restart_zero_alarm { s with timeout := 0 } s' h
      have f1' : s'.timeout = 0 := f1
      refine ⟨fun h0 => absurd h0 c1, fun _ _ => f1', fun _ h0 => absurd h0 c2, ?_⟩
      rw [f1']
      exact f2
  · rw [if_neg c1] at h
    obtain ⟨f1, -, -, f2⟩ := restart_zero_alarm s s' h
    refine ⟨fun _ => f1, fun h0 => absurd h0 c1, fun h0 => absurd h0 c1, ?_⟩
    rw [f1]
    exact f2

theorem swapEq.swap_alarm {s s' : State} (h : swapEq s s') :
    s'.timeout = s.timeout ∧ s'.atimeout = s.atimeout ∧ s'.amtime = s.amtime := by
  unfold swapEq at h
  rw [h]
  exact ⟨rfl, rfl, rfl⟩

/-- The function `dequeue` writes heap slots and `queuebrk` only. -/
theorem dequeue_registers (s s' : State) (i : Nat) (h : dequeue s i = .ok s') :
    s' = { s with mem := s'.mem, queuebrk := dec16 s.queuebrk } := by
  unfold dequeue at h
  simp only [bind, Except.bind, pure, Except.pure] at h
  split_ifs at h
  all_goals
    split at h
    · cases h
    · simp only [Except.ok.injEq] at h
      subst h
      rfl

/-- The path of `co_del` to the queue: a stored deadline with top byte 1, or
a second outside the window of the cyclic buffer, leads to the search
through the queue at once. -/
theorem co_del_queue (dbg : Bool) (s : State) (oindex handle stored : Nat)
    (h : stored >>> 24 = 1 ∨
      (s.timestamp < u32 (stored + s.timediff) ∧
        ¬ u32 (stored + s.timediff) < u32 (s.timestamp + CYCBUF_SIZE))) :
    co_del dbg s oindex handle stored = queueSearch dbg s.cotabsz s 0 (u16 oindex) handle := by
  unfold co_del
  rcases h with h | ⟨h1, h2⟩
  · simp only [h, ne_eq, not_true_eq_false, if_false]
  · by_cases c : stored >>> 24 = 1
    · simp only [c, ne_eq, not_true_eq_false, if_false]
    · have h3 : ¬ u32 (stored + s.timediff) ≤ s.timestamp := by omega
      simp only [c, ne_eq, not_false_eq_true, if_true, h3, if_false, h2, bind, Except.bind,
        pure, Except.pure, Bool.false_eq_true]

/-- The steps of `co_expire` for an alarm at `(t, m)`: the collection ends in
a state `s2` that satisfies the region invariants, then comes `restart(t)`,
then the swap-rate loop. -/
theorem co_expire_parts {s0 : State} {fl0 : List Nat} {ls0 : CbufRef → List Nat}
    (hw : Wheel s0 fl0 ls0) (hh : HeapInv s0) (hroom : s0.flist = 0 → s0.queuebrk < s0.cycbrk)
    (hwin : (s0.cycbuf (cycIndex s0.timestamp)).list = 0) (t m : Nat)
    (ht : s0.timestamp ≤ t) (ht32 : t < UINT_MOD) :
    ∃ s2 s3 fl2 ls2 N ds, co_expire s0 true t m = .ok (swaprateLoop (t - s3.swaptime) s3 t) ∧
      restart s2 t = .ok s3 ∧ alarmEq s2 s3 ∧ Wheel s2 fl2 ls2 ∧ HeapInv s2 ∧
      s2.timestamp = t ∧ Expiring s0 ls0 t s2 ls2 N ds ∧
      (∀ e ∈ heapEntries s2.mem s2.queuebrk, ¬ (e.time < t ∨ (e.time = t ∧ e.mtime ≤ m))) := by
  have hlist0 : ∀ k, k < CYCBUF_SIZE → s0.listOf (.cyc k) = ls0 (.cyc k) :=
    fun k hk => hw.listOf (.cyc k) hk
  obtain ⟨s1, fl1, ls1, N1, ds1, hl, hw1, hh1, hroom1, hts1, hsz1, hx1⟩ :=
    expireLoop_spec hlist0 t ht32 (t - s0.timestamp) s0 fl0 ls0 [] [] hw hh hroom
      (Expiring.init hw hwin) (by omega)
  obtain ⟨s2, fl2, N2, E2, hd, hw2, hh2, hroom2, hts2, hsz2, hperm2, hsort2, hc2, hnc2, hF2,
      hkeys2, _⟩ := drainUpTo_spec t m hw1 hh1 hroom1
  have hx2 := hx1.drain hperm2 hsort2
    (fun e he => by have := hc2 e he; omega)
    (fun e he e' he' => by
      have h1 := hc2 e he
      have h2 := hnc2 e' he'
      unfold keyLe
      omega)
    hF2 hkeys2
  obtain ⟨s3, hr, ha⟩ := restart_ok s2 t (hw2.restart_ready t)
  refine ⟨s2, s3, fl2, _, _, _, ?_, hr, ha, hw2, hh2, hts2.trans hts1, hx2, hnc2⟩
  unfold co_expire
  simp only [if_true, bind, Except.bind, hl, hd, hr, pure, Except.pure]

/-- In a state that satisfies the region invariant, `nshort = nzero` says
that every bucket of the cyclic buffer is empty. -/
theorem Wheel.buckets_empty_iff {s : State} {fl : List Nat} {ls : CbufRef → List Nat}
    (hw : Wheel s fl ls) :
    s.nshort = s.nzero ↔ ∀ k, k < CYCBUF_SIZE → (s.cycbuf k).list = 0 := by
  have h1 := hw.nshort
  constructor
  · intro h k hk
    have h2 : ∑ k in Finset.range CYCBUF_SIZE, (ls (.cyc k)).length = 0 := by omega
    have h3 := (Finset.sum_eq_zero_iff.1 h2) k (Finset.mem_range.2 hk)
    have h4 : ls (.cyc k) = [] := List.length_eq_zero.1 h3
    exact (hw.chain (.cyc k) hk).head_eq_zero_iff.2 h4
  · intro h
    have h2 : ∑ k in Finset.range CYCBUF_SIZE, (ls (.cyc k)).length = 0 := by
      apply Finset.sum_eq_zero
      intro k hk
      have hk' := Finset.mem_range.1 hk
      have h4 : ls (.cyc k) = [] := (hw.chain (.cyc k) hk').head_eq_zero_iff.1 (h k hk')
      rw [h4]
      rfl
    omega

theorem mem_update_list (ls : CbufRef → List Nat) (r r' : CbufRef) (l : List Nat) (x : Nat) :
    x ∈ Function.update ls r l r' ↔ (r' = r ∧ x ∈ l) ∨ (r' ≠ r ∧ x ∈ ls r') := by
  by_cases h : r' = r
  · subst h
    simp [Function.update_same]
  · simp [Function.update_noteq h, h]

/-- The list fields of the invariant after the element `i` of the list `r`
has been unlinked. -/
theorem Wheel.unlink_lists {s s' : State} {fl : List Nat} {ls : CbufRef → List Nat}
    (hw : Wheel s fl ls) {r : CbufRef} (hr : r.valid) {pre post : List Nat} {i : Nat}
    (hl : ls r = pre ++ i :: post)
    (hT : ∀ x, x ≠ i → x ∉ pre → (s'.cotab x).time = (s.cotab x).time)
    (hM : ∀ x, x ≠ i → x ∉ pre ++ post → (s'.cotab x).mtime = (s.cotab x).mtime)
    (hC : ∀ r', r' ≠ r → s'.getCbuf r' = s.getCbuf r')
    (hch : Chain s' (s'.getCbuf r).list (pre ++ post))
    (hla : ∀ x, (pre ++ post).getLast? = some x → (s'.getCbuf r).last = x)
    (hco : ∀ k, r = .cyc k → pre ++ post ≠ [] →
      (s'.cotab (s'.getCbuf r).list).mtime = (pre ++ post).length) :
    (∀ r', r'.valid → Chain s' (s'.getCbuf r').list (Function.update ls r (pre ++ post) r')) ∧
    (∀ r', r'.valid → ∀ x, (Function.update ls r (pre ++ post) r').getLast? = some x →
      (s'.getCbuf r').last = x) ∧
    (∀ k, k < CYCBUF_SIZE → Function.update ls r (pre ++ post) (.cyc k) ≠ [] →
      (s'.cotab (s'.cycbuf k).list).mtime =
        (Function.update ls r (pre ++ post) (.cyc k)).length) ∧
    (∀ r', r'.valid → ∀ x ∈ Function.update ls r (pre ++ post) r', x ∈ ls r' ∧ x ≠ i) ∧
    (∀ r', r'.valid → (Function.update ls r (pre ++ post) r').Nodup) ∧
    (∀ r' r'', r'.valid → r''.valid → r' ≠ r'' → ∀ x ∈ Function.update ls r (pre ++ post) r',
      x ∉ Function.update ls r (pre ++ post) r'') := by
  have hnd := hw.nodup r hr
  rw [hl] at hnd
  have himem : i ∈ ls r := by rw [hl]; simp
  have hinot : i ∉ pre ++ post := by
    intro h
    rcases List.mem_append.1 h with h | h
    · exact (List.disjoint_of_nodup_append hnd) h (List.mem_cons_self _ _)
    · exact (List.nodup_cons.1 (List.nodup_append.1 hnd).2.1).1 h
  have hsubr : ∀ x ∈ pre ++ post, x ∈ ls r := by
    intro x hx
    rw [hl]
    rcases List.mem_append.1 hx with h | h
    · exact List.mem_append_left _ h
    · exact List.mem_append_right _ (List.mem_cons_of_mem _ h)
  have hsub : ∀ r', r'.valid → ∀ x ∈ Function.update ls r (pre ++ post) r', x ∈ ls r' ∧ x ≠ i := by
    intro r' hr' x hx
    rcases (mem_update_list ls r r' _ x).1 hx with ⟨e, h⟩ | ⟨e, h⟩
    · subst e
      exact ⟨hsubr x h, fun e => hinot (e ▸ h)⟩
    · exact ⟨h, fun e' => hw.disj r' r hr' hr e x h (e' ▸ himem)⟩
  have hother : ∀ r', r'.valid → r' ≠ r → ∀ x ∈ ls r', x ≠ i ∧ x ∉ pre ∧ x ∉ pre ++ post := by
    intro r' hr' e x hx
    have hx' : x ∉ ls r := hw.disj r' r hr' hr e x hx
    exact ⟨fun e' => hx' (e' ▸ himem), fun h => hx' (hsubr x (List.mem_append_left _ h)),
      fun h => hx' (hsubr x h)⟩
  refine ⟨?_, ?_, ?_, hsub, ?_, ?_⟩
  · intro r' hr'
    by_cases e : r' = r
    · subst e
      rw [Function.update_same]
      exact hch
    · rw [Function.update_noteq e, hC r' e]
      exact (hw.chain r' hr').congr (fun x hx =>
        hT x (hother r' hr' e x hx).1 (hother r' hr' e x hx).2.1)
  · intro r' hr' x hx
    by_cases e : r' = r
    · subst e
      rw [Function.update_same] at hx
      exact hla x hx
    · rw [Function.update_noteq e] at hx
      rw [hC r' e]
      exact hw.last r' hr' x hx
  · intro k hk hne
    by_cases e : CbufRef.cyc k = r
    · subst e
      rw [Function.update_same] at hne ⊢
      exact hco k rfl hne
    · rw [Function.update_noteq e] at hne ⊢
      have hc' : s'.cycbuf k = s.cycbuf k := hC (.cyc k) e
      have hm : (s.cycbuf k).list ∈ ls (.cyc k) := hw.head_mem (.cyc k) hk
        (fun h0 => hne ((hw.chain (.cyc k) hk).head_eq_zero_iff.1 h0))
      rw [hc', hM _ (hother (.cyc k) hk e _ hm).1 (hother (.cyc k) hk e _ hm).2.2]
      exact hw.count k hk hne
  · intro r' hr'
    by_cases e : r' = r
    · subst e
      rw [Function.update_same]
      exact List.Nodup.sublist (List.Sublist.append_left (List.sublist_cons_self _ _) _) hnd
    · rw [Function.update_noteq e]
      exact hw.nodup r' hr'
  · intro r' r'' hr' hr'' hne x hx hx'
    exact hw.disj r' r'' hr' hr'' hne x (hsub r' hr' x hx).1 (hsub r'' hr'' x hx').1

/-- The counters after one element has left the list `r`. -/
theorem Wheel.unlink_counts {s : State} {fl : List Nat} {ls : CbufRef → List Nat}
    (hw : Wheel s fl ls) {r : CbufRef} (hr : r.valid) {pre post : List Nat} {i z : Nat}
    (hl : ls r = pre ++ i :: post) (hz0 : ∀ k, r = .cyc k → z = 0)
    (hz1 : (∀ k, r ≠ .cyc k) → z = 1) :
    s.nzero - z = (Function.update ls r (pre ++ post) .immediate).length +
      (Function.update ls r (pre ++ post) .running).length ∧
    s.nshort - 1 = (s.nzero - z) +
      ∑ k in Finset.range CYCBUF_SIZE, (Function.update ls r (pre ++ post) (.cyc k)).length ∧
    1 ≤ s.nshort ∧ z ≤ s.nzero := by
  have hnz := hw.nzero
  have hns := hw.nshort
  have hlen : (ls r).length = (pre ++ post).length + 1 := by
    rw [hl]
    simp only [List.length_append, List.length_cons]
    omega
  cases r with
  | immediate =>
    have e := hz1 (fun k h => by cases h)
    rw [Function.update_same, Function.update_noteq (by intro h; cases h),
      sum_update_other ls .immediate (fun k h => by cases h)]
    omega
  | running =>
    have e := hz1 (fun k h => by cases h)
    rw [Function.update_same, Function.update_noteq (by intro h; cases h),
      sum_update_other ls .running (fun k h => by cases h)]
    omega
  | cyc k =>
    have e := hz0 k rfl
    have hs := sum_update_bucket ls k hr (pre ++ post)
    rw [Function.update_noteq (by intro h; cases h), Function.update_noteq (by intro h; cases h)]
    omega

/-- Facts about an element `i` of the list `r`. -/
theorem Wheel.listed_facts {s : State} {fl : List Nat} {ls : CbufRef → List Nat}
    (hw : Wheel s fl ls) {r : CbufRef} (hr : r.valid) {pre post : List Nat} {i : Nat}
    (hl : ls r = pre ++ i :: post) :
    i ≠ 0 ∧ i ∉ fl ∧ s.cycbrk ≤ i ∧ i < s.cotabsz ∧ i ∉ pre ++ post ∧
    (∀ x ∈ pre ++ post, x ∈ ls r) ∧ (∀ x ∈ fl, x ∉ pre ∧ x ∉ pre ++ post ∧ x ≠ i) := by
  have hnd := hw.nodup r hr
  rw [hl] at hnd
  have himem : i ∈ ls r := by rw [hl]; simp
  have hinot : i ∉ pre ++ post := by
    intro h
    rcases List.mem_append.1 h with h | h
    · exact (List.disjoint_of_nodup_append hnd) h (List.mem_cons_self _ _)
    · exact (List.nodup_cons.1 (List.nodup_append.1 hnd).2.1).1 h
  have hsubr : ∀ x ∈ pre ++ post, x ∈ ls r := by
    intro x hx
    rw [hl]
    rcases List.mem_append.1 hx with h | h
    · exact List.mem_append_left _ h
    · exact List.mem_append_right _ (List.mem_cons_of_mem _ h)
  have hrange := hw.range r hr i himem
  refine ⟨(hw.chain r hr).ne_zero i himem, fun h => hw.free_not_listed h r hr himem,
    hrange.1, hrange.2, hinot, hsubr, ?_⟩
  intro x hx
  have hx' : x ∉ ls r := hw.free_not_listed hx r hr
  exact ⟨fun h => hx' (hsubr x (List.mem_append_left _ h)), fun h => hx' (hsubr x h),
    fun e => hx' (e ▸ himem)⟩

/-- The invariant of the cyclic buffer after `freecallout` has unlinked the
element `i` of the list `r` and has put it on the free list. -/
theorem Wheel.unlink_push {s U : State} {fl : List Nat} {ls : CbufRef → List Nat}
    (hw : Wheel s fl ls) {r : CbufRef} (hr : r.valid) {pre post : List Nat} {i z : Nat}
    (hl : ls r = pre ++ i :: post) (hu : Unlinked s r pre i post z U)
    (hz0 : ∀ k, r = .cyc k → z = 0) (hz1 : (∀ k, r ≠ .cyc k) → z = 1) :
    Wheel (pushFree (U.setHandle i 0) i) (i :: fl) (Function.update ls r (pre ++ post)) := by
  obtain ⟨p2, p4, p5, p6, p7, p8, p9⟩ := hw.listed_facts hr hl
  obtain ⟨n1, n2, n3, n4⟩ := hw.unlink_counts hr hl hz0 hz1
  obtain ⟨g1, g2, g3, g4, g5, g6, g7, g8⟩ := pushFree_fields (U.setHandle i 0) i
  have hvf : (U.setHandle i 0).flist = s.flist := hu.flist
  have k2 : (pushFree (U.setHandle i 0) i).cycbrk = s.cycbrk := g2.trans hu.cycbrk
  have k3 : (pushFree (U.setHandle i 0) i).cotabsz = s.cotabsz := g3.trans hu.cotabsz
  have k4 : (pushFree (U.setHandle i 0) i).nzero = s.nzero - z := g4.trans hu.nzero
  have k5 : (pushFree (U.setHandle i 0) i).nshort = s.nshort - 1 := g5.trans hu.nshort
  have hH : ∀ x, ((pushFree (U.setHandle i 0) i).cotab x).handle =
      if x = i then 0 else (s.cotab x).handle := by
    intro x
    rw [(pushFree_cotab _ i x).1, setHandle_handle, hu.handle]
  have hT : ∀ x, ((pushFree (U.setHandle i 0) i).cotab x).time =
      if x = i then s.flist else (U.cotab x).time := by
    intro x
    rw [(pushFree_cotab _ i x).2.2.1, setHandle_time, hvf]
  have hO : ∀ x, ((pushFree (U.setHandle i 0) i).cotab x).oindex =
      if s.flist ≠ 0 ∧ x = s.flist then i else (s.cotab x).oindex := by
    intro x
    rw [(pushFree_cotab _ i x).2.2.2, setHandle_oindex, hu.oindex, hvf]
  have hM : ∀ x, ((pushFree (U.setHandle i 0) i).cotab x).mtime = (U.cotab x).mtime := by
    intro x
    rw [(pushFree_cotab _ i x).2.1, setHandle_mtime]
  have hC : ∀ r', (pushFree (U.setHandle i 0) i).getCbuf r' = U.getCbuf r' := by
    intro r'
    rw [pushFree_getCbuf, getCbuf_setHandle]
  obtain ⟨c1, c2, c3, c4, c5, c6⟩ := hw.unlink_lists hr hl
    (fun x hx hp => by rw [hT, if_neg hx, hu.time x hp])
    (fun x _ hp => by rw [hM, hu.mtime x hp])
    (fun r' hr' => by rw [hC, hu.other r' hr'])
    (by
      rw [hC]
      exact hu.chain.congr (fun x hx => by
        have hxi : x ≠ i := fun e => p7 (e ▸ hx)
        rw [hT, if_neg hxi]))
    (fun x hx => by rw [hC]; exact hu.last x hx)
    (fun k hk hne => by rw [hC, hM]; exact hu.count k hk hne)
  have hfne : ∀ x ∈ fl, x ≠ i := fun x hx => (p9 x hx).2.2
  have htot := hw.total
  refine
    { cap := by rw [k3]; exact hw.cap
      brk_pos := by rw [k2]; exact hw.brk_pos
      brk_le := by rw [k2, k3]; exact hw.brk_le
      free_chain := ?_
      free_prev := ?_
      free_handle := ?_
      free_range := ?_
      free_nodup := List.nodup_cons.2 ⟨p4, hw.free_nodup⟩
      chain := c1
      last := c2
      count := c3
      handle := fun r' hr' x hx => by
        rw [hH, if_neg (c4 r' hr' x hx).2]; exact hw.handle r' hr' x (c4 r' hr' x hx).1
      range := fun r' hr' x hx => by rw [k2, k3]; exact hw.range r' hr' x (c4 r' hr' x hx).1
      nodup := c5
      disj := c6
      cover := ?_
      nzero := ?_
      nshort := ?_
      total := ?_ }
  · -- free_chain
    rw [g1]
    refine ⟨rfl, p2, ?_⟩
    rw [hT, if_pos rfl]
    exact hw.free_chain.congr (fun x hx => by
      rw [hT, if_neg (hfne x hx), hu.time x (p9 x hx).1])
  · -- free_prev
    have hch := hw.free_chain
    have hpv := hw.free_prev
    have hnd := hw.free_nodup
    cases fl with
    | nil => exact List.chain'_singleton _
    | cons f fl' =>
      rw [List.chain'_cons]
      constructor
      · rw [hO, if_pos ⟨by rw [hch.1]; exact hch.2.1, hch.1.symm⟩]
      · show List.Chain _ f fl'
        have h4 : List.Chain (fun a b => (s.cotab b).oindex = a) f fl' := hpv
        refine (List.Chain.iff_mem.1 h4).imp ?_
        rintro a b ⟨_, hb, hab⟩
        rw [hO, if_neg]
        · exact hab
        · rintro ⟨_, e⟩
          rw [hch.1] at e
          exact (List.nodup_cons.1 hnd).1 (e ▸ hb)
  · -- free_handle
    intro x hx
    rw [hH]
    rcases List.mem_cons.1 hx with e | h
    · rw [if_pos e]
    · rw [if_neg (hfne x h)]
      exact hw.free_handle x h
  · -- free_range
    intro x hx
    rw [k2, k3]
    rcases List.mem_cons.1 hx with e | h
    · rw [e]; exact ⟨p5, p6⟩
    · exact hw.free_range x h
  · -- cover
    intro x h1 h2
    rw [k2] at h1
    rw [k3] at h2
    by_cases e : x = i
    · exact Or.inl (e ▸ List.mem_cons_self _ _)
    rcases hw.cover x h1 h2 with h | ⟨r', hr', h⟩
    · exact Or.inl (List.mem_cons_of_mem _ h)
    · right
      refine ⟨r', hr', (mem_update_list ls r r' _ x).2 ?_⟩
      by_cases er : r' = r
      · subst er
        rw [hl] at h
        refine Or.inl ⟨rfl, ?_⟩
        rcases List.mem_append.1 h with h | h
        · exact List.mem_append_left _ h
        · rcases List.mem_cons.1 h with h | h
          · exact absurd h e
          · exact List.mem_append_right _ h
      · exact Or.inr ⟨er, h⟩
  · rw [k4]
    exact n1
  · rw [k5, k4]
    exact n2
  · rw [k5, k2, k3, List.length_cons]
    omega

/-- The invariant of the cyclic buffer after `freecallout` has unlinked the
element `i` of the list `r`, which is the element at `cycbrk`, and has
moved `cycbrk` past it. -/
theorem Wheel.unlink_edge {s U : State} {fl : List Nat} {ls : CbufRef → List Nat}
    (hw : Wheel s fl ls) {r : CbufRef} (hr : r.valid) {pre post : List Nat} {i z : Nat}
    (hl : ls r = pre ++ i :: post) (hu : Unlinked s r pre i post z U)
    (hz0 : ∀ k, r = .cyc k → z = 0) (hz1 : (∀ k, r ≠ .cyc k) → z = 1)
    (he : i = s.cycbrk) (c : Nat) (hc : c = s.cycbrk + 1) :
    Wheel ({ U.setHandle i 0 with cycbrk := c } : State) fl
      (Function.update ls r (pre ++ post)) := by
  obtain ⟨p2, p4, p5, p6, p7, p8, p9⟩ := hw.listed_facts hr hl
  obtain ⟨n1, n2, n3, n4⟩ := hw.unlink_counts hr hl hz0 hz1
  have k1 : ({ U.setHandle i 0 with cycbrk := c } : State).flist = s.flist := hu.flist
  have k2 : ({ U.setHandle i 0 with cycbrk := c } : State).cycbrk = s.cycbrk + 1 := hc
  have k3 : ({ U.setHandle i 0 with cycbrk := c } : State).cotabsz = s.cotabsz := hu.cotabsz
  have k4 : ({ U.setHandle i 0 with cycbrk := c } : State).nzero = s.nzero - z := hu.nzero
  have k5 : ({ U.setHandle i 0 with cycbrk := c } : State).nshort = s.nshort - 1 := hu.nshort
  have hH : ∀ x, (({ U.setHandle i 0 with cycbrk := c } : State).cotab x).handle =
      if x = i then 0 else (s.cotab x).handle := by
    intro x
    rw [cotab_cycbrk, setHandle_handle, hu.handle]
  have hT : ∀ x, (({ U.setHandle i 0 with cycbrk := c } : State).cotab x).time =
      (U.cotab x).time := by
    intro x
    rw [cotab_cycbrk, setHandle_time]
  have hO : ∀ x, (({ U.setHandle i 0 with cycbrk := c } : State).cotab x).oindex =
      (s.cotab x).oindex := by
    intro x
    rw [cotab_cycbrk, setHandle_oindex, hu.oindex]
  have hM : ∀ x, (({ U.setHandle i 0 with cycbrk := c } : State).cotab x).mtime =
      (U.cotab x).mtime := by
    intro x
    rw [cotab_cycbrk, setHandle_mtime]
  have hC : ∀ r', ({ U.setHandle i 0 with cycbrk := c } : State).getCbuf r' = U.getCbuf r' := by
    intro r'
    rw [getCbuf_cycbrk, getCbuf_setHandle]
  obtain ⟨c1, c2, c3, c4, c5, c6⟩ := hw.unlink_lists hr hl
    (fun x _ hp => by rw [hT, hu.time x hp])
    (fun x _ hp => by rw [hM, hu.mtime x hp])
    (fun r' hr' => by rw [hC, hu.other r' hr'])
    (by
      rw [hC]
      exact hu.chain.congr (fun x _ => hT x))
    (fun x hx => by rw [hC]; exact hu.last x hx)
    (fun k hk hne => by rw [hC, hM]; exact hu.count k hk hne)
  have hfne : ∀ x ∈ fl, x ≠ i := fun x hx => (p9 x hx).2.2
  have htot := hw.total
  refine
    { cap := by rw [k3]; exact hw.cap
      brk_pos := by rw [k2]; omega
      brk_le := by rw [k2, k3]; omega
      free_chain := by
        rw [k1]
        exact hw.free_chain.congr (fun x hx => by rw [hT, hu.time x (p9 x hx).1])
      free_prev := ?_
      free_handle := fun x hx => by rw [hH, if_neg (hfne x hx)]; exact hw.free_handle x hx
      free_range := ?_
      free_nodup := hw.free_nodup
      chain := c1
      last := c2
      count := c3
      handle := fun r' hr' x hx => by
        rw [hH, if_neg (c4 r' hr' x hx).2]; exact hw.handle r' hr' x (c4 r' hr' x hx).1
      range := ?_
      nodup := c5
      disj := c6
      cover := ?_
      nzero := ?_
      nshort := ?_
      total := ?_ }
  · refine (List.Chain'.iff_mem.1 hw.free_prev).imp ?_
    rintro a b ⟨_, _, hab⟩
    rw [hO]
    exact hab
  · intro x hx
    have := hw.free_range x hx
    have := hfne x hx
    rw [k2, k3]
    omega
  · intro r' hr' x hx
    have := hw.range r' hr' x (c4 r' hr' x hx).1
    have := (c4 r' hr' x hx).2
    rw [k2, k3]
    omega
  · -- cover
    intro x h1 h2
    rw [k2] at h1
    rw [k3] at h2
    have e : x ≠ i := by omega
    rcases hw.cover x (by omega) h2 with h | ⟨r', hr', h⟩
    · exact Or.inl h
    · right
      refine ⟨r', hr', (mem_update_list ls r r' _ x).2 ?_⟩
      by_cases er : r' = r
      · subst er
        rw [hl] at h
        refine Or.inl ⟨rfl, ?_⟩
        rcases List.mem_append.1 h with h | h
        · exact List.mem_append_left _ h
        · rcases List.mem_cons.1 h with h | h
          · exact absurd h e
          · exact List.mem_append_right _ h
      · exact Or.inr ⟨er, h⟩
  · rw [k4]
    exact n1
  · rw [k5, k4]
    exact n2
  · rw [k5, k2, k3]
    omega

/-- The last statements of `freecallout`, after the element `i` of the list
`r` has been unlinked: they return, the invariant of the cyclic buffer
holds with the list `r` without `i`, the elements that remain listed keep
object index and handle, and nothing below the region is written. -/
theorem releaseSlot_unlinked {s U : State} {fl : List Nat} {ls : CbufRef → List Nat}
    (hw : Wheel s fl ls) {r : CbufRef} (hr : r.valid) {pre post : List Nat} {i z : Nat}
    (hl : ls r = pre ++ i :: post) (hu : Unlinked s r pre i post z U)
    (hz0 : ∀ k, r = .cyc k → z = 0) (hz1 : (∀ k, r ≠ .cyc k) → z = 1) :
    ∃ s' fl', releaseSlot U i = .ok s' ∧
      Wheel s' fl' (Function.update ls r (pre ++ post)) ∧
      (∀ r', r'.valid → ∀ x ∈ Function.update ls r (pre ++ post) r', s'.key x = s.key x) ∧
      s'.cotabsz = s.cotabsz ∧ s'.queuebrk = s.queuebrk ∧ s'.timestamp = s.timestamp ∧
      s.cycbrk ≤ s'.cycbrk ∧
      (∀ x, x < s.cycbrk → s'.cotab x = s.cotab x) ∧ s'.mem 0 = s.mem 0 ∧
      (∀ r', s'.getCbuf r' = U.getCbuf r') := by
  obtain ⟨p2, p4, p5, p6, p7, p8, p9⟩ := hw.listed_facts hr hl
  have hcap := hw.cap
  have hble := hw.brk_le
  have hlisted : ∀ r', r'.valid → ∀ x ∈ Function.update ls r (pre ++ post) r',
      x ∈ ls r' ∧ x ≠ i := by
    intro r' hr' x hx
    rcases (mem_update_list ls r r' _ x).1 hx with ⟨e, h⟩ | ⟨e, h⟩
    · subst e
      exact ⟨p8 x h, fun e => p7 (e ▸ h)⟩
    · refine ⟨h, fun e' => hw.disj r' r hr' hr e x h ?_⟩
      rw [hl, e']
      simp
  -- an element below the region is not `i`, not free and not listed
  have hlow : ∀ x, x < s.cycbrk → x ≠ i ∧ x ∉ fl ∧ (s.flist ≠ 0 → x ≠ s.flist) ∧
      x ∉ pre ∧ x ∉ pre ++ post := by
    intro x hx
    have hnl : x ∉ pre ++ post := fun h => by
      have := (hw.range r hr x (p8 x h)).1
      omega
    refine ⟨by omega, fun h => ?_, fun h0 e => ?_, fun h => hnl (List.mem_append_left _ h), hnl⟩
    · have := (hw.free_range x h).1
      omega
    · have hm : s.flist ∈ fl := by
        have hne : fl ≠ [] := fun e' => h0 (hw.free_chain.head_eq_zero_iff.2 e')
        exact List.mem_of_mem_head? (hw.free_chain.head?_eq hne)
      have := (hw.free_range _ hm).1
      omega
  rw [releaseSlot_eq]
  by_cases he : i = U.cycbrk
  · rw [if_pos he]
    have he' : i = s.cycbrk := he.trans hu.cycbrk
    have hc : u16 (U.cycbrk + 1) = s.cycbrk + 1 := by
      rw [hu.cycbrk]; exact u16_of_lt (by omega)
    have hw1 := hw.unlink_edge hr hl hu hz0 hz1 he' _ hc
    obtain ⟨s', fl', ha, hw', hc', hsub', hg', hz', hq', ht', hm', hle', _⟩ :=
      absorbFree_spec UINDEX_MOD _ fl hw1 (by
        show U.cotabsz - u16 (U.cycbrk + 1) < _
        rw [hu.cotabsz, hc]; omega)
    refine ⟨s', fl', ha, hw', ?_, hz'.trans hu.cotabsz, hq'.trans hu.queuebrk,
      ht'.trans hu.timestamp, ?_, ?_, hm'.trans hu.sentinel, ?_⟩
    · intro r' hr' x hx
      obtain ⟨h1, h2⟩ := hlisted r' hr' x hx
      have hxf : x ∉ fl := fun h => hw.free_not_listed h r' hr' h1
      unfold State.key
      rw [hc' x hxf, cotab_cycbrk, setHandle_handle, if_neg h2, setHandle_oindex,
        hu.handle, hu.oindex]
    · have : ({ U.setHandle i 0 with cycbrk := u16 (U.cycbrk + 1) } : State).cycbrk ≤
          s'.cycbrk := hle'
      have h2 : ({ U.setHandle i 0 with cycbrk := u16 (U.cycbrk + 1) } : State).cycbrk =
          s.cycbrk + 1 := hc
      omega
    · intro x hx
      obtain ⟨h1, h2, _, h4, h5⟩ := hlow x hx
      rw [hc' x h2, cotab_cycbrk]
      apply call_out_ext
      · rw [setHandle_handle, if_neg h1, hu.handle]
      · rw [setHandle_oindex, hu.oindex]
      · rw [setHandle_time, hu.time x h4]
      · rw [setHandle_mtime, hu.mtime x h5]
    · intro r'
      rw [hg' r', getCbuf_cycbrk, getCbuf_setHandle]
  · rw [if_neg he]
    have hw1 := hw.unlink_push hr hl hu hz0 hz1
    obtain ⟨g1, g2, g3, g4, g5, g6, g7, g8⟩ := pushFree_fields (U.setHandle i 0) i
    have hvf : (U.setHandle i 0).flist = s.flist := hu.flist
    refine ⟨_, _, rfl, hw1, ?_, g3.trans hu.cotabsz, g6.trans hu.queuebrk,
      g7.trans hu.timestamp, ?_, ?_, g8.trans hu.sentinel, ?_⟩
    · intro r' hr' x hx
      obtain ⟨h1, h2⟩ := hlisted r' hr' x hx
      have hxf : x ∉ fl := fun h => hw.free_not_listed h r' hr' h1
      unfold State.key
      rw [(pushFree_cotab _ i x).1, (pushFree_cotab _ i x).2.2.2, setHandle_handle, if_neg h2,
        setHandle_oindex, hu.handle, hu.oindex, hvf, if_neg]
      rintro ⟨h0, e⟩
      apply hxf
      rw [e]
      have hne : fl ≠ [] := fun e' => h0 (hw.free_chain.head_eq_zero_iff.2 e')
      exact List.mem_of_mem_head? (hw.free_chain.head?_eq hne)
    · rw [g2]
      exact le_of_eq hu.cycbrk.symm
    · intro x hx
      obtain ⟨h1, h2, h3, h4, h5⟩ := hlow x hx
      apply call_out_ext
      · rw [(pushFree_cotab _ i x).1, setHandle_handle, if_neg h1, hu.handle]
      · rw [(pushFree_cotab _ i x).2.2.2, setHandle_oindex, hu.oindex, hvf, if_neg]
        rintro ⟨h0, e⟩
        exact h3 h0 e
      · rw [(pushFree_cotab _ i x).2.2.1, if_neg h1, setHandle_time, hu.time x h4]
      · rw [(pushFree_cotab _ i x).2.1, setHandle_mtime, hu.mtime x h5]
    · intro r'
      rw [pushFree_getCbuf, getCbuf_setHandle]

theorem freecallout_eq (s : State) (cyc : CbufRef) (j i t : Nat) :
    freecallout s cyc j i t =
      (unlinkAt (countDown s t) cyc j i t).bind (fun U => releaseSlot U i) := by
  rfl

/-- The relation `Unlinked` does not depend on the alarm registers. -/
theorem Unlinked.of_alarm {s U U' : State} {r : CbufRef} {pre post : List Nat} {i z : Nat}
    (hu : Unlinked s r pre i post z U) (ha : alarmEq U U') : Unlinked s r pre i post z U' := by
  obtain ⟨a1, a2, a3, a4, a5, a6, a7, a8, a9⟩ := ha.fields
  have hc : ∀ x, U'.cotab x = U.cotab x := ha.cotab
  have hg : ∀ r', U'.getCbuf r' = U.getCbuf r' := ha.getCbuf
  exact
    { flist := a1.trans hu.flist
      cycbrk := a2.trans hu.cycbrk
      cotabsz := a3.trans hu.cotabsz
      nshort := a5.trans hu.nshort
      nzero := a4.trans hu.nzero
      queuebrk := a6.trans hu.queuebrk
      timestamp := a7.trans hu.timestamp
      sentinel := by rw [ha.mem]; exact hu.sentinel
      handle := fun x => by rw [hc]; exact hu.handle x
      oindex := fun x => by rw [hc]; exact hu.oindex x
      time := fun x hx => by rw [hc]; exact hu.time x hx
      mtime := fun x hx => by rw [hc]; exact hu.mtime x hx
      other := fun r' hr' => by rw [hg]; exact hu.other r' hr'
      chain := by
        rw [hg]
        exact hu.chain.congr (fun x _ => by rw [hc])
      last := fun x hx => by rw [hg]; exact hu.last x hx
      count := fun k hk hne => by rw [hg, hc]; exact hu.count k hk hne }

theorem countDown_eq (s : State) (t : Nat) :
    countDown s t =
      { s with nshort := dec16 s.nshort, nzero := if t = 0 then dec16 s.nzero else s.nzero } := by
  unfold countDown
  by_cases h : t = 0
  · rw [if_pos h, if_pos h]
  · rw [if_neg h, if_neg h]

theorem countDown_fields (s : State) (t : Nat) :
    (countDown s t).flist = s.flist ∧ (countDown s t).cycbrk = s.cycbrk ∧
    (countDown s t).cotabsz = s.cotabsz ∧ (countDown s t).nshort = dec16 s.nshort ∧
    (countDown s t).nzero = (if t = 0 then dec16 s.nzero else s.nzero) ∧
    (countDown s t).queuebrk = s.queuebrk ∧ (countDown s t).timestamp = s.timestamp ∧
    (countDown s t).mem = s.mem ∧ (countDown s t).timeout = s.timeout ∧
    (∀ r, (countDown s t).getCbuf r = s.getCbuf r) := by
  rw [countDown_eq]
  generalize dec16 s.nshort = a
  generalize (if t = 0 then dec16 s.nzero else s.nzero) = b
  exact ⟨rfl, rfl, rfl, rfl, rfl, rfl, rfl, rfl, rfl, fun r => getCbuf_counts s a b r⟩

/-- The relation `Unlinked` for the first element of a list, from the fields
of the state after the list operations. -/
theorem Unlinked.of_head {s U : State} {fl : List Nat} {ls : CbufRef → List Nat}
    (hw : Wheel s fl ls) {r : CbufRef} (hr : r.valid) {i z : Nat} {post : List Nat}
    (hl : ls r = i :: post)
    (hf : U.flist = s.flist ∧ U.cycbrk = s.cycbrk ∧ U.cotabsz = s.cotabsz ∧
      U.nshort = s.nshort - 1 ∧ U.nzero = s.nzero - z ∧ U.queuebrk = s.queuebrk ∧
      U.timestamp = s.timestamp ∧ U.mem 0 = s.mem 0)
    (hH : ∀ x, (U.cotab x).handle = (s.cotab x).handle ∧
      (U.cotab x).oindex = (s.cotab x).oindex ∧ (U.cotab x).time = (s.cotab x).time)
    (hM : ∀ x, x ∉ post → (U.cotab x).mtime = (s.cotab x).mtime)
    (hG : ∀ r', U.getCbuf r' =
      if r' = r then ⟨(s.cotab i).time, (s.getCbuf r).last⟩ else s.getCbuf r')
    (hcnt : ∀ k, r = .cyc k → post ≠ [] → (U.cotab (s.cotab i).time).mtime = post.length) :
    Unlinked s r [] i post z U := by
  obtain ⟨f1, f2, f3, f4, f5, f6, f7, f8⟩ := hf
  have hch := hw.chain r hr
  rw [hl] at hch
  have hgr : U.getCbuf r = ⟨(s.cotab i).time, (s.getCbuf r).last⟩ := by
    rw [hG, if_pos rfl]
  exact
    { flist := f1
      cycbrk := f2
      cotabsz := f3
      nshort := f4
      nzero := f5
      queuebrk := f6
      timestamp := f7
      sentinel := f8
      handle := fun x => (hH x).1
      oindex := fun x => (hH x).2.1
      time := fun x _ => (hH x).2.2
      mtime := fun x hx => hM x (by simpa using hx)
      other := fun r' hr' => by rw [hG, if_neg hr']
      chain := by
        rw [hgr, List.nil_append]
        exact hch.2.2.congr (fun x _ => (hH x).2.2)
      last := fun x hx => by
        rw [hgr]
        rw [List.nil_append] at hx
        apply hw.last r hr x
        rw [hl]
        cases post with
        | nil => cases hx
        | cons y ys => rw [List.getLast?_cons_cons]; exact hx
      count := fun k hk hne => by
        rw [hgr, List.nil_append]
        rw [List.nil_append] at hne
        exact hcnt k hk hne }

theorem fields_counts (s : State) (a b : Nat) :
    ({ s with nshort := a, nzero := b } : State).flist = s.flist ∧
    ({ s with nshort := a, nzero := b } : State).cycbrk = s.cycbrk ∧
    ({ s with nshort := a, nzero := b } : State).cotabsz = s.cotabsz ∧
    ({ s with nshort := a, nzero := b } : State).nshort = a ∧
    ({ s with nshort := a, nzero := b } : State).nzero = b ∧
    ({ s with nshort := a, nzero := b } : State).queuebrk = s.queuebrk ∧
    ({ s with nshort := a, nzero := b } : State).timestamp = s.timestamp ∧
    ({ s with nshort := a, nzero := b } : State).mem 0 = s.mem 0 ∧
    ({ s with nshort := a, nzero := b } : State).timeout = s.timeout :=
  ⟨rfl, rfl, rfl, rfl, rfl, rfl, rfl, rfl, rfl⟩

theorem fields_setList (s : State) (r : CbufRef) (v : Nat) :
    (s.setList r v).flist = s.flist ∧ (s.setList r v).cycbrk = s.cycbrk ∧
    (s.setList r v).cotabsz = s.cotabsz ∧ (s.setList r v).nshort = s.nshort ∧
    (s.setList r v).nzero = s.nzero ∧ (s.setList r v).queuebrk = s.queuebrk ∧
    (s.setList r v).timestamp = s.timestamp ∧ (s.setList r v).mem 0 = s.mem 0 ∧
    (s.setList r v).timeout = s.timeout := by
  cases r <;> exact ⟨rfl, rfl, rfl, rfl, rfl, rfl, rfl, rfl, rfl⟩

theorem fields_setLast (s : State) (r : CbufRef) (v : Nat) :
    (s.setLast r v).flist = s.flist ∧ (s.setLast r v).cycbrk = s.cycbrk ∧
    (s.setLast r v).cotabsz = s.cotabsz ∧ (s.setLast r v).nshort = s.nshort ∧
    (s.setLast r v).nzero = s.nzero ∧ (s.setLast r v).queuebrk = s.queuebrk ∧
    (s.setLast r v).timestamp = s.timestamp ∧ (s.setLast r v).mem 0 = s.mem 0 ∧
    (s.setLast r v).timeout = s.timeout := by
  cases r <;> exact ⟨rfl, rfl, rfl, rfl, rfl, rfl, rfl, rfl, rfl⟩

theorem fields_setCotab (s : State) (i : Nat) (v : call_out) :
    (s.setCotab i v).flist = s.flist ∧ (s.setCotab i v).cycbrk = s.cycbrk ∧
    (s.setCotab i v).cotabsz = s.cotabsz ∧ (s.setCotab i v).nshort = s.nshort ∧
    (s.setCotab i v).nzero = s.nzero ∧ (s.setCotab i v).queuebrk = s.queuebrk ∧
    (s.setCotab i v).timestamp = s.timestamp ∧ (s.setCotab i v).mem 0 = s.mem 0 ∧
    (s.setCotab i v).timeout = s.timeout :=
  ⟨rfl, rfl, rfl, rfl, rfl, rfl, rfl, rfl, rfl⟩

/-- The list operations of `freecallout` for the first element `i` of the
list `r`, in a state `B` that differs from `s` in the counters: they return
a state in which `i` is unlinked. -/
theorem unlinkAt_head {s B : State} {fl : List Nat} {ls : CbufRef → List Nat}
    (hw : Wheel s fl ls) {r : CbufRef} (hr : r.valid) {i z : Nat} {post : List Nat}
    (hl : ls r = i :: post) (t : Nat)
    (hB : B.flist = s.flist ∧ B.cycbrk = s.cycbrk ∧ B.cotabsz = s.cotabsz ∧
      B.nshort = s.nshort - 1 ∧ B.nzero = s.nzero - z ∧ B.queuebrk = s.queuebrk ∧
      B.timestamp = s.timestamp ∧ B.mem = s.mem ∧ (∀ r', B.getCbuf r' = s.getCbuf r'))
    (hz0 : ∀ k, r = .cyc k → z = 0) (hz1 : (∀ k, r ≠ .cyc k) → z = 1) :
    ∃ U, unlinkAt B r i i t = .ok U ∧ Unlinked s r [] i post z U := by
  obtain ⟨b1, b2, b3, b4, b5, b6, b7, b8, b9⟩ := hB
  have hl' : ls r = [] ++ i :: post := hl
  obtain ⟨p2, p4, p5, p6, p7, p8, p9⟩ := hw.listed_facts hr hl'
  obtain ⟨n1, n2, n3, n4⟩ := hw.unlink_counts hr hl' hz0 hz1
  have hBc : ∀ x, B.cotab x = s.cotab x := fun x => by unfold State.cotab; rw [b8]
  have hch := hw.chain r hr
  rw [hl] at hch
  have hcap := hw.cap
  have hlt : (s.cotab i).time < UINDEX_MOD :=
    hch.next_lt (fun y hy => hw.lt_mod (hw.range r hr y (by
      rw [hl]; exact List.mem_cons_of_mem _ hy)).2)
  have hu16 : u16 (B.cotab i).time = (s.cotab i).time := by
    rw [hBc]; exact u16_of_lt hlt
  have hG0 : ∀ r', (B.setList r (s.cotab i).time).getCbuf r' =
      if r' = r then ⟨(s.cotab i).time, (s.getCbuf r).last⟩ else s.getCbuf r' := by
    intro r'
    rw [getCbuf_setList, b9 r, b9 r']
  obtain ⟨l1, l2, l3, l4, l5, l6, l7, l8, l9⟩ := fields_setList B r (s.cotab i).time
  have hf0 : (B.setList r (s.cotab i).time).flist = s.flist ∧
      (B.setList r (s.cotab i).time).cycbrk = s.cycbrk ∧
      (B.setList r (s.cotab i).time).cotabsz = s.cotabsz ∧
      (B.setList r (s.cotab i).time).nshort = s.nshort - 1 ∧
      (B.setList r (s.cotab i).time).nzero = s.nzero - z ∧
      (B.setList r (s.cotab i).time).queuebrk = s.queuebrk ∧
      (B.setList r (s.cotab i).time).timestamp = s.timestamp ∧
      (B.setList r (s.cotab i).time).mem 0 = s.mem 0 :=
    ⟨l1.trans b1, l2.trans b2, l3.trans b3, l4.trans b4, l5.trans b5, l6.trans b6, l7.trans b7,
      l8.trans (by rw [b8])⟩
  unfold unlinkAt
  rw [if_pos rfl]
  simp only [getCbuf_setList_same, hu16, pure, Except.pure]
  by_cases hnx : (s.cotab i).time = 0
  · -- the list is empty afterwards
    rw [if_neg (not_not.2 hnx)]
    have hpost : post = [] := hch.2.2.head_eq_zero_iff.1 hnx
    have hU0 : Unlinked s r [] i post z (B.setList r (s.cotab i).time) :=
      Unlinked.of_head hw hr hl hf0
        (fun x => by rw [cotab_setList, hBc]; exact ⟨rfl, rfl, rfl⟩)
        (fun x _ => by rw [cotab_setList, hBc])
        hG0 (fun k _ hne => absurd hpost hne)
    by_cases hre : t ≠ 0 ∧ t = B.timeout
    · rw [if_pos hre]
      have hready : t = 0 ∨ (B.setList r (s.cotab i).time).nshort =
          (B.setList r (s.cotab i).time).nzero ∨
          ∃ k, k < CYCBUF_SIZE ∧ ((B.setList r (s.cotab i).time).cycbuf k).list ≠ 0 := by
        by_cases he : (B.setList r (s.cotab i).time).nshort =
            (B.setList r (s.cotab i).time).nzero
        · exact Or.inr (Or.inl he)
        · right; right
          rw [hf0.2.2.2.1, hf0.2.2.2.2.1] at he
          have h2 : ∑ k in Finset.range CYCBUF_SIZE,
              (Function.update ls r ([] ++ post) (.cyc k)).length ≠ 0 := by omega
          obtain ⟨k, hk, hne⟩ := Finset.exists_ne_zero_of_sum_ne_zero h2
          have hk' := Finset.mem_range.1 hk
          have hkr : CbufRef.cyc k ≠ r := by
            intro e
            apply hne
            rw [← e, Function.update_same, hpost]
            rfl
          rw [Function.update_noteq hkr] at hne
          refine ⟨k, hk', ?_⟩
          have e1 : (B.setList r (s.cotab i).time).cycbuf k = s.cycbuf k := by
            have := hG0 (.cyc k)
            rw [if_neg hkr] at this
            exact this
          rw [e1]
          intro h0
          apply hne
          rw [(hw.chain (.cyc k) hk').head_eq_zero_iff.1 h0]
          rfl
      obtain ⟨U, hU, ha⟩ := restart_ok _ t hready
      exact ⟨U, hU, hU0.of_alarm ha⟩
    · rw [if_neg hre]
      exact ⟨_, rfl, hU0⟩
  · rw [if_pos hnx]
    refine ⟨_, rfl, ?_⟩
    have hmem : (s.cotab i).time ∈ post := by
      have h3 := hch.2.2
      cases post with
      | nil => exact absurd h3 hnx
      | cons y ys => rw [h3.1]; exact List.mem_cons_self _ _
    refine Unlinked.of_head hw hr hl hf0 ?_ ?_ ?_ ?_
    · intro x
      rw [setCount_handle, setCount_oindex, setCount_time, cotab_setList, hBc]
      exact ⟨rfl, rfl, rfl⟩
    · intro x hx
      have hxn : x ≠ (s.cotab i).time := fun e => hx (by rw [e]; exact hmem)
      rw [setCount_mtime, if_neg hxn, cotab_setList, hBc]
    · intro r'
      rw [getCbuf_setCount]
      exact hG0 r'
    · intro k hk hne
      subst hk
      rw [setCount_mtime, if_pos rfl, hBc]
      have hcnt := hw.count k hr (by rw [hl]; exact List.cons_ne_nil _ _)
      have hhead : (s.cycbuf k).list = i := hch.1
      rw [hhead, hl, List.length_cons] at hcnt
      rw [hcnt]
      have hle := hw.length_le (.cyc k) hr
      rw [hl, List.length_cons] at hle
      rw [dec16_of_pos (by omega) (by unfold UINDEX_MOD at *; omega)]
      omega

/-- The list operations of `freecallout` for an element `i` of the list `r`
that has the element `j` before it, in a state `B` that differs from `s` in
the counters: they return a state in which `i` is unlinked. -/
theorem unlinkAt_mid {s B : State} {fl : List Nat} {ls : CbufRef → List Nat}
    (hw : Wheel s fl ls) {r : CbufRef} (hr : r.valid) {i j z : Nat} {pre post : List Nat}
    (hl : ls r = (pre ++ [j]) ++ i :: post) (t : Nat)
    (hB : B.flist = s.flist ∧ B.cycbrk = s.cycbrk ∧ B.cotabsz = s.cotabsz ∧
      B.nshort = s.nshort - 1 ∧ B.nzero = s.nzero - z ∧ B.queuebrk = s.queuebrk ∧
      B.timestamp = s.timestamp ∧ B.mem = s.mem ∧ (∀ r', B.getCbuf r' = s.getCbuf r')) :
    ∃ U, unlinkAt B r j i t = .ok U ∧ Unlinked s r (pre ++ [j]) i post z U := by
  obtain ⟨b1, b2, b3, b4, b5, b6, b7, b8, b9⟩ := hB
  obtain ⟨p2, p4, p5, p6, p7, p8, p9⟩ := hw.listed_facts hr hl
  have hBc : ∀ x, B.cotab x = s.cotab x := fun x => by unfold State.cotab; rw [b8]
  have hnd := hw.nodup r hr
  rw [hl] at hnd
  have hch := hw.chain r hr
  rw [hl] at hch
  have hcap := hw.cap
  have hjpre : j ∈ pre ++ [j] := by simp
  have hij : i ≠ j := fun e => p7 (List.mem_append_left _ (e ▸ hjpre))
  -- the head of the list
  have hhead : (s.getCbuf r).list ∈ pre ++ [j] := by
    cases pre with
    | nil =>
      have := hch.1
      rw [this]
      simp
    | cons y ys =>
      have := hch.1
      rw [this]
      simp
  -- the element `i` is the last one exactly when nothing follows it
  have hlast : i = (s.getCbuf r).last ↔ post = [] := by
    constructor
    · intro e
      by_contra hne
      obtain ⟨y, hy⟩ : ∃ y, post.getLast? = some y := by
        cases h : post.getLast? with
        | none => exact absurd (List.getLast?_eq_none_iff.1 h) hne
        | some y => exact ⟨y, rfl⟩
      have h1 : (ls r).getLast? = some y := by
        rw [hl, List.getLast?_append_of_ne_nil _ (List.cons_ne_nil _ _)]
        cases post with
        | nil => exact absurd rfl hne
        | cons q qs => rw [List.getLast?_cons_cons]; exact hy
      have h2 := hw.last r hr y h1
      have h3 : y ∈ post := List.mem_of_getLast?_eq_some hy
      exact p7 (List.mem_append_right _ (by rw [e, h2]; exact h3))
    · intro e
      have h1 : (ls r).getLast? = some i := by
        rw [hl, e]
        simp
      exact (hw.last r hr i h1).symm
  have hnext : post = [] → (s.cotab i).time = 0 := by
    intro e
    rw [e] at hch
    have h1 : Chain s (s.getCbuf r).list ((pre ++ [j]) ++ [i]) := hch
    exact h1.next_last
  -- the state after the link operations
  have key : ∃ S1, (if i = (B.getCbuf r).last then (B.setLast r j).setNext j 0
        else B.setNext j (B.cotab i).time) = S1 ∧
      (S1.flist = s.flist ∧ S1.cycbrk = s.cycbrk ∧ S1.cotabsz = s.cotabsz ∧
        S1.nshort = s.nshort - 1 ∧ S1.nzero = s.nzero - z ∧ S1.queuebrk = s.queuebrk ∧
        S1.timestamp = s.timestamp ∧ S1.mem 0 = s.mem 0) ∧
      (∀ x, (S1.cotab x).handle = (s.cotab x).handle ∧
        (S1.cotab x).oindex = (s.cotab x).oindex ∧ (S1.cotab x).mtime = (s.cotab x).mtime ∧
        (S1.cotab x).time = if x = j then (s.cotab i).time else (s.cotab x).time) ∧
      (∀ r', r' ≠ r → S1.getCbuf r' = s.getCbuf r') ∧
      (S1.getCbuf r).list = (s.getCbuf r).list ∧
      (S1.getCbuf r).last = if post = [] then j else (s.getCbuf r).last := by
    by_cases c : i = (B.getCbuf r).last
    · rw [if_pos c]
      have hp : post = [] := hlast.1 (by rw [← b9 r]; exact c)
      obtain ⟨l1, l2, l3, l4, l5, l6, l7, l8, l9⟩ := fields_setLast B r j
      refine ⟨_, rfl, ⟨l1.trans b1, l2.trans b2, l3.trans b3, l4.trans b4, l5.trans b5,
        l6.trans b6, l7.trans b7, ?_⟩, ?_, ?_, ?_, ?_⟩
      · show (B.setLast r j).mem 0 = s.mem 0
        rw [l8, b8]
      · intro x
        rw [setNext_handle, setNext_oindex, setNext_mtime, setNext_time, cotab_setLast, hBc,
          hnext hp]
        exact ⟨rfl, rfl, rfl, rfl⟩
      · intro r' hr'
        rw [getCbuf_setNext, getCbuf_setLast, if_neg hr', b9]
      · rw [getCbuf_setNext, getCbuf_setLast, if_pos rfl, b9]
      · rw [getCbuf_setNext, getCbuf_setLast, if_pos rfl, if_pos hp]
    · rw [if_neg c]
      have hp : post ≠ [] := fun e => c (by rw [b9 r]; exact hlast.2 e)
      refine ⟨_, rfl, ⟨b1, b2, b3, b4, b5, b6, b7, ?_⟩, ?_, ?_, ?_, ?_⟩
      · show B.mem 0 = s.mem 0
        rw [b8]
      · intro x
        rw [setNext_handle, setNext_oindex, setNext_mtime, setNext_time, hBc, hBc]
        exact ⟨rfl, rfl, rfl, rfl⟩
      · intro r' _
        rw [getCbuf_setNext, b9]
      · rw [getCbuf_setNext, b9]
      · rw [getCbuf_setNext, b9, if_neg hp]
  obtain ⟨S1, hS1, ⟨f1, f2, f3, f4, f5, f6, f7, f8⟩, hc1, ho1, hli1, hla1⟩ := key
  unfold unlinkAt
  rw [if_neg hij]
  simp only [hS1, pure, Except.pure]
  refine ⟨_, rfl, ?_⟩
  have hnj : ∀ y ∈ pre ++ post, y ≠ j := by
    intro y hy e
    subst e
    rcases List.mem_append.1 hy with h | h
    · have h1 : (pre ++ [y]).Nodup := (List.nodup_append.1 hnd).1
      exact (List.disjoint_of_nodup_append h1) h (List.mem_singleton_self _)
    · exact (List.disjoint_of_nodup_append hnd) hjpre (List.mem_cons_of_mem _ h)
  exact
    { flist := f1
      cycbrk := f2
      cotabsz := f3
      nshort := f4
      nzero := f5
      queuebrk := f6
      timestamp := f7
      sentinel := f8
      handle := fun x => by rw [setCount_handle]; exact (hc1 x).1
      oindex := fun x => by rw [setCount_oindex]; exact (hc1 x).2.1
      time := fun x hx => by
        have hxj : x ≠ j := fun e => hx (e ▸ hjpre)
        rw [setCount_time, (hc1 x).2.2.2, if_neg hxj]
      mtime := fun x hx => by
        have hxh : x ≠ (S1.getCbuf r).list := by
          intro e
          apply hx
          rw [e, hli1]
          exact List.mem_append_left _ hhead
        rw [setCount_mtime, if_neg hxh]
        exact (hc1 x).2.2.1
      other := fun r' hr' => by rw [getCbuf_setCount]; exact ho1 r' hr'
      chain := by
        rw [getCbuf_setCount, hli1]
        have h1 : Chain s (s.getCbuf r).list (pre ++ j :: i :: post) := by
          rw [List.append_assoc] at hch
          exact hch
        rw [List.append_assoc]
        show Chain _ _ (pre ++ j :: post)
        exact Chain.remove (by
            rw [setCount_time, (hc1 j).2.2.2, if_pos rfl]) h1
          (fun y hy => by rw [setCount_time, (hc1 y).2.2.2, if_neg (hnj y hy)])
      last := fun x hx => by
        rw [getCbuf_setCount, hla1]
        by_cases hp : post = []
        · rw [if_pos hp]
          rw [hp, List.append_nil] at hx
          simp at hx
          exact hx
        · rw [if_neg hp]
          apply hw.last r hr x
          rw [hl, List.getLast?_append_of_ne_nil _ (List.cons_ne_nil _ _)]
          rw [List.getLast?_append_of_ne_nil _ hp] at hx
          cases post with
          | nil => exact absurd rfl hp
          | cons q qs => rw [List.getLast?_cons_cons]; exact hx
      count := fun k hk hne => by
        subst hk
        rw [getCbuf_setCount, setCount_mtime, if_pos rfl, (hc1 _).2.2.1, hli1]
        have hcnt := hw.count k hr (by rw [hl]; simp)
        have hle := hw.length_le (.cyc k) hr
        rw [hl] at hcnt hle
        simp only [List.length_append, List.length_cons, List.length_nil] at hcnt hle ⊢
        have e : (s.cotab (s.getCbuf (.cyc k)).list).mtime = (s.cotab (s.cycbuf k).list).mtime :=
          rfl
        rw [e, hcnt, dec16_of_pos (by omega) (by unfold UINDEX_MOD at *; omega)]
        omega }

/-- The function `freecallout` for an element `i` of a list `r` of the cyclic
buffer, called as `rmshort` and `co_call` call it: `j` is the element before
`i` on the list (`i` itself for the first element), and `t` is 0 exactly for
the immediate and the running list. It returns, `i` leaves the list `r`,
the invariant of the cyclic buffer holds, the elements that remain listed
keep object index and handle, and nothing below the region is written. -/
theorem freecallout_spec {s : State} {fl : List Nat} {ls : CbufRef → List Nat}
    (hw : Wheel s fl ls) {r : CbufRef} (hr : r.valid) {pre post : List Nat} {i j : Nat}
    (hl : ls r = pre ++ i :: post) (hj : j = pre.getLast?.getD i) (t : Nat)
    (ht : t = 0 ↔ ∀ k, r ≠ .cyc k) :
    ∃ s' fl', freecallout s r j i t = .ok s' ∧
      Wheel s' fl' (Function.update ls r (pre ++ post)) ∧
      (∀ r', r'.valid → ∀ x ∈ Function.update ls r (pre ++ post) r', s'.key x = s.key x) ∧
      s'.cotabsz = s.cotabsz ∧ s'.queuebrk = s.queuebrk ∧ s'.timestamp = s.timestamp ∧
      s.cycbrk ≤ s'.cycbrk ∧
      (∀ x, x < s.cycbrk → s'.cotab x = s.cotab x) ∧ s'.mem 0 = s.mem 0 := by
  have hz0 : ∀ k, r = .cyc k → (if t = 0 then 1 else 0) = 0 := by
    intro k hk
    rw [if_neg]
    intro h0
    exact ht.1 h0 k hk
  have hz1 : (∀ k, r ≠ .cyc k) → (if t = 0 then 1 else 0) = 1 := by
    intro h
    rw [if_pos (ht.2 h)]
  obtain ⟨n1, n2, n3, n4⟩ := hw.unlink_counts hr hl hz0 hz1
  have hcap := hw.cap
  have hble := hw.brk_le
  have htot := hw.total
  have hnzs := hw.nshort
  obtain ⟨d1, d2, d3, d4, d5, d6, d7, d8, d9, d10⟩ := countDown_fields s t
  have hB : (countDown s t).flist = s.flist ∧ (countDown s t).cycbrk = s.cycbrk ∧
      (countDown s t).cotabsz = s.cotabsz ∧ (countDown s t).nshort = s.nshort - 1 ∧
      (countDown s t).nzero = s.nzero - (if t = 0 then 1 else 0) ∧
      (countDown s t).queuebrk = s.queuebrk ∧ (countDown s t).timestamp = s.timestamp ∧
      (countDown s t).mem = s.mem ∧ (∀ r', (countDown s t).getCbuf r' = s.getCbuf r') := by
    refine ⟨d1, d2, d3, ?_, ?_, d6, d7, d8, d10⟩
    · rw [d4]
      exact dec16_of_pos n3 (by unfold UINDEX_MOD at *; omega)
    · rw [d5]
      by_cases h0 : t = 0
      · rw [if_pos h0, if_pos h0]
        rw [if_pos h0] at n4
        exact dec16_of_pos n4 (by unfold UINDEX_MOD at *; omega)
      · rw [if_neg h0, if_neg h0]
        rfl
  have hU : ∃ U, unlinkAt (countDown s t) r j i t = .ok U ∧
      Unlinked s r pre i post (if t = 0 then 1 else 0) U := by
    rcases eq_nil_or_snoc pre with e | ⟨pre', j', e⟩
    · subst e
      have hj' : j = i := hj
      subst hj'
      exact unlinkAt_head hw hr hl t hB hz0 hz1
    · subst e
      have hj' : j = j' := by
        rw [hj]
        simp
      subst hj'
      exact unlinkAt_mid hw hr hl t hB
  obtain ⟨U, hU1, hU2⟩ := hU
  obtain ⟨s', fl', h1, h2, h3, h4, h5, h6, h7, h8, h9, _⟩ :=
    releaseSlot_unlinked hw hr hl hU2 hz0 hz1
  refine ⟨s', fl', ?_, h2, h3, h4, h5, h6, h7, h8, h9⟩
  rw [freecallout_eq, hU1]
  exact h1

/-- The link of a listed element that has a successor. -/
theorem Wheel.next_of {s : State} {fl : List Nat} {ls : CbufRef → List Nat}
    (hw : Wheel s fl ls) {r : CbufRef} (hr : r.valid) {pre post : List Nat} {a b : Nat}
    (hl : ls r = pre ++ a :: b :: post) : u16 (s.cotab a).time = b ∧ b ≠ 0 := by
  have hch := hw.chain r hr
  rw [hl] at hch
  have hb : b ∈ ls r := by rw [hl]; simp
  rw [hch.next_eq]
  exact ⟨u16_of_lt (hw.lt_mod (hw.range r hr b hb).2), (hw.chain r hr).ne_zero b hb⟩

/-- The link of the last element of a list. -/
theorem Wheel.next_of_last {s : State} {fl : List Nat} {ls : CbufRef → List Nat}
    (hw : Wheel s fl ls) {r : CbufRef} (hr : r.valid) {pre : List Nat} {a : Nat}
    (hl : ls r = pre ++ [a]) : u16 (s.cotab a).time = 0 := by
  have hch := hw.chain r hr
  rw [hl] at hch
  rw [hch.next_last]
  rfl

/-- The loop of `rmshort` when the list holds the callout: the first element
`x` with the object index `i` and the handle `h` is handed to `freecallout`,
with the element before it. -/
theorem rmshortLoop_found {s : State} {fl : List Nat} {ls : CbufRef → List Nat}
    (hw : Wheel s fl ls) {r : CbufRef} (hr : r.valid) (i h t x : Nat) (post : List Nat)
    (hx : (s.cotab x).oindex = i ∧ (s.cotab x).handle = h) :
    ∀ (mid : List Nat) (fuel : Nat) (pre : List Nat) (j k : Nat),
      ls r = pre ++ j :: (mid ++ x :: post) → (mid ++ x :: post).head? = some k →
      (∀ y ∈ mid, ¬ ((s.cotab y).oindex = i ∧ (s.cotab y).handle = h)) → mid.length < fuel →
      rmshortLoop fuel s r j k i h t =
        (freecallout s r ((pre ++ j :: mid).getLast?.getD x) x t).bind
          (fun s' => .ok (s', true))
  | _, 0, _, _, _, _, _, _, hf => absurd hf (Nat.not_lt_zero _)
  | [], fuel + 1, pre, j, k, hl, hk, _, _ => by
    have e : k = x := by
      simp at hk
      exact hk.symm
    subst e
    unfold rmshortLoop
    rw [if_pos hx]
    have e2 : (pre ++ [j]).getLast?.getD k = j := by simp
    rw [e2]
    rfl
  | m :: mid, fuel + 1, pre, j, k, hl, hk, hm, hf => by
    have e : k = m := by
      simp at hk
      exact hk.symm
    subst e
    unfold rmshortLoop
    rw [if_neg (hm k (List.mem_cons_self _ _))]
    obtain ⟨n, hn⟩ : ∃ n, (mid ++ x :: post).head? = some n := by
      cases mid with
      | nil => exact ⟨x, rfl⟩
      | cons q qs => exact ⟨q, rfl⟩
    obtain ⟨rest, hrest⟩ : ∃ rest, mid ++ x :: post = n :: rest := by
      cases mid with
      | nil =>
        simp at hn
        exact ⟨post, by rw [hn]; rfl⟩
      | cons q qs =>
        simp at hn
        exact ⟨qs ++ x :: post, by rw [hn]; rfl⟩
    have hl2 : ls r = (pre ++ [j]) ++ k :: n :: rest := by
      rw [hl, ← hrest]
      simp
    obtain ⟨h1, h2⟩ := hw.next_of hr hl2
    dsimp only
    rw [h1, if_pos h2]
    have hl3 : ls r = (pre ++ [j]) ++ k :: (mid ++ x :: post) := by
      rw [hl]
      simp
    have ih := rmshortLoop_found hw hr i h t x post hx mid fuel (pre ++ [j]) k n hl3 hn
      (fun y hy => hm y (List.mem_cons_of_mem _ hy))
      (by rw [List.length_cons] at hf; omega)
    rw [ih]
    have e3 : pre ++ [j] ++ k :: mid = pre ++ j :: k :: mid := by simp
    rw [e3]

/-- The loop of `rmshort` when no element of the rest of the list has the
object index `i` and the handle `h`: the state is not changed. -/
theorem rmshortLoop_none {s : State} {fl : List Nat} {ls : CbufRef → List Nat}
    (hw : Wheel s fl ls) {r : CbufRef} (hr : r.valid) (i h t : Nat) :
    ∀ (rest : List Nat) (fuel : Nat) (pre : List Nat) (j k : Nat),
      ls r = pre ++ j :: k :: rest →
      (∀ y ∈ k :: rest, ¬ ((s.cotab y).oindex = i ∧ (s.cotab y).handle = h)) →
      rest.length < fuel → rmshortLoop fuel s r j k i h t = .ok (s, false)
  | _, 0, _, _, _, _, _, hf => absurd hf (Nat.not_lt_zero _)
  | [], fuel + 1, pre, j, k, hl, hm, _ => by
    unfold rmshortLoop
    rw [if_neg (hm k (List.mem_cons_self _ _))]
    have hl2 : ls r = (pre ++ [j]) ++ [k] := by
      rw [hl]
      simp
    dsimp only
    rw [hw.next_of_last hr hl2, if_neg (fun h => h rfl)]
  | n :: rest, fuel + 1, pre, j, k, hl, hm, hf => by
    unfold rmshortLoop
    rw [if_neg (hm k (List.mem_cons_self _ _))]
    have hl2 : ls r = (pre ++ [j]) ++ k :: n :: rest := by
      rw [hl]
      simp
    obtain ⟨h1, h2⟩ := hw.next_of hr hl2
    dsimp only
    rw [h1, if_pos h2]
    exact rmshortLoop_none hw hr i h t rest fuel (pre ++ [j]) k n hl2
      (fun y hy => hm y (List.mem_cons_of_mem _ hy))
      (by rw [List.length_cons] at hf; omega)

/-- The first element of a list that satisfies a predicate. -/
theorem first_match (p : Nat → Prop) : ∀ (l : List Nat), (∃ x ∈ l, p x) →
    ∃ pre x post, l = pre ++ x :: post ∧ (∀ y ∈ pre, ¬ p y) ∧ p x
  | [], h => by
    obtain ⟨x, hx, _⟩ := h
    cases hx
  | a :: l, h => by
    by_cases ha : p a
    · exact ⟨[], a, l, rfl, fun y hy => (by cases hy), ha⟩
    · have h' : ∃ x ∈ l, p x := by
        obtain ⟨x, hx, hp⟩ := h
        rcases List.mem_cons.1 hx with e | hx
        · exact absurd (e ▸ hp) ha
        · exact ⟨x, hx, hp⟩
      obtain ⟨pre, x, post, e, h1, h2⟩ := first_match p l h'
      refine ⟨a :: pre, x, post, by rw [e]; rfl, ?_, h2⟩
      intro y hy
      rcases List.mem_cons.1 hy with e' | hy
      · rw [e']; exact ha
      · exact h1 y hy

theorem key_eq_iff (s : State) (x a b : Nat) :
    s.key x = (a, b) ↔ ((s.cotab x).oindex = a ∧ (s.cotab x).handle = b) := by
  unfold State.key
  exact Prod.mk.injEq _ _ _ _ ▸ Iff.rfl

/-- The function `rmshort` when the list `r` holds a callout of the object
`oindex` with the handle `handle`: the first such element `x` is handed to
`freecallout`, with the element before it. -/
theorem rmshort_found {s : State} {fl : List Nat} {ls : CbufRef → List Nat}
    (hw : Wheel s fl ls) {r : CbufRef} (hr : r.valid) (oindex handle t : Nat)
    {pre post : List Nat} {x : Nat} (hl : ls r = pre ++ x :: post)
    (hpre : ∀ y ∈ pre, s.key y ≠ (u16 oindex, u16 handle))
    (hx : s.key x = (u16 oindex, u16 handle)) :
    rmshort s r oindex handle t =
      (freecallout s r (pre.getLast?.getD x) x t).bind (fun s' => .ok (s', true)) := by
  have hx' := (key_eq_iff s x _ _).1 hx
  have hpre' : ∀ y ∈ pre, ¬ ((s.cotab y).oindex = u16 oindex ∧ (s.cotab y).handle = u16 handle) :=
    fun y hy h => hpre y hy ((key_eq_iff s y _ _).2 h)
  have hch := hw.chain r hr
  rw [hl] at hch
  unfold rmshort
  dsimp only
  cases pre with
  | nil =>
    have hh : (s.getCbuf r).list = x := hch.1
    rw [hh, if_pos hch.2.1, if_pos hx']
    rfl
  | cons p pre' =>
    have hh : (s.getCbuf r).list = p := hch.1
    rw [hh, if_pos hch.2.1, if_neg (hpre' p (List.mem_cons_self _ _))]
    have hnd := hw.nodup r hr
    rw [hl] at hnd
    -- the list has more than one element
    have hlast : p ≠ (s.getCbuf r).last := by
      intro e
      obtain ⟨ys, hys⟩ := hw.last_of_ne r hr (by rw [hl]; exact List.cons_ne_nil _ _)
      have h1 : (ls r).getLast? = some p := by
        rw [hys, ← e]
        simp
      rw [hl] at h1
      have h2 : (p :: (pre' ++ x :: post)).getLast? = some p := h1
      obtain ⟨q, qs, hq⟩ : ∃ q qs, pre' ++ x :: post = q :: qs := by
        cases pre' with
        | nil => exact ⟨x, post, rfl⟩
        | cons q qs => exact ⟨q, qs ++ x :: post, rfl⟩
      rw [hq, List.getLast?_cons_cons] at h2
      have h3 : p ∈ q :: qs := List.mem_of_getLast?_eq_some h2
      rw [← hq] at h3
      exact (List.nodup_cons.1 hnd).1 h3
    rw [if_pos hlast]
    obtain ⟨n, hn⟩ : ∃ n, (pre' ++ x :: post).head? = some n := by
      cases pre' with
      | nil => exact ⟨x, rfl⟩
      | cons q qs => exact ⟨q, rfl⟩
    obtain ⟨rest, hrest⟩ : ∃ rest, pre' ++ x :: post = n :: rest := by
      cases pre' with
      | nil =>
        simp at hn
        exact ⟨post, by rw [hn]; rfl⟩
      | cons q qs =>
        simp at hn
        exact ⟨qs ++ x :: post, by rw [hn]; rfl⟩
    have hl2 : ls r = [] ++ p :: n :: rest := by
      rw [hl, ← hrest]
      rfl
    obtain ⟨h1, _⟩ := hw.next_of hr hl2
    rw [h1]
    have hlen := hw.length_le r hr
    have hcap := hw.cap
    rw [hl] at hlen
    simp only [List.length_cons, List.length_append] at hlen
    exact rmshortLoop_found hw hr (u16 oindex) (u16 handle) t x post hx' pre' UINDEX_MOD [] p n
      hl hn (fun y hy => hpre' y (List.mem_cons_of_mem _ hy))
      (by unfold UINDEX_MOD at *; omega)

/-- The function `rmshort` when the list `r` holds no callout of the object
`oindex` with the handle `handle`: it reports so and changes nothing. -/
theorem rmshort_none {s : State} {fl : List Nat} {ls : CbufRef → List Nat}
    (hw : Wheel s fl ls) {r : CbufRef} (hr : r.valid) (oindex handle t : Nat)
    (hno : ∀ y ∈ ls r, s.key y ≠ (u16 oindex, u16 handle)) :
    rmshort s r oindex handle t = .ok (s, false) := by
  have hno' : ∀ y ∈ ls r,
      ¬ ((s.cotab y).oindex = u16 oindex ∧ (s.cotab y).handle = u16 handle) :=
    fun y hy h => hno y hy ((key_eq_iff s y _ _).2 h)
  have hch := hw.chain r hr
  unfold rmshort
  dsimp only
  cases hl : ls r with
  | nil =>
    rw [hl] at hch
    have h0 : (s.getCbuf r).list = 0 := hch
    rw [h0, if_neg (fun h => h rfl)]
  | cons p rest =>
    rw [hl] at hch hno'
    have hh : (s.getCbuf r).list = p := hch.1
    rw [hh, if_pos hch.2.1, if_neg (hno' p (List.mem_cons_self _ _))]
    cases rest with
    | nil =>
      have h1 : (s.getCbuf r).last = p := hw.last r hr p (by rw [hl]; rfl)
      rw [h1, if_neg (fun h => h rfl)]
    | cons n rest' =>
      have hnd := hw.nodup r hr
      rw [hl] at hnd
      have hlast : p ≠ (s.getCbuf r).last := by
        intro e
        obtain ⟨ys, hys⟩ := hw.last_of_ne r hr (by rw [hl]; exact List.cons_ne_nil _ _)
        have h1 : (ls r).getLast? = some p := by
          rw [hys, ← e]
          simp
        rw [hl, List.getLast?_cons_cons] at h1
        exact (List.nodup_cons.1 hnd).1 (List.mem_of_getLast?_eq_some h1)
      rw [if_pos hlast]
      have hl2 : ls r = [] ++ p :: n :: rest' := hl
      obtain ⟨h1, _⟩ := hw.next_of hr hl2
      rw [h1]
      have hlen := hw.length_le r hr
      have hcap := hw.cap
      rw [hl] at hlen
      simp only [List.length_cons] at hlen
      exact rmshortLoop_none hw hr (u16 oindex) (u16 handle) t rest' UINDEX_MOD [] p n hl
        (fun y hy => hno' y (List.mem_cons_of_mem _ hy))
        (by unfold UINDEX_MOD at *; omega)

theorem u16_u16 (n : Nat) : u16 (u16 n) = u16 n := by
  unfold u16
  exact Nat.mod_mod _ _

/-- The function `rmshort` on a list that holds the callout: it returns and
reports the removal, the first element `x` with the object index and the
handle leaves the list `r`, and the invariant of the cyclic buffer holds. -/
theorem rmshort_spec {s : State} {fl : List Nat} {ls : CbufRef → List Nat}
    (hw : Wheel s fl ls) {r : CbufRef} (hr : r.valid) (oindex handle t : Nat)
    (ht : t = 0 ↔ ∀ k, r ≠ .cyc k)
    {pre post : List Nat} {x : Nat} (hl : ls r = pre ++ x :: post)
    (hpre : ∀ y ∈ pre, s.key y ≠ (u16 oindex, u16 handle))
    (hx : s.key x = (u16 oindex, u16 handle)) :
    ∃ s' fl', rmshort s r (u16 oindex) handle t = .ok (s', true) ∧
      Wheel s' fl' (Function.update ls r (pre ++ post)) ∧
      (∀ r', r'.valid → ∀ x ∈ Function.update ls r (pre ++ post) r', s'.key x = s.key x) ∧
      s'.cotabsz = s.cotabsz ∧ s'.queuebrk = s.queuebrk ∧ s'.timestamp = s.timestamp ∧
      s.cycbrk ≤ s'.cycbrk ∧
      (∀ x, x < s.cycbrk → s'.cotab x = s.cotab x) ∧ s'.mem 0 = s.mem 0 := by
  obtain ⟨s', fl', h1, h2⟩ := freecallout_spec hw hr hl rfl t ht
  refine ⟨s', fl', ?_, h2⟩
  rw [rmshort_found hw hr (u16 oindex) handle t hl (by rw [u16_u16]; exact hpre)
    (by rw [u16_u16]; exact hx), h1]
  rfl

/-- The function `co_del` for a callout that waits on a list of the cyclic
buffer: for a stored deadline that is not in a later second than
`timestamp` the immediate list is searched and then the running list, for
one in the window of the cyclic buffer the bucket of its second. When the
list `r` searched holds a callout of the object with the handle, `co_del`
returns, the first such element leaves the list, and the invariant of the
cyclic buffer holds. -/
theorem co_del_listed {s : State} {fl : List Nat} {ls : CbufRef → List Nat}
    (hw : Wheel s fl ls) (dbg : Bool) (oindex handle stored : Nat) (hs : stored >>> 24 ≠ 1)
    {r : CbufRef}
    (hroute : (u32 (stored + s.timediff) ≤ s.timestamp ∧
        (r = .immediate ∨ (r = .running ∧
          ∀ y ∈ ls .immediate, s.key y ≠ (u16 oindex, u16 handle)))) ∨
      (s.timestamp < u32 (stored + s.timediff) ∧
        u32 (stored + s.timediff) < u32 (s.timestamp + CYCBUF_SIZE) ∧
        r = .cyc (cycIndex (u32 (stored + s.timediff)))))
    {pre post : List Nat} {x : Nat} (hl : ls r = pre ++ x :: post)
    (hpre : ∀ y ∈ pre, s.key y ≠ (u16 oindex, u16 handle))
    (hx : s.key x = (u16 oindex, u16 handle)) :
    ∃ s' fl', co_del dbg s oindex handle stored = .ok s' ∧
      Wheel s' fl' (Function.update ls r (pre ++ post)) ∧
      (∀ r', r'.valid → ∀ x ∈ Function.update ls r (pre ++ post) r', s'.key x = s.key x) ∧
      s'.cotabsz = s.cotabsz ∧ s'.queuebrk = s.queuebrk ∧ s'.timestamp = s.timestamp ∧
      s.cycbrk ≤ s'.cycbrk ∧
      (∀ x, x < s.cycbrk → s'.cotab x = s.cotab x) ∧ s'.mem 0 = s.mem 0 := by
  rcases hroute with ⟨hle, hr⟩ | ⟨hlt, hwin, hr⟩
  · rcases hr with hr | ⟨hr, hno⟩
    · subst hr
      obtain ⟨s', fl', h1, h2⟩ := rmshort_spec hw (r := .immediate) trivial oindex handle 0
        ⟨fun _ k h => (by cases h), fun _ => rfl⟩ hl hpre hx
      refine ⟨s', fl', ?_, h2⟩
      unfold co_del
      simp only [hs, ne_eq, not_false_eq_true, if_true, hle, h1, bind, Except.bind, pure,
        Except.pure]
    · subst hr
      obtain ⟨s', fl', h1, h2⟩ := rmshort_spec hw (r := .running) trivial oindex handle 0
        ⟨fun _ k h => (by cases h), fun _ => rfl⟩ hl hpre hx
      have h0 := rmshort_none hw (r := .immediate) trivial (u16 oindex) handle 0
        (by rw [u16_u16]; exact hno)
      refine ⟨s', fl', ?_, h2⟩
      unfold co_del
      simp only [hs, ne_eq, not_false_eq_true, if_true, hle, h0, h1, bind, Except.bind, pure,
        Except.pure, Bool.false_eq_true, if_false]
  · subst hr
    have ht0 : u32 (stored + s.timediff) ≠ 0 := by omega
    obtain ⟨s', fl', h1, h2⟩ := rmshort_spec hw
      (r := .cyc (cycIndex (u32 (stored + s.timediff)))) (cycIndex_lt _) oindex handle
      (u32 (stored + s.timediff))
      ⟨fun h => absurd h ht0, fun h => absurd rfl (h _)⟩ hl hpre hx
    refine ⟨s', fl', ?_, h2⟩
    have hnle : ¬ u32 (stored + s.timediff) ≤ s.timestamp := by omega
    unfold co_del
    simp only [hs, ne_eq, not_false_eq_true, if_true, hnle, hwin, h1, bind, Except.bind, pure,
      Except.pure, Bool.false_eq_true, if_false]

/-- The sift-up loop writes no slot above its start. -/
theorem siftUp_frame (t : Nat) (m : Int) : ∀ (fuel : Nat) (l : Nat → call_out) (i : Nat)
    (l' : Nat → call_out) (i' : Nat), siftUp fuel l i t m = .ok (l', i') →
      i' ≤ i ∧ ∀ k, i < k → l' k = l k
  | 0, _, _, _, _, h => by cases h
  | fuel + 1, l, i, l', i', h => by
    unfold siftUp at h
    dsimp only at h
    split_ifs at h with c1 c2
    · obtain ⟨h1, h2⟩ := siftUp_frame t m fuel _ _ l' i' h
      have hle : i / 2 ≤ i := Nat.div_le_self _ _
      refine ⟨le_trans h1 hle, fun k hk => ?_⟩
      rw [h2 k (by omega), setMem_other _ _ _ _ (by omega)]
    · simp only [Except.ok.injEq, Prod.mk.injEq] at h
      obtain ⟨e1, e2⟩ := h
      subst e1 e2
      exact ⟨le_refl _, fun _ _ => rfl⟩

/-- The sift-down loop writes no slot above the end of the heap. -/
theorem siftDown_frame (q t : Nat) (m : Int) (hq : q < UINDEX_MOD) :
    ∀ (fuel : Nat) (l : Nat → call_out) (i : Nat) (l' : Nat → call_out) (i' : Nat), i ≤ q →
      siftDown fuel l q i t m = .ok (l', i') → i' ≤ q ∧ ∀ k, q < k → l' k = l k
  | 0, _, _, _, _, _, h => by cases h
  | fuel + 1, l, i, l', i', hi, h => by
    unfold siftDown at h
    dsimp only at h
    by_cases c1 : u16 (i * 2) < q
    · rw [if_pos c1] at h
      have hj1 : u16 (u16 (i * 2) + 1) ≤ q := by
        rw [u16_of_lt (by omega)]
        omega
      split_ifs at h with c2 c3 c4
      · simp only [Except.ok.injEq, Prod.mk.injEq] at h
        obtain ⟨e1, e2⟩ := h
        subst e1 e2
        exact ⟨hi, fun _ _ => rfl⟩
      · obtain ⟨h1, h2⟩ := siftDown_frame q t m hq fuel _ _ l' i' hj1 h
        refine ⟨h1, fun k hk => ?_⟩
        rw [h2 k hk, setMem_other _ _ _ _ (by omega)]
      · simp only [Except.ok.injEq, Prod.mk.injEq] at h
        obtain ⟨e1, e2⟩ := h
        subst e1 e2
        exact ⟨hi, fun _ _ => rfl⟩
      · obtain ⟨h1, h2⟩ := siftDown_frame q t m hq fuel _ _ l' i' (le_of_lt c1) h
        refine ⟨h1, fun k hk => ?_⟩
        rw [h2 k hk, setMem_other _ _ _ _ (by omega)]
    · rw [if_neg c1] at h
      simp only [Except.ok.injEq, Prod.mk.injEq] at h
      obtain ⟨e1, e2⟩ := h
      subst e1 e2
      exact ⟨hi, fun _ _ => rfl⟩

/-- The function `dequeue` for a slot of the heap writes no slot above the
end of the heap. -/
theorem dequeue_frame (s s' : State) (i0 : Nat) (h : dequeue s i0 = .ok s')
    (hi : u16 (i0 + 1) ≤ s.queuebrk) (hq : s.queuebrk < UINDEX_MOD) :
    ∀ k, s.queuebrk < k → s'.mem k = s.mem k := by
  intro k hk
  unfold dequeue at h
  simp only [bind, Except.bind, pure, Except.pure] at h
  split_ifs at h with c
  · cases hs : siftUp (u16 (i0 + 1) + 1) s.mem (u16 (i0 + 1)) (s.mem s.queuebrk).time
        (toShort (s.mem s.queuebrk).mtime) with
    | error e =>
      rw [hs] at h
      cases h
    | ok p =>
      obtain ⟨l', i'⟩ := p
      rw [hs] at h
      simp only [Except.ok.injEq] at h
      subst h
      obtain ⟨h1, h2⟩ := siftUp_frame _ _ _ _ _ _ _ hs
      show setMem l' i' (l' s.queuebrk) k = s.mem k
      rw [setMem_other _ _ _ _ (by omega), h2 k (by omega)]
  · cases hs : siftDown UINDEX_MOD s.mem s.queuebrk (u16 (i0 + 1)) (s.mem s.queuebrk).time
        (toShort (s.mem s.queuebrk).mtime) with
    | error e =>
      rw [hs] at h
      cases h
    | ok p =>
      obtain ⟨l', i'⟩ := p
      rw [hs] at h
      simp only [Except.ok.injEq] at h
      subst h
      obtain ⟨h1, h2⟩ := siftDown_frame _ _ _ hq _ _ _ _ _ hi hs
      show setMem l' i' (l' s.queuebrk) k = s.mem k
      rw [setMem_other _ _ _ _ (by omega), h2 k hk]

/-- The search of `co_del` through the queue, when the first slot from `k`
on that holds the object index `i` and the handle `h` is the slot `k0` of
the heap: that slot is handed to `dequeue`. -/
theorem queueSearch_first (dbg : Bool) (s : State) (i h k0 : Nat)
    (hm : (s.cotab k0).oindex = i ∧ (s.cotab k0).handle = h) (hk0 : k0 < s.queuebrk) :
    ∀ (d fuel k : Nat), k + d = k0 → d < fuel →
      (∀ y, k ≤ y → y < k0 → ¬ ((s.cotab y).oindex = i ∧ (s.cotab y).handle = h)) →
      queueSearch dbg fuel s k i h = dequeue s k0
  | _, 0, _, _, hf, _ => absurd hf (Nat.not_lt_zero _)
  | 0, fuel + 1, k, hk, _, _ => by
    have e : k = k0 := by omega
    subst e
    unfold queueSearch
    rw [if_pos hm]
  | d + 1, fuel + 1, k, hk, hf, hno => by
    unfold queueSearch
    rw [if_neg (hno k (le_refl _) (by omega)), if_neg (fun c => by omega)]
    exact queueSearch_first dbg s i h k0 hm hk0 d fuel (k + 1) (by omega) (by omega)
      (fun y h1 h2 => hno y (by omega) h2)

/-- The function `co_del` for a callout that waits in the heap: when the
stored deadline leads to the search through the queue and the first slot
with the object index and the handle is the slot `k0` of the heap, `co_del`
is `dequeue` of that slot; when it returns, the cyclic buffer is as before
and `queuebrk` is one less. -/
theorem co_del_queued {s : State} {fl : List Nat} {ls : CbufRef → List Nat}
    (hw : Wheel s fl ls) (hqb : s.queuebrk ≤ s.cycbrk) (dbg : Bool)
    (oindex handle stored k0 : Nat)
    (hpath : stored >>> 24 = 1 ∨
      (s.timestamp < u32 (stored + s.timediff) ∧
        ¬ u32 (stored + s.timediff) < u32 (s.timestamp + CYCBUF_SIZE)))
    (hk0 : k0 < s.queuebrk)
    (hm : (s.cotab k0).oindex = u16 oindex ∧ (s.cotab k0).handle = handle)
    (hfirst : ∀ y, y < k0 → ¬ ((s.cotab y).oindex = u16 oindex ∧ (s.cotab y).handle = handle)) :
    co_del dbg s oindex handle stored = dequeue s k0 ∧
    ∀ s', dequeue s k0 = .ok s' →
      Wheel s' fl ls ∧ s'.queuebrk = s.queuebrk - 1 ∧ s'.nshort = s.nshort ∧
      s'.nzero = s.nzero := by
  have hcap := hw.cap
  have hble := hw.brk_le
  constructor
  · rw [co_del_queue dbg s oindex handle stored hpath]
    exact queueSearch_first dbg s (u16 oindex) handle k0 hm hk0 k0 s.cotabsz 0 (by omega)
      (by omega) (fun y _ h2 => hfirst y h2)
  · intro s' hd
    have hreg := dequeue_registers s s' k0 hd
    have hfr := dequeue_frame s s' k0 hd
      (by rw [u16_of_lt (by unfold UINDEX_MOD at *; omega)]; omega)
      (by unfold UINDEX_MOD at *; omega)
    have hq : s'.queuebrk = s.queuebrk - 1 := by
      rw [hreg]
      exact dec16_of_pos (by omega) (by unfold UINDEX_MOD at *; omega)
    refine ⟨hw.frame ?_ ?_ ?_ ?_ ?_ ?_ ?_, hq, ?_, ?_⟩
    · intro x hx _
      exact hfr (x + 1) (by omega)
    · intro r
      rw [hreg]
      cases r <;> rfl
    all_goals
      rw [hreg]

/-- The function `enqueue` writes heap slots up to the new `queuebrk` and the
alarm registers only. -/
theorem enqueue_frame (s s' : State) (t m k : Nat) (h : enqueue s t m = .ok (s', k))
    (hq : s.queuebrk + 1 < UINDEX_MOD) :
    k ≤ s.queuebrk + 1 ∧ (∀ j, s.queuebrk + 1 < j → s'.mem j = s.mem j) ∧
    s'.flist = s.flist ∧ s'.cycbrk = s.cycbrk ∧ s'.cotabsz = s.cotabsz ∧
    s'.nzero = s.nzero ∧ s'.nshort = s.nshort ∧ (∀ r, s'.getCbuf r = s.getCbuf r) := by
  have hu : u16 (s.queuebrk + 1) = s.queuebrk + 1 := u16_of_lt hq
  unfold enqueue at h
  simp only [bind, Except.bind, pure, Except.pure, hu] at h
  cases hs : siftUp (s.queuebrk + 1 + 1) s.mem (s.queuebrk + 1) t (m : Int) with
  | error e =>
    rw [hs] at h
    cases h
  | ok p =>
    obtain ⟨l', i'⟩ := p
    rw [hs] at h
    obtain ⟨h1, h2⟩ := siftUp_frame _ _ _ _ _ _ _ hs
    have hmem : ∀ j, s.queuebrk + 1 < j →
        setMem l' i' { l' i' with time := t, mtime := m } j = s.mem j := by
      intro j hj
      rw [setMem_other _ _ _ _ (by omega), h2 j hj]
    dsimp only at h
    split_ifs at h with c
    · obtain ⟨a, b, p, hr⟩ := restart_zero
        ({ s with queuebrk := s.queuebrk + 1,
                  mem := setMem l' i' { l' i' with time := t, mtime := m } } : State)
      rw [hr] at h
      simp only [Except.ok.injEq, Prod.mk.injEq] at h
      obtain ⟨e1, e2⟩ := h
      subst e1 e2
      exact ⟨h1, hmem, rfl, rfl, rfl, rfl, rfl, fun r => by cases r <;> rfl⟩
    · simp only [Except.ok.injEq, Prod.mk.injEq] at h
      obtain ⟨e1, e2⟩ := h
      subst e1 e2
      exact ⟨h1, hmem, rfl, rfl, rfl, rfl, rfl, fun r => by cases r <;> rfl⟩

/-- The function `co_new` with the queue as destination: when it returns,
and the queue ended below the region of the cyclic buffer, the cyclic
buffer is as before. -/
theorem co_new_queue {s s' : State} {fl : List Nat} {ls : CbufRef → List Nat}
    (hw : Wheel s fl ls) (hqb : s.queuebrk < s.cycbrk) (handle oindex t m : Nat)
    (h : co_new s handle oindex t m none = .ok s') : Wheel s' fl ls := by
  have hcap := hw.cap
  have hble := hw.brk_le
  unfold co_new at h
  simp only [bind, Except.bind, pure, Except.pure] at h
  cases he : enqueue s t (u16 m) with
  | error e =>
    rw [he] at h
    cases h
  | ok p =>
    obtain ⟨s1, k⟩ := p
    rw [he] at h
    simp only [Except.ok.injEq] at h
    subst h
    obtain ⟨h1, h2, h3, h4, h5, h6, h7, h8⟩ := enqueue_frame s s1 t (u16 m) k he
      (by unfold UINDEX_MOD at *; omega)
    refine hw.frame ?_ ?_ h3 h4 h5 h6 h7
    · intro x hx _
      show setMem s1.mem k _ (x + 1) = s.mem (x + 1)
      rw [setMem_other _ _ _ _ (by omega), h2 (x + 1) (by omega)]
    · intro r
      rw [← h8 r]
      cases r <;> rfl

/-- The state that `co_init` delivers satisfies the invariant of the cyclic
buffer, with every list empty. -/
theorem co_init_wheel (mem0 : Nat → call_out) (max now : Nat) (s : State)
    (h : co_init mem0 max now = .ok s) (h0 : max ≠ 0) (hmax : 2 * max < UINDEX_MOD) :
    Wheel s [] (fun _ => []) := by
  unfold co_init at h
  split_ifs at h with c
  simp only [Except.ok.injEq] at h
  subst h
  have hu : u16 max = max := u16_of_lt (by omega)
  exact Wheel.of_full _ (by show 2 * u16 max < _; rw [hu]; exact hmax)
    (by show 1 ≤ u16 max; rw [hu]; omega) rfl rfl (fun r _ => by cases r <;> rfl) rfl rfl

/-- C16, amended: `nzero` counts the running list as well, and the counts are
part of the invariant `Wheel` of the cyclic buffer, which the operations keep
as long as the table has room. (1) The state that `co_init(max)` delivers,
`0 < max < 32768`, satisfies the invariant. (2) In every state that
satisfies it, `nshort` is the number of elements on the 128 buckets, the
immediate list and the running list together, and `nzero` is the number of
elements on the immediate list and the running list together. The invariant
holds again (3) after `co_new` with a list of the cyclic buffer as
destination, when a free element other than index 0 is left; (4) after
`co_new` with the queue as destination, when it returns and the queue ended
below `cycbrk`; (5) after `co_del` of a callout found on the list that the
stored deadline addresses, the immediate list, then the running list, or
the bucket of its second; (6) after `co_del` of a callout that is in the
heap, when `dequeue` returns; (7) after `co_expire`, for an alarm that did
not fire, and for one that fired at `(t, m)` with `timestamp ≤ t` in a state
with the heap invariant, room and an empty bucket of the current second;
(8) after the statements of `co_call` that move the immediate list to the
empty running list; and (9) after `freecallout` for the head of the running
list, which `co_call` performs before it invokes the callout. The states in
the middle of a dispatch are covered: (3) to (6) and (9) do not ask for an
empty running list. -/
theorem counters_invariant :
    (∀ mem0 max now s, co_init mem0 max now = .ok s → max ≠ 0 → 2 * max < UINDEX_MOD →
      Wheel s [] (fun _ => [])) ∧
    ∀ s fl ls, Wheel s fl ls →
      (s.nshort = (∑ k in Finset.range CYCBUF_SIZE, (s.listOf (.cyc k)).length) +
          (s.listOf .immediate).length + (s.listOf .running).length ∧
        s.nzero = (s.listOf .immediate).length + (s.listOf .running).length) ∧
      (∀ (r : CbufRef) (handle oindex t m : Nat), r.valid →
        ((r = .immediate ∧ t = 0) ∨ (t ≠ 0 ∧ ∃ k, r = .cyc k)) →
        (s.flist = 0 → 2 ≤ s.cycbrk) → u16 handle ≠ 0 →
        ∃ s' fl' ls', co_new s handle oindex t m (some r) = .ok s' ∧ Wheel s' fl' ls') ∧
      (∀ (handle oindex t m : Nat) (s' : State), s.queuebrk < s.cycbrk →
        co_new s handle oindex t m none = .ok s' → Wheel s' fl ls) ∧
      (∀ (dbg : Bool) (oindex handle stored : Nat) (r : CbufRef), stored >>> 24 ≠ 1 →
        ((u32 (stored + s.timediff) ≤ s.timestamp ∧
            (r = .immediate ∨ (r = .running ∧
              ∀ y ∈ s.listOf .immediate, s.key y ≠ (u16 oindex, u16 handle)))) ∨
          (s.timestamp < u32 (stored + s.timediff) ∧
            u32 (stored + s.timediff) < u32 (s.timestamp + CYCBUF_SIZE) ∧
            r = .cyc (cycIndex (u32 (stored + s.timediff))))) →
        (∃ x ∈ s.listOf r, s.key x = (u16 oindex, u16 handle)) →
        ∃ s' fl' ls', co_del dbg s oindex handle stored = .ok s' ∧ Wheel s' fl' ls') ∧
      (∀ (dbg : Bool) (oindex handle stored k0 : Nat) (s' : State), s.queuebrk ≤ s.cycbrk →
        (stored >>> 24 = 1 ∨
          (s.timestamp < u32 (stored + s.timediff) ∧
            ¬ u32 (stored + s.timediff) < u32 (s.timestamp + CYCBUF_SIZE))) →
        k0 < s.queuebrk →
        ((s.cotab k0).oindex = u16 oindex ∧ (s.cotab k0).handle = handle) →
        (∀ y, y < k0 → ¬ ((s.cotab y).oindex = u16 oindex ∧ (s.cotab y).handle = handle)) →
        co_del dbg s oindex handle stored = .ok s' →
        Wheel s' fl ls ∧ s'.nshort = s.nshort ∧ s'.nzero = s.nzero) ∧
      (∀ t m, ∃ s', co_expire s false t m = .ok s' ∧ Wheel s' fl ls) ∧
      (HeapInv s → (s.flist = 0 → s.queuebrk < s.cycbrk) →
        (s.cycbuf (cycIndex s.timestamp)).list = 0 →
        ∀ t m, s.timestamp ≤ t → t < UINT_MOD →
          ∃ s' fl' ls', co_expire s true t m = .ok s' ∧ Wheel s' fl' ls') ∧
      (s.running.list = 0 →
        ∃ ls', Wheel (({ s with running := s.immediate } : State).setList .immediate 0) fl ls') ∧
      (s.running.list ≠ 0 →
        ∃ s' fl' ls', freecallout s .running s.running.list s.running.list 0 = .ok s' ∧
          Wheel s' fl' ls') := by
  refine ⟨co_init_wheel, ?_⟩
  intro s fl ls hw
  have hlist : ∀ r, r.valid → s.listOf r = ls r := fun r hr => hw.listOf r hr
  refine ⟨⟨?_, ?_⟩, ?_, ?_, ?_, ?_, ?_, ?_, ?_, ?_⟩
  · rw [hlist .immediate trivial, hlist .running trivial, hw.nshort, hw.nzero]
    have e : ∑ k in Finset.range CYCBUF_SIZE, (s.listOf (.cyc k)).length =
        ∑ k in Finset.range CYCBUF_SIZE, (ls (.cyc k)).length :=
      Finset.sum_congr rfl (fun k hk => by rw [hlist (.cyc k) (Finset.mem_range.1 hk)])
    rw [e]
    omega
  · rw [hlist .immediate trivial, hlist .running trivial]
    exact hw.nzero
  · intro r handle oindex t m hr hcase hroom hh
    obtain ⟨s', i, h1, h2, _⟩ := co_new_append hw r hr handle oindex t m hcase hroom hh
    exact ⟨s', _, _, h1, h2⟩
  · intro handle oindex t m s' hqb h
    exact co_new_queue hw hqb handle oindex t m h
  · intro dbg oindex handle stored r hs hroute hex
    have hr : r.valid := by
      rcases hroute with ⟨_, h | ⟨h, _⟩⟩ | ⟨_, _, h⟩
      · rw [h]; trivial
      · rw [h]; trivial
      · rw [h]; exact cycIndex_lt _
    rw [hlist r hr] at hex
    have hroute' : (u32 (stored + s.timediff) ≤ s.timestamp ∧
        (r = .immediate ∨ (r = .running ∧
          ∀ y ∈ ls .immediate, s.key y ≠ (u16 oindex, u16 handle)))) ∨
      (s.timestamp < u32 (stored + s.timediff) ∧
        u32 (stored + s.timediff) < u32 (s.timestamp + CYCBUF_SIZE) ∧
        r = .cyc (cycIndex (u32 (stored + s.timediff)))) := by
      rw [hlist .immediate trivial] at hroute
      exact hroute
    obtain ⟨pre, x, post, hl, hpre, hx⟩ :=
      first_match (fun y => s.key y = (u16 oindex, u16 handle)) (ls r) hex
    obtain ⟨s', fl', h1, h2, _⟩ := co_del_listed hw dbg oindex handle stored hs hroute' hl hpre hx
    exact ⟨s', fl', _, h1, h2⟩
  · intro dbg oindex handle stored k0 s' hqb hpath hk0 hm hfirst h
    obtain ⟨h1, h2⟩ := co_del_queued hw hqb dbg oindex handle stored k0 hpath hk0 hm hfirst
    rw [h1] at h
    obtain ⟨h3, _, h5, h6⟩ := h2 s' h
    exact ⟨h3, h5, h6⟩
  · intro t m
    refine ⟨swaprateLoop (t - s.swaptime) s t, ?_, hw.swap (swaprateLoop_swapEq _ s t)⟩
    unfold co_expire
    rfl
  · intro hh hroom hwin t m ht ht32
    obtain ⟨s', fl', ls', N, ds, h1, h2, _⟩ := co_expire_spec hw hh hroom hwin t m ht ht32
    exact ⟨s', fl', ls', h1, h2⟩
  · intro hrun
    exact ⟨_, hw.snapshot ((hw.chain .running trivial).head_eq_zero_iff.1 hrun)⟩
  · intro hne
    have hch := hw.chain .running trivial
    cases hl : ls .running with
    | nil =>
      rw [hl] at hch
      exact absurd hch hne
    | cons i rest =>
      rw [hl] at hch
      have e : s.running.list = i := hch.1
      rw [e]
      obtain ⟨s', fl', h1, h2, _⟩ := freecallout_running hw hl
      exact ⟨s', fl', _, h1, h2⟩

/-! ## C21: zero delay -/

/-- C21: in every state with capacity `cotabsz > 0`, for every `n` for which
`co_check` does not raise `TooMany`, a request with `delay = 0` and `mdelay`
0 or `0xffff` is admitted to the immediate list with the stored deadline 0,
second 0 and millisecond 0, whatever the clock reading, and the state (with
it `timestamp`) is returned unchanged. When the cyclic-buffer invariant
`Wheel` holds and the request is admitted as the next callout (`n = 0`),
`co_new` with that routing and a handle other than 0 returns; the new
callout is the last element of the immediate list, behind the elements that
were on it, the other lists and the keys of the listed callouts stay, and
`nshort` and `nzero` are both incremented by 1. -/
theorem co_check_zero_delay {s : State} {fl : List Nat} {ls : CbufRef → List Nat}
    (hw : Wheel s fl ls) (hcap : s.cotabsz ≠ 0) (mdelay : Nat)
    (hm : mdelay = 0 ∨ mdelay = 0xffff) :
    (∀ n c cms, co_check s n 0 mdelay c cms ≠ .error .tooMany →
      co_check s n 0 mdelay c cms = .ok (s, ⟨some .immediate, 0, 0, 0⟩)) ∧
    (∀ c cms handle oindex, co_check s 0 0 mdelay c cms ≠ .error .tooMany → u16 handle ≠ 0 →
      ∃ s' i, co_new s handle oindex 0 0 (some .immediate) = .ok s' ∧
        Wheel s' fl.tail (Function.update ls .immediate (ls .immediate ++ [i])) ∧
        s'.key i = (u16 oindex, u16 handle) ∧
        (∀ r, r.valid → i ∉ ls r) ∧
        (∀ r, r.valid → ∀ x ∈ ls r, s'.key x = s.key x) ∧
        s'.nshort = s.nshort + 1 ∧ s'.nzero = s.nzero + 1) := by
  have hT : ∀ n c cms, co_check s n 0 mdelay c cms ≠ .error .tooMany →
      ¬(u32 (s.queuebrk + s.nshort + n) = s.cotabsz ∨ u32 (s.nshort + n) = s.cotabsz - 1) :=
    fun n c cms hnot h => hnot ((co_check_full_iff s n 0 mdelay c cms hcap).2 h)
  constructor
  · intro n c cms hnot
    unfold co_check
    rw [if_neg hcap, if_neg (hT n c cms hnot), if_pos ⟨rfl, hm⟩]
  · intro c cms handle oindex hnot hh
    have h1 := hT 0 c cms hnot
    have hroom : s.flist = 0 → 2 ≤ s.cycbrk := by
      intro h0
      have hfl : fl = [] := (hw.free_chain.head_eq_zero_iff).1 h0
      have ht := hw.total
      have hb := hw.brk_pos
      have hc := hw.cap
      rw [hfl] at ht
      simp only [List.length_nil, Nat.add_zero] at ht
      by_contra hlt
      apply h1
      right
      unfold u32 UINT_MOD
      unfold UINDEX_MOD at hc
      omega
    obtain ⟨s', i, hn, hw', hk, hkeep, hfresh⟩ :=
      co_new_append hw .immediate trivial handle oindex 0 0 (Or.inl ⟨rfl, rfl⟩) hroom hh
    have hz : s'.nzero = s.nzero + 1 := by
      rw [hw'.nzero, hw.nzero]
      simp only [Function.update_same, List.length_append, List.length_singleton]
      rw [Function.update_noteq (by intro e; cases e)]
      omega
    refine ⟨s', i, hn, hw', hk, hfresh, hkeep, ?_, hz⟩
    rw [hw'.nshort, hw.nshort, hz, sum_update_other ls .immediate (fun k e => by cases e)]
    omega

/-- C21 at the state `dueState` (capacity 8, three callouts in buckets, one in
the heap): a zero-delay request is admitted to the immediate list, and
`co_new` for (object 9, handle 9) raises `nshort` from 3 to 4 and `nzero`
from 0 to 1. -/
theorem co_check_zero_delay_witness :
    dueState.cotabsz ≠ 0 ∧
    co_check dueState 0 0 0 1000000000 0 = .ok (dueState, ⟨some .immediate, 0, 0, 0⟩) ∧
    ∃ s' i, co_new dueState 9 9 0 0 (some .immediate) = .ok s' ∧
      s'.key i = (u16 9, u16 9) ∧ s'.nshort = dueState.nshort + 1 ∧
      s'.nzero = dueState.nzero + 1 := by
  obtain ⟨fl, ls, hw⟩ := dueState_inv.wheel
  have h := co_check_zero_delay hw (by decide) 0 (Or.inl rfl)
  refine ⟨by decide, h.1 0 1000000000 0 (by rw [show co_check dueState 0 0 0 1000000000 0 =
    .ok (dueState, ⟨some .immediate, 0, 0, 0⟩) from rfl]; exact fun e => by cases e), ?_⟩
  obtain ⟨s', i, h1, -, h2, -, -, h3, h4⟩ := h.2 1000000000 0 9 9
    (by rw [show co_check dueState 0 0 0 1000000000 0 =
      .ok (dueState, ⟨some .immediate, 0, 0, 0⟩) from rfl]; exact fun e => by cases e)
    (by decide)
  exact ⟨s', i, h1, h2, h3, h4⟩

/-! ## C22: the top byte of the stored deadline -/

/-- The top byte of an encoded millisecond deadline is 1. -/
theorem encode_top_byte (s : State) (t m : Nat) (hm : m < UINDEX_MOD) :
    encode s t m >>> 24 = 1 := by
  unfold encode
  rw [and_ff, Nat.shiftLeft_eq, Nat.shiftRight_eq_div_pow]
  unfold u32 UINT_MOD
  unfold UINDEX_MOD at hm
  have h1 : sub32 t s.timediff % 256 < 256 := Nat.mod_lt _ (by norm_num)
  omega

/-- C22 fails as stated: the top byte of a whole-second stored deadline is
that of `sec - timediff`, whatever it is. After `co_init(8)`, a request for
200 whole seconds at the clock reading 1000 is admitted with the stored
deadline 1200, top byte `0x00`; a request for 5 whole seconds at the clock
reading 16777216 is admitted to a bucket with the stored deadline 16777221,
top byte `0x01`. For the latter `co_remaining` decodes a millisecond
deadline and reports `-7` for the 5 seconds that remain, and `co_del` skips
the cyclic buffer, finds the element in its search through the table and
hands it to `dequeue`: the callout stays on its bucket (`nshort = 1`) and
`queuebrk` wraps to 65535. -/
theorem co_check_whole_second_top_byte :
    ∃ s0 s1 a1 s2 a2 s3,
      co_init zeroMem 8 1000000000 = .ok s0 ∧
      checkNew s0 1 1 200 0xffff 1000 0 = .ok (s1, a1) ∧
      a1.stored = 1200 ∧ a1.stored >>> 24 = 0 ∧ a1.t = 1200 ∧ a1.q = none ∧
      checkNew s0 1 1 5 0xffff 16777216 0 = .ok (s2, a2) ∧
      a2.stored = 16777221 ∧ a2.stored >>> 24 = 1 ∧ a2.t = 16777221 ∧
      a2.q = some (.cyc 5) ∧ s2.listOf (.cyc 5) = [7] ∧ s2.key 7 = (1, 1) ∧
      s2.nshort = 1 ∧ s2.queuebrk = 0 ∧
      (co_remaining s2 a2.stored 16777216 0).2 = -7 ∧
      co_del true s2 1 1 a2.stored = .ok s3 ∧
      s3.listOf (.cyc 5) = [7] ∧ s3.nshort = 1 ∧ s3.queuebrk = 65535 :=
  ⟨_, _, _, _, _, _, rfl, rfl, rfl, rfl, rfl, rfl, rfl, rfl, rfl, rfl, rfl, rfl, rfl, rfl, rfl,
    rfl, rfl, rfl, rfl, rfl⟩

/-- C22, amended: for every request that `co_check` admits with capacity
`cotabsz > 0`: an immediate request (`delay = 0` and `mdelay` 0 or `0xffff`)
gets the stored deadline 0; a millisecond-precise request that is not
immediate gets a stored deadline with top byte `0x01`, the encoding of its
deadline; a whole-second request that is not immediate gets
`sec - timediff` (as a 32-bit word), whose top byte is neither `0x00` nor
`0x01` when `sec - timediff >= 2^25`. When that bound holds for the
whole-second requests, the stored deadline is 0 if and only if the request
is immediate, and its top byte is `0x01` if and only if the request is
millisecond-precise and not immediate. -/
theorem co_check_stored_kind (s s' : State) (n : Nat) (delay : Int) (mdelay c cms : Nat)
    (a : Admission) (hcap : s.cotabsz ≠ 0)
    (hadm : co_check s n delay mdelay c cms = .ok (s', a)) :
    ((delay = 0 ∧ (mdelay = 0 ∨ mdelay = 0xffff)) →
      a.stored = 0 ∧ a.q = some .immediate ∧ s' = s) ∧
    (¬ (delay = 0 ∧ (mdelay = 0 ∨ mdelay = 0xffff)) → mdelay ≠ 0xffff →
      a.stored >>> 24 = 1 ∧ a.stored = encode s' a.t a.m) ∧
    (¬ (delay = 0 ∧ (mdelay = 0 ∨ mdelay = 0xffff)) → mdelay = 0xffff →
      a.stored = sub32 a.t s'.timediff ∧
      (0x02000000 ≤ sub32 a.t s'.timediff → a.stored >>> 24 ≠ 0 ∧ a.stored >>> 24 ≠ 1)) ∧
    ((¬ (delay = 0 ∧ (mdelay = 0 ∨ mdelay = 0xffff)) → mdelay = 0xffff →
        0x02000000 ≤ sub32 a.t s'.timediff) →
      (a.stored = 0 ↔ (delay = 0 ∧ (mdelay = 0 ∨ mdelay = 0xffff))) ∧
      (a.stored >>> 24 = 1 ↔
        (¬ (delay = 0 ∧ (mdelay = 0 ∨ mdelay = 0xffff)) ∧ mdelay ≠ 0xffff))) := by
  have h1 : ¬(u32 (s.queuebrk + s.nshort + n) = s.cotabsz ∨ u32 (s.nshort + n) = s.cotabsz - 1) := by
    intro h
    rw [(co_check_full_iff s n delay mdelay c cms hcap).2 h] at hadm
    cases hadm
  have hsh : ∀ x, 0x02000000 ≤ x → x >>> 24 ≠ 0 ∧ x >>> 24 ≠ 1 := by
    intro x hx
    rw [Nat.shiftRight_eq_div_pow]
    omega
  -- the three kinds of request
  have hI : (delay = 0 ∧ (mdelay = 0 ∨ mdelay = 0xffff)) →
      a.stored = 0 ∧ a.q = some .immediate ∧ s' = s := by
    intro h2
    unfold co_check at hadm
    rw [if_neg hcap, if_neg h1, if_pos h2] at hadm
    simp only [Except.ok.injEq, Prod.mk.injEq] at hadm
    obtain ⟨e1, e2⟩ := hadm
    subst e1 e2
    exact ⟨rfl, rfl, rfl⟩
  have hD : ¬ (delay = 0 ∧ (mdelay = 0 ∨ mdelay = 0xffff)) →
      a.stored = (if mdelay = 0xffff then sub32 a.t s'.timediff else encode s' a.t a.m) ∧
      a.m < UINDEX_MOD := by
    intro h2
    rw [co_check_delayed s n delay mdelay c cms hcap h1 h2] at hadm
    dsimp only at hadm
    by_cases hm : mdelay = 0xffff
    · rw [if_pos hm]
      simp only [hm, ne_eq, not_true_eq_false, if_false, if_true, true_and] at hadm
      split_ifs at hadm
      all_goals
        simp only [Except.ok.injEq, Prod.mk.injEq] at hadm
        obtain ⟨e1, e2⟩ := hadm
        subst e1 e2
        exact ⟨rfl, by unfold UINDEX_MOD; norm_num⟩
    · rw [if_neg hm]
      simp only [hm, ne_eq, not_false_eq_true, if_false, if_true, false_and] at hadm
      split_ifs at hadm
      all_goals
        simp only [Except.ok.injEq, Prod.mk.injEq] at hadm
        obtain ⟨e1, e2⟩ := hadm
        subst e1 e2
        refine ⟨rfl, ?_⟩
        dsimp only
        unfold u16 UINDEX_MOD
        omega
  have hM : ¬ (delay = 0 ∧ (mdelay = 0 ∨ mdelay = 0xffff)) → mdelay ≠ 0xffff →
      a.stored >>> 24 = 1 ∧ a.stored = encode s' a.t a.m := by
    intro h2 h3
    obtain ⟨e1, e2⟩ := hD h2
    rw [if_neg h3] at e1
    rw [e1]
    exact ⟨encode_top_byte s' a.t a.m e2, rfl⟩
  have hW : ¬ (delay = 0 ∧ (mdelay = 0 ∨ mdelay = 0xffff)) → mdelay = 0xffff →
      a.stored = sub32 a.t s'.timediff ∧
      (0x02000000 ≤ sub32 a.t s'.timediff → a.stored >>> 24 ≠ 0 ∧ a.stored >>> 24 ≠ 1) := by
    intro h2 h3
    obtain ⟨e1, _⟩ := hD h2
    rw [if_pos h3] at e1
    rw [e1]
    exact ⟨rfl, hsh _⟩
  refine ⟨hI, hM, hW, ?_⟩
  intro hb
  constructor
  · constructor
    · intro h0
      by_contra h2
      by_cases h3 : mdelay = 0xffff
      · have := ((hW h2 h3).2 (hb h2 h3)).1
        rw [h0] at this
        exact this rfl
      · have := (hM h2 h3).1
        rw [h0] at this
        exact absurd this (by decide)
    · intro h2
      exact (hI h2).1
  · constructor
    · intro h0
      by_cases h2 : delay = 0 ∧ (mdelay = 0 ∨ mdelay = 0xffff)
      · have := (hI h2).1
        rw [this] at h0
        exact absurd h0 (by decide)
      · refine ⟨h2, fun h3 => ?_⟩
        exact ((hW h2 h3).2 (hb h2 h3)).2 h0
    · rintro ⟨h2, h3⟩
      exact (hM h2 h3).1

/-- The amended C22 at a concrete input: in `dueState` (capacity 8) a request
for 5 whole seconds at the clock reading 1000000000 is admitted to bucket 5
with the stored deadline 1000000005, top byte `0x3b`. -/
theorem co_check_stored_kind_witness :
    dueState.cotabsz ≠ 0 ∧
    co_check dueState 0 5 0xffff 1000000000 0 =
      .ok (dueState, ⟨some (.cyc 5), 1000000005, 1000000005, 0⟩) ∧
    (⟨some (.cyc 5), 1000000005, 1000000005, 0⟩ : Admission).stored =
      sub32 (⟨some (.cyc 5), 1000000005, 1000000005, 0⟩ : Admission).t dueState.timediff ∧
    (0x02000000 ≤
        sub32 (⟨some (.cyc 5), 1000000005, 1000000005, 0⟩ : Admission).t dueState.timediff →
      (⟨some (.cyc 5), 1000000005, 1000000005, 0⟩ : Admission).stored >>> 24 ≠ 0 ∧
      (⟨some (.cyc 5), 1000000005, 1000000005, 0⟩ : Admission).stored >>> 24 ≠ 1) :=
  ⟨by decide, rfl,
    (co_check_stored_kind dueState dueState 0 5 0xffff 1000000000 0
      ⟨some (.cyc 5), 1000000005, 1000000005, 0⟩ (by decide) rfl).2.2.1 (by decide) rfl⟩

/-! ## C23, C24: the clock adapter `co_time` -/

/-- C23: for every state and every clock reading `(c, cms)` with
`c < timestamp`, `co_time` returns the second `timestamp` with millisecond 0
and does not change the state, `timestamp` included. -/
theorem co_time_clock_back (s : State) (c cms : Nat) (h : c < s.timestamp) :
    co_time s c cms = (s, s.timestamp, 0) := by
  unfold co_time
  rw [if_pos h]

/-- C23 at a concrete input: with `timestamp = 1000000000` in `dueState` and
the clock reading `(999999999, 250)`, one second back. -/
theorem co_time_clock_back_witness :
    (999999999 : Nat) < dueState.timestamp ∧
    co_time dueState 999999999 250 = (dueState, dueState.timestamp, 0) ∧
    (co_time dueState 999999999 250).2 = (1000000000, 0) :=
  ⟨by show (999999999 : Nat) < 1000000000; norm_num,
    co_time_clock_back dueState 999999999 250 (by show (999999999 : Nat) < 1000000000; norm_num),
    rfl⟩

/-- C24 fails as stated. After `co_init(8)` a callout with a delay of 500
seconds is admitted at clock 1000000000, which arms the alarm for
1000000500 (`timestamp = 1000000000`). First reading, 1000000100, more than
60 seconds after `timestamp` and before the alarm: `co_time` returns
1000000100 with the clock millisecond and moves `timestamp` there. Second
reading, 1000003000, after the alarm: `co_time` first moves `timestamp` to
`atimeout - 1 = 1000000499` and returns 1000000559, which is 60 seconds
after that, with millisecond 0. Neither is `timestamp + 60 = 1000000060`. -/
theorem co_time_cap_not_from_old_timestamp :
    ∃ s0 s1 a1,
      co_init zeroMem 8 1000000000 = .ok s0 ∧
      checkNew s0 1 1 500 0xffff 1000000000 0 = .ok (s1, a1) ∧
      s1.timestamp = 1000000000 ∧ s1.atimeout = 1000000500 ∧ s1.atimeout ≠ 0 ∧
      1000000100 > s1.timestamp + 60 ∧
      (co_time s1 1000000100 7).2 = (1000000100, 7) ∧
      (co_time s1 1000000100 7).1.timestamp = 1000000100 ∧
      1000003000 > s1.timestamp + 60 ∧
      (co_time s1 1000003000 7).2 = (1000000559, 0) ∧
      (co_time s1 1000003000 7).1.timestamp = 1000000499 :=
  ⟨_, _, _, rfl, rfl, rfl, rfl, by decide,
    by show (1000000100 : Nat) > 1000000000 + 60; norm_num, rfl, rfl,
    by show (1000003000 : Nat) > 1000000000 + 60; norm_num, rfl, rfl⟩

/-- C24, amended: the cap is taken from `timestamp` as `co_time` leaves it,
and only when the alarm is due. For every state with an armed alarm
(`atimeout != 0`, a 32-bit word) and every clock reading `(c, cms)` after
`timestamp`: when `c < atimeout`, `co_time` returns `(c, cms)` and sets
`timestamp = c`; when `atimeout <= c`, it leaves `timestamp` at
`T = max(timestamp, atimeout - 1)`, and returns `(T + 60, 0)` if
`c > T + 60` and `(c, cms)` otherwise (`T + 60` being a 32-bit word). In
particular a reading more than 60 seconds after `timestamp`, with the alarm
armed for `timestamp + 1` or earlier, gives `(timestamp + 60, 0)` and leaves
`timestamp` alone. -/
theorem co_time_lag (s : State) (c cms : Nat) (ha : s.atimeout ≠ 0)
    (ha32 : s.atimeout < UINT_MOD) (hc : s.timestamp < c)
    (h60 : max s.timestamp (s.atimeout - 1) + 60 < UINT_MOD) :
    (c < s.atimeout →
      (co_time s c cms).2 = (c, cms) ∧ (co_time s c cms).1.timestamp = c) ∧
    (s.atimeout ≤ c →
      (co_time s c cms).1.timestamp = max s.timestamp (s.atimeout - 1) ∧
      (max s.timestamp (s.atimeout - 1) + 60 < c →
        (co_time s c cms).2 = (max s.timestamp (s.atimeout - 1) + 60, 0)) ∧
      (c ≤ max s.timestamp (s.atimeout - 1) + 60 → (co_time s c cms).2 = (c, cms))) ∧
    (s.atimeout ≤ s.timestamp + 1 → s.timestamp + 60 < c →
      co_time s c cms = (s, s.timestamp + 60, 0)) := by
  have hsub : sub32 s.atimeout 1 = s.atimeout - 1 := by
    unfold sub32 UINT_MOD at *
    omega
  have hnb : ¬ c < s.timestamp := by omega
  refine ⟨?_, ?_, ?_⟩
  · intro h
    unfold co_time
    rw [if_neg hnb, if_pos hc, if_pos (Or.inr h)]
    exact ⟨rfl, rfl⟩
  · intro h
    have hno : ¬ (s.atimeout = 0 ∨ s.atimeout > c) := by
      rintro (h1 | h1)
      · exact ha h1
      · omega
    unfold co_time
    rw [if_neg hnb, if_pos hc, if_neg hno, hsub]
    dsimp only
    by_cases hlt : s.timestamp < s.atimeout - 1
    · have hmax : max s.timestamp (s.atimeout - 1) = s.atimeout - 1 := max_eq_right (le_of_lt hlt)
      rw [hmax] at h60 ⊢
      simp only [if_pos hlt]
      have hu : u32 (s.atimeout - 1 + 60) = s.atimeout - 1 + 60 := Nat.mod_eq_of_lt h60
      refine ⟨?_, ?_, ?_⟩
      · split_ifs <;> rfl
      · intro h2
        rw [hu, if_pos h2]
      · intro h2
        rw [hu, if_neg (by omega)]
    · have hmax : max s.timestamp (s.atimeout - 1) = s.timestamp := max_eq_left (by omega)
      rw [hmax] at h60 ⊢
      simp only [if_neg hlt]
      have hu : u32 (s.timestamp + 60) = s.timestamp + 60 := Nat.mod_eq_of_lt h60
      refine ⟨?_, ?_, ?_⟩
      · split_ifs <;> rfl
      · intro h2
        rw [hu, if_pos h2]
      · intro h2
        rw [hu, if_neg (by omega)]
  · intro h1 h2
    have hno : ¬ (s.atimeout = 0 ∨ s.atimeout > c) := by
      rintro (h3 | h3)
      · exact ha h3
      · omega
    have hlt : ¬ s.timestamp < s.atimeout - 1 := by omega
    have hmax : max s.timestamp (s.atimeout - 1) = s.timestamp := max_eq_left (by omega)
    rw [hmax] at h60
    have hu : u32 (s.timestamp + 60) = s.timestamp + 60 := Nat.mod_eq_of_lt h60
    unfold co_time
    rw [if_neg hnb, if_pos hc, if_neg hno, hsub]
    simp only [if_neg hlt]
    rw [hu, if_pos h2]

/-- The amended C24 at concrete inputs: `dueState` has `timestamp =
1000000000` and the alarm armed for 1000000003; the reading 1000003000
leaves `timestamp = 1000000002` and returns `(1000000062, 0)`. -/
theorem co_time_lag_witness :
    dueState.atimeout ≠ 0 ∧ dueState.atimeout < UINT_MOD ∧ dueState.timestamp < 1000003000 ∧
    max dueState.timestamp (dueState.atimeout - 1) + 60 < UINT_MOD ∧
    ((1000003000 < dueState.atimeout →
      (co_time dueState 1000003000 7).2 = (1000003000, 7) ∧
      (co_time dueState 1000003000 7).1.timestamp = 1000003000) ∧
    (dueState.atimeout ≤ 1000003000 →
      (co_time dueState 1000003000 7).1.timestamp =
        max dueState.timestamp (dueState.atimeout - 1) ∧
      (max dueState.timestamp (dueState.atimeout - 1) + 60 < 1000003000 →
        (co_time dueState 1000003000 7).2 =
          (max dueState.timestamp (dueState.atimeout - 1) + 60, 0)) ∧
      (1000003000 ≤ max dueState.timestamp (dueState.atimeout - 1) + 60 →
        (co_time dueState 1000003000 7).2 = (1000003000, 7))) ∧
    (dueState.atimeout ≤ dueState.timestamp + 1 → dueState.timestamp + 60 < 1000003000 →
      co_time dueState 1000003000 7 = (dueState, dueState.timestamp + 60, 0))) ∧
    (co_time dueState 1000003000 7).2 = (1000000062, 0) ∧
    (co_time dueState 1000003000 7).1.timestamp = 1000000002 :=
  ⟨by decide, by show (1000000003 : Nat) < 4294967296; norm_num,
    by show (1000000000 : Nat) < 1000003000; norm_num,
    by show max (1000000000 : Nat) (1000000003 - 1) + 60 < 4294967296; norm_num,
    co_time_lag dueState 1000003000 7 (by decide)
      (by show (1000000003 : Nat) < 4294967296; norm_num)
      (by show (1000000000 : Nat) < 1000003000; norm_num)
      (by show max (1000000000 : Nat) (1000000003 - 1) + 60 < 4294967296; norm_num),
    rfl, rfl⟩

/-! ## C25: `co_delay` -/

theorem co_time_alarm (s : State) (c cms : Nat) :
    (co_time s c cms).1.atimeout = s.atimeout ∧ (co_time s c cms).1.amtime = s.amtime := by
  rw [co_time_state]
  exact ⟨rfl, rfl⟩

/-- The function `co_delay` in terms of the reading of `co_time`. -/
theorem co_delay_eq (s : State) (c cms : Nat) :
    (co_delay s c cms).2 =
      if s.nzero ≠ 0 then (0, 0)
      else if s.atimeout = 0 then (0, 0xffff)
      else if (co_time s c cms).2.1 > s.atimeout ∨
          ((co_time s c cms).2.1 = s.atimeout ∧ (co_time s c cms).2.2 ≥ s.amtime) then (0, 0)
      else if (co_time s c cms).2.2 > s.amtime then
        (sub32 s.atimeout (u32 ((co_time s c cms).2.1 + 1)),
          u16 (s.amtime +
            (UINDEX_MOD - u16 ((co_time s c cms).2.2 + (UINDEX_MOD - 1000)) % UINDEX_MOD)))
      else
        (sub32 s.atimeout (co_time s c cms).2.1,
          u16 (s.amtime + (UINDEX_MOD - (co_time s c cms).2.2 % UINDEX_MOD))) := by
  obtain ⟨a1, a2⟩ := co_time_alarm s c cms
  unfold co_delay
  by_cases h1 : s.nzero ≠ 0
  · rw [if_pos h1, if_pos h1]
  · rw [if_neg h1, if_neg h1]
    by_cases h2 : s.atimeout = 0
    · rw [if_pos h2, if_pos h2]
    · rw [if_neg h2, if_neg h2]
      rcases hct : co_time s c cms with ⟨s1, t, m⟩
      rw [hct] at a1 a2
      dsimp only at a1 a2 ⊢
      rw [a1, a2]
      by_cases h3 : t > s.atimeout ∨ (t = s.atimeout ∧ m ≥ s.amtime)
      · rw [if_pos h3, if_pos h3]
      · rw [if_neg h3, if_neg h3]
        by_cases h4 : m > s.amtime
        · simp only [if_pos h4]
        · simp only [if_neg h4]

/-- C25: `co_delay` returns `(0, 0)` when `nzero != 0`; `(0, 0xffff)` when
`nzero = 0` and no alarm is armed (`atimeout = 0`), as in the state that
`co_init` delivers; and otherwise, with `(now, now_ms)` the reading that
`co_time` delivers, `(0, 0)` when `(now, now_ms)` is at or past the alarm
`(atimeout, amtime)`, and else, for `amtime <= 999`, `now_ms <= 999` and
`atimeout` a 32-bit word, a pair `(sec, ms)` with `ms <= 999` and
`sec * 1000 + ms = (atimeout * 1000 + amtime) - (now * 1000 + now_ms)`. -/
theorem co_delay_spec (s : State) (c cms : Nat) :
    (s.nzero ≠ 0 → (co_delay s c cms).2 = (0, 0)) ∧
    (s.nzero = 0 → s.atimeout = 0 → (co_delay s c cms).2 = (0, 0xffff)) ∧
    (∀ mem0 max now s0, co_init mem0 max now = .ok s0 → (co_delay s0 c cms).2 = (0, 0xffff)) ∧
    (s.nzero = 0 → s.atimeout ≠ 0 →
      ((co_time s c cms).2.1 > s.atimeout ∨
        ((co_time s c cms).2.1 = s.atimeout ∧ (co_time s c cms).2.2 ≥ s.amtime)) →
      (co_delay s c cms).2 = (0, 0)) ∧
    (s.nzero = 0 → s.atimeout ≠ 0 →
      ¬ ((co_time s c cms).2.1 > s.atimeout ∨
        ((co_time s c cms).2.1 = s.atimeout ∧ (co_time s c cms).2.2 ≥ s.amtime)) →
      s.amtime ≤ 999 → (co_time s c cms).2.2 ≤ 999 → s.atimeout < UINT_MOD →
      (co_delay s c cms).2.2 ≤ 999 ∧
      (co_delay s c cms).2.1 * 1000 + (co_delay s c cms).2.2 +
          ((co_time s c cms).2.1 * 1000 + (co_time s c cms).2.2) =
        s.atimeout * 1000 + s.amtime ∧
      (co_time s c cms).2.1 * 1000 + (co_time s c cms).2.2 <
        s.atimeout * 1000 + s.amtime) := by
  refine ⟨?_, ?_, ?_, ?_, ?_⟩
  · intro h
    rw [co_delay_eq, if_pos h]
  · intro h1 h2
    rw [co_delay_eq, if_neg (not_not.2 h1), if_pos h2]
  · intro mem0 max now s0 h
    unfold co_init at h
    split_ifs at h
    all_goals
      simp only [Except.ok.injEq] at h
      subst h
      rfl
  · intro h1 h2 h3
    rw [co_delay_eq, if_neg (not_not.2 h1), if_neg h2, if_pos h3]
  · intro h1 h2 h3 h4 h5 h6
    rw [co_delay_eq, if_neg (not_not.2 h1), if_neg h2, if_neg h3]
    generalize (co_time s c cms).2.1 = t at *
    generalize (co_time s c cms).2.2 = m at *
    have hle : t ≤ s.atimeout := by
      by_contra hgt
      exact h3 (Or.inl (by omega))
    by_cases h7 : m > s.amtime
    · rw [if_pos h7]
      have hlt : t < s.atimeout := by
        rcases Nat.lt_or_ge t s.atimeout with h | h
        · exact h
        · exact absurd (Or.inr ⟨le_antisymm hle h, by omega⟩) h3
      have e1 : u32 (t + 1) = t + 1 := by
        unfold u32 UINT_MOD at *
        omega
      have e2 : sub32 s.atimeout (t + 1) = s.atimeout - (t + 1) := by
        unfold sub32 UINT_MOD at *
        omega
      have e3 : u16 (m + (UINDEX_MOD - 1000)) = m + 64536 := by
        unfold u16 UINDEX_MOD
        omega
      have e4 : u16 (s.amtime + (UINDEX_MOD - (m + 64536) % UINDEX_MOD)) =
          s.amtime + 1000 - m := by
        unfold u16 UINDEX_MOD
        omega
      rw [e1, e2, e3, e4]
      dsimp only
      obtain ⟨d, hd⟩ : ∃ d, s.atimeout = t + 1 + d := ⟨s.atimeout - (t + 1), by omega⟩
      have e5 : s.atimeout - (t + 1) = d := by omega
      rw [e5, hd]
      omega
    · rw [if_neg h7]
      have hne : ¬ (t = s.atimeout ∧ m ≥ s.amtime) := fun h => h3 (Or.inr h)
      have e2 : sub32 s.atimeout t = s.atimeout - t := by
        unfold sub32 UINT_MOD at *
        omega
      have e4 : u16 (s.amtime + (UINDEX_MOD - m % UINDEX_MOD)) = s.amtime - m := by
        unfold u16 UINDEX_MOD
        omega
      rw [e2, e4]
      dsimp only
      have hmle : m ≤ s.amtime := by omega
      have hx : t < s.atimeout ∨ m < s.amtime := by
        by_contra hcon
        push_neg at hcon
        exact hne ⟨by omega, hcon.2⟩
      obtain ⟨d, hd⟩ : ∃ d, s.atimeout = t + d := ⟨s.atimeout - t, by omega⟩
      have e5 : s.atimeout - t = d := by omega
      rw [e5, hd]
      rw [hd] at hx
      omega

/-! ## C26: the state after `co_call` -/

/-- The dispatch of `co_call` after `co_expire`, with callout functions that
do not call back into the scheduler: the callouts of the immediate list are
invoked in the order of the list, and the running and the immediate list
are empty afterwards. -/
theorem co_call_after {s0 s' : State} {fl' : List Nat} {ls' : CbufRef → List Nat}
    (fired : Bool) (t m : Nat) (he : co_expire s0 fired t m = .ok s') (hw' : Wheel s' fl' ls')
    (hrun' : ls' .running = []) :
    ∃ s'' fl'', co_call quietInvoke s0 fired t m = .ok (s'', (ls' .immediate).map s'.key) ∧
      Wheel s'' fl'' (Function.update
        (Function.update (Function.update ls' .running (ls' .immediate)) .immediate [])
        .running []) := by
  have hw1 := hw'.snapshot hrun'
  have hlen := hw'.length_le .immediate trivial
  have hcap := hw'.cap
  obtain ⟨s'', fl'', hcall, hw'', -⟩ :=
    callLoop_spec (ls' .immediate) UINDEX_MOD _ fl' _ hw1
      (by rw [Function.update_noteq (by intro h; cases h), Function.update_same])
      (by omega)
  by_cases h0 : s'.immediate.list = 0
  · have hnil : ls' .immediate = [] := (hw'.chain .immediate trivial).head_eq_zero_iff.1 h0
    refine ⟨({ s' with running := s'.immediate } : State).setList .immediate 0, fl', ?_, ?_⟩
    · have h0' : (({ s' with running := s'.immediate } : State).setList .immediate 0).running.list
          = 0 := h0
      unfold co_call
      simp only [bind, Except.bind, he]
      rw [if_neg (not_not.2 h0'), hnil]
      rfl
    · have e : Function.update
          (Function.update (Function.update ls' .running (ls' .immediate)) .immediate [])
          .running [] =
          Function.update (Function.update ls' .running (ls' .immediate)) .immediate [] := by
        apply Function.update_eq_self_iff.2
        rw [Function.update_noteq (by intro h; cases h), Function.update_same, hnil]
      rw [e]
      exact hw1
  · refine ⟨s'', fl'', ?_, hw''⟩
    have h0' : (({ s' with running := s'.immediate } : State).setList .immediate 0).running.list
        ≠ 0 := h0
    unfold co_call
    simp only [bind, Except.bind, he]
    rw [if_pos h0']
    exact hcall

/-- C28 fails as stated. With the clock reading 1000 `co_init(8)` stops with
the fatal error "bad time"; take the scenario at the clock readings
1000000000 (enqueue and dump) and 1000000300 (restore). The callout (object
42, handle 1) with a delay of 200 whole seconds is a heap entry due at
second 1000000200. `co_restore` at 1000000300 adds the 300 seconds of the
outage to its deadline and to `timediff`: the restored entry is due at
second 1000000500, `co_delay` at the restore time returns `(200, 0)`, not
`(0, 0)`, and `co_call` at the restore time invokes nothing, whether the
alarm fired or not; the callout stays in the heap. -/
theorem co_restore_not_immediately_due :
    co_init zeroMem 8 1000 = .error .badTime ∧
    ∃ s0 s1 a f0 r c1 c2,
      co_init zeroMem 8 1000000000 = .ok s0 ∧
      checkNew s0 1 42 200 0xffff 1000000000 0 = .ok (s1, a) ∧
      a.q = none ∧ a.stored = 1000000200 ∧ s1.queuebrk = 1 ∧
      s1.mem 1 = ⟨1, 42, 1000000200, 0⟩ ∧
      co_init zeroMem 8 1000000300 = .ok f0 ∧
      co_restore f0 (co_dump s1 1000000000 0).2 1000000300 = .ok r ∧
      r.mem 1 = ⟨1, 42, 1000000500, 0⟩ ∧ r.timediff = 300 ∧ r.timestamp = 1000000300 ∧
      (co_delay r 1000000300 0).2 = (200, 0) ∧
      co_call quietInvoke r false 1000000300 0 = .ok (c1, []) ∧
      co_call quietInvoke r true 1000000300 0 = .ok (c2, []) ∧
      co_info c1 = (0, 1) ∧ co_info c2 = (0, 1) :=
  ⟨rfl, _, _, _, _, _, _, _, rfl, rfl, rfl, rfl, rfl, rfl, rfl, rfl, rfl, rfl, rfl, rfl, rfl,
    rfl, rfl, rfl⟩

set_option maxRecDepth 100000 in
/-- C28, amended: after `co_init(8)`, the admission of (object 42, handle 1)
with a delay of 200 whole seconds at the clock reading 1000000000, `co_dump`
at that reading and `co_restore` of the dump into a scheduler initialised
with `co_init(8)` at the clock reading 1000000300, the callout is due 200
seconds after the restore: `co_remaining` for its stored deadline and
`co_delay` both report 200 seconds at the restore time, `co_call` for an
alarm at `(1000000499, 999)` returns, invokes nothing and leaves
`co_info() = (0, 1)`, and `co_call` for the alarm at `(1000000500, 0)`
returns, invokes the callout and leaves `co_info() = (0, 0)`. -/
theorem co_restore_due_after_outage :
    ∃ s0 s1 a f0 r,
      co_init zeroMem 8 1000000000 = .ok s0 ∧
      checkNew s0 1 42 200 0xffff 1000000000 0 = .ok (s1, a) ∧
      co_init zeroMem 8 1000000300 = .ok f0 ∧
      co_restore f0 (co_dump s1 1000000000 0).2 1000000300 = .ok r ∧
      (co_remaining r a.stored 1000000300 0).2 = 200 ∧
      (co_delay r 1000000300 0).2 = (200, 0) ∧
      (co_call quietInvoke r true 1000000499 999).map (fun p => (p.2, co_info p.1)) =
        .ok ([], (0, 1)) ∧
      (co_call quietInvoke r true 1000000500 0).map (fun p => (p.2, co_info p.1)) =
        .ok ([(42, 1)], (0, 0)) :=
  ⟨_, _, _, _, _, rfl, rfl, rfl, rfl, rfl, rfl, rfl, rfl⟩

/-! ## C29: cancelling a callout that is not there -/

/-- C29 fails in the code, also in the one compiled under `DEBUG`: the test
`l == cotab + queuebrk` follows the increment of `l`, so with an empty heap
(`queuebrk = 0`) it never holds. After `co_init(8)` the admission of (object
1, handle 1) with a delay of 200 whole seconds makes a heap entry, and
`co_del` removes it: `co_info() = (0, 0)`, and `cotab[0]` still holds object
1 and handle 1. A second `co_del` with the same key matches no pending
callout; it does not stop with the fatal error but finds the stale slot
`cotab[0]` and hands it to `dequeue`, which decrements `queuebrk` from 0 to
65535. In the state after `co_init(8)`, where no slot matches, the search
runs through the whole table and leaves it, again without the fatal
error. -/
theorem co_del_missing_not_fatal :
    ∃ s0 s1 a s2 s3,
      co_init zeroMem 8 1000000000 = .ok s0 ∧
      checkNew s0 1 1 200 0xffff 1000000000 0 = .ok (s1, a) ∧
      a.q = none ∧ co_info s1 = (0, 1) ∧
      co_del true s1 1 1 a.stored = .ok s2 ∧
      co_info s2 = (0, 0) ∧ s2.key 0 = (1, 1) ∧
      s2.listOf .immediate = [] ∧ s2.listOf .running = [] ∧
      s2.listOf (.cyc (cycIndex (u32 (a.stored + s2.timediff)))) = [] ∧
      co_del true s2 1 1 a.stored = .ok s3 ∧
      co_info s3 = (0, 65535) ∧
      co_del true s0 1 1 a.stored = .error .outOfBounds :=
  ⟨_, _, _, _, _, rfl, rfl, rfl, rfl, rfl, rfl, rfl, rfl, rfl, rfl, rfl, rfl, rfl⟩

/-! ## C30: the swap rates -/

theorem swapRegs_setCotab (s : State) (i : Nat) (v : call_out) :
    (s.setCotab i v).swapRegs = s.swapRegs := rfl

theorem swapRegs_setCbuf (s : State) (r : CbufRef) (c : cbuf) :
    (s.setCbuf r c).swapRegs = s.swapRegs := by
  cases r <;> rfl

theorem restart_swapRegs (s s' : State) (t : Nat) (h : restart s t = .ok s') :
    s'.swapRegs = s.swapRegs := by
  have := restart_alarmEq s s' t h
  unfold alarmEq at this
  rw [this]
  rfl

theorem dequeue_swapRegs (s s' : State) (i : Nat) (h : dequeue s i = .ok s') :
    s'.swapRegs = s.swapRegs := by
  have := dequeue_registers s s' i h
  rw [this]
  rfl

theorem allocSlot_swapRegs (s : State) (t : Nat) : (allocSlot s t).1.swapRegs = s.swapRegs := by
  rw [allocSlot_fst]
  rfl

theorem newcallout_swapRegs (s s' : State) (r : CbufRef) (t i : Nat)
    (h : newcallout s r t = .ok (s', i)) : s'.swapRegs = s.swapRegs := by
  unfold newcallout at h
  simp only [bind, Except.bind, pure, Except.pure] at h
  split at h
  · cases h
  · rename_i s2 hs2
    simp only [Except.ok.injEq, Prod.mk.injEq] at h
    obtain ⟨h, -⟩ := h
    subst h
    have e2 : s2.swapRegs = s.swapRegs := by
      split_ifs at hs2
      · rw [restart_swapRegs _ _ _ hs2]
        unfold State.setCount State.setList
        rw [swapRegs_setCotab, swapRegs_setCbuf, allocSlot_swapRegs]
      · simp only [Except.ok.injEq] at hs2
        subst hs2
        unfold State.setCount State.setList
        rw [swapRegs_setCotab, swapRegs_setCbuf, allocSlot_swapRegs]
      · simp only [Except.ok.injEq] at hs2
        subst hs2
        unfold State.setNext State.setCount
        rw [swapRegs_setCotab, swapRegs_setCotab, allocSlot_swapRegs]
    unfold State.setNext State.setLast
    rw [swapRegs_setCotab, swapRegs_setCbuf, e2]

theorem migrateRoot_swapRegs (s s' : State) (h : migrateRoot s = .ok s') :
    s'.swapRegs = s.swapRegs := by
  unfold migrateRoot at h
  simp only [bind, Except.bind, pure, Except.pure] at h
  split at h
  · cases h
  · rename_i s1 h1
    split at h
    · cases h
    · rename_i p h2
      obtain ⟨s2, i⟩ := p
      simp only [Except.ok.injEq] at h
      subst h
      rw [swapRegs_setCotab, newcallout_swapRegs _ _ _ _ _ h2, dequeue_swapRegs _ _ _ h1]

theorem drainBefore_swapRegs : ∀ (fuel : Nat) (s s' : State), drainBefore fuel s = .ok s' →
    s'.swapRegs = s.swapRegs
  | 0, _, _, h => by cases h
  | fuel + 1, s, s', h => by
    unfold drainBefore at h
    split_ifs at h
    · simp only [bind, Except.bind] at h
      split at h
      · cases h
      · rename_i s1 h1
        rw [drainBefore_swapRegs fuel s1 s' h, migrateRoot_swapRegs _ _ h1]
    · simp only [Except.ok.injEq] at h
      subst h
      rfl

theorem drainUpTo_swapRegs : ∀ (fuel : Nat) (s s' : State) (t m : Nat),
    drainUpTo fuel s t m = .ok s' → s'.swapRegs = s.swapRegs
  | 0, _, _, _, _, h => by cases h
  | fuel + 1, s, s', t, m, h => by
    unfold drainUpTo at h
    split_ifs at h
    · simp only [bind, Except.bind] at h
      split at h
      · cases h
      · rename_i s1 h1
        rw [drainUpTo_swapRegs fuel s1 s' t m h, migrateRoot_swapRegs _ _ h1]
    · simp only [Except.ok.injEq] at h
      subst h
      rfl

theorem spliceBucket_swapRegs (s : State) : (spliceBucket s).swapRegs = s.swapRegs := by
  unfold spliceBucket
  dsimp only
  split_ifs <;> rfl

theorem expireLoop_swapRegs : ∀ (fuel : Nat) (s s' : State) (t : Nat),
    expireLoop fuel s t = .ok s' → s'.swapRegs = s.swapRegs
  | 0, s, s', _, h => by
    unfold expireLoop at h
    simp only [Except.ok.injEq] at h
    subst h
    rfl
  | fuel + 1, s, s', t, h => by
    unfold expireLoop at h
    split_ifs at h
    · simp only [bind, Except.bind] at h
      split at h
      · cases h
      · rename_i s1 h1
        rw [expireLoop_swapRegs fuel _ s' t h, spliceBucket_swapRegs,
          drainBefore_swapRegs _ _ _ h1]
        rfl
    · simp only [Except.ok.injEq] at h
      subst h
      rfl

/-- The sum of a ring after one entry was replaced. -/
theorem sum_ring_set (f g : Nat → Nat) (n j0 : Nat) (h : j0 < n)
    (hg : ∀ j, j ≠ j0 → g j = f j) :
    (∑ j in Finset.range n, g j) + f j0 = (∑ j in Finset.range n, f j) + g j0 := by
  have hm : j0 ∈ Finset.range n := Finset.mem_range.2 h
  have h1 := Finset.add_sum_erase (Finset.range n) f hm
  have h2 := Finset.add_sum_erase (Finset.range n) g hm
  have h3 : ∑ j in (Finset.range n).erase j0, g j = ∑ j in (Finset.range n).erase j0, f j := by
    apply Finset.sum_congr rfl
    intro j hj
    exact hg j (Finset.mem_erase.1 hj).1
  rw [h3] at h2
  omega

theorem SwapInv.of_swapRegs {s s' : State} (h : SwapInv s) (e : s'.swapRegs = s.swapRegs) :
    SwapInv s' := by
  unfold State.swapRegs at e
  simp only [Prod.mk.injEq] at e
  obtain ⟨-, e1, e2, e3, e4⟩ := e
  unfold SwapInv
  rw [e1, e2, e3, e4]
  exact h

/-- The function `co_swapcount` keeps the totals equal to the sums. -/
theorem SwapInv.swapcount {s : State} (h : SwapInv s) (count : Nat) :
    SwapInv (co_swapcount s count) := by
  obtain ⟨h1, h5⟩ := h
  have k1 := sum_ring_set s.swapped1 (co_swapcount s count).swapped1 SWPERIOD
    (s.swaptime % SWPERIOD) (Nat.mod_lt _ (by decide)) (fun j hj => if_neg hj)
  have k5 := sum_ring_set s.swapped5 (co_swapcount s count).swapped5 SWPERIOD
    (s.swaptime % (SWPERIOD * 5) / 5)
    (by have := Nat.mod_lt s.swaptime (show 0 < SWPERIOD * 5 by decide)
        unfold SWPERIOD at this ⊢
        omega) (fun j hj => if_neg hj)
  have e1 : (co_swapcount s count).swapped1 (s.swaptime % SWPERIOD) =
      u32 (s.swapped1 (s.swaptime % SWPERIOD) + count) := if_pos rfl
  have e5 : (co_swapcount s count).swapped5 (s.swaptime % (SWPERIOD * 5) / 5) =
      u32 (s.swapped5 (s.swaptime % (SWPERIOD * 5) / 5) + count) := if_pos rfl
  have r1 : (co_swapcount s count).swaprate1 = u32 (s.swaprate1 + count) := rfl
  have r5 : (co_swapcount s count).swaprate5 = u32 (s.swaprate5 + count) := rfl
  rw [e1] at k1
  rw [e5] at k5
  unfold SwapInv
  rw [r1, r5, h1, h5]
  generalize (co_swapcount s count).swapped1 = g1 at k1 ⊢
  generalize (co_swapcount s count).swapped5 = g5 at k5 ⊢
  unfold u32 UINT_MOD at k1 k5 ⊢
  constructor <;> omega

theorem swaprateLoop_succ (fuel : Nat) (s : State) (t : Nat) :
    swaprateLoop (fuel + 1) s t =
      if s.swaptime < t then swaprateLoop fuel (swaprateStep s) t else s := rfl

/-- One round of the loop "handle swaprate" keeps the totals equal to the
sums. -/
theorem SwapInv.step {s : State} (h : SwapInv s) : SwapInv (swaprateStep s) := by
  obtain ⟨h1, h5⟩ := h
  by_cases c2 : u32 (s.swaptime + 1) % 5 = 0
  · have k1 := sum_ring_set s.swapped1 (swaprateStep s).swapped1 SWPERIOD
      (u32 (s.swaptime + 1) % SWPERIOD) (Nat.mod_lt _ (by decide))
      (fun j hj => by unfold swaprateStep; rw [if_pos c2]; exact if_neg hj)
    have k5 := sum_ring_set s.swapped5 (swaprateStep s).swapped5 SWPERIOD
      (u32 (s.swaptime + 1) % (5 * SWPERIOD) / 5)
      (by have := Nat.mod_lt (u32 (s.swaptime + 1)) (show 0 < 5 * SWPERIOD by decide)
          unfold SWPERIOD at this ⊢
          omega)
      (fun j hj => by unfold swaprateStep; rw [if_pos c2]; exact if_neg hj)
    have e1 : (swaprateStep s).swapped1 (u32 (s.swaptime + 1) % SWPERIOD) = 0 := by
      unfold swaprateStep; rw [if_pos c2]; exact if_pos rfl
    have e5 : (swaprateStep s).swapped5 (u32 (s.swaptime + 1) % (5 * SWPERIOD) / 5) = 0 := by
      unfold swaprateStep; rw [if_pos c2]; exact if_pos rfl
    have r1 : (swaprateStep s).swaprate1 =
        sub32 s.swaprate1 (s.swapped1 (u32 (s.swaptime + 1) % SWPERIOD)) := by
      unfold swaprateStep; rw [if_pos c2]
    have r5 : (swaprateStep s).swaprate5 =
        sub32 s.swaprate5 (s.swapped5 (u32 (s.swaptime + 1) % (5 * SWPERIOD) / 5)) := by
      unfold swaprateStep; rw [if_pos c2]
    rw [e1] at k1
    rw [e5] at k5
    unfold SwapInv
    rw [r1, r5, h1, h5]
    generalize (swaprateStep s).swapped1 = g1 at k1 ⊢
    generalize (swaprateStep s).swapped5 = g5 at k5 ⊢
    unfold u32 UINT_MOD at k1 k5
    unfold sub32 u32 UINT_MOD
    constructor <;> omega
  · have k1 := sum_ring_set s.swapped1 (swaprateStep s).swapped1 SWPERIOD
      (u32 (s.swaptime + 1) % SWPERIOD) (Nat.mod_lt _ (by decide))
      (fun j hj => by unfold swaprateStep; rw [if_neg c2]; exact if_neg hj)
    have e1 : (swaprateStep s).swapped1 (u32 (s.swaptime + 1) % SWPERIOD) = 0 := by
      unfold swaprateStep; rw [if_neg c2]; exact if_pos rfl
    have r1 : (swaprateStep s).swaprate1 =
        sub32 s.swaprate1 (s.swapped1 (u32 (s.swaptime + 1) % SWPERIOD)) := by
      unfold swaprateStep; rw [if_neg c2]
    have r5 : (swaprateStep s).swaprate5 = s.swaprate5 := by
      unfold swaprateStep; rw [if_neg c2]
    have e5 : (swaprateStep s).swapped5 = s.swapped5 := by
      unfold swaprateStep; rw [if_neg c2]
    rw [e1] at k1
    unfold SwapInv
    rw [r1, r5, e5, h1]
    refine ⟨?_, h5⟩
    generalize (swaprateStep s).swapped1 = g1 at k1 ⊢
    unfold u32 UINT_MOD at k1
    unfold sub32 u32 UINT_MOD
    omega

/-- The loop "handle swaprate" keeps the totals equal to the sums. -/
theorem SwapInv.swaprateLoop : ∀ (fuel : Nat) (s : State) (t : Nat), SwapInv s →
    SwapInv (swaprateLoop fuel s t)
  | 0, _, _, h => h
  | fuel + 1, s, t, h => by
    rw [swaprateLoop_succ]
    split_ifs
    · exact SwapInv.swaprateLoop fuel _ t h.step
    · exact h

theorem co_init_swapInv (mem0 : Nat → call_out) (max now : Nat) (s : State)
    (h : co_init mem0 max now = .ok s) : SwapInv s := by
  unfold co_init at h
  split_ifs at h
  all_goals
    simp only [Except.ok.injEq] at h
    subst h
    unfold SwapInv
    simp [u32]

/-- The function `co_expire` keeps the totals equal to the sums. -/
theorem SwapInv.expire {s s' : State} (h : SwapInv s) (fired : Bool) (t m : Nat)
    (he : co_expire s fired t m = .ok s') : SwapInv s' := by
  unfold co_expire at he
  cases fired with
  | false =>
    simp only [bind, Except.bind, pure, Except.pure, Bool.false_eq_true, if_false,
      Except.ok.injEq] at he
    subst he
    exact SwapInv.swaprateLoop _ _ _ h
  | true =>
    simp only [bind, Except.bind, pure, Except.pure, if_true] at he
    cases h1 : expireLoop (t - s.timestamp) s t with
    | error e => rw [h1] at he; cases he
    | ok s1 =>
      rw [h1] at he
      dsimp only at he
      cases h2 : drainUpTo UINDEX_MOD s1 t m with
      | error e => rw [h2] at he; cases he
      | ok s2 =>
        rw [h2] at he
        dsimp only at he
        cases h3 : restart s2 t with
        | error e => rw [h3] at he; cases he
        | ok s3 =>
          rw [h3] at he
          simp only [Except.ok.injEq] at he
          subst he
          apply SwapInv.swaprateLoop
          apply h.of_swapRegs
          rw [restart_swapRegs _ _ _ h3, drainUpTo_swapRegs _ _ _ _ _ h2,
            expireLoop_swapRegs _ _ _ _ h1]

theorem SwapRun.inv {s : State} (h : SwapRun s) : SwapInv s := by
  induction h with
  | init mem0 max now s h => exact co_init_swapInv mem0 max now s h
  | swapcount s count _ ih => exact ih.swapcount count
  | expire s fired t m s' _ he ih => exact ih.expire fired t m he
  | other s s' _ e ih => exact ih.of_swapRegs e

/-- C30: in every state reached from `co_init` by calls of `co_swapcount` and
of `co_expire` (with any steps in between that leave the swap-rate registers
as they are), `swaprate1` is the sum of the 60 entries of `swapped1` and
`swaprate5` the sum of the 60 entries of `swapped5`, both as 32-bit unsigned
words, and `co_swaprate1` and `co_swaprate5` return these totals. -/
theorem swaprate_totals (s : State) (h : SwapRun s) :
    s.swaprate1 = u32 (∑ j in Finset.range SWPERIOD, s.swapped1 j) ∧
    s.swaprate5 = u32 (∑ j in Finset.range SWPERIOD, s.swapped5 j) ∧
    co_swaprate1 s = u32 (∑ j in Finset.range SWPERIOD, s.swapped1 j) ∧
    co_swaprate5 s = u32 (∑ j in Finset.range SWPERIOD, s.swapped5 j) :=
  ⟨h.inv.1, h.inv.2, h.inv.1, h.inv.2⟩

/-- C30 at a concrete run: `co_init(8)` at the clock reading 1000000000,
`co_swapcount(3)`, and `co_expire` without a timed out alarm at the second
1000000002; both totals are 3. -/
theorem swaprate_totals_witness :
    ∃ s0 s1, co_init zeroMem 8 1000000000 = .ok s0 ∧
      co_expire (co_swapcount s0 3) false 1000000002 0 = .ok s1 ∧
      SwapRun s1 ∧ co_swaprate1 s1 = 3 ∧ co_swaprate5 s1 = 3 ∧
      co_swaprate1 s1 = u32 (∑ j in Finset.range SWPERIOD, s1.swapped1 j) ∧
      co_swaprate5 s1 = u32 (∑ j in Finset.range SWPERIOD, s1.swapped5 j) :=
  ⟨_, _, rfl, rfl,
    SwapRun.expire _ false 1000000002 0 _
      (SwapRun.swapcount _ 3 (SwapRun.init zeroMem 8 1000000000 _ rfl)) rfl,
    rfl, rfl,
    (swaprate_totals _ (SwapRun.expire _ false 1000000002 0 _
      (SwapRun.swapcount _ 3 (SwapRun.init zeroMem 8 1000000000 _ rfl)) rfl)).2.2⟩

/-! ## The heap without the order: what `dequeue` keeps in any case -/

/-- The sift-up loop, when it returns from a hole `i >= 1`: the hole it
returns is at least 1, and the entries are the same once the hole is
filled. -/
theorem siftUp_perm (n t : Nat) (m : Int) :
    ∀ (fuel : Nat) (l : Nat → call_out) (i : Nat) (l' : Nat → call_out) (i' : Nat),
      1 ≤ i → i ≤ n → siftUp fuel l i t m = .ok (l', i') →
      1 ≤ i' ∧ i' ≤ i ∧ l' 0 = l 0 ∧
        (∀ v : call_out, (heapEntries (setMem l' i' v) n).Perm (heapEntries (setMem l i v) n))
  | 0, _, _, _, _, _, _, h => by cases h
  | fuel + 1, l, i, l', i', hi1, hin, h => by
    unfold siftUp at h
    dsimp only at h
    split_ifs at h with c1 c2
    · by_cases hj : i / 2 = 0
      · -- the hole reaches slot 0 and the loop never ends
        exfalso
        rw [hj] at h c1
        cases fuel with
        | zero => cases h
        | succ fuel =>
          unfold siftUp at h
          dsimp only at h
          have e0 : setMem l i (l 0) 0 = l 0 := setMem_other _ _ _ _ (by omega)
          rw [Nat.zero_div, e0, if_pos c1, if_pos rfl] at h
          cases h
      · obtain ⟨h1, h2, h3, h4⟩ :=
          siftUp_perm n t m fuel _ _ l' i' (by omega) (by omega) h
        refine ⟨h1, by omega, ?_, fun v => ?_⟩
        · rw [h3, setMem_other _ _ _ _ (by omega)]
        · refine (h4 v).trans ?_
          apply heapEntries_swap _ _ n i (i / 2) hi1 hin (by omega) (by omega)
          · rw [setMem_other _ _ _ _ (by omega : i ≠ i / 2), setMem_same,
              setMem_other _ _ _ _ (by omega : i / 2 ≠ i)]
          · rw [setMem_same, setMem_same]
          · intro k hki hkj
            rw [setMem_other _ _ _ _ hkj, setMem_other _ _ _ _ hki, setMem_other _ _ _ _ hki]
    · simp only [Except.ok.injEq, Prod.mk.injEq] at h
      obtain ⟨e1, e2⟩ := h
      subst e1 e2
      exact ⟨hi1, le_refl _, rfl, fun _ => List.Perm.refl _⟩

/-- The sift-up loop returns when slot 0 is not later than `(t, m)`. -/
theorem siftUp_returns (t : Nat) (m : Int) :
    ∀ (fuel : Nat) (l : Nat → call_out) (i : Nat), i + 1 ≤ fuel → ¬ keyGt (l 0) t m →
      ∃ l' i', siftUp fuel l i t m = .ok (l', i')
  | 0, _, _, h, _ => by omega
  | fuel + 1, l, i, hf, h0 => by
    unfold siftUp
    dsimp only
    by_cases c1 : (l (i / 2)).time > t ∨ ((l (i / 2)).time = t ∧ ((l (i / 2)).mtime : Int) > m)
    · rw [if_pos c1]
      have hi : i ≠ 0 := by
        intro e
        subst e
        exact h0 c1
      rw [if_neg hi]
      exact siftUp_returns t m fuel _ _ (by omega)
        (by rw [setMem_other _ _ _ _ (Ne.symm hi)]; exact h0)
    · rw [if_neg c1]
      exact ⟨_, _, rfl⟩

/-- The sift-down loop without any order assumed: it returns, and the
entries are the same once the hole is filled. -/
theorem siftDown_perm (q t : Nat) (m : Int) (v : call_out) (hq : 2 * q < UINDEX_MOD) :
    ∀ (fuel : Nat) (l : Nat → call_out) (i : Nat), q + 1 ≤ fuel + i → 1 ≤ i → i ≤ q →
      l q = v →
      ∃ l' i', siftDown fuel l q i t m = .ok (l', i') ∧ i ≤ i' ∧ i' ≤ q ∧
        setMem l' i' v q = v ∧ l' 0 = l 0 ∧ (∀ k, q < k → l' k = l k) ∧
        (∀ k, k < i → l' k = l k) ∧
        (∀ w : call_out, (heapEntries (setMem l' i' w) q).Perm (heapEntries (setMem l i w) q)) := by
  intro fuel
  induction fuel with
  | zero => intro l i h _ h2; omega
  | succ fuel ih =>
    intro l i hf hi1 hiq hlq
    unfold siftDown
    have hj : u16 (i * 2) = i * 2 := u16_of_lt (by omega)
    simp only [hj]
    have stop : ∃ l' i', (Except.ok (l, i) : Except Fault ((Nat → call_out) × Nat)) =
          .ok (l', i') ∧ i ≤ i' ∧ i' ≤ q ∧
          setMem l' i' v q = v ∧ l' 0 = l 0 ∧ (∀ k, q < k → l' k = l k) ∧
          (∀ k, k < i → l' k = l k) ∧
          (∀ w : call_out,
            (heapEntries (setMem l' i' w) q).Perm (heapEntries (setMem l i w) q)) := by
      refine ⟨l, i, rfl, le_refl _, hiq, ?_, rfl, fun _ _ => rfl, fun _ _ => rfl,
        fun _ => List.Perm.refl _⟩
      by_cases hqi : q = i
      · rw [hqi, setMem_same]
      · rw [setMem_other _ _ _ _ hqi, hlq]
    by_cases hlt : i * 2 < q
    · rw [if_pos hlt]
      set j := if (l (i * 2)).time > (l (i * 2 + 1)).time ∨
          ((l (i * 2)).time = (l (i * 2 + 1)).time ∧ (l (i * 2)).mtime > (l (i * 2 + 1)).mtime)
        then u16 (i * 2 + 1) else i * 2 with hjdef
      have hj1 : u16 (i * 2 + 1) = i * 2 + 1 := u16_of_lt (by omega)
      have hjv : j = i * 2 ∨ j = i * 2 + 1 := by
        rw [hjdef]
        split_ifs
        · right; exact hj1
        · left; rfl
      have hjq : j ≤ q := by omega
      have hj1' : 1 ≤ j := by omega
      by_cases hbrk : t < (l j).time ∨ (t = (l j).time ∧ m ≤ ((l j).mtime : Int))
      · rw [if_pos hbrk]
        exact stop
      · rw [if_neg hbrk]
        have hiq' : i ≠ q := by omega
        obtain ⟨l', i', hr, h1, h2, h3, h4, h5, h6, h8⟩ :=
          ih (setMem l i (l j)) j (by omega) hj1' hjq
            (by rw [setMem_other _ _ _ _ (Ne.symm hiq')]; exact hlq)
        refine ⟨l', i', hr, by omega, h2, h3, ?_, ?_, ?_, ?_⟩
        · rw [h4, setMem_other _ _ _ _ (by omega)]
        · intro k hk; rw [h5 k hk, setMem_other _ _ _ _ (by omega)]
        · intro k hk; rw [h6 k (by omega), setMem_other _ _ _ _ (by omega)]
        · intro w
          refine (h8 w).trans ?_
          apply heapEntries_swap _ _ q i j hi1 hiq hj1' hjq
          · rw [setMem_other _ _ _ _ (by omega : i ≠ j), setMem_same,
              setMem_other _ _ _ _ (by omega : j ≠ i)]
          · rw [setMem_same, setMem_same]
          · intro k hki hkj
            rw [setMem_other _ _ _ _ hkj, setMem_other _ _ _ _ hki, setMem_other _ _ _ _ hki]
    · rw [if_neg hlt]
      exact stop

/-- The entries of a heap, with the slot `i` taken out and the last entry put
in its place. -/
theorem heapEntries_take (l : Nat → call_out) (n i : Nat) (hi1 : 1 ≤ i) (hi : i ≤ n + 1) :
    (heapEntries l (n + 1)).Perm (l i :: heapEntries (setMem l i (l (n + 1))) n) := by
  by_cases e : i = n + 1
  · subst e
    rw [heapEntries_succ, heapEntries_congr l (setMem l (n + 1) (l (n + 1))) n
      (fun k _ hk => setMem_other _ _ _ _ (by omega))]
    exact List.perm_append_singleton _ _
  · have hsw := heapEntries_swap l (setMem (setMem l i (l (n + 1))) (n + 1) (l i))
      (n + 1) i (n + 1) hi1 hi (by omega) (le_refl _)
      (by rw [setMem_other _ _ _ _ (by omega : i ≠ n + 1), setMem_same])
      (by rw [setMem_same])
      (by intro k hk1 hk2; rw [setMem_other _ _ _ _ hk2, setMem_other _ _ _ _ hk1])
    rw [heapEntries_succ, setMem_same] at hsw
    rw [heapEntries_congr (setMem l i (l (n + 1)))
      (setMem (setMem l i (l (n + 1))) (n + 1) (l i)) n
      (fun k _ hk => setMem_other _ _ _ _ (by omega))] at hsw
    exact hsw.symm.trans (List.perm_append_singleton _ _)

/-- Removing any slot of the heap, ordered or not: `dequeue` returns, touches
only the heap slots, and leaves the other entries in the slots
`1 .. queuebrk - 1`. -/
theorem dequeue_any (s : State) (i0 : Nat) (hsent : (s.mem 0).time = 0)
    (hpos : (s.mem s.queuebrk).time ≠ 0) (hi : i0 < s.queuebrk)
    (hcap : 2 * s.queuebrk < UINDEX_MOD) :
    ∃ s', dequeue s i0 = .ok s' ∧ s' = { s with mem := s'.mem, queuebrk := s.queuebrk - 1 } ∧
      s'.mem 0 = s.mem 0 ∧ (∀ k, s.queuebrk < k → s'.mem k = s.mem k) ∧
      (heapEntries s.mem s.queuebrk).Perm
        (s.mem (i0 + 1) :: heapEntries s'.mem (s.queuebrk - 1)) := by
  obtain ⟨n, hn⟩ : ∃ n, s.queuebrk = n + 1 := ⟨s.queuebrk - 1, by omega⟩
  have hu : u16 (i0 + 1) = i0 + 1 := u16_of_lt (by omega)
  have hd : dec16 s.queuebrk = s.queuebrk - 1 := dec16_of_pos (by omega) (by omega)
  -- what the two loops have in common
  have fin : ∀ (l' : Nat → call_out) (i' : Nat), 1 ≤ i' → i' ≤ s.queuebrk →
      setMem l' i' (s.mem s.queuebrk) s.queuebrk = s.mem s.queuebrk → l' 0 = s.mem 0 →
      (∀ k, s.queuebrk < k → l' k = s.mem k) →
      (∀ w : call_out, (heapEntries (setMem l' i' w) s.queuebrk).Perm
        (heapEntries (setMem s.mem (i0 + 1) w) s.queuebrk)) →
      (setMem l' i' (l' s.queuebrk) 0 = s.mem 0 ∧
        (∀ k, s.queuebrk < k → setMem l' i' (l' s.queuebrk) k = s.mem k) ∧
        (heapEntries s.mem s.queuebrk).Perm
          (s.mem (i0 + 1) :: heapEntries (setMem l' i' (l' s.queuebrk)) (s.queuebrk - 1))) := by
    intro l' i' h1 h2 h3 h4 h5 h8
    have hfin : ∀ k, k ≠ s.queuebrk →
        setMem l' i' (l' s.queuebrk) k = setMem l' i' (s.mem s.queuebrk) k := by
      intro k hk
      by_cases e : i' = s.queuebrk
      · rw [setMem_other _ _ _ _ (by omega), setMem_other _ _ _ _ (by omega)]
      · rw [setMem_other _ _ _ _ (Ne.symm e)] at h3
        rw [h3]
    refine ⟨?_, ?_, ?_⟩
    · rw [hfin _ (by omega), setMem_other _ _ _ _ (by omega), h4]
    · intro k hk
      rw [hfin _ (by omega), setMem_other _ _ _ _ (by omega), h5 k hk]
    · rw [heapEntries_congr (setMem l' i' (s.mem s.queuebrk)) (setMem l' i' (l' s.queuebrk))
        (s.queuebrk - 1) (fun k _ hk => hfin k (by omega))]
      have hF := h8 (s.mem s.queuebrk)
      have hA : setMem s.mem (i0 + 1) (s.mem s.queuebrk) s.queuebrk = s.mem s.queuebrk := by
        by_cases e : s.queuebrk = i0 + 1
        · rw [← e, setMem_same]
        · rw [setMem_other _ _ _ _ e]
      have hT := heapEntries_take s.mem n (i0 + 1) (by omega) (by omega)
      rw [hn] at hF h3 hA ⊢
      rw [Nat.add_sub_cancel]
      rw [heapEntries_succ, heapEntries_succ, h3, hA] at hF
      have hF' := (List.perm_append_right_iff _).1 hF
      exact hT.trans (List.Perm.cons _ hF'.symm)
  have h0 : ¬ keyGt (s.mem 0) (s.mem s.queuebrk).time (toShort (s.mem s.queuebrk).mtime) := by
    unfold keyGt
    omega
  unfold dequeue
  simp only [hu, bind, Except.bind, pure, Except.pure, hd]
  by_cases c : (s.mem s.queuebrk).time < (s.mem (i0 + 1)).time
  · rw [if_pos c]
    obtain ⟨l', i', hr⟩ := siftUp_returns (s.mem s.queuebrk).time
      (toShort (s.mem s.queuebrk).mtime) (i0 + 1 + 1) s.mem (i0 + 1) (le_refl _) h0
    obtain ⟨h1, h2, h3, h4⟩ := siftUp_perm s.queuebrk (s.mem s.queuebrk).time
      (toShort (s.mem s.queuebrk).mtime) _ _ _ l' i' (by omega) (by omega) hr
    obtain ⟨-, h6⟩ := siftUp_frame _ _ _ _ _ _ _ hr
    have hne : i0 + 1 ≠ s.queuebrk := by
      intro e
      rw [e] at c
      omega
    obtain ⟨f1, f2, f3⟩ := fin l' i' h1 (by omega)
      (by rw [setMem_other _ _ _ _ (by omega), h6 _ (by omega)]) h3
      (fun k hk => h6 k (by omega)) h4
    rw [hr]
    exact ⟨_, rfl, rfl, f1, f2, f3⟩
  · rw [if_neg c]
    obtain ⟨l', i', hr, h1, h2, h3, h4, h5, -, h8⟩ :=
      siftDown_perm s.queuebrk (s.mem s.queuebrk).time (toShort (s.mem s.queuebrk).mtime)
        (s.mem s.queuebrk) hcap UINDEX_MOD s.mem (i0 + 1) (by unfold UINDEX_MOD at *; omega)
        (by omega) (by omega) rfl
    obtain ⟨f1, f2, f3⟩ := fin l' i' (by omega) h2 h3 h4 h5 h8
    rw [hr]
    exact ⟨_, rfl, rfl, f1, f2, f3⟩

/-! ## C27: `timestamp` and `timediff` are left alone -/

theorem clockRegs_setCotab (s : State) (i : Nat) (v : call_out) :
    (s.setCotab i v).clockRegs = s.clockRegs := rfl

theorem clockRegs_setCbuf (s : State) (r : CbufRef) (c : cbuf) :
    (s.setCbuf r c).clockRegs = s.clockRegs := by
  cases r <;> rfl

theorem restart_clockRegs (s s' : State) (t : Nat) (h : restart s t = .ok s') :
    s'.clockRegs = s.clockRegs := by
  have := restart_alarmEq s s' t h
  unfold alarmEq at this
  rw [this]
  rfl

theorem allocSlot_clockRegs (s : State) (t : Nat) :
    (allocSlot s t).1.clockRegs = s.clockRegs := by
  rw [allocSlot_fst]
  rfl

theorem newcallout_clockRegs (s s' : State) (r : CbufRef) (t i : Nat)
    (h : newcallout s r t = .ok (s', i)) : s'.clockRegs = s.clockRegs := by
  unfold newcallout at h
  simp only [bind, Except.bind, pure, Except.pure] at h
  split at h
  · cases h
  · rename_i s2 hs2
    simp only [Except.ok.injEq, Prod.mk.injEq] at h
    obtain ⟨h, -⟩ := h
    subst h
    have e2 : s2.clockRegs = s.clockRegs := by
      split_ifs at hs2
      · rw [restart_clockRegs _ _ _ hs2]
        unfold State.setCount State.setList
        rw [clockRegs_setCotab, clockRegs_setCbuf, allocSlot_clockRegs]
      · simp only [Except.ok.injEq] at hs2
        subst hs2
        unfold State.setCount State.setList
        rw [clockRegs_setCotab, clockRegs_setCbuf, allocSlot_clockRegs]
      · simp only [Except.ok.injEq] at hs2
        subst hs2
        unfold State.setNext State.setCount
        rw [clockRegs_setCotab, clockRegs_setCotab, allocSlot_clockRegs]
    unfold State.setNext State.setLast
    rw [clockRegs_setCotab, clockRegs_setCbuf, e2]

theorem enqueue_clockRegs (s s' : State) (t m k : Nat) (h : enqueue s t m = .ok (s', k)) :
    s'.clockRegs = s.clockRegs := by
  unfold enqueue at h
  simp only [bind, Except.bind, pure, Except.pure] at h
  split at h
  · cases h
  · rename_i p hp
    obtain ⟨l', i'⟩ := p
    dsimp only at h
    split_ifs at h
    · split at h
      · cases h
      · rename_i s1 h1
        simp only [Except.ok.injEq, Prod.mk.injEq] at h
        obtain ⟨h, -⟩ := h
        subst h
        rw [restart_clockRegs _ _ _ h1]
        rfl
    · simp only [Except.ok.injEq, Prod.mk.injEq] at h
      obtain ⟨h, -⟩ := h
      subst h
      rfl

theorem co_new_clockRegs (s s' : State) (handle oindex t m : Nat) (q : Option CbufRef)
    (h : co_new s handle oindex t m q = .ok s') : s'.clockRegs = s.clockRegs := by
  unfold co_new at h
  simp only [bind, Except.bind, pure, Except.pure] at h
  cases q with
  | none =>
    dsimp only at h
    split at h
    · cases h
    · rename_i p hp
      obtain ⟨s1, k⟩ := p
      simp only [Except.ok.injEq] at h
      subst h
      rw [← enqueue_clockRegs _ _ _ _ _ hp]
      rfl
  | some r =>
    dsimp only at h
    cases hn : newcallout s r t with
    | error e =>
      rw [hn] at h
      cases h
    | ok p =>
      obtain ⟨s1, i⟩ := p
      rw [hn] at h
      simp only [Except.ok.injEq] at h
      subst h
      rw [← newcallout_clockRegs _ _ _ _ _ hn]
      rfl

theorem absorbStep_clockRegs (s : State) : (absorbStep s).clockRegs = s.clockRegs := by
  unfold absorbStep
  dsimp only
  split_ifs <;> rfl

theorem absorbFree_clockRegs : ∀ (fuel : Nat) (s s' : State), absorbFree fuel s = .ok s' →
    s'.clockRegs = s.clockRegs
  | 0, _, _, h => by cases h
  | fuel + 1, s, s', h => by
    rw [absorbFree_succ] at h
    split_ifs at h
    · rw [absorbFree_clockRegs fuel _ s' h, absorbStep_clockRegs]
    · simp only [Except.ok.injEq] at h
      subst h
      rfl

theorem pushFree_clockRegs (s : State) (i : Nat) : (pushFree s i).clockRegs = s.clockRegs := by
  unfold pushFree
  dsimp only
  split_ifs <;> rfl

theorem releaseSlot_clockRegs (s s' : State) (i : Nat) (h : releaseSlot s i = .ok s') :
    s'.clockRegs = s.clockRegs := by
  rw [releaseSlot_eq] at h
  split_ifs at h
  · rw [absorbFree_clockRegs _ _ _ h]
    rfl
  · simp only [Except.ok.injEq] at h
    subst h
    rw [pushFree_clockRegs]
    rfl

theorem countDown_clockRegs (s : State) (t : Nat) : (countDown s t).clockRegs = s.clockRegs := by
  rw [countDown_eq]
  generalize dec16 s.nshort = a
  generalize (if t = 0 then dec16 s.nzero else s.nzero) = b
  rfl

theorem unlinkAt_clockRegs (s s' : State) (cyc : CbufRef) (j i t : Nat)
    (h : unlinkAt s cyc j i t = .ok s') : s'.clockRegs = s.clockRegs := by
  unfold unlinkAt at h
  simp only [pure, Except.pure] at h
  split_ifs at h
  · simp only [Except.ok.injEq] at h
    subst h
    unfold State.setCount State.setList
    rw [clockRegs_setCotab, clockRegs_setCbuf]
  · rw [restart_clockRegs _ _ _ h]
    unfold State.setList
    rw [clockRegs_setCbuf]
  · simp only [Except.ok.injEq] at h
    subst h
    unfold State.setList
    rw [clockRegs_setCbuf]
  · simp only [Except.ok.injEq] at h
    subst h
    unfold State.setCount State.setNext State.setLast
    rw [clockRegs_setCotab, clockRegs_setCotab, clockRegs_setCbuf]
  · simp only [Except.ok.injEq] at h
    subst h
    unfold State.setCount State.setNext
    rw [clockRegs_setCotab, clockRegs_setCotab]

theorem freecallout_clockRegs (s s' : State) (cyc : CbufRef) (j i t : Nat)
    (h : freecallout s cyc j i t = .ok s') : s'.clockRegs = s.clockRegs := by
  rw [freecallout_eq] at h
  cases hu : unlinkAt (countDown s t) cyc j i t with
  | error e =>
    rw [hu] at h
    cases h
  | ok U =>
    rw [hu] at h
    rw [releaseSlot_clockRegs _ _ _ h, unlinkAt_clockRegs _ _ _ _ _ _ hu, countDown_clockRegs]

theorem rmshortLoop_clockRegs : ∀ (fuel : Nat) (s s' : State) (cyc : CbufRef)
    (j k i handle t : Nat) (b : Bool), rmshortLoop fuel s cyc j k i handle t = .ok (s', b) →
    s'.clockRegs = s.clockRegs
  | 0, _, _, _, _, _, _, _, _, _, h => by cases h
  | fuel + 1, s, s', cyc, j, k, i, handle, t, b, h => by
    unfold rmshortLoop at h
    dsimp only at h
    split_ifs at h
    · simp only [bind, Except.bind, pure, Except.pure] at h
      split at h
      · cases h
      · rename_i s1 h1
        simp only [Except.ok.injEq, Prod.mk.injEq] at h
        obtain ⟨h, -⟩ := h
        subst h
        exact freecallout_clockRegs _ _ _ _ _ _ h1
    · exact rmshortLoop_clockRegs fuel s s' cyc _ _ i handle t b h
    · simp only [Except.ok.injEq, Prod.mk.injEq] at h
      obtain ⟨h, -⟩ := h
      subst h
      rfl

theorem rmshort_clockRegs (s s' : State) (cyc : CbufRef) (i handle t : Nat) (b : Bool)
    (h : rmshort s cyc i handle t = .ok (s', b)) : s'.clockRegs = s.clockRegs := by
  unfold rmshort at h
  dsimp only at h
  split_ifs at h
  · simp only [bind, Except.bind, pure, Except.pure] at h
    split at h
    · cases h
    · rename_i s1 h1
      simp only [Except.ok.injEq, Prod.mk.injEq] at h
      obtain ⟨h, -⟩ := h
      subst h
      exact freecallout_clockRegs _ _ _ _ _ _ h1
  · exact rmshortLoop_clockRegs _ _ _ _ _ _ _ _ _ _ h
  all_goals
    simp only [Except.ok.injEq, Prod.mk.injEq] at h
    obtain ⟨h, -⟩ := h
    subst h
    rfl

/-! ## C27: one cancellation -/

theorem mem_update_remove (ls : CbufRef → List Nat) (r r0 : CbufRef) (pre post : List Nat)
    (x y : Nat) (hl : ls r = pre ++ x :: post) (hy : y ∈ ls r0) (hne : y ≠ x) :
    y ∈ Function.update ls r (pre ++ post) r0 := by
  rw [mem_update_list]
  by_cases e : r0 = r
  · left
    refine ⟨e, ?_⟩
    rw [e, hl] at hy
    simp only [List.mem_append, List.mem_cons] at hy ⊢
    tauto
  · right
    exact ⟨e, hy⟩

/-- The tickets that are left when a callout of the first ticket has been
taken from a list. -/
theorem Tracked.unlist {s s' : State} {fl fl' : List Nat} {ls : CbufRef → List Nat}
    {p : Ticket} {ps : List Ticket} (ht : Tracked s fl ls (p :: ps))
    {r : CbufRef} (hr : r.valid) {pre post : List Nat} {x : Nat}
    (hl : ls r = pre ++ x :: post) (hx : s.key x = p.key)
    (hw' : Wheel s' fl' (Function.update ls r (pre ++ post)))
    (hkeys : ∀ r', r'.valid → ∀ y ∈ Function.update ls r (pre ++ post) r', s'.key y = s.key y)
    (hq : s'.queuebrk = s.queuebrk) (hc : s.cycbrk ≤ s'.cycbrk)
    (hlow : ∀ y, y < s.cycbrk → s'.cotab y = s.cotab y) (h0 : s'.mem 0 = s.mem 0)
    (hclk : s'.clockRegs = s.clockRegs) :
    Tracked s' fl' (Function.update ls r (pre ++ post)) ps := by
  have hw := ht.wheel
  have hbrk := ht.brk
  have hts : s'.timestamp = s.timestamp := congrArg Prod.fst hclk
  have htd : s'.timediff = s.timediff := congrArg Prod.snd hclk
  have hheap : heapEntries s'.mem s'.queuebrk = heapEntries s.mem s.queuebrk := by
    rw [hq]
    apply heapEntries_congr
    intro k hk1 hk2
    have := hlow (k - 1) (by omega)
    unfold State.cotab at this
    rwa [Nat.sub_add_cancel hk1] at this
  have hnd := List.nodup_cons.1 ht.distinct
  have hcnt : s'.nshort + 1 = s.nshort := by
    have n1 := hw'.nzero
    have n2 := hw'.nshort
    cases r with
    | immediate =>
      obtain ⟨c1, c2, c3, c4⟩ := hw.unlink_counts (z := 1) hr hl (fun k h => by cases h)
        (fun _ => rfl)
      omega
    | running =>
      obtain ⟨c1, c2, c3, c4⟩ := hw.unlink_counts (z := 1) hr hl (fun k h => by cases h)
        (fun _ => rfl)
      omega
    | cyc k =>
      obtain ⟨c1, c2, c3, c4⟩ := hw.unlink_counts (z := 0) hr hl (fun _ _ => rfl)
        (fun h => absurd rfl (h k))
      omega
  refine
    { wheel := hw'
      idle := ?_
      sentinel := by rw [h0]; exact ht.sentinel
      brk := by rw [hq]; exact le_trans hbrk hc
      live := by rw [hheap]; exact ht.live
      fits := fun q hq => ht.fits q (List.mem_cons_of_mem _ hq)
      located := ?_
      distinct := hnd.2
      count := ?_ }
  · by_cases e : r = .running
    · subst e
      have := ht.idle
      rw [hl] at this
      exact absurd this (by simp)
    · rw [Function.update_noteq (Ne.symm e)]
      exact ht.idle
  · intro q hq
    have hne : q.key ≠ p.key := by
      intro e
      exact hnd.1 (List.mem_map.2 ⟨q, hq, e⟩)
    have keep : ∀ r0, r0.valid → ∀ y ∈ ls r0, s.key y = q.key →
        ∃ y ∈ Function.update ls r (pre ++ post) r0, s'.key y = q.key := by
      intro r0 hr0 y hy hk
      have hyx : y ≠ x := by
        intro e
        rw [e, hx] at hk
        exact hne hk.symm
      have hy' := mem_update_remove ls r r0 pre post x y hl hy hyx
      exact ⟨y, hy', by rw [hkeys r0 hr0 y hy', hk]⟩
    rcases ht.located q (List.mem_cons_of_mem _ hq) with ⟨a1, a2, y, hy, hk⟩ |
      ⟨a1, a2, a3, y, hy, hk⟩ | ⟨a1, a2⟩
    · left
      rw [hts, htd]
      exact ⟨a1, a2, keep .immediate trivial y hy hk⟩
    · right; left
      rw [hts, htd]
      exact ⟨a1, a2, a3, keep _ (cycIndex_lt _) y hy hk⟩
    · right; right
      rw [hheap, htd]
      exact ⟨a1, a2⟩
  · have := ht.count
    rw [List.length_cons] at this
    omega

/-- The tickets that are left when the callout of the first ticket has been
taken from the heap: the search of `co_del` through the queue returns. -/
theorem Tracked.unqueue {s : State} {fl : List Nat} {ls : CbufRef → List Nat}
    {p : Ticket} {ps : List Ticket} (ht : Tracked s fl ls (p :: ps)) (dbg : Bool)
    (he : ∃ e ∈ heapEntries s.mem s.queuebrk, (e.oindex, e.handle) = p.key) :
    ∃ s', queueSearch dbg s.cotabsz s 0 p.oindex p.handle = .ok s' ∧ Tracked s' fl ls ps := by
  classical
  have hw := ht.wheel
  have hcap := hw.cap
  have hble := hw.brk_le
  have hbrk := ht.brk
  have hex : ∃ k, k < s.queuebrk ∧
      ((s.cotab k).oindex = p.oindex ∧ (s.cotab k).handle = p.handle) := by
    obtain ⟨e, hm, hk⟩ := he
    obtain ⟨k, hk1, hk2, rfl⟩ := mem_heapEntries.1 hm
    refine ⟨k - 1, by omega, ?_⟩
    unfold State.cotab
    rw [Nat.sub_add_cancel hk1]
    unfold Ticket.key at hk
    simp only [Prod.mk.injEq] at hk
    exact hk
  obtain ⟨hk0, hm⟩ := Nat.find_spec hex
  have hmin : ∀ y, y < Nat.find hex →
      ¬ ((s.cotab y).oindex = p.oindex ∧ (s.cotab y).handle = p.handle) := by
    intro y hy hc
    exact Nat.find_min hex hy ⟨by omega, hc⟩
  generalize Nat.find hex = k0 at hk0 hm hmin
  have hq1 : 1 ≤ s.queuebrk := by omega
  have hlast : s.mem s.queuebrk ∈ heapEntries s.mem s.queuebrk :=
    mem_heapEntries.2 ⟨s.queuebrk, hq1, le_refl _, rfl⟩
  obtain ⟨s', hd, hreg, h0, hfr, hperm⟩ := dequeue_any s k0 ht.sentinel (ht.live _ hlast) hk0
    (by unfold UINDEX_MOD at *; omega)
  have hqs : queueSearch dbg s.cotabsz s 0 p.oindex p.handle = dequeue s k0 :=
    queueSearch_first dbg s p.oindex p.handle k0 hm hk0 k0 s.cotabsz 0 (by omega) (by omega)
      (fun y _ h2 => hmin y h2)
  have hq : s'.queuebrk = s.queuebrk - 1 := by rw [hreg]
  have hns : s'.nshort = s.nshort := by rw [hreg]
  have hclk : s'.timediff = s.timediff ∧ s'.timestamp = s.timestamp := by
    rw [hreg]
    exact ⟨rfl, rfl⟩
  have hw' : Wheel s' fl ls := by
    refine hw.frame ?_ ?_ ?_ ?_ ?_ ?_ ?_
    · intro x hx _
      exact hfr (x + 1) (by omega)
    · intro r
      rw [hreg]
      cases r <;> rfl
    all_goals
      rw [hreg]
  have hkey : ∀ r, r.valid → ∀ y ∈ ls r, s'.key y = s.key y := by
    intro r hr y hy
    unfold State.key State.cotab
    rw [hfr (y + 1) (by have := (hw.range r hr y hy).1; omega)]
  have hsub : ∀ e ∈ heapEntries s'.mem s'.queuebrk, e ∈ heapEntries s.mem s.queuebrk := by
    intro e he'
    rw [hq] at he'
    exact hperm.symm.subset (List.mem_cons_of_mem _ he')
  have hnd := List.nodup_cons.1 ht.distinct
  refine ⟨s', by rw [hqs, hd], ?_⟩
  refine
    { wheel := hw'
      idle := ht.idle
      sentinel := by rw [h0]; exact ht.sentinel
      brk := by rw [hq, show s'.cycbrk = s.cycbrk by rw [hreg]]; omega
      live := fun e he' => ht.live e (hsub e he')
      fits := fun q hq => ht.fits q (List.mem_cons_of_mem _ hq)
      located := ?_
      distinct := hnd.2
      count := ?_ }
  · intro q hq'
    have hne : q.key ≠ p.key := by
      intro e
      exact hnd.1 (List.mem_map.2 ⟨q, hq', e⟩)
    rcases ht.located q (List.mem_cons_of_mem _ hq') with ⟨a1, a2, y, hy, hk⟩ |
      ⟨a1, a2, a3, y, hy, hk⟩ | ⟨a1, e, he', hk⟩
    · left
      rw [hclk.1, hclk.2]
      exact ⟨a1, a2, y, hy, by rw [hkey .immediate trivial y hy, hk]⟩
    · right; left
      rw [hclk.1, hclk.2]
      exact ⟨a1, a2, a3, y, hy, by rw [hkey (.cyc _) (cycIndex_lt _) y hy, hk]⟩
    · right; right
      rw [hclk.1]
      refine ⟨a1, e, ?_, hk⟩
      have hmem := hperm.subset he'
      rcases List.mem_cons.1 hmem with e1 | e1
      · exfalso
        apply hne
        rw [← hk, e1]
        unfold Ticket.key
        rw [← hm.1, ← hm.2]
        rfl
      · rw [hq]
        exact e1
  · have := ht.count
    rw [List.length_cons] at this
    omega

/-- The function `co_del` for the first ticket of a tracked state: it
returns, and the other tickets are tracked in the state it leaves. -/
theorem co_del_tracked {s : State} {fl : List Nat} {ls : CbufRef → List Nat}
    {p : Ticket} {ps : List Ticket} (ht : Tracked s fl ls (p :: ps)) (dbg : Bool) :
    ∃ s' fl' ls', co_del dbg s p.oindex p.handle p.stored = .ok s' ∧ Tracked s' fl' ls' ps := by
  have hw := ht.wheel
  obtain ⟨ho, hh⟩ := ht.fits p (List.mem_cons_self _ _)
  have huo : u16 p.oindex = p.oindex := u16_of_lt ho
  have huh : u16 p.handle = p.handle := u16_of_lt hh
  have hloc := ht.located p (List.mem_cons_self _ _)
  -- the search of a list that holds a callout of the ticket
  have A : ∀ r, r.valid → ∀ t, (t = 0 ↔ ∀ k, r ≠ .cyc k) → (∃ y ∈ ls r, s.key y = p.key) →
      ∃ s' fl' ls', rmshort s r p.oindex p.handle t = .ok (s', true) ∧ Tracked s' fl' ls' ps := by
    intro r hr t htr hex
    obtain ⟨pre, x, post, hl, hpre, hx⟩ := first_match (fun y => s.key y = p.key) (ls r) hex
    have hx' : s.key x = (u16 p.oindex, u16 p.handle) := by rw [huo, huh]; exact hx
    obtain ⟨s', fl', h1, h2, h3, h4, h5, h6, h7, h8, h9⟩ :=
      rmshort_spec hw hr p.oindex p.handle t htr hl
        (fun y hy => by rw [huo, huh]; exact hpre y hy) hx'
    rw [huo] at h1
    exact ⟨s', fl', _, h1, ht.unlist hr hl hx h2 h3 h5 h7 h8 h9
      (rmshort_clockRegs _ _ _ _ _ _ _ h1)⟩
  -- the search of a list that holds none
  have N : ∀ r, r.valid → ∀ t, (¬ ∃ y ∈ ls r, s.key y = p.key) →
      rmshort s r p.oindex p.handle t = .ok (s, false) := by
    intro r hr t hno
    refine rmshort_none hw hr p.oindex p.handle t (fun y hy hk => hno ⟨y, hy, ?_⟩)
    rw [hk, huo, huh]
    rfl
  -- the search through the queue
  have Q : (∃ e ∈ heapEntries s.mem s.queuebrk, (e.oindex, e.handle) = p.key) →
      ∃ s' fl' ls', queueSearch dbg s.cotabsz s 0 p.oindex p.handle = .ok s' ∧
        Tracked s' fl' ls' ps := by
    intro he
    obtain ⟨s', h1, h2⟩ := ht.unqueue dbg he
    exact ⟨s', fl, ls, h1, h2⟩
  have hrun : ¬ ∃ y ∈ ls .running, s.key y = p.key := by
    rw [ht.idle]
    rintro ⟨y, hy, -⟩
    cases hy
  -- the part of `co_del` behind the search of the immediate and running lists
  have tail : (¬ (u32 (p.stored + s.timediff) ≤ s.timestamp ∧
        ∃ y ∈ ls .immediate, s.key y = p.key)) → p.stored >>> 24 ≠ 1 →
      ∃ s' fl' ls',
        (if u32 (p.stored + s.timediff) < u32 (s.timestamp + CYCBUF_SIZE) then
          (rmshort s (.cyc (cycIndex (u32 (p.stored + s.timediff)))) p.oindex p.handle
            (u32 (p.stored + s.timediff))).bind
            (fun r => if r.2 = true then Except.ok r.1
              else queueSearch dbg r.1.cotabsz r.1 0 p.oindex p.handle)
        else queueSearch dbg s.cotabsz s 0 p.oindex p.handle) = .ok s' ∧
        Tracked s' fl' ls' ps := by
    intro hni hb
    by_cases hwin : u32 (p.stored + s.timediff) < u32 (s.timestamp + CYCBUF_SIZE)
    · rw [if_pos hwin]
      by_cases hbk : ∃ y ∈ ls (.cyc (cycIndex (u32 (p.stored + s.timediff)))), s.key y = p.key
      · have hne : u32 (p.stored + s.timediff) ≠ 0 := by
          rcases hloc with ⟨_, a2, a3⟩ | ⟨_, a2, _⟩ | ⟨a1, _⟩
          · exact absurd ⟨a2, a3⟩ hni
          · exact a2
          · rcases a1 with a1 | a1
            · exact absurd a1 hb
            · exact a1
        obtain ⟨s', fl', ls', h1, h2⟩ := A (.cyc _) (cycIndex_lt _) (u32 (p.stored + s.timediff))
          ⟨fun e => absurd e hne, fun e => absurd rfl (e _)⟩ hbk
        refine ⟨s', fl', ls', ?_, h2⟩
        rw [h1]
        rfl
      · rw [N (.cyc _) (cycIndex_lt _) _ hbk]
        rcases hloc with ⟨_, a2, a3⟩ | ⟨_, _, _, a4⟩ | ⟨_, a2⟩
        · exact absurd ⟨a2, a3⟩ hni
        · exact absurd a4 hbk
        · exact Q a2
    · rw [if_neg hwin]
      rcases hloc with ⟨_, a2, a3⟩ | ⟨_, _, a3, _⟩ | ⟨_, a2⟩
      · exact absurd ⟨a2, a3⟩ hni
      · exact absurd a3 hwin
      · exact Q a2
  unfold co_del
  simp only [huo, bind, Except.bind, pure, Except.pure]
  by_cases hb : p.stored >>> 24 = 1
  · rw [if_neg (not_not.2 hb)]
    rcases hloc with ⟨a1, _⟩ | ⟨a1, _⟩ | ⟨_, a2⟩
    · exact absurd hb a1
    · exact absurd hb a1
    · exact Q a2
  · rw [if_pos hb]
    by_cases hle : u32 (p.stored + s.timediff) ≤ s.timestamp
    · rw [if_pos hle]
      by_cases hi : ∃ y ∈ ls .immediate, s.key y = p.key
      · obtain ⟨s', fl', ls', h1, h2⟩ := A .immediate trivial 0
          ⟨fun _ k e => (by cases e), fun _ => rfl⟩ hi
        refine ⟨s', fl', ls', ?_, h2⟩
        rw [h1]
        rfl
      · rw [N .immediate trivial 0 hi]
        simp only [Bool.false_eq_true, if_false]
        rw [N .running trivial 0 hrun]
        simp only [Bool.false_eq_true, if_false]
        exact tail (fun h => hi h.2) hb
    · rw [if_neg hle]
      simp only [Bool.false_eq_true, if_false]
      exact tail (fun h => hle h.1) hb

/-! ## C27: one admission -/

/-- The function `co_time` for a clock reading `1 <= c < 2^32 - 128`: it
writes `timestamp` only, does not turn it back, and returns a second of at
least 1. -/
theorem co_time_facts (s : State) (c cms : Nat) (hts : s.timestamp + CYCBUF_SIZE < UINT_MOD)
    (hc1 : 1 ≤ c) (hc : c + CYCBUF_SIZE < UINT_MOD) :
    (co_time s c cms).1 = { s with timestamp := (co_time s c cms).1.timestamp } ∧
    s.timestamp ≤ (co_time s c cms).1.timestamp ∧
    (co_time s c cms).1.timestamp + CYCBUF_SIZE < UINT_MOD ∧
    1 ≤ (co_time s c cms).2.1 ∧ (co_time s c cms).2.1 < UINT_MOD := by
  unfold co_time
  unfold CYCBUF_SIZE UINT_MOD at *
  by_cases h1 : c < s.timestamp
  · rw [if_pos h1]
    exact ⟨rfl, le_refl _, hts, by show 1 ≤ s.timestamp; omega, by show s.timestamp < _; omega⟩
  · rw [if_neg h1]
    by_cases h2 : s.timestamp < c
    · rw [if_pos h2]
      by_cases h3 : s.atimeout = 0 ∨ s.atimeout > c
      · rw [if_pos h3]
        exact ⟨rfl, by show s.timestamp ≤ c; omega, hc, hc1, by show c < _; omega⟩
      · rw [if_neg h3]
        have hsub : sub32 s.atimeout 1 = s.atimeout - 1 := by
          unfold sub32 UINT_MOD
          omega
        rw [hsub]
        dsimp only
        by_cases h4 : s.timestamp < s.atimeout - 1
        · simp only [h4, if_true]
          have hu : u32 (s.atimeout - 1 + 60) = s.atimeout - 1 + 60 := by
            unfold u32 UINT_MOD
            omega
          rw [hu]
          split_ifs with h5
          · exact ⟨rfl, by show s.timestamp ≤ s.atimeout - 1; omega,
              by show s.atimeout - 1 + 128 < _; omega,
              by show 1 ≤ s.atimeout - 1 + 60; omega,
              by show s.atimeout - 1 + 60 < _; omega⟩
          · exact ⟨rfl, by show s.timestamp ≤ s.atimeout - 1; omega,
              by show s.atimeout - 1 + 128 < _; omega, hc1, by show c < _; omega⟩
        · simp only [h4, if_false]
          have hu : u32 (s.timestamp + 60) = s.timestamp + 60 := by
            unfold u32 UINT_MOD
            omega
          rw [hu]
          split_ifs with h5
          · exact ⟨rfl, le_refl _, hts, by show 1 ≤ s.timestamp + 60; omega,
              by show s.timestamp + 60 < _; omega⟩
          · exact ⟨rfl, le_refl _, hts, hc1, by show c < _; omega⟩
    · rw [if_neg h2]
      exact ⟨rfl, le_refl _, hts, hc1, by show c < _; omega⟩

/-- The tickets stay tracked when `timestamp` moves on. -/
theorem Tracked.advance {s : State} {fl : List Nat} {ls : CbufRef → List Nat}
    {P : List Ticket} (ht : Tracked s fl ls P) (T : Nat) (h1 : s.timestamp ≤ T)
    (h2 : T + CYCBUF_SIZE < UINT_MOD) :
    Tracked { s with timestamp := T } fl ls P := by
  have hu : ∀ x, x + CYCBUF_SIZE < UINT_MOD → u32 (x + CYCBUF_SIZE) = x + CYCBUF_SIZE :=
    fun x hx => Nat.mod_eq_of_lt hx
  refine
    { wheel := ht.wheel.frame (fun _ _ _ => rfl) (fun r => by cases r <;> rfl) rfl rfl rfl rfl rfl
      idle := ht.idle
      sentinel := ht.sentinel
      brk := ht.brk
      live := ht.live
      fits := ht.fits
      located := ?_
      distinct := ht.distinct
      count := ht.count }
  intro p hp
  rcases ht.located p hp with ⟨a1, a2, a3⟩ | ⟨a1, a2, a3, a4⟩ | a
  · left
    exact ⟨a1, le_trans a2 h1, a3⟩
  · right; left
    refine ⟨a1, a2, ?_, a4⟩
    show u32 (p.stored + s.timediff) < u32 (T + CYCBUF_SIZE)
    rw [hu T h2]
    have : u32 (s.timestamp + CYCBUF_SIZE) ≤ s.timestamp + CYCBUF_SIZE := Nat.mod_le _ _
    omega
  · right; right
    exact a

/-- The function `co_new` with a list of the cyclic buffer as destination
leaves the heap as it is, when the heap ends below `cycbrk`. -/
theorem co_new_list_frame {s : State} {fl : List Nat} {ls : CbufRef → List Nat}
    (hw : Wheel s fl ls) (r : CbufRef) (hr : r.valid) (handle oindex t m : Nat)
    (hcase : (r = .immediate ∧ t = 0) ∨ (t ≠ 0 ∧ ∃ k, r = .cyc k))
    (hroom : s.flist = 0 → 2 ≤ s.cycbrk) (hq : s.queuebrk < s.cycbrk) {s' : State}
    (h : co_new s handle oindex t m (some r) = .ok s') :
    s'.queuebrk = s.queuebrk ∧ s'.mem 0 = s.mem 0 ∧
    (∀ x, x < s.queuebrk → s'.cotab x = s.cotab x) ∧ s.queuebrk ≤ s'.cycbrk := by
  obtain ⟨hi0, hisz, hicyc, hifresh, -, -, hlen, -⟩ := hw.alloc t hroom
  have hre : (s.getCbuf r).list = 0 → t ≠ 0 → ∃ k, k < CYCBUF_SIZE ∧ r = .cyc k := by
    intro _ ht
    rcases hcase with ⟨_, h⟩ | ⟨_, k, hk⟩
    · exact absurd h ht
    · subst hk
      exact ⟨k, hr, rfl⟩
  obtain ⟨s2, hn, ha⟩ := newcallout_eq s r t hre hi0
  have hs' : s' = s2.setCotab (allocSlot s t).2 { s2.cotab (allocSlot s t).2 with
      handle := u16 handle, oindex := u16 oindex } := by
    unfold co_new at h
    simp only [bind, Except.bind, hn, pure, Except.pure, Except.ok.injEq] at h
    rw [← h]
    rfl
  obtain ⟨a1, a2, a3, a4, a5, a6, a7, a8, a9⟩ := ha.fields
  obtain ⟨l1, l2, l3, l4, l5, l6, l7, l8⟩ :=
    linkSlot_fields (allocSlot s t).1 r (allocSlot s t).2
  have hfst := allocSlot_fst s t
  have hq0 : (allocSlot s t).1.queuebrk = s.queuebrk := by rw [hfst]
  have hm0 : (allocSlot s t).1.mem 0 = s.mem 0 := by rw [hfst]
  have hcb : s.queuebrk ≤ (allocSlot s t).1.cycbrk := by
    have := List.length_tail fl
    omega
  refine ⟨?_, ?_, ?_, ?_⟩
  · rw [hs']
    show s2.queuebrk = _
    rw [a6, l6, hq0]
  · rw [hs']
    unfold State.setCotab
    dsimp only
    rw [setMem_other _ _ _ _ (by omega), ha.mem, linkSlot_mem_zero, hm0]
  · intro x hx
    rw [hs', cotab_setCotab_other _ _ _ _ (by omega), ha.cotab,
      linkSlot_cotab_other _ _ _ _ (by omega), allocSlot_cotab]
    intro hne
    rw [allocSlot_getCbuf] at hne ⊢
    have e1 := (hw.range r hr _ (hw.head_mem r hr hne)).1
    have e2 := (hw.range r hr _ (hw.last_mem r hr hne)).1
    constructor <;> omega
  · rw [hs']
    show s.queuebrk ≤ s2.cycbrk
    rw [a2, l2]
    exact hcb

/-- The tickets after the admission of a callout to a list of the cyclic
buffer. -/
theorem Tracked.enlist {s s' : State} {fl fl' : List Nat} {ls : CbufRef → List Nat}
    {P : List Ticket} (ht : Tracked s fl ls P) (r : CbufRef) (hr : r.valid)
    (hrun : r ≠ .running) (i : Nat) (tk : Ticket)
    (hw' : Wheel s' fl' (Function.update ls r (ls r ++ [i])))
    (hkeep : ∀ r', r'.valid → ∀ x ∈ ls r', s'.key x = s.key x)
    (hq : s'.queuebrk = s.queuebrk) (h0 : s'.mem 0 = s.mem 0)
    (hlow : ∀ x, x < s.queuebrk → s'.cotab x = s.cotab x) (hbrk : s.queuebrk ≤ s'.cycbrk)
    (hclk : s'.clockRegs = s.clockRegs)
    (hfit : tk.oindex < UINDEX_MOD ∧ tk.handle < UINDEX_MOD)
    (hnew : ∀ p ∈ P, p.key ≠ tk.key)
    (hloc : Located s' (Function.update ls r (ls r ++ [i])) tk) :
    Tracked s' fl' (Function.update ls r (ls r ++ [i])) (tk :: P) := by
  have hw := ht.wheel
  have hts : s'.timestamp = s.timestamp := congrArg Prod.fst hclk
  have htd : s'.timediff = s.timediff := congrArg Prod.snd hclk
  have hheap : heapEntries s'.mem s'.queuebrk = heapEntries s.mem s.queuebrk := by
    rw [hq]
    apply heapEntries_congr
    intro k hk1 hk2
    have := hlow (k - 1) (by omega)
    unfold State.cotab at this
    rwa [Nat.sub_add_cancel hk1] at this
  have hcnt : s'.nshort = s.nshort + 1 := by
    have n1 := hw'.nzero
    have n2 := hw'.nshort
    have m1 := hw.nzero
    have m2 := hw.nshort
    cases r with
    | immediate =>
      rw [Function.update_same, Function.update_noteq (by intro h; cases h),
        List.length_append, List.length_singleton] at n1
      rw [sum_update_other ls .immediate (fun k h => by cases h)] at n2
      omega
    | running => exact absurd rfl hrun
    | cyc k =>
      rw [Function.update_noteq (by intro h; cases h),
        Function.update_noteq (by intro h; cases h)] at n1
      have := sum_update_bucket ls k hr (ls (.cyc k) ++ [i])
      rw [List.length_append, List.length_singleton] at this
      omega
  refine
    { wheel := hw'
      idle := by rw [Function.update_noteq (Ne.symm hrun)]; exact ht.idle
      sentinel := by rw [h0]; exact ht.sentinel
      brk := by rw [hq]; exact hbrk
      live := by rw [hheap]; exact ht.live
      fits := ?_
      located := ?_
      distinct := ?_
      count := ?_ }
  · intro p hp
    rcases List.mem_cons.1 hp with e | e
    · rw [e]; exact hfit
    · exact ht.fits p e
  · intro p hp
    rcases List.mem_cons.1 hp with e | e
    · rw [e]; exact hloc
    · have keep : ∀ r0, r0.valid → ∀ y ∈ ls r0, s.key y = p.key →
          ∃ y ∈ Function.update ls r (ls r ++ [i]) r0, s'.key y = p.key := by
        intro r0 hr0 y hy hk
        exact ⟨y, (mem_update_snoc ls r r0 i y).2 (Or.inl hy), by rw [hkeep r0 hr0 y hy, hk]⟩
      rcases ht.located p e with ⟨a1, a2, y, hy, hk⟩ | ⟨a1, a2, a3, y, hy, hk⟩ | ⟨a1, a2⟩
      · left
        rw [hts, htd]
        exact ⟨a1, a2, keep .immediate trivial y hy hk⟩
      · right; left
        rw [hts, htd]
        exact ⟨a1, a2, a3, keep (.cyc _) (cycIndex_lt _) y hy hk⟩
      · right; right
        rw [hheap, htd]
        exact ⟨a1, a2⟩
  · rw [List.map_cons, List.nodup_cons]
    refine ⟨?_, ht.distinct⟩
    intro hm
    obtain ⟨p, hp, hk⟩ := List.mem_map.1 hm
    exact hnew p hp hk
  · have := ht.count
    rw [List.length_cons]
    omega

/-- The function `enqueue`, when it returns: the heap holds the old entries
and the returned slot, whatever is stored in that slot. -/
theorem enqueue_perm (s s' : State) (t m k : Nat) (h : enqueue s t m = .ok (s', k))
    (hq : s.queuebrk + 1 < UINDEX_MOD) :
    s'.queuebrk = s.queuebrk + 1 ∧ s'.mem 0 = s.mem 0 ∧ 1 ≤ k ∧ k ≤ s.queuebrk + 1 ∧
    (s'.mem k).time = t ∧
    ∀ v : call_out, (heapEntries (setMem s'.mem k v) (s.queuebrk + 1)).Perm
      (v :: heapEntries s.mem s.queuebrk) := by
  have hu : u16 (s.queuebrk + 1) = s.queuebrk + 1 := u16_of_lt hq
  unfold enqueue at h
  simp only [bind, Except.bind, pure, Except.pure, hu] at h
  cases hs : siftUp (s.queuebrk + 1 + 1) s.mem (s.queuebrk + 1) t (m : Int) with
  | error e =>
    rw [hs] at h
    cases h
  | ok p =>
    obtain ⟨l', i'⟩ := p
    rw [hs] at h
    obtain ⟨h1, h2, h3, h4⟩ := siftUp_perm (s.queuebrk + 1) t (m : Int) _ _ _ l' i'
      (by omega) (le_refl _) hs
    have hperm : ∀ v : call_out,
        (heapEntries (setMem (setMem l' i' { l' i' with time := t, mtime := m }) i' v)
          (s.queuebrk + 1)).Perm (v :: heapEntries s.mem s.queuebrk) := by
      intro v
      rw [heapEntries_congr (setMem l' i' v) _ (s.queuebrk + 1) (fun k _ _ => by
        by_cases e : k = i'
        · rw [e, setMem_same, setMem_same]
        · rw [setMem_other _ _ _ _ e, setMem_other _ _ _ _ e, setMem_other _ _ _ _ e])]
      refine (h4 v).trans ?_
      rw [heapEntries_succ, setMem_same, heapEntries_congr s.mem _ s.queuebrk
        (fun k _ hk => setMem_other _ _ _ _ (by omega))]
      exact List.perm_append_singleton _ _
    have hz : setMem l' i' { l' i' with time := t, mtime := m } 0 = s.mem 0 := by
      rw [setMem_other _ _ _ _ (by omega), h3]
    have htm : (setMem l' i' ({ l' i' with time := t, mtime := m } : call_out) i').time = t := by
      rw [setMem_same]
    dsimp only at h
    split_ifs at h with c
    · obtain ⟨a, b, p, hr⟩ := restart_zero
        ({ s with queuebrk := s.queuebrk + 1,
                  mem := setMem l' i' { l' i' with time := t, mtime := m } } : State)
      rw [hr] at h
      simp only [Except.ok.injEq, Prod.mk.injEq] at h
      obtain ⟨e1, e2⟩ := h
      subst e1 e2
      exact ⟨rfl, hz, h1, h2, htm, hperm⟩
    · simp only [Except.ok.injEq, Prod.mk.injEq] at h
      obtain ⟨e1, e2⟩ := h
      subst e1 e2
      exact ⟨rfl, hz, h1, h2, htm, hperm⟩

/-- The function `co_new` with the queue as destination, when it returns:
the heap holds the old entries and one for the new callout, and the elements
above the heap are as before. -/
theorem co_new_queue_perm (s s' : State) (handle oindex t m : Nat)
    (h : co_new s handle oindex t m none = .ok s') (hq : s.queuebrk + 1 < UINDEX_MOD) :
    s'.queuebrk = s.queuebrk + 1 ∧ s'.mem 0 = s.mem 0 ∧ s'.cycbrk = s.cycbrk ∧
    s'.nshort = s.nshort ∧ (∀ j, s.queuebrk + 1 < j → s'.mem j = s.mem j) ∧
    ∃ e : call_out, e.oindex = u16 oindex ∧ e.handle = u16 handle ∧ e.time = t ∧
      (heapEntries s'.mem (s.queuebrk + 1)).Perm (e :: heapEntries s.mem s.queuebrk) := by
  unfold co_new at h
  simp only [bind, Except.bind, pure, Except.pure] at h
  cases he : enqueue s t (u16 m) with
  | error e =>
    rw [he] at h
    cases h
  | ok p =>
    obtain ⟨s1, k⟩ := p
    rw [he] at h
    simp only [Except.ok.injEq] at h
    subst h
    obtain ⟨h1, h2, h3, h4, h5, h6⟩ := enqueue_perm s s1 t (u16 m) k he hq
    obtain ⟨f1, f2, f3, f4, f5, f6, f7, f8⟩ := enqueue_frame s s1 t (u16 m) k he hq
    refine ⟨h1, ?_, f4, f7, ?_, { s1.mem k with handle := u16 handle, oindex := u16 oindex },
      rfl, rfl, h5, h6 _⟩
    · show setMem s1.mem k _ 0 = s.mem 0
      rw [setMem_other _ _ _ _ (by omega), h2]
    · intro j hj
      show setMem s1.mem k _ j = s.mem j
      rw [setMem_other _ _ _ _ (by omega), f2 j hj]

/-- The tickets after the admission of a callout to the heap. -/
theorem Tracked.enheap {s s' : State} {fl : List Nat} {ls : CbufRef → List Nat}
    {P : List Ticket} (ht : Tracked s fl ls P) (tk : Ticket) (e : call_out)
    (hw' : Wheel s' fl ls) (hq : s'.queuebrk = s.queuebrk + 1) (h0 : s'.mem 0 = s.mem 0)
    (hperm : (heapEntries s'.mem (s.queuebrk + 1)).Perm (e :: heapEntries s.mem s.queuebrk))
    (hek : (e.oindex, e.handle) = tk.key) (het : e.time ≠ 0)
    (hkeep : ∀ r, r.valid → ∀ x ∈ ls r, s'.key x = s.key x)
    (hbrk : s.queuebrk + 1 ≤ s'.cycbrk) (hns : s'.nshort = s.nshort)
    (hclk : s'.clockRegs = s.clockRegs)
    (hfit : tk.oindex < UINDEX_MOD ∧ tk.handle < UINDEX_MOD)
    (hnew : ∀ p ∈ P, p.key ≠ tk.key)
    (hst : tk.stored >>> 24 = 1 ∨ u32 (tk.stored + s'.timediff) ≠ 0) :
    Tracked s' fl ls (tk :: P) := by
  have hts : s'.timestamp = s.timestamp := congrArg Prod.fst hclk
  have htd : s'.timediff = s.timediff := congrArg Prod.snd hclk
  refine
    { wheel := hw'
      idle := ht.idle
      sentinel := by rw [h0]; exact ht.sentinel
      brk := by rw [hq]; exact hbrk
      live := ?_
      fits := ?_
      located := ?_
      distinct := ?_
      count := ?_ }
  · intro x hx
    rw [hq] at hx
    rcases List.mem_cons.1 (hperm.subset hx) with e1 | e1
    · rw [e1]; exact het
    · exact ht.live x e1
  · intro p hp
    rcases List.mem_cons.1 hp with e1 | e1
    · rw [e1]; exact hfit
    · exact ht.fits p e1
  · intro p hp
    rcases List.mem_cons.1 hp with e1 | e1
    · right; right
      rw [e1, hq]
      exact ⟨hst, e, hperm.symm.subset (List.mem_cons_self _ _), hek⟩
    · rcases ht.located p e1 with ⟨a1, a2, y, hy, hk⟩ | ⟨a1, a2, a3, y, hy, hk⟩ | ⟨a1, x, hx, hk⟩
      · left
        rw [hts, htd]
        exact ⟨a1, a2, y, hy, by rw [hkeep .immediate trivial y hy, hk]⟩
      · right; left
        rw [hts, htd]
        exact ⟨a1, a2, a3, y, hy, by rw [hkeep (.cyc _) (cycIndex_lt _) y hy, hk]⟩
      · right; right
        rw [hq, htd]
        exact ⟨a1, x, hperm.symm.subset (List.mem_cons_of_mem _ hx), hk⟩
  · rw [List.map_cons, List.nodup_cons]
    refine ⟨?_, ht.distinct⟩
    intro hm
    obtain ⟨p, hp, hk⟩ := List.mem_map.1 hm
    exact hnew p hp hk
  · have := ht.count
    rw [List.length_cons]
    omega

theorem u32_sub32_add (x y : Nat) (hx : x < UINT_MOD) : u32 (sub32 x y + y) = x := by
  unfold u32 sub32 UINT_MOD at *
  omega

/-- What `co_check` delivers for an admitted request at a clock reading
`1 <= c < 2^32 - 128`: `timestamp` is the only variable written and does not
turn back; the request is routed to the immediate list with second 0 and
stored deadline 0, or to the bucket of its second, which is not 0 and lies
in the window, or to the queue with a second other than 0; a stored deadline
without the top byte 1 is the second minus `timediff`. -/
theorem co_check_admit (s s1 : State) (delay : Int) (mdelay c cms : Nat) (a : Admission)
    (hcap : s.cotabsz ≠ 0) (hts : s.timestamp + CYCBUF_SIZE < UINT_MOD) (hc1 : 1 ≤ c)
    (hc : c + CYCBUF_SIZE < UINT_MOD)
    (hck : co_check s 0 delay mdelay c cms = .ok (s1, a)) :
    ¬(u32 (s.queuebrk + s.nshort + 0) = s.cotabsz ∨ u32 (s.nshort + 0) = s.cotabsz - 1) ∧
    s1 = { s with timestamp := s1.timestamp } ∧ s.timestamp ≤ s1.timestamp ∧
    s1.timestamp + CYCBUF_SIZE < UINT_MOD ∧
    ((a.q = some .immediate ∧ a.t = 0 ∧ a.stored = 0) ∨
     (a.q = some (.cyc (cycIndex a.t)) ∧ a.t ≠ 0 ∧ a.t < u32 (s1.timestamp + CYCBUF_SIZE) ∧
       u32 (a.stored + s1.timediff) = a.t) ∨
     (a.q = none ∧ a.t ≠ 0 ∧ (a.stored >>> 24 = 1 ∨ u32 (a.stored + s1.timediff) = a.t))) := by
  have h1 : ¬(u32 (s.queuebrk + s.nshort + 0) = s.cotabsz ∨ u32 (s.nshort + 0) = s.cotabsz - 1) := by
    intro h
    rw [(co_check_full_iff s 0 delay mdelay c cms hcap).2 h] at hck
    cases hck
  refine ⟨h1, ?_⟩
  by_cases himm : delay = 0 ∧ (mdelay = 0 ∨ mdelay = 0xffff)
  · unfold co_check at hck
    rw [if_neg hcap, if_neg h1, if_pos himm] at hck
    simp only [Except.ok.injEq, Prod.mk.injEq] at hck
    obtain ⟨e1, e2⟩ := hck
    subst e1 e2
    exact ⟨rfl, le_refl _, hts, Or.inl ⟨rfl, rfl, rfl⟩⟩
  · rw [co_check_delayed s 0 delay mdelay c cms hcap h1 himm] at hck
    obtain ⟨f1, f2, f3, f4, f5⟩ := co_time_facts s c cms hts hc1 hc
    have hd : (delay % (UINT_MOD : Int)).toNat < UINT_MOD := by
      simp only [UINT_MOD]
      omega
    generalize (delay % (UINT_MOD : Int)).toNat = d at hd hck
    generalize (co_time s c cms).2.1 = now at f4 f5 hck
    generalize (co_time s c cms).2.2 = mp at hck
    generalize (co_time s c cms).1 = s0 at f1 f2 f3 hck
    dsimp only at hck
    by_cases h3 : u32 (now + d + 1) ≤ now
    · rw [if_pos h3] at hck
      cases hck
    · rw [if_neg h3] at hck
      have hsum : now + d + 1 < UINT_MOD := by
        unfold u32 at h3
        unfold UINT_MOD at *
        omega
      have ht0 : u32 (now + d) = now + d := Nat.mod_eq_of_lt (by omega)
      have ht1 : u32 (now + d + 1) = now + d + 1 := Nat.mod_eq_of_lt hsum
      rw [ht0] at hck
      by_cases hm : mdelay = 0xffff
      · simp only [hm, ne_eq, not_true_eq_false, if_false, true_and] at hck
        split_ifs at hck with hwin
        · simp only [Except.ok.injEq, Prod.mk.injEq] at hck
          obtain ⟨e1, e2⟩ := hck
          subst e1 e2
          refine ⟨f1, f2, f3, Or.inr (Or.inl ⟨rfl, ?_, hwin, ?_⟩)⟩
          · show now + d ≠ 0
            omega
          · exact u32_sub32_add _ _ (by omega)
        · simp only [Except.ok.injEq, Prod.mk.injEq] at hck
          obtain ⟨e1, e2⟩ := hck
          subst e1 e2
          refine ⟨f1, f2, f3, Or.inr (Or.inr ⟨rfl, ?_, Or.inr ?_⟩)⟩
          · show now + d ≠ 0
            omega
          · exact u32_sub32_add _ _ (by omega)
      · simp only [hm, ne_eq, not_false_eq_true, if_true, false_and, if_false] at hck
        split_ifs at hck with hk
        · simp only [Except.ok.injEq, Prod.mk.injEq] at hck
          obtain ⟨e1, e2⟩ := hck
          subst e1 e2
          refine ⟨f1, f2, f3, Or.inr (Or.inr ⟨rfl, ?_, Or.inl ?_⟩)⟩
          · show u32 (now + d + 1) ≠ 0
            rw [ht1]
            omega
          · apply encode_top_byte
            show u16 (mp + mdelay) - 1000 < UINDEX_MOD
            unfold u16 UINDEX_MOD
            omega
        · simp only [Except.ok.injEq, Prod.mk.injEq] at hck
          obtain ⟨e1, e2⟩ := hck
          subst e1 e2
          refine ⟨f1, f2, f3, Or.inr (Or.inr ⟨rfl, ?_, Or.inl ?_⟩)⟩
          · show now + d ≠ 0
            omega
          · apply encode_top_byte
            show u16 (mp + mdelay) < UINDEX_MOD
            unfold u16 UINDEX_MOD
            omega

/-- One admission keeps the tickets tracked: the state after `co_check` with
batch size 0 and `co_new` holds the pending callouts and the new one. -/
theorem checkNew_tracked {s s' : State} {ls : CbufRef → List Nat} {P : List Ticket}
    (ht : Tracked s [] ls P) (htd : s.timediff = 0)
    (hts : s.timestamp + CYCBUF_SIZE < UINT_MOD) (handle oindex : Nat) (delay : Int)
    (mdelay c cms : Nat) (a : Admission)
    (hadm : checkNew s handle oindex delay mdelay c cms = .ok (s', a))
    (hh0 : handle ≠ 0) (hh : handle < UINDEX_MOD) (ho : oindex < UINDEX_MOD)
    (hnew : ∀ p ∈ P, p.key ≠ (oindex, handle)) (hc1 : 1 ≤ c)
    (hc : c + CYCBUF_SIZE < UINT_MOD)
    (hs : ∀ k, a.q = some (.cyc k) → a.stored >>> 24 ≠ 1) :
    ∃ ls', Tracked s' [] ls' (⟨oindex, handle, a.stored⟩ :: P) ∧ s'.timediff = 0 ∧
      s'.timestamp + CYCBUF_SIZE < UINT_MOD := by
  have hw := ht.wheel
  have hcap := hw.cap
  have hcap0 : s.cotabsz ≠ 0 := by
    have := hw.brk_pos
    have := hw.brk_le
    omega
  have huh : u16 handle = handle := u16_of_lt hh
  have huo : u16 oindex = oindex := u16_of_lt ho
  unfold checkNew at hadm
  simp only [bind, Except.bind, pure, Except.pure] at hadm
  cases hck : co_check s 0 delay mdelay c cms with
  | error e =>
    rw [hck] at hadm
    cases hadm
  | ok p =>
    obtain ⟨s1, a1⟩ := p
    rw [hck] at hadm
    dsimp only at hadm
    cases hcn : co_new s1 handle oindex a1.t a1.m a1.q with
    | error e =>
      rw [hcn] at hadm
      cases hadm
    | ok s2 =>
      rw [hcn] at hadm
      simp only [Except.ok.injEq, Prod.mk.injEq] at hadm
      obtain ⟨e1, e2⟩ := hadm
      subst e1 e2
      obtain ⟨h1, f1, f2, f3, hroute⟩ := co_check_admit s s1 delay mdelay c cms a1 hcap0 hts hc1
        hc hck
      -- the state after `co_check`
      have ht1 : Tracked s1 [] ls P := by
        rw [f1]
        exact ht.advance s1.timestamp f2 f3
      have hw1 := ht1.wheel
      have htd1 : s1.timediff = 0 := by rw [f1]; exact htd
      have hclk := co_new_clockRegs _ _ _ _ _ _ _ hcn
      have hts2 : s2.timestamp = s1.timestamp := congrArg Prod.fst hclk
      have htd2 : s2.timediff = s1.timediff := congrArg Prod.snd hclk
      -- room
      have htot := hw.total
      simp only [List.length_nil, Nat.add_zero] at htot
      have hbrk := ht.brk
      have hpos := hw.brk_pos
      have hq1 : s1.queuebrk < s1.cycbrk := by
        rw [f1]
        show s.queuebrk < s.cycbrk
        by_contra hlt
        apply h1
        left
        unfold u32 UINT_MOD
        unfold UINDEX_MOD at hcap
        omega
      have hroom1 : s1.flist = 0 → 2 ≤ s1.cycbrk := by
        intro _
        rw [f1]
        show 2 ≤ s.cycbrk
        by_contra hlt
        apply h1
        right
        unfold u32 UINT_MOD
        unfold UINDEX_MOD at hcap
        omega
      have hfit : (⟨oindex, handle, a1.stored⟩ : Ticket).oindex < UINDEX_MOD ∧
          (⟨oindex, handle, a1.stored⟩ : Ticket).handle < UINDEX_MOD := ⟨ho, hh⟩
      suffices hmain : ∃ ls', Tracked s2 [] ls' (⟨oindex, handle, a1.stored⟩ :: P) by
        obtain ⟨ls', h⟩ := hmain
        exact ⟨ls', h, by rw [htd2, htd1], by rw [hts2]; exact f3⟩
      -- admission to a list
      have L : ∀ r, r.valid → r ≠ .running → a1.q = some r →
          ((r = .immediate ∧ a1.t = 0) ∨ (a1.t ≠ 0 ∧ ∃ k, r = .cyc k)) →
          (∀ i, s2.key i = (oindex, handle) → i ∈ Function.update ls r (ls r ++ [i]) r →
            Located s2 (Function.update ls r (ls r ++ [i])) ⟨oindex, handle, a1.stored⟩) →
          ∃ ls', Tracked s2 [] ls' (⟨oindex, handle, a1.stored⟩ :: P) := by
        intro r hr hrun hq hcase hloc
        rw [hq] at hcn
        obtain ⟨s3, i, hn, hw3, hk, hkeep, hfresh⟩ :=
          co_new_append hw1 r hr handle oindex a1.t a1.m hcase hroom1 (by rw [huh]; exact hh0)
        rw [hcn] at hn
        simp only [Except.ok.injEq] at hn
        subst hn
        obtain ⟨g1, g2, g3, g4⟩ := co_new_list_frame hw1 r hr handle oindex a1.t a1.m hcase
          hroom1 hq1 hcn
        rw [huo, huh] at hk
        have hin : i ∈ Function.update ls r (ls r ++ [i]) r := by
          rw [Function.update_same]
          simp
        exact ⟨_, ht1.enlist r hr hrun i ⟨oindex, handle, a1.stored⟩ hw3 hkeep g1 g2 g3 g4
          hclk hfit hnew (hloc i hk hin)⟩
      rcases hroute with ⟨r1, r2, r3⟩ | ⟨r1, r2, r3, r4⟩ | ⟨r1, r2, r3⟩
      · refine L .immediate trivial (by intro e; cases e) r1 (Or.inl ⟨rfl, r2⟩) ?_
        intro i hk hin
        left
        refine ⟨?_, ?_, i, hin, hk⟩
        · show a1.stored >>> 24 ≠ 1
          rw [r3]
          decide
        · show u32 (a1.stored + s2.timediff) ≤ s2.timestamp
          rw [r3, htd2, htd1]
          exact Nat.zero_le _
      · refine L (.cyc (cycIndex a1.t)) (cycIndex_lt _) (by intro e; cases e) r1
          (Or.inr ⟨r2, _, rfl⟩) ?_
        intro i hk hin
        right; left
        have e : u32 (a1.stored + s2.timediff) = a1.t := by rw [htd2]; exact r4
        refine ⟨hs _ r1, ?_, ?_, ?_⟩
        · show u32 (a1.stored + s2.timediff) ≠ 0
          rw [e]
          exact r2
        · show u32 (a1.stored + s2.timediff) < u32 (s2.timestamp + CYCBUF_SIZE)
          rw [e, hts2]
          exact r3
        · show ∃ x ∈ Function.update ls (.cyc (cycIndex a1.t)) (ls (.cyc (cycIndex a1.t)) ++ [i])
            (.cyc (cycIndex (u32 (a1.stored + s2.timediff)))), s2.key x = (oindex, handle)
          rw [e]
          exact ⟨i, hin, hk⟩
      · rw [r1] at hcn
        have hq16 : s1.queuebrk + 1 < UINDEX_MOD := by
          have := hw1.brk_le
          have := hw1.cap
          omega
        have hw2 := co_new_queue hw1 hq1 handle oindex a1.t a1.m hcn
        obtain ⟨g1, g2, g3, g4, g5, e, e1, e2, e3, e4⟩ :=
          co_new_queue_perm s1 s2 handle oindex a1.t a1.m hcn hq16
        refine ⟨ls, ht1.enheap ⟨oindex, handle, a1.stored⟩ e hw2 g1 g2 e4 ?_ ?_ ?_ ?_ g4 hclk hfit
          hnew ?_⟩
        · rw [e1, e2, huo, huh]
          rfl
        · rw [e3]
          exact r2
        · intro r hr x hx
          unfold State.key State.cotab
          rw [g5 (x + 1) (by have := (hw1.range r hr x hx).1; omega)]
        · rw [g3]
          omega
        · rcases r3 with r3 | r3
          · left; exact r3
          · right
            show u32 (a1.stored + s2.timediff) ≠ 0
            rw [htd2, r3]
            exact r2

/-! ## C27: cancelling every pending callout -/

theorem Tracked.of_perm {s : State} {fl : List Nat} {ls : CbufRef → List Nat}
    {P L : List Ticket} (ht : Tracked s fl ls P) (hp : L.Perm P) : Tracked s fl ls L :=
  { wheel := ht.wheel
    idle := ht.idle
    sentinel := ht.sentinel
    brk := ht.brk
    live := ht.live
    fits := fun p h => ht.fits p (hp.subset h)
    located := fun p h => ht.located p (hp.subset h)
    distinct := ((hp.map Ticket.key).nodup_iff).2 ht.distinct
    count := by rw [hp.length_eq]; exact ht.count }

/-- Cancelling the tickets of a tracked state, in the order of the list:
every `co_del` returns, and no callout is left. -/
theorem cancelAll_tracked (dbg : Bool) : ∀ (L : List Ticket) (s : State) (fl : List Nat)
    (ls : CbufRef → List Nat), Tracked s fl ls L →
    ∃ s', cancelAll dbg s L = .ok s' ∧ s'.nshort = 0 ∧ s'.queuebrk = 0
  | [], s, _, _, ht => by
    have := ht.count
    rw [List.length_nil] at this
    exact ⟨s, rfl, by omega, by omega⟩
  | p :: ps, s, fl, ls, ht => by
    obtain ⟨s', fl', ls', h1, h2⟩ := co_del_tracked ht dbg
    obtain ⟨s'', h3, h4⟩ := cancelAll_tracked dbg ps s' fl' ls' h2
    refine ⟨s'', ?_, h4⟩
    unfold cancelAll
    rw [h1]
    exact h3

/-- The states reached by admissions from `co_init` hold the callouts of the
tickets and no others. -/
theorem Enqueued.tracked {s : State} {P : List Ticket} (h : Enqueued s P) :
    ∃ ls, Tracked s [] ls P ∧ s.timediff = 0 ∧ s.timestamp + CYCBUF_SIZE < UINT_MOD := by
  induction h with
  | init mem0 max now s h h0 hmax =>
    have hw := co_init_wheel mem0 max now s h h0 hmax
    unfold co_init at h
    by_cases c : max ≠ 0 ∧ now >>> 24 ≤ 1
    · rw [if_pos c] at h
      cases h
    · rw [if_neg c] at h
      simp only [Except.ok.injEq] at h
      subst h
      refine ⟨fun _ => [],
        { wheel := hw
          idle := rfl
          sentinel := ?_
          brk := Nat.zero_le _
          live := fun e he => by cases he
          fits := fun p hp => by cases hp
          located := fun p hp => by cases hp
          distinct := List.nodup_nil
          count := rfl }, rfl, ?_⟩
      · show ((if max ≠ 0 then setMem mem0 0 { mem0 0 with time := 0 } else mem0) 0).time = 0
        rw [if_pos h0, setMem_same]
      · show 0 + CYCBUF_SIZE < UINT_MOD
        unfold CYCBUF_SIZE UINT_MOD
        norm_num
  | add s P handle oindex delay mdelay c cms s' a _ hadm hh0 hh ho hnew hc1 hc hs ih =>
    obtain ⟨ls, ht, htd, hts⟩ := ih
    exact checkNew_tracked ht htd hts handle oindex delay mdelay c cms a hadm hh0 hh ho hnew hc1
      hc hs

/-- C27 fails as stated: the stored deadline of a callout in a bucket can
have the top byte 1. After `co_init(8)`, the callout (object 1, handle 1)
with a delay of 5 whole seconds, admitted at the clock reading 16777216,
waits in bucket 5 with the stored deadline 16777221; it is the only pending
callout (`co_info() = (1, 0)`). `co_del` with its ticket takes the path to
the queue, finds the element in its search through the table and hands it to
`dequeue`: afterwards `co_info() = (1, 65535)`, with and without `DEBUG`. -/
theorem cancel_misroutes_bucket_callout :
    ∃ s0 s1 a s2 s3,
      co_init zeroMem 8 1000000000 = .ok s0 ∧
      checkNew s0 1 1 5 0xffff 16777216 0 = .ok (s1, a) ∧
      a.q = some (.cyc 5) ∧ a.stored >>> 24 = 1 ∧ co_info s1 = (1, 0) ∧
      cancelAll true s1 [⟨1, 1, a.stored⟩] = .ok s2 ∧ co_info s2 = (1, 65535) ∧
      cancelAll false s1 [⟨1, 1, a.stored⟩] = .ok s3 ∧ co_info s3 = (1, 65535) :=
  ⟨_, _, _, _, _, rfl, rfl, rfl, rfl, rfl, rfl, rfl, rfl, rfl⟩

/-- C27, amended: let the state `s` be reached from `co_init(max)`,
`0 < max < 32768`, by admissions (`co_check` with batch size 0, then
`co_new`) that return, each for an object index and a handle below 65536,
the handle not 0, of a callout that is not pending, at a clock reading
`1 <= c < 2^32 - 128`, and let every stored deadline that was routed to a
bucket have a top byte other than 1. Then the number of tickets is
`nshort + queuebrk`, and cancelling the tickets with `co_del`, each once, in
any order, with or without `DEBUG`: every `co_del` returns, and afterwards
`co_info() = (0, 0)`, that is `nshort = 0` and `queuebrk = 0`. -/
theorem cancel_all (dbg : Bool) (s : State) (P L : List Ticket) (h : Enqueued s P)
    (hL : L.Perm P) :
    P.length = (co_info s).1 + (co_info s).2 ∧
    ∃ s', cancelAll dbg s L = .ok s' ∧ co_info s' = (0, 0) ∧ s'.nshort = 0 ∧
      s'.queuebrk = 0 := by
  obtain ⟨ls, ht, -, -⟩ := h.tracked
  obtain ⟨s', h1, h2, h3⟩ := cancelAll_tracked dbg L s [] ls (ht.of_perm hL)
  refine ⟨ht.count, s', h1, ?_, h2, h3⟩
  unfold co_info
  rw [h2, h3]

/-- The amended C27 at a concrete run: `co_init(8)`, then the admission of an
immediate callout, of a callout for a bucket (5 s), of a whole-second
callout for the heap (200 s) and of a millisecond callout (1.5 s); the four
are cancelled in the order of their admission. -/
theorem cancel_all_witness :
    ∃ s0 s1 a1 s2 a2 s3 a3 s4 a4,
      co_init zeroMem 8 1000000000 = .ok s0 ∧
      checkNew s0 1 1 0 0 1000000000 0 = .ok (s1, a1) ∧
      checkNew s1 2 2 5 0xffff 1000000000 0 = .ok (s2, a2) ∧
      checkNew s2 3 3 200 0xffff 1000000001 0 = .ok (s3, a3) ∧
      checkNew s3 4 4 1 500 1000000001 250 = .ok (s4, a4) ∧
      co_info s4 = (2, 2) ∧
      Enqueued s4 [⟨4, 4, a4.stored⟩, ⟨3, 3, a3.stored⟩, ⟨2, 2, a2.stored⟩, ⟨1, 1, a1.stored⟩] ∧
      ∃ s', cancelAll true s4
          [⟨1, 1, a1.stored⟩, ⟨2, 2, a2.stored⟩, ⟨3, 3, a3.stored⟩, ⟨4, 4, a4.stored⟩] = .ok s' ∧
        co_info s' = (0, 0) ∧ s'.nshort = 0 ∧ s'.queuebrk = 0 := by
  have hE : Enqueued _ _ :=
    Enqueued.add _ _ 4 4 1 500 1000000001 250 _ _
      (Enqueued.add _ _ 3 3 200 0xffff 1000000001 0 _ _
        (Enqueued.add _ _ 2 2 5 0xffff 1000000000 0 _ _
          (Enqueued.add _ _ 1 1 0 0 1000000000 0 _ _
            (Enqueued.init zeroMem 8 1000000000 _ rfl (by decide) (by decide))
            rfl (by decide) (by decide) (by decide) (fun p hp => by cases hp)
            (by norm_num) (by unfold CYCBUF_SIZE UINT_MOD; norm_num)
            (fun k hk => by cases hk))
          rfl (by decide) (by decide) (by decide) (by decide)
          (by norm_num) (by unfold CYCBUF_SIZE UINT_MOD; norm_num)
          (fun k _ => by decide))
        rfl (by decide) (by decide) (by decide) (by decide)
        (by norm_num) (by unfold CYCBUF_SIZE UINT_MOD; norm_num)
        (fun k hk => by cases hk))
      rfl (by decide) (by decide) (by decide) (by decide)
      (by norm_num) (by unfold CYCBUF_SIZE UINT_MOD; norm_num)
      (fun k hk => by cases hk)
  exact ⟨_, _, _, _, _, _, _, _, _, rfl, rfl, rfl, rfl, rfl, rfl, hE,
    (cancel_all true _ _ _ hE (List.reverse_perm _)).2⟩

/-! ## C39: `co_dump` restores the state -/

/-- Setting the head of a bucket and then putting the old head back gives
the state before. -/
theorem setList_restore (s : State) (k v : Nat) :
    (s.setList (.cyc k) v).setList (.cyc k) (s.cycbuf k).list = s := by
  unfold State.setList State.setCbuf State.getCbuf
  cases s with
  | mk mem cotabsz queuebrk cycbrk flist nzero nshort running immediate cycbuf timestamp timeout
      atimeout amtime timediff swaptime swapped1 swapped5 swaprate1 swaprate5 ptimer =>
    dsimp only
    congr 1
    funext j
    by_cases h : j = k
    · subst h; simp
    · simp [h]

/-- **C39.** `co_dump` leaves the scheduler state as `co_time` left it, and
`co_time` writes `timestamp` only: after the dump every bucket head, also
that of bucket `timestamp & 127` which held the joined running and
immediate list while the file was written, the immediate and the running
list, every slot of the table and all counters are as before the dump. The
bucket written to the file differs from the one in the state exactly when
there are immediate callouts. -/
theorem co_dump_frame (s : State) (c cms : Nat) :
    (co_dump s c cms).1 = (co_time s c cms).1 ∧
    (co_dump s c cms).1 = { s with timestamp := (co_dump s c cms).1.timestamp } ∧
    (co_dump s c cms).1.mem = s.mem ∧ (co_dump s c cms).1.cycbuf = s.cycbuf ∧
    (co_dump s c cms).1.immediate = s.immediate ∧ (co_dump s c cms).1.running = s.running ∧
    (co_dump s c cms).1.nzero = s.nzero ∧ (co_dump s c cms).1.nshort = s.nshort ∧
    (co_dump s c cms).1.queuebrk = s.queuebrk ∧ (co_dump s c cms).1.cycbrk = s.cycbrk ∧
    (co_dump s c cms).1.flist = s.flist ∧
    ((co_time s c cms).1.nzero = 0 → (co_dump s c cms).2.buffer = s.cycbuf) := by
  have h1 : (co_dump s c cms).1 = (co_time s c cms).1 := by
    unfold co_dump
    dsimp only
    split_ifs
    all_goals first | exact setList_restore _ _ _ | rfl
  have h2 := co_time_state s c cms
  rw [h1]
  refine ⟨rfl, h2, by rw [h2], by rw [h2], by rw [h2], by rw [h2], by rw [h2], by rw [h2],
    by rw [h2], by rw [h2], by rw [h2], ?_⟩
  intro hz
  have h3 : (co_dump s c cms).2.buffer = (co_time s c cms).1.cycbuf := by
    unfold co_dump
    dsimp only
    rw [if_neg (not_not.mpr hz)]
  rw [h3, h2]

/-! ## C40: `co_time` and the window -/

/-- The new `timestamp` of `co_time`, case by case. -/
theorem co_time_timestamp (s : State) (c cms : Nat)
    (ha : s.atimeout < UINT_MOD ∨ c < UINT_MOD) :
    (co_time s c cms).1.timestamp = s.timestamp ∨
    (s.timestamp < (co_time s c cms).1.timestamp ∧ (co_time s c cms).1.timestamp ≤ c ∧
      (s.atimeout ≠ 0 → (co_time s c cms).1.timestamp < s.atimeout)) := by
  unfold co_time
  by_cases h1 : c < s.timestamp
  · rw [if_pos h1]
    exact Or.inl rfl
  · rw [if_neg h1]
    by_cases h2 : s.timestamp < c
    · rw [if_pos h2]
      by_cases h3 : s.atimeout = 0 ∨ s.atimeout > c
      · rw [if_pos h3]
        refine Or.inr ⟨h2, le_refl _, fun h0 => ?_⟩
        show c < s.atimeout
        omega
      · rw [if_neg h3]
        have hsub : sub32 s.atimeout 1 = s.atimeout - 1 := by
          unfold sub32 UINT_MOD at *
          omega
        rw [hsub]
        dsimp only
        by_cases h4 : s.timestamp < s.atimeout - 1
        · simp only [h4, if_true]
          refine Or.inr ?_
          split_ifs
          all_goals
            refine ⟨h4, ?_, fun _ => ?_⟩
            · show s.atimeout - 1 ≤ c
              omega
            · show s.atimeout - 1 < s.atimeout
              omega
        · simp only [h4, if_false]
          refine Or.inl ?_
          split_ifs <;> rfl
    · rw [if_neg h2]
      exact Or.inl rfl

/-- **C40.** For every state, with `atimeout` a 32-bit value, and every
clock reading `(c, cms)`: `co_time` never decreases `timestamp`; when it
changes `timestamp`, the new value is at most `c` and, with an alarm armed
(`atimeout` not `0`), less than `atimeout`. Consequently, when every
non-empty bucket belongs to a second of the window after `timestamp` that
the armed alarm does not come after, then after `co_time` the bucket
`cycbuf[timestamp & 127]` of the new `timestamp` is empty and every
non-empty bucket still belongs to a second of the window after the new
`timestamp`. -/
theorem co_time_window (s : State) (c cms : Nat) (ha : s.atimeout < UINT_MOD) :
    s.timestamp ≤ (co_time s c cms).1.timestamp ∧
    ((co_time s c cms).1.timestamp ≠ s.timestamp →
      (co_time s c cms).1.timestamp ≤ c ∧
      (s.atimeout ≠ 0 → (co_time s c cms).1.timestamp < s.atimeout)) ∧
    ((∀ k, k < CYCBUF_SIZE → (s.cycbuf k).list ≠ 0 →
        ∃ sec, s.timestamp < sec ∧ sec < s.timestamp + CYCBUF_SIZE ∧ cycIndex sec = k ∧
          s.atimeout ≠ 0 ∧ s.atimeout ≤ sec) →
      ((co_time s c cms).1.cycbuf (cycIndex (co_time s c cms).1.timestamp)).list = 0 ∧
      ∀ k, k < CYCBUF_SIZE → ((co_time s c cms).1.cycbuf k).list ≠ 0 →
        ∃ sec, (co_time s c cms).1.timestamp < sec ∧
          sec < (co_time s c cms).1.timestamp + CYCBUF_SIZE ∧ cycIndex sec = k ∧
          (co_time s c cms).1.atimeout ≠ 0 ∧ (co_time s c cms).1.atimeout ≤ sec) := by
  have hT := co_time_timestamp s c cms (Or.inl ha)
  have hcyc : (co_time s c cms).1.cycbuf = s.cycbuf := (co_time_fields s c cms).2.2.2.2.2.2.2.1
  have hat : (co_time s c cms).1.atimeout = s.atimeout := (co_time_alarm s c cms).1
  rw [hcyc, hat]
  generalize (co_time s c cms).1.timestamp = T at hT ⊢
  refine ⟨by omega, fun hne => ?_, fun hb => ?_⟩
  · rcases hT with h | h
    · exact absurd h hne
    · exact h.2
  · have hwin : ∀ k, k < CYCBUF_SIZE → (s.cycbuf k).list ≠ 0 →
        ∃ sec, T < sec ∧ sec < T + CYCBUF_SIZE ∧ cycIndex sec = k ∧
          s.atimeout ≠ 0 ∧ s.atimeout ≤ sec := by
      intro k hk hne
      obtain ⟨sec, h1, h2, h3, h4, h5⟩ := hb k hk hne
      refine ⟨sec, ?_, ?_, h3, h4, h5⟩
      · rcases hT with h | h
        · omega
        · have := h.2.2 h4
          omega
      · rcases hT with h | h <;> omega
    refine ⟨?_, hwin⟩
    by_contra hne
    obtain ⟨sec, h1, h2, h3, -, -⟩ := hwin _ (cycIndex_lt T) hne
    rw [cycIndex_eq, cycIndex_eq] at h3
    unfold CYCBUF_SIZE at h2
    omega

/-- Witness for C40: the scheduler with a callout due at `1000000003`, read
at `1000000010`; `timestamp` moves to `1000000002`, whose bucket is empty. -/
theorem co_time_window_witness :
    dueState.atimeout < UINT_MOD ∧
    dueState.timestamp ≤ (co_time dueState 1000000010 0).1.timestamp ∧
    ((co_time dueState 1000000010 0).1.timestamp ≠ dueState.timestamp →
      (co_time dueState 1000000010 0).1.timestamp ≤ 1000000010 ∧
      (dueState.atimeout ≠ 0 →
        (co_time dueState 1000000010 0).1.timestamp < dueState.atimeout)) ∧
    ((co_time dueState 1000000010 0).1.cycbuf
      (cycIndex (co_time dueState 1000000010 0).1.timestamp)).list = 0 ∧
    (co_time dueState 1000000010 0).1.timestamp = 1000000002 :=
  have ha : dueState.atimeout < UINT_MOD := by
    show (1000000003 : Nat) < 4294967296
    norm_num
  have hb : ∀ k, k < CYCBUF_SIZE → (dueState.cycbuf k).list ≠ 0 →
      ∃ sec, dueState.timestamp < sec ∧ sec < dueState.timestamp + CYCBUF_SIZE ∧
        cycIndex sec = k ∧ dueState.atimeout ≠ 0 ∧ dueState.atimeout ≤ sec := by
    intro k _ hne
    have hk : k = 3 ∨ k = 5 := by
      by_contra hk
      push_neg at hk
      apply hne
      show (if k = 3 then (⟨6, 6⟩ : cbuf) else if k = 5 then ⟨7, 5⟩ else ⟨0, 0⟩).list = 0
      rw [if_neg hk.1, if_neg hk.2]
    rcases hk with hk | hk
    · subst hk
      refine ⟨1000000003, ?_, ?_, ?_, ?_, ?_⟩
      · show (1000000000 : Nat) < 1000000003
        norm_num
      · show (1000000003 : Nat) < 1000000000 + 128
        norm_num
      · rw [cycIndex_eq]
      · show (1000000003 : Nat) ≠ 0
        norm_num
      · exact le_refl _
    · subst hk
      refine ⟨1000000005, ?_, ?_, ?_, ?_, ?_⟩
      · show (1000000000 : Nat) < 1000000005
        norm_num
      · show (1000000005 : Nat) < 1000000000 + 128
        norm_num
      · rw [cycIndex_eq]
      · show (1000000003 : Nat) ≠ 0
        norm_num
      · show (1000000003 : Nat) ≤ 1000000005
        norm_num
  ⟨ha, (co_time_window dueState 1000000010 0 ha).1, (co_time_window dueState 1000000010 0 ha).2.1,
    ((co_time_window dueState 1000000010 0 ha).2.2 hb).1, rfl⟩

/-! ## C31: the alarm set by `restart` -/

/-- The second half of `restart`: the alarm is set to `restartPair`, and the
timer is armed when that changes the alarm. -/
theorem restart_zero_eq (s : State) :
    restart s 0 = .ok
      (if (restartPair s).1 ≠ s.atimeout ∨ (restartPair s).2 ≠ s.amtime then
        { s with atimeout := (restartPair s).1, amtime := (restartPair s).2,
                 ptimer := restartPair s :: s.ptimer }
      else s) := by
  unfold restart restartPair
  simp only [ne_eq, not_true_eq_false, if_false, bind, Except.bind, pure, Except.pure]
  split_ifs <;> rfl

/-- The pair of `restart` depends on `timeout`, `queuebrk` and the root. -/
theorem restartPair_congr (s s' : State) (h1 : s'.timeout = s.timeout)
    (h2 : s'.queuebrk = s.queuebrk) (h3 : s'.cotab 0 = s.cotab 0) :
    restartPair s' = restartPair s := by
  unfold restartPair
  rw [h1, h2, h3]

/-- The pair of `restart` is the earlier one of the root of the heap and
`(timeout, 0)`. -/
theorem restartPair_min (s : State) (hm : (s.cotab 0).mtime < UINDEX_MOD) :
    (s.queuebrk = 0 → restartPair s = (s.timeout, 0)) ∧
    (s.queuebrk ≠ 0 → s.timeout = 0 → restartPair s = ((s.cotab 0).time, (s.cotab 0).mtime)) ∧
    (s.queuebrk ≠ 0 → s.timeout ≠ 0 →
      restartPair s =
        if dlLe ((s.cotab 0).time, (s.cotab 0).mtime) (s.timeout, 0) then
          ((s.cotab 0).time, (s.cotab 0).mtime)
        else (s.timeout, 0)) := by
  have hu : u16 (s.cotab 0).mtime = (s.cotab 0).mtime := Nat.mod_eq_of_lt hm
  unfold restartPair dlLe
  rw [hu]
  refine ⟨fun h => ?_, fun h h0 => ?_, fun h h0 => ?_⟩
  · simp [h]
  · simp [h, h0]
  · dsimp only
    by_cases c1 : (s.cotab 0).time < s.timeout
    · simp [h, c1]
    · by_cases c2 : (s.cotab 0).time = s.timeout
      · by_cases c3 : (s.cotab 0).mtime = 0
        · simp [h, h0, c2, c3]
        · simp [h, h0, c2, c3]
      · simp [h, h0, c1, c2]

/-- **C31.** Whenever `restart(t)` returns, for every `t` and every state
whose root millisecond field is a 16-bit value: nothing but the alarm
registers changes; `(atimeout, amtime)` is `(0, 0)` if the heap is empty and
`timeout` is 0, the deadline `(time, mtime)` of the heap root if the heap is
not empty and `timeout` is 0, `(timeout, 0)` if the heap is empty and
`timeout` is not 0, and otherwise the lexicographic minimum of the two;
`P_timer` is called, once and with that pair, if and only if the pair differs
from the previous `(atimeout, amtime)`; and `restart(t)` called again at once
returns the same state, so it changes nothing and arms nothing. -/
theorem restart_sets_alarm (s s' : State) (t : Nat) (h : restart s t = .ok s')
    (hm : (s.cotab 0).mtime < UINDEX_MOD) :
    alarmEq s s' ∧
    (s.queuebrk = 0 → s'.timeout = 0 → (s'.atimeout, s'.amtime) = (0, 0)) ∧
    (s.queuebrk ≠ 0 → s'.timeout = 0 →
      (s'.atimeout, s'.amtime) = ((s.cotab 0).time, (s.cotab 0).mtime)) ∧
    (s.queuebrk = 0 → s'.timeout ≠ 0 → (s'.atimeout, s'.amtime) = (s'.timeout, 0)) ∧
    (s.queuebrk ≠ 0 → s'.timeout ≠ 0 →
      (s'.atimeout, s'.amtime) =
        if dlLe ((s.cotab 0).time, (s.cotab 0).mtime) (s'.timeout, 0) then
          ((s.cotab 0).time, (s.cotab 0).mtime)
        else (s'.timeout, 0)) ∧
    s'.ptimer =
      (if (s'.atimeout, s'.amtime) = (s.atimeout, s.amtime) then s.ptimer
       else (s'.atimeout, s'.amtime) :: s.ptimer) ∧
    restart s' t = .ok s' := by
  have hAE := restart_alarmEq s s' t h
  -- the state between the two halves
  obtain ⟨s1, h1, hs1, hnb⟩ : ∃ s1, restart s1 0 = .ok s' ∧ s1 = { s with timeout := s1.timeout } ∧
      (t ≠ 0 → s.nshort ≠ s.nzero → nextBucket CYCBUF_SIZE s.cycbuf t = .ok s1.timeout) ∧
      (t ≠ 0 → s.nshort = s.nzero → s1.timeout = 0) := by
    rw [restart_halves] at h
    by_cases c1 : t ≠ 0
    · rw [if_pos c1] at h
      by_cases c2 : s.nshort ≠ s.nzero
      · rw [if_pos c2] at h
        cases hn : nextBucket CYCBUF_SIZE s.cycbuf t with
        | error e => rw [hn] at h; cases h
        | ok t1 =>
          rw [hn] at h
          exact ⟨_, h, rfl, fun _ _ => rfl, fun _ c => absurd c c2⟩
      · rw [if_neg c2] at h
        exact ⟨_, h, rfl, fun _ c => absurd c c2, fun _ _ => rfl⟩
    · rw [if_neg c1] at h
      exact ⟨s, h, rfl, fun c => absurd c c1, fun c => absurd c c1⟩
  have hq1 : s1.queuebrk = s.queuebrk := by rw [hs1]
  have hc1 : s1.cotab 0 = s.cotab 0 := by rw [hs1]; rfl
  have ha1 : s1.atimeout = s.atimeout := by rw [hs1]
  have hb1 : s1.amtime = s.amtime := by rw [hs1]
  have hp1 : s1.ptimer = s.ptimer := by rw [hs1]
  have hn1 : s1.nshort = s.nshort ∧ s1.nzero = s.nzero ∧ s1.cycbuf = s.cycbuf := by
    rw [hs1]; exact ⟨rfl, rfl, rfl⟩
  rw [restart_zero_eq] at h1
  -- the registers of the result
  have hres : s'.timeout = s1.timeout ∧ s'.queuebrk = s1.queuebrk ∧ s'.cotab 0 = s1.cotab 0 ∧
      (s'.atimeout, s'.amtime) = restartPair s1 ∧
      s'.ptimer = (if restartPair s1 = (s1.atimeout, s1.amtime) then s1.ptimer
        else restartPair s1 :: s1.ptimer) ∧
      s'.nshort = s1.nshort ∧ s'.nzero = s1.nzero ∧ s'.cycbuf = s1.cycbuf := by
    by_cases c : (restartPair s1).1 ≠ s1.atimeout ∨ (restartPair s1).2 ≠ s1.amtime
    · rw [if_pos c] at h1
      have cne : ¬ restartPair s1 = (s1.atimeout, s1.amtime) := by
        intro e
        rw [e] at c
        simp at c
      simp only [Except.ok.injEq] at h1
      subst h1
      rw [if_neg cne]
      exact ⟨rfl, rfl, rfl, rfl, rfl, rfl, rfl, rfl⟩
    · rw [if_neg c] at h1
      push_neg at c
      have ce : restartPair s1 = (s1.atimeout, s1.amtime) := Prod.ext c.1 c.2
      simp only [Except.ok.injEq] at h1
      subst h1
      rw [if_pos ce]
      exact ⟨rfl, rfl, rfl, ce.symm, rfl, rfl, rfl, rfl⟩
  obtain ⟨r1, r2, r3, r4, r5, r6, r7, r8⟩ := hres
  have hmin := restartPair_min s1 (by rw [hc1]; exact hm)
  rw [hq1, hc1, ← r1, ← r4] at hmin
  refine ⟨hAE, fun hq ht => ?_, fun hq ht => hmin.2.1 hq ht, fun hq _ => hmin.1 hq,
    fun hq ht => hmin.2.2 hq ht, ?_, ?_⟩
  · rw [hmin.1 hq, ht]
  · rw [r5, ← r4, ha1, hb1, hp1]
  · -- the repeated call
    have hpair : restartPair s' = (s'.atimeout, s'.amtime) := by
      rw [r4]
      exact restartPair_congr s1 s' r1 r2 r3
    have hz : restart s' 0 = .ok s' := by
      rw [restart_zero_eq, if_neg]
      rw [hpair]
      simp
    have hself : ∀ v, v = s'.timeout → ({ s' with timeout := v } : State) = s' := by
      intro v hv
      subst hv
      rfl
    rw [restart_halves]
    by_cases c1 : t ≠ 0
    · rw [if_pos c1]
      by_cases c2 : s.nshort ≠ s.nzero
      · have c2' : s'.nshort ≠ s'.nzero := by rw [r6, r7, hn1.1, hn1.2.1]; exact c2
        have hnb2 : nextBucket CYCBUF_SIZE s'.cycbuf t = .ok s1.timeout := by
          rw [r8, hn1.2.2]
          exact hnb.1 c1 c2
        rw [if_pos c2', hnb2]
        show restart { s' with timeout := s1.timeout } 0 = .ok s'
        rw [hself _ r1.symm]
        exact hz
      · have c2' : ¬ s'.nshort ≠ s'.nzero := by rw [r6, r7, hn1.1, hn1.2.1]; exact c2
        rw [if_neg c2']
        rw [hself _ (by rw [r1]; exact (hnb.2 c1 (not_not.mp c2)).symm)]
        exact hz
    · rw [if_neg c1]
      exact hz

/-- Witness for C31: `restart(1000000004)` in the example state finds the
bucket of second `1000000005`, which is also the second of the heap root
`(1000000005, 500)`: the alarm becomes `(1000000005, 0)`, the timer is armed
once, and a second call changes nothing. -/
theorem restart_sets_alarm_witness :
    restart dueState 1000000004 = .ok
      { dueState with timeout := 1000000005, atimeout := 1000000005, amtime := 0,
                      ptimer := [(1000000005, 0)] } ∧
    (dueState.cotab 0).mtime < UINDEX_MOD ∧
    restart { dueState with timeout := 1000000005, atimeout := 1000000005, amtime := 0,
                            ptimer := [(1000000005, 0)] } 1000000004 = .ok
      { dueState with timeout := 1000000005, atimeout := 1000000005, amtime := 0,
                      ptimer := [(1000000005, 0)] } :=
  ⟨rfl, by decide,
    (restart_sets_alarm dueState _ 1000000004 rfl (by decide)).2.2.2.2.2.2⟩

/-! ## C36: the swap rates after a long pause -/

/-- The swap-rate part of `co_expire`: the loop "handle swaprate" runs on a
state with the swap-rate registers of the state before. -/
theorem co_expire_swaprate (s s' : State) (fired : Bool) (t m : Nat)
    (he : co_expire s fired t m = .ok s') :
    ∃ s2, s2.swapRegs = s.swapRegs ∧ s' = swaprateLoop (t - s2.swaptime) s2 t := by
  unfold co_expire at he
  cases fired with
  | false =>
    simp only [bind, Except.bind, pure, Except.pure, Bool.false_eq_true, if_false,
      Except.ok.injEq] at he
    exact ⟨s, rfl, he.symm⟩
  | true =>
    simp only [bind, Except.bind, pure, Except.pure, if_true] at he
    cases h1 : expireLoop (t - s.timestamp) s t with
    | error e => rw [h1] at he; cases he
    | ok s1 =>
      rw [h1] at he
      dsimp only at he
      cases h2 : drainUpTo UINDEX_MOD s1 t m with
      | error e => rw [h2] at he; cases he
      | ok s2 =>
        rw [h2] at he
        dsimp only at he
        cases h3 : restart s2 t with
        | error e => rw [h3] at he; cases he
        | ok s3 =>
          rw [h3] at he
          simp only [Except.ok.injEq] at he
          refine ⟨s3, ?_, he.symm⟩
          rw [restart_swapRegs _ _ _ h3, drainUpTo_swapRegs _ _ _ _ _ h2,
            expireLoop_swapRegs _ _ _ _ h1]

/-- The rings after one round of the loop "handle swaprate". -/
theorem swaprateStep_rings (s : State) :
    (swaprateStep s).swaptime = u32 (s.swaptime + 1) ∧
    (∀ j, (swaprateStep s).swapped1 j =
      if j = u32 (s.swaptime + 1) % SWPERIOD then 0 else s.swapped1 j) ∧
    (∀ j, (swaprateStep s).swapped5 j =
      if u32 (s.swaptime + 1) % 5 = 0 ∧ j = u32 (s.swaptime + 1) % (5 * SWPERIOD) / 5 then 0
      else s.swapped5 j) := by
  unfold swaprateStep
  dsimp only
  by_cases c : u32 (s.swaptime + 1) % 5 = 0
  · rw [if_pos c]
    refine ⟨rfl, fun j => rfl, fun j => ?_⟩
    simp only [c, true_and]
  · rw [if_neg c]
    refine ⟨rfl, fun j => rfl, fun j => ?_⟩
    simp only [c, false_and, if_false]

/-- The rings after the loop "handle swaprate" from `swaptime` to a later
second `t`: an entry is 0 when its index came up at one of the seconds
`swaptime + 1 .. t`, and is untouched otherwise. -/
theorem swaprateLoop_rings : ∀ (n : Nat) (s : State) (t : Nat), s.swaptime + n = t →
    t < UINT_MOD →
    (swaprateLoop n s t).swaptime = t ∧
    (∀ j, (∃ st, s.swaptime < st ∧ st ≤ t ∧ st % SWPERIOD = j) →
      (swaprateLoop n s t).swapped1 j = 0) ∧
    (∀ j, (¬ ∃ st, s.swaptime < st ∧ st ≤ t ∧ st % SWPERIOD = j) →
      (swaprateLoop n s t).swapped1 j = s.swapped1 j) ∧
    (∀ j, (∃ st, s.swaptime < st ∧ st ≤ t ∧ st % 5 = 0 ∧ st % (5 * SWPERIOD) / 5 = j) →
      (swaprateLoop n s t).swapped5 j = 0) ∧
    (∀ j, (¬ ∃ st, s.swaptime < st ∧ st ≤ t ∧ st % 5 = 0 ∧ st % (5 * SWPERIOD) / 5 = j) →
      (swaprateLoop n s t).swapped5 j = s.swapped5 j)
  | 0, s, t, h, _ => by
    refine ⟨by simpa using h, ?_, fun _ _ => rfl, ?_, fun _ _ => rfl⟩
    · rintro j ⟨st, h1, h2, -⟩
      omega
    · rintro j ⟨st, h1, h2, -⟩
      omega
  | n + 1, s, t, h, ht => by
    rw [swaprateLoop_succ, if_pos (by omega)]
    obtain ⟨e0, e1, e5⟩ := swaprateStep_rings s
    have hu : u32 (s.swaptime + 1) = s.swaptime + 1 := by
      unfold u32
      exact Nat.mod_eq_of_lt (by omega)
    rw [hu] at e0 e1 e5
    obtain ⟨r0, r1, r2, r3, r4⟩ := swaprateLoop_rings n (swaprateStep s) t (by rw [e0]; omega) ht
    rw [e0] at r1 r2 r3 r4
    refine ⟨r0, ?_, ?_, ?_, ?_⟩
    · rintro j ⟨st, h1, h2, h3⟩
      by_cases c : ∃ st, s.swaptime + 1 < st ∧ st ≤ t ∧ st % SWPERIOD = j
      · exact r1 j c
      · rw [r2 j c, e1 j]
        have : st = s.swaptime + 1 := by
          by_contra hne
          exact c ⟨st, by omega, h2, h3⟩
        rw [if_pos (by rw [← this, h3])]
    · intro j hno
      have c : ¬ ∃ st, s.swaptime + 1 < st ∧ st ≤ t ∧ st % SWPERIOD = j := by
        rintro ⟨st, h1, h2, h3⟩
        exact hno ⟨st, by omega, h2, h3⟩
      rw [r2 j c, e1 j, if_neg]
      intro hj
      exact hno ⟨s.swaptime + 1, by omega, by omega, hj.symm⟩
    · rintro j ⟨st, h1, h2, h3, h4⟩
      by_cases c : ∃ st, s.swaptime + 1 < st ∧ st ≤ t ∧ st % 5 = 0 ∧ st % (5 * SWPERIOD) / 5 = j
      · exact r3 j c
      · rw [r4 j c, e5 j]
        have : st = s.swaptime + 1 := by
          by_contra hne
          exact c ⟨st, by omega, h2, h3, h4⟩
        rw [if_pos (by rw [← this]; exact ⟨h3, h4.symm⟩)]
    · intro j hno
      have c : ¬ ∃ st, s.swaptime + 1 < st ∧ st ≤ t ∧ st % 5 = 0 ∧
          st % (5 * SWPERIOD) / 5 = j := by
        rintro ⟨st, h1, h2, h3, h4⟩
        exact hno ⟨st, by omega, h2, h3, h4⟩
      rw [r4 j c, e5 j, if_neg]
      rintro ⟨hj1, hj2⟩
      exact hno ⟨s.swaptime + 1, by omega, by omega, hj1, hj2.symm⟩

/-- **C36.** For every state whose swap-rate totals are the sums of the
rings, and every call of `co_expire` that returns, for a 32-bit second `t`:
the totals are again the sums of the rings; if `t` is at least 60 seconds
after `swaptime` then `swaprate1` is 0 afterwards, and if it is at least 300
seconds after `swaptime` then `swaprate5` is 0. The entry of the one-minute
ring into which `co_swapcount` adds at the second `swaptime` keeps its value,
and so stays part of `swaprate1`, when `t` is less than `swaptime + 60`, and
is 0 when `t` is `swaptime + 60` or later. -/
theorem swaprate_expiry (s s' : State) (fired : Bool) (t m : Nat) (hinv : SwapInv s)
    (ht : t < UINT_MOD) (he : co_expire s fired t m = .ok s') :
    (s'.swaprate1 = u32 (∑ j in Finset.range SWPERIOD, s'.swapped1 j) ∧
      s'.swaprate5 = u32 (∑ j in Finset.range SWPERIOD, s'.swapped5 j)) ∧
    (s.swaptime + 60 ≤ t → co_swaprate1 s' = 0) ∧
    (s.swaptime + 300 ≤ t → co_swaprate5 s' = 0) ∧
    (∀ s0 count, s = co_swapcount s0 count →
      s.swaptime = s0.swaptime ∧
      s.swapped1 (s.swaptime % SWPERIOD) = u32 (s0.swapped1 (s0.swaptime % SWPERIOD) + count)) ∧
    (t < s.swaptime + 60 →
      s'.swapped1 (s.swaptime % SWPERIOD) = s.swapped1 (s.swaptime % SWPERIOD)) ∧
    (s.swaptime + 60 ≤ t → s'.swapped1 (s.swaptime % SWPERIOD) = 0) := by
  have hinv' : SwapInv s' := hinv.expire fired t m he
  obtain ⟨s2, hregs, hs'⟩ := co_expire_swaprate s s' fired t m he
  have hT : s2.swaptime = s.swaptime := by
    have := congrArg Prod.fst hregs
    exact this
  have h1 : s2.swapped1 = s.swapped1 := by
    have := congrArg (fun p => p.2.1) hregs
    exact this
  -- the case that the loop does not run
  have hstay : t ≤ s.swaptime → s'.swapped1 = s.swapped1 := by
    intro hle
    have : t - s2.swaptime = 0 := by omega
    rw [this] at hs'
    rw [hs', ← h1]
    rfl
  -- the case that it runs
  have hrun := fun (hlt : s.swaptime < t) =>
    swaprateLoop_rings (t - s2.swaptime) s2 t (by omega) ht
  rw [← hs', hT, h1] at hrun
  unfold SWPERIOD at *
  refine ⟨hinv', fun h60 => ?_, fun h300 => ?_, ?_, fun hlt => ?_, fun h60 => ?_⟩
  · obtain ⟨-, r1, -⟩ := hrun (by omega)
    show s'.swaprate1 = 0
    rw [hinv'.1]
    have : ∑ j in Finset.range 60, s'.swapped1 j = 0 := by
      apply Finset.sum_eq_zero
      intro j hj
      have hj' := Finset.mem_range.1 hj
      exact r1 j ⟨s.swaptime + 1 + (j + 60 - (s.swaptime + 1) % 60) % 60, by omega, by omega,
        by omega⟩
    show u32 (∑ j in Finset.range 60, s'.swapped1 j) = 0
    rw [this]
    rfl
  · obtain ⟨-, -, -, r3, -⟩ := hrun (by omega)
    show s'.swaprate5 = 0
    rw [hinv'.2]
    have : ∑ j in Finset.range 60, s'.swapped5 j = 0 := by
      apply Finset.sum_eq_zero
      intro j hj
      have hj' := Finset.mem_range.1 hj
      exact r3 j ⟨s.swaptime + 1 + (5 * j + 300 - (s.swaptime + 1) % 300) % 300, by omega,
        by omega, by omega, by omega⟩
    show u32 (∑ j in Finset.range 60, s'.swapped5 j) = 0
    rw [this]
    rfl
  · intro s0 count e
    subst e
    refine ⟨rfl, ?_⟩
    show (if s0.swaptime % 60 = s0.swaptime % 60 then _ else _) = _
    rw [if_pos rfl]
    rfl
  · by_cases hle : t ≤ s.swaptime
    · rw [hstay hle]
    · obtain ⟨-, -, r2, -⟩ := hrun (by omega)
      apply r2
      rintro ⟨st, a1, a2, a3⟩
      omega
  · obtain ⟨-, r1, -⟩ := hrun (by omega)
    exact r1 _ ⟨s.swaptime + 60, by omega, h60, by omega⟩

/-- Witness for C36: a table whose rings are empty at the second 1000000000,
`co_swapcount(3)`, and `co_expire` without a timed out alarm at the second
1000000060: the one-minute rate, which was 3, is 0 again. -/
theorem swaprate_expiry_witness :
    SwapInv (co_swapcount { zeroState with swaptime := 1000000000 } 3) ∧
    co_swaprate1 (co_swapcount { zeroState with swaptime := 1000000000 } 3) = 3 ∧
    co_expire (co_swapcount { zeroState with swaptime := 1000000000 } 3) false 1000000060 0 =
      .ok (swaprateLoop 60 (co_swapcount { zeroState with swaptime := 1000000000 } 3)
        1000000060) ∧
    co_swaprate1 (swaprateLoop 60 (co_swapcount { zeroState with swaptime := 1000000000 } 3)
      1000000060) = 0 :=
  have h0 : SwapInv { zeroState with swaptime := 1000000000 } := by
    unfold SwapInv
    simp [zeroState, u32]
  ⟨h0.swapcount 3, rfl, rfl,
    (swaprate_expiry _ _ false 1000000060 0 (h0.swapcount 3)
      (by show (1000000060 : Nat) < 4294967296; norm_num) rfl).2.1
      (by show (1000000000 : Nat) + 60 ≤ 1000000060; norm_num)⟩

/-! ## C38: `dequeue` on a large heap -/

/-- The sift-down loop with the hole at index 0, which the doubling of a
`uindex` reaches by wrapping around, never ends: the child of 0 is 0. -/
theorem siftDown_stuck : ∀ (fuel : Nat) (l : Nat → call_out) (q t : Nat) (m : Int),
    0 < q → (l 0).time = 0 → (l 1).time ≠ 0 → t ≠ 0 →
    siftDown fuel l q 0 t m = .error .diverge
  | 0, _, _, _, _, _, _, _, _ => rfl
  | fuel + 1, l, q, t, m, hq, h0, h1, ht => by
    unfold siftDown
    have hj : u16 (0 * 2) = 0 := rfl
    dsimp only
    rw [hj, if_pos hq]
    have hc : ¬ ((l 0).time > (l (0 + 1)).time ∨
        ((l 0).time = (l (0 + 1)).time ∧ (l 0).mtime > (l (0 + 1)).mtime)) := by
      rw [h0]
      rintro (h | ⟨h, -⟩)
      · omega
      · exact h1 h.symm
    rw [if_neg hc]
    have hb : ¬ (t < (l 0).time ∨ (t = (l 0).time ∧ m ≤ ((l 0).mtime : Int))) := by
      rw [h0]
      rintro (h | ⟨h, -⟩)
      · omega
      · exact ht h
    rw [if_neg hb]
    exact siftDown_stuck fuel _ q t m hq (by simpa [setMem] using h0)
      (by simpa [setMem] using h1) ht

/-- The sift-down loop in the table of `bigHeap`, with the last entry
`(1000000200 + 32769, 0)` in hand and the hole at `2 ^ k`: both children are
earlier than the last entry, the hole moves to the left child `2 ^ (k + 1)`,
and from `2 ^ 15 = 32768` the doubled index wraps around to 0. -/
theorem siftDown_descend : ∀ (d k : Nat), k + d = 15 → ∀ (fuel : Nat) (l : Nat → call_out),
    (∀ x, 2 ^ (k + 1) ≤ x → x ≤ 32769 → l x = ⟨x, 1, 1000000200 + x, 0⟩) →
    (l 0).time = 0 → (l 1).time ≠ 0 →
    siftDown fuel l 32769 (2 ^ k) (1000000200 + 32769) 0 = .error .diverge
  | 0, k, hk, fuel, l, _, h0, h1 => by
    have e : k = 15 := by omega
    subst e
    cases fuel with
    | zero => rfl
    | succ fuel =>
      unfold siftDown
      have hj : u16 (2 ^ 15 * 2) = 0 := by decide
      dsimp only
      rw [hj, if_pos (by norm_num)]
      have hc : ¬ ((l 0).time > (l (0 + 1)).time ∨
          ((l 0).time = (l (0 + 1)).time ∧ (l 0).mtime > (l (0 + 1)).mtime)) := by
        rw [h0]
        rintro (h | ⟨h, -⟩)
        · omega
        · exact h1 h.symm
      rw [if_neg hc]
      have hb : ¬ (1000000200 + 32769 < (l 0).time ∨
          (1000000200 + 32769 = (l 0).time ∧ (0 : Int) ≤ ((l 0).mtime : Int))) := by
        rw [h0]
        rintro (h | ⟨h, -⟩) <;> omega
      rw [if_neg hb]
      exact siftDown_stuck fuel _ 32769 _ 0 (by norm_num)
        (by simpa [setMem] using h0) (by simpa [setMem] using h1) (by norm_num)
  | d + 1, k, hk, fuel, l, hl, h0, h1 => by
    cases fuel with
    | zero => rfl
    | succ fuel =>
      have hk14 : k ≤ 14 := by omega
      have hp1 : 1 ≤ 2 ^ k := Nat.one_le_two_pow
      have hp2 : 2 ^ k ≤ 2 ^ 14 := Nat.pow_le_pow_right (by norm_num) hk14
      have hp3 : 2 ^ (k + 1) = 2 ^ k * 2 := pow_succ 2 k
      have hp4 : 2 ^ (k + 1 + 1) = 2 ^ k * 2 * 2 := by rw [pow_succ, pow_succ]
      norm_num at hp2
      generalize 2 ^ k = i at *
      unfold siftDown
      have hj : u16 (i * 2) = i * 2 := by
        unfold u16 UINDEX_MOD
        omega
      dsimp only
      rw [hj, if_pos (by omega)]
      have e1 := hl (i * 2) (by omega) (by omega)
      have e2 := hl (i * 2 + 1) (by omega) (by omega)
      have hc : ¬ ((l (i * 2)).time > (l (i * 2 + 1)).time ∨
          ((l (i * 2)).time = (l (i * 2 + 1)).time ∧
            (l (i * 2)).mtime > (l (i * 2 + 1)).mtime)) := by
        rw [e1, e2]
        dsimp only
        omega
      rw [if_neg hc]
      have hb : ¬ (1000000200 + 32769 < (l (i * 2)).time ∨
          (1000000200 + 32769 = (l (i * 2)).time ∧ (0 : Int) ≤ ((l (i * 2)).mtime : Int))) := by
        rw [e1]
        dsimp only
        omega
      rw [if_neg hb, ← hp3]
      apply siftDown_descend d (k + 1) (by omega) fuel
      · intro x hx1 hx2
        rw [hp4] at hx1
        unfold setMem
        rw [if_neg (by omega)]
        exact hl x (by omega) hx2
      · unfold setMem
        rw [if_neg (by omega)]
        exact h0
      · unfold setMem
        by_cases c : 1 = i
        · rw [if_pos c, hp3, e1]
          dsimp only
          omega
        · rw [if_neg c]
          exact h1

/-- The function `dequeue` when the last entry is not earlier in seconds
than the removed one: the sift-down loop, then the assignment. -/
theorem dequeue_down (s : State) (i0 : Nat)
    (h : ¬ (s.mem s.queuebrk).time < (s.mem (u16 (i0 + 1))).time) :
    dequeue s i0 =
      (siftDown UINDEX_MOD s.mem s.queuebrk (u16 (i0 + 1)) (s.mem s.queuebrk).time
        (toShort (s.mem s.queuebrk).mtime)).bind
        (fun p => .ok { s with mem := setMem p.1 p.2 (p.1 s.queuebrk),
                               queuebrk := dec16 s.queuebrk }) := by
  unfold dequeue
  simp only [bind, Except.bind, pure, Except.pure]
  rw [if_neg h]

/-- **C38 fails on the code.** The heap of `bigHeap` has 32769 entries in
slot order, so it is ordered and its sentinel has time 0; `dequeue` of heap
index 1 (`dequeue(0)`) moves the hole down the left spine to slot 32768, where
the doubling of the `uindex` index `j` wraps around to 0, and from there the
loop repeats with `i = j = 0` for ever: the call does not return, no entry is
removed and `queuebrk` is not decreased. -/
theorem dequeue_large_heap_diverges :
    HeapOrdered bigHeap.mem bigHeap.queuebrk ∧ (bigHeap.mem 0).time = 0 ∧
    1 ≤ bigHeap.queuebrk ∧ bigHeap.queuebrk ≤ bigHeap.cycbrk ∧
    bigHeap.cotabsz < UINDEX_MOD ∧
    dequeue bigHeap 0 = .error .diverge := by
  have hmem : ∀ x, 1 ≤ x → x ≤ 32769 → bigHeap.mem x = ⟨x, 1, 1000000200 + x, 0⟩ :=
    fun x h1 h2 => if_pos ⟨h1, h2⟩
  have hmem0 : bigHeap.mem 0 = ⟨0, 0, 0, 0⟩ := rfl
  refine ⟨?_, rfl, by decide, by decide, by decide, ?_⟩
  · intro i h1 hn
    have hn' : i ≤ 32769 := hn
    rw [hmem i h1 hn']
    by_cases hp : 1 ≤ i / 2
    · rw [hmem (i / 2) hp (by omega)]
      unfold keyLe
      dsimp only
      omega
    · have : i / 2 = 0 := by omega
      rw [this, hmem0]
      unfold keyLe
      dsimp only
      omega
  · have hs : siftDown UINDEX_MOD bigHeap.mem 32769 (2 ^ 0) (1000000200 + 32769) 0 =
        .error .diverge := by
      apply siftDown_descend 15 0 rfl
      · intro x hx1 hx2
        exact hmem x (by omega) hx2
      · rfl
      · rw [hmem 1 (le_refl _) (by norm_num)]
        dsimp only
        omega
    have hlast : bigHeap.mem bigHeap.queuebrk = ⟨32769, 1, 1000000200 + 32769, 0⟩ :=
      hmem 32769 (by norm_num) (le_refl _)
    have hu : u16 (0 + 1) = 1 := rfl
    have hq : bigHeap.queuebrk = 32769 := rfl
    rw [dequeue_down bigHeap 0 (by
      rw [hlast, hu, hmem 1 (le_refl _) (by norm_num)]
      dsimp only
      omega)]
    rw [hlast, hu, hq]
    have hsh : toShort 0 = 0 := rfl
    dsimp only
    rw [hsh]
    have hs2 : siftDown UINDEX_MOD bigHeap.mem 32769 1 (1000000200 + 32769) 0 =
        .error .diverge := hs
    rw [hs2]
    rfl

/-! ## C37: slot 0 -/

/-- **C37 fails on the code.** After `co_init(3)` two millisecond callouts
are admitted to the queue and a callout of 5 whole seconds to the cyclic
buffer, which is cancelled again; a third millisecond callout is admitted.
Every admission is a `co_check` with `n = 0` that does not raise, followed
by `co_new`. Now the queue fills the table: `queuebrk = cycbrk = 3` and the
free list is empty. `co_expire` at `(1000000003, 0)`, when all three are due,
migrates them: `newcallout` takes `cotab[2]`, `cotab[1]` and then `cotab[0]`,
so that `cycbrk` is 0 afterwards and the slot with the index 0, the null
link, has been handed out: the immediate list ends after its second element,
with `last = 0`, while `nzero` counts three. -/
theorem co_expire_hands_out_slot_zero :
    ∃ s0 s1 s2 s3 s4 s5 s6 m1 m2 a1 a2 a3 a5,
      co_init zeroMem 3 1000000000 = .ok s0 ∧
      checkNew s0 1 1 2 100 1000000000 0 = .ok (s1, a1) ∧
      checkNew s1 2 2 2 200 1000000000 0 = .ok (s2, a2) ∧
      checkNew s2 3 3 5 0xffff 1000000000 0 = .ok (s3, a3) ∧
      a3.q = some (CbufRef.cyc 5) ∧
      co_del false s3 3 3 a3.stored = .ok s4 ∧
      checkNew s4 4 4 2 300 1000000000 0 = .ok (s5, a5) ∧
      s5.queuebrk = 3 ∧ s5.cycbrk = 3 ∧ s5.flist = 0 ∧ s5.nshort = 0 ∧
      co_expire s5 true 1000000003 0 = .ok s6 ∧
      s6.cycbrk = 0 ∧ s6.queuebrk = 0 ∧ s6.nzero = 3 ∧ s6.nshort = 3 ∧
      s6.listOf .immediate = [2, 1] ∧ s6.immediate.last = 0 ∧ s6.key 0 = (4, 4) ∧
      migrateRoot { s5 with timestamp := 1000000003 } = .ok m1 ∧
      migrateRoot m1 = .ok m2 ∧ m2.cycbrk = 1 ∧ m2.flist = 0 ∧
      ((dequeue m2 0).bind (fun u => newcallout u .immediate 0)).map Prod.snd = .ok 0 :=
  ⟨_, _, _, _, _, _, _, _, _, _, _, _, _, rfl, rfl, rfl, rfl, rfl, rfl, rfl, rfl, rfl, rfl, rfl,
    rfl, rfl, rfl, rfl, rfl, rfl, rfl, rfl, rfl, rfl, rfl, rfl, rfl⟩

/-! ## C33: the counts of the bucket heads -/

/-- **C33 fails on the code, for the immediate list.** After `co_init(8)` a
callout with a delay of 3 whole seconds is admitted: it is alone on the
bucket of the second `1000000003`, in slot 7, with the `count` 1 at the head,
and the immediate list is empty. The alarm fires at `(1000000003, 0)` and
`co_expire` splices the bucket onto the immediate list: the list is `[7]`
and `nzero` has grown by 1, but the `count` field of its head is 2, not the
length 1. The statement `cotab[immediate.list].count += i` adds the count of
the bucket to the head of the immediate list, and when that list was empty
its head is the head of the bucket, which carries the count already. -/
theorem splice_doubles_immediate_count :
    ∃ s0 s1 s2 a1,
      co_init zeroMem 8 1000000000 = .ok s0 ∧
      checkNew s0 1 1 3 0xffff 1000000000 0 = .ok (s1, a1) ∧
      a1.q = some (CbufRef.cyc 3) ∧
      s1.listOf (.cyc 3) = [7] ∧ (s1.cycbuf 3).list = 7 ∧ (s1.cotab 7).mtime = 1 ∧
      s1.immediate.list = 0 ∧ s1.nzero = 0 ∧ s1.atimeout = 1000000003 ∧
      co_expire s1 true 1000000003 0 = .ok s2 ∧
      s2.listOf .immediate = [7] ∧ s2.immediate.list = 7 ∧ s2.listOf (.cyc 3) = [] ∧
      s2.nzero = 1 ∧ (s2.cotab s2.immediate.list).mtime = 2 ∧
      (s2.cotab s2.immediate.list).mtime ≠ (s2.listOf .immediate).length :=
  ⟨_, _, _, _, rfl, rfl, rfl, rfl, rfl, rfl, rfl, rfl, rfl, rfl, rfl, rfl, rfl, rfl, rfl,
    by decide⟩

/-- In a well-formed cyclic buffer every bucket head carries the length of
its bucket. -/
theorem Wheel.bucketCounts {s : State} {fl : List Nat} {ls : CbufRef → List Nat}
    (hw : Wheel s fl ls) : BucketCounts s := by
  intro k hk hne
  rw [hw.listOf (.cyc k) hk]
  apply hw.count k hk
  intro hnil
  exact hne ((hw.chain (.cyc k) hk).head_eq_zero_iff.2 hnil)

/-- The splice of `co_expire` in a well-formed cyclic buffer: the bucket of
the current second, holding `c` callouts, is appended to the immediate list,
`nzero` grows by `c`, and the `count` of the head of the immediate list is
`c + c` when the immediate list was empty and is raised by `c` otherwise. -/
theorem Wheel.splice_counts {s : State} {fl : List Nat} {ls : CbufRef → List Nat}
    (hw : Wheel s fl ls) (hB : (s.cycbuf (cycIndex s.timestamp)).list ≠ 0) :
    (spliceBucket s).listOf .immediate =
      s.listOf .immediate ++ s.listOf (.cyc (cycIndex s.timestamp)) ∧
    (spliceBucket s).listOf (.cyc (cycIndex s.timestamp)) = [] ∧
    (spliceBucket s).nzero = s.nzero + (s.listOf (.cyc (cycIndex s.timestamp))).length ∧
    ((spliceBucket s).cotab (spliceBucket s).immediate.list).mtime =
      if s.immediate.list = 0 then
        (s.listOf (.cyc (cycIndex s.timestamp))).length +
          (s.listOf (.cyc (cycIndex s.timestamp))).length
      else u16 ((s.cotab s.immediate.list).mtime +
        (s.listOf (.cyc (cycIndex s.timestamp))).length) := by
  have hk : cycIndex s.timestamp < CYCBUF_SIZE := cycIndex_lt _
  have hw' := hw.splice
  have hcnt := hw.bucketCounts _ hk hB
  have hlen := hw.length_le (.cyc (cycIndex s.timestamp)) hk
  have hcap := hw.cap
  rw [← hw.listOf (.cyc (cycIndex s.timestamp)) hk] at hlen
  have e1 := hw'.listOf .immediate trivial
  have e2 := hw'.listOf (.cyc (cycIndex s.timestamp)) hk
  rw [Function.update_same] at e1
  rw [Function.update_noteq (by intro h; cases h), Function.update_same] at e2
  have n1 := hw'.nzero
  rw [Function.update_same, Function.update_noteq (by intro h; cases h),
    Function.update_noteq (by intro h; cases h), List.length_append] at n1
  have n0 := hw.nzero
  rw [hw.listOf .immediate trivial, hw.listOf (.cyc (cycIndex s.timestamp)) hk]
  refine ⟨e1, e2, by omega, ?_⟩
  have hhead : (spliceBucket s).immediate.list =
      if s.immediate.list = 0 then (s.cycbuf (cycIndex s.timestamp)).list
      else s.immediate.list := by
    have := spliceBucket_getCbuf s hB .immediate
    rw [if_pos rfl] at this
    exact congrArg cbuf.list this
  rw [hhead, spliceBucket_mtime s hB, if_pos rfl, hcnt,
    hw.listOf (.cyc (cycIndex s.timestamp)) hk]
  by_cases h0 : s.immediate.list = 0
  · rw [if_pos h0, if_pos h0, hcnt, hw.listOf (.cyc (cycIndex s.timestamp)) hk]
    rw [hw.listOf (.cyc (cycIndex s.timestamp)) hk] at hlen
    unfold u16
    unfold UINDEX_MOD at *
    exact Nat.mod_eq_of_lt (by omega)
  · rw [if_neg h0, if_neg h0]

/-- The part of C33 that the code keeps. In every well-formed cyclic buffer
the `count` field of the head of each non-empty bucket is the number of
callouts on the bucket,
and this holds again after `co_new` has put a callout on a bucket or on the
immediate list through `newcallout`, after `freecallout` has removed any
listed callout, and after `co_expire` for an alarm that fired. The splice of
`co_expire` appends the bucket of the current second, holding `c` callouts,
to the immediate list and adds `c` to `nzero`; the `count` of the head of the
immediate list is then `c + c` when the immediate list was empty before, and
has grown by `c` when it was not. -/
theorem bucket_head_counts (s : State) (fl : List Nat) (ls : CbufRef → List Nat)
    (hw : Wheel s fl ls) :
    BucketCounts s ∧
    (∀ (r : CbufRef) (handle oindex t m : Nat), r.valid →
      ((r = .immediate ∧ t = 0) ∨ (t ≠ 0 ∧ ∃ k, r = .cyc k)) →
      (s.flist = 0 → 2 ≤ s.cycbrk) → u16 handle ≠ 0 →
      ∃ s' i, co_new s handle oindex t m (some r) = .ok s' ∧ BucketCounts s' ∧
        s'.listOf r = s.listOf r ++ [i]) ∧
    (∀ (r : CbufRef) (pre post : List Nat) (i j t : Nat), r.valid →
      s.listOf r = pre ++ i :: post → j = pre.getLast?.getD i → (t = 0 ↔ ∀ k, r ≠ .cyc k) →
      ∃ s', freecallout s r j i t = .ok s' ∧ BucketCounts s' ∧ s'.listOf r = pre ++ post) ∧
    (HeapInv s → (s.flist = 0 → s.queuebrk < s.cycbrk) →
      (s.cycbuf (cycIndex s.timestamp)).list = 0 →
      ∀ t m, s.timestamp ≤ t → t < UINT_MOD →
        ∃ s', co_expire s true t m = .ok s' ∧ BucketCounts s') ∧
    ((s.cycbuf (cycIndex s.timestamp)).list ≠ 0 →
      (spliceBucket s).listOf .immediate =
        s.listOf .immediate ++ s.listOf (.cyc (cycIndex s.timestamp)) ∧
      (spliceBucket s).listOf (.cyc (cycIndex s.timestamp)) = [] ∧
      (spliceBucket s).nzero = s.nzero + (s.listOf (.cyc (cycIndex s.timestamp))).length ∧
      ((spliceBucket s).cotab (spliceBucket s).immediate.list).mtime =
        if s.immediate.list = 0 then
          (s.listOf (.cyc (cycIndex s.timestamp))).length +
            (s.listOf (.cyc (cycIndex s.timestamp))).length
        else u16 ((s.cotab s.immediate.list).mtime +
          (s.listOf (.cyc (cycIndex s.timestamp))).length)) := by
  refine ⟨hw.bucketCounts, ?_, ?_, ?_, fun hB => hw.splice_counts hB⟩
  · intro r handle oindex t m hr hcase hroom hh
    obtain ⟨s', i, h1, h2, -⟩ := co_new_append hw r hr handle oindex t m hcase hroom hh
    refine ⟨s', i, h1, h2.bucketCounts, ?_⟩
    rw [h2.listOf r hr, Function.update_same, hw.listOf r hr]
  · intro r pre post i j t hr hl hj ht
    rw [hw.listOf r hr] at hl
    obtain ⟨s', fl', h1, h2, -⟩ := freecallout_spec hw hr hl hj t ht
    refine ⟨s', h1, h2.bucketCounts, ?_⟩
    rw [h2.listOf r hr, Function.update_same]
  · intro hh hroom hwin t m ht ht32
    obtain ⟨s', fl', ls', N, ds, h1, h2, -⟩ := co_expire_spec hw hh hroom hwin t m ht ht32
    exact ⟨s', h1, h2.bucketCounts⟩

/-- An instance of `bucket_head_counts`: the example state, whose bucket of second
`1000000005` holds two callouts with the count 2 at the head, slot 7; after
`timestamp` has reached `1000000003` the splice puts the one callout of that
bucket on the empty immediate list, with twice its count at the head. -/
theorem bucket_head_counts_witness :
    (∃ fl ls, Wheel dueState fl ls) ∧ BucketCounts dueState ∧
    (dueState.cotab (dueState.cycbuf 5).list).mtime = 2 ∧
    ((spliceBucket { dueState with timestamp := 1000000003 }).cotab
      (spliceBucket { dueState with timestamp := 1000000003 }).immediate.list).mtime = 2 := by
  obtain ⟨fl, ls, hw⟩ := dueState_inv.wheel
  exact ⟨⟨fl, ls, hw⟩, (bucket_head_counts dueState fl ls hw).1, rfl, rfl⟩

/-! ## C34: `freecallout` -/

/-- The first part of `freecallout`, for an element `i` of a list `r` with
the element `j` before it: the counters and the list operations return a
state in which `i` is unlinked and not yet released. -/
theorem freecallout_unlinked {s : State} {fl : List Nat} {ls : CbufRef → List Nat}
    (hw : Wheel s fl ls) {r : CbufRef} (hr : r.valid) {pre post : List Nat} {i j : Nat}
    (hl : ls r = pre ++ i :: post) (hj : j = pre.getLast?.getD i) (t : Nat)
    (ht : t = 0 ↔ ∀ k, r ≠ .cyc k) :
    (∀ k, r = .cyc k → (if t = 0 then 1 else 0) = 0) ∧
    ((∀ k, r ≠ .cyc k) → (if t = 0 then 1 else 0) = 1) ∧
    ∃ U, unlinkAt (countDown s t) r j i t = .ok U ∧
      Unlinked s r pre i post (if t = 0 then 1 else 0) U := by
  have hz0 : ∀ k, r = .cyc k → (if t = 0 then 1 else 0) = 0 := by
    intro k hk
    rw [if_neg]
    intro h0
    exact ht.1 h0 k hk
  have hz1 : (∀ k, r ≠ .cyc k) → (if t = 0 then 1 else 0) = 1 := by
    intro h
    rw [if_pos (ht.2 h)]
  obtain ⟨n1, n2, n3, n4⟩ := hw.unlink_counts hr hl hz0 hz1
  have hcap := hw.cap
  have hble := hw.brk_le
  have htot := hw.total
  have hnzs := hw.nshort
  obtain ⟨d1, d2, d3, d4, d5, d6, d7, d8, d9, d10⟩ := countDown_fields s t
  have hB : (countDown s t).flist = s.flist ∧ (countDown s t).cycbrk = s.cycbrk ∧
      (countDown s t).cotabsz = s.cotabsz ∧ (countDown s t).nshort = s.nshort - 1 ∧
      (countDown s t).nzero = s.nzero - (if t = 0 then 1 else 0) ∧
      (countDown s t).queuebrk = s.queuebrk ∧ (countDown s t).timestamp = s.timestamp ∧
      (countDown s t).mem = s.mem ∧ (∀ r', (countDown s t).getCbuf r' = s.getCbuf r') := by
    refine ⟨d1, d2, d3, ?_, ?_, d6, d7, d8, d10⟩
    · rw [d4]
      exact dec16_of_pos n3 (by unfold UINDEX_MOD at *; omega)
    · rw [d5]
      by_cases h0 : t = 0
      · rw [if_pos h0, if_pos h0]
        rw [if_pos h0] at n4
        exact dec16_of_pos n4 (by unfold UINDEX_MOD at *; omega)
      · rw [if_neg h0, if_neg h0]
        rfl
  refine ⟨hz0, hz1, ?_⟩
  rcases eq_nil_or_snoc pre with e | ⟨pre', j', e⟩
  · subst e
    have hj' : j = i := hj
    subst hj'
    exact unlinkAt_head hw hr hl t hB hz0 hz1
  · subst e
    have hj' : j = j' := by
      rw [hj]
      simp
    subst hj'
    exact unlinkAt_mid hw hr hl t hB

/-- The last part of `freecallout`, the release of the unlinked element `i`:
at the edge of the region `cycbrk` moves up past `i` and past the free
elements that follow it, which leave the free list; elsewhere `i` becomes
the head of the free list. -/
theorem releaseSlot_release {s U : State} {fl : List Nat} {ls : CbufRef → List Nat}
    (hw : Wheel s fl ls) {r : CbufRef} (hr : r.valid) {pre post : List Nat} {i z : Nat}
    (hl : ls r = pre ++ i :: post) (hu : Unlinked s r pre i post z U)
    (hz0 : ∀ k, r = .cyc k → z = 0) (hz1 : (∀ k, r ≠ .cyc k) → z = 1) :
    ∃ s' fl', releaseSlot U i = .ok s' ∧
      Wheel s' fl' (Function.update ls r (pre ++ post)) ∧ (s'.cotab i).handle = 0 ∧
      (i = s.cycbrk →
        s.cycbrk < s'.cycbrk ∧
        (s'.cycbrk = s'.cotabsz ∨ (s'.cotab s'.cycbrk).handle ≠ 0) ∧
        (∀ x, x ∈ fl' ↔ x ∈ fl ∧ s'.cycbrk ≤ x) ∧
        (∀ x, s.cycbrk < x → x < s'.cycbrk → x ∈ fl ∧ x ∉ fl')) ∧
      (i ≠ s.cycbrk →
        s'.cycbrk = s.cycbrk ∧ s'.flist = i ∧ fl' = i :: fl ∧ (s'.cotab i).time = s.flist ∧
        (s.flist ≠ 0 → (s'.cotab s.flist).oindex = i)) := by
  obtain ⟨p2, p4, p5, p6, p7, p8, p9⟩ := hw.listed_facts hr hl
  have hcap := hw.cap
  have hble := hw.brk_le
  have hlisted : ∀ r', r'.valid → ∀ x ∈ Function.update ls r (pre ++ post) r',
      x ∈ ls r' ∧ x ≠ i := by
    intro r' hr' x hx
    rcases (mem_update_list ls r r' _ x).1 hx with ⟨e, h⟩ | ⟨e, h⟩
    · subst e
      exact ⟨p8 x h, fun e => p7 (e ▸ h)⟩
    · refine ⟨h, fun e' => hw.disj r' r hr' hr e x h ?_⟩
      rw [hl, e']
      simp
  have hrest : ∀ r', r'.valid → ∀ x ∈ ls r', x ≠ i →
      x ∈ Function.update ls r (pre ++ post) r' := by
    intro r' hr' x hx hne
    apply (mem_update_list ls r r' _ x).2
    by_cases e : r' = r
    · subst e
      left
      refine ⟨rfl, ?_⟩
      rw [hl] at hx
      simp only [List.mem_append, List.mem_cons] at hx ⊢
      rcases hx with h | h | h
      · exact Or.inl h
      · exact absurd h hne
      · exact Or.inr h
    · exact Or.inr ⟨e, hx⟩
  rw [releaseSlot_eq]
  by_cases he : i = U.cycbrk
  · rw [if_pos he]
    have he' : i = s.cycbrk := he.trans hu.cycbrk
    have hc : u16 (U.cycbrk + 1) = s.cycbrk + 1 := by
      rw [hu.cycbrk]; exact u16_of_lt (by omega)
    have hw1 := hw.unlink_edge hr hl hu hz0 hz1 he' _ hc
    obtain ⟨s', fl', ha, hw', hc', hsub', hg', hz', hq', ht', hm', hle', hend⟩ :=
      absorbFree_spec UINDEX_MOD _ fl hw1 (by
        show U.cotabsz - u16 (U.cycbrk + 1) < _
        rw [hu.cotabsz, hc]; omega)
    have hle2 : s.cycbrk + 1 ≤ s'.cycbrk := by
      have h1 : ({ U.setHandle i 0 with cycbrk := u16 (U.cycbrk + 1) } : State).cycbrk ≤
          s'.cycbrk := hle'
      have h2 : ({ U.setHandle i 0 with cycbrk := u16 (U.cycbrk + 1) } : State).cycbrk =
          s.cycbrk + 1 := hc
      omega
    have hsz : s'.cotabsz = s.cotabsz := hz'.trans hu.cotabsz
    refine ⟨s', fl', ha, hw', ?_, fun _ => ⟨by omega, hend, ?_, ?_⟩, fun hne => absurd he' hne⟩
    · rw [hc' i p4, cotab_cycbrk, setHandle_handle, if_pos rfl]
    · intro x
      constructor
      · intro hx
        exact ⟨hsub' x hx, (hw'.free_range x hx).1⟩
      · rintro ⟨hx, hge⟩
        have hlt : x < s'.cotabsz := by rw [hsz]; exact (hw.free_range x hx).2
        rcases hw'.cover x hge hlt with h | ⟨r', hr', h⟩
        · exact h
        · exact absurd (hlisted r' hr' x h).1 (hw.free_not_listed hx r' hr')
    · intro x h1 h2
      have hnf : x ∉ fl' := fun h => by
        have := (hw'.free_range x h).1
        omega
      refine ⟨?_, hnf⟩
      have hlt : x < s.cotabsz := by
        have := hw'.brk_le
        omega
      rcases hw.cover x (by omega) hlt with h | ⟨r', hr', h⟩
      · exact h
      · exfalso
        have := (hw'.range r' hr' x (hrest r' hr' x h (by omega))).1
        omega
  · rw [if_neg he]
    have hw1 := hw.unlink_push hr hl hu hz0 hz1
    obtain ⟨g1, g2, g3, g4, g5, g6, g7, g8⟩ := pushFree_fields (U.setHandle i 0) i
    have hvf : (U.setHandle i 0).flist = s.flist := hu.flist
    have hne' : i ≠ s.cycbrk := fun e => he (e.trans hu.cycbrk.symm)
    refine ⟨_, _, rfl, hw1, ?_, fun e => absurd e hne', fun _ => ⟨?_, g1, rfl, ?_, ?_⟩⟩
    · rw [(pushFree_cotab _ i i).1, setHandle_handle, if_pos rfl]
    · rw [g2]
      exact hu.cycbrk
    · rw [(pushFree_cotab _ i i).2.2.1, if_pos rfl, hvf]
    · intro h0
      rw [(pushFree_cotab _ i s.flist).2.2.2, hvf, if_pos ⟨h0, rfl⟩]

/-- **C34.** For every element `i` of a list of a well-formed cyclic buffer
that `freecallout` releases (`j` is the element before it on the list and
`t` is 0 exactly for the immediate and the running list): the call returns,
the cyclic buffer is well-formed again, with a free list that is linked in
both directions and holds elements with handle 0 from `cycbrk` on, and `i`
has handle 0. If `i = cycbrk`, then `cycbrk` has moved up, to `cotabsz` or to
an element whose handle is not 0; the free list afterwards holds exactly the
elements of the old free list from the new `cycbrk` on, and every element
passed over was on the old free list and is on the new one no longer. If
`i` is not `cycbrk`, then `cycbrk` is unchanged, `i` is the head of the free
list and its link is the old head, whose back link is `i`. -/
theorem freecallout_release {s : State} {fl : List Nat} {ls : CbufRef → List Nat}
    (hw : Wheel s fl ls) {r : CbufRef} (hr : r.valid) {pre post : List Nat} {i j : Nat}
    (hl : ls r = pre ++ i :: post) (hj : j = pre.getLast?.getD i) (t : Nat)
    (ht : t = 0 ↔ ∀ k, r ≠ .cyc k) :
    ∃ s' fl', freecallout s r j i t = .ok s' ∧
      Wheel s' fl' (Function.update ls r (pre ++ post)) ∧ (s'.cotab i).handle = 0 ∧
      (i = s.cycbrk →
        s.cycbrk < s'.cycbrk ∧
        (s'.cycbrk = s'.cotabsz ∨ (s'.cotab s'.cycbrk).handle ≠ 0) ∧
        (∀ x, x ∈ fl' ↔ x ∈ fl ∧ s'.cycbrk ≤ x) ∧
        (∀ x, s.cycbrk < x → x < s'.cycbrk → x ∈ fl ∧ x ∉ fl')) ∧
      (i ≠ s.cycbrk →
        s'.cycbrk = s.cycbrk ∧ s'.flist = i ∧ fl' = i :: fl ∧ (s'.cotab i).time = s.flist ∧
        (s.flist ≠ 0 → (s'.cotab s.flist).oindex = i)) := by
  obtain ⟨hz0, hz1, U, hU1, hU2⟩ := freecallout_unlinked hw hr hl hj t ht
  obtain ⟨s', fl', h1, h2⟩ := releaseSlot_release hw hr hl hU2 hz0 hz1
  refine ⟨s', fl', ?_, h2⟩
  rw [freecallout_eq, hU1]
  exact h1

/-- Witness for C34: in the example state the bucket of second `1000000005`
is `[7, 5]` and `cycbrk` is 5; releasing the element 5 moves `cycbrk` up to
the element 6, which is in use. -/
theorem freecallout_release_witness :
    ∃ s', freecallout dueState (.cyc 5) 7 5 1000000005 = .ok s' ∧
      (s'.cotab 5).handle = 0 ∧ dueState.cycbrk < s'.cycbrk ∧
      (s'.cycbrk = s'.cotabsz ∨ (s'.cotab s'.cycbrk).handle ≠ 0) := by
  obtain ⟨fl, ls, hw⟩ := dueState_inv.wheel
  have hk : (CbufRef.cyc 5).valid := by
    show 5 < CYCBUF_SIZE
    decide
  have hl : ls (.cyc 5) = [7] ++ 5 :: [] := by
    rw [← hw.listOf (.cyc 5) hk]
    rfl
  obtain ⟨s', fl', h1, -, h3, h4, -⟩ := freecallout_release hw hk hl rfl 1000000005
    ⟨fun h => absurd h (by norm_num), fun h => absurd rfl (h 5)⟩
  exact ⟨s', h1, h3, (h4 rfl).1, (h4 rfl).2.1⟩

/-! ## C35: callouts added during a dispatch -/

/-- The registers `queuebrk` and `cycbrk` after `co_new` has put a callout
on a list. -/
theorem co_new_list_regs (s : State) (r : CbufRef) (handle oindex t m : Nat)
    (hre : (s.getCbuf r).list = 0 → t ≠ 0 → ∃ k, k < CYCBUF_SIZE ∧ r = .cyc k)
    (hi : (allocSlot s t).2 ≠ 0) {s' : State}
    (h : co_new s handle oindex t m (some r) = .ok s') :
    s'.queuebrk = s.queuebrk ∧
    s'.cycbrk = (if s.flist ≠ 0 then s.cycbrk else dec16 s.cycbrk) := by
  obtain ⟨s2, hn, ha⟩ := newcallout_eq s r t hre hi
  unfold co_new at h
  simp only [bind, Except.bind, hn, pure, Except.pure, Except.ok.injEq] at h
  obtain ⟨a1, a2, a3, a4, a5, a6, a7, a8, a9⟩ := ha.fields
  obtain ⟨l1, l2, l3, l4, l5, l6, l7, l8⟩ := linkSlot_fields (allocSlot s t).1 r (allocSlot s t).2
  have e1 : s'.queuebrk = s2.queuebrk := by rw [← h]
  have e2 : s'.cycbrk = s2.cycbrk := by rw [← h]
  rw [e1, e2, a6, a2, l6, l2, allocSlot_fst]
  exact ⟨rfl, rfl⟩

/-- A zero-delay request is admitted to the immediate list, with the state
unchanged, when the table is not full. -/
theorem co_check_zero (s : State) (c cms : Nat) (hcap : s.cotabsz ≠ 0)
    (hfull : ¬ (u32 (s.queuebrk + s.nshort + 0) = s.cotabsz ∨
      u32 (s.nshort + 0) = s.cotabsz - 1)) :
    co_check s 0 0 0 c cms = .ok (s, ⟨some .immediate, 0, 0, 0⟩) := by
  unfold co_check
  rw [if_neg hcap, if_neg hfull, if_pos ⟨rfl, Or.inl rfl⟩]

/-- One call of a callout function that adds a zero-delay callout, in a
state with room for it: the new callout is appended to the immediate list
and nothing else changes on the lists. -/
theorem spawnInvoke_step {s : State} {fl : List Nat} {ls : CbufRef → List Nat}
    (hw : Wheel s fl ls) (hq : s.queuebrk ≤ s.cycbrk)
    (hfree : s.flist = 0 → s.queuebrk < s.cycbrk ∧ 2 ≤ s.cycbrk)
    (spawn : Nat → Nat → Option (Nat × Nat))
    (hsp : ∀ o h p, spawn o h = some p → u16 p.2 ≠ 0) (c cms o h : Nat) :
    ∃ s' fl' A, spawnInvoke spawn c cms o h s = .ok s' ∧
      Wheel s' fl' (Function.update ls .immediate (ls .immediate ++ A)) ∧
      (∀ r, r.valid → ∀ x ∈ ls r, s'.key x = s.key x) ∧
      A.map s'.key = ((spawn o h).map (fun p => (u16 p.1, u16 p.2))).toList ∧
      s'.queuebrk = s.queuebrk ∧ s'.queuebrk ≤ s'.cycbrk := by
  unfold spawnInvoke
  cases hs : spawn o h with
  | none =>
    refine ⟨s, fl, [], rfl, ?_, fun _ _ _ _ => rfl, rfl, rfl, hq⟩
    rw [List.append_nil, Function.update_eq_self]
    exact hw
  | some p =>
    have hcap := hw.cap
    have hb1 := hw.brk_pos
    have hb2 := hw.brk_le
    have htot := hw.total
    have hfl : s.flist = 0 ↔ fl = [] := hw.free_chain.head_eq_zero_iff
    have hfull : ¬ (u32 (s.queuebrk + s.nshort + 0) = s.cotabsz ∨
        u32 (s.nshort + 0) = s.cotabsz - 1) := by
      have e1 : u32 (s.queuebrk + s.nshort + 0) = s.queuebrk + s.nshort := by
        unfold u32 UINT_MOD
        unfold UINDEX_MOD at hcap
        exact Nat.mod_eq_of_lt (by omega)
      have e2 : u32 (s.nshort + 0) = s.nshort := by
        unfold u32 UINT_MOD
        unfold UINDEX_MOD at hcap
        exact Nat.mod_eq_of_lt (by omega)
      rw [e1, e2]
      by_cases hf : s.flist = 0
      · have := hfree hf
        have hl : fl.length = 0 := by rw [hfl.1 hf]; rfl
        omega
      · have hl : fl.length ≠ 0 := fun e => hf (hfl.2 (List.length_eq_zero.1 e))
        omega
    have hroom : s.flist = 0 → 2 ≤ s.cycbrk := fun hf => (hfree hf).2
    rw [co_check_zero s c cms (by omega) hfull]
    dsimp only
    obtain ⟨s', i, h1, h2, h3, h4, h5⟩ :=
      co_new_append hw .immediate trivial p.2 p.1 0 0 (Or.inl ⟨rfl, rfl⟩) hroom (hsp o h p hs)
    obtain ⟨hi0, -⟩ := hw.alloc 0 hroom
    obtain ⟨r1, r2⟩ := co_new_list_regs s .immediate p.2 p.1 0 0
      (fun _ ht => absurd rfl ht) hi0 h1
    refine ⟨s', fl.tail, [i], h1, h2, h4, ?_, r1, ?_⟩
    · simp [h3]
    · rw [r1, r2]
      by_cases hf : s.flist = 0
      · rw [if_neg (not_not.2 hf), dec16_of_pos hb1 (by unfold UINDEX_MOD at *; omega)]
        have := hfree hf
        omega
      · rw [if_pos hf]
        exact hq

/-- The call `freecallout(&running, i, i, 0)` of `co_call` for the head `i`
of the running list: the element leaves the list and has handle 0, and when
the free list is empty afterwards, `cycbrk` has moved up. -/
theorem freecallout_pop {s : State} {fl : List Nat} {ls : CbufRef → List Nat}
    (hw : Wheel s fl ls) {i : Nat} {rest : List Nat} (hrun : ls .running = i :: rest) :
    ∃ s1 fl1, freecallout s .running i i 0 = .ok s1 ∧
      Wheel s1 fl1 (Function.update ls .running rest) ∧
      (∀ r, r.valid → ∀ x ∈ Function.update ls .running rest r, s1.key x = s.key x) ∧
      s1.queuebrk = s.queuebrk ∧ s.cycbrk ≤ s1.cycbrk ∧
      (s1.flist = 0 → s.cycbrk < s1.cycbrk) ∧ (s1.cotab i).handle = 0 := by
  obtain ⟨s1, fl1, hfree, hw1, hk1, -, hq1, -, hc1, -, -⟩ := freecallout_running hw hrun
  have hl : ls .running = [] ++ i :: rest := hrun
  obtain ⟨hz0, hz1, U, hU1, hU2⟩ := freecallout_unlinked hw (r := .running) trivial hl rfl 0
    ⟨fun _ k e => (by cases e), fun _ => rfl⟩
  obtain ⟨s2, fl2, g1, -, g3, g4, g5⟩ :=
    releaseSlot_release hw (r := .running) trivial hl hU2 hz0 hz1
  have hU1' : unlinkAt (countDown s 0) .running i i 0 = .ok U := hU1
  have e : s2 = s1 := by
    rw [freecallout_eq, hU1'] at hfree
    have := g1.symm.trans hfree
    simpa using this
  subst e
  refine ⟨s2, fl1, hfree, hw1, hk1, hq1, hc1, fun hf => ?_, g3⟩
  by_cases he : i = s.cycbrk
  · exact (g4 he).1
  · exfalso
    have h1 := (g5 he).2.1
    have h2 := (hw.pop_facts hrun).2.1
    omega

/-- The loop of `co_call` with callout functions that add zero-delay
callouts: it invokes the callouts that are on the running list at the
start, in the order of the list, and no others; the callouts added in the
meantime are appended to the immediate list, in the order of their
addition. -/
theorem callLoop_spawn (spawn : Nat → Nat → Option (Nat × Nat))
    (hsp : ∀ o h p, spawn o h = some p → u16 p.2 ≠ 0) (c cms : Nat) :
    ∀ (L : List Nat) (fuel : Nat) (s : State) (fl : List Nat) (ls : CbufRef → List Nat),
    Wheel s fl ls → s.queuebrk ≤ s.cycbrk → ls .running = L → L.length < fuel →
    ∃ s' fl' A, callLoop (spawnInvoke spawn c cms) fuel s = .ok (s', L.map s.key) ∧
      Wheel s' fl' (Function.update (Function.update ls .running []) .immediate
        (ls .immediate ++ A)) ∧
      (∀ x ∈ ls .immediate, s'.key x = s.key x) ∧
      A.map s'.key = (L.map s.key).filterMap
        (fun k => (spawn k.1 k.2).map (fun p => (u16 p.1, u16 p.2))) ∧
      s'.queuebrk = s.queuebrk ∧ s'.queuebrk ≤ s'.cycbrk
  | _, 0, _, _, _, _, _, _, hf => absurd hf (Nat.not_lt_zero _)
  | [], fuel + 1, s, fl, ls, hw, hq, hrun, _ => by
    have h0 : s.running.list = 0 := by
      have := hw.chain .running trivial
      rw [hrun] at this
      exact this
    refine ⟨s, fl, [], ?_, ?_, fun _ _ => rfl, rfl, rfl, hq⟩
    · unfold callLoop
      simp [h0]
    · have e : Function.update (Function.update ls .running []) .immediate
          (ls .immediate ++ []) = ls := by
        funext r
        cases r with
        | immediate => simp [Function.update]
        | running => simp [Function.update, hrun]
        | cyc k => simp [Function.update]
      rw [e]
      exact hw
  | i :: rest, fuel + 1, s, fl, ls, hw, hq, hrun, hf => by
    obtain ⟨p1, p2, -⟩ := hw.pop_facts hrun
    obtain ⟨s1, fl1, hfree, hw1, hk1, hq1, hc1, hf1, -⟩ := freecallout_pop hw hrun
    have hb1 := hw.brk_pos
    obtain ⟨s2, fl2, A1, hinv, hw2, hk2, hA1, hq2, hqc2⟩ :=
      spawnInvoke_step hw1 (by omega) (fun hf => by have := hf1 hf; omega) spawn hsp c cms
        (s.cotab i).oindex (s.cotab i).handle
    have hrun2 : Function.update (Function.update ls .running rest) .immediate
        (Function.update ls .running rest .immediate ++ A1) .running = rest := by
      rw [Function.update_noteq (by intro h; cases h), Function.update_same]
    obtain ⟨s', fl', A2, hcall, hw', hk', hA2, hq', hqc'⟩ :=
      callLoop_spawn spawn hsp c cms rest fuel s2 fl2 _ hw2 hqc2 hrun2 (by simpa using hf)
    have himm1 : Function.update ls .running rest .immediate = ls .immediate :=
      Function.update_noteq (by intro h; cases h) _ _
    rw [himm1] at hw2
    rw [Function.update_same, himm1] at hw' hk'
    -- keys of the elements of the running list and of the immediate list
    have hkeyR : ∀ x ∈ rest, s2.key x = s.key x := by
      intro x hx
      have hx1 : x ∈ Function.update ls .running rest .running := by
        rw [Function.update_same]; exact hx
      rw [hk2 .running trivial x hx1, hk1 .running trivial x hx1]
    have hkeyI : ∀ x ∈ ls .immediate, s2.key x = s.key x := by
      intro x hx
      have hx1 : x ∈ Function.update ls .running rest .immediate := by
        rw [himm1]; exact hx
      rw [hk2 .immediate trivial x hx1, hk1 .immediate trivial x hx1]
    have hmap : List.map s2.key rest = List.map s.key rest :=
      List.map_congr_left hkeyR
    refine ⟨s', fl', A1 ++ A2, ?_, ?_, ?_, ?_, (hq'.trans hq2).trans hq1, hqc'⟩
    · unfold callLoop
      simp only [p1, ne_eq, p2, not_false_eq_true, if_true, bind, Except.bind, hfree, hinv,
        hcall, pure, Except.pure, hmap, List.map_cons]
      rfl
    · have e : Function.update (Function.update (Function.update
          (Function.update ls .running rest) .immediate (ls .immediate ++ A1)) .running [])
          .immediate (ls .immediate ++ A1 ++ A2) =
          Function.update (Function.update ls .running []) .immediate
            (ls .immediate ++ (A1 ++ A2)) := by
        funext r
        cases r with
        | immediate => simp [Function.update]
        | running => simp [Function.update]
        | cyc k => simp [Function.update]
      rw [← e]
      exact hw'
    · intro x hx
      rw [hk' x (List.mem_append_left _ hx), hkeyI x hx]
    · have hA1' : A1.map s'.key = A1.map s2.key :=
        List.map_congr_left (fun x hx => hk' x (List.mem_append_right _ hx))
      rw [List.map_append, hA1', hA1, hA2, hmap]
      show _ = List.filterMap _ (s.key i :: List.map s.key rest)
      rw [List.filterMap_cons]
      have hkey : s.key i = ((s.cotab i).oindex, (s.cotab i).handle) := rfl
      rw [hkey]
      cases spawn (s.cotab i).oindex (s.cotab i).handle <;> rfl

/-- The function `co_call` is `co_expire`, the move of the immediate list to
the running list, and the loop; with an empty running list the loop returns
at once. -/
theorem co_call_eq (invoke : Nat → Nat → State → Except Fault State) (s0 : State)
    (fired : Bool) (t m : Nat) :
    co_call invoke s0 fired t m =
      (co_expire s0 fired t m).bind (fun s =>
        callLoop invoke UINDEX_MOD (({ s with running := s.immediate } : State).setList
          .immediate 0)) := by
  unfold co_call
  cases co_expire s0 fired t m with
  | error e => rfl
  | ok s =>
    simp only [bind, Except.bind]
    by_cases h : (({ s with running := s.immediate } : State).setList .immediate 0).running.list
        ≠ 0
    · rw [if_pos h]
    · rw [if_neg h]
      show _ = callLoop invoke (65535 + 1) _
      unfold callLoop
      rw [if_neg h]
      rfl

/-- **C35.** Let `co_call` run with callout functions that add zero-delay
callouts (handles other than 0) by `co_check` and `co_new`, from a state in
which `co_expire` leaves a well-formed cyclic buffer with an empty running
list and a heap that ends at or below `cycbrk`. Then `co_call` returns; it
invokes exactly the callouts that `co_expire` left on the immediate list, in
the order of the list, so no callout added during the drain is invoked in
it; afterwards the running list is empty and the immediate list holds the
added callouts, in the order of their addition, with `nzero` their number.
When a callout was added, `nzero` is at least 1 and `co_delay` returns
`(0, 0)` for every clock reading, and the next `co_call` (with callout
functions that do not call back) invokes the added callouts, in order.
Moreover, in every well-formed state of the loop with the running list
`i :: rest`, for every callout function: `freecallout` returns a state in
which the slot `i` has handle 0 and the running list is `rest`, without `i`,
and that state is the one the callout function is invoked in. -/
theorem co_call_reentrant {s0 s' : State} {fl' : List Nat} {ls' : CbufRef → List Nat}
    (spawn : Nat → Nat → Option (Nat × Nat))
    (hsp : ∀ o h p, spawn o h = some p → u16 p.2 ≠ 0) (c cms : Nat)
    (fired : Bool) (t m : Nat) (he : co_expire s0 fired t m = .ok s') (hw' : Wheel s' fl' ls')
    (hrun' : ls' .running = []) (hq : s'.queuebrk ≤ s'.cycbrk) :
    (∃ s'' A, co_call (spawnInvoke spawn c cms) s0 fired t m =
        .ok (s'', (ls' .immediate).map s'.key) ∧
      s''.listOf .running = [] ∧ s''.listOf .immediate = A ∧
      A.map s''.key = ((ls' .immediate).map s'.key).filterMap
        (fun k => (spawn k.1 k.2).map (fun p => (u16 p.1, u16 p.2))) ∧
      s''.nzero = A.length ∧
      (A ≠ [] → 1 ≤ s''.nzero ∧ ∀ c2 cms2, (co_delay s'' c2 cms2).2 = (0, 0)) ∧
      ∀ t2 m2, ∃ s3, co_call quietInvoke s'' false t2 m2 = .ok (s3, A.map s''.key)) ∧
    (∀ (invoke : Nat → Nat → State → Except Fault State) (s : State) (fl : List Nat)
      (ls : CbufRef → List Nat) (i : Nat) (rest : List Nat),
      Wheel s fl ls → ls .running = i :: rest →
      ∃ s1, freecallout s .running i i 0 = .ok s1 ∧ (s1.cotab i).handle = 0 ∧
        s1.listOf .running = rest ∧ i ∉ s1.listOf .running ∧
        ∀ fuel, callLoop invoke (fuel + 1) s =
          (invoke (s.cotab i).oindex (s.cotab i).handle s1).bind (fun s2 =>
            (callLoop invoke fuel s2).bind (fun p =>
              .ok (p.1, ((s.cotab i).oindex, (s.cotab i).handle) :: p.2)))) := by
  constructor
  · have hw1 := hw'.snapshot hrun'
    have hlen := hw'.length_le .immediate trivial
    have hcap := hw'.cap
    obtain ⟨s'', fl'', A, hcall, hw'', -, hA, -, -⟩ :=
      callLoop_spawn spawn hsp c cms (ls' .immediate) UINDEX_MOD _ fl' _ hw1 hq
        (by rw [Function.update_noteq (by intro h; cases h), Function.update_same])
        (by omega)
    rw [Function.update_same, List.nil_append] at hw''
    have hkeyS : ∀ x, (({ s' with running := s'.immediate } : State).setList .immediate 0).key x =
        s'.key x := fun _ => rfl
    have hmapS : List.map (({ s' with running := s'.immediate } : State).setList
        .immediate 0).key (ls' .immediate) = List.map s'.key (ls' .immediate) :=
      List.map_congr_left (fun x _ => hkeyS x)
    rw [hmapS] at hcall hA
    have hI : s''.listOf .immediate = A := by
      rw [hw''.listOf .immediate trivial, Function.update_same]
    have hR : s''.listOf .running = [] := by
      rw [hw''.listOf .running trivial, Function.update_noteq (by intro h; cases h),
        Function.update_same]
    have hZ : s''.nzero = A.length := by
      have := hw''.nzero
      rw [Function.update_same, Function.update_noteq (by intro h; cases h),
        Function.update_same] at this
      simpa using this
    refine ⟨s'', A, ?_, hR, hI, hA, hZ, ?_, ?_⟩
    · rw [co_call_eq, he]
      exact hcall
    · intro hne
      have h1 : 1 ≤ s''.nzero := by
        rw [hZ]
        exact Nat.one_le_iff_ne_zero.2 (fun e => hne (List.length_eq_zero.1 e))
      refine ⟨h1, fun c2 cms2 => ?_⟩
      rw [co_delay_eq, if_pos (by omega)]
    · intro t2 m2
      have he2 : co_expire s'' false t2 m2 = .ok (swaprateLoop (t2 - s''.swaptime) s'' t2) := by
        unfold co_expire
        rfl
      have hsw := swaprateLoop_swapEq (t2 - s''.swaptime) s'' t2
      have hw2 := hw''.swap hsw
      obtain ⟨s3, fl3, h3, -⟩ := co_call_after false t2 m2 he2 hw2
        (by rw [Function.update_noteq (by intro h; cases h), Function.update_same])
      rw [Function.update_same] at h3
      have hk : ∀ x, (swaprateLoop (t2 - s''.swaptime) s'' t2).key x = s''.key x := by
        intro x
        unfold State.key State.cotab
        rw [hsw.swap_fields.1]
      rw [List.map_congr_left (fun x _ => hk x)] at h3
      exact ⟨s3, h3⟩
  · intro invoke s fl ls i rest hw hrun
    obtain ⟨p1, p2, -, -, -, -, p7, -⟩ := hw.pop_facts hrun
    obtain ⟨s1, fl1, hfree, hw1, -, -, -, -, hh⟩ := freecallout_pop hw hrun
    have hR : s1.listOf .running = rest := by
      rw [hw1.listOf .running trivial, Function.update_same]
    refine ⟨s1, hfree, hh, hR, by rw [hR]; exact p7, fun fuel => ?_⟩
    conv_lhs => unfold callLoop
    simp only [p1, ne_eq, p2, not_false_eq_true, if_true, bind, Except.bind, hfree]
    cases invoke (s.cotab i).oindex (s.cotab i).handle s1 with
    | error e => rfl
    | ok s2 =>
      dsimp only
      cases callLoop invoke fuel s2 <;> rfl

/-- Witness for C35: in the example state the callout `(2, 2)` is due at
`1000000003`; its function adds the zero-delay callout `(9, 9)`. The drain
invokes `(2, 2)` only; afterwards `(9, 9)` waits on the immediate list,
`nzero` is 1, `co_delay` returns `(0, 0)`, and the next `co_call` invokes
`(9, 9)`. -/
theorem co_call_reentrant_witness :
    ∃ s'', co_call (spawnInvoke (fun o h => if (o, h) = (2, 2) then some (9, 9) else none) 0 0)
        dueState true 1000000003 0 = .ok (s'', [(2, 2)]) ∧
      s''.listOf .running = [] ∧ (s''.listOf .immediate).map s''.key = [(9, 9)] ∧
      s''.nzero = 1 ∧ (co_delay s'' 1000000003 0).2 = (0, 0) ∧
      ∃ s3, co_call quietInvoke s'' false 1000000003 0 = .ok (s3, [(9, 9)]) := by
  obtain ⟨fl, ls, hw⟩ := dueState_inv.wheel
  obtain ⟨s', fl', ls', N, ds, he, hw', hh', -, -, -, hx', -⟩ :=
    co_expire_spec hw dueState_inv.heap dueState_inv.room dueState_inv.window 1000000003 0
      (by show (1000000000 : Nat) ≤ 1000000003; norm_num)
      (by show (1000000003 : Nat) < 4294967296; norm_num)
  have hrun0 : ls .running = [] :=
    (hw.chain .running trivial).head_eq_zero_iff.1 dueState_inv.idle
  have hrun' : ls' .running = [] := hx'.run.trans hrun0
  have hsp : ∀ o h p, (fun o h => if (o, h) = (2, 2) then some ((9 : Nat), (9 : Nat)) else none)
      o h = some p → u16 p.2 ≠ 0 := by
    intro o h p hp
    dsimp only at hp
    split_ifs at hp
    simp only [Option.some.injEq] at hp
    subst hp
    decide
  obtain ⟨⟨s'', A, h1, h2, h3, h4, h5, h6, h7⟩, -⟩ :=
    co_call_reentrant _ hsp 0 0 true 1000000003 0 he hw' hrun' hh'.brk
  have hC : (co_expire dueState true 1000000003 0).map
      (fun s => (s.listOf .immediate).map s.key) = .ok [(2, 2)] := rfl
  rw [he] at hC
  have hC' : (s'.listOf .immediate).map s'.key = [(2, 2)] := by simpa [Except.map] using hC
  rw [hw'.listOf .immediate trivial] at hC'
  rw [hC'] at h1 h4
  have h4' : A.map s''.key = [(9, 9)] := by
    rw [h4]
    rfl
  have hne : A ≠ [] := by
    intro e
    rw [e] at h4'
    cases h4'
  have hlen : A.length = 1 := by
    have := congrArg List.length h4'
    simpa using this
  obtain ⟨s3, h8⟩ := h7 1000000003 0
  rw [h4'] at h8
  exact ⟨s'', h1, h2, by rw [h3]; exact h4', by rw [h5, hlen], (h6 hne).2 _ _, s3, h8⟩

/-! ## C32: the invariant of `timeout` -/

/-- Every bucket belongs to one second of the window that starts at `ts`. -/
theorem window_second (ts k : Nat) (hk : k < CYCBUF_SIZE) :
    ∃ sec, ts ≤ sec ∧ sec < ts + CYCBUF_SIZE ∧ cycIndex sec = k := by
  refine ⟨ts + (k + 128 - ts % 128) % 128, by omega, ?_, ?_⟩
  · unfold CYCBUF_SIZE
    omega
  · rw [cycIndex_eq]
    unfold CYCBUF_SIZE at hk
    omega

/-- Two seconds of one window with the same bucket are the same second. -/
theorem window_unique (a b : Nat) (h : cycIndex a = cycIndex b) (hab : a ≤ b)
    (hd : b < a + CYCBUF_SIZE) : a = b := by
  rw [cycIndex_eq, cycIndex_eq] at h
  unfold CYCBUF_SIZE at hd
  omega

/-- The invariant of `timeout` reads `timestamp`, `timeout`, `atimeout`, which
buckets are empty, and the seconds of the heap entries only. -/
theorem TimeoutInv.transfer {s s' : State} (h : TimeoutInv s) (h1 : s'.timestamp = s.timestamp)
    (h2 : s'.timeout = s.timeout) (h3 : s'.atimeout = s.atimeout)
    (h4 : ∀ k, (s'.cycbuf k).list = 0 ↔ (s.cycbuf k).list = 0)
    (h5 : ∀ e ∈ heapEntries s'.mem s'.queuebrk, e.time ≠ 0) : TimeoutInv s' := by
  refine
    { stamp := by rw [h1]; exact h.stamp
      window := by rw [h4, h1]; exact h.window
      idle := by
        rw [h2, h.idle]
        exact ⟨fun k j hj => (h4 j).2 (k j hj), fun k j hj => (h4 j).1 (k j hj)⟩
      first := by
        rw [h2, h1]
        intro hne
        obtain ⟨a, b, c, d⟩ := h.first hne
        exact ⟨a, b, fun e => c ((h4 _).1 e), fun sec x y => (h4 _).2 (d sec x y)⟩
      alarm := by rw [h2, h3]; exact h.alarm
      heap := h5 }

/-- The invariant of `timeout` when the bucket of a second `t` of the window
that is not before `timeout` gets its first element, or loses its last
element while `timeout` is an earlier second. -/
theorem TimeoutInv.other {s s' : State} (h : TimeoutInv s) (t : Nat)
    (h1 : s'.timestamp = s.timestamp) (h2 : s'.timeout = s.timeout)
    (h3 : s'.atimeout = s.atimeout) (ht1 : s.timestamp < t)
    (ht2 : t < s.timestamp + CYCBUF_SIZE) (hto : s.timeout ≠ 0)
    (h4 : ∀ k, k ≠ cycIndex t → ((s'.cycbuf k).list = 0 ↔ (s.cycbuf k).list = 0))
    (hk : (s'.cycbuf (cycIndex t)).list ≠ 0 ∨ s.timeout < t)
    (hk' : (s.cycbuf (cycIndex t)).list ≠ 0 ∨ s.timeout < t)
    (h5 : ∀ e ∈ heapEntries s'.mem s'.queuebrk, e.time ≠ 0) : TimeoutInv s' := by
  obtain ⟨a, b, c, d⟩ := h.first hto
  have hle : s.timeout ≤ t := by
    rcases hk' with e | e
    · by_contra hlt
      push_neg at hlt
      exact e (d t ht1 hlt)
    · omega
  have hne : ∀ sec, s.timestamp ≤ sec → sec < s.timeout → cycIndex sec ≠ cycIndex t := by
    intro sec x y e
    have := window_unique sec t e (by omega) (by omega)
    omega
  have hT : (s'.cycbuf (cycIndex s.timeout)).list ≠ 0 := by
    by_cases e : s.timeout = t
    · rcases hk with e1 | e1
      · rw [e]; exact e1
      · omega
    · have hne2 : cycIndex s.timeout ≠ cycIndex t := by
        intro e2
        exact e (window_unique _ _ e2 hle (by omega))
      exact fun e3 => c ((h4 _ hne2).1 e3)
  refine
    { stamp := by rw [h1]; exact h.stamp
      window := by
        rw [h1, h4 _ (hne _ (le_refl _) a)]
        exact h.window
      idle := by
        rw [h2]
        exact ⟨fun e => absurd e hto, fun e => absurd (e _ (cycIndex_lt _)) hT⟩
      first := by
        rw [h2, h1]
        intro _
        exact ⟨a, b, hT, fun sec x y => (h4 _ (hne sec (by omega) y)).2 (d sec x y)⟩
      alarm := by rw [h2, h3]; exact h.alarm
      heap := h5 }

/-- The clock reading that `co_time` returns is not before the new
`timestamp`. -/
theorem co_time_now_ge (s : State) (c cms : Nat) (hts : s.timestamp + CYCBUF_SIZE < UINT_MOD)
    (hc : c + CYCBUF_SIZE < UINT_MOD) :
    (co_time s c cms).1.timestamp ≤ (co_time s c cms).2.1 := by
  unfold co_time
  unfold CYCBUF_SIZE UINT_MOD at *
  by_cases h1 : c < s.timestamp
  · rw [if_pos h1]
  · rw [if_neg h1]
    by_cases h2 : s.timestamp < c
    · rw [if_pos h2]
      by_cases h3 : s.atimeout = 0 ∨ s.atimeout > c
      · rw [if_pos h3]
      · rw [if_neg h3]
        have hsub : sub32 s.atimeout 1 = s.atimeout - 1 := by
          unfold sub32 UINT_MOD
          omega
        rw [hsub]
        dsimp only
        by_cases h4 : s.timestamp < s.atimeout - 1
        · simp only [h4, if_true]
          have hu : u32 (s.atimeout - 1 + 60) = s.atimeout - 1 + 60 := by
            unfold u32 UINT_MOD
            omega
          rw [hu]
          split_ifs
          · show s.atimeout - 1 ≤ s.atimeout - 1 + 60
            omega
          · show s.atimeout - 1 ≤ c
            omega
        · simp only [h4, if_false]
          have hu : u32 (s.timestamp + 60) = s.timestamp + 60 := by
            unfold u32 UINT_MOD
            omega
          rw [hu]
          split_ifs
          · show s.timestamp ≤ s.timestamp + 60
            omega
          · show s.timestamp ≤ c
            omega
    · rw [if_neg h2]
      show s.timestamp ≤ c
      omega

/-- The call of `co_time` keeps the invariant of `timeout`: `timestamp` stays
below the armed alarm, which is not after `timeout`. -/
theorem TimeoutInv.clock {s : State} (h : TimeoutInv s) (c cms : Nat) (hc1 : 1 ≤ c)
    (hc : c + 2 * CYCBUF_SIZE < UINT_MOD) : TimeoutInv (co_time s c cms).1 := by
  obtain ⟨f1, f2, -, -, -⟩ := co_time_facts s c cms (by have := h.stamp; omega) hc1
    (by omega)
  have f3 : (co_time s c cms).1.timestamp + 2 * CYCBUF_SIZE < UINT_MOD := by
    have := h.stamp
    rcases co_time_timestamp s c cms (Or.inr (by omega)) with e | ⟨-, e, -⟩
    · rw [e]; exact this
    · omega
  have hfld := co_time_fields s c cms
  have hcyc : (co_time s c cms).1.cycbuf = s.cycbuf := hfld.2.2.2.2.2.2.2.1
  have hmem : (co_time s c cms).1.mem = s.mem := hfld.1
  have hq : (co_time s c cms).1.queuebrk = s.queuebrk := hfld.2.2.1
  have hat : (co_time s c cms).1.atimeout = s.atimeout := (co_time_alarm s c cms).1
  have hto : (co_time s c cms).1.timeout = s.timeout := by rw [f1]
  have hlt : s.timeout ≠ 0 → (co_time s c cms).1.timestamp < s.timeout := by
    intro hne
    obtain ⟨a1, a2⟩ := h.alarm hne
    obtain ⟨b1, b2, -⟩ := h.first hne
    rcases co_time_timestamp s c cms (Or.inr (by omega)) with e | ⟨-, -, e⟩
    · rw [e]; exact b1
    · have := e a1
      omega
  generalize (co_time s c cms).1 = s' at *
  refine
    { stamp := f3
      window := ?_
      idle := by rw [hto, hcyc]; exact h.idle
      first := ?_
      alarm := by rw [hto, hat]; exact h.alarm
      heap := by rw [hmem, hq]; exact h.heap }
  · rw [hcyc]
    by_cases hne : s.timeout = 0
    · exact h.idle.1 hne _ (cycIndex_lt _)
    · obtain ⟨b1, b2, b3, b4⟩ := h.first hne
      by_cases e : s'.timestamp = s.timestamp
      · rw [e]; exact h.window
      · exact b4 _ (by omega) (hlt hne)
  · rw [hto, hcyc]
    intro hne
    obtain ⟨b1, b2, b3, b4⟩ := h.first hne
    exact ⟨hlt hne, by omega, b3, fun sec x y => b4 sec (by omega) y⟩

/-- The call `restart(t)` sets up the invariant of `timeout`, when every
bucket of the seconds from `timestamp` up to `t`, exclusive, is empty. -/
theorem restart_timeoutInv (X X' : State) (t : Nat) (h : restart X t = .ok X') (ht : t ≠ 0)
    (hB : X.nshort = X.nzero ↔ ∀ k, k < CYCBUF_SIZE → (X.cycbuf k).list = 0)
    (hstamp : X.timestamp + 2 * CYCBUF_SIZE < UINT_MOD)
    (hwin : (X.cycbuf (cycIndex X.timestamp)).list = 0)
    (h1 : X.timestamp ≤ t) (h2 : t < X.timestamp + CYCBUF_SIZE)
    (hpast : ∀ sec, X.timestamp < sec → sec < t → (X.cycbuf (cycIndex sec)).list = 0)
    (hheap : ∀ e ∈ heapEntries X.mem X.queuebrk, e.time ≠ 0) : TimeoutInv X' := by
  have ha := restart_alarmEq X X' t h
  obtain ⟨-, -, -, -, -, a6, a7, a8, -⟩ := ha.fields
  have hmem := ha.mem
  obtain ⟨-, r2, r3, r4⟩ := restart_alarm X X' t h
  rw [Prod.mk.injEq] at r4
  have hroot : X.queuebrk ≠ 0 → (X.cotab 0).time ≠ 0 := by
    intro hq
    exact hheap _ (mem_heapEntries.2 ⟨1, le_refl _, by omega, rfl⟩)
  have hal : X'.timeout ≠ 0 → X'.atimeout ≠ 0 ∧ X'.atimeout ≤ X'.timeout := by
    intro hne
    by_cases c : X.queuebrk ≠ 0 ∧ (X'.timeout = 0 ∨ (X.cotab 0).time < X'.timeout)
    · rw [if_pos c] at r4
      rw [r4.1]
      refine ⟨hroot c.1, ?_⟩
      rcases c.2 with c2 | c2
      · exact absurd c2 hne
      · omega
    · rw [if_neg c] at r4
      rw [r4.1]
      exact ⟨hne, le_refl _⟩
  by_cases hns : X.nshort = X.nzero
  · have hto : X'.timeout = 0 := r2 ht hns
    have hall := hB.1 hns
    refine
      { stamp := by rw [a7]; exact hstamp
        window := by rw [a8, a7]; exact hwin
        idle := by rw [a8]; exact ⟨fun _ => hall, fun _ => hto⟩
        first := fun hne => absurd hto hne
        alarm := hal
        heap := by rw [hmem, a6]; exact hheap }
  · have hnb := r3 ht hns
    obtain ⟨n1, n2, n3, n4⟩ := nextBucket_first X.cycbuf CYCBUF_SIZE t X'.timeout
      (by omega) hnb
    -- a bucket that is not empty belongs to a second from `t` on
    obtain ⟨k0, hk0, hne0⟩ : ∃ k, k < CYCBUF_SIZE ∧ (X.cycbuf k).list ≠ 0 := by
      by_contra hno
      push_neg at hno
      exact hns (hB.2 hno)
    obtain ⟨sec0, s1, s2, s3⟩ := window_second X.timestamp k0 hk0
    have hsec0 : t ≤ sec0 := by
      by_contra hlt
      push_neg at hlt
      rcases Nat.eq_or_lt_of_le s1 with e | e
      · rw [← e] at s3
        rw [s3] at hwin
        exact hne0 hwin
      · have := hpast sec0 e hlt
        rw [s3] at this
        exact hne0 this
    have hT1 : X'.timeout ≤ sec0 := by
      by_contra hlt
      push_neg at hlt
      have := n4 sec0 hsec0 hlt
      rw [s3] at this
      exact hne0 this
    have hT2 : X.timestamp < X'.timeout := by
      rcases Nat.eq_or_lt_of_le (le_trans h1 n1) with e | e
      · rw [← e] at n3
        exact absurd hwin n3
      · exact e
    refine
      { stamp := by rw [a7]; exact hstamp
        window := by rw [a8, a7]; exact hwin
        idle := by
          rw [a8]
          constructor
          · intro h0
            omega
          · intro hall
            exact absurd (hall _ (cycIndex_lt _)) n3
        first := fun _ => by
          rw [a7, a8]
          refine ⟨hT2, by omega, n3, fun sec x y => ?_⟩
          rcases Nat.lt_or_ge sec t with c | c
          · exact hpast sec x c
          · exact n4 sec c y
        alarm := hal
        heap := by rw [hmem, a6]; exact hheap }

theorem ctlRegs_setCotab (s : State) (i : Nat) (v : call_out) :
    (s.setCotab i v).ctlRegs = s.ctlRegs := rfl

theorem ctlRegs_setCbuf (s : State) (r : CbufRef) (c : cbuf) :
    (s.setCbuf r c).ctlRegs = s.ctlRegs := by
  cases r <;> rfl

theorem cycbuf_setCotab (s : State) (i : Nat) (v : call_out) :
    (s.setCotab i v).cycbuf = s.cycbuf := rfl

/-- The head of a bucket after the assignment `r->list = v`. -/
theorem head_setList (s : State) (r : CbufRef) (v k : Nat) :
    ((s.setList r v).cycbuf k).list = if r = .cyc k then v else (s.cycbuf k).list := by
  cases r with
  | immediate => simp [State.setList, State.setCbuf]
  | running => simp [State.setList, State.setCbuf]
  | cyc k' =>
    by_cases e : k = k'
    · subst e
      simp [State.setList, State.setCbuf, State.getCbuf]
    · have e' : ¬ (CbufRef.cyc k' = CbufRef.cyc k) := fun h => e (by cases h; rfl)
      simp [State.setList, State.setCbuf, State.getCbuf, e, e']

/-- The head of a bucket after the assignment `r->last = v`. -/
theorem head_setLast (s : State) (r : CbufRef) (v k : Nat) :
    ((s.setLast r v).cycbuf k).list = (s.cycbuf k).list := by
  cases r with
  | immediate => simp [State.setLast, State.setCbuf]
  | running => simp [State.setLast, State.setCbuf]
  | cyc k' =>
    by_cases e : k = k'
    · subst e
      simp [State.setLast, State.setCbuf, State.getCbuf]
    · simp [State.setLast, State.setCbuf, State.getCbuf, e]

theorem getCbuf_list_setList (s : State) (r : CbufRef) (v : Nat) :
    ((s.setList r v).getCbuf r).list = v := by
  cases r <;> simp [State.setList, State.setCbuf, State.getCbuf]

/-- The fields of the scalar registers. -/
theorem ctlRegs_fields {s s' : State} (h : s'.ctlRegs = s.ctlRegs) :
    s'.timestamp = s.timestamp ∧ s'.queuebrk = s.queuebrk ∧ s'.nshort = s.nshort ∧
    s'.nzero = s.nzero ∧ s'.timeout = s.timeout ∧ s'.atimeout = s.atimeout ∧
    s'.amtime = s.amtime := by
  unfold State.ctlRegs at h
  simp only [Prod.mk.injEq] at h
  exact h

theorem absorbStep_ctlRegs (s : State) :
    (absorbStep s).ctlRegs = s.ctlRegs ∧ (absorbStep s).cycbuf = s.cycbuf := by
  unfold absorbStep
  dsimp only
  split_ifs <;> exact ⟨rfl, rfl⟩

theorem absorbFree_ctlRegs : ∀ (fuel : Nat) (s s' : State), absorbFree fuel s = .ok s' →
    s'.ctlRegs = s.ctlRegs ∧ s'.cycbuf = s.cycbuf
  | 0, _, _, h => by cases h
  | fuel + 1, s, s', h => by
    rw [absorbFree_succ] at h
    split_ifs at h
    · obtain ⟨h1, h2⟩ := absorbFree_ctlRegs fuel _ s' h
      rw [h1, h2]
      exact absorbStep_ctlRegs s
    · simp only [Except.ok.injEq] at h
      subst h
      exact ⟨rfl, rfl⟩

theorem pushFree_ctlRegs (s : State) (i : Nat) :
    (pushFree s i).ctlRegs = s.ctlRegs ∧ (pushFree s i).cycbuf = s.cycbuf := by
  unfold pushFree
  dsimp only
  split_ifs <;> exact ⟨rfl, rfl⟩

/-- The release of an element writes the table, `flist` and `cycbrk` only. -/
theorem releaseSlot_ctlRegs (s s' : State) (i : Nat) (h : releaseSlot s i = .ok s') :
    s'.ctlRegs = s.ctlRegs ∧ s'.cycbuf = s.cycbuf := by
  rw [releaseSlot_eq] at h
  split_ifs at h
  · obtain ⟨h1, h2⟩ := absorbFree_ctlRegs _ _ _ h
    rw [h1, h2]
    exact ⟨rfl, rfl⟩
  · simp only [Except.ok.injEq] at h
    subst h
    obtain ⟨h1, h2⟩ := pushFree_ctlRegs (s.setHandle i 0) i
    rw [h1, h2]
    exact ⟨rfl, rfl⟩

/-- The call of `restart` and the registers: the clock, the heap and the
counters stay. -/
theorem restart_ctlRegs (s s' : State) (t : Nat) (h : restart s t = .ok s') :
    s'.timestamp = s.timestamp ∧ s'.queuebrk = s.queuebrk ∧ s'.nshort = s.nshort ∧
    s'.nzero = s.nzero ∧ s'.cycbuf = s.cycbuf ∧ s'.mem = s.mem := by
  have ha := restart_alarmEq _ _ _ h
  obtain ⟨-, -, -, a4, a5, a6, a7, a8, -⟩ := ha.fields
  exact ⟨a7, a6, a5, a4, a8, ha.mem⟩

/-- The list operations of `freecallout` and the registers: the head of the
list searched changes only when its first element is removed; `restart` is
called when that empties the bucket of the second `timeout`, and the alarm
registers are not written otherwise. -/
theorem unlinkAt_sched (B U : State) (r : CbufRef) (j i t : Nat)
    (h : unlinkAt B r j i t = .ok U) :
    U.timestamp = B.timestamp ∧ U.queuebrk = B.queuebrk ∧ U.nshort = B.nshort ∧
    U.nzero = B.nzero ∧
    (∀ k, (U.cycbuf k).list =
      if r = .cyc k ∧ i = j then u16 (B.cotab i).time else (B.cycbuf k).list) ∧
    ((i = j ∧ u16 (B.cotab i).time = 0 ∧ t ≠ 0 ∧ t = B.timeout) →
      restart (B.setList r (u16 (B.cotab i).time)) t = .ok U) ∧
    (¬ (i = j ∧ u16 (B.cotab i).time = 0 ∧ t ≠ 0 ∧ t = B.timeout) →
      U.timeout = B.timeout ∧ U.atimeout = B.atimeout) := by
  have hL : (B.setList r (u16 (B.cotab i).time)).ctlRegs = B.ctlRegs := ctlRegs_setCbuf _ _ _
  obtain ⟨l1, l2, l3, l4, l5, l6, l7⟩ := ctlRegs_fields hL
  unfold unlinkAt at h
  simp only [pure, Except.pure] at h
  by_cases hij : i = j
  · rw [if_pos hij, getCbuf_list_setList] at h
    by_cases hn : u16 (B.cotab i).time ≠ 0
    · rw [if_pos hn] at h
      simp only [Except.ok.injEq] at h
      subst h
      refine ⟨l1, l2, l3, l4, fun k => ?_, fun c => absurd c.2.1 hn, fun _ => ⟨l5, l6⟩⟩
      show ((B.setList r (u16 (B.cotab i).time)).cycbuf k).list = _
      rw [head_setList]
      simp [hij]
    · rw [if_neg hn] at h
      by_cases ht : t ≠ 0 ∧ t = B.timeout
      · rw [if_pos ht] at h
        obtain ⟨a1, a2, a3, a4, a5, -⟩ := restart_ctlRegs _ _ _ h
        refine ⟨a1.trans l1, a2.trans l2, a3.trans l3, a4.trans l4, fun k => ?_, fun _ => h,
          fun c => absurd ⟨hij, not_not.1 hn, ht.1, ht.2⟩ c⟩
        rw [a5, head_setList]
        simp [hij]
      · rw [if_neg ht] at h
        simp only [Except.ok.injEq] at h
        subst h
        refine ⟨l1, l2, l3, l4, fun k => ?_, fun c => absurd ⟨c.2.2.1, c.2.2.2⟩ ht,
          fun _ => ⟨l5, l6⟩⟩
        rw [head_setList]
        simp [hij]
  · rw [if_neg hij] at h
    simp only [Except.ok.injEq] at h
    subst h
    have hmain : ∀ (S : State), S.ctlRegs = B.ctlRegs →
        (∀ k, (S.cycbuf k).list = (B.cycbuf k).list) →
        ∀ a b, (S.setCount a b).timestamp = B.timestamp ∧ (S.setCount a b).queuebrk = B.queuebrk ∧
          (S.setCount a b).nshort = B.nshort ∧ (S.setCount a b).nzero = B.nzero ∧
          (∀ k, ((S.setCount a b).cycbuf k).list =
            if r = .cyc k ∧ i = j then u16 (B.cotab i).time else (B.cycbuf k).list) ∧
          ((i = j ∧ u16 (B.cotab i).time = 0 ∧ t ≠ 0 ∧ t = B.timeout) →
            restart (B.setList r (u16 (B.cotab i).time)) t = .ok (S.setCount a b)) ∧
          (¬ (i = j ∧ u16 (B.cotab i).time = 0 ∧ t ≠ 0 ∧ t = B.timeout) →
            (S.setCount a b).timeout = B.timeout ∧ (S.setCount a b).atimeout = B.atimeout) := by
      intro S h1 h2 a b
      obtain ⟨c1, c2, c3, c4, c5, c6, c7⟩ := ctlRegs_fields h1
      refine ⟨c1, c2, c3, c4, fun k => ?_, fun c => absurd c.1 hij, fun _ => ⟨c5, c6⟩⟩
      rw [if_neg (fun c => hij c.2)]
      exact h2 k
    by_cases hlast : i = (B.getCbuf r).last
    · simp only [hlast, if_true]
      rw [← hlast]
      apply hmain
      · show ((B.setLast r j).setCotab _ _).ctlRegs = _
        rw [ctlRegs_setCotab]
        exact ctlRegs_setCbuf _ _ _
      · intro k
        show (((B.setLast r j).setCotab _ _).cycbuf k).list = _
        rw [cycbuf_setCotab, head_setLast]
    · simp only [hlast, if_false]
      apply hmain
      · rfl
      · intro k
        rfl

theorem countDown_alarm (s : State) (t : Nat) :
    (countDown s t).atimeout = s.atimeout := by
  rw [countDown_eq]

/-- The seconds of the heap entries when the table below `cycbrk` is left
alone. -/
theorem heap_times_of_low {s s' : State} (hq : s'.queuebrk = s.queuebrk)
    (hqb : s.queuebrk ≤ s.cycbrk) (hlow : ∀ x, x < s.cycbrk → s'.cotab x = s.cotab x)
    (h : ∀ e ∈ heapEntries s.mem s.queuebrk, e.time ≠ 0) :
    ∀ e ∈ heapEntries s'.mem s'.queuebrk, e.time ≠ 0 := by
  intro e he
  obtain ⟨k, k1, k2, rfl⟩ := mem_heapEntries.1 he
  rw [hq] at k2
  obtain ⟨x, rfl⟩ : ∃ x, k = x + 1 := ⟨k - 1, by omega⟩
  have e1 : s'.mem (x + 1) = s.mem (x + 1) := hlow x (by omega)
  rw [e1]
  exact h _ (mem_heapEntries.2 ⟨x + 1, k1, k2, rfl⟩)

/-- The function `freecallout` keeps the invariant of `timeout`, called for
an element of the immediate or the running list with `t = 0`, or for an
element of the bucket of a second `t` of the window. -/
theorem freecallout_timeoutInv {s : State} {fl : List Nat} {ls : CbufRef → List Nat}
    (hw : Wheel s fl ls) (hinv : TimeoutInv s) (hqb : s.queuebrk ≤ s.cycbrk)
    {r : CbufRef} (hr : r.valid) {pre post : List Nat} {i j : Nat}
    (hl : ls r = pre ++ i :: post) (hj : j = pre.getLast?.getD i) (t : Nat)
    (ht : t = 0 ↔ ∀ k, r ≠ .cyc k)
    (hroute : ∀ k, r = .cyc k →
      k = cycIndex t ∧ s.timestamp < t ∧ t < s.timestamp + CYCBUF_SIZE)
    {s' : State} (h : freecallout s r j i t = .ok s') : TimeoutInv s' := by
  obtain ⟨s1, fl1, hf, hw1, -, -, hq1, hts1, -, hlow, -⟩ := freecallout_spec hw hr hl hj t ht
  have e : s1 = s' := by
    have := hf.symm.trans h
    simpa using this
  subst e
  obtain ⟨-, -, U, hU1, -⟩ := freecallout_unlinked hw hr hl hj t ht
  rw [freecallout_eq, hU1] at h
  have hrel : releaseSlot U i = .ok s1 := h
  obtain ⟨hc, hcyc⟩ := releaseSlot_ctlRegs U s1 i hrel
  obtain ⟨c1, c2, c3, c4, c5, c6, -⟩ := ctlRegs_fields hc
  obtain ⟨d1, d2, d3, d4, d5, d6, d7, d8, d9, d10⟩ := countDown_fields s t
  have d11 := countDown_alarm s t
  obtain ⟨u1, u2, u3, u4, u5, u6, u7⟩ := unlinkAt_sched _ _ _ _ _ _ hU1
  have dcot : ∀ x, (countDown s t).cotab x = s.cotab x := by
    intro x
    unfold State.cotab
    rw [d8]
  have dcyc : ∀ k, (countDown s t).cycbuf k = s.cycbuf k := fun k => d10 (.cyc k)
  -- the heap
  have hheap := heap_times_of_low hq1 hqb hlow hinv.heap
  -- the heads of the buckets
  have hhead : ∀ k, (s1.cycbuf k).list =
      if r = .cyc k ∧ i = j then u16 (s.cotab i).time else (s.cycbuf k).list := by
    intro k
    rw [hcyc, u5 k, dcot, dcyc]
  have hnerestart : ¬ (i = j ∧ u16 (s.cotab i).time = 0 ∧ t ≠ 0 ∧ t = s.timeout) →
      s1.timeout = s.timeout ∧ s1.atimeout = s.atimeout := by
    intro c
    have := u7 (by rw [dcot, d9]; exact c)
    rw [c5, c6, this.1, this.2, d9, d11]
    exact ⟨rfl, rfl⟩
  by_cases hcase : (∃ k, r = .cyc k) ∧ i = j
  · obtain ⟨⟨k, rfl⟩, hij⟩ := hcase
    obtain ⟨hk, ht1, ht2⟩ := hroute k rfl
    have hne0 : (s.cycbuf k).list ≠ 0 := by
      intro e0
      have := (hw.chain (.cyc k) hr).head_eq_zero_iff.1 e0
      rw [hl] at this
      simp at this
    have hto : s.timeout ≠ 0 := fun e0 => hne0 (hinv.idle.1 e0 k hr)
    obtain ⟨f1, f2, f3, f4⟩ := hinv.first hto
    have hle : s.timeout ≤ t := by
      by_contra hlt
      push_neg at hlt
      have := f4 t ht1 hlt
      rw [← hk] at this
      exact hne0 this
    by_cases hn : u16 (s.cotab i).time = 0
    · by_cases hT : t = s.timeout
      · -- the bucket of `timeout` is emptied: `restart`
        have hres := u6 (by rw [dcot, d9]; exact ⟨hij, hn, by omega, hT⟩)
        rw [dcot] at hres
        obtain ⟨a1, a2, a3, a4, a5, a6⟩ := restart_ctlRegs _ _ _ hres
        have hL : ((countDown s t).setList (.cyc k) (u16 (s.cotab i).time)).ctlRegs =
            (countDown s t).ctlRegs := ctlRegs_setCbuf _ _ _
        obtain ⟨l1, l2, l3, l4, l5, l6, l7⟩ := ctlRegs_fields hL
        have hXh : ∀ k', (((countDown s t).setList (.cyc k) (u16 (s.cotab i).time)).cycbuf
            k').list = if CbufRef.cyc k = .cyc k' then 0 else (s.cycbuf k').list := by
          intro k'
          rw [head_setList, hn, dcyc]
        have hXe : ∀ k', (s.cycbuf k').list = 0 →
            (((countDown s t).setList (.cyc k) (u16 (s.cotab i).time)).cycbuf k').list = 0 := by
          intro k' e0
          rw [hXh]
          split_ifs
          · rfl
          · exact e0
        have hU : TimeoutInv U := by
          apply restart_timeoutInv _ U t hres (by omega)
          · rw [← a3, ← a4, ← a5, ← c3, ← c4, ← hcyc]
            exact hw1.buckets_empty_iff
          · rw [l1, d7]
            exact hinv.stamp
          · rw [l1, d7]
            exact hXe _ hinv.window
          · rw [l1, d7]
            omega
          · rw [l1, d7]
            exact ht2
          · rw [l1, d7]
            intro sec x y
            exact hXe _ (f4 sec x (by omega))
          · rw [l2, d6]
            show ∀ e ∈ heapEntries (countDown s t).mem s.queuebrk, e.time ≠ 0
            rw [d8]
            exact hinv.heap
        exact hU.transfer c1 c5 c6 (fun k' => by rw [hcyc]) hheap
      · -- the bucket of a later second is emptied
        obtain ⟨n1, n2⟩ := hnerestart (fun c => hT c.2.2.2)
        apply hinv.other t (by rw [hts1]) n1 n2 ht1 ht2 hto
        · intro k' hk'
          rw [hhead, if_neg]
          rintro ⟨e1, -⟩
          apply hk'
          rw [← hk]
          cases e1
          rfl
        · right
          omega
        · left
          rw [← hk]
          exact hne0
        · exact hheap
    · -- the bucket keeps an element
      obtain ⟨n1, n2⟩ := hnerestart (fun c => hn c.2.1)
      apply hinv.transfer (by rw [hts1]) n1 n2 _ hheap
      intro k'
      rw [hhead]
      by_cases e1 : k = k'
      · subst e1
        rw [if_pos ⟨rfl, hij⟩]
        exact ⟨fun e0 => absurd e0 hn, fun e0 => absurd e0 hne0⟩
      · rw [if_neg]
        rintro ⟨e2, -⟩
        apply e1
        cases e2
        rfl
  · -- the heads stay
    have hnr : ¬ (i = j ∧ u16 (s.cotab i).time = 0 ∧ t ≠ 0 ∧ t = s.timeout) := by
      rintro ⟨e1, -, e3, -⟩
      apply hcase
      refine ⟨?_, e1⟩
      by_contra hno
      push_neg at hno
      exact e3 (ht.2 (fun k e => hno k e))
    obtain ⟨n1, n2⟩ := hnerestart hnr
    apply hinv.transfer (by rw [hts1]) n1 n2 _ hheap
    intro k'
    rw [hhead, if_neg]
    rintro ⟨e1, e2⟩
    exact hcase ⟨⟨k', e1⟩, e2⟩

/-- The function `co_del` for a callout that waits on the list that its
stored deadline addresses keeps the invariant of `timeout`. -/
theorem co_del_listed_timeoutInv {s : State} {fl : List Nat} {ls : CbufRef → List Nat}
    (hw : Wheel s fl ls) (hinv : TimeoutInv s) (hqb : s.queuebrk ≤ s.cycbrk) (dbg : Bool)
    (oindex handle stored : Nat) (hs : stored >>> 24 ≠ 1) {r : CbufRef}
    (hroute : (u32 (stored + s.timediff) ≤ s.timestamp ∧
        (r = .immediate ∨ (r = .running ∧
          ∀ y ∈ ls .immediate, s.key y ≠ (u16 oindex, u16 handle)))) ∨
      (s.timestamp < u32 (stored + s.timediff) ∧
        u32 (stored + s.timediff) < u32 (s.timestamp + CYCBUF_SIZE) ∧
        r = .cyc (cycIndex (u32 (stored + s.timediff)))))
    {pre post : List Nat} {x : Nat} (hl : ls r = pre ++ x :: post)
    (hpre : ∀ y ∈ pre, s.key y ≠ (u16 oindex, u16 handle))
    (hx : s.key x = (u16 oindex, u16 handle)) :
    ∃ s', co_del dbg s oindex handle stored = .ok s' ∧ TimeoutInv s' := by
  have hu : u32 (s.timestamp + CYCBUF_SIZE) = s.timestamp + CYCBUF_SIZE := by
    have := hinv.stamp
    unfold u32
    exact Nat.mod_eq_of_lt (by omega)
  -- the removal from the list `r` with the argument `t`
  have key : ∀ (t : Nat), r.valid → (t = 0 ↔ ∀ k, r ≠ .cyc k) →
      (∀ k, r = .cyc k → k = cycIndex t ∧ s.timestamp < t ∧ t < s.timestamp + CYCBUF_SIZE) →
      ∃ s', rmshort s r (u16 oindex) handle t = .ok (s', true) ∧ TimeoutInv s' := by
    intro t hr ht hrt
    obtain ⟨s', fl', h1, -⟩ := rmshort_spec hw hr oindex handle t ht hl hpre hx
    refine ⟨s', h1, ?_⟩
    rw [rmshort_found hw hr (u16 oindex) handle t hl (by rw [u16_u16]; exact hpre)
      (by rw [u16_u16]; exact hx)] at h1
    cases hf : freecallout s r (pre.getLast?.getD x) x t with
    | error e =>
      rw [hf] at h1
      cases h1
    | ok s1 =>
      rw [hf] at h1
      have e : s1 = s' := by
        simp only [Except.bind, Except.ok.injEq, Prod.mk.injEq, and_true] at h1
        exact h1
      subst e
      exact freecallout_timeoutInv hw hinv hqb hr hl rfl t ht hrt hf
  rcases hroute with ⟨hle, hr⟩ | ⟨hlt, hwin, hr⟩
  · rcases hr with hr | ⟨hr, hno⟩
    · subst hr
      obtain ⟨s', h1, h2⟩ := key 0 trivial ⟨fun _ k h => (by cases h), fun _ => rfl⟩
        (fun k h => by cases h)
      refine ⟨s', ?_, h2⟩
      unfold co_del
      simp only [hs, ne_eq, not_false_eq_true, if_true, hle, h1, bind, Except.bind, pure,
        Except.pure]
    · subst hr
      obtain ⟨s', h1, h2⟩ := key 0 trivial ⟨fun _ k h => (by cases h), fun _ => rfl⟩
        (fun k h => by cases h)
      have h0 := rmshort_none hw (r := .immediate) trivial (u16 oindex) handle 0
        (by rw [u16_u16]; exact hno)
      refine ⟨s', ?_, h2⟩
      unfold co_del
      simp only [hs, ne_eq, not_false_eq_true, if_true, hle, h0, h1, bind, Except.bind, pure,
        Except.pure, Bool.false_eq_true, if_false]
  · subst hr
    have ht0 : u32 (stored + s.timediff) ≠ 0 := by omega
    obtain ⟨s', h1, h2⟩ := key (u32 (stored + s.timediff)) (cycIndex_lt _)
      ⟨fun h => absurd h ht0, fun h => absurd rfl (h _)⟩
      (fun k h => by
        cases h
        exact ⟨rfl, hlt, by rw [← hu]; exact hwin⟩)
    refine ⟨s', ?_, h2⟩
    have hnle : ¬ u32 (stored + s.timediff) ≤ s.timestamp := by omega
    unfold co_del
    simp only [hs, ne_eq, not_false_eq_true, if_true, hnle, hwin, h1, bind, Except.bind, pure,
      Except.pure, Bool.false_eq_true, if_false]

/-- The function `co_del` for a callout that is in the heap keeps the
invariant of `timeout`: no register of the cyclic buffer is written. -/
theorem co_del_queued_timeoutInv {s : State} {fl : List Nat} {ls : CbufRef → List Nat}
    (hw : Wheel s fl ls) (hinv : TimeoutInv s) (hqb : s.queuebrk ≤ s.cycbrk)
    (hsent : (s.mem 0).time = 0) (dbg : Bool) (oindex handle stored k0 : Nat)
    (hpath : stored >>> 24 = 1 ∨
      (s.timestamp < u32 (stored + s.timediff) ∧
        ¬ u32 (stored + s.timediff) < u32 (s.timestamp + CYCBUF_SIZE)))
    (hk0 : k0 < s.queuebrk)
    (hm : (s.cotab k0).oindex = u16 oindex ∧ (s.cotab k0).handle = handle)
    (hfirst : ∀ y, y < k0 → ¬ ((s.cotab y).oindex = u16 oindex ∧ (s.cotab y).handle = handle)) :
    ∃ s', co_del dbg s oindex handle stored = .ok s' ∧ TimeoutInv s' ∧
      s'.timeout = s.timeout ∧ s'.atimeout = s.atimeout ∧ s'.cycbuf = s.cycbuf := by
  obtain ⟨h1, -⟩ := co_del_queued hw hqb dbg oindex handle stored k0 hpath hk0 hm hfirst
  have hcap := hw.cap
  have hble := hw.brk_le
  have hpos : (s.mem s.queuebrk).time ≠ 0 :=
    hinv.heap _ (mem_heapEntries.2 ⟨s.queuebrk, by omega, le_refl _, rfl⟩)
  obtain ⟨s', hd, he, -, -, hperm⟩ := dequeue_any s k0 hsent hpos hk0
    (by unfold UINDEX_MOD at *; omega)
  have e1 : s'.timestamp = s.timestamp := by rw [he]
  have e2 : s'.timeout = s.timeout := by rw [he]
  have e3 : s'.atimeout = s.atimeout := by rw [he]
  have e4 : s'.cycbuf = s.cycbuf := by rw [he]
  have e5 : s'.queuebrk = s.queuebrk - 1 := by rw [he]
  refine ⟨s', by rw [h1]; exact hd, ?_, e2, e3, e4⟩
  apply hinv.transfer e1 e2 e3 (fun k => by rw [e4])
  intro e hmem
  rw [e5] at hmem
  exact hinv.heap e (hperm.symm.subset (List.mem_cons_of_mem _ hmem))

/-- The seconds of the heap entries when the heap slots are left alone. -/
theorem heap_times_of_frame {s s' : State} (hq : s'.queuebrk = s.queuebrk)
    (hlow : ∀ x, x < s.queuebrk → s'.cotab x = s.cotab x)
    (h : ∀ e ∈ heapEntries s.mem s.queuebrk, e.time ≠ 0) :
    ∀ e ∈ heapEntries s'.mem s'.queuebrk, e.time ≠ 0 := by
  intro e he
  obtain ⟨k, k1, k2, rfl⟩ := mem_heapEntries.1 he
  rw [hq] at k2
  obtain ⟨x, rfl⟩ : ∃ x, k = x + 1 := ⟨k - 1, by omega⟩
  have e1 : s'.mem (x + 1) = s.mem (x + 1) := hlow x (by omega)
  rw [e1]
  exact h _ (mem_heapEntries.2 ⟨x + 1, k1, k2, rfl⟩)

/-- The invariant of `timeout` carries over to a state with the same clock,
the same `timeout` and the same buckets, in which an alarm is armed for
`timeout` or earlier. -/
theorem TimeoutInv.alarmed {s s' : State} (h : TimeoutInv s) (h1 : s'.timestamp = s.timestamp)
    (h2 : s'.timeout = s.timeout)
    (h3 : s'.timeout ≠ 0 → s'.atimeout ≠ 0 ∧ s'.atimeout ≤ s'.timeout)
    (h4 : ∀ k, (s'.cycbuf k).list = 0 ↔ (s.cycbuf k).list = 0)
    (h5 : ∀ e ∈ heapEntries s'.mem s'.queuebrk, e.time ≠ 0) : TimeoutInv s' := by
  refine
    { stamp := by rw [h1]; exact h.stamp
      window := by rw [h4, h1]; exact h.window
      idle := by
        rw [h2, h.idle]
        exact ⟨fun k j hj => (h4 j).2 (k j hj), fun k j hj => (h4 j).1 (k j hj)⟩
      first := by
        rw [h2, h1]
        intro hne
        obtain ⟨a, b, c, d⟩ := h.first hne
        exact ⟨a, b, fun e => c ((h4 _).1 e), fun sec x y => (h4 _).2 (d sec x y)⟩
      alarm := h3
      heap := h5 }

/-- The heap slots after the admission of a callout to a list of the cyclic
buffer, with room for the new element: they are not written. -/
theorem co_new_list_low {s : State} {fl : List Nat} {ls : CbufRef → List Nat}
    (hw : Wheel s fl ls) (r : CbufRef) (hr : r.valid) (handle oindex t m : Nat)
    (hcase : (r = .immediate ∧ t = 0) ∨ (t ≠ 0 ∧ ∃ k, r = .cyc k))
    (hqb : s.queuebrk ≤ s.cycbrk)
    (hroom : s.flist = 0 → s.queuebrk < s.cycbrk ∧ 2 ≤ s.cycbrk) {s' : State}
    (h : co_new s handle oindex t m (some r) = .ok s') :
    s'.queuebrk = s.queuebrk ∧ (∀ x, x < s.queuebrk → s'.cotab x = s.cotab x) ∧
      s.queuebrk ≤ (allocSlot s t).2 := by
  obtain ⟨hi0, hisz, hicyc, hifresh, -, -, hlen, -⟩ := hw.alloc t (fun c => (hroom c).2)
  have hre : (s.getCbuf r).list = 0 → t ≠ 0 → ∃ k, k < CYCBUF_SIZE ∧ r = .cyc k := by
    intro _ ht
    rcases hcase with ⟨_, h⟩ | ⟨_, k, hk⟩
    · exact absurd h ht
    · subst hk
      exact ⟨k, hr, rfl⟩
  obtain ⟨s2, hn, ha⟩ := newcallout_eq s r t hre hi0
  have hs' : s' = s2.setCotab (allocSlot s t).2 { s2.cotab (allocSlot s t).2 with
      handle := u16 handle, oindex := u16 oindex } := by
    unfold co_new at h
    simp only [bind, Except.bind, hn, pure, Except.pure, Except.ok.injEq] at h
    rw [← h]
    rfl
  obtain ⟨a1, a2, a3, a4, a5, a6, a7, a8, a9⟩ := ha.fields
  obtain ⟨l1, l2, l3, l4, l5, l6, l7, l8⟩ :=
    linkSlot_fields (allocSlot s t).1 r (allocSlot s t).2
  have hfst := allocSlot_fst s t
  have hq0 : (allocSlot s t).1.queuebrk = s.queuebrk := by rw [hfst]
  have hcb : s.queuebrk ≤ (allocSlot s t).1.cycbrk := by
    by_cases hf : s.flist = 0
    · have hfl : fl = [] := hw.free_chain.head_eq_zero_iff.1 hf
      subst hfl
      have := (hroom hf).1
      simp only [List.tail_nil, List.length_nil] at hlen
      omega
    · have hfl : fl ≠ [] := fun e => hf (hw.free_chain.head_eq_zero_iff.2 e)
      obtain ⟨a, tl, rfl⟩ := List.exists_cons_of_ne_nil hfl
      simp only [List.tail_cons, List.length_cons] at hlen
      omega
  refine ⟨?_, ?_, by omega⟩
  · rw [hs']
    show s2.queuebrk = _
    rw [a6, l6, hq0]
  · intro x hx
    rw [hs', cotab_setCotab_other _ _ _ _ (by omega), ha.cotab,
      linkSlot_cotab_other _ _ _ _ (by omega), allocSlot_cotab]
    intro hne
    rw [allocSlot_getCbuf] at hne ⊢
    have e1 := (hw.range r hr _ (hw.head_mem r hr hne)).1
    have e2 := (hw.range r hr _ (hw.last_mem r hr hne)).1
    constructor <;> omega

/-- The function `newcallout` and the registers: the head of the list changes
only when the list was empty; `restart` is called when a bucket gets its
first element for a second before `timeout`, or with `timeout = 0`, and the
alarm registers are not written otherwise. -/
theorem newcallout_sched (s : State) (r : CbufRef) (t : Nat) (s2 : State) (i : Nat)
    (h : newcallout s r t = .ok (s2, i)) :
    i = (allocSlot s t).2 ∧ s2.timestamp = s.timestamp ∧
    (∀ k, (s2.cycbuf k).list =
      if r = .cyc k ∧ (s.getCbuf r).list = 0 then i else (s.cycbuf k).list) ∧
    (((s.getCbuf r).list = 0 ∧ t ≠ 0 ∧ (s.timeout = 0 ∨ t < s.timeout)) →
      ∃ X', restart (((allocSlot s t).1.setList r i).setCount i 1) t = .ok X' ∧
        s2.ctlRegs = X'.ctlRegs ∧ ∀ k, (s2.cycbuf k).list = (X'.cycbuf k).list) ∧
    (¬ ((s.getCbuf r).list = 0 ∧ t ≠ 0 ∧ (s.timeout = 0 ∨ t < s.timeout)) →
      s2.timeout = s.timeout ∧ s2.atimeout = s.atimeout) := by
  have hA : (allocSlot s t).1.ctlRegs.1 = s.timestamp ∧
      (allocSlot s t).1.timeout = s.timeout ∧ (allocSlot s t).1.atimeout = s.atimeout := by
    rw [allocSlot_fst]
    exact ⟨rfl, rfl, rfl⟩
  have hAc : ∀ k, (allocSlot s t).1.cycbuf k = s.cycbuf k :=
    fun k => allocSlot_getCbuf s t (.cyc k)
  have hAg := allocSlot_getCbuf s t r
  -- the statements after the list is extended
  have hfin : ∀ Z : State, (((Z.setLast r (allocSlot s t).2).setNext (allocSlot s t).2 0).ctlRegs =
        Z.ctlRegs) ∧
      ∀ k, (((Z.setLast r (allocSlot s t).2).setNext (allocSlot s t).2 0).cycbuf k).list =
        (Z.cycbuf k).list := by
    intro Z
    refine ⟨?_, fun k => ?_⟩
    · show ((Z.setLast r (allocSlot s t).2).setCotab _ _).ctlRegs = _
      rw [ctlRegs_setCotab]
      exact ctlRegs_setCbuf _ _ _
    · show (((Z.setLast r (allocSlot s t).2).setCotab _ _).cycbuf k).list = _
      rw [cycbuf_setCotab, head_setLast]
  -- the first element of a list
  have hX : (((allocSlot s t).1.setList r (allocSlot s t).2).setCount (allocSlot s t).2 1).ctlRegs =
        (allocSlot s t).1.ctlRegs ∧
      ∀ k, ((((allocSlot s t).1.setList r (allocSlot s t).2).setCount
          (allocSlot s t).2 1).cycbuf k).list =
        if r = .cyc k then (allocSlot s t).2 else (s.cycbuf k).list := by
    refine ⟨?_, fun k => ?_⟩
    · show (((allocSlot s t).1.setList r (allocSlot s t).2).setCotab _ _).ctlRegs = _
      rw [ctlRegs_setCotab]
      exact ctlRegs_setCbuf _ _ _
    · show ((((allocSlot s t).1.setList r (allocSlot s t).2).setCotab _ _).cycbuf k).list = _
      rw [cycbuf_setCotab, head_setList, hAc]
  unfold newcallout at h
  simp only [bind, Except.bind, pure, Except.pure] at h
  rw [hAg] at h
  by_cases h0 : (s.getCbuf r).list = 0
  · rw [if_pos h0] at h
    by_cases hc : t ≠ 0 ∧ ((allocSlot s t).1.timeout = 0 ∨ t < (allocSlot s t).1.timeout)
    · rw [if_pos hc] at h
      cases hres : restart (((allocSlot s t).1.setList r (allocSlot s t).2).setCount
          (allocSlot s t).2 1) t with
      | error e =>
        rw [hres] at h
        cases h
      | ok X' =>
        rw [hres] at h
        simp only [Except.ok.injEq, Prod.mk.injEq] at h
        obtain ⟨e1, e2⟩ := h
        subst e1 e2
        obtain ⟨f1, f2⟩ := hfin X'
        obtain ⟨a1, a2, a3, a4, a5, a6⟩ := restart_ctlRegs _ _ _ hres
        obtain ⟨x1, x2⟩ := hX
        refine ⟨rfl, ?_, fun k => ?_, fun _ => ⟨X', hres, f1, f2⟩, fun c => ?_⟩
        · have := (ctlRegs_fields f1).1
          rw [this, a1, (ctlRegs_fields x1).1]
          exact hA.1
        · rw [f2, a5, x2]
          simp [h0]
        · rw [hA.2.1] at hc
          exact absurd ⟨h0, hc.1, hc.2⟩ c
    · rw [if_neg hc] at h
      simp only [Except.ok.injEq, Prod.mk.injEq] at h
      obtain ⟨e1, e2⟩ := h
      subst e1 e2
      obtain ⟨f1, f2⟩ := hfin (((allocSlot s t).1.setList r (allocSlot s t).2).setCount
        (allocSlot s t).2 1)
      obtain ⟨x1, x2⟩ := hX
      obtain ⟨g1, -, -, -, g5, g6, -⟩ := ctlRegs_fields (f1.trans x1)
      refine ⟨rfl, g1.trans hA.1, fun k => ?_, fun c => ?_, fun _ => ?_⟩
      · rw [f2, x2]
        simp [h0]
      · rw [hA.2.1] at hc
        exact absurd ⟨c.2.1, c.2.2⟩ hc
      · exact ⟨g5.trans hA.2.1, g6.trans hA.2.2⟩
  · rw [if_neg h0] at h
    simp only [Except.ok.injEq, Prod.mk.injEq] at h
    obtain ⟨e1, e2⟩ := h
    subst e1 e2
    obtain ⟨f1, f2⟩ := hfin (((allocSlot s t).1.setCount (s.getCbuf r).list
      (u16 (((allocSlot s t).1.cotab (s.getCbuf r).list).mtime + 1))).setNext
        (s.getCbuf r).last (allocSlot s t).2)
    have y1 : (((allocSlot s t).1.setCount (s.getCbuf r).list
        (u16 (((allocSlot s t).1.cotab (s.getCbuf r).list).mtime + 1))).setNext
          (s.getCbuf r).last (allocSlot s t).2).ctlRegs = (allocSlot s t).1.ctlRegs := rfl
    have y2 : ∀ k, ((((allocSlot s t).1.setCount (s.getCbuf r).list
        (u16 (((allocSlot s t).1.cotab (s.getCbuf r).list).mtime + 1))).setNext
          (s.getCbuf r).last (allocSlot s t).2).cycbuf k).list = (s.cycbuf k).list := by
      intro k
      show ((allocSlot s t).1.cycbuf k).list = _
      rw [hAc]
    obtain ⟨g1, -, -, -, g5, g6, -⟩ := ctlRegs_fields (f1.trans y1)
    refine ⟨rfl, g1.trans hA.1, fun k => ?_, fun c => absurd c.1 h0, fun _ => ?_⟩
    · rw [f2, y2]
      simp [h0]
    · exact ⟨g5.trans hA.2.1, g6.trans hA.2.2⟩

/-- The admission of a callout to the bucket of a second `t` of the window
keeps the invariant of `timeout`. -/
theorem co_new_bucket_timeoutInv {s : State} {fl : List Nat} {ls : CbufRef → List Nat}
    (hw : Wheel s fl ls) (hinv : TimeoutInv s) (hqb : s.queuebrk ≤ s.cycbrk)
    (hroom : s.flist = 0 → s.queuebrk < s.cycbrk ∧ 2 ≤ s.cycbrk)
    (handle oindex t m : Nat) (ht1 : s.timestamp < t) (ht2 : t < s.timestamp + CYCBUF_SIZE)
    (hh : u16 handle ≠ 0) :
    ∃ s', co_new s handle oindex t m (some (.cyc (cycIndex t))) = .ok s' ∧ TimeoutInv s' := by
  have ht0 : t ≠ 0 := by omega
  have hcase : ((CbufRef.cyc (cycIndex t)) = .immediate ∧ t = 0) ∨
      (t ≠ 0 ∧ ∃ k, (CbufRef.cyc (cycIndex t)) = .cyc k) := Or.inr ⟨ht0, _, rfl⟩
  obtain ⟨s', i', hco, hw', -⟩ := co_new_append hw (.cyc (cycIndex t)) (cycIndex_lt _)
    handle oindex t m hcase (fun c => (hroom c).2) hh
  refine ⟨s', hco, ?_⟩
  obtain ⟨q1, q2, q3⟩ := co_new_list_low hw (.cyc (cycIndex t)) (cycIndex_lt _) handle oindex t m
    hcase hqb hroom hco
  have hheap := heap_times_of_frame q1 q2 hinv.heap
  obtain ⟨hi0, -⟩ := hw.alloc t (fun c => (hroom c).2)
  unfold co_new at hco
  simp only [bind, Except.bind, pure, Except.pure] at hco
  cases hn : newcallout s (.cyc (cycIndex t)) t with
  | error e =>
    rw [hn] at hco
    cases hco
  | ok p =>
    obtain ⟨s2, i⟩ := p
    rw [hn] at hco
    simp only [Except.ok.injEq] at hco
    obtain ⟨n1, n2, n3, n4, n5⟩ := newcallout_sched s _ t s2 i hn
    have hi : i ≠ 0 := by rw [n1]; exact hi0
    -- the last statement of `co_new` writes the table
    have z1 : s'.ctlRegs = s2.ctlRegs := by rw [← hco]; rfl
    have z2 : s'.cycbuf = s2.cycbuf := by rw [← hco]
    obtain ⟨c1, c2, c3, c4, c5, c6, -⟩ := ctlRegs_fields z1
    have hhead : ∀ k, (s'.cycbuf k).list =
        if k = cycIndex t ∧ (s.cycbuf (cycIndex t)).list = 0 then i else (s.cycbuf k).list := by
      intro k
      rw [z2, n3]
      by_cases e : k = cycIndex t
      · subst e
        simp [State.getCbuf]
      · have e' : ¬ (CbufRef.cyc (cycIndex t) = CbufRef.cyc k) := fun h => e (by cases h; rfl)
        simp [e, e']
    have hother : ∀ k, k ≠ cycIndex t → (s'.cycbuf k).list = (s.cycbuf k).list := by
      intro k hk
      rw [hhead, if_neg (fun c => hk c.1)]
    have hsec : ∀ sec, s.timestamp ≤ sec → sec < t → cycIndex sec ≠ cycIndex t := by
      intro sec a b e
      have := window_unique sec t e (by omega) (by omega)
      omega
    by_cases hc : (s.getCbuf (.cyc (cycIndex t))).list = 0 ∧ t ≠ 0 ∧
        (s.timeout = 0 ∨ t < s.timeout)
    · -- the first element of a bucket before `timeout`: `restart`
      obtain ⟨X', hres, r1, r2⟩ := n4 hc
      obtain ⟨a1, a2, a3, a4, a5, a6⟩ := restart_ctlRegs _ _ _ hres
      have hXr : (((allocSlot s t).1.setList (.cyc (cycIndex t)) i).setCount i 1).ctlRegs =
          (allocSlot s t).1.ctlRegs := by
        show (((allocSlot s t).1.setList (.cyc (cycIndex t)) i).setCotab _ _).ctlRegs = _
        rw [ctlRegs_setCotab]
        exact ctlRegs_setCbuf _ _ _
      obtain ⟨x1, x2, -⟩ := ctlRegs_fields hXr
      have hA1 : (allocSlot s t).1.timestamp = s.timestamp := by rw [allocSlot_fst]
      have hA2 : (allocSlot s t).1.queuebrk = s.queuebrk := by rw [allocSlot_fst]
      have hXh : ∀ k, ((((allocSlot s t).1.setList (.cyc (cycIndex t)) i).setCount
          i 1).cycbuf k).list = (s'.cycbuf k).list := by
        intro k
        rw [z2, r2, a5]
      obtain ⟨d1, d2, d3, d4, -⟩ := ctlRegs_fields r1
      have hX' : TimeoutInv X' := by
        apply restart_timeoutInv _ X' t hres ht0
        · rw [← a3, ← a4, ← d3, ← d4, ← c3, ← c4]
          simp only [hXh]
          exact hw'.buckets_empty_iff
        · rw [x1, hA1]
          exact hinv.stamp
        · rw [x1, hA1, hXh, hother _ (hsec _ (le_refl _) ht1)]
          exact hinv.window
        · rw [x1, hA1]
          omega
        · rw [x1, hA1]
          exact ht2
        · rw [x1, hA1]
          intro sec u v
          rw [hXh, hother _ (hsec sec (by omega) v)]
          rcases hc.2.2 with e0 | e0
          · exact hinv.idle.1 e0 _ (cycIndex_lt _)
          · have hto : s.timeout ≠ 0 := by omega
            exact (hinv.first hto).2.2.2 sec u (by omega)
        · rw [x2, hA2]
          intro e he
          obtain ⟨k, k1, k2, rfl⟩ := mem_heapEntries.1 he
          obtain ⟨x, rfl⟩ : ∃ x, k = x + 1 := ⟨k - 1, by omega⟩
          have hxi : x ≠ i := by
            rw [n1]
            omega
          have e1 : (((allocSlot s t).1.setList (.cyc (cycIndex t)) i).setCount i 1).cotab x =
              s.cotab x := by
            show (((allocSlot s t).1.setList (.cyc (cycIndex t)) i).setCotab _ _).cotab x = _
            rw [cotab_setCotab_other _ _ _ _ hxi]
            show (allocSlot s t).1.cotab x = _
            rw [allocSlot_cotab]
          have e2 : (((allocSlot s t).1.setList (.cyc (cycIndex t)) i).setCount i 1).mem (x + 1) =
              s.mem (x + 1) := e1
          rw [e2]
          exact hinv.heap _ (mem_heapEntries.2 ⟨x + 1, k1, k2, rfl⟩)
      exact hX'.transfer (c1.trans d1) (c5.trans (ctlRegs_fields r1).2.2.2.2.1)
        (c6.trans (ctlRegs_fields r1).2.2.2.2.2.1) (fun k => by rw [z2, r2]) hheap
    · obtain ⟨m1, m2⟩ := n5 hc
      by_cases h0 : (s.cycbuf (cycIndex t)).list = 0
      · -- the first element of a bucket after `timeout`
        have hto : s.timeout ≠ 0 := by
          intro e0
          exact hc ⟨h0, ht0, Or.inl e0⟩
        have hle : s.timeout ≤ t := by
          by_contra c
          exact hc ⟨h0, ht0, Or.inr (by omega)⟩
        have hne : s.timeout ≠ t := by
          intro e
          have := (hinv.first hto).2.2.1
          rw [e] at this
          exact this h0
        apply hinv.other t (c1.trans n2) (c5.trans m1) (c6.trans m2) ht1 ht2 hto
        · intro k hk
          rw [hother k hk]
        · left
          rw [hhead, if_pos ⟨rfl, h0⟩]
          exact hi
        · right
          omega
        · exact hheap
      · -- the bucket had an element
        apply hinv.transfer (c1.trans n2) (c5.trans m1) (c6.trans m2) _ hheap
        intro k
        rw [hhead, if_neg (fun c => h0 c.2)]

/-- The admission of a callout to the immediate list keeps the invariant of
`timeout`: no bucket and no alarm register is written. -/
theorem co_new_immediate_timeoutInv {s : State} {fl : List Nat} {ls : CbufRef → List Nat}
    (hw : Wheel s fl ls) (hinv : TimeoutInv s) (hqb : s.queuebrk ≤ s.cycbrk)
    (hroom : s.flist = 0 → s.queuebrk < s.cycbrk ∧ 2 ≤ s.cycbrk)
    (handle oindex m : Nat) (hh : u16 handle ≠ 0) :
    ∃ s', co_new s handle oindex 0 m (some .immediate) = .ok s' ∧ TimeoutInv s' := by
  have hcase : ((CbufRef.immediate) = .immediate ∧ 0 = 0) ∨
      (0 ≠ 0 ∧ ∃ k, (CbufRef.immediate) = .cyc k) := Or.inl ⟨rfl, rfl⟩
  obtain ⟨s', i', hco, hw', -⟩ := co_new_append hw .immediate trivial
    handle oindex 0 m hcase (fun c => (hroom c).2) hh
  refine ⟨s', hco, ?_⟩
  obtain ⟨q1, q2, q3⟩ := co_new_list_low hw .immediate trivial handle oindex 0 m
    hcase hqb hroom hco
  have hheap := heap_times_of_frame q1 q2 hinv.heap
  unfold co_new at hco
  simp only [bind, Except.bind, pure, Except.pure] at hco
  cases hn : newcallout s .immediate 0 with
  | error e =>
    rw [hn] at hco
    cases hco
  | ok p =>
    obtain ⟨s2, i⟩ := p
    rw [hn] at hco
    simp only [Except.ok.injEq] at hco
    obtain ⟨n1, n2, n3, n4, n5⟩ := newcallout_sched s _ 0 s2 i hn
    have z1 : s'.ctlRegs = s2.ctlRegs := by rw [← hco]; rfl
    have z2 : s'.cycbuf = s2.cycbuf := by rw [← hco]
    obtain ⟨c1, c2, c3, c4, c5, c6, -⟩ := ctlRegs_fields z1
    obtain ⟨m1, m2⟩ := n5 (fun c => c.2.1 rfl)
    apply hinv.transfer (c1.trans n2) (c5.trans m1) (c6.trans m2) _ hheap
    intro k
    rw [z2, n3, if_neg]
    rintro ⟨c, -⟩
    cases c

/-- The alarm after `enqueue`: `timeout`, the clock and the buckets stay; the
alarm stays, or it is set to `timeout`, or to the second of the root of the
heap when that is earlier than `timeout` or `timeout` is 0. -/
theorem enqueue_alarm (s s' : State) (t m k : Nat) (h : enqueue s t m = .ok (s', k)) :
    s'.timeout = s.timeout ∧ s'.timestamp = s.timestamp ∧ s'.cycbuf = s.cycbuf ∧
    (s'.atimeout = s.atimeout ∨ s'.atimeout = s.timeout ∨
      (s'.queuebrk ≠ 0 ∧ s'.atimeout = (s'.cotab 0).time ∧
        (s.timeout ≠ 0 → (s'.cotab 0).time < s.timeout))) := by
  unfold enqueue at h
  simp only [bind, Except.bind, pure, Except.pure] at h
  split at h
  · cases h
  · rename_i p hp
    obtain ⟨l', i'⟩ := p
    dsimp only at h
    split_ifs at h
    · split at h
      · cases h
      · rename_i s1 h1
        simp only [Except.ok.injEq, Prod.mk.injEq] at h
        obtain ⟨e1, e2⟩ := h
        subst e1
        obtain ⟨a1, a2, a3, a4⟩ := restart_zero_alarm _ _ h1
        obtain ⟨b1, b2, b3, b4, b5, b6⟩ := restart_ctlRegs _ _ _ h1
        refine ⟨a1, b1, b5, ?_⟩
        split_ifs at a4 with c
        · right; right
          simp only [Prod.mk.injEq] at a4
          refine ⟨by rw [a2]; exact c.1, by rw [a3]; exact a4.1, fun hne => ?_⟩
          rw [a3]
          rcases c.2 with c0 | c0
          · exact absurd c0 hne
          · exact c0
        · right; left
          simp only [Prod.mk.injEq] at a4
          exact a4.1
    · simp only [Except.ok.injEq, Prod.mk.injEq] at h
      obtain ⟨e1, e2⟩ := h
      subst e1
      exact ⟨rfl, rfl, rfl, Or.inl rfl⟩

/-- The admission of a callout to the heap, with a deadline second other
than 0, keeps the invariant of `timeout`: `timeout` and the buckets stay, and
the alarm is moved to an earlier deadline only. -/
theorem co_new_queue_timeoutInv {s s' : State} (hinv : TimeoutInv s)
    (handle oindex t m : Nat) (ht : t ≠ 0) (hq : s.queuebrk + 1 < UINDEX_MOD)
    (h : co_new s handle oindex t m none = .ok s') : TimeoutInv s' := by
  obtain ⟨p1, -, -, -, -, e, -, -, p3, p4⟩ := co_new_queue_perm s s' handle oindex t m h hq
  have hheap : ∀ x ∈ heapEntries s'.mem s'.queuebrk, x.time ≠ 0 := by
    intro x hx
    rw [p1] at hx
    rcases List.mem_cons.1 (p4.subset hx) with c | c
    · rw [c, p3]
      exact ht
    · exact hinv.heap x c
  unfold co_new at h
  simp only [bind, Except.bind, pure, Except.pure] at h
  cases he : enqueue s t (u16 m) with
  | error e =>
    rw [he] at h
    cases h
  | ok p =>
    obtain ⟨s1, k⟩ := p
    rw [he] at h
    simp only [Except.ok.injEq] at h
    obtain ⟨a1, a2, a3, a4⟩ := enqueue_alarm s s1 t (u16 m) k he
    have z1 : s'.timeout = s1.timeout := by rw [← h]
    have z2 : s'.timestamp = s1.timestamp := by rw [← h]
    have z3 : s'.cycbuf = s1.cycbuf := by rw [← h]
    have z4 : s'.atimeout = s1.atimeout := by rw [← h]
    have z5 : s'.queuebrk = s1.queuebrk := by rw [← h]
    have z6 : (s'.cotab 0).time = (s1.cotab 0).time := by
      rw [← h]
      show (setMem s1.mem k _ 1).time = (s1.mem 1).time
      unfold setMem
      split_ifs with c
      · rw [c]
      · rfl
    apply hinv.alarmed (z2.trans a2) (z1.trans a1) _ (fun k => by rw [z3, a3]) hheap
    intro hne
    rw [z1, a1] at hne
    rw [z4, z1, a1]
    rcases a4 with c | c | ⟨c1, c2, c3⟩
    · rw [c]
      exact hinv.alarm hne
    · rw [c]
      exact ⟨hne, le_refl _⟩
    · rw [c2, ← z6]
      have hroot : s'.cotab 0 ∈ heapEntries s'.mem s'.queuebrk :=
        mem_heapEntries.2 ⟨1, le_refl _, by rw [z5]; omega, rfl⟩
      have := c3 hne
      rw [← z6] at this
      exact ⟨hheap _ hroot, by omega⟩

/-- The admission check and the invariant of `timeout`: the state delivered
by `co_check` is the argument or the result of `co_time`, it satisfies the
invariant, and a deadline routed to a bucket is a second of the window
after `timestamp`; a deadline routed to the queue is not the second 0. -/
theorem co_check_timeoutInv {s s1 : State} (hinv : TimeoutInv s) (delay : Int)
    (mdelay c cms : Nat) (a : Admission) (hcap : s.cotabsz ≠ 0)
    (hd : -2147483648 ≤ delay ∧ delay < 2147483648) (hc1 : 1 ≤ c)
    (hc : c + 2 * CYCBUF_SIZE < UINT_MOD)
    (hck : co_check s 0 delay mdelay c cms = .ok (s1, a)) :
    TimeoutInv s1 ∧ (s1 = s ∨ s1 = (co_time s c cms).1) ∧
    ¬(u32 (s.queuebrk + s.nshort + 0) = s.cotabsz ∨ u32 (s.nshort + 0) = s.cotabsz - 1) ∧
    ((a.q = some .immediate ∧ a.t = 0) ∨
     (a.q = some (.cyc (cycIndex a.t)) ∧ s1.timestamp < a.t ∧
       a.t < s1.timestamp + CYCBUF_SIZE) ∨
     (a.q = none ∧ a.t ≠ 0)) := by
  have hstamp := hinv.stamp
  have hts : s.timestamp + CYCBUF_SIZE < UINT_MOD := by
    unfold CYCBUF_SIZE at *
    omega
  have hc' : c + CYCBUF_SIZE < UINT_MOD := by
    unfold CYCBUF_SIZE at *
    omega
  obtain ⟨h1, h2, h3, h4, h5⟩ := co_check_admit s s1 delay mdelay c cms a hcap hts hc1 hc' hck
  by_cases himm : delay = 0 ∧ (mdelay = 0 ∨ mdelay = 0xffff)
  · unfold co_check at hck
    rw [if_neg hcap, if_neg h1, if_pos himm] at hck
    simp only [Except.ok.injEq, Prod.mk.injEq] at hck
    obtain ⟨e1, e2⟩ := hck
    subst e1 e2
    exact ⟨hinv, Or.inl rfl, h1, Or.inl ⟨rfl, rfl⟩⟩
  · rw [co_check_delayed s 0 delay mdelay c cms hcap h1 himm] at hck
    dsimp only at hck
    by_cases hlong : u32 ((co_time s c cms).2.1 + (delay % (UINT_MOD : Int)).toNat + 1) ≤
        (co_time s c cms).2.1
    · rw [if_pos hlong] at hck
      cases hck
    · rw [if_neg hlong] at hck
      have e := Except.ok.inj hck
      have e1 : (co_time s c cms).1 = s1 := congrArg Prod.fst e
      have e2 := congrArg Prod.snd e
      dsimp only at e2
      subst e1
      refine ⟨hinv.clock c cms hc1 hc, Or.inr rfl, h1, ?_⟩
      rcases h5 with ⟨q1, q2, -⟩ | ⟨q1, q2, q3, -⟩ | ⟨q1, q2, -⟩
      · exact Or.inl ⟨q1, q2⟩
      · right; left
        have hu : u32 ((co_time s c cms).1.timestamp + CYCBUF_SIZE) =
            (co_time s c cms).1.timestamp + CYCBUF_SIZE := by
          unfold u32
          exact Nat.mod_eq_of_lt h4
        rw [hu] at q3
        refine ⟨q1, ?_, q3⟩
        -- routed to a bucket: a whole-second request with a delay other than 0
        have hm : mdelay = 0xffff := by
          by_contra hne
          have : a.q = none := by
            rw [← e2]
            simp only [hne, false_and, if_false]
          rw [this] at q1
          cases q1
        have hat : a.t = u32 ((co_time s c cms).2.1 + (delay % (UINT_MOD : Int)).toNat) := by
          rw [← e2]
          simp only [hm, ne_eq, not_true_eq_false, if_false]
        have hd0 : delay ≠ 0 := fun e0 => himm ⟨e0, Or.inr hm⟩
        obtain ⟨-, -, -, f4, f5⟩ := co_time_facts s c cms hts hc1 hc'
        have hge := co_time_now_ge s c cms hts hc'
        rw [hat]
        generalize (co_time s c cms).2.1 = now at *
        generalize (co_time s c cms).1.timestamp = ts at *
        have hdd : 1 ≤ (delay % (UINT_MOD : Int)).toNat ∧
            (delay % (UINT_MOD : Int)).toNat < UINT_MOD := by
          simp only [UINT_MOD]
          omega
        generalize (delay % (UINT_MOD : Int)).toNat = d at *
        simp only [u32, UINT_MOD] at hlong f5 hdd ⊢
        omega
      · exact Or.inr (Or.inr ⟨q1, q2⟩)

/-- The function `co_expire` for an alarm that did not fire keeps the
invariant of `timeout`: only the swap-rate registers are written. -/
theorem co_expire_idle_timeoutInv {s : State} (hinv : TimeoutInv s) (t m : Nat) :
    ∃ s', co_expire s false t m = .ok s' ∧ TimeoutInv s' := by
  refine ⟨swaprateLoop (t - s.swaptime) s t, by unfold co_expire; rfl, ?_⟩
  have hsw := swaprateLoop_swapEq (t - s.swaptime) s t
  obtain ⟨w1, -, -, -, -, -, w7, w8, -, -, w11⟩ := hsw.swap_fields
  obtain ⟨v1, v2, -⟩ := hsw.swap_alarm
  exact hinv.transfer w8 v1 v2 (fun k => by rw [w11]) (by rw [w1, w7]; exact hinv.heap)

/-- The function `co_expire` for an alarm that fired at `(t, m)`, with
`t` not before `timestamp`, keeps the invariant of `timeout`: the buckets of
the seconds up to `t` are emptied, `timestamp` is `t`, and `restart(t)` finds
the first bucket after it. -/
theorem co_expire_timeoutInv {s0 : State} {fl0 : List Nat} {ls0 : CbufRef → List Nat}
    (hw : Wheel s0 fl0 ls0) (hh : HeapInv s0) (hroom : s0.flist = 0 → s0.queuebrk < s0.cycbrk)
    (hinv : TimeoutInv s0) (t m : Nat) (ht : s0.timestamp ≤ t) (ht0 : t ≠ 0)
    (ht32 : t + 2 * CYCBUF_SIZE < UINT_MOD) :
    ∃ s', co_expire s0 true t m = .ok s' ∧ TimeoutInv s' := by
  obtain ⟨s2, s3, fl2, ls2, N, ds, hco, hres, ha, hw2, hh2, hts2, hx, -⟩ :=
    co_expire_parts hw hh hroom hinv.window t m ht (by omega)
  refine ⟨_, hco, ?_⟩
  have h3 : TimeoutInv s3 := by
    apply restart_timeoutInv s2 s3 t hres ht0 hw2.buckets_empty_iff
    · rw [hts2]
      exact ht32
    · rw [hts2]
      have := hx.past t ht (le_refl _)
      exact (hw2.chain (.cyc (cycIndex t)) (cycIndex_lt _)).head_eq_zero_iff.2 this
    · rw [hts2]
    · rw [hts2]
      unfold CYCBUF_SIZE
      omega
    · rw [hts2]
      intro sec u v
      omega
    · intro e he
      exact hinv.heap e (hx.heap e he)
  have hsw := swaprateLoop_swapEq (t - s3.swaptime) s3 t
  obtain ⟨w1, -, -, -, -, -, w7, w8, -, -, w11⟩ := hsw.swap_fields
  obtain ⟨v1, v2, -⟩ := hsw.swap_alarm
  exact h3.transfer w8 v1 v2 (fun k => by rw [w11]) (by rw [w1, w7]; exact h3.heap)

/-- The state set up by `co_init` satisfies the invariant of `timeout`. -/
theorem co_init_timeoutInv (mem0 : Nat → call_out) (max now : Nat) (s : State)
    (h : co_init mem0 max now = .ok s) : TimeoutInv s := by
  unfold co_init at h
  by_cases c : max ≠ 0 ∧ now >>> 24 ≤ 1
  · rw [if_pos c] at h
    cases h
  rw [if_neg c] at h
  simp only [Except.ok.injEq] at h
  subst h
  refine
    { stamp := by show 0 + 2 * CYCBUF_SIZE < UINT_MOD; decide
      window := rfl
      idle := ⟨fun _ _ _ => rfl, fun _ => rfl⟩
      first := fun h => absurd rfl h
      alarm := fun h => absurd rfl h
      heap := by
        intro e he
        obtain ⟨k, k1, k2, -⟩ := mem_heapEntries.1 he
        have : k ≤ 0 := k2
        omega }

/-- The scan of `restart` under the invariants: with a bucket that is not
empty, that is with `nshort ≠ nzero`, the scan from any second ends within
`CYCBUF_SIZE` tests, and from a second after `timestamp` up to `timeout` it
ends at `timeout`. -/
theorem nextBucket_timeout {s : State} {fl : List Nat} {ls : CbufRef → List Nat}
    (hw : Wheel s fl ls) (hinv : TimeoutInv s) :
    (s.nshort ≠ s.nzero → ∀ t, ∃ t', nextBucket CYCBUF_SIZE s.cycbuf t = .ok t') ∧
    (s.timeout ≠ 0 → ∀ t, s.timestamp < t → t ≤ s.timeout →
      nextBucket CYCBUF_SIZE s.cycbuf t = .ok s.timeout) := by
  constructor
  · intro hne t
    rcases hw.restart_ready 1 with h | h | ⟨k, hk, h⟩
    · cases h
    · exact absurd h hne
    · exact nextBucket_ok_of_nonempty s.cycbuf t k hk h
  · intro hto t h1 h2
    obtain ⟨f1, f2, f3, f4⟩ := hinv.first hto
    obtain ⟨t', ht'⟩ := nextBucket_ok_of_nonempty s.cycbuf t (cycIndex s.timeout)
      (cycIndex_lt _) f3
    have hstamp := hinv.stamp
    obtain ⟨g1, g2, g3, g4⟩ := nextBucket_first s.cycbuf CYCBUF_SIZE t t'
      (by unfold CYCBUF_SIZE at *; omega) ht'
    have e : t' = s.timeout := by
      rcases Nat.lt_trichotomy t' s.timeout with c | c | c
      · exact absurd (f4 t' (by omega) c) g3
      · exact c
      · exact absurd (g4 s.timeout h2 c) f3
    rw [ht', e]

/-- An admission, `co_check` with `n = 0` followed by `co_new`, keeps the
invariant of `timeout` in a state that satisfies the region invariant with
the heap below `cycbrk`. -/
theorem checkNew_timeoutInv {s s' : State} {fl : List Nat} {ls : CbufRef → List Nat}
    (hw : Wheel s fl ls) (hinv : TimeoutInv s) (hqb : s.queuebrk ≤ s.cycbrk)
    (handle oindex : Nat) (delay : Int) (mdelay c cms : Nat) (a : Admission)
    (hh : u16 handle ≠ 0) (hd : -2147483648 ≤ delay ∧ delay < 2147483648) (hc1 : 1 ≤ c)
    (hc : c + 2 * CYCBUF_SIZE < UINT_MOD)
    (h : checkNew s handle oindex delay mdelay c cms = .ok (s', a)) : TimeoutInv s' := by
  have hcap := hw.cap
  have hb1 := hw.brk_pos
  have hb2 := hw.brk_le
  have htot := hw.total
  unfold checkNew at h
  simp only [bind, Except.bind, pure, Except.pure] at h
  cases hck : co_check s 0 delay mdelay c cms with
  | error e =>
    rw [hck] at h
    cases h
  | ok p =>
    obtain ⟨s1, a1⟩ := p
    rw [hck] at h
    dsimp only at h
    cases hco : co_new s1 handle oindex a1.t a1.m a1.q with
    | error e =>
      rw [hco] at h
      cases h
    | ok s2 =>
      rw [hco] at h
      simp only [Except.ok.injEq, Prod.mk.injEq] at h
      obtain ⟨e1, e2⟩ := h
      subst e1 e2
      obtain ⟨k1, k2, k3, k4⟩ := co_check_timeoutInv hinv delay mdelay c cms a1
        (by omega) hd hc1 hc hck
      have hw1 : Wheel s1 fl ls := by
        rcases k2 with e | e
        · rw [e]; exact hw
        · rw [e]; exact co_time_wheel hw c cms
      have hf : s1.queuebrk = s.queuebrk ∧ s1.cycbrk = s.cycbrk ∧ s1.flist = s.flist := by
        rcases k2 with e | e
        · rw [e]
          exact ⟨rfl, rfl, rfl⟩
        · obtain ⟨-, -, g3, g4, g5, -⟩ := co_time_fields s c cms
          rw [e]
          exact ⟨g3, g4, g5⟩
      have hqb1 : s1.queuebrk ≤ s1.cycbrk := by rw [hf.1, hf.2.1]; exact hqb
      have hroom : s1.flist = 0 → s1.queuebrk < s1.cycbrk ∧ 2 ≤ s1.cycbrk := by
        rw [hf.1, hf.2.1, hf.2.2]
        intro h0
        have hfl : fl = [] := hw.free_chain.head_eq_zero_iff.1 h0
        rw [hfl, List.length_nil] at htot
        have n1 : u32 (s.queuebrk + s.nshort + 0) = s.queuebrk + s.nshort := by
          unfold u32 UINT_MOD
          unfold UINDEX_MOD at hcap
          omega
        have n2 : u32 (s.nshort + 0) = s.nshort := by
          unfold u32 UINT_MOD
          unfold UINDEX_MOD at hcap
          omega
        rw [n1, n2] at k3
        omega
      rcases k4 with ⟨q1, q2⟩ | ⟨q1, q2, q3⟩ | ⟨q1, q2⟩
      · rw [q1, q2] at hco
        obtain ⟨s3, h3, h4⟩ := co_new_immediate_timeoutInv hw1 k1 hqb1 hroom handle oindex
          a1.m hh
        rw [hco] at h3
        cases h3
        exact h4
      · rw [q1] at hco
        obtain ⟨s3, h3, h4⟩ := co_new_bucket_timeoutInv hw1 k1 hqb1 hroom handle oindex a1.t
          a1.m q2 q3 hh
        rw [hco] at h3
        cases h3
        exact h4
      · rw [q1] at hco
        exact co_new_queue_timeoutInv k1 handle oindex a1.t a1.m q2
          (by rw [hf.1]; unfold UINDEX_MOD at *; omega) hco

/-- The invariant of `timeout` under the region invariant of the cyclic
buffer, with the heap below `cycbrk`. The function `co_init` establishes it.
In a state that satisfies both, `timeout` is 0 exactly when every bucket is
empty, which is when `nshort` counts the immediate and the running list
only; otherwise `timeout` is a second with `timestamp < timeout <
timestamp + 128` whose bucket is not empty, and no earlier second of that
window has a bucket that is not empty. The scan of `restart` ends within
`CYCBUF_SIZE` tests whenever `restart` runs it (`nshort ≠ nzero`), and from
a second after `timestamp` up to `timeout` it ends at `timeout`. The invariant
is kept by an admission (when it returns), by `co_del` of a callout that
waits on the list its stored deadline addresses or in the heap, and by
`co_expire`, for an alarm that did not fire and for one that fired at a
second `t` not before `timestamp`. -/
theorem timeoutInv_kept :
    (∀ mem0 max now s, co_init mem0 max now = .ok s → TimeoutInv s) ∧
    ∀ s fl ls, Wheel s fl ls → TimeoutInv s → s.queuebrk ≤ s.cycbrk →
      ((s.timeout = 0 ↔ ∀ k, k < CYCBUF_SIZE → (s.cycbuf k).list = 0) ∧
        (s.timeout = 0 ↔
          s.nshort = (s.listOf .immediate).length + (s.listOf .running).length) ∧
        (s.timeout ≠ 0 →
          s.timestamp < s.timeout ∧ s.timeout < s.timestamp + CYCBUF_SIZE ∧
          (s.cycbuf (cycIndex s.timeout)).list ≠ 0 ∧
          ∀ sec, s.timestamp < sec → sec < s.timestamp + CYCBUF_SIZE →
            (s.cycbuf (cycIndex sec)).list ≠ 0 → s.timeout ≤ sec)) ∧
      ((s.nshort ≠ s.nzero → ∀ t, ∃ t', nextBucket CYCBUF_SIZE s.cycbuf t = .ok t') ∧
        (s.timeout ≠ 0 → ∀ t, s.timestamp < t → t ≤ s.timeout →
          nextBucket CYCBUF_SIZE s.cycbuf t = .ok s.timeout) ∧
        ∀ t, ∃ s', restart s t = .ok s') ∧
      (∀ (handle oindex : Nat) (delay : Int) (mdelay c cms : Nat) (a : Admission) (s' : State),
        u16 handle ≠ 0 → -2147483648 ≤ delay ∧ delay < 2147483648 → 1 ≤ c →
        c + 2 * CYCBUF_SIZE < UINT_MOD →
        checkNew s handle oindex delay mdelay c cms = .ok (s', a) → TimeoutInv s') ∧
      (∀ (dbg : Bool) (oindex handle stored : Nat) (r : CbufRef), stored >>> 24 ≠ 1 →
        ((u32 (stored + s.timediff) ≤ s.timestamp ∧
            (r = .immediate ∨ (r = .running ∧
              ∀ y ∈ ls .immediate, s.key y ≠ (u16 oindex, u16 handle)))) ∨
          (s.timestamp < u32 (stored + s.timediff) ∧
            u32 (stored + s.timediff) < u32 (s.timestamp + CYCBUF_SIZE) ∧
            r = .cyc (cycIndex (u32 (stored + s.timediff))))) →
        (∃ x ∈ ls r, s.key x = (u16 oindex, u16 handle)) →
        ∃ s', co_del dbg s oindex handle stored = .ok s' ∧ TimeoutInv s') ∧
      (∀ (dbg : Bool) (oindex handle stored k0 : Nat), (s.mem 0).time = 0 →
        (stored >>> 24 = 1 ∨
          (s.timestamp < u32 (stored + s.timediff) ∧
            ¬ u32 (stored + s.timediff) < u32 (s.timestamp + CYCBUF_SIZE))) →
        k0 < s.queuebrk →
        ((s.cotab k0).oindex = u16 oindex ∧ (s.cotab k0).handle = handle) →
        (∀ y, y < k0 → ¬ ((s.cotab y).oindex = u16 oindex ∧ (s.cotab y).handle = handle)) →
        ∃ s', co_del dbg s oindex handle stored = .ok s' ∧ TimeoutInv s') ∧
      (∀ t m, ∃ s', co_expire s false t m = .ok s' ∧ TimeoutInv s') ∧
      (HeapInv s → (s.flist = 0 → s.queuebrk < s.cycbrk) →
        ∀ t m, s.timestamp ≤ t → t ≠ 0 → t + 2 * CYCBUF_SIZE < UINT_MOD →
          ∃ s', co_expire s true t m = .ok s' ∧ TimeoutInv s') := by
  refine ⟨co_init_timeoutInv, ?_⟩
  intro s fl ls hw hinv hqb
  obtain ⟨sc1, sc2⟩ := nextBucket_timeout hw hinv
  refine ⟨⟨hinv.idle, ?_, ?_⟩, ⟨sc1, sc2, ?_⟩, ?_, ?_, ?_, ?_, ?_⟩
  · rw [hinv.idle, ← hw.buckets_empty_iff, hw.listOf .immediate trivial,
      hw.listOf .running trivial, ← hw.nzero]
  · intro hto
    obtain ⟨f1, f2, f3, f4⟩ := hinv.first hto
    refine ⟨f1, f2, f3, fun sec a b c => ?_⟩
    by_contra hlt
    exact c (f4 sec a (by omega))
  · intro t
    obtain ⟨s', h, -⟩ := restart_ok s t (hw.restart_ready t)
    exact ⟨s', h⟩
  · intro handle oindex delay mdelay c cms a s' hh hd hc1 hc h
    exact checkNew_timeoutInv hw hinv hqb handle oindex delay mdelay c cms a hh hd hc1 hc h
  · intro dbg oindex handle stored r hs hroute hex
    have hr : r.valid := by
      rcases hroute with ⟨_, h | ⟨h, _⟩⟩ | ⟨_, _, h⟩
      · rw [h]; trivial
      · rw [h]; trivial
      · rw [h]; exact cycIndex_lt _
    obtain ⟨x, hx, hk⟩ := hex
    obtain ⟨pre, y, post, hl, hy, hpre⟩ : ∃ pre y post, ls r = pre ++ y :: post ∧
        s.key y = (u16 oindex, u16 handle) ∧
        ∀ z ∈ pre, s.key z ≠ (u16 oindex, u16 handle) := by
      have hfind : ∀ (l : List Nat), (∃ x ∈ l, s.key x = (u16 oindex, u16 handle)) →
          ∃ pre y post, l = pre ++ y :: post ∧ s.key y = (u16 oindex, u16 handle) ∧
            ∀ z ∈ pre, s.key z ≠ (u16 oindex, u16 handle) := by
        intro l
        induction l with
        | nil =>
          rintro ⟨x, hx, -⟩
          cases hx
        | cons a l ih =>
          rintro ⟨x, hx, hk⟩
          by_cases ha : s.key a = (u16 oindex, u16 handle)
          · exact ⟨[], a, l, rfl, ha, fun z hz => by cases hz⟩
          · rcases List.mem_cons.1 hx with e | e
            · rw [e] at hk
              exact absurd hk ha
            · obtain ⟨pre, y, post, h1, h2, h3⟩ := ih ⟨x, e, hk⟩
              refine ⟨a :: pre, y, post, by rw [h1]; rfl, h2, fun z hz => ?_⟩
              rcases List.mem_cons.1 hz with e' | e'
              · rw [e']; exact ha
              · exact h3 z e'
      exact hfind (ls r) ⟨x, hx, hk⟩
    exact co_del_listed_timeoutInv hw hinv hqb dbg oindex handle stored hs hroute hl hpre hy
  · intro dbg oindex handle stored k0 hsent hpath hk0 hm hfirst
    obtain ⟨s', h1, h2, -⟩ := co_del_queued_timeoutInv hw hinv hqb hsent dbg oindex handle
      stored k0 hpath hk0 hm hfirst
    exact ⟨s', h1, h2⟩
  · intro t m
    exact co_expire_idle_timeoutInv hinv t m
  · intro hh hroom t m ht ht0 ht32
    exact co_expire_timeoutInv hw hh hroom hinv t m ht ht0 ht32

/-- **C32 fails on the code.** After `co_init(4)` three whole-second callouts
are admitted to the cyclic buffer: `(1, 1)` for the second 1000000001 in
slot 3, `(2, 2)` for 1000000003 in slot 2 and `(3, 3)` for 1000000002 in
slot 1 (`cycbrk = 1`). Cancelling `(1, 1)` puts slot 3 on the free list and
moves `timeout` to 1000000002. Two admissions to the queue pass `co_check`
(`queuebrk + nshort` is 2, then 3, not 4; `nshort = 2`, not 3), and the
second one, with deadline `(1000002000, 2)`, stores its heap entry in
`l[2] = cotab[1]`, the head of the bucket of the second 1000000002: the
`count` field of that head now reads 2. Up to here `timeout` is the first
second with a bucket that is not empty. The alarm fires at `(1000000002, 0)`:
`co_expire` moves the bucket to the immediate list and adds the count 2 to
`nzero`, so that `nshort = nzero = 2` and `restart` sets `timeout` to 0,
although the bucket of the second 1000000003 still holds the callout
`(2, 2)` in slot 2; the alarm is armed for the root of the heap, at
1000001000. -/
theorem timeout_zero_with_pending_bucket :
    ∃ s0 s1 s2 s3 s4 s5 s6 s7 a1 a2 a3 a5 a6,
      co_init zeroMem 4 1000000000 = .ok s0 ∧
      checkNew s0 1 1 1 0xffff 1000000000 0 = .ok (s1, a1) ∧
      checkNew s1 2 2 3 0xffff 1000000000 0 = .ok (s2, a2) ∧
      checkNew s2 3 3 2 0xffff 1000000000 0 = .ok (s3, a3) ∧
      (a1.q, a2.q, a3.q) = (some (CbufRef.cyc 1), some (CbufRef.cyc 3), some (CbufRef.cyc 2)) ∧
      (s3.cycbuf 1).list = 3 ∧ (s3.cycbuf 3).list = 2 ∧ (s3.cycbuf 2).list = 1 ∧
      (s3.cycbrk, s3.nshort, s3.timeout) = (1, 3, 1000000001) ∧
      co_del true s3 1 1 a1.stored = .ok s4 ∧
      (s4.flist, s4.cycbrk, s4.nshort, s4.queuebrk, s4.timeout) = (3, 1, 2, 0, 1000000002) ∧
      checkNew s4 4 4 1000 0xffff 1000000000 0 = .ok (s5, a5) ∧
      checkNew s5 5 5 2000 2 1000000000 0 = .ok (s6, a6) ∧
      a5.q = none ∧ a6.q = none ∧ (a6.t, a6.m) = (1000002000, 2) ∧
      (s6.cotabsz, s6.cycbrk, s6.queuebrk, s6.nshort, s6.nzero) = (4, 1, 2, 2, 0) ∧
      s6.cotab 1 = s6.mem 2 ∧ s6.cotab 1 = ⟨5, 5, 1000002000, 2⟩ ∧
      (s6.timestamp, s6.timeout, s6.atimeout) = (1000000000, 1000000002, 1000000002) ∧
      (s6.cycbuf (cycIndex 1000000001)).list = 0 ∧
      (s6.cycbuf (cycIndex 1000000002)).list = 1 ∧
      co_expire s6 true 1000000002 0 = .ok s7 ∧
      (s7.timestamp, s7.timeout, s7.atimeout) = (1000000002, 0, 1000001000) ∧
      (s7.nshort, s7.nzero) = (2, 2) ∧
      (s7.immediate.list, s7.immediate.last) = (1, 1) ∧
      (s7.cycbuf (cycIndex 1000000003)).list = 2 ∧ s7.key 2 = (2, 2) ∧
      ¬ (s7.timeout = 0 ↔ ∀ k, k < CYCBUF_SIZE → (s7.cycbuf k).list = 0) :=
  ⟨_, _, _, _, _, _, _, _, _, _, _, _, _, rfl, rfl, rfl, rfl, rfl, rfl, rfl, rfl, rfl, rfl, rfl,
    rfl, rfl, rfl, rfl, rfl, rfl, rfl, rfl, rfl, rfl, rfl, rfl, rfl, rfl, rfl, rfl, rfl,
    fun h => absurd (h.1 rfl 3 (by decide)) (by decide)⟩

end Dgd
